import Mathlib

/-!
celer/csg : BSP constructive solid geometry and QuickHull

A shallow embedding of the Go packages `csg` and `qhull`.

* `float64` is read as an arbitrary linearly ordered field `K` (exact
  arithmetic); `math.Sqrt` is a parameter `sqrt : K → K` of every function
  that reaches it.
* A `*Polygon` is an address into a heap of polygon cells (`Heap`); an address
  outside the heap is the nil pointer.  `Polygon.Flip` overwrites the cell, all
  other operations only read cells or allocate new ones.
  Each cell owns its vertex slice and its plane: no two polygons share a
  backing array or a `*Plane`.  Vertices and vectors are never written by the
  operations modelled, so they are values.
* A panic or a computation that exhausts its fuel is an `Except.error`.
-/

namespace Csg

/-! ## vector.go -/

/-- Source `Vector` (vector.go): three coordinates. -/
structure Vector (K : Type) where
  X : K
  Y : K
  Z : K
deriving DecidableEq, Repr

variable {K : Type} [LinearOrderedField K]

/-- Source `Vector.Clone`. -/
def Vector.Clone (v : Vector K) : Vector K := ⟨v.X, v.Y, v.Z⟩

/-- Source `Vector.Negated`. -/
def Vector.Negated (v : Vector K) : Vector K := ⟨-v.X, -v.Y, -v.Z⟩

/-- Source `Vector.Plus`. -/
def Vector.Plus (v a : Vector K) : Vector K := ⟨v.X + a.X, v.Y + a.Y, v.Z + a.Z⟩

/-- Source `Vector.Minus`. -/
def Vector.Minus (v a : Vector K) : Vector K := ⟨v.X - a.X, v.Y - a.Y, v.Z - a.Z⟩

/-- Source `Vector.Times`. -/
def Vector.Times (v : Vector K) (a : K) : Vector K := ⟨v.X * a, v.Y * a, v.Z * a⟩

/-- Source `Vector.DividedBy`. -/
def Vector.DividedBy (v : Vector K) (a : K) : Vector K := ⟨v.X / a, v.Y / a, v.Z / a⟩

/-- Source `Vector.Dot`. -/
def Vector.Dot (v a : Vector K) : K := v.X * a.X + v.Y * a.Y + v.Z * a.Z

/-- Source `Vector.Lerp`: `v.Plus(a.Minus(v).Times(t))`. -/
def Vector.Lerp (v a : Vector K) (t : K) : Vector K := v.Plus ((a.Minus v).Times t)

/-- Source `Vector.Length`: `math.Sqrt(v.Dot(v))`. -/
def Vector.Length (sqrt : K → K) (v : Vector K) : K := sqrt (v.Dot v)

/-- Source `Vector.Unit`: `v.DividedBy(v.Length())`. -/
def Vector.Unit (sqrt : K → K) (v : Vector K) : Vector K := v.DividedBy (v.Length sqrt)

/-- Source `Vector.Cross`. -/
def Vector.Cross (v a : Vector K) : Vector K :=
  ⟨v.Y * a.Z - v.Z * a.Y, v.Z * a.X - v.X * a.Z, v.X * a.Y - v.Y * a.X⟩

/-- Source `Vector.Max`: componentwise, keeps the receiver unless `m` is larger. -/
def Vector.Max (v m : Vector K) : Vector K :=
  ⟨if m.X > v.X then m.X else v.X, if m.Y > v.Y then m.Y else v.Y,
   if m.Z > v.Z then m.Z else v.Z⟩

/-- Source `Vector.Min`: componentwise, keeps the receiver unless `m` is smaller. -/
def Vector.Min (v m : Vector K) : Vector K :=
  ⟨if m.X < v.X then m.X else v.X, if m.Y < v.Y then m.Y else v.Y,
   if m.Z < v.Z then m.Z else v.Z⟩

/-! ## plane.go -/

/-- Source constant `EPSILON = 1e-5`. -/
def EPSILON : K := 1 / 100000

/-- Source `COPLANAR PlaneRelationship = 0`. -/
def COPLANAR : Nat := 0
/-- Source `FRONT = 1`. -/
def FRONT : Nat := 1
/-- Source `BACK = 2`. -/
def BACK : Nat := 2
/-- Source `SPANNING = 3`. -/
def SPANNING : Nat := 3

/-- Source `Plane` (plane.go). -/
structure Plane (K : Type) where
  Normal : Vector K
  W : K
deriving DecidableEq, Repr

/-- Source `NewPlaneFromPoints` / `Plane.SetFromPoints`. -/
def NewPlaneFromPoints (sqrt : K → K) (a b c : Vector K) : Plane K :=
  let n := ((b.Minus a).Cross (c.Minus a)).Unit sqrt
  ⟨n, n.Dot a⟩

/-- Source `Plane.Clone`. -/
def Plane.Clone (p : Plane K) : Plane K := ⟨p.Normal.Clone, p.W⟩

/-- Source `Plane.Flip`. -/
def Plane.Flip (p : Plane K) : Plane K := ⟨p.Normal.Negated, -p.W⟩

/-- Source `Plane.DistanceToPlane`. -/
def Plane.DistanceToPlane (p : Plane K) (v : Vector K) : K := p.Normal.Dot v - p.W

/-! ## vertex.go -/

/-- Source `Vertex` (vertex.go). -/
structure Vertex (K : Type) where
  Position : Vector K
  Normal : Vector K
deriving DecidableEq, Repr

/-- Source `Vertex.Clone`. -/
def Vertex.Clone (v : Vertex K) : Vertex K := ⟨v.Position.Clone, v.Normal.Clone⟩

/-- Source `Vertex.Interpolate`. -/
def Vertex.Interpolate (v other : Vertex K) (t : K) : Vertex K :=
  ⟨v.Position.Lerp other.Position t, v.Normal.Lerp other.Normal t⟩

/-- A zero vertex, the value read at an index outside a list. -/
def Vertex.zero : Vertex K := ⟨⟨0, 0, 0⟩, ⟨0, 0, 0⟩⟩

/-! ## polygon.go -/

/-- Source `Polygon` (polygon.go): the content of one polygon cell. -/
structure Polygon (K : Type) where
  Vertices : List (Vertex K)
  Plane : Plane K
deriving DecidableEq, Repr

/-- Source `NewPolygonFromVertices`; indexing `vertices[0..2]` panics on fewer
than three vertices (`none`). -/
def NewPolygonFromVertices (sqrt : K → K) (vertices : List (Vertex K)) : Option (Polygon K) :=
  match vertices with
  | v0 :: v1 :: v2 :: _ =>
    some ⟨vertices, NewPlaneFromPoints sqrt v0.Position v1.Position v2.Position⟩
  | _ => none

/-- Source `Polygon.Flip`: reverses the vertex order (the in-place swap loop)
and flips the plane. -/
def Polygon.Flip (p : Polygon K) : Polygon K := ⟨p.Vertices.reverse, p.Plane.Flip⟩

/-! ## The polygon heap -/

/-- A `*Polygon`. -/
abbrev Ptr := Nat

/-- The polygon cells allocated so far; cell `i` is the polygon at address `i`. -/
abbrev Heap (K : Type) := List (Polygon K)

/-- How a run can fail. -/
inductive Err where
  | nilDeref
  | indexOutOfRange
  | outOfFuel
deriving DecidableEq, Repr

/-! ## polygonsplitter.go -/

/-- The four output slices of `SplitPolygons`. -/
inductive Side where
  | coplanarFront
  | coplanarBack
  | front
  | back
deriving DecidableEq, Repr

/-- Source lines 28-36: the type of one vertex against the plane. -/
def vertexType (plane : Plane K) (v : Vertex K) : Nat :=
  let t := plane.Normal.Dot v.Position - plane.W
  if t < -EPSILON then BACK else if t > EPSILON then FRONT else COPLANAR

/-- Source lines 26-39: the `types` slice of a polygon. -/
def vertexTypes (plane : Plane K) (polygon : Polygon K) : List Nat :=
  polygon.Vertices.map (vertexType plane)

/-- Source lines 24-39: `polygonType |= pType` over the vertices. -/
def polygonType (plane : Plane K) (polygon : Polygon K) : Nat :=
  (vertexTypes plane polygon).foldl (fun acc t => acc ||| t) COPLANAR

/-- Source lines 59-83, one iteration of the edge loop of the SPANNING case:
appends to `f` and `b`. -/
def spanningStep (plane : Plane K) (vertices : List (Vertex K)) (types : List Nat)
    (fb : List (Vertex K) × List (Vertex K)) (i : Nat) : List (Vertex K) × List (Vertex K) :=
  let j := (i + 1) % vertices.length
  let ti := types.getD i COPLANAR
  let tj := types.getD j COPLANAR
  let vi := vertices.getD i Vertex.zero
  let vj := vertices.getD j Vertex.zero
  let f := if ti ≠ BACK then fb.1 ++ [vi] else fb.1
  let b := if ti ≠ FRONT then
      (if ti ≠ BACK then fb.2 ++ [vi.Clone] else fb.2 ++ [vi])
    else fb.2
  if (ti ||| tj) = SPANNING then
    let t := (plane.W - plane.Normal.Dot vi.Position) /
      plane.Normal.Dot (vj.Position.Minus vi.Position)
    let v := vi.Interpolate vj t
    (f ++ [v], b ++ [v.Clone])
  else (f, b)

/-- Source lines 56-83: the vertex lists `f` and `b` of a SPANNING polygon. -/
def spanningLists (plane : Plane K) (polygon : Polygon K) : List (Vertex K) × List (Vertex K) :=
  (List.range polygon.Vertices.length).foldl
    (spanningStep plane polygon.Vertices (vertexTypes plane polygon)) ([], [])

/-- Source `BasicPolygonSplitter.SplitPolygons`.  The four output slices are
pointers the caller may alias, so the caller's outputs are a state `σ` and
`emit s p` is the append of `p` to the slice passed for side `s`. -/
def SplitPolygons {σ : Type} (sqrt : K → K) (plane : Plane K) (emit : Side → Ptr → σ → σ) :
    List Ptr → Heap K → σ → Except Err (Heap K × σ)
  | [], h, out => .ok (h, out)
  | p :: rest, h, out =>
    match h[p]? with
    | none => .error .nilDeref
    | some polygon =>
      let ty := polygonType plane polygon
      if ty = COPLANAR then
        if plane.Normal.Dot polygon.Plane.Normal > 0 then
          SplitPolygons sqrt plane emit rest h (emit .coplanarFront p out)
        else
          SplitPolygons sqrt plane emit rest h (emit .coplanarBack p out)
      else if ty = FRONT then
        SplitPolygons sqrt plane emit rest h (emit .front p out)
      else if ty = BACK then
        SplitPolygons sqrt plane emit rest h (emit .back p out)
      else if ty = SPANNING then
        let fb := spanningLists plane polygon
        let r1 : Except Err (Heap K × σ) :=
          if fb.1.length ≥ 3 then
            match NewPolygonFromVertices sqrt fb.1 with
            | none => .error .indexOutOfRange
            | some q => .ok (h ++ [q], emit .front h.length out)
          else .ok (h, out)
        match r1 with
        | .error e => .error e
        | .ok (h1, out1) =>
          let r2 : Except Err (Heap K × σ) :=
            if fb.2.length ≥ 3 then
              match NewPolygonFromVertices sqrt fb.2 with
              | none => .error .indexOutOfRange
              | some q => .ok (h1 ++ [q], emit .back h1.length out1)
            else .ok (h1, out1)
          match r2 with
          | .error e => .error e
          | .ok (h2, out2) => SplitPolygons sqrt plane emit rest h2 out2
      else
        SplitPolygons sqrt plane emit rest h out

/-- Four separate output slices, for a caller that passes four distinct ones. -/
structure Outs where
  coplanarFront : List Ptr
  coplanarBack : List Ptr
  front : List Ptr
  back : List Ptr
deriving DecidableEq, Repr

/-- The append to one of four distinct output slices. -/
def Outs.emit : Side → Ptr → Outs → Outs
  | .coplanarFront, p, o => { o with coplanarFront := o.coplanarFront ++ [p] }
  | .coplanarBack, p, o => { o with coplanarBack := o.coplanarBack ++ [p] }
  | .front, p, o => { o with front := o.front ++ [p] }
  | .back, p, o => { o with back := o.back ++ [p] }

deriving instance DecidableEq for Except

/-! ## node.go -/

/-- Source `Node` (node.go).  `nil` is the nil `*Node`; `plane = none` is a nil
`*Plane`.  The node owns its plane (a clone of a polygon's plane). -/
inductive Node (K : Type) where
  | nil : Node K
  | mk (plane : Option (Plane K)) (front back : Node K) (polygons : List Ptr) : Node K
deriving DecidableEq, Repr

/-- The empty node `&Node{}`. -/
def Node.empty : Node K := .mk none .nil .nil []

/-- Whether the pointer is nil. -/
def Node.isNil : Node K → Bool
  | .nil => true
  | .mk _ _ _ _ => false

/-- The planes of the nodes of a tree. -/
def Node.planes : Node K → List (Plane K)
  | .nil => []
  | .mk plane front back _ => plane.toList ++ front.planes ++ back.planes

/-- Every node of the tree has a plane, as in every tree `Build` makes from a
non-empty list (a child is only created for a non-empty list, and `build` then
gives it a plane). -/
def Node.allPlanes : Node K → Bool
  | .nil => true
  | .mk plane front back _ => plane.isSome && front.allPlanes && back.allPlanes

/-- Source `getPolygonSplitter` picks the multi-core splitter above 1000
polygons; it hands batches to the basic splitter and differs from it only in
the order of the appends, which depends on scheduling.  The model runs the
basic splitter. -/
def clipEmit : Side → Ptr → List Ptr × List Ptr → List Ptr × List Ptr
  | .coplanarFront, p, (front, back) => (front ++ [p], back)
  | .coplanarBack, p, (front, back) => (front, back ++ [p])
  | .front, p, (front, back) => (front ++ [p], back)
  | .back, p, (front, back) => (front, back ++ [p])

/-- Source `Node.clipPolygons`, called with
`SplitPolygons(n.plane, polygons, &front, &back, &front, &back)`.  The nil case
is the caller's `if n.front != nil` guard: the list stays as it is. -/
def Node.clipPolygons (sqrt : K → K) : Node K → Heap K → List Ptr → Except Err (Heap K × List Ptr)
  | .nil, h, polygons => .ok (h, polygons)
  | .mk none _ _ _, h, polygons => .ok (h, polygons)
  | .mk (some plane) front back _, h, polygons =>
    match SplitPolygons sqrt plane clipEmit polygons h ([], []) with
    | .error e => .error e
    | .ok (h1, (fr, bk)) =>
      match Node.clipPolygons sqrt front h1 fr with
      | .error e => .error e
      | .ok (h2, fr2) =>
        if back.isNil then .ok (h2, fr2)
        else
          match Node.clipPolygons sqrt back h2 bk with
          | .error e => .error e
          | .ok (h3, bk2) => .ok (h3, fr2 ++ bk2)

/-- The polygon at `q` exists and each of its vertices has signed distance at
least `-EPSILON` from one of the planes. -/
def OutsideSome (planes : List (Plane K)) (h : Heap K) (q : Ptr) : Prop :=
  ∃ poly, h[q]? = some poly ∧
    ∀ v ∈ poly.Vertices, ∃ pl ∈ planes, pl.DistanceToPlane v.Position ≥ -EPSILON

/-- What `clipPolygons` keeps true of its two lists while it splits. -/
def ClipInv (plane : Plane K) (h : Heap K) (out : List Ptr × List Ptr) : Prop :=
  (∀ q ∈ out.1, OutsideSome [plane] h q) ∧ (∀ q ∈ out.2, q < h.length)

/-- Source `Node.ClipPolygons`. -/
def Node.ClipPolygons (sqrt : K → K) (n : Node K) (h : Heap K) (polygons : List Ptr) :
    Except Err (Heap K × List Ptr) :=
  n.clipPolygons sqrt h polygons

/-- Source `Node.ClipTo`; the nil case is the caller's nil guard. -/
def Node.ClipTo (sqrt : K → K) (bsp : Node K) : Node K → Heap K → Except Err (Heap K × Node K)
  | .nil, h => .ok (h, .nil)
  | .mk plane front back polygons, h =>
    match bsp.ClipPolygons sqrt h polygons with
    | .error e => .error e
    | .ok (h1, polygons1) =>
      match Node.ClipTo sqrt bsp front h1 with
      | .error e => .error e
      | .ok (h2, front1) =>
        match Node.ClipTo sqrt bsp back h2 with
        | .error e => .error e
        | .ok (h3, back1) => .ok (h3, .mk plane front1 back1 polygons1)

/-- Source `Node.AllPolygons`: the node's polygons, then the front subtree's,
then the back subtree's. -/
def Node.AllPolygons : Node K → List Ptr
  | .nil => []
  | .mk _ front back polygons => polygons ++ front.AllPolygons ++ back.AllPolygons

/-- The loop `for _, p := range polygons { p.Flip() }`: each cell is
overwritten in place; a nil polygon panics. -/
def flipAll : List Ptr → Heap K → Except Err (Heap K)
  | [], h => .ok h
  | p :: rest, h =>
    match h[p]? with
    | none => .error .nilDeref
    | some polygon => flipAll rest (h.set p polygon.Flip)

/-- One `p.Flip()`: the cell at `p` overwritten by its flip (nothing to do at
an address outside the heap). -/
def flipCell (p : Ptr) (h : Heap K) : Heap K :=
  match h[p]? with
  | none => h
  | some polygon => h.set p polygon.Flip

/-- Source `Node.Invert`; `n.plane.Flip()` on a nil plane panics.  The nil
case is the caller's nil guard. -/
def Node.Invert : Node K → Heap K → Except Err (Heap K × Node K)
  | .nil, h => .ok (h, .nil)
  | .mk plane front back polygons, h =>
    match flipAll polygons h with
    | .error e => .error e
    | .ok h1 =>
      match plane with
      | none => .error .nilDeref
      | some pl =>
        match Node.Invert front h1 with
        | .error e => .error e
        | .ok (h2, front1) =>
          match Node.Invert back h2 with
          | .error e => .error e
          | .ok (h3, back1) => .ok (h3, .mk (some pl.Flip) back1 front1 polygons)

/-- The outputs of the split inside `build`: `n.polygons`, `front`, `back`. -/
structure BuildOut where
  polygons : List Ptr
  front : List Ptr
  back : List Ptr
deriving DecidableEq, Repr

/-- The routing `SplitPolygons(n.plane, polygons, &n.polygons, &n.polygons,
&front, &back)` of `build`. -/
def buildEmit : Side → Ptr → BuildOut → BuildOut
  | .coplanarFront, p, o => { o with polygons := o.polygons ++ [p] }
  | .coplanarBack, p, o => { o with polygons := o.polygons ++ [p] }
  | .front, p, o => { o with front := o.front ++ [p] }
  | .back, p, o => { o with back := o.back ++ [p] }

/-- Source `Node.build` / `Node.Build`.  The recursion need not end, so it is
bounded by `fuel` (the depth of calls still allowed). -/
def Node.Build (sqrt : K → K) : Nat → Node K → Heap K → List Ptr → Except Err (Heap K × Node K)
  | _, n, h, [] => .ok (h, n)
  | 0, _, _, _ :: _ => .error .outOfFuel
  | _ + 1, .nil, _, _ :: _ => .error .nilDeref
  | fuel + 1, .mk plane front back polys, h, p0 :: rest =>
    let plane1 : Except Err (Plane K) :=
      match plane with
      | some pl => .ok pl
      | none =>
        match h[p0]? with
        | none => .error .nilDeref
        | some polygon0 => .ok polygon0.Plane.Clone
    match plane1 with
    | .error e => .error e
    | .ok pl =>
      match SplitPolygons sqrt pl buildEmit (p0 :: rest) h ⟨polys, [], []⟩ with
      | .error e => .error e
      | .ok (h1, out) =>
        let rf : Except Err (Heap K × Node K) :=
          if out.front.length > 0 then
            Node.Build sqrt fuel (if front.isNil then Node.empty else front) h1 out.front
          else .ok (h1, front)
        match rf with
        | .error e => .error e
        | .ok (h2, front1) =>
          let rb : Except Err (Heap K × Node K) :=
            if out.back.length > 0 then
              Node.Build sqrt fuel (if back.isNil then Node.empty else back) h2 out.back
            else .ok (h2, back)
          match rb with
          | .error e => .error e
          | .ok (h3, back1) => .ok (h3, .mk (some pl) front1 back1 out.polygons)

/-- Source `NewNodeFromPolygons`. -/
def NewNodeFromPolygons (sqrt : K → K) (fuel : Nat) (h : Heap K) (p : List Ptr) :
    Except Err (Heap K × Node K) :=
  Node.Build sqrt fuel Node.empty h p

/-! ## box.go -/

/-- Source `Box` (box.go). -/
structure Box (K : Type) where
  Min : Vector K
  Max : Vector K
deriving DecidableEq, Repr

/-- The zero value `&Box{}`. -/
def Box.zero : Box K := ⟨⟨0, 0, 0⟩, ⟨0, 0, 0⟩⟩

/-- Source `Box.AddPolygon`. -/
def Box.AddPolygon (b : Box K) (p : Polygon K) : Box K :=
  p.Vertices.foldl (fun b v => ⟨b.Min.Min v.Position, b.Max.Max v.Position⟩) b

/-! ## csg.go -/

/-- Source `CSG` (csg.go): a slice of polygon pointers. -/
structure CSG where
  polygons : List Ptr
deriving DecidableEq, Repr

/-- Source `NewCSGFromPolygons`. -/
def NewCSGFromPolygons (polygons : List Ptr) : CSG := ⟨polygons⟩

/-- Source `CSG.Clone`: a new slice holding the same pointers. -/
def CSG.Clone (c : CSG) : CSG := ⟨[] ++ c.polygons⟩

/-- Source `CSG.ToPolygons`. -/
def CSG.ToPolygons (c : CSG) : List Ptr := c.polygons

/-- Source `CSG.BoundingBox`; reading a nil polygon panics. -/
def CSG.BoundingBox (c : CSG) (h : Heap K) : Except Err (Box K) :=
  c.polygons.foldl
    (fun acc p =>
      match acc with
      | .error e => .error e
      | .ok b =>
        match h[p]? with
        | none => .error .nilDeref
        | some polygon => .ok (b.AddPolygon polygon))
    (.ok Box.zero)

/-- One step of `Box.AddPolygon`: the box grown to include a vertex. -/
def Box.AddVertex (b : Box K) (v : Vertex K) : Box K :=
  ⟨b.Min.Min v.Position, b.Max.Max v.Position⟩

/-- The vertices of the allocated polygons of a list, in order. -/
def allVertices (h : Heap K) (l : List Ptr) : List (Vertex K) :=
  (l.map fun p => match h[p]? with
    | some P => P.Vertices
    | none => []).flatten

/-- Sequencing of two heap-passing steps on a pair of trees. -/
def andThen {α β : Type} (r : Except Err α) (f : α → Except Err β) : Except Err β :=
  match r with
  | .error e => .error e
  | .ok a => f a

/-- Source `CSG.Union`. -/
def CSG.Union (sqrt : K → K) (fuel : Nat) (c csg : CSG) (h : Heap K) : Except Err (Heap K × CSG) :=
  andThen (NewNodeFromPolygons sqrt fuel h c.Clone.polygons) fun (h, a) =>
  andThen (NewNodeFromPolygons sqrt fuel h csg.Clone.polygons) fun (h, b) =>
  andThen (Node.ClipTo sqrt b a h) fun (h, a) =>
  andThen (Node.ClipTo sqrt a b h) fun (h, b) =>
  andThen (Node.Invert b h) fun (h, b) =>
  andThen (Node.ClipTo sqrt a b h) fun (h, b) =>
  andThen (Node.Invert b h) fun (h, b) =>
  andThen (Node.Build sqrt fuel a h b.AllPolygons) fun (h, a) =>
  .ok (h, NewCSGFromPolygons a.AllPolygons)

/-- Source `CSG.Subtract`. -/
def CSG.Subtract (sqrt : K → K) (fuel : Nat) (c csg : CSG) (h : Heap K) :
    Except Err (Heap K × CSG) :=
  andThen (NewNodeFromPolygons sqrt fuel h c.Clone.polygons) fun (h, a) =>
  andThen (NewNodeFromPolygons sqrt fuel h csg.Clone.polygons) fun (h, b) =>
  andThen (Node.Invert a h) fun (h, a) =>
  andThen (Node.ClipTo sqrt b a h) fun (h, a) =>
  andThen (Node.ClipTo sqrt a b h) fun (h, b) =>
  andThen (Node.Invert b h) fun (h, b) =>
  andThen (Node.ClipTo sqrt a b h) fun (h, b) =>
  andThen (Node.Invert b h) fun (h, b) =>
  andThen (Node.Build sqrt fuel a h b.AllPolygons) fun (h, a) =>
  andThen (Node.Invert a h) fun (h, a) =>
  .ok (h, NewCSGFromPolygons a.AllPolygons)

/-- Source `CSG.Intersect`. -/
def CSG.Intersect (sqrt : K → K) (fuel : Nat) (c csg : CSG) (h : Heap K) :
    Except Err (Heap K × CSG) :=
  andThen (NewNodeFromPolygons sqrt fuel h c.Clone.polygons) fun (h, a) =>
  andThen (NewNodeFromPolygons sqrt fuel h csg.Clone.polygons) fun (h, b) =>
  andThen (Node.Invert a h) fun (h, a) =>
  andThen (Node.ClipTo sqrt a b h) fun (h, b) =>
  andThen (Node.Invert b h) fun (h, b) =>
  andThen (Node.ClipTo sqrt b a h) fun (h, a) =>
  andThen (Node.ClipTo sqrt a b h) fun (h, b) =>
  andThen (Node.Build sqrt fuel a h b.AllPolygons) fun (h, a) =>
  andThen (Node.Invert a h) fun (h, a) =>
  .ok (h, NewCSGFromPolygons a.AllPolygons)

/-- Source `CSG.Inverse`: clones the slice, then flips every polygon it holds in
place. -/
def CSG.Inverse (c : CSG) (h : Heap K) : Except Err (Heap K × CSG) :=
  let csg := c.Clone
  andThen (flipAll csg.polygons h) fun h => .ok (h, csg)

/-! ## Operands no plane cuts -/

/-- The polygon at `p` is allocated, all its vertices are COPLANAR with its own
plane, and that plane has a non-zero normal. -/
def ownPlane (h : Heap K) (p : Ptr) : Bool :=
  match h[p]? with
  | some P => polygonType P.Plane P == COPLANAR && decide (0 < P.Plane.Normal.Dot P.Plane.Normal)
  | none => false

/-- The polygon at `q` is classified FRONT against the plane of the polygon at
`p`. -/
def frontOf (h : Heap K) (p q : Ptr) : Bool :=
  match h[p]?, h[q]? with
  | some P, some Q => polygonType P.Plane Q == FRONT
  | _, _ => false

/-- No plane of the list cuts or drops a polygon of the list: every polygon
lies in its own plane and is FRONT of the plane of every other one. -/
def Separated (h : Heap K) (l : List Ptr) : Prop :=
  (∀ p ∈ l, ownPlane h p = true) ∧
    l.Pairwise (fun p q => frontOf h p q = true ∧ frontOf h q p = true)

instance (h : Heap K) (l : List Ptr) : Decidable (Separated h l) := by
  unfold Separated
  infer_instance

/-- The tree `Build` makes of such a list: a chain of front children, one node
for each polygon, with that polygon's plane. -/
def frontChain (h : Heap K) : List Ptr → Node K
  | [] => .nil
  | p :: rest => .mk ((h[p]?).map fun P => P.Plane) (frontChain h rest) .nil [p]

/-- The chain after `Invert`: planes flipped, front and back exchanged. -/
def backChain (h : Heap K) : List Ptr → Node K
  | [] => .nil
  | p :: rest => .mk ((h[p]?).map fun P => P.Plane.Flip) .nil (backChain h rest) [p]

/-! ## Concrete inputs over ℚ -/

/-- Newton iteration for the integer square root, `fuel` steps from `x`. -/
def isqrtAux : Nat → Nat → Nat → Nat
  | 0, _, x => x
  | fuel + 1, n, x =>
    let y := (x + n / x) / 2
    if y < x then isqrtAux fuel n y else x

/-- The integer square root (rounded down) of a number below `2 ^ 500`. -/
def isqrt (n : Nat) : Nat := isqrtAux 512 n n

/-- A square root on ℚ for running the model on concrete inputs: exact on the
square of a rational, otherwise rounded down to a relative precision of about
`10⁻²⁰`; `0` on negative numbers. -/
def ratSqrt (q : ℚ) : ℚ :=
  if q.num ≤ 0 then 0
  else (isqrt (q.num.toNat * q.den * 10 ^ 40) : ℚ) / ((q.den : ℚ) * 10 ^ 20)

/-- The plane `z = 0` facing `+z`. -/
def planeZ : Plane ℚ := ⟨⟨0, 0, 1⟩, 0⟩

/-- A vertex at `(x, y, z)` with normal `+z`. -/
def vtx (x y z : ℚ) : Vertex ℚ := ⟨⟨x, y, z⟩, ⟨0, 0, 1⟩⟩

/-- A triangle in the plane `z = 0`, facing `+z`. -/
def triSmall : Polygon ℚ := ⟨[vtx 0 0 0, vtx 1 0 0, vtx 0 1 0], planeZ⟩

/-- A larger triangle in the same plane, facing the same way. -/
def triBig : Polygon ℚ := ⟨[vtx 0 0 0, vtx 5 0 0, vtx 0 5 0], planeZ⟩

/-- A triangle crossing the plane `z = 0`: one vertex below, two above. -/
def triCross : Polygon ℚ :=
  ⟨[vtx 0 0 (-1), vtx 1 0 1, vtx 0 1 1], ⟨⟨-2 / 3, -2 / 3, 1 / 3⟩, -1 / 3⟩⟩

/-- A triangle lying exactly `EPSILON` below the plane `z = 0`, facing `+z`. -/
def triBelow : Polygon ℚ :=
  ⟨[vtx 0 0 (-1 / 100000), vtx 1 0 (-1 / 100000), vtx 0 1 (-1 / 100000)],
    ⟨⟨0, 0, 1⟩, -1 / 100000⟩⟩

/-- A triangle in the plane `z = 0` away from the `x = 0` plane, facing `+z`. -/
def triFloor : Polygon ℚ := ⟨[vtx 1 0 0, vtx 2 0 0, vtx 1 1 0], planeZ⟩

/-- A triangle in the plane `x = 0` above the `z = 0` plane, facing `+x`. -/
def triWall : Polygon ℚ := ⟨[vtx 0 0 1, vtx 0 1 1, vtx 0 0 2], ⟨⟨1, 0, 0⟩, 0⟩⟩

/-- The one-node tree `NewNodeFromPolygons` builds from `triSmall` at address 0. -/
def nodeSmall : Node ℚ := .mk (some planeZ) .nil .nil [0]

/-- The one-node tree `NewNodeFromPolygons` builds from `triBelow` at address 1. -/
def nodeBelow : Node ℚ := .mk (some triBelow.Plane) .nil .nil [1]

end Csg

namespace Csg

variable {K : Type} [LinearOrderedField K]

/-! ## polygon.go : triangulation -/

/-- Source `NewTriangle`. -/
def NewTriangle (a b c : Vertex K) (plane : Plane K) : Polygon K := ⟨[a, b, c], plane⟩

/-- Source `triangulate`: the branches on `l = len(vertices)`; in the last one
`tl` is `vertices[2:]` and `tl.getLast` is `vertices[l-1]`. -/
def triangulate : List (Vertex K) → Plane K → List (Polygon K)
  | [v0, v1, v2], plane => [NewTriangle v0 v1 v2 plane]
  | [v0, v1, v2, v3], plane => [NewTriangle v0 v1 v2 plane, NewTriangle v0 v2 v3 plane]
  | [v0, v1, v2, v3, v4], plane =>
    [NewTriangle v0 v1 v2 plane, NewTriangle v0 v2 v4 plane, NewTriangle v2 v3 v4 plane]
  | [v0, v1, v2, v3, v4, v5], plane =>
    [NewTriangle v0 v1 v2 plane, NewTriangle v2 v3 v4 plane, NewTriangle v5 v2 v4 plane,
      NewTriangle v0 v2 v5 plane]
  | v0 :: v1 :: v2 :: v3 :: v4 :: v5 :: v6 :: rest, plane =>
    [NewTriangle v0 v1 v2 plane] ++ triangulate (v2 :: v3 :: v4 :: v5 :: v6 :: rest) plane ++
      [NewTriangle v0 v2 ((v6 :: rest).getLast (List.cons_ne_nil v6 rest)) plane]
  | _, _ => []

/-- Source `Polygon.Triangles`. -/
def Polygon.Triangles (p : Polygon K) : List (Polygon K) := triangulate p.Vertices p.Plane

/-- The reference triangulation of the specification, by index into a list of
`n` vertices: the table for 3 to 6 vertices and, from 7 on, `(0,1,2)`, then the
triangulation of `vertices[2:]` (its indices moved up by two), then
`(0,2,n-1)`. -/
def referenceTriangles : Nat → List (Nat × Nat × Nat)
  | 3 => [(0, 1, 2)]
  | 4 => [(0, 1, 2), (0, 2, 3)]
  | 5 => [(0, 1, 2), (0, 2, 4), (2, 3, 4)]
  | 6 => [(0, 1, 2), (2, 3, 4), (5, 2, 4), (0, 2, 5)]
  | n + 7 =>
    [(0, 1, 2)] ++ (referenceTriangles (n + 5)).map (fun t => (t.1 + 2, t.2.1 + 2, t.2.2 + 2)) ++
      [(0, 2, n + 6)]
  | _ => []

/-- The triangle on the vertices at three positions of a vertex list, carrying
the given plane. -/
def triangleAt (vs : List (Vertex K)) (plane : Plane K) (t : Nat × Nat × Nat) : Polygon K :=
  ⟨[vs.getD t.1 Vertex.zero, vs.getD t.2.1 Vertex.zero, vs.getD t.2.2 Vertex.zero], plane⟩

/-- A heptagon in the plane `z = 0`. -/
def heptagon : Polygon ℚ :=
  ⟨[vtx 2 0 0, vtx 3 0 0, vtx 4 1 0, vtx 4 2 0, vtx 3 3 0, vtx 2 3 0, vtx 1 2 0], planeZ⟩

end Csg

namespace Csg

variable {K : Type} [LinearOrderedField K]

/-! ## Points on a line -/

/-- The three points lie on one line: each is `o + t·d` for a common point `o`
and direction `d` (three equal points included). -/
def Collinear (a b c : Vector K) : Prop :=
  ∃ o d : Vector K, ∃ ta tb tc : K,
    a = o.Plus (d.Times ta) ∧ b = o.Plus (d.Times tb) ∧ c = o.Plus (d.Times tc)

end Csg

namespace Csg

variable {K : Type} [LinearOrderedField K]

/-! ## Invariants of the BSP tree -/

/-- A set of positions closed under interpolation strictly between two of its
points (a half-space, a slab). -/
def ConvexSet (Q : Vector K → Prop) : Prop :=
  ∀ a b t, Q a → Q b → 0 < t → t < 1 → Q (a.Lerp b t)

/-- The polygon at `p` is allocated and every vertex position of it lies in
`Q`. -/
def VerticesIn (Q : Vector K → Prop) (h : Heap K) (p : Ptr) : Prop :=
  ∃ poly, h[p]? = some poly ∧ ∀ v ∈ poly.Vertices, Q v.Position

/-- What the splitter guarantees of a polygon it appends to a side. -/
def SideOK (plane : Plane K) : Side → Polygon K → Prop
  | .coplanarFront, poly => polygonType plane poly = COPLANAR
  | .coplanarBack, poly => polygonType plane poly = COPLANAR
  | .front, poly => ∀ v ∈ poly.Vertices, -EPSILON ≤ plane.DistanceToPlane v.Position
  | .back, poly => ∀ v ∈ poly.Vertices, plane.DistanceToPlane v.Position ≤ EPSILON

/-- The positions within `EPSILON` of the plane. -/
def Plane.Near (pl : Plane K) (x : Vector K) : Prop :=
  -EPSILON ≤ pl.DistanceToPlane x ∧ pl.DistanceToPlane x ≤ EPSILON

/-- The positions not behind the plane: signed distance at least `-EPSILON`. -/
def Plane.NotBehind (pl : Plane K) (x : Vector K) : Prop := -EPSILON ≤ pl.DistanceToPlane x

/-- The positions not in front of the plane: signed distance at most `EPSILON`. -/
def Plane.NotInFront (pl : Plane K) (x : Vector K) : Prop := pl.DistanceToPlane x ≤ EPSILON

/-- Every polygon stored directly in a node of the tree is allocated, the node
has a plane, and every vertex of the polygon is within `EPSILON` of that
plane. -/
def Node.OnPlane (h : Heap K) : Node K → Prop
  | .nil => True
  | .mk plane front back polygons =>
    (∀ p ∈ polygons, ∃ pl, plane = some pl ∧ VerticesIn pl.Near h p) ∧
      front.OnPlane h ∧ back.OnPlane h

/-- Every polygon stored anywhere in the front subtree of a node has no vertex
behind the node's plane, every polygon stored anywhere in its back subtree has
no vertex in front of it, and so on down the tree; a node without a plane
stores nothing below it. -/
def Node.Sided (h : Heap K) : Node K → Prop
  | .nil => True
  | .mk plane front back _ =>
    (match plane with
      | some pl => (∀ p ∈ front.AllPolygons, VerticesIn pl.NotBehind h p) ∧
          (∀ p ∈ back.AllPolygons, VerticesIn pl.NotInFront h p)
      | none => front.AllPolygons = [] ∧ back.AllPolygons = []) ∧
      front.Sided h ∧ back.Sided h

/-- The second heap has the same cells as the first, each either as it was or
flipped. -/
def Flipped (h h1 : Heap K) : Prop :=
  ∀ (p : Ptr) (poly : Polygon K), h[p]? = some poly →
    h1[p]? = some poly ∨ h1[p]? = some poly.Flip

/-- The polygon at `p` is allocated and classified `ty` against the plane. -/
def classifiedAs (h : Heap K) (plane : Plane K) (ty : Nat) (p : Ptr) : Bool :=
  match h[p]? with
  | some poly => polygonType plane poly == ty
  | none => false

/-- Every polygon stored anywhere in the front subtree of a node is classified
FRONT against the node's plane and every polygon stored anywhere in its back
subtree is classified BACK, and so on down the tree. -/
def Node.strictlySided (h : Heap K) : Node K → Bool
  | .nil => true
  | .mk plane front back _ =>
    (match plane with
      | some pl => front.AllPolygons.all (classifiedAs h pl FRONT) &&
          back.AllPolygons.all (classifiedAs h pl BACK)
      | none => true) && front.strictlySided h && back.strictlySided h

/-- The second tree extends the first: every node of the first is a node of the
second at the same position, a plane that was set is the same, and each
polygon list of the first is a prefix of the list at that node in the second. -/
def Node.ExtendedBy : Node K → Node K → Prop
  | .nil, _ => True
  | .mk _ _ _ _, .nil => False
  | .mk plane front back polygons, .mk plane1 front1 back1 polygons1 =>
    (∀ pl, plane = some pl → plane1 = some pl) ∧ polygons <+: polygons1 ∧
      front.ExtendedBy front1 ∧ back.ExtendedBy back1

/-- A triangle in the plane `y = 1/1000`, well above the plane `z = 0`. -/
def triShelf : Polygon ℚ :=
  ⟨[vtx 0 (1 / 1000) 1, vtx 1 (1 / 1000) 1, vtx 0 (1 / 1000) 2], ⟨⟨0, 1, 0⟩, 1 / 1000⟩⟩

/-- A triangle with one edge in the plane `z = 0` that rises slowly in front of
it: classified FRONT against `z = 0`, and cut by the plane `y = 1/1000` into a
piece that stays within `EPSILON` of `z = 0`. -/
def triRamp : Polygon ℚ :=
  ⟨[vtx 0 0 0, vtx 1 0 0, vtx 0 1 (1 / 200)], ⟨⟨0, -1 / 200, 1⟩, 0⟩⟩

/-- The heap holding `triSmall`, `triShelf` and `triRamp` at addresses 0, 1, 2. -/
def rampHeap : Heap ℚ := [triSmall, triShelf, triRamp]

/-- The run returned a result. -/
def returned {α : Type} (r : Except Err α) : Bool :=
  match r with
  | .ok _ => true
  | .error _ => false

end Csg
namespace Csg

variable {K : Type} [LinearOrderedField K]

/-! ## box.go : size, center, containment -/

/-- Source `Box.Size`. -/
def Box.Size (b : Box K) : Vector K :=
  ⟨b.Max.X - b.Min.X, b.Max.Y - b.Min.Y, b.Max.Z - b.Min.Z⟩

/-- Source `Box.Center`: `b.Max.Minus(&b.Min).DividedBy(2.0).Plus(&b.Min)`. -/
def Box.Center (b : Box K) : Vector K := ((b.Max.Minus b.Min).DividedBy 2).Plus b.Min

/-- Source `Box.Contains`. -/
def Box.Contains (b : Box K) (v : Vector K) : Bool :=
  if v.X > b.Min.X ∧ v.X < b.Max.X then
    if v.Y > b.Min.Y ∧ v.Y < b.Max.Y then
      if v.Z > b.Min.Z ∧ v.Z < b.Max.Z then true else false
    else false
  else false

/-- The type of a point after the plane is flipped: FRONT and BACK exchanged. -/
def flippedType (t : Nat) : Nat :=
  if t = FRONT then BACK else if t = BACK then FRONT else t

/-! ## cube.go -/

/-- Source `CubeOptions`; `none` is a nil pointer. -/
structure CubeOptions (K : Type) where
  Center : Option (Vector K)
  Size : Option (Vector K)

/-- The table `order` of `NewCube`. -/
def cubeOrder : List (List Nat) :=
  [[0, 4, 6, 2], [1, 3, 7, 5], [0, 1, 5, 4], [2, 6, 7, 3], [0, 2, 3, 1], [4, 5, 7, 6]]

/-- The table `normals` of `NewCube`. -/
def cubeNormals : List (Vector K) :=
  [⟨-1, 0, 0⟩, ⟨1, 0, 0⟩, ⟨0, -1, 0⟩, ⟨0, 1, 0⟩, ⟨0, 0, -1⟩, ⟨0, 0, 1⟩]

/-- The corner `i` of the cube: bit 0 of `i` picks the side in `X`, bit 1 in
`Y`, bit 2 in `Z` (`i&2>>1` is `(i&2)>>1` in Go). -/
def cubeCorner (center size : Vector K) (i : Nat) : Vector K :=
  let bx : Nat := i &&& 1
  let by1 : Nat := (i &&& 2) >>> 1
  let bz : Nat := (i &&& 4) >>> 2
  ⟨center.X + size.X / 2 * (2 * (bx : K) - 1),
   center.Y + size.Y / 2 * (2 * (by1 : K) - 1),
   center.Z + size.Z / 2 * (2 * (bz : K) - 1)⟩

/-- The vertex slice `vx` of one face of `NewCube`. -/
def cubeFace (center size : Vector K) (o : List Nat) (normal : Vector K) : List (Vertex K) :=
  o.map fun i => ⟨cubeCorner center size i, normal⟩

/-- Source `NewCube`: the six polygons are allocated one after the other. -/
def NewCube (sqrt : K → K) (options : Option (CubeOptions K)) (h : Heap K) :
    Except Err (Heap K × CSG) :=
  let center : Vector K := (options.bind fun o => o.Center).getD ⟨0, 0, 0⟩
  let size : Vector K := (options.bind fun o => o.Size).getD ⟨1, 1, 1⟩
  let r := (cubeOrder.zip cubeNormals).foldl
    (fun (acc : Except Err (Heap K × List Ptr)) (f : List Nat × Vector K) =>
      match acc with
      | .error e => .error e
      | .ok (h, polygons) =>
        match NewPolygonFromVertices sqrt (cubeFace center size f.1 f.2) with
        | none => .error .indexOutOfRange
        | some p => .ok (h ++ [p], polygons ++ [h.length]))
    (.ok (h, []))
  match r with
  | .error e => .error e
  | .ok (h1, polygons) => .ok (h1, NewCSGFromPolygons polygons)

/-- The polygon `NewPolygonFromVertices(vx)` of one face of `NewCube`. -/
def cubePolygon (sqrt : K → K) (center size : Vector K) (o : List Nat) (normal : Vector K) :
    Polygon K :=
  ⟨cubeFace center size o normal,
    NewPlaneFromPoints sqrt (cubeCorner center size (o.getD 0 0))
      (cubeCorner center size (o.getD 1 0)) (cubeCorner center size (o.getD 2 0))⟩

/-! ## sphere.go -/

/-- Source `SphereOptions`; `none` is a nil pointer. -/
structure SphereOptions (K : Type) where
  Center : Option (Vector K)
  Radius : K
  Slices : Int
  Stacks : Int

/-- The closure `vertex` of `NewSphere`: the vertex appended for `theta`,
`phi`. -/
def sphereVertex (cos sin : K → K) (pi : K) (center : Vector K) (radius : K)
    (theta phi : K) : Vertex K :=
  let theta := theta * (pi * 2)
  let phi := phi * pi
  let dir : Vector K := ⟨cos theta * sin phi, cos phi, sin theta * sin phi⟩
  ⟨center.Plus (dir.Times radius), dir⟩

/-- The vertex slice of the cell (slice `i`, stack `j`) of `NewSphere`. -/
def sphereCell (cos sin : K → K) (pi : K) (center : Vector K) (radius nslices nstacks : K)
    (i j : Nat) : List (Vertex K) :=
  [sphereVertex cos sin pi center radius ((i : K) / nslices) ((j : K) / nstacks)] ++
    (if (j : K) > 0 then
      [sphereVertex cos sin pi center radius (((i : K) + 1) / nslices) ((j : K) / nstacks)]
     else []) ++
    (if (j : K) < nstacks - 1 then
      [sphereVertex cos sin pi center radius (((i : K) + 1) / nslices) (((j : K) + 1) / nstacks)]
     else []) ++
    [sphereVertex cos sin pi center radius ((i : K) / nslices) (((j : K) + 1) / nstacks)]

/-- One round of the inner loop of `NewSphere`: the cell's polygon is made and
appended. -/
def sphereStep (sqrt cos sin : K → K) (pi : K) (center : Vector K) (radius nslices nstacks : K)
    (i : Nat) (acc : Except Err (Heap K × List Ptr)) (j : Nat) : Except Err (Heap K × List Ptr) :=
  match acc with
  | .error e => .error e
  | .ok (h, polygons) =>
    match NewPolygonFromVertices sqrt (sphereCell cos sin pi center radius nslices nstacks i j) with
    | none => .error .indexOutOfRange
    | some p => .ok (h ++ [p], polygons ++ [h.length])

/-- Source `NewSphere`.  The loop counters are the floats `0, 1, 2, …` below
`slices` and `stacks`; `make` with a negative capacity panics. -/
def NewSphere (sqrt cos sin : K → K) (pi : K) (options : Option (SphereOptions K))
    (h : Heap K) : Except Err (Heap K × CSG) :=
  let center : Vector K := (options.bind fun o => o.Center).getD ⟨0, 0, 0⟩
  let radius : K := match options with
    | some o => if o.Radius ≠ 0 then o.Radius else 1
    | none => 1
  let nslices : Int := match options with
    | some o => if o.Slices ≠ 0 then o.Slices else 16
    | none => 16
  let nstacks : Int := match options with
    | some o => if o.Stacks ≠ 0 then o.Stacks else 8
    | none => 8
  if nslices * nstacks < 0 then .error .indexOutOfRange
  else
    let r := (List.range nslices.toNat).foldl
      (fun acc i => (List.range nstacks.toNat).foldl
        (sphereStep sqrt cos sin pi center radius (nslices : K) (nstacks : K) i) acc)
      (.ok (h, []))
    match r with
    | .error e => .error e
    | .ok (h1, polygons) => .ok (h1, NewCSGFromPolygons polygons)

end Csg
namespace Csg

variable {K : Type} [LinearOrderedField K] [DecidableEq K]

/-! ## polygonsplitter.go: the multi-core splitter -/

/-- The appends of a run written down as a list, in the order they happen. -/
def logEmit (s : Side) (p : Ptr) (ev : List (Side × Ptr)) : List (Side × Ptr) :=
  ev ++ [(s, p)]

/-- The appends of a log done on the caller's outputs. -/
def replay {σ : Type} (emit : Side → Ptr → σ → σ) (ev : List (Side × Ptr)) (out : σ) : σ :=
  ev.foldl (fun s e => emit e.1 e.2 s) out

/-- Source lines 124-136 of `MultiCorePolygonSplitter.SplitPolygons`: the
slices `polygons[start:end]` handed out under the lock, in the order they are
handed out.  The last one is the first with `start + batchSize > len(polygons)`;
`fuel` bounds the number of slices. -/
def batchesFrom (batchSize : Nat) : Nat → List Ptr → List (List Ptr)
  | 0, _ => []
  | fuel + 1, rest =>
    if batchSize > rest.length then [rest]
    else rest.take batchSize :: batchesFrom batchSize fuel (rest.drop batchSize)

/-- The batches of a list: `batchSize := 500`. -/
def batches (batchSize : Nat) (polygons : List Ptr) : List (List Ptr) :=
  batchesFrom batchSize (polygons.length + 1) polygons

/-- Source lines 140-145: one worker's call of the target splitter on its
batch, into its own four emptied slices. -/
def splitBatch (sqrt : K → K) (plane : Plane K) (batch : List Ptr) (h : Heap K) :
    Except Err (Heap K × Outs) :=
  SplitPolygons sqrt plane Outs.emit batch h ⟨[], [], [], []⟩

/-- Source lines 147-152: under the lock, the worker's four slices are appended
to the caller's four outputs, `coplanarFront` first and `back` last. -/
def flush {σ : Type} (emit : Side → Ptr → σ → σ) (l : Outs) (out : σ) : σ :=
  l.back.foldl (fun s p => emit .back p s)
    (l.front.foldl (fun s p => emit .front p s)
      (l.coplanarBack.foldl (fun s p => emit .coplanarBack p s)
        (l.coplanarFront.foldl (fun s p => emit .coplanarFront p s) out)))

/-- The target splitter run on each batch in turn.  The heap is threaded
through the batches in batch order: the address a new polygon gets stands for
its identity and does not depend on the schedule. -/
def runBatches (sqrt : K → K) (plane : Plane K) :
    List (List Ptr) → Heap K → Except Err (Heap K × List Outs)
  | [], h => .ok (h, [])
  | b :: bs, h =>
    match splitBatch sqrt plane b h with
    | .error e => .error e
    | .ok (h1, l) =>
      match runBatches sqrt plane bs h1 with
      | .error e => .error e
      | .ok (h2, ls) => .ok (h2, l :: ls)

/-- Source `MultiCorePolygonSplitter.SplitPolygons` with the basic splitter as
target.  Above 1000 polygons the list is cut into batches of 500; `order` is
the order in which the workers take the lock to append their results, each
batch once. -/
def MultiCoreSplitPolygons {σ : Type} (sqrt : K → K) (plane : Plane K)
    (emit : Side → Ptr → σ → σ) (order : List Nat) (polygons : List Ptr) (h : Heap K)
    (out : σ) : Except Err (Heap K × σ) :=
  if polygons.length > 1000 then
    match runBatches sqrt plane (batches 500 polygons) h with
    | .error e => .error e
    | .ok (h1, ls) =>
      .ok (h1, order.foldl (fun s i => flush emit (ls.getD i ⟨[], [], [], []⟩) s) out)
  else SplitPolygons sqrt plane emit polygons h out

end Csg
namespace Csg

variable {K : Type} [LinearOrderedField K] [DecidableEq K]

/-! ## node.go: the depth of the recursion of `build` -/

/-- The number of nodes on the longest path from the node down. -/
def Node.depth : Node K → Nat
  | .nil => 0
  | .mk _ front back _ => 1 + max front.depth back.depth

/-- The polygon at `p` is what `NewPolygonFromVertices` makes of its vertices,
and its vertices lie exactly in one plane `m · x = c`. -/
def BuiltFlat (sqrt : K → K) (h : Heap K) (p : Ptr) : Prop :=
  ∃ poly, h[p]? = some poly ∧ NewPolygonFromVertices sqrt poly.Vertices = some poly ∧
    ∃ (m : Vector K) (c : K), m ≠ ⟨0, 0, 0⟩ ∧ ∀ v ∈ poly.Vertices, m.Dot v.Position = c

/-- Two polygons made by `NewPolygonFromVertices`: a triangle in the plane
`z = 0` and a triangle in the plane `x + y = 1` that crosses it. -/
def builtHeap : Heap ℚ :=
  (NewPolygonFromVertices ratSqrt [vtx 0 0 0, vtx 1 0 0, vtx 0 1 0]).toList ++
    (NewPolygonFromVertices ratSqrt [vtx 1 0 1, vtx 0 1 1, vtx 1 0 (-1)]).toList

end Csg
namespace Csg

variable {K : Type} [LinearOrderedField K]

/-! ## Vector area, the inverted tree, fragment counts -/

/-- The sum of a list of vectors (`Vector.Plus` from the zero vector). -/
def sumVectors (l : List (Vector K)) : Vector K := l.foldr Vector.Plus ⟨0, 0, 0⟩

/-- The vector-area term of a triangle `(a, b, c)`: `(b - a) × (c - a)`, with
`Vector.Minus` and `Vector.Cross`. -/
def Polygon.crossArea (p : Polygon K) : Vector K :=
  match p.Vertices with
  | [a, b, c] => (b.Position.Minus a.Position).Cross (c.Position.Minus a.Position)
  | _ => ⟨0, 0, 0⟩

/-- The fan sum of the specification over the vertex list `v_0 .. v_{n-1}`: the
sum for `i = 1 .. n-2` of `(v_i - v_0) × (v_{i+1} - v_0)`. -/
def fanArea (vs : List (Vertex K)) : Vector K :=
  sumVectors ((List.range (vs.length - 2)).map fun i =>
    ((vs.getD (i + 1) Vertex.zero).Position.Minus (vs.getD 0 Vertex.zero).Position).Cross
      ((vs.getD (i + 2) Vertex.zero).Position.Minus (vs.getD 0 Vertex.zero).Position))

/-- The sum of the cross products of consecutive vectors of a list. -/
def crossChain : List (Vector K) → Vector K
  | a :: b :: rest => (a.Cross b).Plus (crossChain (b :: rest))
  | _ => ⟨0, 0, 0⟩

/-- The sum of the cross products of consecutive vectors around a closed list. -/
def crossCycle (l : List (Vector K)) : Vector K :=
  (crossChain l).Plus ((l.getLastD ⟨0, 0, 0⟩).Cross (l.headD ⟨0, 0, 0⟩))

/-- The sum of `(a - o) × (b - o)` over the consecutive vectors `a`, `b` of a
list. -/
def fanChain (o : Vector K) : List (Vector K) → Vector K
  | a :: b :: rest => ((a.Minus o).Cross (b.Minus o)).Plus (fanChain o (b :: rest))
  | _ => ⟨0, 0, 0⟩

/-- The tree `Invert` leaves: every plane flipped and the two children of every
node exchanged. -/
def Node.inverted : Node K → Node K
  | .nil => .nil
  | .mk plane front back polygons =>
    .mk (plane.map Plane.Flip) back.inverted front.inverted polygons

/-- A two-node tree over `rampHeap`: `triSmall` in the root with the plane
`z = 0`, `triShelf` in its front child with its own plane. -/
def nodeTwo : Node ℚ := .mk (some planeZ) (.mk (some triShelf.Plane) .nil .nil [1]) .nil [0]

/-- The number of vertices one iteration of the edge loop appends to `f`, for
the types `ti`, `tj` of the two ends of the edge. -/
def frontCount (ti tj : Nat) : Nat :=
  (if ti ≠ BACK then 1 else 0) + (if (ti ||| tj) = SPANNING then 1 else 0)

/-- The number of vertices one iteration of the edge loop appends to `b`. -/
def backCount (ti tj : Nat) : Nat :=
  (if ti ≠ FRONT then 1 else 0) + (if (ti ||| tj) = SPANNING then 1 else 0)

/-- The sum of `c t t'` over the consecutive types `t`, `t'` of a list closed by
`first` after its last element. -/
def pairSum (c : Nat → Nat → Nat) (first : Nat) : List Nat → Nat
  | [] => 0
  | [a] => c a first
  | a :: b :: rest => c a b + pairSum c first (b :: rest)

/-- A lower bound of `pairSum frontCount first (a :: l)` over the lists of types
in which FRONT occurs or not (`hasF`) and BACK occurs or not (`hasB`). -/
def lowFront (a first : Nat) (hasF hasB : Bool) : Nat :=
  match a, first, hasF, hasB with
  | 0, 0, false, false => 1
  | 0, 0, false, true => 1
  | 0, 0, true, false => 2
  | 0, 1, false, false => 1
  | 0, 1, false, true => 2
  | 0, 1, true, false => 2
  | 0, 2, false, false => 1
  | 0, 2, false, true => 1
  | 1, 0, true, false => 1
  | 1, 0, true, true => 2
  | 1, 1, true, false => 1
  | 1, 2, true, false => 2
  | 1, 2, true, true => 2
  | 2, 0, false, true => 0
  | 2, 0, true, true => 2
  | 2, 1, false, true => 1
  | 2, 1, true, true => 2
  | 2, 2, false, true => 0
  | _, _, _, _ => 3

/-- The exchange of FRONT and BACK. -/
def swapSide (t : Nat) : Nat := if t = FRONT then BACK else if t = BACK then FRONT else t

/-- The lower bound of `pairSum backCount first (a :: l)`. -/
def lowBack (a first : Nat) (hasF hasB : Bool) : Nat :=
  lowFront (swapSide a) (swapSide first) hasB hasF

/-- The position lies in the closed axis-aligned box from `Min` to `Max`. -/
def Box.Within (b : Box K) (x : Vector K) : Prop :=
  b.Min.X ≤ x.X ∧ x.X ≤ b.Max.X ∧ b.Min.Y ≤ x.Y ∧ x.Y ≤ b.Max.Y ∧
    b.Min.Z ≤ x.Z ∧ x.Z ≤ b.Max.Z

end Csg

namespace Csg

variable {K : Type} [LinearOrderedField K]

/-! ## Convex operands and exposed polygons -/

/-- The position `x` is that of a vertex of an allocated polygon of the list
`l` all of whose vertices lie in `Q`. -/
def Covers (Q : Vector K → Prop) (h : Heap K) (l : List Ptr) (x : Vector K) : Prop :=
  ∃ p ∈ l, ∃ P, h[p]? = some P ∧ (∀ v ∈ P.Vertices, Q v.Position) ∧
    ∃ v ∈ P.Vertices, v.Position = x

/-- The positions classified FRONT of the plane: signed distance more than
`EPSILON`. -/
def Plane.InFront (pl : Plane K) (x : Vector K) : Prop := EPSILON < pl.DistanceToPlane x

/-- What makes `clipPolygons` of the tree keep every polygon whose vertices lie
in `Q`, whole or in pieces: at each node either all of `Q` is FRONT of the
plane and the front child keeps `Q` (a nil front child keeps everything), or
both children keep `Q` and the back child is not nil (what goes behind a node
without a back child is dropped). -/
def Node.Keeps (Q : Vector K → Prop) : Node K → Prop
  | .nil => True
  | .mk none _ _ _ => True
  | .mk (some pl) front back _ =>
    ((∀ x, Q x → pl.InFront x) ∧ front.Keeps Q) ∨
      (front.Keeps Q ∧ back.isNil = false ∧ back.Keeps Q)

/-- The polygon at `q` is classified BACK against the plane of the polygon at
`p`. -/
def backOf (h : Heap K) (p q : Ptr) : Bool :=
  match h[p]?, h[q]? with
  | some P, some Q => polygonType P.Plane Q == BACK
  | _, _ => false

/-- The polygons of a convex solid: every polygon lies in its own plane and is
BACK of the plane of every other one. -/
def ConvexList (h : Heap K) (l : List Ptr) : Prop :=
  (∀ p ∈ l, ownPlane h p = true) ∧
    l.Pairwise (fun p q => backOf h p q = true ∧ backOf h q p = true)

instance (h : Heap K) (l : List Ptr) : Decidable (ConvexList h l) := by
  unfold ConvexList
  infer_instance

/-- The tree `Build` makes of such a list: a chain of back children, one node
for each polygon, with that polygon's plane. -/
def convexChain (h : Heap K) : List Ptr → Node K
  | [] => .nil
  | p :: rest => .mk ((h[p]?).map fun P => P.Plane) .nil (convexChain h rest) [p]

/-- Every vertex of the polygon at `p` is classified FRONT against the plane
of the polygon at `q`. -/
def wholeFront (h : Heap K) (q p : Ptr) : Bool :=
  match h[q]?, h[p]? with
  | some Q, some P => P.Vertices.all fun v => decide (EPSILON < Q.Plane.DistanceToPlane v.Position)
  | _, _ => false

/-- The polygon at `p` lies wholly in front of the plane of a polygon of the
list `l`. -/
def exposedTo (h : Heap K) (l : List Ptr) (p : Ptr) : Bool := l.any fun q => wholeFront h q p

end Csg
namespace Csg

/-- The cube `NewCube(nil)` on the empty heap: side 1, centred at the
origin. -/
def unitCube : Heap ℚ × CSG :=
  match NewCube ratSqrt none [] with
  | .ok r => r
  | .error _ => ([], ⟨[]⟩)

/-- The unit cube `NewCube(&CubeOptions{Center: c})` allocated after the heap
`h`. -/
def cubeAt (c : Vector ℚ) (h : Heap ℚ) : Heap ℚ × CSG :=
  match NewCube ratSqrt (some ⟨some c, none⟩) h with
  | .ok r => r
  | .error _ => (h, ⟨[]⟩)

/-- The heap of two overlapping unit cubes, centred at the origin and at
`(1/2, 1/2, 1/2)`. -/
def twoCubes : Heap ℚ := (cubeAt ⟨1 / 2, 1 / 2, 1 / 2⟩ unitCube.1).1

/-- The heap of two unit cubes, centred at the origin and at
`(EPSILON/2, 0, 0)`. -/
def nearCubes : Heap ℚ := (cubeAt ⟨1 / 200000, 0, 0⟩ unitCube.1).1

/-- The first of two cubes allocated one after the other. -/
def cubeA : CSG := ⟨[0, 1, 2, 3, 4, 5]⟩

/-- The second of two cubes allocated one after the other. -/
def cubeB : CSG := ⟨[6, 7, 8, 9, 10, 11]⟩

end Csg

/-!
Package qhull

The half-edge mesh lives in three stores of the hull: `points` (the `*Vertex`
objects, a vertex pointer is its position in `points`), `edgeStore` (the
`*HalfEdge` objects) and `faceStore` (the `*Face` objects); a pointer is a
position in its store and `none` is nil.  Every loop that walks a linked
structure is bounded by `fuel` iterations.  The fields `findIndex`,
`charLength` and `Debug` of the hull only feed the log and are left out, and
`discardedFaces` is the list `mergeAdjacentFace` returns.
-/

namespace Qhull

open Csg (Vector Err)

variable {K : Type} [LinearOrderedField K]

/-- Source `AUTOMATIC_TOLERANCE = 0.0`. -/
def AUTOMATIC_TOLERANCE : K := 0

/-- Source `DOUBLE_PREC = 2.2204460492503131e-16`. -/
def DOUBLE_PREC : K := 22204460492503131 / 10 ^ 32

/-- Source `VISIBLE FaceState = 1`. -/
def VISIBLE : Nat := 1
/-- Source `NON_CONVEX = 2`. -/
def NON_CONVEX : Nat := 2
/-- Source `DELETED = 3`. -/
def DELETED : Nat := 3

/-- Source `NONCONVEX_WRT_LARGER_FACE = 1`. -/
def NONCONVEX_WRT_LARGER_FACE : Nat := 1
/-- Source `NONCONVEX = 2`. -/
def NONCONVEX : Nat := 2

/-- Source `Vertex` (qhull/vertex.go). -/
structure Vertex (K : Type) where
  point : Vector K
  index : Int
  prev : Option Nat
  next : Option Nat
  face : Option Nat
deriving DecidableEq, Repr

/-- Source `NewVertex`. -/
def NewVertex (v : Vector K) (idx : Int) : Vertex K := ⟨v, idx, none, none, none⟩

/-- Source `HalfEdge` (halfedge.go). -/
structure HalfEdge where
  Vertex : Nat
  Face : Nat
  next : Option Nat
  prev : Option Nat
  opposite : Option Nat
deriving DecidableEq, Repr

/-- Source `Face` (face.go); `Normal` and `W` are the embedded `csg.Plane`. -/
structure Face (K : Type) where
  Normal : Vector K
  W : K
  edge : Nat
  area : K
  index : Int
  numVerts : Nat
  centroid : Vector K
  next : Option Nat
  mark : Nat
  outside : Option Nat
deriving DecidableEq, Repr

/-- Source `VertexList`. -/
structure VertexList where
  head : Option Nat
  tail : Option Nat
deriving DecidableEq, Repr

/-- Source `FaceList`. -/
structure FaceList where
  head : Option Nat
  tail : Option Nat
deriving DecidableEq, Repr

/-- Source `Hull` (hull.go), with the three object stores. -/
structure Hull (K : Type) where
  points : List (Vertex K)
  vertexPointIndices : List Nat
  maxVertex : List Nat
  minVertex : List Nat
  faces : List Nat
  horizon : List Nat
  claimed : VertexList
  unclaimed : VertexList
  newFaces : FaceList
  numFaces : Nat
  numPoints : Nat
  numVertices : Nat
  explicitTolerance : K
  tolerance : K
  edgeStore : List HalfEdge
  faceStore : List (Face K)
deriving DecidableEq, Repr

/-- The zero value `&Hull{}`. -/
def Hull.new : Hull K :=
  { points := [], vertexPointIndices := [], maxVertex := [], minVertex := [], faces := [],
    horizon := [], claimed := ⟨none, none⟩, unclaimed := ⟨none, none⟩,
    newFaces := ⟨none, none⟩, numFaces := 0, numPoints := 0, numVertices := 0,
    explicitTolerance := 0, tolerance := 0, edgeStore := [], faceStore := [] }

/-! ## Pointers -/

/-- Following a pointer: nil panics. -/
def deref (p : Option Nat) : Except Err Nat :=
  match p with
  | some i => .ok i
  | none => .error .nilDeref

/-- Reading an object of a store. -/
def load {α : Type} (store : List α) (i : Nat) : Except Err α :=
  match store[i]? with
  | some x => .ok x
  | none => .error .nilDeref

/-- The vertex at a pointer. -/
def Hull.vertex (q : Hull K) (v : Nat) : Except Err (Vertex K) := load q.points v

/-- The half-edge at a pointer. -/
def Hull.halfEdge (q : Hull K) (e : Nat) : Except Err HalfEdge := load q.edgeStore e

/-- The face at a pointer. -/
def Hull.face (q : Hull K) (f : Nat) : Except Err (Face K) := load q.faceStore f

/-- Writing a vertex. -/
def Hull.setVertex (q : Hull K) (v : Nat) (x : Vertex K) : Hull K :=
  { q with points := q.points.set v x }

/-- Writing a half-edge. -/
def Hull.setHalfEdge (q : Hull K) (e : Nat) (x : HalfEdge) : Hull K :=
  { q with edgeStore := q.edgeStore.set e x }

/-- Writing a face. -/
def Hull.setFace (q : Hull K) (f : Nat) (x : Face K) : Hull K :=
  { q with faceStore := q.faceStore.set f x }

/-! ## vertex.go : VertexList -/

/-- Source `VertexList.Add`. -/
def VertexList.Add (q : Hull K) (v : VertexList) (vtx : Nat) : Except Err (Hull K × VertexList) := do
  let (q, v) ← (match v.head with
    | none => pure (q, { v with head := some vtx })
    | some _ => do
      let t ← deref v.tail
      let tv ← q.vertex t
      pure (q.setVertex t { tv with next := some vtx }, v) : Except Err (Hull K × VertexList))
  let x ← q.vertex vtx
  let q := q.setVertex vtx { x with prev := v.tail, next := none }
  pure (q, { v with tail := some vtx })

/-- Source `VertexList.First`. -/
def VertexList.First (v : VertexList) : Option Nat := v.head

/-- Source `VertexList.IsEmpty`. -/
def VertexList.IsEmpty (v : VertexList) : Bool := v.head.isNone

/-- The loop `for vtx.next != nil { vtx = vtx.next }` of `AddAll`. -/
def lastOfChain (q : Hull K) : Nat → Nat → Except Err Nat
  | 0, _ => .error .outOfFuel
  | fuel + 1, vtx => do
    let x ← q.vertex vtx
    match x.next with
    | none => pure vtx
    | some n => lastOfChain q fuel n

/-- Source `VertexList.AddAll`. -/
def VertexList.AddAll (fuel : Nat) (q : Hull K) (v : VertexList) (vtx : Nat) :
    Except Err (Hull K × VertexList) := do
  let (q, v) ← (match v.head with
    | none => pure (q, { v with head := some vtx })
    | some _ => do
      let t ← deref v.tail
      let tv ← q.vertex t
      pure (q.setVertex t { tv with next := some vtx }, v) : Except Err (Hull K × VertexList))
  let x ← q.vertex vtx
  let q := q.setVertex vtx { x with prev := v.tail }
  let last ← lastOfChain q fuel vtx
  pure (q, { v with tail := some last })

/-- Source `VertexList.Delete`. -/
def VertexList.Delete (q : Hull K) (v : VertexList) (vtx : Nat) :
    Except Err (Hull K × VertexList) := do
  let x ← q.vertex vtx
  let (q, v) ← (match x.prev with
    | none => pure (q, { v with head := x.next })
    | some p => do
      let pv ← q.vertex p
      pure (q.setVertex p { pv with next := x.next }, v) : Except Err (Hull K × VertexList))
  match x.next with
  | none => pure (q, { v with tail := x.prev })
  | some n => do
    let nv ← q.vertex n
    pure (q.setVertex n { nv with prev := x.prev }, v)

/-- Source `VertexList.DeleteChain`. -/
def VertexList.DeleteChain (q : Hull K) (v : VertexList) (vtx1 vtx2 : Nat) :
    Except Err (Hull K × VertexList) := do
  let x1 ← q.vertex vtx1
  let x2 ← q.vertex vtx2
  let (q, v) ← (match x1.prev with
    | none => pure (q, { v with head := x2.next })
    | some p => do
      let pv ← q.vertex p
      pure (q.setVertex p { pv with next := x2.next }, v) : Except Err (Hull K × VertexList))
  match x2.next with
  | none => pure (q, { v with tail := x1.prev })
  | some n => do
    let nv ← q.vertex n
    pure (q.setVertex n { nv with prev := x1.prev }, v)

/-- Source `VertexList.Clear`. -/
def VertexList.Clear (_v : VertexList) : VertexList := ⟨none, none⟩

/-- Source `VertexList.InsertBefore`. -/
def VertexList.InsertBefore (q : Hull K) (v : VertexList) (vtx next : Nat) :
    Except Err (Hull K × VertexList) := do
  let nx ← q.vertex next
  let x ← q.vertex vtx
  let q := q.setVertex vtx { x with prev := nx.prev }
  let (q, v) ← (match nx.prev with
    | none => pure (q, { v with head := some vtx })
    | some p => do
      let pv ← q.vertex p
      pure (q.setVertex p { pv with next := some vtx }, v) : Except Err (Hull K × VertexList))
  let x ← q.vertex vtx
  let q := q.setVertex vtx { x with next := some next }
  let nx ← q.vertex next
  pure (q.setVertex next { nx with prev := some vtx }, v)

/-! ## halfedge.go -/

/-- Source `HalfEdge.SetOpposite`: `h.opposite = e; e.opposite = h`. -/
def SetOpposite (q : Hull K) (h : Nat) (e : Option Nat) : Except Err (Hull K) := do
  let he ← q.halfEdge h
  let q := q.setHalfEdge h { he with opposite := e }
  let ei ← deref e
  let ee ← q.halfEdge ei
  pure (q.setHalfEdge ei { ee with opposite := some h })

/-- Source `HalfEdge.Opposite`. -/
def Opposite (q : Hull K) (h : Nat) : Except Err (Option Nat) := do
  let he ← q.halfEdge h
  pure he.opposite

/-- Source `HalfEdge.Head`. -/
def Head (q : Hull K) (h : Nat) : Except Err Nat := do
  let he ← q.halfEdge h
  pure he.Vertex

/-- Source `HalfEdge.Tail`. -/
def Tail (q : Hull K) (h : Nat) : Except Err (Option Nat) := do
  let he ← q.halfEdge h
  match he.prev with
  | some p => do
    let pe ← q.halfEdge p
    pure (some pe.Vertex)
  | none => pure none

/-- Source `HalfEdge.OppositeFace`. -/
def OppositeFace (q : Hull K) (h : Nat) : Except Err (Option Nat) := do
  let he ← q.halfEdge h
  match he.opposite with
  | some o => do
    let oe ← q.halfEdge o
    pure (some oe.Face)
  | none => pure none

/-- The field read `h.next` followed through: nil panics at the next use. -/
def nextOf (q : Hull K) (h : Nat) : Except Err Nat := do
  let he ← q.halfEdge h
  deref he.next

/-- The field read `h.prev` followed through. -/
def prevOf (q : Hull K) (h : Nat) : Except Err Nat := do
  let he ← q.halfEdge h
  deref he.prev

/-! ## face.go -/

/-- Source `Face.DistanceToPlane` (the embedded `csg.Plane`). -/
def Face.DistanceToPlane (f : Face K) (v : Vector K) : K := f.Normal.Dot v - f.W

/-- The loop of `updateVertexCount`: `for he2 != f.edge { he2 = he2.next;
f.numVerts++ }`. -/
def countLoop (q : Hull K) (edge : Nat) : Nat → Nat → Nat → Except Err Nat
  | 0, _, _ => .error .outOfFuel
  | fuel + 1, he2, n =>
    if he2 = edge then pure n
    else do
      let nx ← nextOf q he2
      countLoop q edge fuel nx (n + 1)

/-- Source `Face.updateVertexCount`. -/
def updateVertexCount (fuel : Nat) (q : Hull K) (f : Nat) : Except Err (Hull K) := do
  let face ← q.face f
  let he1 ← nextOf q face.edge
  let he2 ← nextOf q he1
  let n ← countLoop q face.edge fuel he2 2
  pure (q.setFace f { face with numVerts := n })

/-- The loop of `updateCentroid`: the sum of the head points around the face. -/
def sumLoop (q : Hull K) (edge : Nat) : Nat → Nat → Vector K → Except Err (Vector K)
  | 0, _, _ => .error .outOfFuel
  | fuel + 1, he, v => do
    let hd ← Head q he
    let x ← q.vertex hd
    let v := v.Plus x.point
    let nx ← nextOf q he
    if nx = edge then pure v else sumLoop q edge fuel nx v

/-- Source `Face.updateCentroid`. -/
def updateCentroid (fuel : Nat) (q : Hull K) (f : Nat) : Except Err (Hull K) := do
  let face ← q.face f
  let v ← sumLoop q face.edge fuel face.edge ⟨0, 0, 0⟩
  let s : K := 1 / (face.numVerts : K)
  pure (q.setFace f { face with centroid := ⟨s * v.X, s * v.Y, s * v.Z⟩ })

/-- Source `Face.update`. -/
def Face.update (fuel : Nat) (q : Hull K) (f : Nat) : Except Err (Hull K) := do
  let q ← updateVertexCount fuel q f
  updateCentroid fuel q f

/-- Source `NewFaceFromTriangle`: allocates the face and its three half-edges. -/
def NewFaceFromTriangle (sqrt : K → K) (fuel : Nat) (q : Hull K) (v0 v1 v2 : Nat) :
    Except Err (Hull K × Nat) := do
  let f := q.faceStore.length
  let e0 := q.edgeStore.length
  let he0 : HalfEdge := ⟨v0, f, some (e0 + 1), some (e0 + 2), none⟩
  let he1 : HalfEdge := ⟨v1, f, some (e0 + 2), some e0, none⟩
  let he2 : HalfEdge := ⟨v2, f, some e0, some (e0 + 1), none⟩
  let x0 ← q.vertex v0
  let x1 ← q.vertex v1
  let x2 ← q.vertex v2
  let pl := Csg.NewPlaneFromPoints sqrt x0.point x1.point x2.point
  let face : Face K :=
    { Normal := pl.Normal, W := pl.W, edge := e0, area := 0, index := 0, numVerts := 0,
      centroid := ⟨0, 0, 0⟩, next := none, mark := VISIBLE, outside := none }
  let q := { q with edgeStore := q.edgeStore ++ [he0, he1, he2],
                    faceStore := q.faceStore ++ [face] }
  let q ← Face.update fuel q f
  pure (q, f)

/-- Source `Face.GetEdge` for `i ≥ 0`: `i` steps along `next`. -/
def walkNext (q : Hull K) : Nat → Nat → Except Err Nat
  | 0, he => pure he
  | i + 1, he => do
    let nx ← nextOf q he
    walkNext q i nx

/-- Source `Face.GetEdge` for `i < 0`: `-i` steps along `prev`. -/
def walkPrev (q : Hull K) : Nat → Nat → Except Err Nat
  | 0, he => pure he
  | i + 1, he => do
    let pv ← prevOf q he
    walkPrev q i pv

/-- Source `Face.GetEdge`. -/
def Face.GetEdge (q : Hull K) (f : Nat) (i : Int) : Except Err Nat := do
  let face ← q.face f
  if 0 ≤ i then walkNext q i.toNat face.edge else walkPrev q (-i).toNat face.edge

/-- Source `FaceList.Clear`. -/
def FaceList.Clear (_f : FaceList) : FaceList := ⟨none, none⟩

/-- Source `FaceList.Add`. -/
def FaceList.Add (q : Hull K) (f : FaceList) (face : Nat) : Except Err (Hull K × FaceList) := do
  let (q, f) ← (match f.head with
    | none => pure (q, { f with head := some face })
    | some _ => do
      let t ← deref f.tail
      let tf ← q.face t
      pure (q.setFace t { tf with next := some face }, f) : Except Err (Hull K × FaceList))
  let x ← q.face face
  let q := q.setFace face { x with next := none }
  pure (q, { f with tail := some face })

/-- Source `FaceList.First`. -/
def FaceList.First (f : FaceList) : Option Nat := f.head

/-- The comparison `hedgePrev.OppositeFace() == hedge.OppositeFace()` of
pointers that may be nil. -/
def sameFace (a b : Option Nat) : Bool := a == b

/-- Source `Face.connectHalfEdges`; returns the discarded face, if any. -/
def connectHalfEdges (fuel : Nat) (q : Hull K) (f : Nat) (hedgePrev hedge : Nat) :
    Except Err (Hull K × Option Nat) := do
  let ofPrev ← OppositeFace q hedgePrev
  let ofHedge ← OppositeFace q hedge
  if sameFace ofPrev ofHedge then
    let oppFace ← deref ofHedge
    let face ← q.face f
    let q := if hedgePrev = face.edge then q.setFace f { face with edge := hedge } else q
    let opp ← q.face oppFace
    let hopp ← deref (← Opposite q hedge)
    let (q, hedgeOpp, discarded) ← (
      if opp.numVerts = 3 then do
        let p ← prevOf q hopp
        let ho ← deref (← Opposite q p)
        let opp ← q.face oppFace
        pure (q.setFace oppFace { opp with mark := DELETED }, ho, some oppFace)
      else do
        let ho ← nextOf q hopp
        let hoe ← q.halfEdge ho
        let opp ← q.face oppFace
        let q := if some opp.edge = hoe.prev then q.setFace oppFace { opp with edge := ho } else q
        let hp ← deref hoe.prev
        let hpe ← q.halfEdge hp
        let q := q.setHalfEdge ho { hoe with prev := hpe.prev }
        let pp ← deref hpe.prev
        let ppe ← q.halfEdge pp
        pure (q.setHalfEdge pp { ppe with next := some ho }, ho, none)
      : Except Err (Hull K × Nat × Option Nat))
    let hpe ← q.halfEdge hedgePrev
    let he ← q.halfEdge hedge
    let q := q.setHalfEdge hedge { he with prev := hpe.prev }
    let pp ← deref hpe.prev
    let ppe ← q.halfEdge pp
    let q := q.setHalfEdge pp { ppe with next := some hedge }
    let he ← q.halfEdge hedge
    let q := q.setHalfEdge hedge { he with opposite := some hedgeOpp }
    let hoe ← q.halfEdge hedgeOpp
    let q := q.setHalfEdge hedgeOpp { hoe with opposite := some hedge }
    let q ← Face.update fuel q oppFace
    pure (q, discarded)
  else
    let hpe ← q.halfEdge hedgePrev
    let q := q.setHalfEdge hedgePrev { hpe with next := some hedge }
    let he ← q.halfEdge hedge
    pure (q.setHalfEdge hedge { he with prev := some hedgePrev }, none)

/-- The loop `for hedgeAdjPrev.OppositeFace() == oppFace { hedgeAdjPrev =
hedgeAdjPrev.prev; hedgeOppNext = hedgeOppNext.next }`. -/
def backLoop (q : Hull K) (oppFace : Nat) : Nat → Nat → Nat → Except Err (Nat × Nat)
  | 0, _, _ => .error .outOfFuel
  | fuel + 1, hedgeAdjPrev, hedgeOppNext => do
    let o ← OppositeFace q hedgeAdjPrev
    if o = some oppFace then
      let a ← prevOf q hedgeAdjPrev
      let b ← nextOf q hedgeOppNext
      backLoop q oppFace fuel a b
    else pure (hedgeAdjPrev, hedgeOppNext)

/-- The loop `for hedgeAdjNext.OppositeFace() == oppFace { hedgeOppPrev =
hedgeOppPrev.prev; hedgeAdjNext = hedgeAdjNext.next }`. -/
def forwardLoop (q : Hull K) (oppFace : Nat) : Nat → Nat → Nat → Except Err (Nat × Nat)
  | 0, _, _ => .error .outOfFuel
  | fuel + 1, hedgeAdjNext, hedgeOppPrev => do
    let o ← OppositeFace q hedgeAdjNext
    if o = some oppFace then
      let a ← prevOf q hedgeOppPrev
      let b ← nextOf q hedgeAdjNext
      forwardLoop q oppFace fuel b a
    else pure (hedgeAdjNext, hedgeOppPrev)

/-- The loop `for hedge := hedgeOppNext; hedge != hedgeOppPrev.next; hedge =
hedge.next { hedge.Face = f }`. -/
def claimLoop (f : Nat) (hedgeOppPrev : Nat) :
    Nat → Hull K → Option Nat → Except Err (Hull K)
  | 0, _, _ => .error .outOfFuel
  | fuel + 1, q, hedge => do
    let stop ← (do let pe ← q.halfEdge hedgeOppPrev; pure pe.next : Except Err (Option Nat))
    if hedge = stop then pure q
    else do
      let hi ← deref hedge
      let he ← q.halfEdge hi
      let q := q.setHalfEdge hi { he with Face := f }
      claimLoop f hedgeOppPrev fuel q he.next

/-- Source `Face.mergeAdjacentFace`; returns the discarded faces
(`discarded[0 .. numDiscarded)`). -/
def mergeAdjacentFace (fuel : Nat) (q : Hull K) (f : Nat) (hedgeAdj : Nat) :
    Except Err (Hull K × List Nat) := do
  let oppFace ← deref (← OppositeFace q hedgeAdj)
  let opp ← q.face oppFace
  let q := q.setFace oppFace { opp with mark := DELETED }
  let hedgeOpp ← deref (← Opposite q hedgeAdj)
  let hedgeAdjPrev ← prevOf q hedgeAdj
  let hedgeAdjNext ← nextOf q hedgeAdj
  let hedgeOppPrev ← prevOf q hedgeOpp
  let hedgeOppNext ← nextOf q hedgeOpp
  let (hedgeAdjPrev, hedgeOppNext) ← backLoop q oppFace fuel hedgeAdjPrev hedgeOppNext
  let (hedgeAdjNext, hedgeOppPrev) ← forwardLoop q oppFace fuel hedgeAdjNext hedgeOppPrev
  let q ← claimLoop f hedgeOppPrev fuel q (some hedgeOppNext)
  let face ← q.face f
  let q := if hedgeAdj = face.edge then q.setFace f { face with edge := hedgeAdjNext } else q
  let (q, d1) ← connectHalfEdges fuel q f hedgeOppPrev hedgeAdjNext
  let (q, d2) ← connectHalfEdges fuel q f hedgeAdjPrev hedgeOppNext
  let q ← Face.update fuel q f
  pure (q, [oppFace] ++ d1.toList ++ d2.toList)

/-! ## hull.go -/

/-- The loop of `markFaceVertices`. -/
def markLoop (edge : Nat) (mark : Int) : Nat → Hull K → Nat → Except Err (Hull K)
  | 0, _, _ => .error .outOfFuel
  | fuel + 1, q, he => do
    let hd ← Head q he
    let x ← q.vertex hd
    let q := q.setVertex hd { x with index := mark }
    let nx ← nextOf q he
    if nx = edge then pure q else markLoop edge mark fuel q nx

/-- Source `Hull.markFaceVertices`. -/
def markFaceVertices (fuel : Nat) (q : Hull K) (face : Nat) (mark : Int) : Except Err (Hull K) := do
  let f ← q.face face
  markLoop f.edge mark fuel q f.edge

/-- The face loop of `reindexFacesAndVertices`: faces that are not VISIBLE are
removed from `q.faces`, the vertices of the others are marked 0. -/
def reindexFaces (fuel : Nat) : List Nat → Hull K → List Nat → Except Err (Hull K × List Nat)
  | [], q, kept => pure (q, kept)
  | face :: rest, q, kept => do
    let f ← q.face face
    if f.mark ≠ VISIBLE then reindexFaces fuel rest q kept
    else do
      let q ← markFaceVertices fuel q face 0
      reindexFaces fuel rest { q with numFaces := q.numFaces + 1 } (kept ++ [face])

/-- The vertex loop of `reindexFacesAndVertices`. -/
def reindexVertices : List Nat → Hull K → Except Err (Hull K)
  | [], q => pure q
  | i :: rest, q => do
    let vtx ← q.vertex i
    if vtx.index = 0 then
      if q.numVertices < q.vertexPointIndices.length then
        let q := { q with vertexPointIndices := q.vertexPointIndices.set q.numVertices i }
        let q := q.setVertex i { vtx with index := (q.numVertices : Int) }
        reindexVertices rest { q with numVertices := q.numVertices + 1 }
      else .error .indexOutOfRange
    else reindexVertices rest q

/-- Source `Hull.reindexFacesAndVertices`. -/
def reindexFacesAndVertices (fuel : Nat) (q : Hull K) : Except Err (Hull K) := do
  if q.points.length < q.numPoints then .error .indexOutOfRange
  let q := { q with points := q.points.map fun (v : Vertex K) => { v with index := -1 } }
  let q := { q with numFaces := 0 }
  let (q, kept) ← reindexFaces fuel q.faces q []
  let q := { q with faces := kept }
  let q := { q with numVertices := 0 }
  reindexVertices (List.range q.numPoints) q

/-- Source `Hull.initBuffers`: fresh buffers and empty stores; the `nump`
entries of `points` are filled by `setPoints`. -/
def initBuffers (q : Hull K) (nump : Nat) : Hull K :=
  { q with vertexPointIndices := List.replicate nump 0, points := [], faces := [],
           horizon := [], claimed := ⟨none, none⟩, unclaimed := ⟨none, none⟩,
           newFaces := ⟨none, none⟩, numFaces := 0, numPoints := nump,
           edgeStore := [], faceStore := [] }

/-- Source `Hull.setPoints`. -/
def setPoints (q : Hull K) (points : List (Vector K)) (nump : Nat) : Hull K :=
  { q with points := (points.take nump).enum.map fun (i, v) => NewVertex v (i : Int) }

/-- The running state of the scan of `computeMinAndMax`. -/
structure MinMax (K : Type) where
  max : Vector K
  min : Vector K
  maxVertex : List Nat
  minVertex : List Nat
deriving DecidableEq, Repr

/-- One point of the scan of `computeMinAndMax` (`p` is the vertex pointer). -/
def minMaxStep (s : MinMax K) (p : Nat) (pnt : Vector K) : MinMax K :=
  let s := if pnt.X > s.max.X then
      { s with max := { s.max with X := pnt.X }, maxVertex := s.maxVertex.set 0 p }
    else if pnt.X < s.min.X then
      { s with min := { s.min with X := pnt.X }, minVertex := s.minVertex.set 0 p }
    else s
  let s := if pnt.Y > s.max.Y then
      { s with max := { s.max with Y := pnt.Y }, maxVertex := s.maxVertex.set 1 p }
    else if pnt.Y < s.min.Y then
      { s with min := { s.min with Y := pnt.Y }, minVertex := s.minVertex.set 1 p }
    else s
  if pnt.Z > s.max.Z then
    { s with max := { s.max with Z := pnt.Z }, maxVertex := s.maxVertex.set 2 p }
  else if pnt.Z < s.min.Z then
    { s with min := { s.min with Z := pnt.Z }, minVertex := s.minVertex.set 2 p }
  else s

/-- Source `Hull.computeMinAndMax`. -/
def computeMinAndMax (q : Hull K) : Except Err (Hull K) := do
  let p0 ← (match q.points[0]? with
    | some x => pure x
    | none => .error .indexOutOfRange : Except Err (Vertex K))
  let s0 : MinMax K := ⟨p0.point.Clone, p0.point.Clone, [0, 0, 0], [0, 0, 0]⟩
  let s := q.points.enum.foldl (fun s (ip : Nat × Vertex K) => minMaxStep s ip.1 ip.2.point) s0
  let tolerance : K :=
    if q.explicitTolerance = AUTOMATIC_TOLERANCE then
      3 * DOUBLE_PREC *
        (max |s.max.X| |s.min.X| + max |s.max.Y| |s.min.Y| + max |s.max.Z| |s.min.Z|)
    else q.explicitTolerance
  pure { q with maxVertex := s.maxVertex, minVertex := s.minVertex, tolerance := tolerance }

/-- Source `Vector.Get`. -/
def Get (v : Vector K) (i : Nat) : K :=
  match i with
  | 0 => v.X
  | 1 => v.Y
  | 2 => v.Z
  | _ => 0

/-- Source `Vector.Normalize`. -/
def Normalize (sqrt : K → K) (v : Vector K) : Vector K :=
  let l := v.Length sqrt
  ⟨v.X / l, v.Y / l, v.Z / l⟩

/-- Source `Vector.LengthSquared`. -/
def LengthSquared (v : Vector K) : K := v.Dot v

/-- Source `Hull.addPointToFace`. -/
def addPointToFace (q : Hull K) (vtx face : Nat) : Except Err (Hull K) := do
  let x ← q.vertex vtx
  let q := q.setVertex vtx { x with face := some face }
  let f ← q.face face
  let (q, claimed) ← (match f.outside with
    | none => VertexList.Add q q.claimed vtx
    | some o => VertexList.InsertBefore q q.claimed vtx o)
  let q := { q with claimed := claimed }
  let f ← q.face face
  pure (q.setFace face { f with outside := some vtx })

/-- The first loop of `createInitialSimplex`: the axis of largest extent. -/
def widestAxis (q : Hull K) : Except Err (K × Nat) :=
  [0, 1, 2].foldl
    (fun acc i => do
      let (max, imax) ← acc
      let a ← deref q.maxVertex[i]?
      let b ← deref q.minVertex[i]?
      let va ← q.vertex a
      let vb ← q.vertex b
      let diff := Get va.point i - Get vb.point i
      if diff > max then pure (diff, i) else pure (max, imax))
    (pure (0, 0))

/-- The second loop of `createInitialSimplex`: the point farthest from the line
through `vtx[0]` and `vtx[1]`; the state is `maxSqr`, `vtx[2]`, `normal`. -/
def farthestFromLine (q : Hull K) (n : Vector K) (v0 v1 : Nat) (p0 : Vector K) :
    K × Option Nat × Option (Vector K) :=
  q.points.enum.foldl
    (fun (acc : K × Option Nat × Option (Vector K)) (ip : Nat × Vertex K) =>
      let diff := ip.2.point.Minus p0
      let xprod := n.Cross diff
      let lenSqr := LengthSquared xprod
      if lenSqr > acc.1 ∧ ip.1 ≠ v0 ∧ ip.1 ≠ v1 then (lenSqr, some ip.1, some xprod.Clone)
      else acc)
    (0, none, none)

/-- The third loop of `createInitialSimplex`: the point farthest from the plane
through `vtx[2]` with the given normal; the state is `maxDist`, `vtx[3]`. -/
def farthestFromPlane (q : Hull K) (normal : Vector K) (d0 : K) (v0 v1 v2 : Nat) :
    K × Option Nat :=
  q.points.enum.foldl
    (fun (acc : K × Option Nat) (ip : Nat × Vertex K) =>
      let dist := |ip.2.point.Dot normal - d0|
      if dist > acc.1 ∧ ip.1 ≠ v0 ∧ ip.1 ≠ v1 ∧ ip.1 ≠ v2 then (dist, some ip.1) else acc)
    (0, none)

/-- The two `SetOpposite` calls of one round of the linking loop of
`createInitialSimplex`: `tris[a].GetEdge(i).SetOpposite(tris[b].GetEdge(j))`. -/
def linkEdges (q : Hull K) (a : Nat) (i : Int) (b : Nat) (j : Int) : Except Err (Hull K) := do
  let e1 ← Face.GetEdge q a i
  let e2 ← Face.GetEdge q b j
  SetOpposite q e1 (some e2)

/-- The last loop of `createInitialSimplex`: each remaining point goes to the
face it is farthest above, if it is more than the tolerance above one. -/
def claimPoints (tris : List Nat) (v0 v1 v2 v3 : Nat) : List Nat → Hull K → Except Err (Hull K)
  | [], q => pure q
  | v :: rest, q =>
    if v = v0 ∨ v = v1 ∨ v = v2 ∨ v = v3 then claimPoints tris v0 v1 v2 v3 rest q
    else do
      let x ← q.vertex v
      let (_, maxFace) ← tris.foldl
        (fun acc t => do
          let (maxDist, maxFace) ← acc
          let f ← q.face t
          let dist := f.DistanceToPlane x.point
          if dist > maxDist then pure (dist, some t) else pure (maxDist, maxFace))
        (pure (q.tolerance, none) : Except Err (K × Option Nat))
      match maxFace with
      | some f => do
        let q ← addPointToFace q v f
        claimPoints tris v0 v1 v2 v3 rest q
      | none => claimPoints tris v0 v1 v2 v3 rest q

/-- Source `Hull.createInitialSimplex`; the second component is the returned
error (`none` is nil). -/
def createInitialSimplex (sqrt : K → K) (fuel : Nat) (q : Hull K) :
    Except Err (Hull K × Option String) := do
  let (max, imax) ← widestAxis q
  if max ≤ q.tolerance then
    return (q, some "Input points appear to e coincident")
  let v0 ← deref q.maxVertex[imax]?
  let v1 ← deref q.minVertex[imax]?
  let x0 ← q.vertex v0
  let x1 ← q.vertex v1
  let n := Normalize sqrt (x1.point.Minus x0.point)
  let (maxSqr, vtx2, normal) := farthestFromLine q n v0 v1 x0.point
  if sqrt maxSqr < 100 * q.tolerance then
    return (q, some "Input points appear to be colinear")
  let normal ← (match normal with
    | some nv => pure (Normalize sqrt nv)
    | none => .error .nilDeref : Except Err (Vector K))
  let v2 ← deref vtx2
  let x2 ← q.vertex v2
  let d0 := x2.point.Dot normal
  let (maxDist, vtx3) := farthestFromPlane q normal d0 v0 v1 v2
  if sqrt maxDist < 100 * q.tolerance then
    return (q, some "Input points appear to be coplanar")
  let v3 ← deref vtx3
  let x3 ← q.vertex v3
  let (q, tris) ← (
    if x3.point.Dot normal - d0 < 0 then do
      let (q, t0) ← NewFaceFromTriangle sqrt fuel q v0 v1 v2
      let (q, t1) ← NewFaceFromTriangle sqrt fuel q v3 v1 v0
      let (q, t2) ← NewFaceFromTriangle sqrt fuel q v3 v2 v1
      let (q, t3) ← NewFaceFromTriangle sqrt fuel q v3 v0 v2
      let tris := [t0, t1, t2, t3]
      let q ← [0, 1, 2].foldl
        (fun acc (i : Nat) => do
          let q ← acc
          let k := (i + 1) % 3
          let a ← deref tris[i + 1]?
          let b ← deref tris[k + 1]?
          let q ← linkEdges q a 1 b 0
          linkEdges q a 2 t0 (k : Int))
        (pure q : Except Err (Hull K))
      pure (q, tris)
    else do
      let (q, t0) ← NewFaceFromTriangle sqrt fuel q v0 v2 v1
      let (q, t1) ← NewFaceFromTriangle sqrt fuel q v3 v0 v1
      let (q, t2) ← NewFaceFromTriangle sqrt fuel q v3 v1 v2
      let (q, t3) ← NewFaceFromTriangle sqrt fuel q v3 v2 v0
      let tris := [t0, t1, t2, t3]
      let q ← [0, 1, 2].foldl
        (fun acc (i : Nat) => do
          let q ← acc
          let k := (i + 1) % 3
          let a ← deref tris[i + 1]?
          let b ← deref tris[k + 1]?
          let q ← linkEdges q a 0 b 1
          linkEdges q a 2 t0 (((3 - i) % 3 : Nat) : Int))
        (pure q : Except Err (Hull K))
      pure (q, tris)
    : Except Err (Hull K × List Nat))
  let q := { q with faces := q.faces ++ tris }
  let q ← claimPoints tris v0 v1 v2 v3 (List.range q.points.length) q
  pure (q, none)

/-- The loop of `nextPointToAdd` over the outside points of `eyeFace`; the
state is `maxDist`, `eyeVtx`. -/
def eyeLoop (q : Hull K) (eyeFace : Nat) (ef : Face K) :
    Nat → Option Nat → K → Option Nat → Except Err (Option Nat)
  | 0, _, _, _ => .error .outOfFuel
  | _ + 1, none, _, eyeVtx => pure eyeVtx
  | fuel + 1, some vtx, maxDist, eyeVtx => do
    let x ← q.vertex vtx
    if x.face = some eyeFace then
      let dist := ef.DistanceToPlane x.point
      if dist > maxDist then eyeLoop q eyeFace ef fuel x.next dist (some vtx)
      else eyeLoop q eyeFace ef fuel x.next maxDist eyeVtx
    else pure eyeVtx

/-- Source `Hull.nextPointToAdd`. -/
def nextPointToAdd (fuel : Nat) (q : Hull K) : Except Err (Option Nat) := do
  if !q.claimed.IsEmpty then
    let first ← deref q.claimed.First
    let fv ← q.vertex first
    let eyeFace ← deref fv.face
    let ef ← q.face eyeFace
    eyeLoop q eyeFace ef fuel ef.outside 0 none
  else pure none

/-- Source `Hull.removePointFromFace`. -/
def removePointFromFace (q : Hull K) (vtx face : Nat) : Except Err (Hull K) := do
  let f ← q.face face
  let x ← q.vertex vtx
  let q ← (if some vtx = f.outside then
      match x.next with
      | some n => do
        let nv ← q.vertex n
        if nv.face = some face then pure (q.setFace face { f with outside := some n })
        else pure (q.setFace face { f with outside := none })
      | none => pure (q.setFace face { f with outside := none })
    else pure q : Except Err (Hull K))
  let (q, claimed) ← VertexList.Delete q q.claimed vtx
  pure { q with claimed := claimed }

/-- The loop `for end.next != nil && end.next.face == face { end = end.next }`. -/
def endOfOutside (q : Hull K) (face : Nat) : Nat → Nat → Except Err Nat
  | 0, _ => .error .outOfFuel
  | fuel + 1, e => do
    let x ← q.vertex e
    match x.next with
    | none => pure e
    | some n => do
      let nv ← q.vertex n
      if nv.face = some face then endOfOutside q face fuel n else pure e

/-- Source `Hull.removeAllPointsFromFace`. -/
def removeAllPointsFromFace (fuel : Nat) (q : Hull K) (face : Nat) :
    Except Err (Hull K × Option Nat) := do
  let f ← q.face face
  match f.outside with
  | some o => do
    let e ← endOfOutside q face fuel o
    let (q, claimed) ← VertexList.DeleteChain q q.claimed o e
    let q := { q with claimed := claimed }
    let ev ← q.vertex e
    let q := q.setVertex e { ev with next := none }
    let f ← q.face face
    pure (q, f.outside)
  | none => pure (q, none)

/-- The loop of `deleteFacePoints` over the removed chain. -/
def absorbLoop (absorbingFace : Nat) : Nat → Hull K → Option Nat → Except Err (Hull K)
  | 0, _, _ => .error .outOfFuel
  | _ + 1, q, none => pure q
  | fuel + 1, q, some vtx => do
    let x ← q.vertex vtx
    let vtxNext := x.next
    let af ← q.face absorbingFace
    let dist := af.DistanceToPlane x.point
    if dist > q.tolerance then
      let q ← addPointToFace q vtx absorbingFace
      absorbLoop absorbingFace fuel q vtxNext
    else
      let (q, unclaimed) ← VertexList.Add q q.unclaimed vtx
      absorbLoop absorbingFace fuel { q with unclaimed := unclaimed } vtxNext

/-- Source `Hull.deleteFacePoints`. -/
def deleteFacePoints (fuel : Nat) (q : Hull K) (face : Nat) (absorbingFace : Option Nat) :
    Except Err (Hull K) := do
  let (q, faceVtxs) ← removeAllPointsFromFace fuel q face
  match faceVtxs with
  | some vs =>
    match absorbingFace with
    | none => do
      let (q, unclaimed) ← VertexList.AddAll fuel q q.unclaimed vs
      pure { q with unclaimed := unclaimed }
    | some af => absorbLoop af fuel q (some vs)
  | none => pure q

/-- The head of `calculateHorizon`: the outside points of the face go to the
unclaimed list and the face is marked DELETED. -/
def enterFace (fuel : Nat) (q : Hull K) (face : Nat) : Except Err (Hull K) := do
  let q ← deleteFacePoints fuel q face none
  let f ← q.face face
  pure (q.setFace face { f with mark := DELETED })

/-- The edge loop of `calculateHorizon`, from `edge` until `edge0` comes round;
the recursive call on a visible neighbour is the inner call. -/
def horizonLoop (fuel : Nat) (eyePnt : Vector K) :
    Nat → Hull K → Nat → Nat → Except Err (Hull K)
  | 0, _, _, _ => .error .outOfFuel
  | n + 1, q, edge0, edge => do
    let oppFace ← deref (← OppositeFace q edge)
    let of ← q.face oppFace
    let q ← (if of.mark = VISIBLE then
        if of.DistanceToPlane eyePnt > q.tolerance then do
          let opp ← deref (← Opposite q edge)
          let q ← enterFace fuel q oppFace
          let start ← nextOf q opp
          horizonLoop fuel eyePnt n q opp start
        else pure { q with horizon := q.horizon ++ [edge] }
      else pure q : Except Err (Hull K))
    let nx ← nextOf q edge
    if nx = edge0 then pure q else horizonLoop fuel eyePnt n q edge0 nx

/-- Source `Hull.calculateHorizon` as `addPointToHull` calls it (`edge0` nil). -/
def calculateHorizon (fuel : Nat) (q : Hull K) (eyePnt : Vector K) (face : Nat) :
    Except Err (Hull K) := do
  let q ← enterFace fuel q face
  let edge0 ← Face.GetEdge q face 0
  horizonLoop fuel eyePnt fuel q edge0 edge0

/-- Source `Hull.addAdjoiningFace`. -/
def addAdjoiningFace (sqrt : K → K) (fuel : Nat) (q : Hull K) (eyeVtx he : Nat) :
    Except Err (Hull K × Nat) := do
  let tl ← deref (← Tail q he)
  let hd ← Head q he
  let (q, face) ← NewFaceFromTriangle sqrt fuel q eyeVtx tl hd
  let q := { q with faces := q.faces ++ [face] }
  let e ← Face.GetEdge q face (-1)
  let q ← SetOpposite q e (← Opposite q he)
  let e0 ← Face.GetEdge q face 0
  pure (q, e0)

/-- The loop of `addNewFaces` over the horizon; the state is `hedgeSidePrev`,
`hedgeSideBegin`. -/
def newFacesLoop (sqrt : K → K) (fuel : Nat) (eyeVtx : Nat) :
    List Nat → Hull K → Option Nat → Option Nat → Except Err (Hull K)
  | [], q, _, _ => pure q
  | horizonHe :: rest, q, hedgeSidePrev, hedgeSideBegin => do
    let (q, hedgeSide) ← addAdjoiningFace sqrt fuel q eyeVtx horizonHe
    let (q, hedgeSideBegin) ← (match hedgeSidePrev with
      | some prev => do
        let nx ← nextOf q hedgeSide
        let q ← SetOpposite q nx (some prev)
        pure (q, hedgeSideBegin)
      | none => pure (q, some hedgeSide) : Except Err (Hull K × Option Nat))
    let hs ← q.halfEdge hedgeSide
    let (q, newFaces) ← FaceList.Add q q.newFaces hs.Face
    let q := { q with newFaces := newFaces }
    let hedgeSidePrev := some hedgeSide
    let b ← deref hedgeSideBegin
    let bn ← nextOf q b
    let q ← SetOpposite q bn hedgeSidePrev
    newFacesLoop sqrt fuel eyeVtx rest q hedgeSidePrev hedgeSideBegin

/-- Source `Hull.addNewFaces`. -/
def addNewFaces (sqrt : K → K) (fuel : Nat) (q : Hull K) (eyeVtx : Nat) (horizon : List Nat) :
    Except Err (Hull K) :=
  newFacesLoop sqrt fuel eyeVtx horizon { q with newFaces := q.newFaces.Clear } none none

/-- Source `Hull.oppFaceDistance`. -/
def oppFaceDistance (q : Hull K) (he : Nat) : Except Err K := do
  let e ← q.halfEdge he
  let f ← q.face e.Face
  let o ← deref e.opposite
  let oe ← q.halfEdge o
  let of ← q.face oe.Face
  pure (f.DistanceToPlane of.centroid)

/-- The test of one edge in `doAdjacentMerge`: `(merge, convex)`. -/
def mergeTest (q : Hull K) (face : Nat) (hedge : Nat) (mergeType : Nat) (convex : Bool) :
    Except Err (Bool × Bool) := do
  let oppFace ← OppositeFace q hedge
  if mergeType = NONCONVEX then
    let d1 ← oppFaceDistance q hedge
    if d1 > -q.tolerance then pure (true, convex)
    else
      let opp ← deref (← Opposite q hedge)
      let d2 ← oppFaceDistance q opp
      if d2 > -q.tolerance then pure (true, convex) else pure (false, convex)
  else
    let f ← q.face face
    let of ← q.face (← deref oppFace)
    if f.area > of.area then
      let dist1 ← oppFaceDistance q hedge
      if dist1 > -q.tolerance then pure (true, convex)
      else
        let opp ← deref (← Opposite q hedge)
        let d2 ← oppFaceDistance q opp
        if d2 > -q.tolerance then pure (false, false) else pure (false, convex)
    else
      let opp ← deref (← Opposite q hedge)
      let d2 ← oppFaceDistance q opp
      if d2 > -q.tolerance then pure (true, convex)
      else
        let d1 ← oppFaceDistance q hedge
        if d1 > -q.tolerance then pure (false, false) else pure (false, convex)

/-- The loop over the discarded faces after a merge. -/
def absorbDiscarded (fuel : Nat) (face : Nat) : List Nat → Hull K → Except Err (Hull K)
  | [], q => pure q
  | d :: rest, q => do
    let q ← deleteFacePoints fuel q d (some face)
    absorbDiscarded fuel face rest q

/-- The edge loop of `doAdjacentMerge`. -/
def mergeLoop (fuel : Nat) (face : Nat) (mergeType : Nat) :
    Nat → Hull K → Nat → Bool → Except Err (Hull K × Bool)
  | 0, _, _, _ => .error .outOfFuel
  | n + 1, q, hedge, convex => do
    let (merge, convex) ← mergeTest q face hedge mergeType convex
    if merge then
      let (q, discarded) ← mergeAdjacentFace fuel q face hedge
      let q ← absorbDiscarded fuel face discarded q
      pure (q, true)
    else
      let nx ← nextOf q hedge
      let f ← q.face face
      if nx = f.edge then
        if !convex then pure (q.setFace face { f with mark := NON_CONVEX }, false)
        else pure (q, false)
      else mergeLoop fuel face mergeType n q nx convex

/-- Source `Hull.doAdjacentMerge`. -/
def doAdjacentMerge (fuel : Nat) (q : Hull K) (face : Nat) (mergeType : Nat) :
    Except Err (Hull K × Bool) := do
  let f ← q.face face
  mergeLoop fuel face mergeType fuel q f.edge true

/-- The loop `for q.doAdjacentMerge(face, mergeType) {}`. -/
def mergeRepeat (fuel : Nat) (face : Nat) (mergeType : Nat) : Nat → Hull K → Except Err (Hull K)
  | 0, _ => .error .outOfFuel
  | n + 1, q => do
    let (q, merged) ← doAdjacentMerge fuel q face mergeType
    if merged then mergeRepeat fuel face mergeType n q else pure q

/-- The first merge pass of `addPointToHull` over the list of new faces. -/
def firstPass (fuel : Nat) : Nat → Hull K → Option Nat → Except Err (Hull K)
  | 0, _, _ => .error .outOfFuel
  | _ + 1, q, none => pure q
  | n + 1, q, some face => do
    let f ← q.face face
    let q ← (if f.mark = VISIBLE then mergeRepeat fuel face NONCONVEX_WRT_LARGER_FACE fuel q
      else pure q : Except Err (Hull K))
    let f ← q.face face
    firstPass fuel n q f.next

/-- The second merge pass of `addPointToHull`. -/
def secondPass (fuel : Nat) : Nat → Hull K → Option Nat → Except Err (Hull K)
  | 0, _, _ => .error .outOfFuel
  | _ + 1, q, none => pure q
  | n + 1, q, some face => do
    let f ← q.face face
    let q ← (if f.mark = NON_CONVEX then
        mergeRepeat fuel face NONCONVEX fuel (q.setFace face { f with mark := VISIBLE })
      else pure q : Except Err (Hull K))
    let f ← q.face face
    secondPass fuel n q f.next

/-- The inner loop of `resolveUnclaimedPoints` over the new faces; the state is
`maxDist`, `maxFace`. -/
def bestNewFace (q : Hull K) (pnt : Vector K) :
    Nat → Option Nat → K → Option Nat → Except Err (Option Nat)
  | 0, _, _, _ => .error .outOfFuel
  | _ + 1, none, _, maxFace => pure maxFace
  | n + 1, some newFace, maxDist, maxFace => do
    let f ← q.face newFace
    if f.mark = VISIBLE then
      let dist := f.DistanceToPlane pnt
      let (maxDist, maxFace) := if dist > maxDist then (dist, some newFace) else (maxDist, maxFace)
      if maxDist > 1000 * q.tolerance then pure maxFace
      else bestNewFace q pnt n f.next maxDist maxFace
    else bestNewFace q pnt n f.next maxDist maxFace

/-- The outer loop of `resolveUnclaimedPoints` over the unclaimed points. -/
def resolveLoop (fuel : Nat) : Nat → Hull K → Option Nat → Except Err (Hull K)
  | 0, _, _ => .error .outOfFuel
  | _ + 1, q, none => pure q
  | n + 1, q, some vtx => do
    let x ← q.vertex vtx
    let vtxNext := x.next
    let maxFace ← bestNewFace q x.point fuel q.newFaces.First q.tolerance none
    match maxFace with
    | some f => do
      let q ← addPointToFace q vtx f
      resolveLoop fuel n q vtxNext
    | none => resolveLoop fuel n q vtxNext

/-- Source `Hull.resolveUnclaimedPoints`. -/
def resolveUnclaimedPoints (fuel : Nat) (q : Hull K) : Except Err (Hull K) :=
  resolveLoop fuel fuel q q.unclaimed.First

/-- Source `Hull.addPointToHull`. -/
def addPointToHull (sqrt : K → K) (fuel : Nat) (q : Hull K) (eyeVtx : Nat) :
    Except Err (Hull K) := do
  let q := { q with horizon := [], unclaimed := q.unclaimed.Clear }
  let x ← q.vertex eyeVtx
  let eyeFace ← deref x.face
  let q ← removePointFromFace q eyeVtx eyeFace
  let q ← calculateHorizon fuel q x.point eyeFace
  let q := { q with newFaces := q.newFaces.Clear }
  let q ← addNewFaces sqrt fuel q eyeVtx q.horizon
  let q ← firstPass fuel fuel q q.newFaces.First
  let q ← secondPass fuel fuel q q.newFaces.First
  resolveUnclaimedPoints fuel q

/-- Source `Hull.Vertices`. -/
def Vertices (q : Hull K) : Except Err (List (Vector K)) :=
  (List.range q.numVertices).mapM fun i => do
    let j ← (match q.vertexPointIndices[i]? with
      | some j => pure j
      | none => .error .indexOutOfRange : Except Err Nat)
    let x ← (match q.points[j]? with
      | some x => pure x
      | none => .error .indexOutOfRange : Except Err (Vertex K))
    pure x.point

/-- The loop of `getFaceIndices` (flags 0: counter-clockwise, indexed from
zero, not point relative); `indices[k] = idx` panics once `k` reaches
`face.numVerts`. -/
def indicesLoop (q : Hull K) (edge : Nat) (numVerts : Nat) :
    Nat → Nat → List Int → Except Err (List Int)
  | 0, _, _ => .error .outOfFuel
  | fuel + 1, hedge, acc => do
    let hd ← Head q hedge
    let x ← q.vertex hd
    if acc.length < numVerts then
      let acc := acc ++ [x.index]
      let nx ← nextOf q hedge
      if nx = edge then pure (acc ++ List.replicate (numVerts - acc.length) 0)
      else indicesLoop q edge numVerts fuel nx acc
    else .error .indexOutOfRange

/-- Source `Hull.getFaceIndices` with flags 0. -/
def getFaceIndices (fuel : Nat) (q : Hull K) (face : Nat) : Except Err (List Int) := do
  let f ← q.face face
  indicesLoop q f.edge f.numVerts fuel f.edge []

/-- Source `Hull.Faces`. -/
def Faces (fuel : Nat) (q : Hull K) : Except Err (List (List Int)) :=
  q.faces.mapM fun face => getFaceIndices fuel q face

/-- The loop of `buildHull`: points are added until `nextPointToAdd` returns
nil. -/
def expandLoop (sqrt : K → K) (fuel : Nat) : Nat → Hull K → Except Err (Hull K)
  | 0, _ => .error .outOfFuel
  | n + 1, q => do
    let eyeVtx ← nextPointToAdd fuel q
    match eyeVtx with
    | none => pure q
    | some eye => do
      let q ← addPointToHull sqrt fuel q eye
      expandLoop sqrt fuel n q

/-- Source `Hull.buildHull`; the second component is the returned error. -/
def buildHull (sqrt : K → K) (fuel : Nat) (q : Hull K) : Except Err (Hull K × Option String) := do
  let q ← computeMinAndMax q
  let (q, err) ← createInitialSimplex sqrt fuel q
  if err.isSome then
    return (q, err)
  let q ← expandLoop sqrt fuel fuel q
  let q ← reindexFacesAndVertices fuel q
  pure (q, none)

/-- Source `Hull.Build`; the second component is the returned error.  The
result of `q.buildHull()` is dropped and `nil` returned. -/
def Build (sqrt : K → K) (fuel : Nat) (q : Hull K) (points : List (Vector K)) (nump : Int) :
    Except Err (Hull K × Option String) := do
  if nump < 4 then
    return (q, some "Less than four input points specified")
  if (points.length : Int) < nump then
    return (q, some "Point array too small for specified number of points")
  let q := initBuffers q nump.toNat
  let q := setPoints q points nump.toNat
  let (q, _) ← buildHull sqrt fuel q
  pure (q, none)

/-! ## Concrete inputs -/

/-- The seven points of `TestSimpleHull` (hull_test.go). -/
def simplePoints : List (Vector ℚ) :=
  [⟨0, 0, 0⟩, ⟨1, 1 / 2, 0⟩, ⟨2, 0, 0⟩, ⟨1 / 2, 1 / 2, 1 / 2⟩, ⟨0, 0, 2⟩,
   ⟨1 / 10, 1 / 5, 3 / 10⟩, ⟨0, 2, 0⟩]

/-- Seven points at the same position. -/
def coincidentPoints : List (Vector ℚ) := List.replicate 7 ⟨1, 1, 1⟩

/-- Four points on the X axis. -/
def colinearPoints : List (Vector ℚ) := [⟨0, 0, 0⟩, ⟨1, 0, 0⟩, ⟨2, 0, 0⟩, ⟨3, 0, 0⟩]

/-- Five points, all coordinates dyadic: the tetrahedron `(-1,0,0)`, `(1,0,0)`,
`(0,-8,0)`, `(0,1,-1)` and the point `(0, 1/8, 2⁻⁵⁰)`, which lies well above the
face on the first, second and fourth point and `2⁻⁵⁰` (less than the
tolerance) above the face in the plane `z = 0`. -/
def slabPoints : List (Vector ℚ) :=
  [⟨-1, 0, 0⟩, ⟨1, 0, 0⟩, ⟨0, -8, 0⟩, ⟨0, 1, -1⟩, ⟨0, 1 / 8, 1 / 2 ^ 50⟩]

/-- Some input point lies more than the tolerance above the plane of the face. -/
def Face.hasPointAbove (q : Hull K) (face : Face K) : Bool :=
  q.points.any fun v => decide (face.DistanceToPlane v.point > q.tolerance)

/-- Some input point lies more than the tolerance above the plane of a face the
hull returns (a face of `q.faces`). -/
def farAbove (q : Hull K) : Bool :=
  q.faces.any fun f =>
    match q.faceStore[f]? with
    | some face => face.hasPointAbove q
    | none => false

/-- `Build` on a fresh hull returns nil and leaves a hull that passes the
test. -/
def buildsWith (fuel : Nat) (points : List (Vector ℚ)) (test : Hull ℚ → Bool) : Bool :=
  match Build Csg.ratSqrt fuel Hull.new points points.length with
  | .ok (q, none) => test q
  | _ => false

/-- `buildHull` on the buffers `Build` prepares returns the error message. -/
def buildHullError (fuel : Nat) (points : List (Vector ℚ)) : Option String :=
  match buildHull Csg.ratSqrt fuel
      (setPoints (initBuffers Hull.new points.length) points points.length) with
  | .ok (_, err) => err
  | .error _ => none

end Qhull

namespace Qhull

open Csg (Vector Err)

variable {K : Type} [LinearOrderedField K]

/-! ## Degenerate inputs -/

/-- All the points occupy one position. -/
def Coincident (ps : List (Vector K)) : Prop := ∃ o : Vector K, ∀ p ∈ ps, p = o

/-- All the points lie on one line: each is `o + t·d` for a common point `o`
and direction `d`. -/
def OnOneLine (ps : List (Vector K)) : Prop :=
  ∃ o d : Vector K, ∀ p ∈ ps, ∃ t : K, p = o.Plus (d.Times t)

/-- All the points lie in one plane: `dot(m, p) = c` for a common normal
`m ≠ 0` and offset `c`. -/
def Coplanar (ps : List (Vector K)) : Prop :=
  ∃ m : Vector K, m ≠ ⟨0, 0, 0⟩ ∧ ∃ c : K, ∀ p ∈ ps, m.Dot p = c

/-- Entry `i` of a `maxVertex` or `minVertex` array points at a vertex whose
coordinate `i` is `c`. -/
def AxisOK (points : List (Vertex K)) (l : List Nat) (i : Nat) (c : K) : Prop :=
  ∃ a x, l[i]? = some a ∧ points[a]? = some x ∧ Get x.point i = c

/-- What the scan of `computeMinAndMax` keeps true: the recorded vertices
attain the recorded extremes. -/
def MinMax.OK (points : List (Vertex K)) (s : MinMax K) : Prop :=
  AxisOK points s.maxVertex 0 s.max.X ∧ AxisOK points s.maxVertex 1 s.max.Y ∧
    AxisOK points s.maxVertex 2 s.max.Z ∧ AxisOK points s.minVertex 0 s.min.X ∧
    AxisOK points s.minVertex 1 s.min.Y ∧ AxisOK points s.minVertex 2 s.min.Z

/-- The four corners of the unit square in the plane `z = 0`. -/
def squarePoints : List (Vector ℚ) := [⟨0, 0, 0⟩, ⟨1, 0, 0⟩, ⟨1, 1, 0⟩, ⟨0, 1, 0⟩]

/-! ## The vertices of the hull -/

/-- The indices `Vertices()` reads: `vertexPointIndices[0 .. numVertices)`. -/
def vertexIndices (q : Hull K) : List Nat := q.vertexPointIndices.take q.numVertices

/-- The vertex `i` is the head of a half-edge on the loop of a VISIBLE face of
`q.faces`. -/
def OnVisibleFace (q : Hull K) (i : Nat) : Prop :=
  ∃ f ∈ q.faces, ∃ face, q.faceStore[f]? = some face ∧ face.mark = VISIBLE ∧
    ∃ k e, walkNext q k face.edge = .ok e ∧ Head q e = .ok i

/-- The two hulls have the same mesh and the same buffers apart from the
vertex objects. -/
def SameMesh (q q1 : Hull K) : Prop :=
  q1.edgeStore = q.edgeStore ∧ q1.faceStore = q.faceStore ∧
    q1.vertexPointIndices = q.vertexPointIndices ∧ q1.numVertices = q.numVertices ∧
    q1.numPoints = q.numPoints ∧ q1.faces = q.faces ∧ q1.points.length = q.points.length

/-- The vertex at `i` carries the index mark 0. -/
def marked (q : Hull K) (i : Nat) : Bool :=
  match q.points[i]? with
  | some x => x.index == 0
  | none => false

/-- Two builds on one hull: the seven test points, then seven coincident
points. -/
def buildTwice : Except Err (Hull ℚ × Option String) := do
  let (q1, _) ← Build Csg.ratSqrt 20 Hull.new simplePoints 7
  Build Csg.ratSqrt 20 q1 coincidentPoints 7

end Qhull
namespace Qhull

open Csg (Vector Err)

variable {K : Type} [LinearOrderedField K]

/-! ## The initial simplex -/

/-- The vertex `v` is the head of some half-edge of the hull. -/
def isSimplexVertex (q : Hull K) (v : Nat) : Bool := q.edgeStore.any fun e => e.Vertex == v

/-- No point of the hull, the heads of its half-edges apart, lies more than the
tolerance above the plane of a face of `q.faces`. -/
def noPointOutside (q : Hull K) : Bool :=
  (List.range q.points.length).all fun v =>
    isSimplexVertex q v ||
      match q.points[v]? with
      | some x => q.faces.all fun f =>
          match q.faceStore[f]? with
          | some face => decide (face.DistanceToPlane x.point ≤ q.tolerance)
          | none => true
      | none => true

/-- The run of `Build` on the hull `q` up to the end of `createInitialSimplex`,
for a point count that passed the two checks of `Build`. -/
def initialSimplex (sqrt : K → K) (fuel : Nat) (q : Hull K) (points : List (Vector K))
    (nump : Nat) : Except Err (Hull K × Option String) := do
  let q ← computeMinAndMax (setPoints (initBuffers q nump) points nump)
  createInitialSimplex sqrt fuel q

/-- The part of a half-edge that links it into its face: everything but
`opposite`. -/
def HalfEdge.loop (e : HalfEdge) : Nat × Nat × Option Nat × Option Nat :=
  (e.Vertex, e.Face, e.next, e.prev)

/-- The second hull is the first with half-edges that differ at most in
`opposite`. -/
def Relinked (q q1 : Hull K) : Prop :=
  ∃ E : List HalfEdge, q1 = { q with edgeStore := E } ∧
    E.map HalfEdge.loop = q.edgeStore.map HalfEdge.loop

/-- The second hull has the half-edges, the face list, the tolerance, the
positions of the points and the planes of the faces of the first. -/
def SameGeometry (q q1 : Hull K) : Prop :=
  q1.edgeStore = q.edgeStore ∧ q1.faces = q.faces ∧ q1.tolerance = q.tolerance ∧
    q1.points.map (fun x => x.point) = q.points.map (fun x => x.point) ∧
    q1.faceStore.map (fun f => (f.Normal, f.W)) = q.faceStore.map (fun f => (f.Normal, f.W))

end Qhull
namespace Qhull

open Csg (Vector Err)

variable {K : Type} [LinearOrderedField K]

/-- The half-edge `e0` starts a loop of three half-edges whose heads are `a`,
`b` and `c`. -/
def IsTriangle (q : Hull K) (e0 a b c : Nat) : Prop :=
  ∃ e1 e2, nextOf q e0 = .ok e1 ∧ nextOf q e1 = .ok e2 ∧ nextOf q e2 = .ok e0 ∧
    e1 ≠ e0 ∧ e2 ≠ e0 ∧ Head q e0 = .ok a ∧ Head q e1 = .ok b ∧ Head q e2 = .ok c

/-- The second hull is the first with the index mark `mark` written to the
vertices that satisfy `S`; nothing else but the counter `numFaces` differs. -/
def Remarked (q q1 : Hull K) (S : Nat → Prop) (mark : Int) : Prop :=
  ∃ (P : List (Vertex K)) (n : Nat), q1 = { q with points := P, numFaces := n } ∧
    ∀ i, (S i → P[i]? = (q.points[i]?).map fun x => { x with index := mark }) ∧
      (¬ S i → P[i]? = q.points[i]?)

/-- The face `f` is a VISIBLE triangle whose loop has the heads `a`, `b` and
`c`, from `face.edge` on. -/
def TriFace (q : Hull K) (f a b c : Nat) : Prop :=
  ∃ face, q.faceStore[f]? = some face ∧ face.mark = VISIBLE ∧ face.numVerts = 3 ∧
    IsTriangle q face.edge a b c

/-- The vertex `i` is a corner of a triangle of the list `fs`. -/
def CornerOf (q : Hull K) (fs : List Nat) (i : Nat) : Prop :=
  ∃ f ∈ fs, ∃ a b c, TriFace q f a b c ∧ (i = a ∨ i = b ∨ i = c)

/-- The loops of the twelve half-edges of four triangles made one after the
other on empty stores: vertex, face, `next` and `prev` of each. -/
def simplexEdges (t0 t1 t2 t3 : Nat × Nat × Nat) : List (Nat × Nat × Option Nat × Option Nat) :=
  [(t0.1, 0, some 1, some 2), (t0.2.1, 0, some 2, some 0), (t0.2.2, 0, some 0, some 1),
   (t1.1, 1, some 4, some 5), (t1.2.1, 1, some 5, some 3), (t1.2.2, 1, some 3, some 4),
   (t2.1, 2, some 7, some 8), (t2.2.1, 2, some 8, some 6), (t2.2.2, 2, some 6, some 7),
   (t3.1, 3, some 10, some 11), (t3.2.1, 3, some 11, some 9), (t3.2.2, 3, some 9, some 10)]

/-- The hull `qs` is `q` with the four faces of the simplex on the distinct
vertices `v0 v1 v2 v3`, in one of the two orientations of
`createInitialSimplex`. -/
def IsSimplex (q qs : Hull K) (v0 v1 v2 v3 : Nat) : Prop :=
  [v0, v1, v2, v3].Nodup ∧ (∀ v ∈ [v0, v1, v2, v3], v < q.points.length) ∧
    ∃ (E : List HalfEdge) (f0 f1 f2 f3 : Face K) (t0 t1 t2 t3 : Nat × Nat × Nat),
      qs = { q with edgeStore := E, faceStore := [f0, f1, f2, f3], faces := [0, 1, 2, 3] } ∧
      E.map HalfEdge.loop = simplexEdges t0 t1 t2 t3 ∧
      ([t0, t1, t2, t3] = [(v0, v1, v2), (v3, v1, v0), (v3, v2, v1), (v3, v0, v2)] ∨
        [t0, t1, t2, t3] = [(v0, v2, v1), (v3, v0, v1), (v3, v1, v2), (v3, v2, v0)]) ∧
      (f0.edge = 0 ∧ f1.edge = 3 ∧ f2.edge = 6 ∧ f3.edge = 9) ∧
      ∀ f ∈ [f0, f1, f2, f3], f.numVerts = 3 ∧ f.mark = VISIBLE

end Qhull
namespace Qhull

open Csg (Vector Err)

variable {K : Type} [LinearOrderedField K]

/-! ## The half-edge links of the initial simplex -/

/-- The half-edges of the hull have the loops `L` (vertex, face, `next`,
`prev`) and the opposites `O`, position by position. -/
def Linked (q : Hull K) (L : List (Nat × Nat × Option Nat × Option Nat))
    (O : List (Option Nat)) : Prop :=
  q.edgeStore.map HalfEdge.loop = L ∧ q.edgeStore.map (fun e => e.opposite) = O

/-- What `h.SetOpposite(e)` does to the list of opposites. -/
def linkStep (O : List (Option Nat)) (h e : Nat) : List (Option Nat) :=
  (O.set h (some e)).set e (some h)

/-- The half-edges with the given loops and opposites. -/
def edgesOf (L : List (Nat × Nat × Option Nat × Option Nat)) (O : List (Option Nat)) :
    List HalfEdge :=
  List.zipWith (fun l o => ⟨l.1, l.2.1, l.2.2.1, l.2.2.2, o⟩) L O

/-- The plane of the face is the plane `NewPlaneFromPoints` puts through the
points of the three vertices `t`. -/
def FacePlane (sqrt : K → K) (q : Hull K) (face : Face K) (t : Nat × Nat × Nat) : Prop :=
  ∃ x0 x1 x2 : Vertex K, q.points[t.1]? = some x0 ∧ q.points[t.2.1]? = some x1 ∧
    q.points[t.2.2]? = some x2 ∧
    face.Normal = (Csg.NewPlaneFromPoints sqrt x0.point x1.point x2.point).Normal ∧
    face.W = (Csg.NewPlaneFromPoints sqrt x0.point x1.point x2.point).W

/-- The vertex `v` is the head of no half-edge of the face `f`. -/
def offFace (q : Hull K) (f v : Nat) : Bool :=
  q.edgeStore.all fun e => !(e.Face == f && e.Vertex == v)

end Qhull
namespace Qhull

open Csg (Vector Err)

variable {K : Type} [LinearOrderedField K]

/-- Four points: three in the plane `z = 0` and one at height `10⁻¹⁴` above it. -/
def nearFlatPoints : List (Vector ℚ) :=
  [⟨0, 0, 0⟩, ⟨1, 0, 0⟩, ⟨0, 1, 0⟩, ⟨0, 0, 1 / 10 ^ 14⟩]

/-! ## The vertex lists as sequences -/

/-- The first element of the list, or `n` when the list is empty. -/
def firstOr : List Nat → Option Nat → Option Nat
  | [], n => n
  | a :: _, _ => some a

/-- The last element of the list, or `p` when the list is empty. -/
def lastOr : List Nat → Option Nat → Option Nat
  | [], p => p
  | a :: rest, _ => lastOr rest (some a)

/-- The vertices of `l` are linked in this order between `p` and `n`: the
`prev` of the first is `p`, the `next` of the last is `n`, and for consecutive
members `x`, `y` the `next` of `x` is `y` and the `prev` of `y` is `x`. -/
def Chain (pts : List (Vertex K)) : Option Nat → List Nat → Option Nat → Prop
  | _, [], _ => True
  | p, a :: rest, n =>
    (∃ x, pts[a]? = some x ∧ x.prev = p ∧ x.next = firstOr rest n) ∧ Chain pts (some a) rest n

/-- The list `v` is well formed and its members are, in order, the vertices of
`l`: `head` is the first and `tail` the last of them (both nil when there is
none), `head.prev` and `tail.next` are nil, and consecutive members are linked
in both directions. -/
def VertexList.IsSeq (q : Hull K) (v : VertexList) (l : List Nat) : Prop :=
  v.head = l.head? ∧ v.tail = l.getLast? ∧ Chain q.points none l none

/-- The second hull differs from the first only in the `prev` and `next`
fields of its vertices. -/
def SameButLinks (q q1 : Hull K) : Prop :=
  q1 = { q with points := q1.points } ∧
    q1.points.map (fun x => (x.point, x.index, x.face)) =
      q.points.map (fun x => (x.point, x.index, x.face))

/-- A face of the plane `z = 0` whose outside set begins at vertex 0. -/
def claimedFace : Face ℚ :=
  { Normal := ⟨0, 0, 1⟩, W := 0, edge := 0, area := 0, index := 0, numVerts := 3,
    centroid := ⟨0, 0, 0⟩, next := none, mark := VISIBLE, outside := some 0 }

/-- A hull state with three vertices: 0 and 1 are, in this order, the claimed
list and form the outside set of face 0; vertex 2 is in no list. -/
def claimedHull : Hull ℚ :=
  { (Hull.new : Hull ℚ) with
    points := [⟨⟨0, 0, 1⟩, 0, none, some 1, some 0⟩, ⟨⟨1, 0, 1⟩, 1, some 0, none, some 0⟩,
      ⟨⟨0, 1, 1⟩, 2, none, none, none⟩],
    claimed := ⟨some 0, some 1⟩,
    faceStore := [claimedFace] }

/-- The `face` field of the vertex `v` is the face `f`. -/
def HasFace (q : Hull K) (v f : Nat) : Prop := ∃ x, q.points[v]? = some x ∧ x.face = some f

/-- The members of the list `l` whose `face` field is the face `f` form one
contiguous run of `l` that begins at the vertex `outside` of the face; when
`outside` is nil no member has the face `f`. -/
def RunOf (q : Hull K) (l : List Nat) (f : Nat) (outside : Option Nat) : Prop :=
  match outside with
  | some o => ∃ l1 run l2, l = l1 ++ (o :: run ++ l2) ∧ (∀ v ∈ o :: run, HasFace q v f) ∧
      ∀ v, v ∈ l1 ∨ v ∈ l2 → ¬ HasFace q v f
  | none => ∀ v ∈ l, ¬ HasFace q v f

/-- The invariant of the claimed list with members `l`: `RunOf` for every face
of the store. -/
def OutsideRuns (q : Hull K) (l : List Nat) : Prop :=
  ∀ f fr, q.faceStore[f]? = some fr → RunOf q l f fr.outside

/-- The invariant as the specification words it: for every face whose
`outside` is not nil, the vertices (of the store) whose `face` field is that
face are exactly one contiguous run of `l` beginning at `outside`. -/
def LiteralRuns (q : Hull K) (l : List Nat) : Prop :=
  ∀ f fr o, q.faceStore[f]? = some fr → fr.outside = some o →
    ∃ l1 run l2, l = l1 ++ (o :: run ++ l2) ∧ ∀ v, HasFace q v f ↔ v ∈ o :: run

end Qhull

namespace Qhull

open Csg (Vector Err)

variable {K : Type} [LinearOrderedField K]

/-- The body of the loop of `addNewFaces` up to and including
`hedgeSidePrev = hedgeSide`, that is, all of it but the closing
`hedgeSideBegin.next.SetOpposite(hedgeSidePrev)`; returns the hull, `hedgeSide`
and `hedgeSideBegin`. -/
def faceStep (sqrt : K → K) (fuel : Nat) (eyeVtx horizonHe : Nat) (q : Hull K)
    (hedgeSidePrev hedgeSideBegin : Option Nat) : Except Err (Hull K × Nat × Option Nat) := do
  let (q, hedgeSide) ← addAdjoiningFace sqrt fuel q eyeVtx horizonHe
  let (q, hedgeSideBegin) ← (match hedgeSidePrev with
    | some prev => do
      let nx ← nextOf q hedgeSide
      let q ← SetOpposite q nx (some prev)
      pure (q, hedgeSideBegin)
    | none => pure (q, some hedgeSide) : Except Err (Hull K × Option Nat))
  let hs ← q.halfEdge hedgeSide
  let (q, newFaces) ← FaceList.Add q q.newFaces hs.Face
  let q := { q with newFaces := newFaces }
  pure (q, hedgeSide, hedgeSideBegin)

/-- The closing step of the fan: `hedgeSideBegin.next.SetOpposite(hedgeSidePrev)`. -/
def closeFan (q : Hull K) (hedgeSidePrev hedgeSideBegin : Option Nat) : Except Err (Hull K) := do
  let b ← deref hedgeSideBegin
  let bn ← nextOf q b
  SetOpposite q bn hedgeSidePrev

/-- The loop of the variant of `addNewFaces` that closes the fan once, after
the loop: the body of the source's loop without its last statement; returns
the hull, `hedgeSidePrev` and `hedgeSideBegin`. -/
def newFacesLoopHoisted (sqrt : K → K) (fuel : Nat) (eyeVtx : Nat) :
    List Nat → Hull K → Option Nat → Option Nat → Except Err (Hull K × Option Nat × Option Nat)
  | [], q, hedgeSidePrev, hedgeSideBegin => pure (q, hedgeSidePrev, hedgeSideBegin)
  | horizonHe :: rest, q, hedgeSidePrev, hedgeSideBegin => do
    let (q, hedgeSide, hedgeSideBegin) ←
      faceStep sqrt fuel eyeVtx horizonHe q hedgeSidePrev hedgeSideBegin
    newFacesLoopHoisted sqrt fuel eyeVtx rest q (some hedgeSide) hedgeSideBegin

/-- The variant of `addNewFaces` that performs the closure
`hedgeSideBegin.next.SetOpposite(hedgeSidePrev)` once after the loop. -/
def addNewFacesHoisted (sqrt : K → K) (fuel : Nat) (q : Hull K) (eyeVtx : Nat)
    (horizon : List Nat) : Except Err (Hull K) := do
  let (q, hedgeSidePrev, hedgeSideBegin) ←
    newFacesLoopHoisted sqrt fuel eyeVtx horizon { q with newFaces := q.newFaces.Clear } none none
  closeFan q hedgeSidePrev hedgeSideBegin

/-- The second hull is the first with half-edges that differ at most in the
`opposite` of the half-edges at the positions `W`. -/
def OffAt (W : Nat → Prop) (q q1 : Hull K) : Prop :=
  ∃ E : List HalfEdge, q1 = { q with edgeStore := E } ∧
    E.map HalfEdge.loop = q.edgeStore.map HalfEdge.loop ∧
    ∀ i, ¬ W i → E[i]? = q.edgeStore[i]?

/-- Two runs end alike: with the same error, or with results related by `R`. -/
def Sim {β : Type} (R : β → β → Prop) (r r1 : Except Err β) : Prop :=
  match r, r1 with
  | .ok a, .ok b => R a b
  | .error e, .error e1 => e = e1
  | _, _ => False

end Qhull

namespace Qhull

open Csg (Vector Err)

/-- A tetrahedron and a fifth point outside its face `x + y + z = 1`. -/
def fanPoints : List (Vector ℚ) := [⟨0, 0, 0⟩, ⟨1, 0, 0⟩, ⟨0, 1, 0⟩, ⟨0, 0, 1⟩, ⟨1, 1, 1⟩]

/-- The hull and the eye vertex at the first call of `addNewFaces` when the
hull of `fanPoints` is built: the state of `addPointToHull` after
`calculateHorizon` and `q.newFaces.Clear()`. -/
def firstFan (fuel : Nat) : Except Err (Hull ℚ × Nat) := do
  let q ← computeMinAndMax (setPoints (initBuffers Hull.new 5) fanPoints 5)
  let (q, _) ← createInitialSimplex Csg.ratSqrt fuel q
  let eyeVtx ← deref (← nextPointToAdd fuel q)
  let q := { q with horizon := [], unclaimed := q.unclaimed.Clear }
  let x ← q.vertex eyeVtx
  let eyeFace ← deref x.face
  let q ← removePointFromFace q eyeVtx eyeFace
  let q ← calculateHorizon fuel q x.point eyeFace
  pure ({ q with newFaces := q.newFaces.Clear }, eyeVtx)

end Qhull

namespace Qhull

open Csg (Vector Err)

variable {K : Type} [LinearOrderedField K]

end Qhull
namespace Qhull

open Csg (Vector Err)

variable {K : Type} [LinearOrderedField K]

/-! ## The outside sets while faces are deleted -/

/-- The invariant of the claimed list with members `l` that also covers the
faces whose outside points were taken away: for every face of the store,
either `RunOf` with the face's `outside`, or no member of `l` has the face. -/
def ClaimedRuns (q : Hull K) (l : List Nat) : Prop :=
  ∀ f fr, q.faceStore[f]? = some fr → RunOf q l f fr.outside ∨ RunOf q l f none

/-- Every face of the second hull is the face of the first at the same place,
but for `face`, whose `outside` is `o`. -/
def OutsideSetTo (q q1 : Hull K) (face : Nat) (o : Option Nat) : Prop :=
  ∀ g gr, q1.faceStore[g]? = some gr →
    (g = face ∧ gr.outside = o) ∨ (g ≠ face ∧ q.faceStore[g]? = some gr)

/-- Six points: a tetrahedron and two points outside its face
`x + y + z = 10`. -/
def twoOutside : List (Vector ℚ) :=
  [⟨0, 0, 0⟩, ⟨10, 0, 0⟩, ⟨0, 10, 0⟩, ⟨0, 0, 10⟩, ⟨4, 4, 4⟩, ⟨5, 5, 1⟩]

/-- The hull of `twoOutside` when `createInitialSimplex` has returned. -/
def afterSimplex (fuel : Nat) : Except Err (Hull ℚ) := do
  let q ← computeMinAndMax (setPoints (initBuffers Hull.new 6) twoOutside 6)
  let (q, _) ← createInitialSimplex Csg.ratSqrt fuel q
  pure q

/-- The hull of `twoOutside` after the first round of the loop of `buildHull`:
the first `nextPointToAdd` and `addPointToHull`. -/
def afterFirstPoint (fuel : Nat) : Except Err (Hull ℚ) := do
  let q ← afterSimplex fuel
  let eyeVtx ← deref (← nextPointToAdd fuel q)
  addPointToHull Csg.ratSqrt fuel q eyeVtx

/-- Decides `Chain`. -/
def checkChain (pts : List (Vertex K)) : Option Nat → List Nat → Option Nat → Bool
  | _, [], _ => true
  | p, a :: rest, n =>
    (match pts[a]? with
      | some x => decide (x.prev = p) && decide (x.next = firstOr rest n)
      | none => false) && checkChain pts (some a) rest n

/-- Decides `VertexList.IsSeq` for the claimed list. -/
def checkSeq (q : Hull K) (l : List Nat) : Bool :=
  decide (q.claimed.head = l.head?) && decide (q.claimed.tail = l.getLast?) &&
    checkChain q.points none l none

/-- Decides `HasFace`. -/
def checkFace (q : Hull K) (f v : Nat) : Bool :=
  match q.points[v]? with
  | some x => decide (x.face = some f)
  | none => false

/-- Checks `RunOf` for a face whose `outside` is the vertex `o`. -/
def checkRunAt (q : Hull K) (f o : Nat) : List Nat → Bool
  | [] => false
  | a :: t =>
    if a = o then
      checkFace q f a && (t.dropWhile (checkFace q f)).all fun v => !checkFace q f v
    else !checkFace q f a && checkRunAt q f o t

/-- Checks `RunOf`. -/
def checkRun (q : Hull K) (l : List Nat) (f : Nat) : Option Nat → Bool
  | none => l.all fun v => !checkFace q f v
  | some o => checkRunAt q f o l

/-- Checks `ClaimedRuns`. -/
def checkRuns (q : Hull K) (l : List Nat) : Bool :=
  (List.range q.faceStore.length).all fun f =>
    match q.faceStore[f]? with
    | some fr => checkRun q l f fr.outside || checkRun q l f none
    | none => true

end Qhull

/-! # Theorems -/

namespace Csg

section Splitter

variable {K : Type} [LinearOrderedField K]

theorem EPSILON_pos : (0 : K) < EPSILON := by
  unfold EPSILON
  positivity

theorem Vertex_Clone_eq (v : Vertex K) : v.Clone = v := rfl

theorem Plane_Clone_eq (p : Plane K) : p.Clone = p := rfl

/-- The three outcomes of the vertex classification, with the test that
selects each. -/
theorem vertexType_cases (plane : Plane K) (v : Vertex K) :
    (vertexType plane v = BACK ∧ plane.Normal.Dot v.Position - plane.W < -EPSILON) ∨
    (vertexType plane v = FRONT ∧ EPSILON < plane.Normal.Dot v.Position - plane.W) ∨
    (vertexType plane v = COPLANAR ∧ -EPSILON ≤ plane.Normal.Dot v.Position - plane.W ∧
      plane.Normal.Dot v.Position - plane.W ≤ EPSILON) := by
  unfold vertexType
  by_cases h1 : plane.Normal.Dot v.Position - plane.W < -EPSILON
  · left
    simp [h1]
  · by_cases h2 : plane.Normal.Dot v.Position - plane.W > EPSILON
    · right; left
      simp [h1, h2]
    · right; right
      simp only [h1, h2, if_false, true_and]
      exact ⟨not_lt.mp h1, not_lt.mp h2⟩

theorem vertexType_eq_BACK (plane : Plane K) (v : Vertex K) :
    vertexType plane v = BACK ↔ plane.Normal.Dot v.Position - plane.W < -EPSILON := by
  have hpos : (0 : K) < EPSILON := EPSILON_pos
  rcases vertexType_cases plane v with h | h | h
  · exact ⟨fun _ => h.2, fun _ => h.1⟩
  · constructor
    · intro hb
      rw [h.1] at hb
      exact absurd hb (by decide)
    · intro hlt
      linarith [h.2]
  · constructor
    · intro hb
      rw [h.1] at hb
      exact absurd hb (by decide)
    · intro hlt
      linarith [h.2.1]

theorem vertexType_eq_FRONT (plane : Plane K) (v : Vertex K) :
    vertexType plane v = FRONT ↔ EPSILON < plane.Normal.Dot v.Position - plane.W := by
  have hpos : (0 : K) < EPSILON := EPSILON_pos
  rcases vertexType_cases plane v with h | h | h
  · constructor
    · intro hb
      rw [h.1] at hb
      exact absurd hb (by decide)
    · intro hlt
      linarith [h.2]
  · exact ⟨fun _ => h.2, fun _ => h.1⟩
  · constructor
    · intro hb
      rw [h.1] at hb
      exact absurd hb (by decide)
    · intro hlt
      linarith [h.2.2]

theorem vertexType_le_two (plane : Plane K) (v : Vertex K) : vertexType plane v ≤ 2 := by
  rcases vertexType_cases plane v with h | h | h <;> rw [h.1] <;> decide

/-- An edge is crossed exactly when one end is FRONT and the other BACK. -/
theorem lor_eq_SPANNING {a b : Nat} (ha : a ≤ 2) (hb : b ≤ 2) :
    (a ||| b) = SPANNING ↔ (a = FRONT ∧ b = BACK) ∨ (a = BACK ∧ b = FRONT) := by
  unfold SPANNING FRONT BACK
  interval_cases a <;> interval_cases b <;> decide

theorem dot_minus (n a b : Vector K) : n.Dot (a.Minus b) = n.Dot a - n.Dot b := by
  simp only [Vector.Dot, Vector.Minus]
  ring

theorem dot_lerp (n a b : Vector K) (t : K) :
    n.Dot (a.Lerp b t) = n.Dot a + t * (n.Dot b - n.Dot a) := by
  simp only [Vector.Dot, Vector.Lerp, Vector.Plus, Vector.Minus, Vector.Times]
  ring

/-- The arithmetic of an edge whose ends lie on opposite sides: with `a` and `b`
the signed distances of the two ends. -/
theorem crossing_param {a b e : K} (he : 0 < e)
    (h : (e < a ∧ b < -e) ∨ (a < -e ∧ e < b)) :
    b - a ≠ 0 ∧ 0 < -a / (b - a) ∧ -a / (b - a) < 1 ∧ a + -a / (b - a) * (b - a) = 0 := by
  rcases h with ⟨h1, h2⟩ | ⟨h1, h2⟩
  · have hd : b - a < 0 := by linarith
    refine ⟨ne_of_lt hd, ?_, ?_, ?_⟩
    · exact div_pos_of_neg_of_neg (by linarith) hd
    · rw [div_lt_one_of_neg hd]
      linarith
    · rw [div_mul_cancel₀ _ (ne_of_lt hd)]
      ring
  · have hd : 0 < b - a := by linarith
    refine ⟨ne_of_gt hd, ?_, ?_, ?_⟩
    · exact div_pos (by linarith) hd
    · rw [div_lt_one hd]
      linarith
    · rw [div_mul_cancel₀ _ (ne_of_gt hd)]
      ring

/-- The bits of an OR-fold over vertex types: bit 1 (BACK) and bit 0 (FRONT)
are set exactly when the start value or some element sets them. -/
theorem foldl_lor_bits (l : List Nat) (hl : ∀ t ∈ l, t ≤ 2) (acc : Nat) (hacc : acc ≤ 3) :
    l.foldl (fun a t => a ||| t) acc ≤ 3 ∧
    (2 ≤ l.foldl (fun a t => a ||| t) acc ↔ 2 ≤ acc ∨ ∃ t ∈ l, t = 2) ∧
    (l.foldl (fun a t => a ||| t) acc % 2 = 1 ↔ acc % 2 = 1 ∨ ∃ t ∈ l, t = 1) := by
  induction l generalizing acc with
  | nil => simp [hacc]
  | cons t l ih =>
    have ht : t ≤ 2 := hl t (List.mem_cons_self _ _)
    have hl2 : ∀ u ∈ l, u ≤ 2 := fun u hu => hl u (List.mem_cons_of_mem _ hu)
    have hstep : (acc ||| t) ≤ 3 ∧ (2 ≤ (acc ||| t) ↔ 2 ≤ acc ∨ t = 2) ∧
        ((acc ||| t) % 2 = 1 ↔ acc % 2 = 1 ∨ t = 1) := by
      interval_cases acc <;> interval_cases t <;> decide
    obtain ⟨h3, hb, hf⟩ := ih hl2 (acc ||| t) hstep.1
    simp only [List.foldl_cons, List.mem_cons, exists_eq_or_imp]
    refine ⟨h3, ?_, ?_⟩
    · rw [hb, hstep.2.1, or_assoc]
    · rw [hf, hstep.2.2, or_assoc]

theorem polygonType_bits (plane : Plane K) (polygon : Polygon K) :
    polygonType plane polygon ≤ 3 ∧
    (2 ≤ polygonType plane polygon ↔ ∃ v ∈ polygon.Vertices, vertexType plane v = BACK) ∧
    (polygonType plane polygon % 2 = 1 ↔ ∃ v ∈ polygon.Vertices, vertexType plane v = FRONT) := by
  have hl : ∀ t ∈ vertexTypes plane polygon, t ≤ 2 := by
    intro t ht
    simp only [vertexTypes, List.mem_map] at ht
    obtain ⟨v, _, rfl⟩ := ht
    exact vertexType_le_two plane v
  obtain ⟨h3, hb, hf⟩ := foldl_lor_bits (vertexTypes plane polygon) hl COPLANAR (by decide)
  refine ⟨h3, ?_, ?_⟩
  · unfold polygonType
    rw [hb]
    simp [vertexTypes, COPLANAR, BACK]
  · unfold polygonType
    rw [hf]
    simp [vertexTypes, COPLANAR, FRONT]

/-- The polygon type read geometrically: which signed distances occur. -/
theorem polygonType_geometry (plane : Plane K) (polygon : Polygon K) :
    (polygonType plane polygon = COPLANAR ↔
      ∀ v ∈ polygon.Vertices, -EPSILON ≤ plane.Normal.Dot v.Position - plane.W ∧
        plane.Normal.Dot v.Position - plane.W ≤ EPSILON) ∧
    (polygonType plane polygon = FRONT ↔
      (∀ v ∈ polygon.Vertices, -EPSILON ≤ plane.Normal.Dot v.Position - plane.W) ∧
        ∃ v ∈ polygon.Vertices, EPSILON < plane.Normal.Dot v.Position - plane.W) ∧
    (polygonType plane polygon = BACK ↔
      (∀ v ∈ polygon.Vertices, plane.Normal.Dot v.Position - plane.W ≤ EPSILON) ∧
        ∃ v ∈ polygon.Vertices, plane.Normal.Dot v.Position - plane.W < -EPSILON) ∧
    (polygonType plane polygon = SPANNING ↔
      (∃ v ∈ polygon.Vertices, EPSILON < plane.Normal.Dot v.Position - plane.W) ∧
        ∃ v ∈ polygon.Vertices, plane.Normal.Dot v.Position - plane.W < -EPSILON) := by
  obtain ⟨h3, hb, hf⟩ := polygonType_bits plane polygon
  simp only [vertexType_eq_BACK, vertexType_eq_FRONT] at hb hf
  have hnb : (¬ ∃ v ∈ polygon.Vertices, plane.Normal.Dot v.Position - plane.W < -EPSILON) ↔
      ∀ v ∈ polygon.Vertices, -EPSILON ≤ plane.Normal.Dot v.Position - plane.W := by
    simp only [not_exists, not_and, not_lt]
  have hnf : (¬ ∃ v ∈ polygon.Vertices, EPSILON < plane.Normal.Dot v.Position - plane.W) ↔
      ∀ v ∈ polygon.Vertices, plane.Normal.Dot v.Position - plane.W ≤ EPSILON := by
    simp only [not_exists, not_and, not_lt]
  rw [← hb, ← hf] at *
  have hcop : (∀ v ∈ polygon.Vertices, -EPSILON ≤ plane.Normal.Dot v.Position - plane.W ∧
        plane.Normal.Dot v.Position - plane.W ≤ EPSILON) ↔
      ((∀ v ∈ polygon.Vertices, -EPSILON ≤ plane.Normal.Dot v.Position - plane.W) ∧
        ∀ v ∈ polygon.Vertices, plane.Normal.Dot v.Position - plane.W ≤ EPSILON) :=
    ⟨fun h => ⟨fun v hv => (h v hv).1, fun v hv => (h v hv).2⟩,
     fun h v hv => ⟨h.1 v hv, h.2 v hv⟩⟩
  rw [hcop, ← hnb, ← hnf]
  generalize polygonType plane polygon = ty at h3 ⊢
  unfold COPLANAR FRONT BACK SPANNING
  interval_cases ty <;> simp

theorem getD_vertexTypes (plane : Plane K) (vs : List (Vertex K)) (i : Nat)
    (hi : i < vs.length) :
    (vs.map (vertexType plane)).getD i COPLANAR = vertexType plane (vs.getD i Vertex.zero) := by
  simp [List.getD_eq_getElem?_getD, List.getElem?_eq_getElem hi]

/-- The interpolated vertex of a crossed edge lies on the plane. -/
theorem interpolate_on_plane (plane : Plane K) (vi vj : Vertex K)
    (h : (vertexType plane vi = FRONT ∧ vertexType plane vj = BACK) ∨
      (vertexType plane vi = BACK ∧ vertexType plane vj = FRONT)) :
    plane.Normal.Dot (vi.Interpolate vj ((plane.W - plane.Normal.Dot vi.Position) /
      plane.Normal.Dot (vj.Position.Minus vi.Position))).Position - plane.W = 0 := by
  have hpos : (0 : K) < EPSILON := EPSILON_pos
  have hab : (EPSILON < plane.Normal.Dot vi.Position - plane.W ∧
        plane.Normal.Dot vj.Position - plane.W < -EPSILON) ∨
      (plane.Normal.Dot vi.Position - plane.W < -EPSILON ∧
        EPSILON < plane.Normal.Dot vj.Position - plane.W) := by
    rcases h with ⟨h1, h2⟩ | ⟨h1, h2⟩
    · exact Or.inl ⟨(vertexType_eq_FRONT _ _).mp h1, (vertexType_eq_BACK _ _).mp h2⟩
    · exact Or.inr ⟨(vertexType_eq_BACK _ _).mp h1, (vertexType_eq_FRONT _ _).mp h2⟩
  obtain ⟨_, _, _, h4⟩ := crossing_param hpos hab
  simp only [Vertex.Interpolate, dot_lerp, dot_minus]
  have e1 : plane.W - plane.Normal.Dot vi.Position =
      -(plane.Normal.Dot vi.Position - plane.W) := by ring
  have e2 : plane.Normal.Dot vj.Position - plane.Normal.Dot vi.Position =
      (plane.Normal.Dot vj.Position - plane.W) - (plane.Normal.Dot vi.Position - plane.W) := by
    ring
  rw [e1, e2]
  linarith

/-- One iteration of the edge loop appends to `f` only vertices that are not
behind the plane and to `b` only vertices that are not in front of it. -/
theorem spanningStep_spec (plane : Plane K) (vs : List (Vertex K))
    (fb : List (Vertex K) × List (Vertex K)) (i : Nat) (hi : i < vs.length) :
    ∃ F B, spanningStep plane vs (vs.map (vertexType plane)) fb i = (fb.1 ++ F, fb.2 ++ B) ∧
      (∀ v ∈ F, -EPSILON ≤ plane.Normal.Dot v.Position - plane.W) ∧
      (∀ v ∈ B, plane.Normal.Dot v.Position - plane.W ≤ EPSILON) := by
  have hpos : (0 : K) < EPSILON := EPSILON_pos
  have hj : (i + 1) % vs.length < vs.length := Nat.mod_lt _ (by omega)
  have hti := getD_vertexTypes plane vs i hi
  have htj := getD_vertexTypes plane vs _ hj
  simp only [spanningStep, hti, htj]
  generalize vs.getD i Vertex.zero = vi
  generalize vs.getD ((i + 1) % vs.length) Vertex.zero = vj
  by_cases hc : (vertexType plane vi ||| vertexType plane vj) = SPANNING
  · rw [if_pos hc]
    have hcross := (lor_eq_SPANNING (vertexType_le_two _ _) (vertexType_le_two _ _)).mp hc
    have hon := interpolate_on_plane plane vi vj hcross
    rcases hcross with ⟨h1, h2⟩ | ⟨h1, h2⟩
    · refine ⟨[vi, vi.Interpolate vj ((plane.W - plane.Normal.Dot vi.Position) /
          plane.Normal.Dot (vj.Position.Minus vi.Position))],
        [vi.Interpolate vj ((plane.W - plane.Normal.Dot vi.Position) /
          plane.Normal.Dot (vj.Position.Minus vi.Position))], ?_, ?_, ?_⟩
      · simp [h1, FRONT, BACK, Vertex_Clone_eq]
      · intro v hv
        simp only [List.mem_cons, List.mem_singleton, List.not_mem_nil, or_false] at hv
        rcases hv with rfl | rfl
        · have := (vertexType_eq_FRONT _ _).mp h1
          linarith
        · rw [hon]; linarith
      · intro v hv
        simp only [List.mem_singleton] at hv
        subst hv
        rw [hon]; linarith
    · refine ⟨[vi.Interpolate vj ((plane.W - plane.Normal.Dot vi.Position) /
          plane.Normal.Dot (vj.Position.Minus vi.Position))],
        [vi, vi.Interpolate vj ((plane.W - plane.Normal.Dot vi.Position) /
          plane.Normal.Dot (vj.Position.Minus vi.Position))], ?_, ?_, ?_⟩
      · simp [h1, FRONT, BACK, Vertex_Clone_eq]
      · intro v hv
        simp only [List.mem_singleton] at hv
        subst hv
        rw [hon]; linarith
      · intro v hv
        simp only [List.mem_cons, List.mem_singleton, List.not_mem_nil, or_false] at hv
        rcases hv with rfl | rfl
        · have := (vertexType_eq_BACK _ _).mp h1
          linarith
        · rw [hon]; linarith
  · rw [if_neg hc]
    rcases vertexType_cases plane vi with h | h | h
    · refine ⟨[], [vi], ?_, ?_, ?_⟩
      · simp [h.1, FRONT, BACK]
      · simp
      · intro v hv
        simp only [List.mem_singleton] at hv
        subst hv
        linarith [h.2]
    · refine ⟨[vi], [], ?_, ?_, ?_⟩
      · simp [h.1, FRONT, BACK]
      · intro v hv
        simp only [List.mem_singleton] at hv
        subst hv
        linarith [h.2]
      · simp
    · refine ⟨[vi], [vi], ?_, ?_, ?_⟩
      · simp [h.1, FRONT, BACK, COPLANAR, Vertex_Clone_eq]
      · intro v hv
        simp only [List.mem_singleton] at hv
        subst hv
        exact h.2.1
      · intro v hv
        simp only [List.mem_singleton] at hv
        subst hv
        exact h.2.2

theorem spanning_foldl_spec (plane : Plane K) (vs : List (Vertex K)) (is : List Nat)
    (his : ∀ i ∈ is, i < vs.length) (fb : List (Vertex K) × List (Vertex K)) :
    ∃ F B, is.foldl (spanningStep plane vs (vs.map (vertexType plane))) fb =
        (fb.1 ++ F, fb.2 ++ B) ∧
      (∀ v ∈ F, -EPSILON ≤ plane.Normal.Dot v.Position - plane.W) ∧
      (∀ v ∈ B, plane.Normal.Dot v.Position - plane.W ≤ EPSILON) := by
  induction is generalizing fb with
  | nil => exact ⟨[], [], by simp, by simp, by simp⟩
  | cons i is ih =>
    obtain ⟨F1, B1, e1, hF1, hB1⟩ :=
      spanningStep_spec plane vs fb i (his i (List.mem_cons_self _ _))
    obtain ⟨F2, B2, e2, hF2, hB2⟩ :=
      ih (fun k hk => his k (List.mem_cons_of_mem _ hk)) (fb.1 ++ F1, fb.2 ++ B1)
    refine ⟨F1 ++ F2, B1 ++ B2, ?_, ?_, ?_⟩
    · rw [List.foldl_cons, e1, e2]
      simp [List.append_assoc]
    · intro v hv
      rcases List.mem_append.mp hv with h | h
      · exact hF1 v h
      · exact hF2 v h
    · intro v hv
      rcases List.mem_append.mp hv with h | h
      · exact hB1 v h
      · exact hB2 v h

/-- The two vertex lists of a split: nothing behind the plane in `f`, nothing
in front of it in `b`. -/
theorem spanningLists_spec (plane : Plane K) (polygon : Polygon K) :
    (∀ v ∈ (spanningLists plane polygon).1, -EPSILON ≤ plane.Normal.Dot v.Position - plane.W) ∧
    (∀ v ∈ (spanningLists plane polygon).2, plane.Normal.Dot v.Position - plane.W ≤ EPSILON) := by
  obtain ⟨F, B, e, hF, hB⟩ := spanning_foldl_spec plane polygon.Vertices
    (List.range polygon.Vertices.length) (fun i hi => List.mem_range.mp hi) ([], [])
  unfold spanningLists vertexTypes
  rw [e]
  exact ⟨by simpa using hF, by simpa using hB⟩

theorem NewPolygonFromVertices_of_length (sqrt : K → K) (vs : List (Vertex K))
    (h : 3 ≤ vs.length) :
    ∃ pl, NewPolygonFromVertices sqrt vs = some ⟨vs, pl⟩ := by
  match vs, h with
  | v0 :: v1 :: v2 :: rest, _ => exact ⟨_, rfl⟩

/-- A polygon that is not SPANNING is appended, by its own address, to the one
slice its type selects, and the heap is not touched. -/
theorem SplitPolygons_cons_keep {σ : Type} (sqrt : K → K) (plane : Plane K)
    (emit : Side → Ptr → σ → σ) (p : Ptr) (rest : List Ptr) (h : Heap K) (out : σ)
    (polygon : Polygon K) (hp : h[p]? = some polygon)
    (hns : polygonType plane polygon ≠ SPANNING) :
    (polygonType plane polygon = COPLANAR → 0 < plane.Normal.Dot polygon.Plane.Normal →
      SplitPolygons sqrt plane emit (p :: rest) h out =
        SplitPolygons sqrt plane emit rest h (emit .coplanarFront p out)) ∧
    (polygonType plane polygon = COPLANAR → ¬ 0 < plane.Normal.Dot polygon.Plane.Normal →
      SplitPolygons sqrt plane emit (p :: rest) h out =
        SplitPolygons sqrt plane emit rest h (emit .coplanarBack p out)) ∧
    (polygonType plane polygon = FRONT →
      SplitPolygons sqrt plane emit (p :: rest) h out =
        SplitPolygons sqrt plane emit rest h (emit .front p out)) ∧
    (polygonType plane polygon = BACK →
      SplitPolygons sqrt plane emit (p :: rest) h out =
        SplitPolygons sqrt plane emit rest h (emit .back p out)) ∧
    (polygonType plane polygon = COPLANAR ∨ polygonType plane polygon = FRONT ∨
      polygonType plane polygon = BACK) := by
  have h3 := (polygonType_bits plane polygon).1
  refine ⟨?_, ?_, ?_, ?_, ?_⟩
  · intro hty hdot
    rw [SplitPolygons]
    simp only [hp, hty, if_true]
    rw [if_pos hdot]
  · intro hty hdot
    rw [SplitPolygons]
    simp only [hp, hty, if_true]
    rw [if_neg hdot]
  · intro hty
    rw [SplitPolygons]
    simp [hp, hty, FRONT, COPLANAR]
  · intro hty
    rw [SplitPolygons]
    simp [hp, hty, FRONT, COPLANAR, BACK]
  · revert hns h3
    generalize polygonType plane polygon = ty
    unfold COPLANAR FRONT BACK SPANNING
    intro hns h3
    interval_cases ty <;> simp_all

/-- A SPANNING polygon allocates its front fragment (when it has three
vertices or more) and then its back fragment, and appends their addresses to
`front` and `back`. -/
theorem SplitPolygons_cons_spanning {σ : Type} (sqrt : K → K) (plane : Plane K)
    (emit : Side → Ptr → σ → σ) (p : Ptr) (rest : List Ptr) (h : Heap K) (out : σ)
    (polygon : Polygon K) (hp : h[p]? = some polygon)
    (hs : polygonType plane polygon = SPANNING) :
    ∃ plf plb,
      SplitPolygons sqrt plane emit (p :: rest) h out =
        SplitPolygons sqrt plane emit rest
          ((h ++ if 3 ≤ (spanningLists plane polygon).1.length then
              [⟨(spanningLists plane polygon).1, plf⟩] else []) ++
            if 3 ≤ (spanningLists plane polygon).2.length then
              [⟨(spanningLists plane polygon).2, plb⟩] else [])
          ((if 3 ≤ (spanningLists plane polygon).2.length then
              emit .back (h.length +
                if 3 ≤ (spanningLists plane polygon).1.length then 1 else 0)
            else id)
            ((if 3 ≤ (spanningLists plane polygon).1.length then emit .front h.length
              else id) out)) := by
  rw [SplitPolygons]
  simp only [hp, hs]
  simp only [SPANNING, COPLANAR, FRONT, BACK, OfNat.ofNat_ne_zero, OfNat.ofNat_ne_one,
    if_false, if_true, ge_iff_le]
  by_cases hf : 3 ≤ (spanningLists plane polygon).1.length
  · obtain ⟨plf, ef⟩ := NewPolygonFromVertices_of_length sqrt _ hf
    by_cases hb : 3 ≤ (spanningLists plane polygon).2.length
    · obtain ⟨plb, eb⟩ := NewPolygonFromVertices_of_length sqrt _ hb
      refine ⟨plf, plb, ?_⟩
      simp [hf, hb, ef, eb]
    · refine ⟨plf, plf, ?_⟩
      simp [hf, hb, ef]
  · by_cases hb : 3 ≤ (spanningLists plane polygon).2.length
    · obtain ⟨plb, eb⟩ := NewPolygonFromVertices_of_length sqrt _ hb
      refine ⟨plb, plb, ?_⟩
      simp [hf, hb, eb]
    · refine ⟨polygon.Plane, polygon.Plane, ?_⟩
      simp [hf, hb]

theorem getElem?_append_at {α : Type} (h l : List α) (k : Nat) :
    (h ++ l)[h.length + k]? = l[k]? := by
  rw [List.getElem?_append_right (by omega)]
  simp

theorem vertexType_eq_COPLANAR (plane : Plane K) (v : Vertex K) :
    vertexType plane v = COPLANAR ↔
      ¬ plane.Normal.Dot v.Position - plane.W < -EPSILON ∧
      ¬ EPSILON < plane.Normal.Dot v.Position - plane.W := by
  have hpos : (0 : K) < EPSILON := EPSILON_pos
  rcases vertexType_cases plane v with h | h | h
  · constructor
    · intro hc
      rw [h.1] at hc
      exact absurd hc (by decide)
    · intro hn
      exact absurd h.2 hn.1
  · constructor
    · intro hc
      rw [h.1] at hc
      exact absurd hc (by decide)
    · intro hn
      exact absurd h.2 hn.2
  · exact ⟨fun _ => ⟨not_lt.mpr h.2.1, not_lt.mpr h.2.2⟩, fun _ => h.1⟩

end Splitter

/-! ## C3, C4, C5 : the polygon splitter -/

section SplitterClaims

variable {K : Type} [LinearOrderedField K]

/-- C3: a polygon that is not SPANNING is appended unchanged (by its own
address, the heap untouched) to exactly one of four distinct output slices and
the run goes on with the rest.  A vertex is BACK when `t < -EPSILON`, FRONT when
`t > EPSILON`, COPLANAR otherwise, for `t = dot(plane.Normal, v.Position) -
plane.W`; the polygon type is the OR of the vertex types; FRONT goes to `front`,
BACK to `back`, COPLANAR to `coplanarFront` when `dot(plane.Normal,
polygon.Plane.Normal) > 0` and to `coplanarBack` otherwise. -/
theorem SplitPolygons_nonspanning (sqrt : K → K) (plane : Plane K) (h : Heap K) (p : Ptr)
    (rest : List Ptr) (polygon : Polygon K) (o : Outs) (hp : h[p]? = some polygon)
    (hns : polygonType plane polygon ≠ SPANNING) :
    (∀ v : Vertex K,
      (vertexType plane v = BACK ↔ plane.Normal.Dot v.Position - plane.W < -EPSILON) ∧
      (vertexType plane v = FRONT ↔ plane.Normal.Dot v.Position - plane.W > EPSILON) ∧
      (vertexType plane v = COPLANAR ↔
        ¬ plane.Normal.Dot v.Position - plane.W < -EPSILON ∧
        ¬ plane.Normal.Dot v.Position - plane.W > EPSILON)) ∧
    polygonType plane polygon =
      (polygon.Vertices.map (vertexType plane)).foldl (fun acc t => acc ||| t) COPLANAR ∧
    (polygonType plane polygon = COPLANAR ∨ polygonType plane polygon = FRONT ∨
      polygonType plane polygon = BACK) ∧
    (polygonType plane polygon = FRONT →
      SplitPolygons sqrt plane Outs.emit (p :: rest) h o =
        SplitPolygons sqrt plane Outs.emit rest h { o with front := o.front ++ [p] }) ∧
    (polygonType plane polygon = BACK →
      SplitPolygons sqrt plane Outs.emit (p :: rest) h o =
        SplitPolygons sqrt plane Outs.emit rest h { o with back := o.back ++ [p] }) ∧
    (polygonType plane polygon = COPLANAR → plane.Normal.Dot polygon.Plane.Normal > 0 →
      SplitPolygons sqrt plane Outs.emit (p :: rest) h o =
        SplitPolygons sqrt plane Outs.emit rest h
          { o with coplanarFront := o.coplanarFront ++ [p] }) ∧
    (polygonType plane polygon = COPLANAR → ¬ plane.Normal.Dot polygon.Plane.Normal > 0 →
      SplitPolygons sqrt plane Outs.emit (p :: rest) h o =
        SplitPolygons sqrt plane Outs.emit rest h
          { o with coplanarBack := o.coplanarBack ++ [p] }) := by
  obtain ⟨hcf, hcb, hf, hb, hty⟩ :=
    SplitPolygons_cons_keep sqrt plane Outs.emit p rest h o polygon hp hns
  refine ⟨fun v => ⟨vertexType_eq_BACK plane v, vertexType_eq_FRONT plane v,
    vertexType_eq_COPLANAR plane v⟩, rfl, hty, ?_, ?_, ?_, ?_⟩
  · intro e
    exact hf e
  · intro e
    exact hb e
  · intro e hd
    exact hcf e hd
  · intro e hd
    exact hcb e hd

/-- Witness for C3: the triangle `triSmall` lies in the plane `z = 0` and faces
the same way, so it is appended to `coplanarFront` and nothing else changes. -/
theorem SplitPolygons_nonspanning_witness :
    polygonType planeZ triSmall ≠ SPANNING ∧
    SplitPolygons ratSqrt planeZ Outs.emit [0] [triSmall] ⟨[], [], [], []⟩ =
      .ok ([triSmall], ⟨[0], [], [], []⟩) :=
  ⟨by decide!,
   (SplitPolygons_nonspanning ratSqrt planeZ [triSmall] 0 [] triSmall ⟨[], [], [], []⟩ rfl
      (by decide!)).2.2.2.2.2.1 (by decide!) (by decide!)⟩

/-- C4: for a SPANNING polygon the run returns, every vertex of the polygon
appended to `front` has signed distance at least `-EPSILON` from the plane and
every vertex of the polygon appended to `back` has signed distance at most
`EPSILON`. -/
theorem SplitPolygons_spanning_sides (sqrt : K → K) (plane : Plane K) (h : Heap K) (p : Ptr)
    (polygon : Polygon K) (hp : h[p]? = some polygon)
    (hs : polygonType plane polygon = SPANNING) :
    ∃ h1 o1, SplitPolygons sqrt plane Outs.emit [p] h ⟨[], [], [], []⟩ = .ok (h1, o1) ∧
      (∀ q ∈ o1.front, ∃ fr, h1[q]? = some fr ∧
        ∀ v ∈ fr.Vertices, plane.DistanceToPlane v.Position ≥ -EPSILON) ∧
      (∀ q ∈ o1.back, ∃ bk, h1[q]? = some bk ∧
        ∀ v ∈ bk.Vertices, plane.DistanceToPlane v.Position ≤ EPSILON) := by
  obtain ⟨plf, plb, e⟩ :=
    SplitPolygons_cons_spanning sqrt plane Outs.emit p [] h ⟨[], [], [], []⟩ polygon hp hs
  obtain ⟨hF, hB⟩ := spanningLists_spec plane polygon
  rw [SplitPolygons] at e
  by_cases hf : 3 ≤ (spanningLists plane polygon).1.length
  · by_cases hb : 3 ≤ (spanningLists plane polygon).2.length
    · simp only [hf, hb, if_true, Outs.emit, List.nil_append, List.append_assoc,
        List.singleton_append] at e
      refine ⟨_, _, e, ?_, ?_⟩
      · intro q hq
        simp only [List.mem_singleton] at hq
        subst hq
        exact ⟨⟨(spanningLists plane polygon).1, plf⟩, getElem?_append_at h _ 0,
          fun v hv => hF v hv⟩
      · intro q hq
        simp only [List.mem_singleton] at hq
        subst hq
        exact ⟨⟨(spanningLists plane polygon).2, plb⟩, getElem?_append_at h _ 1,
          fun v hv => hB v hv⟩
    · simp only [hf, hb, if_true, if_false, id, Outs.emit, List.nil_append,
        List.append_nil] at e
      refine ⟨_, _, e, ?_, ?_⟩
      · intro q hq
        simp only [List.mem_singleton] at hq
        subst hq
        exact ⟨⟨(spanningLists plane polygon).1, plf⟩, by simp,
          fun v hv => hF v hv⟩
      · intro q hq
        simp at hq
  · by_cases hb : 3 ≤ (spanningLists plane polygon).2.length
    · simp only [hf, hb, if_true, if_false, id, Outs.emit, List.nil_append,
        List.append_nil, add_zero] at e
      refine ⟨_, _, e, ?_, ?_⟩
      · intro q hq
        simp at hq
      · intro q hq
        simp only [List.mem_singleton] at hq
        subst hq
        exact ⟨⟨(spanningLists plane polygon).2, plb⟩, by simp,
          fun v hv => hB v hv⟩
    · simp only [hf, hb, if_false, id, List.append_nil] at e
      refine ⟨_, _, e, ?_, ?_⟩
      · intro q hq
        simp at hq
      · intro q hq
        simp at hq

/-- Witness for C4: `triCross` has one vertex below and two above `z = 0`. -/
theorem SplitPolygons_spanning_sides_witness :
    polygonType planeZ triCross = SPANNING ∧
    ∃ h1 o1, SplitPolygons ratSqrt planeZ Outs.emit [0] [triCross] ⟨[], [], [], []⟩ =
        .ok (h1, o1) ∧
      (∀ q ∈ o1.front, ∃ fr, h1[q]? = some fr ∧
        ∀ v ∈ fr.Vertices, planeZ.DistanceToPlane v.Position ≥ -EPSILON) ∧
      (∀ q ∈ o1.back, ∃ bk, h1[q]? = some bk ∧
        ∀ v ∈ bk.Vertices, planeZ.DistanceToPlane v.Position ≤ EPSILON) :=
  ⟨by decide!,
   SplitPolygons_spanning_sides ratSqrt planeZ [triCross] 0 triCross rfl (by decide!)⟩

/-- C5: on an edge whose ends are classified one FRONT and one BACK the
denominator `dot(plane.Normal, vj.Position - vi.Position)` is not zero, the
parameter `t` lies strictly between 0 and 1, and the interpolated position lies
exactly on the plane. -/
theorem edge_crossing_parameter (plane : Plane K) (vi vj : Vertex K)
    (h : (vertexType plane vi = FRONT ∧ vertexType plane vj = BACK) ∨
      (vertexType plane vi = BACK ∧ vertexType plane vj = FRONT)) :
    plane.Normal.Dot (vj.Position.Minus vi.Position) ≠ 0 ∧
    0 < (plane.W - plane.Normal.Dot vi.Position) /
      plane.Normal.Dot (vj.Position.Minus vi.Position) ∧
    (plane.W - plane.Normal.Dot vi.Position) /
      plane.Normal.Dot (vj.Position.Minus vi.Position) < 1 ∧
    plane.Normal.Dot (vi.Interpolate vj ((plane.W - plane.Normal.Dot vi.Position) /
      plane.Normal.Dot (vj.Position.Minus vi.Position))).Position = plane.W := by
  have hpos : (0 : K) < EPSILON := EPSILON_pos
  have hab : (EPSILON < plane.Normal.Dot vi.Position - plane.W ∧
        plane.Normal.Dot vj.Position - plane.W < -EPSILON) ∨
      (plane.Normal.Dot vi.Position - plane.W < -EPSILON ∧
        EPSILON < plane.Normal.Dot vj.Position - plane.W) := by
    rcases h with ⟨h1, h2⟩ | ⟨h1, h2⟩
    · exact Or.inl ⟨(vertexType_eq_FRONT _ _).mp h1, (vertexType_eq_BACK _ _).mp h2⟩
    · exact Or.inr ⟨(vertexType_eq_BACK _ _).mp h1, (vertexType_eq_FRONT _ _).mp h2⟩
  obtain ⟨h1, h2, h3, _⟩ := crossing_param hpos hab
  have e1 : plane.W - plane.Normal.Dot vi.Position =
      -(plane.Normal.Dot vi.Position - plane.W) := by ring
  have e2 : plane.Normal.Dot (vj.Position.Minus vi.Position) =
      (plane.Normal.Dot vj.Position - plane.W) - (plane.Normal.Dot vi.Position - plane.W) := by
    rw [dot_minus]; ring
  refine ⟨?_, ?_, ?_, ?_⟩
  · rw [e2]; exact h1
  · rw [e1, e2]; exact h2
  · rw [e1, e2]; exact h3
  · have := interpolate_on_plane plane vi vj h
    linarith

/-- Witness for C5: the edge from `(0,0,1)` (FRONT) to `(0,0,-1)` (BACK) crosses
`z = 0` at `t = 1/2`. -/
theorem edge_crossing_parameter_witness :
    (vertexType planeZ (vtx 0 0 1) = FRONT ∧ vertexType planeZ (vtx 0 0 (-1)) = BACK) ∧
    planeZ.Normal.Dot ((vtx 0 0 1).Interpolate (vtx 0 0 (-1))
      ((planeZ.W - planeZ.Normal.Dot (vtx 0 0 1).Position) /
        planeZ.Normal.Dot ((vtx 0 0 (-1)).Position.Minus (vtx 0 0 1).Position))).Position =
      planeZ.W :=
  ⟨by decide!, (edge_crossing_parameter planeZ (vtx 0 0 1) (vtx 0 0 (-1))
    (Or.inl (by decide!))).2.2.2⟩

end SplitterClaims

end Csg

namespace Csg

section Clip

variable {K : Type} [LinearOrderedField K]

theorem prefix_lookup {α : Type} {h h1 : List α} (hp : h <+: h1) {q : Nat} {x : α}
    (hq : h[q]? = some x) : h1[q]? = some x := by
  obtain ⟨t, rfl⟩ := hp
  have hlt : q < h.length := by
    by_contra hge
    have hle : h.length ≤ q := by omega
    rw [List.getElem?_eq_none hle] at hq
    exact absurd hq (by simp)
  rw [List.getElem?_append_left hlt]
  exact hq

theorem lookup_of_lt {α : Type} {h : List α} {p : Nat} (hp : p < h.length) :
    ∃ x, h[p]? = some x := ⟨h[p], List.getElem?_eq_getElem hp⟩

theorem lt_of_lookup {α : Type} {h : List α} {p : Nat} {x : α} (hp : h[p]? = some x) :
    p < h.length := by
  by_contra hge
  have hle : h.length ≤ p := by omega
  rw [List.getElem?_eq_none hle] at hp
  exact absurd hp (by simp)

theorem getElem?_append_length {α : Type} (h : List α) (a : α) (l : List α) :
    (h ++ a :: l)[h.length]? = some a := by
  have e := getElem?_append_at h (a :: l) 0
  rw [Nat.add_zero] at e
  rw [e]
  simp

theorem OutsideSome_mono {planes planes1 : List (Plane K)} {h h1 : Heap K} {q : Ptr}
    (ho : OutsideSome planes h q) (hpl : ∀ pl ∈ planes, pl ∈ planes1) (hp : h <+: h1) :
    OutsideSome planes1 h1 q := by
  obtain ⟨poly, e, hv⟩ := ho
  refine ⟨poly, prefix_lookup hp e, fun v hvm => ?_⟩
  obtain ⟨pl, hm, hd⟩ := hv v hvm
  exact ⟨pl, hpl pl hm, hd⟩

theorem OutsideSome_lt {planes : List (Plane K)} {h : Heap K} {q : Ptr}
    (ho : OutsideSome planes h q) : q < h.length := by
  obtain ⟨poly, e, _⟩ := ho
  exact lt_of_lookup e

theorem ClipInv_mono {plane : Plane K} {h h1 : Heap K} {out : List Ptr × List Ptr}
    (hi : ClipInv plane h out) (hp : h <+: h1) : ClipInv plane h1 out :=
  ⟨fun q hq => OutsideSome_mono (hi.1 q hq) (fun _ hm => hm) hp,
   fun q hq => lt_of_lt_of_le (hi.2 q hq) hp.length_le⟩

theorem ClipInv_front {plane : Plane K} {h : Heap K} {out : List Ptr × List Ptr}
    (hi : ClipInv plane h out) {q : Ptr} (hq : OutsideSome [plane] h q) :
    ClipInv plane h (out.1 ++ [q], out.2) := by
  refine ⟨fun r hr => ?_, hi.2⟩
  rcases List.mem_append.mp hr with hr | hr
  · exact hi.1 r hr
  · rw [List.mem_singleton.mp hr]
    exact hq

theorem ClipInv_back {plane : Plane K} {h : Heap K} {out : List Ptr × List Ptr}
    (hi : ClipInv plane h out) {q : Ptr} (hq : q < h.length) :
    ClipInv plane h (out.1, out.2 ++ [q]) := by
  refine ⟨hi.1, fun r hr => ?_⟩
  rcases List.mem_append.mp hr with hr | hr
  · exact hi.2 r hr
  · rw [List.mem_singleton.mp hr]
    exact hq

/-- One polygon of the split inside `clipPolygons`: the heap only grows and the
invariant of the two lists is kept. -/
theorem SplitPolygons_clip_step (sqrt : K → K) (plane : Plane K) (p : Ptr) (rest : List Ptr)
    (h : Heap K) (out : List Ptr × List Ptr) (hp : p < h.length) (hi : ClipInv plane h out) :
    ∃ h1 out1, SplitPolygons sqrt plane clipEmit (p :: rest) h out =
        SplitPolygons sqrt plane clipEmit rest h1 out1 ∧
      h <+: h1 ∧ ClipInv plane h1 out1 := by
  obtain ⟨polygon, e⟩ := lookup_of_lt hp
  obtain ⟨gc, gf, gb, gs⟩ := polygonType_geometry plane polygon
  by_cases hs : polygonType plane polygon = SPANNING
  · obtain ⟨plf, plb, es⟩ :=
      SplitPolygons_cons_spanning sqrt plane clipEmit p rest h out polygon e hs
    obtain ⟨hF, hB⟩ := spanningLists_spec plane polygon
    refine ⟨_, _, es, ?_, ?_⟩
    · rw [List.append_assoc]
      exact List.prefix_append _ _
    · have hfr : ∀ pl2 : List (Polygon K),
          OutsideSome [plane] (h ++ ([⟨(spanningLists plane polygon).1, plf⟩] ++ pl2))
            h.length := by
        intro pl2
        refine ⟨⟨(spanningLists plane polygon).1, plf⟩, ?_, fun v hv => ?_⟩
        · exact getElem?_append_length h _ pl2
        · exact ⟨plane, List.mem_singleton.mpr rfl, hF v hv⟩
      obtain ⟨o1, o2⟩ := out
      by_cases hf : 3 ≤ (spanningLists plane polygon).1.length
      · by_cases hb : 3 ≤ (spanningLists plane polygon).2.length
        · simp only [hf, hb, if_true, clipEmit, List.append_assoc]
          have hi1 : ClipInv plane
              (h ++ ([⟨(spanningLists plane polygon).1, plf⟩] ++
                [⟨(spanningLists plane polygon).2, plb⟩])) (o1, o2) :=
            ClipInv_mono hi (List.prefix_append _ _)
          exact ClipInv_back (ClipInv_front hi1 (hfr _)) (by simp)
        · simp only [hf, hb, if_true, if_false, id, clipEmit, List.append_nil]
          have hi1 : ClipInv plane (h ++ [⟨(spanningLists plane polygon).1, plf⟩]) (o1, o2) :=
            ClipInv_mono hi (List.prefix_append _ _)
          exact ClipInv_front hi1 (by simpa using hfr [])
      · by_cases hb : 3 ≤ (spanningLists plane polygon).2.length
        · simp only [hf, hb, if_true, if_false, id, clipEmit, List.append_nil, add_zero]
          have hi1 : ClipInv plane (h ++ [⟨(spanningLists plane polygon).2, plb⟩]) (o1, o2) :=
            ClipInv_mono hi (List.prefix_append _ _)
          exact ClipInv_back hi1 (by simp)
        · simp only [hf, hb, if_false, id, List.append_nil]
          exact hi
  · obtain ⟨hcf, hcb, hf, hb, hty⟩ :=
      SplitPolygons_cons_keep sqrt plane clipEmit p rest h out polygon e hs
    obtain ⟨o1, o2⟩ := out
    have hout : (∀ v ∈ polygon.Vertices, -EPSILON ≤ plane.Normal.Dot v.Position - plane.W) →
        OutsideSome [plane] h p := fun hv =>
      ⟨polygon, e, fun v hvm => ⟨plane, List.mem_singleton.mpr rfl, hv v hvm⟩⟩
    rcases hty with hty | hty | hty
    · by_cases hd : 0 < plane.Normal.Dot polygon.Plane.Normal
      · exact ⟨h, _, hcf hty hd, List.prefix_refl _,
          ClipInv_front hi (hout fun v hv => ((gc.mp hty) v hv).1)⟩
      · exact ⟨h, _, hcb hty hd, List.prefix_refl _, ClipInv_back hi hp⟩
    · exact ⟨h, _, hf hty, List.prefix_refl _, ClipInv_front hi (hout (gf.mp hty).1)⟩
    · exact ⟨h, _, hb hty, List.prefix_refl _, ClipInv_back hi hp⟩

theorem SplitPolygons_clip (sqrt : K → K) (plane : Plane K) (polygons : List Ptr) :
    ∀ (h : Heap K) (out : List Ptr × List Ptr), (∀ p ∈ polygons, p < h.length) →
      ClipInv plane h out →
      ∃ h1 out1, SplitPolygons sqrt plane clipEmit polygons h out = .ok (h1, out1) ∧
        h <+: h1 ∧ ClipInv plane h1 out1 := by
  induction polygons with
  | nil =>
    intro h out _ hi
    exact ⟨h, out, by rw [SplitPolygons], List.prefix_refl _, hi⟩
  | cons p rest ih =>
    intro h out hv hi
    obtain ⟨h1, out1, e1, hp1, hi1⟩ :=
      SplitPolygons_clip_step sqrt plane p rest h out (hv p (List.mem_cons_self _ _)) hi
    obtain ⟨h2, out2, e2, hp2, hi2⟩ := ih h1 out1
      (fun q hq => lt_of_lt_of_le (hv q (List.mem_cons_of_mem _ hq)) hp1.length_le) hi1
    exact ⟨h2, out2, e1.trans e2, hp1.trans hp2, hi2⟩

theorem Node.isNil_eq_false {n : Node K} (h : n.isNil = false) :
    ∃ plane front back polygons, n = .mk plane front back polygons := by
  cases n with
  | nil => simp [Node.isNil] at h
  | mk plane front back polygons => exact ⟨plane, front, back, polygons, rfl⟩

/-- Clipping a list of valid polygons by a tree whose nodes all have planes
returns, the heap only grows, and every vertex kept is at least `-EPSILON` in
front of the plane of some node. -/
theorem clipPolygons_outside (sqrt : K → K) (b : Node K) :
    b.allPlanes = true → b.isNil = false →
    ∀ (h : Heap K) (ps : List Ptr), (∀ p ∈ ps, p < h.length) →
      ∃ h1 out, b.clipPolygons sqrt h ps = .ok (h1, out) ∧ h <+: h1 ∧
        ∀ q ∈ out, OutsideSome b.planes h1 q := by
  induction b with
  | nil => intro _ hn; simp [Node.isNil] at hn
  | mk plane front back polygons ihf ihb =>
    intro hall _ h ps hv
    simp only [Node.allPlanes, Bool.and_eq_true] at hall
    obtain ⟨⟨hpl, hfa⟩, hba⟩ := hall
    obtain ⟨pl, rfl⟩ := Option.isSome_iff_exists.mp hpl
    obtain ⟨h1, ⟨fr, bk⟩, e1, hp1, hi1⟩ :=
      SplitPolygons_clip sqrt pl ps h ([], []) hv ⟨by simp, by simp⟩
    -- the front list through the front subtree
    have hfront : ∃ h2 fr2, front.clipPolygons sqrt h1 fr = .ok (h2, fr2) ∧ h1 <+: h2 ∧
        ∀ q ∈ fr2, OutsideSome (pl :: front.planes) h2 q := by
      cases hfn : front.isNil with
      | true =>
        cases front with
        | nil =>
          refine ⟨h1, fr, by rw [Node.clipPolygons], List.prefix_refl _, fun q hq => ?_⟩
          exact OutsideSome_mono (hi1.1 q hq) (fun x hx => by simpa [Node.planes] using hx)
            (List.prefix_refl _)
        | mk _ _ _ _ => simp [Node.isNil] at hfn
      | false =>
        obtain ⟨h2, fr2, e2, hp2, ho2⟩ := ihf hfa hfn h1 fr (fun q hq => OutsideSome_lt (hi1.1 q hq))
        exact ⟨h2, fr2, e2, hp2, fun q hq =>
          OutsideSome_mono (ho2 q hq) (fun x hx => List.mem_cons_of_mem _ hx)
            (List.prefix_refl _)⟩
    obtain ⟨h2, fr2, e2, hp2, ho2⟩ := hfront
    have hpl1 : ∀ x ∈ pl :: front.planes, x ∈ (Node.mk (some pl) front back polygons).planes := by
      intro x hx
      simp only [Node.planes, Option.toList, List.singleton_append, List.cons_append]
      rcases List.mem_cons.mp hx with hx | hx
      · exact List.mem_cons.mpr (Or.inl hx)
      · exact List.mem_cons.mpr (Or.inr (List.mem_append.mpr (Or.inl hx)))
    cases hbn : back.isNil with
    | true =>
      refine ⟨h2, fr2, ?_, hp1.trans hp2, fun q hq =>
        OutsideSome_mono (ho2 q hq) hpl1 (List.prefix_refl _)⟩
      rw [Node.clipPolygons]
      simp only [e1, e2, hbn, if_true]
    | false =>
      obtain ⟨h3, bk2, e3, hp3, ho3⟩ := ihb hba hbn h2 bk
        (fun q hq => lt_of_lt_of_le (hi1.2 q hq) hp2.length_le)
      refine ⟨h3, fr2 ++ bk2, ?_, (hp1.trans hp2).trans hp3, fun q hq => ?_⟩
      · rw [Node.clipPolygons]
        simp only [e1, e2, e3, hbn, Bool.false_eq_true, if_false]
      · rcases List.mem_append.mp hq with hq | hq
        · exact OutsideSome_mono (ho2 q hq) hpl1 hp3
        · refine OutsideSome_mono (ho3 q hq) (fun x hx => ?_) (List.prefix_refl _)
          simp only [Node.planes, Option.toList, List.singleton_append, List.cons_append]
          exact List.mem_cons.mpr (Or.inr (List.mem_append.mpr (Or.inr hx)))

/-- `ClipTo` against a tree whose nodes all have planes returns, and every
polygon left in the clipped tree is outside some node's plane. -/
theorem ClipTo_outside (sqrt : K → K) (b : Node K) (hall : b.allPlanes = true)
    (hnil : b.isNil = false) (a : Node K) :
    ∀ (h : Heap K), (∀ p ∈ a.AllPolygons, p < h.length) →
      ∃ h1 a1, Node.ClipTo sqrt b a h = .ok (h1, a1) ∧ h <+: h1 ∧
        ∀ q ∈ a1.AllPolygons, OutsideSome b.planes h1 q := by
  induction a with
  | nil =>
    intro h _
    exact ⟨h, .nil, by rw [Node.ClipTo], List.prefix_refl _, by simp [Node.AllPolygons]⟩
  | mk plane front back polygons ihf ihb =>
    intro h hv
    simp only [Node.AllPolygons, List.mem_append] at hv
    obtain ⟨h1, ps1, e1, hp1, ho1⟩ := clipPolygons_outside sqrt b hall hnil h polygons
      (fun p hp => hv p (Or.inl (Or.inl hp)))
    obtain ⟨h2, f1, e2, hp2, ho2⟩ := ihf h1
      (fun p hp => lt_of_lt_of_le (hv p (Or.inl (Or.inr hp))) hp1.length_le)
    obtain ⟨h3, b1, e3, hp3, ho3⟩ := ihb h2
      (fun p hp => lt_of_lt_of_le (hv p (Or.inr hp)) (hp1.trans hp2).length_le)
    refine ⟨h3, .mk plane f1 b1 ps1, ?_, (hp1.trans hp2).trans hp3, fun q hq => ?_⟩
    · rw [Node.ClipTo]
      simp only [Node.ClipPolygons, e1, e2, e3]
    · simp only [Node.AllPolygons, List.mem_append] at hq
      rcases hq with (hq | hq) | hq
      · exact OutsideSome_mono (ho1 q hq) (fun _ hx => hx) (hp2.trans hp3)
      · exact OutsideSome_mono (ho2 q hq) (fun _ hx => hx) hp3
      · exact ho3 q hq

end Clip

/-! ## C2 : ClipTo -/

section ClipClaims

variable {K : Type} [LinearOrderedField K]

/-- C2 as stated fails on the boundary: `triBelow` lies exactly `EPSILON`
behind the plane `z = 0` of the one-node tree `nodeSmall`, is classified
COPLANAR and kept by `ClipTo`, and its vertices have signed distance `-EPSILON`
(not more) from the only plane of that tree. -/
theorem ClipTo_strict_counterexample :
    NewNodeFromPolygons ratSqrt 4 [triSmall, triBelow] [0] =
      .ok ([triSmall, triBelow], nodeSmall) ∧
    NewNodeFromPolygons ratSqrt 4 [triSmall, triBelow] [1] =
      .ok ([triSmall, triBelow], nodeBelow) ∧
    Node.ClipTo ratSqrt nodeSmall nodeBelow [triSmall, triBelow] =
      .ok ([triSmall, triBelow], nodeBelow) ∧
    nodeBelow.AllPolygons = [1] ∧
    ([triSmall, triBelow] : Heap ℚ)[1]? = some triBelow ∧
    ¬ (∀ v ∈ triBelow.Vertices, ∃ pl ∈ nodeSmall.planes,
        pl.DistanceToPlane v.Position > -EPSILON) := by
  refine ⟨by decide!, by decide!, by decide!, by decide!, by decide!, by decide!⟩

/-- C2 (amended): when every node of `b` has a plane and every polygon of `a`
is allocated, `a.ClipTo(b)` returns, and every vertex of every polygon of the
clipped tree has signed distance at least `-EPSILON` from the plane of some
node of `b`. -/
theorem ClipTo_polygons_outside (sqrt : K → K) (b a : Node K) (h : Heap K)
    (hroot : b.isNil = false) (hplanes : b.allPlanes = true)
    (hvalid : ∀ p ∈ a.AllPolygons, p < h.length) :
    ∃ h1 a1, Node.ClipTo sqrt b a h = .ok (h1, a1) ∧
      ∀ q ∈ a1.AllPolygons, ∃ polygon, h1[q]? = some polygon ∧
        ∀ v ∈ polygon.Vertices, ∃ pl ∈ b.planes,
          pl.DistanceToPlane v.Position ≥ -EPSILON := by
  obtain ⟨h1, a1, e, _, ho⟩ := ClipTo_outside sqrt b hplanes hroot a h hvalid
  exact ⟨h1, a1, e, fun q hq => ho q hq⟩

/-- Witness for C2: the tree of `triBelow` clipped to the tree of `triSmall`. -/
theorem ClipTo_polygons_outside_witness :
    ∃ h1 a1, Node.ClipTo ratSqrt nodeSmall nodeBelow [triSmall, triBelow] = .ok (h1, a1) ∧
      ∀ q ∈ a1.AllPolygons, ∃ polygon, h1[q]? = some polygon ∧
        ∀ v ∈ polygon.Vertices, ∃ pl ∈ nodeSmall.planes,
          pl.DistanceToPlane v.Position ≥ -EPSILON :=
  ClipTo_polygons_outside ratSqrt nodeSmall nodeBelow [triSmall, triBelow]
    (by decide) (by decide) (by decide)

end ClipClaims

end Csg

namespace Csg

section Flip

variable {K : Type} [LinearOrderedField K]

theorem Vector_Negated_Negated (v : Vector K) : v.Negated.Negated = v := by
  cases v
  simp [Vector.Negated]

theorem Plane_Flip_Flip (p : Plane K) : p.Flip.Flip = p := by
  cases p
  simp [Plane.Flip, Vector_Negated_Negated]

theorem Polygon_Flip_Flip (p : Polygon K) : p.Flip.Flip = p := by
  cases p
  simp [Polygon.Flip, Plane_Flip_Flip]

theorem flipCell_length (p : Ptr) (h : Heap K) : (flipCell p h).length = h.length := by
  unfold flipCell
  cases h[p]? <;> simp

theorem flipCell_lookup_self (p : Ptr) (h : Heap K) :
    (flipCell p h)[p]? = (h[p]?).map Polygon.Flip := by
  unfold flipCell
  cases e : h[p]? with
  | none => simp [e]
  | some polygon =>
    have hlt : p < h.length := lt_of_lookup e
    simp [List.getElem?_set_self hlt]

theorem flipCell_lookup_ne (p q : Ptr) (h : Heap K) (hne : p ≠ q) :
    (flipCell p h)[q]? = h[q]? := by
  unfold flipCell
  cases h[p]? with
  | none => rfl
  | some polygon => simp [List.getElem?_set_ne hne]

/-- Flipping a cell twice restores the heap. -/
theorem flipCell_flipCell (p : Ptr) (h : Heap K) : flipCell p (flipCell p h) = h := by
  apply List.ext_getElem?
  intro q
  by_cases hq : p = q
  · subst hq
    rw [flipCell_lookup_self, flipCell_lookup_self]
    cases h[p]? <;> simp [Polygon_Flip_Flip]
  · rw [flipCell_lookup_ne _ _ _ hq, flipCell_lookup_ne _ _ _ hq]

/-- Flips of two cells commute. -/
theorem flipCell_comm (p q : Ptr) (h : Heap K) :
    flipCell p (flipCell q h) = flipCell q (flipCell p h) := by
  by_cases hpq : p = q
  · subst hpq; rfl
  · apply List.ext_getElem?
    intro r
    by_cases hp : p = r
    · subst hp
      rw [flipCell_lookup_self, flipCell_lookup_ne _ _ _ (Ne.symm hpq),
        flipCell_lookup_ne _ _ _ (Ne.symm hpq), flipCell_lookup_self]
    · by_cases hq : q = r
      · subst hq
        rw [flipCell_lookup_ne _ _ _ hp, flipCell_lookup_self, flipCell_lookup_self,
          flipCell_lookup_ne _ _ _ hp]
      · rw [flipCell_lookup_ne _ _ _ hp, flipCell_lookup_ne _ _ _ hq,
          flipCell_lookup_ne _ _ _ hq, flipCell_lookup_ne _ _ _ hp]

theorem foldl_flipCell_length (ps : List Ptr) (h : Heap K) :
    (ps.foldl (fun h p => flipCell p h) h).length = h.length := by
  induction ps generalizing h with
  | nil => rfl
  | cons p ps ih => rw [List.foldl_cons, ih, flipCell_length]

/-- The flip loop over allocated polygons returns the heap with each listed
cell flipped once per occurrence. -/
theorem flipAll_ok (ps : List Ptr) (h : Heap K) (hv : ∀ p ∈ ps, p < h.length) :
    flipAll ps h = .ok (ps.foldl (fun h p => flipCell p h) h) := by
  induction ps generalizing h with
  | nil => rfl
  | cons p ps ih =>
    obtain ⟨polygon, e⟩ := lookup_of_lt (hv p (List.mem_cons_self _ _))
    have hstep : h.set p polygon.Flip = flipCell p h := by
      unfold flipCell
      rw [e]
    rw [flipAll]
    simp only [e]
    rw [hstep, List.foldl_cons]
    apply ih
    intro q hq
    rw [flipCell_length]
    exact hv q (List.mem_cons_of_mem _ hq)

theorem foldl_flipCell_comm (p : Ptr) (ps : List Ptr) (h : Heap K) :
    ps.foldl (fun h p => flipCell p h) (flipCell p h) =
      flipCell p (ps.foldl (fun h p => flipCell p h) h) := by
  induction ps generalizing h with
  | nil => rfl
  | cons q ps ih =>
    rw [List.foldl_cons, List.foldl_cons, flipCell_comm, ih]

/-- Running the flip loop twice over the same list restores the heap. -/
theorem foldl_flipCell_twice (ps : List Ptr) (h : Heap K) :
    ps.foldl (fun h p => flipCell p h) (ps.foldl (fun h p => flipCell p h) h) = h := by
  induction ps generalizing h with
  | nil => rfl
  | cons p ps ih =>
    rw [List.foldl_cons, List.foldl_cons, foldl_flipCell_comm, foldl_flipCell_comm,
      foldl_flipCell_comm, flipCell_flipCell, ih]

theorem Inverse_ok (c : CSG) (h : Heap K) (hv : ∀ p ∈ c.polygons, p < h.length) :
    c.Inverse h = .ok (c.polygons.foldl (fun h p => flipCell p h) h, c) := by
  unfold CSG.Inverse CSG.Clone
  simp only [List.nil_append]
  rw [flipAll_ok _ _ hv]
  rfl

end Flip

/-! ## C9 : Inverse twice -/

section InverseClaims

variable {K : Type} [LinearOrderedField K]

/-- C9: on a CSG whose polygons are all allocated, `c.Inverse().Inverse()`
returns, and the result holds the same polygons as `c` held before: the same
addresses in the same order, every cell (vertices in order, plane `Normal` and
`W`) as it was. -/
theorem Inverse_Inverse (c : CSG) (h : Heap K) (hv : ∀ p ∈ c.polygons, p < h.length) :
    ∃ h1 c1 h2 c2, c.Inverse h = .ok (h1, c1) ∧ c1.Inverse h1 = .ok (h2, c2) ∧
      c2.polygons.length = c.polygons.length ∧
      c2.polygons.map (fun p => h2[p]?) = c.polygons.map (fun p => h[p]?) ∧
      h2 = h := by
  have hv1 : ∀ p ∈ c.polygons, p < (c.polygons.foldl (fun h p => flipCell p h) h).length := by
    intro p hp
    rw [foldl_flipCell_length]
    exact hv p hp
  refine ⟨_, _, _, _, Inverse_ok c h hv, Inverse_ok c _ hv1, rfl, ?_, ?_⟩
  · rw [foldl_flipCell_twice]
  · rw [foldl_flipCell_twice]

/-- Witness for C9: the CSG of the single triangle `triSmall`. -/
theorem Inverse_Inverse_witness :
    ∃ h1 c1 h2 c2, CSG.Inverse ⟨[0]⟩ [triSmall] = .ok (h1, c1) ∧
      c1.Inverse h1 = .ok (h2, c2) ∧
      c2.polygons.length = (⟨[0]⟩ : CSG).polygons.length ∧
      c2.polygons.map (fun p => h2[p]?) =
        (⟨[0]⟩ : CSG).polygons.map (fun p => ([triSmall] : Heap ℚ)[p]?) ∧
      h2 = [triSmall] :=
  Inverse_Inverse ⟨[0]⟩ [triSmall] (by decide)

end InverseClaims

/-! ## C6, C7 : the operands of the boolean operations -/

section OperandClaims

variable {K : Type} [LinearOrderedField K]

theorem andThen_error {α β : Type} (r : Except Err α) (f : α → Except Err β)
    (hf : ∀ a, r = .ok a → ∃ e, f a = .error e) : ∃ e, andThen r f = .error e := by
  cases r with
  | error e => exact ⟨e, rfl⟩
  | ok a => exact hf a rfl

theorem Build_nil (sqrt : K → K) (fuel : Nat) (n : Node K) (h : Heap K) :
    Node.Build sqrt fuel n h [] = .ok (h, n) := by
  cases fuel <;> rw [Node.Build]

/-- `ClipTo` leaves the plane of the root as it is. -/
theorem ClipTo_plane (sqrt : K → K) (bsp : Node K) (plane : Option (Plane K))
    (front back : Node K) (polygons : List Ptr) (h h1 : Heap K) (n1 : Node K)
    (e : Node.ClipTo sqrt bsp (.mk plane front back polygons) h = .ok (h1, n1)) :
    ∃ front1 back1 polygons1, n1 = .mk plane front1 back1 polygons1 := by
  rw [Node.ClipTo] at e
  cases e1 : bsp.ClipPolygons sqrt h polygons with
  | error err => simp [e1] at e
  | ok r1 =>
    obtain ⟨h2, ps⟩ := r1
    simp only [e1] at e
    cases e2 : Node.ClipTo sqrt bsp front h2 with
    | error err => simp [e2] at e
    | ok r2 =>
      obtain ⟨h3, f1⟩ := r2
      simp only [e2] at e
      cases e3 : Node.ClipTo sqrt bsp back h3 with
      | error err => simp [e3] at e
      | ok r3 =>
        obtain ⟨h4, b1⟩ := r3
        simp only [e3, Except.ok.injEq, Prod.mk.injEq] at e
        exact ⟨f1, b1, ps, e.2.symm⟩

/-- `Invert` on a node without a plane panics. -/
theorem Invert_no_plane (front back : Node K) (polygons : List Ptr) (h : Heap K) :
    ∃ e, Node.Invert (.mk none front back polygons) h = .error e := by
  rw [Node.Invert]
  cases flipAll polygons h with
  | error e => exact ⟨e, rfl⟩
  | ok h1 => exact ⟨.nilDeref, rfl⟩

/-- The tree of an operand without polygons is the empty node. -/
theorem NewNode_nil (sqrt : K → K) (fuel : Nat) (h : Heap K) :
    NewNodeFromPolygons sqrt fuel h (CSG.Clone ⟨[]⟩).polygons = .ok (h, Node.empty) := by
  unfold NewNodeFromPolygons CSG.Clone
  exact Build_nil sqrt fuel _ h

/-- C6 fails on the code.  `Inverse` copies only the slice of pointers and then
flips the polygons in place: after `c.Inverse()` the polygon of `c` at address 0
has its vertex order reversed and its plane negated.  `Union` leaves the polygon
of its argument flipped (flipped by the first `b.Invert()`, dropped by
`b.ClipTo(a)`, so not flipped back), `Subtract` that of its receiver. -/
theorem operands_changed :
    CSG.Inverse ⟨[0]⟩ [triSmall] = .ok ([triSmall.Flip], ⟨[0]⟩) ∧
    triSmall.Flip.Vertices = [vtx 0 1 0, vtx 1 0 0, vtx 0 0 0] ∧
    triSmall.Flip.Plane = ⟨⟨0, 0, -1⟩, 0⟩ ∧
    triSmall.Flip ≠ triSmall ∧
    CSG.Union ratSqrt 4 ⟨[0]⟩ ⟨[1]⟩ [triSmall, triBig] =
      .ok ([triSmall, triBig.Flip], ⟨[0]⟩) ∧
    triBig.Flip ≠ triBig ∧
    CSG.Subtract ratSqrt 4 ⟨[0]⟩ ⟨[1]⟩ [triSmall, triBig] =
      .ok ([triSmall.Flip, triBig], ⟨[]⟩) := by
  refine ⟨by decide!, by decide!, by decide!, by decide!, by decide!, by decide!, by decide!⟩

/-- C7 fails on the code.  With an operand that has no polygons the tree of
that operand has no plane and `Node.Invert` dereferences the nil plane: `Union`
and `Subtract` with an empty argument, `Subtract` and `Intersect` with an empty
receiver and `Intersect` with an empty argument never return a CSG, whatever
the other operand, the heap and the fuel; on the one-triangle CSG the failure
is the nil dereference. -/
theorem boolean_ops_empty_operand (sqrt : K → K) (fuel : Nat) (c : CSG) (h : Heap K) :
    (∃ e, CSG.Union sqrt fuel c ⟨[]⟩ h = .error e) ∧
    (∃ e, CSG.Subtract sqrt fuel c ⟨[]⟩ h = .error e) ∧
    (∃ e, CSG.Subtract sqrt fuel ⟨[]⟩ c h = .error e) ∧
    (∃ e, CSG.Intersect sqrt fuel ⟨[]⟩ c h = .error e) ∧
    (∃ e, CSG.Intersect sqrt fuel c ⟨[]⟩ h = .error e) ∧
    CSG.Union ratSqrt 4 ⟨[0]⟩ ⟨[]⟩ [triSmall] = .error .nilDeref ∧
    CSG.Subtract ratSqrt 4 ⟨[]⟩ ⟨[0]⟩ [triSmall] = .error .nilDeref ∧
    CSG.Intersect ratSqrt 4 ⟨[0]⟩ ⟨[]⟩ [triSmall] = .error .nilDeref := by
  refine ⟨?_, ?_, ?_, ?_, ?_, by decide!, by decide!, by decide!⟩
  · unfold CSG.Union
    refine andThen_error _ _ fun ⟨h1, a⟩ _ => ?_
    try dsimp only
    rw [NewNode_nil]
    refine andThen_error _ _ fun ⟨h2, b⟩ e2 => ?_
    try dsimp only
    obtain ⟨rfl, rfl⟩ : h1 = h2 ∧ Node.empty = b := by simpa using e2
    refine andThen_error _ _ fun ⟨h3, a3⟩ _ => ?_
    try dsimp only
    refine andThen_error _ _ fun ⟨h4, b4⟩ e4 => ?_
    try dsimp only
    obtain ⟨f1, b1, ps1, rfl⟩ := ClipTo_plane sqrt a3 none .nil .nil [] h3 h4 b4 e4
    obtain ⟨e, he⟩ := Invert_no_plane f1 b1 ps1 h4
    exact ⟨e, by simp only [he, andThen]⟩
  · unfold CSG.Subtract
    refine andThen_error _ _ fun ⟨h1, a⟩ _ => ?_
    try dsimp only
    rw [NewNode_nil]
    refine andThen_error _ _ fun ⟨h2, b⟩ e2 => ?_
    try dsimp only
    obtain ⟨rfl, rfl⟩ : h1 = h2 ∧ Node.empty = b := by simpa using e2
    refine andThen_error _ _ fun ⟨h3, a3⟩ _ => ?_
    try dsimp only
    refine andThen_error _ _ fun ⟨h4, a4⟩ _ => ?_
    try dsimp only
    refine andThen_error _ _ fun ⟨h5, b5⟩ e5 => ?_
    try dsimp only
    obtain ⟨f1, b1, ps1, rfl⟩ := ClipTo_plane sqrt a4 none .nil .nil [] h4 h5 b5 e5
    obtain ⟨e, he⟩ := Invert_no_plane f1 b1 ps1 h5
    exact ⟨e, by simp only [he, andThen]⟩
  · unfold CSG.Subtract
    rw [NewNode_nil]
    refine andThen_error _ _ fun ⟨h1, a⟩ e1 => ?_
    try dsimp only
    obtain ⟨rfl, rfl⟩ : h = h1 ∧ Node.empty = a := by simpa using e1
    refine andThen_error _ _ fun ⟨h2, b⟩ _ => ?_
    try dsimp only
    obtain ⟨e, he⟩ := @Invert_no_plane K _ .nil .nil [] h2
    exact ⟨e, by simp only [Node.empty, he, andThen]⟩
  · unfold CSG.Intersect
    rw [NewNode_nil]
    refine andThen_error _ _ fun ⟨h1, a⟩ e1 => ?_
    try dsimp only
    obtain ⟨rfl, rfl⟩ : h = h1 ∧ Node.empty = a := by simpa using e1
    refine andThen_error _ _ fun ⟨h2, b⟩ _ => ?_
    try dsimp only
    obtain ⟨e, he⟩ := @Invert_no_plane K _ .nil .nil [] h2
    exact ⟨e, by simp only [Node.empty, he, andThen]⟩
  · unfold CSG.Intersect
    refine andThen_error _ _ fun ⟨h1, a⟩ _ => ?_
    try dsimp only
    rw [NewNode_nil]
    refine andThen_error _ _ fun ⟨h2, b⟩ e2 => ?_
    try dsimp only
    obtain ⟨rfl, rfl⟩ : h1 = h2 ∧ Node.empty = b := by simpa using e2
    refine andThen_error _ _ fun ⟨h3, a3⟩ _ => ?_
    try dsimp only
    refine andThen_error _ _ fun ⟨h4, b4⟩ e4 => ?_
    try dsimp only
    obtain ⟨f1, b1, ps1, rfl⟩ := ClipTo_plane sqrt a3 none .nil .nil [] h3 h4 b4 e4
    obtain ⟨e, he⟩ := Invert_no_plane f1 b1 ps1 h4
    exact ⟨e, by simp only [he, andThen]⟩

end OperandClaims

end Csg

namespace Csg

section UnionLemmas

variable {K : Type} [LinearOrderedField K]

/-- A list of polygons that are all FRONT of the plane goes to `front` whole and
the heap is not touched. -/
theorem SplitPolygons_all_front {σ : Type} (sqrt : K → K) (plane : Plane K)
    (emit : Side → Ptr → σ → σ) (l : List Ptr) (h : Heap K) :
    ∀ out : σ, (∀ q ∈ l, ∃ Q, h[q]? = some Q ∧ polygonType plane Q = FRONT) →
      SplitPolygons sqrt plane emit l h out =
        .ok (h, l.foldl (fun o q => emit .front q o) out) := by
  induction l with
  | nil => intro out _; rw [SplitPolygons]; rfl
  | cons q l ih =>
    intro out hf
    obtain ⟨Q, eQ, tQ⟩ := hf q (List.mem_cons_self _ _)
    have hns : polygonType plane Q ≠ SPANNING := by rw [tQ]; decide
    rw [(SplitPolygons_cons_keep sqrt plane emit q l h out Q eQ hns).2.2.1 tQ]
    rw [ih _ (fun r hr => hf r (List.mem_cons_of_mem _ hr))]
    rfl

theorem foldl_buildEmit_front (l : List Ptr) (o : BuildOut) :
    l.foldl (fun o q => buildEmit .front q o) o = { o with front := o.front ++ l } := by
  induction l generalizing o with
  | nil => simp
  | cons q l ih => rw [List.foldl_cons, ih]; simp [buildEmit]

theorem foldl_clipEmit_front (l : List Ptr) (o : List Ptr × List Ptr) :
    l.foldl (fun o q => clipEmit .front q o) o = (o.1 ++ l, o.2) := by
  induction l generalizing o with
  | nil => simp
  | cons q l ih =>
    obtain ⟨o1, o2⟩ := o
    rw [List.foldl_cons, ih]
    simp [clipEmit]

theorem ownPlane_spec {h : Heap K} {p : Ptr} (ho : ownPlane h p = true) :
    ∃ P, h[p]? = some P ∧ polygonType P.Plane P = COPLANAR ∧
      0 < P.Plane.Normal.Dot P.Plane.Normal := by
  unfold ownPlane at ho
  cases e : h[p]? with
  | none => simp [e] at ho
  | some P =>
    simp only [e, Bool.and_eq_true, beq_iff_eq, decide_eq_true_eq] at ho
    exact ⟨P, rfl, ho.1, ho.2⟩

theorem frontOf_spec {h : Heap K} {p q : Ptr} (hf : frontOf h p q = true) :
    ∃ P Q, h[p]? = some P ∧ h[q]? = some Q ∧ polygonType P.Plane Q = FRONT := by
  unfold frontOf at hf
  cases e1 : h[p]? with
  | none => simp [e1] at hf
  | some P =>
    cases e2 : h[q]? with
    | none => simp [e1, e2] at hf
    | some Q =>
      simp only [e1, e2, beq_iff_eq] at hf
      exact ⟨P, Q, rfl, rfl, hf⟩

theorem Separated_cons {h : Heap K} {p : Ptr} {l : List Ptr} (hs : Separated h (p :: l)) :
    ownPlane h p = true ∧ (∀ q ∈ l, frontOf h p q = true ∧ frontOf h q p = true) ∧
      Separated h l := by
  obtain ⟨ho, hp⟩ := hs
  rw [List.pairwise_cons] at hp
  exact ⟨ho p (List.mem_cons_self _ _), hp.1,
    fun q hq => ho q (List.mem_cons_of_mem _ hq), hp.2⟩

theorem Separated_perm {h : Heap K} {l l1 : List Ptr} (hs : Separated h l)
    (hp : l.Perm l1) : Separated h l1 :=
  ⟨fun p hp1 => hs.1 p (hp.symm.subset hp1),
   hs.2.perm hp (fun hxy => ⟨hxy.2, hxy.1⟩)⟩

/-- `Build` from the empty node on a separated list makes the front chain and
leaves the heap as it is. -/
theorem Build_empty_chain (sqrt : K → K) (h : Heap K) (B : List Ptr) :
    ∀ fuel, B ≠ [] → Separated h B → B.length ≤ fuel →
      Node.Build sqrt fuel Node.empty h B = .ok (h, frontChain h B) := by
  induction B with
  | nil => intro _ hne; exact absurd rfl hne
  | cons q rest ih =>
    intro fuel _ hs hfuel
    obtain ⟨hq, hfr, hrest⟩ := Separated_cons hs
    obtain ⟨Q, eQ, tQ, dQ⟩ := ownPlane_spec hq
    cases fuel with
    | zero => simp at hfuel
    | succ f =>
      have hsplit : SplitPolygons sqrt Q.Plane buildEmit (q :: rest) h ⟨[], [], []⟩ =
          .ok (h, ⟨[q], rest, []⟩) := by
        have hns : polygonType Q.Plane Q ≠ SPANNING := by rw [tQ]; decide
        rw [(SplitPolygons_cons_keep sqrt Q.Plane buildEmit q rest h _ Q eQ hns).1 tQ dQ]
        rw [SplitPolygons_all_front sqrt Q.Plane buildEmit rest h]
        · rw [foldl_buildEmit_front]
          simp [buildEmit]
        · intro r hr
          obtain ⟨P1, Q1, e1, e2, t⟩ := frontOf_spec (hfr r hr).1
          rw [eQ] at e1
          cases e1
          exact ⟨Q1, e2, t⟩
      show Node.Build sqrt (f + 1) (.mk none .nil .nil []) h (q :: rest) = _
      unfold Node.Build
      simp only [eQ, Plane_Clone_eq, hsplit]
      cases rest with
      | nil => simp [frontChain, eQ]
      | cons r rest1 =>
        have ih1 := ih f (by simp) hrest (by simpa using hfuel)
        simp only [Node.isNil, if_true, List.length_cons, Nat.zero_lt_succ,
          gt_iff_lt, ih1, List.length_nil, Nat.lt_irrefl, if_false]
        simp [frontChain, eQ]

theorem frontChain_isNil (h : Heap K) (A : List Ptr) :
    (frontChain h A).isNil = true ↔ A = [] := by
  cases A <;> simp [frontChain, Node.isNil]

/-- `Build` of a separated list into the chain of another adds it at the end of
the chain. -/
theorem Build_chain_append (sqrt : K → K) (h : Heap K) (A : List Ptr) :
    ∀ (B : List Ptr) fuel, A ≠ [] → B ≠ [] → Separated h (A ++ B) →
      A.length + B.length ≤ fuel →
      Node.Build sqrt fuel (frontChain h A) h B = .ok (h, frontChain h (A ++ B)) := by
  induction A with
  | nil => intro _ _ hne; exact absurd rfl hne
  | cons p A1 ih =>
    intro B fuel _ hB hs hfuel
    obtain ⟨hp, hfr, hrest⟩ := Separated_cons hs
    obtain ⟨P, eP, tP, dP⟩ := ownPlane_spec hp
    obtain ⟨q, B1, rfl⟩ := List.exists_cons_of_ne_nil hB
    cases fuel with
    | zero => simp at hfuel
    | succ f =>
      have hsplit : SplitPolygons sqrt P.Plane buildEmit (q :: B1) h ⟨[p], [], []⟩ =
          .ok (h, ⟨[p], q :: B1, []⟩) := by
        rw [SplitPolygons_all_front sqrt P.Plane buildEmit (q :: B1) h]
        · rw [foldl_buildEmit_front]
          simp
        · intro r hr
          obtain ⟨P1, Q1, e1, e2, t⟩ :=
            frontOf_spec (hfr r (List.mem_append.mpr (Or.inr hr))).1
          rw [eP] at e1
          cases e1
          exact ⟨Q1, e2, t⟩
      rw [frontChain]
      unfold Node.Build
      simp only [eP, Option.map_some', hsplit]
      have hchild : Node.Build sqrt f
          (if (frontChain h A1).isNil then Node.empty else frontChain h A1) h (q :: B1) =
          .ok (h, frontChain h (A1 ++ q :: B1)) := by
        cases A1 with
        | nil =>
          simp only [frontChain, Node.isNil, if_true, List.nil_append]
          exact Build_empty_chain sqrt h (q :: B1) f (by simp)
            (by simpa using hrest)
            (by simp only [List.length_cons, List.length_nil] at hfuel ⊢; omega)
        | cons p1 A2 =>
          have hnil : (frontChain h (p1 :: A2)).isNil = false := by
            simp [frontChain, Node.isNil]
          rw [hnil]
          simp only [Bool.false_eq_true, if_false]
          exact ih (q :: B1) f (by simp) (by simp) hrest
            (by simp only [List.length_cons] at hfuel ⊢; omega)
      simp only [List.length_cons, Nat.zero_lt_succ, gt_iff_lt, if_true, hchild,
        List.length_nil, Nat.lt_irrefl, if_false]
      simp [frontChain, eP]

theorem frontChain_AllPolygons (h : Heap K) (A : List Ptr) :
    (frontChain h A).AllPolygons = A := by
  induction A with
  | nil => rfl
  | cons p A ih => simp [frontChain, Node.AllPolygons, ih]

theorem backChain_AllPolygons (h : Heap K) (A : List Ptr) :
    (backChain h A).AllPolygons = A := by
  induction A with
  | nil => rfl
  | cons p A ih => simp [backChain, Node.AllPolygons, ih]

theorem frontChain_planes {h0 : Heap K} {B : List Ptr} {pl : Plane K}
    (hpl : pl ∈ (frontChain h0 B).planes) : ∃ q ∈ B, ∃ Q, h0[q]? = some Q ∧ pl = Q.Plane := by
  induction B with
  | nil => simp [frontChain, Node.planes] at hpl
  | cons q rest ih =>
    simp only [frontChain, Node.planes, List.append_nil, List.mem_append] at hpl
    rcases hpl with hpl | hpl
    · cases e : h0[q]? with
      | none => simp [e] at hpl
      | some Q =>
        simp only [e, Option.map_some', Option.toList, List.mem_singleton] at hpl
        exact ⟨q, List.mem_cons_self _ _, Q, e, hpl⟩
    · obtain ⟨r, hr, Q, e, rfl⟩ := ih hpl
      exact ⟨r, List.mem_cons_of_mem _ hr, Q, e, rfl⟩

/-- Polygons in front of every plane of a front chain pass through it whole. -/
theorem clipPolygons_frontChain (sqrt : K → K) (h0 h : Heap K) (B : List Ptr) :
    ∀ ps : List Ptr,
      (∀ p ∈ ps, ∃ P, h[p]? = some P ∧
        ∀ pl ∈ (frontChain h0 B).planes, polygonType pl P = FRONT) →
      (frontChain h0 B).clipPolygons sqrt h ps = .ok (h, ps) := by
  induction B with
  | nil => intro ps _; rw [frontChain, Node.clipPolygons]
  | cons q rest ih =>
    intro ps hf
    rw [frontChain]
    cases e : h0[q]? with
    | none => simp only [Option.map_none']; rw [Node.clipPolygons]
    | some Q =>
      simp only [Option.map_some']
      have hmem : ∀ pl, pl ∈ (frontChain h0 rest).planes ∨ pl = Q.Plane →
          pl ∈ (frontChain h0 (q :: rest)).planes := by
        intro pl hpl
        simp only [frontChain, Node.planes, e, Option.map_some', Option.toList,
          List.append_nil, List.singleton_append, List.mem_cons]
        rcases hpl with hpl | hpl
        · exact Or.inr hpl
        · exact Or.inl hpl
      have hsplit : SplitPolygons sqrt Q.Plane clipEmit ps h ([], []) = .ok (h, (ps, [])) := by
        rw [SplitPolygons_all_front sqrt Q.Plane clipEmit ps h]
        · rw [foldl_clipEmit_front]
          simp
        · intro p hp
          obtain ⟨P, eP, hP⟩ := hf p hp
          exact ⟨P, eP, hP _ (hmem _ (Or.inr rfl))⟩
      have hfront := ih ps (fun p hp => by
        obtain ⟨P, eP, hP⟩ := hf p hp
        exact ⟨P, eP, fun pl hpl => hP pl (hmem pl (Or.inl hpl))⟩)
      rw [Node.clipPolygons]
      simp only [hsplit, hfront, Node.isNil, if_true]

/-- `ClipTo` a front chain leaves a tree as it is when all its polygons are in
front of every plane of the chain. -/
theorem ClipTo_frontChain_id (sqrt : K → K) (h0 h : Heap K) (B : List Ptr) (a : Node K) :
    (∀ p ∈ a.AllPolygons, ∃ P, h[p]? = some P ∧
        ∀ pl ∈ (frontChain h0 B).planes, polygonType pl P = FRONT) →
      Node.ClipTo sqrt (frontChain h0 B) a h = .ok (h, a) := by
  induction a with
  | nil => intro _; rw [Node.ClipTo]
  | mk plane front back polygons ihf ihb =>
    intro hf
    simp only [Node.AllPolygons, List.mem_append] at hf
    rw [Node.ClipTo]
    simp only [Node.ClipPolygons,
      clipPolygons_frontChain sqrt h0 h B polygons (fun p hp => hf p (Or.inl (Or.inl hp))),
      ihf (fun p hp => hf p (Or.inl (Or.inr hp))), ihb (fun p hp => hf p (Or.inr hp))]

theorem flipAll_single (q : Ptr) (h : Heap K) (hq : q < h.length) :
    flipAll [q] h = .ok (flipCell q h) := by
  rw [flipAll_ok [q] h (by simpa using hq)]
  rfl

/-- `Invert` of a front chain flips the listed cells in order and gives the
back chain. -/
theorem Invert_frontChain (h0 : Heap K) (B : List Ptr) :
    ∀ h : Heap K, (∀ q ∈ B, q < h.length) → (∀ q ∈ B, q < h0.length) →
      Node.Invert (frontChain h0 B) h =
        .ok (B.foldl (fun h p => flipCell p h) h, backChain h0 B) := by
  induction B with
  | nil => intro h _ _; rw [frontChain, Node.Invert]; rfl
  | cons q rest ih =>
    intro h hv hv0
    obtain ⟨Q, eQ⟩ := lookup_of_lt (hv0 q (List.mem_cons_self _ _))
    have ih1 := ih (flipCell q h)
      (fun r hr => by rw [flipCell_length]; exact hv r (List.mem_cons_of_mem _ hr))
      (fun r hr => hv0 r (List.mem_cons_of_mem _ hr))
    rw [frontChain, Node.Invert]
    simp only [flipAll_single q h (hv q (List.mem_cons_self _ _)), eQ, Option.map_some', ih1]
    rw [Node.Invert]
    simp [backChain, eQ]

/-- `Invert` of a back chain flips the listed cells in order and gives the
front chain back. -/
theorem Invert_backChain (h0 : Heap K) (B : List Ptr) :
    ∀ h : Heap K, (∀ q ∈ B, q < h.length) → (∀ q ∈ B, q < h0.length) →
      Node.Invert (backChain h0 B) h =
        .ok (B.foldl (fun h p => flipCell p h) h, frontChain h0 B) := by
  induction B with
  | nil => intro h _ _; rw [backChain, Node.Invert]; rfl
  | cons q rest ih =>
    intro h hv hv0
    obtain ⟨Q, eQ⟩ := lookup_of_lt (hv0 q (List.mem_cons_self _ _))
    have ih1 := ih (flipCell q h)
      (fun r hr => by rw [flipCell_length]; exact hv r (List.mem_cons_of_mem _ hr))
      (fun r hr => hv0 r (List.mem_cons_of_mem _ hr))
    rw [backChain, Node.Invert]
    simp only [flipAll_single q h (hv q (List.mem_cons_self _ _)), eQ, Option.map_some']
    rw [Node.Invert]
    simp only [ih1]
    simp [frontChain, eQ, Plane_Flip_Flip]

/-- After any run of flips a cell holds its polygon or the flip of it. -/
theorem foldl_flipCell_lookup (l : List Ptr) :
    ∀ (h : Heap K) (q : Ptr) (Q : Polygon K), h[q]? = some Q →
      (l.foldl (fun h p => flipCell p h) h)[q]? = some Q ∨
      (l.foldl (fun h p => flipCell p h) h)[q]? = some Q.Flip := by
  induction l with
  | nil => intro h q Q e; exact Or.inl e
  | cons p l ih =>
    intro h q Q e
    rw [List.foldl_cons]
    by_cases hpq : p = q
    · subst hpq
      have e1 : (flipCell p h)[p]? = some Q.Flip := by
        rw [flipCell_lookup_self, e]; rfl
      rcases ih (flipCell p h) p Q.Flip e1 with h1 | h1
      · exact Or.inr h1
      · rw [Polygon_Flip_Flip] at h1
        exact Or.inl h1
    · exact ih (flipCell p h) q Q (by rw [flipCell_lookup_ne _ _ _ hpq]; exact e)

/-- The type of a polygon against a plane does not depend on its vertex order
or on its own plane. -/
theorem polygonType_Flip (plane : Plane K) (Q : Polygon K) :
    polygonType plane Q.Flip = polygonType plane Q := by
  obtain ⟨a3, ab, af⟩ := polygonType_bits plane Q.Flip
  obtain ⟨b3, bb, bf⟩ := polygonType_bits plane Q
  have hb : 2 ≤ polygonType plane Q.Flip ↔ 2 ≤ polygonType plane Q := by
    rw [ab, bb]
    simp [Polygon.Flip]
  have hf : polygonType plane Q.Flip % 2 = 1 ↔ polygonType plane Q % 2 = 1 := by
    rw [af, bf]
    simp [Polygon.Flip]
  omega

theorem Separated_append {h : Heap K} {A B : List Ptr} (hs : Separated h (A ++ B)) :
    Separated h A ∧ Separated h B ∧
      ∀ p ∈ A, ∀ q ∈ B, frontOf h p q = true ∧ frontOf h q p = true := by
  obtain ⟨ho, hp⟩ := hs
  rw [List.pairwise_append] at hp
  exact ⟨⟨fun p hp1 => ho p (List.mem_append.mpr (Or.inl hp1)), hp.1⟩,
    ⟨fun p hp1 => ho p (List.mem_append.mpr (Or.inr hp1)), hp.2.1⟩, hp.2.2⟩

/-- On operands no plane of which cuts or drops a polygon, `Union` returns the
polygons of the receiver followed by those of the argument and leaves the heap
as it was. -/
theorem Union_separated (sqrt : K → K) (fuel : Nat) (A B : CSG) (h : Heap K)
    (hA : A.polygons ≠ []) (hB : B.polygons ≠ [])
    (hs : Separated h (A.polygons ++ B.polygons))
    (hfuel : A.polygons.length + B.polygons.length ≤ fuel) :
    A.Union sqrt fuel B h = .ok (h, ⟨A.polygons ++ B.polygons⟩) := by
  obtain ⟨hsA, hsB, hAB⟩ := Separated_append hs
  have hvalid : ∀ l : List Ptr, Separated h l → ∀ q ∈ l, q < h.length := by
    intro l hl q hq
    obtain ⟨Q, eQ, _⟩ := ownPlane_spec (hl.1 q hq)
    exact lt_of_lookup eQ
  have ha : NewNodeFromPolygons sqrt fuel h A.Clone.polygons =
      .ok (h, frontChain h A.polygons) := by
    unfold NewNodeFromPolygons CSG.Clone
    simp only [List.nil_append]
    exact Build_empty_chain sqrt h A.polygons fuel hA hsA (by omega)
  have hb : NewNodeFromPolygons sqrt fuel h B.Clone.polygons =
      .ok (h, frontChain h B.polygons) := by
    unfold NewNodeFromPolygons CSG.Clone
    simp only [List.nil_append]
    exact Build_empty_chain sqrt h B.polygons fuel hB hsB (by omega)
  -- a.ClipTo(b)
  have h1 : Node.ClipTo sqrt (frontChain h B.polygons) (frontChain h A.polygons) h =
      .ok (h, frontChain h A.polygons) := by
    apply ClipTo_frontChain_id
    rw [frontChain_AllPolygons]
    intro p hp
    obtain ⟨P, eP, _⟩ := ownPlane_spec (hsA.1 p hp)
    refine ⟨P, eP, fun pl hpl => ?_⟩
    obtain ⟨q, hq, Q, eQ, rfl⟩ := frontChain_planes hpl
    obtain ⟨Q1, P1, e1, e2, t⟩ := frontOf_spec (hAB p hp q hq).2
    rw [eQ] at e1; rw [eP] at e2
    cases e1; cases e2
    exact t
  -- b.ClipTo(a)
  have h2 : Node.ClipTo sqrt (frontChain h A.polygons) (frontChain h B.polygons) h =
      .ok (h, frontChain h B.polygons) := by
    apply ClipTo_frontChain_id
    rw [frontChain_AllPolygons]
    intro q hq
    obtain ⟨Q, eQ, _⟩ := ownPlane_spec (hsB.1 q hq)
    refine ⟨Q, eQ, fun pl hpl => ?_⟩
    obtain ⟨p, hp, P, eP, rfl⟩ := frontChain_planes hpl
    obtain ⟨P1, Q1, e1, e2, t⟩ := frontOf_spec (hAB p hp q hq).1
    rw [eP] at e1; rw [eQ] at e2
    cases e1; cases e2
    exact t
  -- b.Invert()
  have h3 := Invert_frontChain h B.polygons h (hvalid _ hsB) (hvalid _ hsB)
  -- b.ClipTo(a) on the flipped cells
  have h4 : Node.ClipTo sqrt (frontChain h A.polygons) (backChain h B.polygons)
      (B.polygons.foldl (fun h p => flipCell p h) h) =
      .ok (B.polygons.foldl (fun h p => flipCell p h) h, backChain h B.polygons) := by
    apply ClipTo_frontChain_id
    rw [backChain_AllPolygons]
    intro q hq
    obtain ⟨Q, eQ, _⟩ := ownPlane_spec (hsB.1 q hq)
    have hty : ∀ pl ∈ (frontChain h A.polygons).planes, polygonType pl Q = FRONT := by
      intro pl hpl
      obtain ⟨p, hp, P, eP, rfl⟩ := frontChain_planes hpl
      obtain ⟨P1, Q1, e1, e2, t⟩ := frontOf_spec (hAB p hp q hq).1
      rw [eP] at e1; rw [eQ] at e2
      cases e1; cases e2
      exact t
    rcases foldl_flipCell_lookup B.polygons h q Q eQ with e | e
    · exact ⟨Q, e, hty⟩
    · exact ⟨Q.Flip, e, fun pl hpl => by rw [polygonType_Flip]; exact hty pl hpl⟩
  -- b.Invert()
  have h5 := Invert_backChain h B.polygons (B.polygons.foldl (fun h p => flipCell p h) h)
    (fun q hq => by rw [foldl_flipCell_length]; exact hvalid _ hsB q hq) (hvalid _ hsB)
  rw [foldl_flipCell_twice] at h5
  -- a.Build(b.AllPolygons())
  have h6 := Build_chain_append sqrt h A.polygons B.polygons fuel hA hB hs hfuel
  unfold CSG.Union
  simp only [ha, hb, andThen, h1, h2, h3, h4, h5, frontChain_AllPolygons, h6,
    NewCSGFromPolygons]

theorem ite_lt_eq_min (v m : K) : (if m < v then m else v) = min v m := by
  rw [min_def]
  split_ifs with h1 h2 h2
  · exact absurd h2 (not_le.mpr h1)
  · rfl
  · rfl
  · exact absurd (le_of_not_lt h1) h2

theorem ite_gt_eq_max (v m : K) : (if m > v then m else v) = max v m := by
  rw [max_def]
  split_ifs with h1 h2 h2
  · rfl
  · exact absurd (le_of_lt h1) h2
  · exact le_antisymm h2 (not_lt.mp h1)
  · rfl

/-- The order in which vertices are added to a box does not matter. -/
theorem Box.AddVertex_right_comm (b : Box K) (v w : Vertex K) :
    (b.AddVertex v).AddVertex w = (b.AddVertex w).AddVertex v := by
  simp only [Box.AddVertex, Vector.Min, Vector.Max, ite_lt_eq_min, ite_gt_eq_max]
  simp only [inf_right_comm b.Min.X v.Position.X, inf_right_comm b.Min.Y v.Position.Y,
    inf_right_comm b.Min.Z v.Position.Z, sup_right_comm b.Max.X v.Position.X,
    sup_right_comm b.Max.Y v.Position.Y, sup_right_comm b.Max.Z v.Position.Z]

theorem BoundingBox_fold (h : Heap K) (l : List Ptr) (b : Box K)
    (hv : ∀ p ∈ l, p < h.length) :
    l.foldl
      (fun acc p =>
        match acc with
        | .error e => .error e
        | .ok b =>
          match h[p]? with
          | none => .error .nilDeref
          | some polygon => .ok (b.AddPolygon polygon))
      (.ok b) = (.ok ((allVertices h l).foldl Box.AddVertex b) : Except Err (Box K)) := by
  induction l generalizing b with
  | nil => rfl
  | cons p l ih =>
    obtain ⟨P, eP⟩ := lookup_of_lt (hv p (List.mem_cons_self _ _))
    rw [List.foldl_cons]
    simp only [eP]
    rw [ih _ (fun q hq => hv q (List.mem_cons_of_mem _ hq))]
    simp only [allVertices, List.map_cons, List.flatten_cons, eP, List.foldl_append]
    rfl

theorem BoundingBox_ok (h : Heap K) (l : List Ptr) (hv : ∀ p ∈ l, p < h.length) :
    CSG.BoundingBox ⟨l⟩ h = .ok ((allVertices h l).foldl Box.AddVertex Box.zero) :=
  BoundingBox_fold h l Box.zero hv

theorem allVertices_append (h : Heap K) (A B : List Ptr) :
    allVertices h (A ++ B) = allVertices h A ++ allVertices h B := by
  simp [allVertices]

/-- The bounding box does not depend on which operand's polygons come first. -/
theorem BoundingBox_append_comm (h : Heap K) (A B : List Ptr)
    (hA : ∀ p ∈ A, p < h.length) (hB : ∀ p ∈ B, p < h.length) :
    CSG.BoundingBox ⟨A ++ B⟩ h = CSG.BoundingBox ⟨B ++ A⟩ h := by
  rw [BoundingBox_ok h (A ++ B) (fun p hp => (List.mem_append.mp hp).elim (hA p) (hB p)),
    BoundingBox_ok h (B ++ A) (fun p hp => (List.mem_append.mp hp).elim (hB p) (hA p)),
    allVertices_append, allVertices_append]
  congr 1
  exact List.Perm.foldl_eq' List.perm_append_comm
    (fun x _ y _ z => Box.AddVertex_right_comm z x y) Box.zero

end UnionLemmas

end Csg

namespace Qhull

open Csg (Vector Err)

section HullClaims

variable {K : Type} [LinearOrderedField K]

theorem buildsWith_spec {fuel : Nat} {points : List (Vector ℚ)} {test : Hull ℚ → Bool}
    (h : buildsWith fuel points test = true) :
    ∃ q, Build Csg.ratSqrt fuel Hull.new points points.length = .ok (q, none) ∧
      test q = true := by
  unfold buildsWith at h
  split at h
  · next q e => exact ⟨q, e, h⟩
  · exact absurd h (by simp)

theorem farAbove_spec {q : Hull K} (h : farAbove q = true) :
    ∃ f ∈ q.faces, ∃ face, q.faceStore[f]? = some face ∧
      ∃ v ∈ q.points, face.DistanceToPlane v.point > q.tolerance := by
  unfold farAbove at h
  obtain ⟨f, hf, hm⟩ := List.any_eq_true.mp h
  cases e : q.faceStore[f]? with
  | none => simp [e] at hm
  | some face =>
    simp only [e, Face.hasPointAbove] at hm
    obtain ⟨v, hv, hd⟩ := List.any_eq_true.mp hm
    exact ⟨f, hf, face, e, v, hv, of_decide_eq_true hd⟩

/-- The error `buildHull` returns never reaches the caller of `Build`. -/
theorem Build_error_nil (sqrt : K → K) (fuel : Nat) (q : Hull K) (points : List (Vector K))
    (nump : Int) (h4 : 4 ≤ nump) (hlen : nump ≤ points.length)
    (r : Hull K × Option String) (hr : Build sqrt fuel q points nump = .ok r) :
    r.2 = none := by
  unfold Build at hr
  have h1 : ¬ nump < 4 := not_lt.mpr h4
  have h2 : ¬ (points.length : Int) < nump := not_lt.mpr hlen
  simp only [h1, h2, if_false, bind, Except.bind, pure, Except.pure] at hr
  split at hr
  · exact absurd hr (by simp)
  · simp only [Except.ok.injEq] at hr
    rw [← hr]

/-- C1 fails on the code.  On the five points `slabPoints` `Build` returns nil
and the hull holds five faces, one of them the quadrilateral on the vertices
4, 0, 2, 1: the new triangle on the fifth point was merged with the old face in
the plane `z = 0` and kept its own plane, and the input point `(0,-8,0)` lies
more than the tolerance above that plane. -/
theorem hull_point_above_face :
    ∃ q, Build Csg.ratSqrt 20 Hull.new slabPoints slabPoints.length = .ok (q, none) ∧
      Faces 20 q = .ok [[3, 2, 0], [1, 2, 3], [4, 0, 2, 1], [4, 1, 3], [4, 3, 0]] ∧
      ∃ f ∈ q.faces, ∃ face, q.faceStore[f]? = some face ∧
        ∃ v ∈ q.points, face.DistanceToPlane v.point > q.tolerance := by
  have h : buildsWith 20 slabPoints (fun q =>
      decide (Faces 20 q = .ok [[3, 2, 0], [1, 2, 3], [4, 0, 2, 1], [4, 1, 3], [4, 3, 0]]) &&
        farAbove q) = true := by decide!
  obtain ⟨q, e, ht⟩ := buildsWith_spec h
  simp only [Bool.and_eq_true, decide_eq_true_eq] at ht
  exact ⟨q, e, ht.1, farAbove_spec ht.2⟩

/-- C10 fails on the code.  `Build` drops the error of `buildHull` and returns
nil: with at least four points and a slice long enough it never returns an
error.  On seven coincident points and on four points of the X axis `buildHull`
returns the coincident and the colinear error and `Build` returns nil. -/
theorem Build_drops_error (sqrt : K → K) (fuel : Nat) (q : Hull K) (points : List (Vector K))
    (nump : Int) :
    (4 ≤ nump → nump ≤ points.length →
      ∀ r, Build sqrt fuel q points nump = .ok r → r.2 = none) ∧
    buildHullError 20 coincidentPoints = some "Input points appear to e coincident" ∧
    (∃ q1, Build Csg.ratSqrt 20 Hull.new coincidentPoints 7 = .ok (q1, none)) ∧
    buildHullError 20 colinearPoints = some "Input points appear to be colinear" ∧
    (∃ q1, Build Csg.ratSqrt 20 Hull.new colinearPoints 4 = .ok (q1, none)) := by
  refine ⟨fun h4 hlen r hr => Build_error_nil sqrt fuel q points nump h4 hlen r hr,
    by decide!, ?_, by decide!, ?_⟩
  · have h : buildsWith 20 coincidentPoints (fun _ => true) = true := by decide!
    obtain ⟨q1, e, _⟩ := buildsWith_spec h
    exact ⟨q1, e⟩
  · have h : buildsWith 20 colinearPoints (fun _ => true) = true := by decide!
    obtain ⟨q1, e, _⟩ := buildsWith_spec h
    exact ⟨q1, e⟩

end HullClaims

end Qhull

/-! ## C18, C19 : triangulation -/

namespace Csg

section Triangles

variable {K : Type} [LinearOrderedField K]

theorem getD_getLast {α : Type} (d : α) :
    ∀ (l : List α) (hl : l ≠ []), l.getD (l.length - 1) d = l.getLast hl
  | [a], _ => rfl
  | a :: b :: l, _ => by
    have ih := getD_getLast d (b :: l) (List.cons_ne_nil b l)
    simpa using ih

theorem triangulate_reference (pl : Plane K) :
    ∀ vs : List (Vertex K),
      triangulate vs pl = (referenceTriangles vs.length).map (triangleAt vs pl)
  | [] => by simp [triangulate, referenceTriangles]
  | [_] => by simp [triangulate, referenceTriangles]
  | [_, _] => by simp [triangulate, referenceTriangles]
  | [_, _, _] => by simp [triangulate, referenceTriangles, triangleAt, NewTriangle]
  | [_, _, _, _] => by simp [triangulate, referenceTriangles, triangleAt, NewTriangle]
  | [_, _, _, _, _] => by simp [triangulate, referenceTriangles, triangleAt, NewTriangle]
  | [_, _, _, _, _, _] => by simp [triangulate, referenceTriangles, triangleAt, NewTriangle]
  | v0 :: v1 :: v2 :: v3 :: v4 :: v5 :: v6 :: rest => by
    have ih := triangulate_reference pl (v2 :: v3 :: v4 :: v5 :: v6 :: rest)
    have hl := getD_getLast Vertex.zero (v6 :: rest) (List.cons_ne_nil v6 rest)
    rw [triangulate, ih]
    have hlen : (v0 :: v1 :: v2 :: v3 :: v4 :: v5 :: v6 :: rest).length = rest.length + 7 := by
      simp
    have hlen5 : (v2 :: v3 :: v4 :: v5 :: v6 :: rest).length = rest.length + 5 := by simp
    rw [hlen, hlen5, referenceTriangles]
    simp only [List.map_append, List.map_map, List.map_cons, List.map_nil]
    have e1 : triangleAt (v0 :: v1 :: v2 :: v3 :: v4 :: v5 :: v6 :: rest) pl (0, 1, 2) =
        NewTriangle v0 v1 v2 pl := rfl
    have e2 : List.map (triangleAt (v0 :: v1 :: v2 :: v3 :: v4 :: v5 :: v6 :: rest) pl ∘
        fun t => (t.1 + 2, t.2.1 + 2, t.2.2 + 2)) (referenceTriangles (rest.length + 5)) =
        List.map (triangleAt (v2 :: v3 :: v4 :: v5 :: v6 :: rest) pl)
          (referenceTriangles (rest.length + 5)) := by
      apply List.map_congr_left
      intro t _
      simp [triangleAt]
    have e3 : triangleAt (v0 :: v1 :: v2 :: v3 :: v4 :: v5 :: v6 :: rest) pl
        (0, 2, rest.length + 6) =
        NewTriangle v0 v2 ((v6 :: rest).getLast (List.cons_ne_nil v6 rest)) pl := by
      rw [← hl]
      simp [triangleAt, NewTriangle]
    rw [e1, e2, e3]

theorem referenceTriangles_lt : ∀ (n : Nat), ∀ t ∈ referenceTriangles n,
    t.1 < n ∧ t.2.1 < n ∧ t.2.2 < n
  | 0 => by simp [referenceTriangles]
  | 1 => by simp [referenceTriangles]
  | 2 => by simp [referenceTriangles]
  | 3 => by simp [referenceTriangles]
  | 4 => by simp [referenceTriangles]
  | 5 => by simp [referenceTriangles]
  | 6 => by simp [referenceTriangles]
  | n + 7 => by
    have ih := referenceTriangles_lt (n + 5)
    intro t ht
    rw [referenceTriangles] at ht
    simp only [List.mem_append, List.mem_singleton, List.mem_map] at ht
    rcases ht with (rfl | ⟨s, hs, rfl⟩) | rfl
    · simp
    · have := ih s hs
      simp only
      omega
    · simp

theorem referenceTriangles_length : ∀ (n : Nat), 3 ≤ n → (referenceTriangles n).length = n - 2
  | 0 => by simp
  | 1 => by simp
  | 2 => by simp
  | 3 => by simp [referenceTriangles]
  | 4 => by simp [referenceTriangles]
  | 5 => by simp [referenceTriangles]
  | 6 => by simp [referenceTriangles]
  | n + 7 => by
    have ih := referenceTriangles_length (n + 5) (by omega)
    intro _
    rw [referenceTriangles]
    simp only [List.length_append, List.length_map, List.length_singleton, ih]
    omega

theorem getD_mem_of_lt {α : Type} (l : List α) (i : Nat) (d : α) (h : i < l.length) :
    l.getD i d ∈ l := by
  rw [List.getD_eq_getElem l d h]
  exact List.getElem_mem h

end Triangles

section TriangleClaims

variable {K : Type} [LinearOrderedField K]

/-- C18: `Polygon.Triangles` equals the reference triangulation of the vertex
list by index (the table for 3 to 6 vertices; from 7 vertices on `(0,1,2)`,
then the triangulation of `vertices[2:]`, then `(0,2,n-1)`; nothing below 3
vertices), every index used lies inside the vertex list, and every triangle
carries the polygon's own plane. -/
theorem Triangles_reference (p : Polygon K) :
    p.Triangles = (referenceTriangles p.Vertices.length).map (triangleAt p.Vertices p.Plane) ∧
      (∀ t ∈ referenceTriangles p.Vertices.length,
        t.1 < p.Vertices.length ∧ t.2.1 < p.Vertices.length ∧ t.2.2 < p.Vertices.length) ∧
      (p.Vertices.length < 3 → p.Triangles = []) ∧
      ∀ t ∈ p.Triangles, t.Plane = p.Plane := by
  have h := triangulate_reference p.Plane p.Vertices
  refine ⟨h, referenceTriangles_lt _, ?_, ?_⟩
  · intro hl
    unfold Polygon.Triangles
    rw [h]
    have : p.Vertices.length = 0 ∨ p.Vertices.length = 1 ∨ p.Vertices.length = 2 := by omega
    rcases this with e | e | e <;> rw [e] <;> simp [referenceTriangles]
  · intro t ht
    unfold Polygon.Triangles at ht
    rw [h, List.mem_map] at ht
    obtain ⟨s, _, rfl⟩ := ht
    rfl

/-- C19: a polygon with `n ≥ 3` vertices is triangulated into exactly `n - 2`
triangles, each with three vertices, and every vertex of every triangle is one
of the polygon's own vertices. -/
theorem Triangles_count (p : Polygon K) (hn : 3 ≤ p.Vertices.length) :
    p.Triangles.length = p.Vertices.length - 2 ∧
      ∀ t ∈ p.Triangles, t.Vertices.length = 3 ∧ ∀ v ∈ t.Vertices, v ∈ p.Vertices := by
  have h := triangulate_reference p.Plane p.Vertices
  unfold Polygon.Triangles
  rw [h]
  refine ⟨by rw [List.length_map]; exact referenceTriangles_length _ hn, ?_⟩
  intro t ht
  rw [List.mem_map] at ht
  obtain ⟨s, hs, rfl⟩ := ht
  obtain ⟨h1, h2, h3⟩ := referenceTriangles_lt _ s hs
  refine ⟨rfl, ?_⟩
  intro v hv
  simp only [triangleAt, List.mem_cons, List.mem_singleton, List.not_mem_nil, or_false] at hv
  rcases hv with rfl | rfl | rfl
  · exact getD_mem_of_lt _ _ _ h1
  · exact getD_mem_of_lt _ _ _ h2
  · exact getD_mem_of_lt _ _ _ h3

/-- C19 on a heptagon: five triangles, all on the heptagon's vertices. -/
theorem Triangles_count_witness :
    3 ≤ heptagon.Vertices.length ∧ heptagon.Triangles.length = heptagon.Vertices.length - 2 ∧
      ∀ t ∈ heptagon.Triangles,
        t.Vertices.length = 3 ∧ ∀ v ∈ t.Vertices, v ∈ heptagon.Vertices :=
  ⟨by decide, Triangles_count heptagon (by decide)⟩

end TriangleClaims

end Csg

/-! ## C20 : the plane through three points -/

namespace Csg

section PlaneFromPoints

variable {K : Type} [LinearOrderedField K]

theorem Vector_ext_iff (u v : Vector K) : u = v ↔ u.X = v.X ∧ u.Y = v.Y ∧ u.Z = v.Z := by
  cases u; cases v; simp

theorem sum_squares_eq_zero {x y z : K} (h : x * x + y * y + z * z = 0) :
    x = 0 ∧ y = 0 ∧ z = 0 := by
  have hx := mul_self_nonneg x
  have hy := mul_self_nonneg y
  have hz := mul_self_nonneg z
  refine ⟨?_, ?_, ?_⟩
  · exact mul_self_eq_zero.mp (by linarith)
  · exact mul_self_eq_zero.mp (by linarith)
  · exact mul_self_eq_zero.mp (by linarith)

theorem cross_eq_zero_of_Collinear {a b c : Vector K} (h : Collinear a b c) :
    (b.Minus a).Cross (c.Minus a) = ⟨0, 0, 0⟩ := by
  obtain ⟨o, d, ta, tb, tc, rfl, rfl, rfl⟩ := h
  simp only [Vector.Cross, Vector.Minus, Vector.Plus, Vector.Times, Vector.mk.injEq]
  refine ⟨by ring, by ring, by ring⟩

theorem Collinear_of_cross_eq_zero {a b c : Vector K}
    (h : (b.Minus a).Cross (c.Minus a) = ⟨0, 0, 0⟩) : Collinear a b c := by
  simp only [Vector.Cross, Vector.Minus, Vector.mk.injEq] at h
  obtain ⟨hx, hy, hz⟩ := h
  by_cases hu : (b.Minus a).Dot (b.Minus a) = 0
  · -- `b = a`: the line through `a` and `c`
    have h0 : (b.X - a.X) * (b.X - a.X) + (b.Y - a.Y) * (b.Y - a.Y) +
        (b.Z - a.Z) * (b.Z - a.Z) = 0 := hu
    obtain ⟨e1, e2, e3⟩ := sum_squares_eq_zero h0
    refine ⟨a, c.Minus a, 0, 0, 1, ?_, ?_, ?_⟩ <;>
      rw [Vector_ext_iff] <;>
      simp only [Vector.Plus, Vector.Times, Vector.Minus] <;>
      refine ⟨?_, ?_, ?_⟩ <;> linarith
  · -- the line through `a` and `b`
    have hu1 : (b.X - a.X) * (b.X - a.X) + (b.Y - a.Y) * (b.Y - a.Y) +
        (b.Z - a.Z) * (b.Z - a.Z) ≠ 0 := hu
    refine ⟨a, b.Minus a, 0, 1,
      (c.Minus a).Dot (b.Minus a) / (b.Minus a).Dot (b.Minus a), ?_, ?_, ?_⟩
    · rw [Vector_ext_iff]
      simp only [Vector.Plus, Vector.Times, Vector.Minus]
      refine ⟨?_, ?_, ?_⟩ <;> ring
    · rw [Vector_ext_iff]
      simp only [Vector.Plus, Vector.Times, Vector.Minus]
      refine ⟨?_, ?_, ?_⟩ <;> ring
    · rw [Vector_ext_iff]
      simp only [Vector.Plus, Vector.Times, Vector.Minus, Vector.Dot]
      refine ⟨?_, ?_, ?_⟩
      · field_simp
        linear_combination (b.Z - a.Z) * hy - (b.Y - a.Y) * hz
      · field_simp
        linear_combination (b.X - a.X) * hz - (b.Z - a.Z) * hx
      · field_simp
        linear_combination (b.Y - a.Y) * hx - (b.X - a.X) * hy

theorem dot_self_pos_of_ne_zero {x : Vector K} (h : x ≠ ⟨0, 0, 0⟩) : 0 < x.Dot x := by
  have h0 : 0 ≤ x.Dot x := by
    simp only [Vector.Dot]
    nlinarith [mul_self_nonneg x.X, mul_self_nonneg x.Y, mul_self_nonneg x.Z]
  rcases h0.lt_or_eq with h1 | h1
  · exact h1
  · exfalso
    apply h
    obtain ⟨e1, e2, e3⟩ := sum_squares_eq_zero h1.symm
    rw [Vector_ext_iff]
    exact ⟨e1, e2, e3⟩

theorem cross_dot_left (u w : Vector K) : (u.Cross w).Dot u = 0 := by
  simp only [Vector.Cross, Vector.Dot]; ring

theorem cross_dot_right (u w : Vector K) : (u.Cross w).Dot w = 0 := by
  simp only [Vector.Cross, Vector.Dot]; ring

theorem sqrt_one_of_exact (sqrt : K → K)
    (hsqrt : ∀ x, 0 ≤ x → 0 ≤ sqrt x ∧ sqrt x * sqrt x = x) : sqrt 1 = 1 := by
  obtain ⟨h0, h1⟩ := hsqrt 1 zero_le_one
  have : (sqrt 1 - 1) * (sqrt 1 + 1) = 0 := by ring_nf; rw [sq, h1]; ring
  rcases mul_eq_zero.mp this with h | h
  · linarith
  · linarith

end PlaneFromPoints

section PlaneFromPointsClaims

variable {K : Type} [LinearOrderedField K]

/-- C20: with an exact square root, the plane through three points that are
not collinear has a normal of length 1, and all three points satisfy
`dot(Normal, p) = W`. -/
theorem NewPlaneFromPoints_unit_normal (sqrt : K → K)
    (hsqrt : ∀ x, 0 ≤ x → 0 ≤ sqrt x ∧ sqrt x * sqrt x = x)
    (a b c : Vector K) (h : ¬ Collinear a b c) :
    (NewPlaneFromPoints sqrt a b c).Normal.Length sqrt = 1 ∧
      (NewPlaneFromPoints sqrt a b c).Normal.Dot a = (NewPlaneFromPoints sqrt a b c).W ∧
      (NewPlaneFromPoints sqrt a b c).Normal.Dot b = (NewPlaneFromPoints sqrt a b c).W ∧
      (NewPlaneFromPoints sqrt a b c).Normal.Dot c = (NewPlaneFromPoints sqrt a b c).W := by
  have hx : (b.Minus a).Cross (c.Minus a) ≠ ⟨0, 0, 0⟩ := fun e => h (Collinear_of_cross_eq_zero e)
  have hpos := dot_self_pos_of_ne_zero hx
  obtain ⟨hl0, hl⟩ := hsqrt _ hpos.le
  have hlne : sqrt (((b.Minus a).Cross (c.Minus a)).Dot ((b.Minus a).Cross (c.Minus a))) ≠ 0 := by
    intro e
    rw [e] at hl
    linarith
  have hb := cross_dot_left (b.Minus a) (c.Minus a)
  have hc := cross_dot_right (b.Minus a) (c.Minus a)
  set x := (b.Minus a).Cross (c.Minus a) with hxdef
  set l := sqrt (x.Dot x) with hldef
  have hn : (NewPlaneFromPoints sqrt a b c).Normal = x.DividedBy l := rfl
  have hw : (NewPlaneFromPoints sqrt a b c).W = (x.DividedBy l).Dot a := rfl
  rw [hn, hw]
  refine ⟨?_, rfl, ?_, ?_⟩
  · have : (x.DividedBy l).Dot (x.DividedBy l) = 1 := by
      have e : (x.DividedBy l).Dot (x.DividedBy l) = x.Dot x / (l * l) := by
        simp only [Vector.DividedBy, Vector.Dot]
        field_simp
      rw [e, hl]
      exact div_self hpos.ne'
    unfold Vector.Length
    rw [this]
    exact sqrt_one_of_exact sqrt hsqrt
  · have e : (x.DividedBy l).Dot b - (x.DividedBy l).Dot a = x.Dot (b.Minus a) / l := by
      simp only [Vector.DividedBy, Vector.Dot, Vector.Minus]
      field_simp
      ring
    rw [hb, zero_div] at e
    linarith
  · have e : (x.DividedBy l).Dot c - (x.DividedBy l).Dot a = x.Dot (c.Minus a) / l := by
      simp only [Vector.DividedBy, Vector.Dot, Vector.Minus]
      field_simp
      ring
    rw [hc, zero_div] at e
    linarith

/-- C20 on the points `(0,0,0)`, `(1,0,0)`, `(0,1,0)` over the reals. -/
theorem NewPlaneFromPoints_unit_normal_witness :
    (¬ Collinear (⟨0, 0, 0⟩ : Vector ℝ) ⟨1, 0, 0⟩ ⟨0, 1, 0⟩) ∧
      (NewPlaneFromPoints Real.sqrt (⟨0, 0, 0⟩ : Vector ℝ) ⟨1, 0, 0⟩ ⟨0, 1, 0⟩).Normal.Length
        Real.sqrt = 1 ∧
      (NewPlaneFromPoints Real.sqrt (⟨0, 0, 0⟩ : Vector ℝ) ⟨1, 0, 0⟩ ⟨0, 1, 0⟩).Normal.Dot
        ⟨0, 0, 0⟩ = (NewPlaneFromPoints Real.sqrt (⟨0, 0, 0⟩ : Vector ℝ) ⟨1, 0, 0⟩ ⟨0, 1, 0⟩).W ∧
      (NewPlaneFromPoints Real.sqrt (⟨0, 0, 0⟩ : Vector ℝ) ⟨1, 0, 0⟩ ⟨0, 1, 0⟩).Normal.Dot
        ⟨1, 0, 0⟩ = (NewPlaneFromPoints Real.sqrt (⟨0, 0, 0⟩ : Vector ℝ) ⟨1, 0, 0⟩ ⟨0, 1, 0⟩).W ∧
      (NewPlaneFromPoints Real.sqrt (⟨0, 0, 0⟩ : Vector ℝ) ⟨1, 0, 0⟩ ⟨0, 1, 0⟩).Normal.Dot
        ⟨0, 1, 0⟩ = (NewPlaneFromPoints Real.sqrt (⟨0, 0, 0⟩ : Vector ℝ) ⟨1, 0, 0⟩ ⟨0, 1, 0⟩).W :=
  have hc : ¬ Collinear (⟨0, 0, 0⟩ : Vector ℝ) ⟨1, 0, 0⟩ ⟨0, 1, 0⟩ := fun h => by
    have e := cross_eq_zero_of_Collinear h
    simp [Vector.Cross, Vector.Minus] at e
  ⟨hc, NewPlaneFromPoints_unit_normal Real.sqrt
    (fun x hx => ⟨Real.sqrt_nonneg x, Real.mul_self_sqrt hx⟩) _ _ _ hc⟩

end PlaneFromPointsClaims

end Csg

/-! ## C15, C16, C17 : invariants of the tree -/

namespace Csg

section TreeInvariants

variable {K : Type} [LinearOrderedField K]

theorem getD_mem {α : Type} (l : List α) (i : Nat) (d : α) (h : i < l.length) :
    l.getD i d ∈ l := by
  rw [List.getD_eq_getElem l d h]
  exact List.getElem_mem h

theorem VerticesIn_mono {Q : Vector K → Prop} {h h1 : Heap K} {p : Ptr}
    (hp : h <+: h1) (hv : VerticesIn Q h p) : VerticesIn Q h1 p := by
  obtain ⟨poly, e, hq⟩ := hv
  exact ⟨poly, prefix_lookup hp e, hq⟩

theorem NotBehind_convex (pl : Plane K) : ConvexSet pl.NotBehind := by
  intro a b t ha hb h0 h1
  unfold Plane.NotBehind Plane.DistanceToPlane at *
  rw [dot_lerp]
  nlinarith

theorem NotInFront_convex (pl : Plane K) : ConvexSet pl.NotInFront := by
  intro a b t ha hb h0 h1
  unfold Plane.NotInFront Plane.DistanceToPlane at *
  rw [dot_lerp]
  nlinarith

theorem Near_convex (pl : Plane K) : ConvexSet pl.Near := by
  intro a b t ha hb h0 h1
  exact ⟨NotBehind_convex pl a b t ha.1 hb.1 h0 h1, NotInFront_convex pl a b t ha.2 hb.2 h0 h1⟩

/-- One iteration of the edge loop appends only vertices of the polygon and
points strictly between two of them. -/
theorem spanningStep_convex (plane : Plane K) (vs : List (Vertex K)) (Q : Vector K → Prop)
    (hQ : ConvexSet Q) (hvs : ∀ v ∈ vs, Q v.Position)
    (fb : List (Vertex K) × List (Vertex K)) (i : Nat) (hi : i < vs.length) :
    ∃ F B, spanningStep plane vs (vs.map (vertexType plane)) fb i = (fb.1 ++ F, fb.2 ++ B) ∧
      (∀ v ∈ F, Q v.Position) ∧ (∀ v ∈ B, Q v.Position) := by
  have hpos : (0 : K) < EPSILON := EPSILON_pos
  have hj : (i + 1) % vs.length < vs.length := Nat.mod_lt _ (by omega)
  have hti := getD_vertexTypes plane vs i hi
  have htj := getD_vertexTypes plane vs _ hj
  have hvi : Q (vs.getD i Vertex.zero).Position := hvs _ (getD_mem _ _ _ hi)
  have hvj : Q (vs.getD ((i + 1) % vs.length) Vertex.zero).Position := hvs _ (getD_mem _ _ _ hj)
  simp only [spanningStep, hti, htj]
  revert hvi hvj
  generalize vs.getD i Vertex.zero = vi
  generalize vs.getD ((i + 1) % vs.length) Vertex.zero = vj
  intro hvi hvj
  by_cases hc : (vertexType plane vi ||| vertexType plane vj) = SPANNING
  · rw [if_pos hc]
    have hcross := (lor_eq_SPANNING (vertexType_le_two _ _) (vertexType_le_two _ _)).mp hc
    have hab : (EPSILON < plane.Normal.Dot vi.Position - plane.W ∧
          plane.Normal.Dot vj.Position - plane.W < -EPSILON) ∨
        (plane.Normal.Dot vi.Position - plane.W < -EPSILON ∧
          EPSILON < plane.Normal.Dot vj.Position - plane.W) := by
      rcases hcross with ⟨h1, h2⟩ | ⟨h1, h2⟩
      · exact Or.inl ⟨(vertexType_eq_FRONT _ _).mp h1, (vertexType_eq_BACK _ _).mp h2⟩
      · exact Or.inr ⟨(vertexType_eq_BACK _ _).mp h1, (vertexType_eq_FRONT _ _).mp h2⟩
    obtain ⟨_, ht0, ht1, _⟩ := crossing_param hpos hab
    have et : (plane.W - plane.Normal.Dot vi.Position) /
        plane.Normal.Dot (vj.Position.Minus vi.Position) =
        -(plane.Normal.Dot vi.Position - plane.W) /
          ((plane.Normal.Dot vj.Position - plane.W) -
            (plane.Normal.Dot vi.Position - plane.W)) := by
      rw [dot_minus]
      congr 1 <;> ring
    have hint : Q (vi.Interpolate vj ((plane.W - plane.Normal.Dot vi.Position) /
        plane.Normal.Dot (vj.Position.Minus vi.Position))).Position := by
      rw [et]
      exact hQ _ _ _ hvi hvj ht0 ht1
    rcases hcross with ⟨h1, h2⟩ | ⟨h1, h2⟩
    · refine ⟨[vi, vi.Interpolate vj ((plane.W - plane.Normal.Dot vi.Position) /
          plane.Normal.Dot (vj.Position.Minus vi.Position))],
        [vi.Interpolate vj ((plane.W - plane.Normal.Dot vi.Position) /
          plane.Normal.Dot (vj.Position.Minus vi.Position))], ?_, ?_, ?_⟩
      · simp [h1, FRONT, BACK, Vertex_Clone_eq]
      · intro v hv
        simp only [List.mem_cons, List.mem_singleton, List.not_mem_nil, or_false] at hv
        rcases hv with rfl | rfl
        · exact hvi
        · exact hint
      · intro v hv
        simp only [List.mem_singleton] at hv
        subst hv
        exact hint
    · refine ⟨[vi.Interpolate vj ((plane.W - plane.Normal.Dot vi.Position) /
          plane.Normal.Dot (vj.Position.Minus vi.Position))],
        [vi, vi.Interpolate vj ((plane.W - plane.Normal.Dot vi.Position) /
          plane.Normal.Dot (vj.Position.Minus vi.Position))], ?_, ?_, ?_⟩
      · simp [h1, FRONT, BACK, Vertex_Clone_eq]
      · intro v hv
        simp only [List.mem_singleton] at hv
        subst hv
        exact hint
      · intro v hv
        simp only [List.mem_cons, List.mem_singleton, List.not_mem_nil, or_false] at hv
        rcases hv with rfl | rfl
        · exact hvi
        · exact hint
  · rw [if_neg hc]
    rcases vertexType_cases plane vi with h | h | h
    · refine ⟨[], [vi], ?_, ?_, ?_⟩
      · simp [h.1, FRONT, BACK]
      · simp
      · intro v hv
        simp only [List.mem_singleton] at hv
        subst hv
        exact hvi
    · refine ⟨[vi], [], ?_, ?_, ?_⟩
      · simp [h.1, FRONT, BACK]
      · intro v hv
        simp only [List.mem_singleton] at hv
        subst hv
        exact hvi
      · simp
    · refine ⟨[vi], [vi], ?_, ?_, ?_⟩
      · simp [h.1, FRONT, BACK, COPLANAR, Vertex_Clone_eq]
      · intro v hv
        simp only [List.mem_singleton] at hv
        subst hv
        exact hvi
      · intro v hv
        simp only [List.mem_singleton] at hv
        subst hv
        exact hvi

theorem spanning_foldl_convex (plane : Plane K) (vs : List (Vertex K)) (Q : Vector K → Prop)
    (hQ : ConvexSet Q) (hvs : ∀ v ∈ vs, Q v.Position) (is : List Nat)
    (his : ∀ i ∈ is, i < vs.length) (fb : List (Vertex K) × List (Vertex K)) :
    ∃ F B, is.foldl (spanningStep plane vs (vs.map (vertexType plane))) fb =
        (fb.1 ++ F, fb.2 ++ B) ∧
      (∀ v ∈ F, Q v.Position) ∧ (∀ v ∈ B, Q v.Position) := by
  induction is generalizing fb with
  | nil => exact ⟨[], [], by simp, by simp, by simp⟩
  | cons i is ih =>
    obtain ⟨F1, B1, e1, hF1, hB1⟩ :=
      spanningStep_convex plane vs Q hQ hvs fb i (his i (List.mem_cons_self _ _))
    obtain ⟨F2, B2, e2, hF2, hB2⟩ :=
      ih (fun k hk => his k (List.mem_cons_of_mem _ hk)) (fb.1 ++ F1, fb.2 ++ B1)
    refine ⟨F1 ++ F2, B1 ++ B2, ?_, ?_, ?_⟩
    · rw [List.foldl_cons, e1, e2]
      simp [List.append_assoc]
    · intro v hv
      rcases List.mem_append.mp hv with h | h
      · exact hF1 v h
      · exact hF2 v h
    · intro v hv
      rcases List.mem_append.mp hv with h | h
      · exact hB1 v h
      · exact hB2 v h

/-- The two fragments of a split polygon stay inside every convex set that
holds the polygon's vertices. -/
theorem spanningLists_convex (plane : Plane K) (polygon : Polygon K) (Q : Vector K → Prop)
    (hQ : ConvexSet Q) (hvs : ∀ v ∈ polygon.Vertices, Q v.Position) :
    (∀ v ∈ (spanningLists plane polygon).1, Q v.Position) ∧
    (∀ v ∈ (spanningLists plane polygon).2, Q v.Position) := by
  obtain ⟨F, B, e, hF, hB⟩ := spanning_foldl_convex plane polygon.Vertices Q hQ hvs
    (List.range polygon.Vertices.length) (fun i hi => List.mem_range.mp hi) ([], [])
  unfold spanningLists vertexTypes
  rw [e]
  exact ⟨by simpa using hF, by simpa using hB⟩

/-- The splitter keeps an invariant `I` of heap and outputs that survives an
allocation and every append of a polygon whose vertices lie in the convex set
`Q` and which is on the right side of the plane; the heap only grows. -/
theorem SplitPolygons_invariant {σ : Type} (sqrt : K → K) (plane : Plane K)
    (emit : Side → Ptr → σ → σ) (Q : Vector K → Prop) (hQ : ConvexSet Q)
    (I : Heap K → σ → Prop)
    (hmono : ∀ h a out, I h out → I (h ++ [a]) out)
    (hemit : ∀ h out s p poly, h[p]? = some poly → (∀ v ∈ poly.Vertices, Q v.Position) →
      SideOK plane s poly → I h out → I h (emit s p out)) :
    ∀ (polygons : List Ptr) (h : Heap K) (out : σ) (h1 : Heap K) (out1 : σ),
      SplitPolygons sqrt plane emit polygons h out = .ok (h1, out1) →
      (∀ p ∈ polygons, VerticesIn Q h p) → I h out → I h1 out1 ∧ h <+: h1 := by
  intro polygons
  induction polygons with
  | nil =>
    intro h out h1 out1 e _ hI
    rw [SplitPolygons] at e
    simp only [Except.ok.injEq, Prod.mk.injEq] at e
    obtain ⟨rfl, rfl⟩ := e
    exact ⟨hI, List.prefix_refl _⟩
  | cons p rest ih =>
    intro h out h1 out1 e hin hI
    obtain ⟨poly, hp, hq⟩ := hin p (List.mem_cons_self _ _)
    have hrest : ∀ q ∈ rest, VerticesIn Q h q := fun q hq => hin q (List.mem_cons_of_mem _ hq)
    by_cases hs : polygonType plane poly = SPANNING
    · obtain ⟨plf, plb, es⟩ :=
        SplitPolygons_cons_spanning sqrt plane emit p rest h out poly hp hs
      rw [es] at e
      obtain ⟨hcf, hcb⟩ := spanningLists_convex plane poly Q hQ hq
      obtain ⟨hsf, hsb⟩ := spanningLists_spec plane poly
      -- the front fragment
      have hstepf : ∀ (h0 : Heap K) (o : σ), I h0 o →
          I (h0 ++ if 3 ≤ (spanningLists plane poly).1.length then
              [⟨(spanningLists plane poly).1, plf⟩] else [])
            ((if 3 ≤ (spanningLists plane poly).1.length then emit .front h0.length
              else id) o) := by
        intro h0 o ho
        by_cases hf : 3 ≤ (spanningLists plane poly).1.length
        · rw [if_pos hf, if_pos hf]
          refine hemit _ _ .front h0.length ⟨(spanningLists plane poly).1, plf⟩ ?_ hcf hsf
            (hmono _ _ _ ho)
          simp
        · rw [if_neg hf, if_neg hf]
          simpa using ho
      have hstepb : ∀ (h0 : Heap K) (o : σ) (k : Nat), k = h0.length → I h0 o →
          I (h0 ++ if 3 ≤ (spanningLists plane poly).2.length then
              [⟨(spanningLists plane poly).2, plb⟩] else [])
            ((if 3 ≤ (spanningLists plane poly).2.length then emit .back k
              else id) o) := by
        intro h0 o k hk ho
        subst hk
        by_cases hb : 3 ≤ (spanningLists plane poly).2.length
        · rw [if_pos hb, if_pos hb]
          refine hemit _ _ .back h0.length ⟨(spanningLists plane poly).2, plb⟩ ?_ hcb hsb
            (hmono _ _ _ ho)
          simp
        · rw [if_neg hb, if_neg hb]
          simpa using ho
      have hI2 := hstepb _ _ (h.length +
        if 3 ≤ (spanningLists plane poly).1.length then 1 else 0)
        (by split <;> simp) (hstepf h out hI)
      have hpre : h <+: (h ++ if 3 ≤ (spanningLists plane poly).1.length then
              [⟨(spanningLists plane poly).1, plf⟩] else []) ++
            if 3 ≤ (spanningLists plane poly).2.length then
              [⟨(spanningLists plane poly).2, plb⟩] else [] := by
        rw [List.append_assoc]
        exact List.prefix_append _ _
      obtain ⟨hI3, hp3⟩ := ih _ _ h1 out1 e (fun q hq => VerticesIn_mono hpre (hrest q hq)) hI2
      exact ⟨hI3, hpre.trans hp3⟩
    · obtain ⟨k1, k2, k3, k4, hty⟩ :=
        SplitPolygons_cons_keep sqrt plane emit p rest h out poly hp hs
      obtain ⟨gc, gf, gb, _⟩ := polygonType_geometry plane poly
      rcases hty with hty | hty | hty
      · by_cases hd : 0 < plane.Normal.Dot poly.Plane.Normal
        · rw [k1 hty hd] at e
          exact ih _ _ h1 out1 e hrest (hemit _ _ .coplanarFront p poly hp hq hty hI)
        · rw [k2 hty hd] at e
          exact ih _ _ h1 out1 e hrest (hemit _ _ .coplanarBack p poly hp hq hty hI)
      · rw [k3 hty] at e
        exact ih _ _ h1 out1 e hrest (hemit _ _ .front p poly hp hq (gf.mp hty).1 hI)
      · rw [k4 hty] at e
        exact ih _ _ h1 out1 e hrest (hemit _ _ .back p poly hp hq (gb.mp hty).1 hI)

end TreeInvariants

end Csg

namespace Csg

section BuildInvariants

variable {K : Type} [LinearOrderedField K]

/-- What a returning `Build` on a node and a non-empty list went through. -/
theorem Build_cons_inv (sqrt : K → K) (fuel : Nat) (plane : Option (Plane K))
    (front back : Node K) (polys : List Ptr) (h : Heap K) (p0 : Ptr) (rest : List Ptr)
    (h3 : Heap K) (n1 : Node K)
    (e : Node.Build sqrt (fuel + 1) (.mk plane front back polys) h (p0 :: rest) = .ok (h3, n1)) :
    ∃ pl h1 out h2 front1 back1,
      (plane = some pl ∨
        (plane = none ∧ ∃ polygon0, h[p0]? = some polygon0 ∧ pl = polygon0.Plane.Clone)) ∧
      SplitPolygons sqrt pl buildEmit (p0 :: rest) h ⟨polys, [], []⟩ = .ok (h1, out) ∧
      (if out.front.length > 0 then
          Node.Build sqrt fuel (if front.isNil then Node.empty else front) h1 out.front
        else .ok (h1, front)) = .ok (h2, front1) ∧
      (if out.back.length > 0 then
          Node.Build sqrt fuel (if back.isNil then Node.empty else back) h2 out.back
        else .ok (h2, back)) = .ok (h3, back1) ∧
      n1 = .mk (some pl) front1 back1 out.polygons := by
  unfold Node.Build at e
  have hpl : ∃ pl, (plane = some pl ∨
        (plane = none ∧ ∃ polygon0, h[p0]? = some polygon0 ∧ pl = polygon0.Plane.Clone)) ∧
      (match SplitPolygons sqrt pl buildEmit (p0 :: rest) h ⟨polys, [], []⟩ with
      | .error e => .error e
      | .ok (h1, out) =>
        match (if out.front.length > 0 then
            Node.Build sqrt fuel (if front.isNil then Node.empty else front) h1 out.front
          else .ok (h1, front)) with
        | .error e => .error e
        | .ok (h2, front1) =>
          match (if out.back.length > 0 then
              Node.Build sqrt fuel (if back.isNil then Node.empty else back) h2 out.back
            else .ok (h2, back)) with
          | .error e => .error e
          | .ok (h3, back1) => .ok (h3, .mk (some pl) front1 back1 out.polygons)) =
        Except.ok (h3, n1) := by
    cases plane with
    | some pl => exact ⟨pl, Or.inl rfl, e⟩
    | none =>
      cases e0 : h[p0]? with
      | none => simp [e0] at e
      | some polygon0 =>
        simp only [e0] at e
        exact ⟨_, Or.inr ⟨rfl, polygon0, rfl, rfl⟩, e⟩
  clear e
  obtain ⟨pl, hplane, e⟩ := hpl
  cases es : SplitPolygons sqrt pl buildEmit (p0 :: rest) h ⟨polys, [], []⟩ with
  | error err => simp [es] at e
  | ok r1 =>
    obtain ⟨h1, out⟩ := r1
    simp only [es] at e
    cases ef : (if out.front.length > 0 then
          Node.Build sqrt fuel (if front.isNil then Node.empty else front) h1 out.front
        else .ok (h1, front)) with
    | error err => simp [ef] at e
    | ok r2 =>
      obtain ⟨h2, front1⟩ := r2
      simp only [ef] at e
      cases eb : (if out.back.length > 0 then
            Node.Build sqrt fuel (if back.isNil then Node.empty else back) h2 out.back
          else .ok (h2, back)) with
      | error err => simp [eb] at e
      | ok r3 =>
        obtain ⟨h3a, back1⟩ := r3
        simp only [eb, Except.ok.injEq, Prod.mk.injEq] at e
        obtain ⟨rfl, rfl⟩ := e
        exact ⟨pl, h1, out, h2, front1, back1, hplane, es, ef, eb, rfl⟩

theorem VerticesIn_lt {Q : Vector K → Prop} {h : Heap K} {p : Ptr} (hv : VerticesIn Q h p) :
    p < h.length := by
  obtain ⟨poly, e, _⟩ := hv
  exact lt_of_lookup e

theorem VerticesIn_true {h : Heap K} {p : Ptr} (hp : p < h.length) :
    VerticesIn (fun _ => True) h p := by
  obtain ⟨poly, e⟩ := lookup_of_lt hp
  exact ⟨poly, e, fun _ _ => trivial⟩

theorem True_convex : ConvexSet (fun _ : Vector K => True) := fun _ _ _ _ _ _ _ => trivial

theorem OnPlane_mono {h h1 : Heap K} (hp : h <+: h1) :
    ∀ n : Node K, n.OnPlane h → n.OnPlane h1
  | .nil, _ => trivial
  | .mk _ front back _, hn =>
    ⟨fun p hpm => by
        obtain ⟨pl, e, hv⟩ := hn.1 p hpm
        exact ⟨pl, e, VerticesIn_mono hp hv⟩,
      OnPlane_mono hp front hn.2.1, OnPlane_mono hp back hn.2.2⟩

theorem Sided_mono {h h1 : Heap K} (hp : h <+: h1) :
    ∀ n : Node K, n.Sided h → n.Sided h1
  | .nil, _ => trivial
  | .mk plane front back _, hn => by
    refine ⟨?_, Sided_mono hp front hn.2.1, Sided_mono hp back hn.2.2⟩
    have h1 := hn.1
    cases plane with
    | none => exact h1
    | some pl =>
      exact ⟨fun p hpm => VerticesIn_mono hp (h1.1 p hpm),
        fun p hpm => VerticesIn_mono hp (h1.2 p hpm)⟩

theorem ExtendedBy_refl : ∀ n : Node K, n.ExtendedBy n
  | .nil => trivial
  | .mk _ front back _ =>
    ⟨fun _ e => e, List.prefix_refl _, ExtendedBy_refl front, ExtendedBy_refl back⟩

/-- The split inside `build`: the node's list grows at its end by polygons
within `EPSILON` of the plane, `front` receives polygons with no vertex behind
the plane, `back` polygons with no vertex in front of it, and everything
appended stays inside the convex set `Q` of the input. -/
theorem SplitPolygons_build (sqrt : K → K) (pl : Plane K) (Q : Vector K → Prop)
    (hQ : ConvexSet Q) (polys ps : List Ptr) (h h1 : Heap K) (out : BuildOut)
    (e : SplitPolygons sqrt pl buildEmit ps h ⟨polys, [], []⟩ = .ok (h1, out))
    (hin : ∀ p ∈ ps, VerticesIn Q h p) :
    h <+: h1 ∧ polys <+: out.polygons ∧
      (∀ p ∈ out.polygons, p ∈ polys ∨ (VerticesIn Q h1 p ∧ VerticesIn pl.Near h1 p)) ∧
      (∀ p ∈ out.front, VerticesIn Q h1 p ∧ VerticesIn pl.NotBehind h1 p) ∧
      (∀ p ∈ out.back, VerticesIn Q h1 p ∧ VerticesIn pl.NotInFront h1 p) := by
  have key := SplitPolygons_invariant sqrt pl buildEmit Q hQ
    (fun h out => polys <+: out.polygons ∧
      (∀ p ∈ out.polygons, p ∈ polys ∨ (VerticesIn Q h p ∧ VerticesIn pl.Near h p)) ∧
      (∀ p ∈ out.front, VerticesIn Q h p ∧ VerticesIn pl.NotBehind h p) ∧
      (∀ p ∈ out.back, VerticesIn Q h p ∧ VerticesIn pl.NotInFront h p))
    (by
      intro h a out ⟨h1, h2, h3, h4⟩
      have hp : h <+: h ++ [a] := List.prefix_append _ _
      refine ⟨h1, ?_, ?_, ?_⟩
      · intro p hpm
        rcases h2 p hpm with hm | ⟨ha, hb⟩
        · exact Or.inl hm
        · exact Or.inr ⟨VerticesIn_mono hp ha, VerticesIn_mono hp hb⟩
      · intro p hpm
        exact ⟨VerticesIn_mono hp (h3 p hpm).1, VerticesIn_mono hp (h3 p hpm).2⟩
      · intro p hpm
        exact ⟨VerticesIn_mono hp (h4 p hpm).1, VerticesIn_mono hp (h4 p hpm).2⟩)
    (by
      intro h out s p poly hp hq hs ⟨h1, h2, h3, h4⟩
      have hnear : polygonType pl poly = COPLANAR → VerticesIn pl.Near h p := by
        intro hty
        exact ⟨poly, hp, fun v hv => ((polygonType_geometry pl poly).1.mp hty) v hv⟩
      cases s with
      | coplanarFront =>
        refine ⟨h1.trans (List.prefix_append _ _), ?_, h3, h4⟩
        intro q hqm
        simp only [buildEmit, List.mem_append, List.mem_singleton] at hqm
        rcases hqm with hqm | rfl
        · exact h2 q hqm
        · exact Or.inr ⟨⟨poly, hp, hq⟩, hnear hs⟩
      | coplanarBack =>
        refine ⟨h1.trans (List.prefix_append _ _), ?_, h3, h4⟩
        intro q hqm
        simp only [buildEmit, List.mem_append, List.mem_singleton] at hqm
        rcases hqm with hqm | rfl
        · exact h2 q hqm
        · exact Or.inr ⟨⟨poly, hp, hq⟩, hnear hs⟩
      | front =>
        refine ⟨h1, h2, ?_, h4⟩
        intro q hqm
        simp only [buildEmit, List.mem_append, List.mem_singleton] at hqm
        rcases hqm with hqm | rfl
        · exact h3 q hqm
        · exact ⟨⟨poly, hp, hq⟩, ⟨poly, hp, hs⟩⟩
      | back =>
        refine ⟨h1, h2, h3, ?_⟩
        intro q hqm
        simp only [buildEmit, List.mem_append, List.mem_singleton] at hqm
        rcases hqm with hqm | rfl
        · exact h4 q hqm
        · exact ⟨⟨poly, hp, hq⟩, ⟨poly, hp, hs⟩⟩)
    ps h ⟨polys, [], []⟩ h1 out e hin
    ⟨List.prefix_refl _, fun p hp => Or.inl hp, by simp, by simp⟩
  exact ⟨key.2, key.1⟩

/-- What `Build` does to a tree: the heap only grows, the tree is extended,
every polygon it stores stays inside each convex set that holds the input and
the polygons already stored, and the two invariants of the tree are kept. -/
theorem Build_invariant (sqrt : K → K) :
    ∀ (fuel : Nat) (n : Node K) (h : Heap K) (ps : List Ptr) (h1 : Heap K) (n1 : Node K),
      Node.Build sqrt fuel n h ps = .ok (h1, n1) → (∀ p ∈ ps, p < h.length) →
      h <+: h1 ∧ n.ExtendedBy n1 ∧
      (∀ Q : Vector K → Prop, ConvexSet Q → (∀ p ∈ ps, VerticesIn Q h p) →
        (∀ p ∈ n.AllPolygons, VerticesIn Q h p) → ∀ p ∈ n1.AllPolygons, VerticesIn Q h1 p) ∧
      (n.OnPlane h → n1.OnPlane h1) ∧ (n.Sided h → n1.Sided h1) := by
  intro fuel
  induction fuel with
  | zero =>
    intro n h ps h1 n1 e _
    cases ps with
    | nil =>
      rw [Build_nil] at e
      simp only [Except.ok.injEq, Prod.mk.injEq] at e
      obtain ⟨rfl, rfl⟩ := e
      exact ⟨List.prefix_refl _, ExtendedBy_refl _, fun _ _ _ ho => ho, id, id⟩
    | cons p0 rest =>
      rw [Node.Build] at e
      exact absurd e (by simp)
  | succ f ih =>
    intro n h ps h3 n1 e hvalid
    cases ps with
    | nil =>
      rw [Build_nil] at e
      simp only [Except.ok.injEq, Prod.mk.injEq] at e
      obtain ⟨rfl, rfl⟩ := e
      exact ⟨List.prefix_refl _, ExtendedBy_refl _, fun _ _ _ ho => ho, id, id⟩
    | cons p0 rest =>
      cases n with
      | nil =>
        rw [Node.Build] at e
        exact absurd e (by simp)
      | mk plane front back polys =>
        obtain ⟨pl, h1, out, h2, front1, back1, hplane, es, ef, eb, rfl⟩ :=
          Build_cons_inv sqrt f plane front back polys h p0 rest h3 n1 e
        -- a child: built further or left as it is
        have child : ∀ (c : Node K) (l : List Ptr) (ha hb : Heap K) (c1 : Node K),
            (if l.length > 0 then
                Node.Build sqrt f (if c.isNil then Node.empty else c) ha l
              else .ok (ha, c)) = .ok (hb, c1) → (∀ p ∈ l, p < ha.length) →
            ha <+: hb ∧ c.ExtendedBy c1 ∧
            (∀ Q : Vector K → Prop, ConvexSet Q → (∀ p ∈ l, VerticesIn Q ha p) →
              (∀ p ∈ c.AllPolygons, VerticesIn Q ha p) →
              ∀ p ∈ c1.AllPolygons, VerticesIn Q hb p) ∧
            (c.OnPlane ha → c1.OnPlane hb) ∧ (c.Sided ha → c1.Sided hb) := by
          intro c l ha hb c1 ec hl
          by_cases hlen : l.length > 0
          · rw [if_pos hlen] at ec
            cases c with
            | nil =>
              obtain ⟨k1, _, k3, k4, k5⟩ := ih _ _ _ _ _ ec hl
              refine ⟨k1, trivial, ?_, ?_, ?_⟩
              · intro Q hQ hin _
                exact k3 Q hQ hin (by simp [Node.isNil, Node.empty, Node.AllPolygons])
              · intro _
                exact k4 (by simp [Node.isNil, Node.empty, Node.OnPlane])
              · intro _
                exact k5 (by simp [Node.isNil, Node.empty, Node.Sided, Node.AllPolygons])
            | mk cp cf cb cl =>
              exact ih _ _ _ _ _ ec hl
          · rw [if_neg hlen] at ec
            simp only [Except.ok.injEq, Prod.mk.injEq] at ec
            obtain ⟨rfl, rfl⟩ := ec
            exact ⟨List.prefix_refl _, ExtendedBy_refl _, fun _ _ _ ho => ho, id, id⟩
        obtain ⟨s1, s2, s3, s4, s5⟩ := SplitPolygons_build sqrt pl (fun _ => True) True_convex
          polys (p0 :: rest) h h1 out es (fun p hp => VerticesIn_true (hvalid p hp))
        have hfl : ∀ p ∈ out.front, p < h1.length := fun p hp => VerticesIn_lt (s4 p hp).1
        have hbl : ∀ p ∈ out.back, p < h2.length := fun p hp => by
          obtain ⟨c1, _⟩ := child front out.front h1 h2 front1 ef hfl
          exact VerticesIn_lt (VerticesIn_mono c1 (s5 p hp).1)
        obtain ⟨f1, f2, f3, f4, f5⟩ := child front out.front h1 h2 front1 ef hfl
        obtain ⟨b1, b2, b3, b4, b5⟩ := child back out.back h2 h3 back1 eb hbl
        have h13 : h1 <+: h3 := f1.trans b1
        have h03 : h <+: h3 := s1.trans h13
        refine ⟨h03, ?_, ?_, ?_, ?_⟩
        · refine ⟨?_, s2, f2, b2⟩
          intro x ex
          rcases hplane with hp | ⟨hp, _⟩
          · rw [hp] at ex; exact ex
          · rw [hp] at ex; exact absurd ex (by simp)
        · intro Q hQ hin hold p hp
          obtain ⟨_, _, t3, t4, t5⟩ := SplitPolygons_build sqrt pl Q hQ
            polys (p0 :: rest) h h1 out es hin
          simp only [Node.AllPolygons, List.mem_append] at hp hold
          rcases hp with (hp | hp) | hp
          · rcases t3 p hp with hm | ⟨hq, _⟩
            · exact VerticesIn_mono h03 (hold p (Or.inl (Or.inl hm)))
            · exact VerticesIn_mono h13 hq
          · exact VerticesIn_mono b1 (f3 Q hQ (fun q hq => (t4 q hq).1)
              (fun q hq => VerticesIn_mono s1 (hold q (Or.inl (Or.inr hq)))) p hp)
          · exact b3 Q hQ (fun q hq => VerticesIn_mono f1 (t5 q hq).1)
              (fun q hq => VerticesIn_mono (s1.trans f1) (hold q (Or.inr hq))) p hp
        · intro hn
          obtain ⟨o1, o2, o3⟩ := hn
          refine ⟨?_, OnPlane_mono b1 _ (f4 (OnPlane_mono s1 _ o2)),
            b4 (OnPlane_mono (s1.trans f1) _ o3)⟩
          intro p hp
          rcases s3 p hp with hm | ⟨_, hq⟩
          · obtain ⟨pl1, e1, hv⟩ := o1 p hm
            rcases hplane with hp1 | ⟨hp1, _⟩
            · rw [hp1] at e1
              exact ⟨pl1, e1, VerticesIn_mono h03 hv⟩
            · rw [hp1] at e1; exact absurd e1 (by simp)
          · exact ⟨pl, rfl, VerticesIn_mono h13 hq⟩
        · intro hn
          obtain ⟨d1, d2, d3⟩ := hn
          refine ⟨?_, Sided_mono b1 _ (f5 (Sided_mono s1 _ d2)),
            b5 (Sided_mono (s1.trans f1) _ d3)⟩
          show (∀ p ∈ front1.AllPolygons, VerticesIn pl.NotBehind h3 p) ∧
            (∀ p ∈ back1.AllPolygons, VerticesIn pl.NotInFront h3 p)
          have hold : (∀ p ∈ front.AllPolygons, VerticesIn pl.NotBehind h p) ∧
              (∀ p ∈ back.AllPolygons, VerticesIn pl.NotInFront h p) := by
            rcases hplane with hp1 | ⟨hp1, _⟩
            · rw [hp1] at d1; exact d1
            · rw [hp1] at d1
              have d1a : front.AllPolygons = [] ∧ back.AllPolygons = [] := d1
              rw [d1a.1, d1a.2]
              exact ⟨by simp, by simp⟩
          constructor
          · intro p hp
            exact VerticesIn_mono b1 (f3 _ (NotBehind_convex pl) (fun q hq => (s4 q hq).2)
              (fun q hq => VerticesIn_mono s1 (hold.1 q hq)) p hp)
          · intro p hp
            exact b3 _ (NotInFront_convex pl) (fun q hq => VerticesIn_mono f1 (s5 q hq).2)
              (fun q hq => VerticesIn_mono (s1.trans f1) (hold.2 q hq)) p hp

end BuildInvariants

end Csg

namespace Csg

section ClipInvariants

variable {K : Type} [LinearOrderedField K]

/-- Clipping polygons whose vertices lie in a convex set returns, the heap only
grows, and the vertices of everything kept lie in the set. -/
theorem clipPolygons_convex (sqrt : K → K) (Q : Vector K → Prop) (hQ : ConvexSet Q)
    (b : Node K) :
    ∀ (h : Heap K) (ps : List Ptr), (∀ p ∈ ps, VerticesIn Q h p) →
      ∃ h1 out, b.clipPolygons sqrt h ps = .ok (h1, out) ∧ h <+: h1 ∧
        ∀ q ∈ out, VerticesIn Q h1 q := by
  induction b with
  | nil =>
    intro h ps hv
    exact ⟨h, ps, by rw [Node.clipPolygons], List.prefix_refl _, hv⟩
  | mk plane front back polygons ihf ihb =>
    intro h ps hv
    cases plane with
    | none => exact ⟨h, ps, by rw [Node.clipPolygons], List.prefix_refl _, hv⟩
    | some pl =>
      obtain ⟨h1, ⟨fr, bk⟩, e1, hp1, _⟩ :=
        SplitPolygons_clip sqrt pl ps h ([], []) (fun p hp => VerticesIn_lt (hv p hp))
          ⟨by simp, by simp⟩
      have key := SplitPolygons_invariant sqrt pl clipEmit Q hQ
        (fun h out => (∀ p ∈ out.1, VerticesIn Q h p) ∧ (∀ p ∈ out.2, VerticesIn Q h p))
        (by
          intro h a out ⟨k1, k2⟩
          have hp : h <+: h ++ [a] := List.prefix_append _ _
          exact ⟨fun p hpm => VerticesIn_mono hp (k1 p hpm),
            fun p hpm => VerticesIn_mono hp (k2 p hpm)⟩)
        (by
          intro h out s p poly hp hq _ ⟨k1, k2⟩
          obtain ⟨o1, o2⟩ := out
          cases s <;> simp only [clipEmit] <;> constructor <;> intro q hqm <;>
            try simp only [List.mem_append, List.mem_singleton] at hqm
          all_goals first
            | exact k1 q hqm
            | exact k2 q hqm
            | (rcases hqm with hqm | rfl
               · first | exact k1 q hqm | exact k2 q hqm
               · exact ⟨poly, hp, hq⟩))
        ps h ([], []) h1 (fr, bk) e1 hv ⟨by simp, by simp⟩
      obtain ⟨⟨kf, kb⟩, _⟩ := key
      obtain ⟨h2, fr2, e2, hp2, ho2⟩ := ihf h1 fr kf
      cases hbn : back.isNil with
      | true =>
        refine ⟨h2, fr2, ?_, hp1.trans hp2, ho2⟩
        rw [Node.clipPolygons]
        simp only [e1, e2, hbn, if_true]
      | false =>
        obtain ⟨h3, bk2, e3, hp3, ho3⟩ := ihb h2 bk (fun q hq => VerticesIn_mono hp2 (kb q hq))
        refine ⟨h3, fr2 ++ bk2, ?_, (hp1.trans hp2).trans hp3, fun q hq => ?_⟩
        · rw [Node.clipPolygons]
          simp only [e1, e2, e3, hbn, Bool.false_eq_true, if_false]
        · rcases List.mem_append.mp hq with hq | hq
          · exact VerticesIn_mono hp3 (ho2 q hq)
          · exact ho3 q hq

/-- `ClipTo` on a tree whose stored polygons lie on their nodes' planes
returns and keeps that so. -/
theorem ClipTo_OnPlane (sqrt : K → K) (b : Node K) (a : Node K) :
    ∀ (h : Heap K), a.OnPlane h →
      ∃ h1 a1, Node.ClipTo sqrt b a h = .ok (h1, a1) ∧ h <+: h1 ∧ a1.OnPlane h1 := by
  induction a with
  | nil =>
    intro h _
    exact ⟨h, .nil, by rw [Node.ClipTo], List.prefix_refl _, trivial⟩
  | mk plane front back polygons ihf ihb =>
    intro h hn
    obtain ⟨o1, o2, o3⟩ := hn
    cases plane with
    | none =>
      have hnil : polygons = [] := by
        cases polygons with
        | nil => rfl
        | cons p rest =>
          obtain ⟨pl, e, _⟩ := o1 p (List.mem_cons_self _ _)
          exact absurd e (by simp)
      subst hnil
      obtain ⟨h1, ps1, e1, hp1, ho1⟩ := clipPolygons_convex sqrt (fun _ => True) True_convex b h []
        (by simp)
      obtain ⟨h2, f1, e2, hp2, ho2⟩ := ihf h1 (OnPlane_mono hp1 _ o2)
      obtain ⟨h3, b1, e3, hp3, ho3⟩ := ihb h2 (OnPlane_mono (hp1.trans hp2) _ o3)
      have hps1 : ps1 = [] := by
        cases b with
        | nil => rw [Node.clipPolygons] at e1; cases e1; rfl
        | mk bp bf bb bl =>
          cases bp with
          | none => rw [Node.clipPolygons] at e1; cases e1; rfl
          | some bpl =>
            -- nothing goes in, nothing comes out
            have hsp : SplitPolygons sqrt bpl clipEmit [] h ([], []) = .ok (h, ([], [])) := by
              rw [SplitPolygons]
            have hnone : ∀ (c : Node K) (hh : Heap K), ∃ hh1,
                c.clipPolygons sqrt hh [] = .ok (hh1, []) := by
              intro c
              induction c with
              | nil => intro hh; exact ⟨hh, by rw [Node.clipPolygons]⟩
              | mk cp cf cb cl ihcf ihcb =>
                intro hh
                cases cp with
                | none => exact ⟨hh, by rw [Node.clipPolygons]⟩
                | some cpl =>
                  obtain ⟨hh1, ec1⟩ := ihcf hh
                  obtain ⟨hh2, ec2⟩ := ihcb hh1
                  cases hcb : cb.isNil with
                  | true =>
                    refine ⟨hh1, ?_⟩
                    rw [Node.clipPolygons, SplitPolygons]
                    simp only [ec1, hcb, if_true]
                  | false =>
                    refine ⟨hh2, ?_⟩
                    rw [Node.clipPolygons, SplitPolygons]
                    simp only [ec1, ec2, hcb, Bool.false_eq_true, if_false, List.append_nil]
            obtain ⟨hh1, ec⟩ := hnone (.mk (some bpl) bf bb bl) h
            rw [ec] at e1
            cases e1
            rfl
      subst hps1
      refine ⟨h3, .mk none f1 b1 [], ?_, (hp1.trans hp2).trans hp3, ?_⟩
      · rw [Node.ClipTo]
        simp only [Node.ClipPolygons, e1, e2, e3]
      · exact ⟨by simp, OnPlane_mono hp3 _ ho2, ho3⟩
    | some pl =>
      have hin : ∀ p ∈ polygons, VerticesIn pl.Near h p := by
        intro p hp
        obtain ⟨pl1, e, hv⟩ := o1 p hp
        cases e
        exact hv
      obtain ⟨h1, ps1, e1, hp1, ho1⟩ :=
        clipPolygons_convex sqrt pl.Near (Near_convex pl) b h polygons hin
      obtain ⟨h2, f1, e2, hp2, ho2⟩ := ihf h1 (OnPlane_mono hp1 _ o2)
      obtain ⟨h3, b1, e3, hp3, ho3⟩ := ihb h2 (OnPlane_mono (hp1.trans hp2) _ o3)
      refine ⟨h3, .mk (some pl) f1 b1 ps1, ?_, (hp1.trans hp2).trans hp3, ?_⟩
      · rw [Node.ClipTo]
        simp only [Node.ClipPolygons, e1, e2, e3]
      · exact ⟨fun p hp => ⟨pl, rfl, VerticesIn_mono (hp2.trans hp3) (ho1 p hp)⟩,
          OnPlane_mono hp3 _ ho2, ho3⟩

theorem Flipped_refl (h : Heap K) : Flipped h h := fun _ _ e => Or.inl e

theorem Flipped_trans {h h1 h2 : Heap K} (a : Flipped h h1) (b : Flipped h1 h2) :
    Flipped h h2 := by
  intro p poly e
  rcases a p poly e with e1 | e1
  · exact b p poly e1
  · rcases b p _ e1 with e2 | e2
    · exact Or.inr e2
    · rw [Polygon_Flip_Flip] at e2
      exact Or.inl e2

theorem flipAll_Flipped : ∀ (l : List Ptr) (h h1 : Heap K), flipAll l h = .ok h1 → Flipped h h1
  | [], h, h1, e => by
    rw [flipAll] at e
    cases e
    exact Flipped_refl h
  | p :: rest, h, h1, e => by
    rw [flipAll] at e
    cases e0 : h[p]? with
    | none => simp [e0] at e
    | some polygon =>
      simp only [e0] at e
      refine Flipped_trans ?_ (flipAll_Flipped rest _ h1 e)
      intro q poly eq
      by_cases hq : p = q
      · subst hq
        rw [e0] at eq
        cases eq
        exact Or.inr (by simp [List.getElem?_set_self (lt_of_lookup e0)])
      · exact Or.inl (by rw [List.getElem?_set_ne hq]; exact eq)

theorem VerticesIn_flipped {Q : Vector K → Prop} {h h1 : Heap K} {p : Ptr}
    (hf : Flipped h h1) (hv : VerticesIn Q h p) : VerticesIn Q h1 p := by
  obtain ⟨poly, e, hq⟩ := hv
  rcases hf p poly e with e1 | e1
  · exact ⟨poly, e1, hq⟩
  · exact ⟨poly.Flip, e1, fun v hv => hq v (by simpa [Polygon.Flip] using hv)⟩

theorem OnPlane_flipped {h h1 : Heap K} (hf : Flipped h h1) :
    ∀ n : Node K, n.OnPlane h → n.OnPlane h1
  | .nil, _ => trivial
  | .mk _ front back _, hn =>
    ⟨fun p hpm => by
        obtain ⟨pl, e, hv⟩ := hn.1 p hpm
        exact ⟨pl, e, VerticesIn_flipped hf hv⟩,
      OnPlane_flipped hf front hn.2.1, OnPlane_flipped hf back hn.2.2⟩

theorem Near_Flip (pl : Plane K) (x : Vector K) (hx : pl.Near x) : pl.Flip.Near x := by
  unfold Plane.Near Plane.DistanceToPlane at *
  simp only [Plane.Flip, Vector.Negated, Vector.Dot] at *
  constructor <;> linarith [hx.1, hx.2]

/-- `Invert` only flips cells, and keeps the stored polygons on their nodes'
planes. -/
theorem Invert_OnPlane : ∀ (n : Node K) (h h1 : Heap K) (n1 : Node K),
    Node.Invert n h = .ok (h1, n1) → Flipped h h1 ∧ (n.OnPlane h → n1.OnPlane h1)
  | .nil, h, h1, n1, e => by
    rw [Node.Invert] at e
    cases e
    exact ⟨Flipped_refl h, id⟩
  | .mk plane front back polygons, h, h3, n1, e => by
    rw [Node.Invert] at e
    cases ea : flipAll polygons h with
    | error err => simp [ea] at e
    | ok ha =>
      simp only [ea] at e
      cases plane with
      | none => simp at e
      | some pl =>
        simp only at e
        cases ef : Node.Invert front ha with
        | error err => simp [ef] at e
        | ok rf =>
          obtain ⟨hb, front1⟩ := rf
          simp only [ef] at e
          cases eb : Node.Invert back hb with
          | error err => simp [eb] at e
          | ok rb =>
            obtain ⟨hc, back1⟩ := rb
            simp only [eb, Except.ok.injEq, Prod.mk.injEq] at e
            obtain ⟨rfl, rfl⟩ := e
            have fa := flipAll_Flipped polygons h ha ea
            obtain ⟨ff, fo⟩ := Invert_OnPlane front ha hb front1 ef
            obtain ⟨fb, bo⟩ := Invert_OnPlane back hb hc back1 eb
            refine ⟨Flipped_trans fa (Flipped_trans ff fb), ?_⟩
            intro hn
            obtain ⟨o1, o2, o3⟩ := hn
            refine ⟨?_, bo (OnPlane_flipped (Flipped_trans fa ff) _ o3),
              OnPlane_flipped fb _ (fo (OnPlane_flipped fa _ o2))⟩
            intro p hp
            obtain ⟨pl1, e1, hv⟩ := o1 p hp
            cases e1
            obtain ⟨poly, ep, hq⟩ :=
              VerticesIn_flipped (Flipped_trans fa (Flipped_trans ff fb)) hv
            exact ⟨pl.Flip, rfl, poly, ep, fun v hv => Near_Flip pl _ (hq v hv)⟩

theorem returned_spec {α : Type} {r : Except Err α} (h : returned r = true) :
    ∃ a, r = .ok a := by
  cases r with
  | ok a => exact ⟨a, rfl⟩
  | error e => simp [returned] at h

end ClipInvariants

end Csg

namespace Csg

section TreeClaims

variable {K : Type} [LinearOrderedField K]

/-- C15: in the tree `NewNodeFromPolygons(ps)` of allocated polygons every
polygon stored directly in a node has every vertex within `EPSILON` of that
node's plane, and a later `Build`, `Invert` or `ClipTo` on a tree with that
property gives a tree with that property (`ClipTo` also returns). -/
theorem stored_polygons_on_plane (sqrt : K → K) (fuel : Nat) (h : Heap K) (ps : List Ptr)
    (h1 : Heap K) (n : Node K) (hps : ∀ p ∈ ps, p < h.length)
    (e : NewNodeFromPolygons sqrt fuel h ps = .ok (h1, n)) :
    n.OnPlane h1 ∧
      (∀ (fuel2 : Nat) (m : Node K) (h2 : Heap K) (qs : List Ptr) (h3 : Heap K) (m1 : Node K),
        m.OnPlane h2 → (∀ p ∈ qs, p < h2.length) →
        Node.Build sqrt fuel2 m h2 qs = .ok (h3, m1) → m1.OnPlane h3) ∧
      (∀ (m : Node K) (h2 h3 : Heap K) (m1 : Node K),
        m.OnPlane h2 → Node.Invert m h2 = .ok (h3, m1) → m1.OnPlane h3) ∧
      (∀ (bsp m : Node K) (h2 : Heap K), m.OnPlane h2 →
        ∃ h3 m1, Node.ClipTo sqrt bsp m h2 = .ok (h3, m1) ∧ m1.OnPlane h3) := by
  refine ⟨?_, ?_, ?_, ?_⟩
  · exact (Build_invariant sqrt fuel Node.empty h ps h1 n e hps).2.2.2.1
      (by simp [Node.empty, Node.OnPlane])
  · intro fuel2 m h2 qs h3 m1 hm hqs eb
    exact (Build_invariant sqrt fuel2 m h2 qs h3 m1 eb hqs).2.2.2.1 hm
  · intro m h2 h3 m1 hm ei
    exact (Invert_OnPlane m h2 h3 m1 ei).2 hm
  · intro bsp m h2 hm
    obtain ⟨h3, m1, ec, _, ho⟩ := ClipTo_OnPlane sqrt bsp m h2 hm
    exact ⟨h3, m1, ec, ho⟩

/-- C15 on the tree of `triSmall`, `triShelf` and `triRamp`, where `triRamp` is
cut in two. -/
theorem stored_polygons_on_plane_witness :
    ∃ h1 n, NewNodeFromPolygons ratSqrt 10 rampHeap [0, 1, 2] = .ok (h1, n) ∧ n.OnPlane h1 := by
  obtain ⟨⟨h1, n⟩, e⟩ := returned_spec
    (by decide! : returned (NewNodeFromPolygons ratSqrt 10 rampHeap [0, 1, 2]) = true)
  exact ⟨h1, n, e, (stored_polygons_on_plane ratSqrt 10 rampHeap [0, 1, 2] h1 n
    (by decide) e).1⟩

/-- C16 as stated fails.  In the tree of `triSmall`, `triShelf`, `triRamp` the
root has the plane `z = 0`; `triRamp` is FRONT of it and is cut by the plane of
`triShelf` in the front subtree; the piece with the edge in `z = 0`, stored at
address 4 in the front subtree, has all its vertices within `EPSILON` of
`z = 0`: it is classified COPLANAR against the root's plane, not FRONT. -/
theorem front_subtree_counterexample :
    ∃ h1 front back polys,
      NewNodeFromPolygons ratSqrt 10 rampHeap [0, 1, 2] =
        .ok (h1, .mk (some planeZ) front back polys) ∧
      4 ∈ front.AllPolygons ∧ classifiedAs h1 planeZ COPLANAR 4 = true ∧
      classifiedAs h1 planeZ FRONT 4 = false ∧
      (Node.mk (some planeZ) front back polys).strictlySided h1 = false := by
  have hb : (match NewNodeFromPolygons ratSqrt 10 rampHeap [0, 1, 2] with
      | .ok (h1, .mk (some pl) front back polys) =>
        decide (pl = planeZ) && decide (4 ∈ front.AllPolygons) &&
          classifiedAs h1 planeZ COPLANAR 4 && !classifiedAs h1 planeZ FRONT 4 &&
          !(Node.mk (some planeZ) front back polys).strictlySided h1
      | _ => false) = true := by decide!
  split at hb
  · next h1 pl front back polys e =>
    simp only [Bool.and_eq_true, decide_eq_true_eq, Bool.not_eq_true'] at hb
    obtain ⟨⟨⟨⟨rfl, m⟩, c⟩, f⟩, s⟩ := hb
    exact ⟨h1, front, back, polys, e, m, c, f, s⟩
  · exact absurd hb (by simp)

/-- C16 (amended): in the tree `NewNodeFromPolygons(ps)` of allocated polygons
every polygon stored anywhere in a node's front subtree has no vertex behind
that node's plane (signed distance at least `-EPSILON`) and every polygon
stored anywhere in its back subtree has no vertex in front of it (signed
distance at most `EPSILON`). -/
theorem subtrees_on_their_side (sqrt : K → K) (fuel : Nat) (h : Heap K) (ps : List Ptr)
    (h1 : Heap K) (n : Node K) (hps : ∀ p ∈ ps, p < h.length)
    (e : NewNodeFromPolygons sqrt fuel h ps = .ok (h1, n)) : n.Sided h1 :=
  (Build_invariant sqrt fuel Node.empty h ps h1 n e hps).2.2.2.2
    (by simp [Node.empty, Node.Sided, Node.AllPolygons])

/-- C16 (amended) on the tree of `triSmall`, `triShelf` and `triRamp`. -/
theorem subtrees_on_their_side_witness :
    ∃ h1 n, NewNodeFromPolygons ratSqrt 10 rampHeap [0, 1, 2] = .ok (h1, n) ∧ n.Sided h1 := by
  obtain ⟨⟨h1, n⟩, e⟩ := returned_spec
    (by decide! : returned (NewNodeFromPolygons ratSqrt 10 rampHeap [0, 1, 2]) = true)
  exact ⟨h1, n, e, subtrees_on_their_side ratSqrt 10 rampHeap [0, 1, 2] h1 n (by decide) e⟩

/-- C17: `Build` only extends a tree.  After `n.Build(ps)` on allocated
polygons every node that existed is still at its position, a plane that was set
is unchanged, each polygon list has its previous value as a prefix, and the
heap has only grown; with an empty `ps` the call returns the tree and the heap
as they were. -/
theorem Build_extends_tree (sqrt : K → K) (fuel : Nat) (n : Node K) (h : Heap K)
    (ps : List Ptr) (h1 : Heap K) (n1 : Node K) (hps : ∀ p ∈ ps, p < h.length)
    (e : Node.Build sqrt fuel n h ps = .ok (h1, n1)) :
    n.ExtendedBy n1 ∧ h <+: h1 ∧ Node.Build sqrt fuel n h [] = .ok (h, n) := by
  obtain ⟨k1, k2, _⟩ := Build_invariant sqrt fuel n h ps h1 n1 e hps
  exact ⟨k2, k1, Build_nil sqrt fuel n h⟩

/-- C17 on the one-node tree of `triSmall`, extended by `triShelf` and
`triRamp`. -/
theorem Build_extends_tree_witness :
    ∃ h1 n1, Node.Build ratSqrt 10 nodeSmall rampHeap [1, 2] = .ok (h1, n1) ∧
      nodeSmall.ExtendedBy n1 ∧ rampHeap <+: h1 ∧
      Node.Build ratSqrt 10 nodeSmall rampHeap [] = .ok (rampHeap, nodeSmall) := by
  obtain ⟨⟨h1, n1⟩, e⟩ := returned_spec
    (by decide! : returned (Node.Build ratSqrt 10 nodeSmall rampHeap [1, 2]) = true)
  exact ⟨h1, n1, e, Build_extends_tree ratSqrt 10 nodeSmall rampHeap [1, 2] h1 n1 (by decide) e⟩

end TreeClaims

end Csg

/-! ## C11, C12 : rejected and degenerate inputs -/

namespace Qhull

open Csg (Vector Err)

section HullInput

variable {K : Type} [LinearOrderedField K]

/-- C12: when the declared count is below four, or the slice is shorter than
the declared count, `Build` returns an error and the hull it was called on is
returned as it was. -/
theorem Build_rejects_bad_count (sqrt : K → K) (fuel : Nat) (q : Hull K)
    (points : List (Vector K)) (nump : Int)
    (h : nump < 4 ∨ (points.length : Int) < nump) :
    ∃ msg, Build sqrt fuel q points nump = .ok (q, some msg) := by
  unfold Build
  by_cases h4 : nump < 4
  · exact ⟨"Less than four input points specified", by simp [h4, pure, Except.pure]⟩
  · have hl : (points.length : Int) < nump := h.resolve_left h4
    exact ⟨"Point array too small for specified number of points",
      by simp [h4, hl, pure, Except.pure, bind, Except.bind]⟩

/-- C12 on the seven test points with a declared count of three. -/
theorem Build_rejects_bad_count_witness :
    ((3 : Int) < 4 ∨ ((simplePoints.length : Nat) : Int) < 3) ∧
      ∃ msg, Build Csg.ratSqrt 20 Hull.new simplePoints 3 = .ok (Hull.new, some msg) :=
  ⟨by decide, Build_rejects_bad_count Csg.ratSqrt 20 Hull.new simplePoints 3 (by decide)⟩

end HullInput

end Qhull

namespace Qhull

open Csg (Vector Err)

section Degenerate

variable {K : Type} [LinearOrderedField K]

theorem foldl_invariant {α β : Type} (P : β → Prop) (f : β → α → β) :
    ∀ (l : List α) (b : β), P b → (∀ b, ∀ a ∈ l, P b → P (f b a)) → P (l.foldl f b)
  | [], _, hb, _ => hb
  | a :: l, b, hb, hf =>
    foldl_invariant P f l (f b a) (hf b a (List.mem_cons_self _ _) hb)
      (fun b x hx => hf b x (List.mem_cons_of_mem _ hx))

theorem mem_enum_lookup {α : Type} {l : List α} {ip : Nat × α} (h : ip ∈ l.enum) :
    l[ip.1]? = some ip.2 := by
  obtain ⟨i, x⟩ := ip
  exact List.mk_mem_enum_iff_getElem?.mp h

theorem AxisOK_set_ne {points : List (Vertex K)} {l : List Nat} {i j p : Nat} {c : K}
    (hne : j ≠ i) (h : AxisOK points l i c) : AxisOK points (l.set j p) i c := by
  obtain ⟨a, x, e1, e2, e3⟩ := h
  exact ⟨a, x, by rw [List.getElem?_set_ne hne]; exact e1, e2, e3⟩

theorem AxisOK_set_self {points : List (Vertex K)} {l : List Nat} {i p : Nat} {c d : K}
    {x : Vertex K} (h : AxisOK points l i c) (hp : points[p]? = some x)
    (hx : Get x.point i = d) : AxisOK points (l.set i p) i d := by
  obtain ⟨a, _, e1, _, _⟩ := h
  have hlt : i < l.length := by
    by_contra hcon
    rw [List.getElem?_eq_none (by omega)] at e1
    exact absurd e1 (by simp)
  exact ⟨p, x, by rw [List.getElem?_set_self hlt], hp, hx⟩

/-- One point of the scan keeps the recorded vertices at the recorded
extremes. -/
theorem minMaxStep_OK {points : List (Vertex K)} {s : MinMax K} {p : Nat} {x : Vertex K}
    (hs : s.OK points) (hp : points[p]? = some x) : (minMaxStep s p x.point).OK points := by
  unfold minMaxStep
  simp only []
  have hX : MinMax.OK points (if x.point.X > s.max.X then
      { s with max := { s.max with X := x.point.X }, maxVertex := s.maxVertex.set 0 p }
    else if x.point.X < s.min.X then
      { s with min := { s.min with X := x.point.X }, minVertex := s.minVertex.set 0 p }
    else s) := by
    obtain ⟨h1, h2, h3, h4, h5, h6⟩ := hs
    split_ifs
    · exact ⟨AxisOK_set_self h1 hp rfl, AxisOK_set_ne (by decide) h2,
        AxisOK_set_ne (by decide) h3, h4, h5, h6⟩
    · exact ⟨h1, h2, h3, AxisOK_set_self h4 hp rfl, AxisOK_set_ne (by decide) h5,
        AxisOK_set_ne (by decide) h6⟩
    · exact ⟨h1, h2, h3, h4, h5, h6⟩
  revert hX
  generalize (if x.point.X > s.max.X then
      ({ s with max := { s.max with X := x.point.X }, maxVertex := s.maxVertex.set 0 p } :
        MinMax K)
    else if x.point.X < s.min.X then
      { s with min := { s.min with X := x.point.X }, minVertex := s.minVertex.set 0 p }
    else s) = s1
  intro hX
  have hY : MinMax.OK points (if x.point.Y > s1.max.Y then
      { s1 with max := { s1.max with Y := x.point.Y }, maxVertex := s1.maxVertex.set 1 p }
    else if x.point.Y < s1.min.Y then
      { s1 with min := { s1.min with Y := x.point.Y }, minVertex := s1.minVertex.set 1 p }
    else s1) := by
    obtain ⟨h1, h2, h3, h4, h5, h6⟩ := hX
    split_ifs
    · exact ⟨AxisOK_set_ne (by decide) h1, AxisOK_set_self h2 hp rfl,
        AxisOK_set_ne (by decide) h3, h4, h5, h6⟩
    · exact ⟨h1, h2, h3, AxisOK_set_ne (by decide) h4, AxisOK_set_self h5 hp rfl,
        AxisOK_set_ne (by decide) h6⟩
    · exact ⟨h1, h2, h3, h4, h5, h6⟩
  revert hY
  generalize (if x.point.Y > s1.max.Y then
      ({ s1 with max := { s1.max with Y := x.point.Y }, maxVertex := s1.maxVertex.set 1 p } :
        MinMax K)
    else if x.point.Y < s1.min.Y then
      { s1 with min := { s1.min with Y := x.point.Y }, minVertex := s1.minVertex.set 1 p }
    else s1) = s2
  intro hY
  obtain ⟨h1, h2, h3, h4, h5, h6⟩ := hY
  split_ifs
  · exact ⟨AxisOK_set_ne (by decide) h1, AxisOK_set_ne (by decide) h2,
      AxisOK_set_self h3 hp rfl, h4, h5, h6⟩
  · exact ⟨h1, h2, h3, AxisOK_set_ne (by decide) h4, AxisOK_set_ne (by decide) h5,
      AxisOK_set_self h6 hp rfl⟩
  · exact ⟨h1, h2, h3, h4, h5, h6⟩

theorem computeMinAndMax_spec (q : Hull K) (p0 : Vertex K) (h0 : q.points[0]? = some p0) :
    ∃ s : MinMax K, s.OK q.points ∧
      computeMinAndMax q = .ok { q with
        maxVertex := s.maxVertex, minVertex := s.minVertex,
        tolerance := if q.explicitTolerance = AUTOMATIC_TOLERANCE then
            3 * DOUBLE_PREC *
              (max |s.max.X| |s.min.X| + max |s.max.Y| |s.min.Y| + max |s.max.Z| |s.min.Z|)
          else q.explicitTolerance } := by
  refine ⟨q.points.enum.foldl (fun s (ip : Nat × Vertex K) => minMaxStep s ip.1 ip.2.point)
    ⟨p0.point.Clone, p0.point.Clone, [0, 0, 0], [0, 0, 0]⟩, ?_, ?_⟩
  · apply foldl_invariant (MinMax.OK q.points)
    · exact ⟨⟨0, p0, rfl, h0, rfl⟩, ⟨0, p0, rfl, h0, rfl⟩, ⟨0, p0, rfl, h0, rfl⟩,
        ⟨0, p0, rfl, h0, rfl⟩, ⟨0, p0, rfl, h0, rfl⟩, ⟨0, p0, rfl, h0, rfl⟩⟩
    · intro s ip hip hs
      exact minMaxStep_OK hs (mem_enum_lookup hip)
  · unfold computeMinAndMax
    simp only [h0, bind, Except.bind, pure, Except.pure]

theorem tolerance_nonneg (a b c d e f : K) :
    0 ≤ 3 * DOUBLE_PREC * (max |a| |b| + max |c| |d| + max |e| |f|) := by
  have hd : (0 : K) < DOUBLE_PREC := by unfold DOUBLE_PREC; positivity
  have h1 : 0 ≤ max |a| |b| := le_max_of_le_left (abs_nonneg a)
  have h2 : 0 ≤ max |c| |d| := le_max_of_le_left (abs_nonneg c)
  have h3 : 0 ≤ max |e| |f| := le_max_of_le_left (abs_nonneg e)
  positivity

theorem tolerance_eq_zero {a b c d e f : K}
    (h : 3 * DOUBLE_PREC * (max |a| |b| + max |c| |d| + max |e| |f|) = 0) :
    a = 0 ∧ b = 0 ∧ c = 0 ∧ d = 0 ∧ e = 0 ∧ f = 0 := by
  have hd : (0 : K) < DOUBLE_PREC := by unfold DOUBLE_PREC; positivity
  have h1 : 0 ≤ max |a| |b| := le_max_of_le_left (abs_nonneg a)
  have h2 : 0 ≤ max |c| |d| := le_max_of_le_left (abs_nonneg c)
  have h3 : 0 ≤ max |e| |f| := le_max_of_le_left (abs_nonneg e)
  have hsum : max |a| |b| + max |c| |d| + max |e| |f| = 0 := by
    rcases mul_eq_zero.mp h with h | h
    · have : (0 : K) < 3 * DOUBLE_PREC := by positivity
      linarith
    · exact h
  have e1 : max |a| |b| = 0 := by linarith
  have e2 : max |c| |d| = 0 := by linarith
  have e3 : max |e| |f| = 0 := by linarith
  have key : ∀ x y : K, max |x| |y| = 0 → x = 0 ∧ y = 0 := by
    intro x y hxy
    have hx : |x| ≤ 0 := hxy ▸ le_max_left _ _
    have hy : |y| ≤ 0 := hxy ▸ le_max_right _ _
    exact ⟨abs_eq_zero.mp (le_antisymm hx (abs_nonneg x)),
      abs_eq_zero.mp (le_antisymm hy (abs_nonneg y))⟩
  obtain ⟨ha, hb⟩ := key a b e1
  obtain ⟨hc, hd1⟩ := key c d e2
  obtain ⟨he, hf⟩ := key e f e3
  exact ⟨ha, hb, hc, hd1, he, hf⟩

/-- The widest axis: its two extreme vertices exist, and the extent found is
at most the tolerance unless the tolerance is positive. -/
theorem widestAxis_spec (q : Hull K) (s : MinMax K)
    (hmax : q.maxVertex = s.maxVertex) (hmin : q.minVertex = s.minVertex)
    (hs : s.OK q.points)
    (htol : q.tolerance = 3 * DOUBLE_PREC *
      (max |s.max.X| |s.min.X| + max |s.max.Y| |s.min.Y| + max |s.max.Z| |s.min.Z|)) :
    ∃ m im a b xa xb, widestAxis q = .ok (m, im) ∧ q.maxVertex[im]? = some a ∧
      q.minVertex[im]? = some b ∧ q.points[a]? = some xa ∧ q.points[b]? = some xb ∧
      (m ≤ q.tolerance ∨ 0 < q.tolerance) ∧
      (m = 0 ∨ m = Get xa.point im - Get xb.point im) := by
  obtain ⟨⟨a0, x0, ea0, ex0, c0⟩, ⟨a1, x1, ea1, ex1, c1⟩, ⟨a2, x2, ea2, ex2, c2⟩,
    ⟨b0, y0, eb0, ey0, d0⟩, ⟨b1, y1, eb1, ey1, d1⟩, ⟨b2, y2, eb2, ey2, d2⟩⟩ := hs
  rw [← hmax] at ea0 ea1 ea2
  rw [← hmin] at eb0 eb1 eb2
  have htn : 0 ≤ q.tolerance := by rw [htol]; exact tolerance_nonneg _ _ _ _ _ _
  have hzero : q.tolerance = 0 → Get x0.point 0 - Get y0.point 0 = 0 ∧
      Get x1.point 1 - Get y1.point 1 = 0 ∧ Get x2.point 2 - Get y2.point 2 = 0 := by
    intro hz
    rw [htol] at hz
    obtain ⟨k1, k2, k3, k4, k5, k6⟩ := tolerance_eq_zero hz
    rw [c0, c1, c2, d0, d1, d2, k1, k2, k3, k4, k5, k6]
    simp
  have htolcase : ∀ m : K, (m = 0 ∨ m = Get x0.point 0 - Get y0.point 0 ∨
      m = Get x1.point 1 - Get y1.point 1 ∨ m = Get x2.point 2 - Get y2.point 2) →
      (m ≤ q.tolerance ∨ 0 < q.tolerance) := by
    intro m hm
    rcases htn.lt_or_eq with hpos | hz
    · exact Or.inr hpos
    · left
      obtain ⟨z0, z1, z2⟩ := hzero hz.symm
      rw [z0, z1, z2] at hm
      rw [← hz]
      rcases hm with hm | hm | hm | hm <;> rw [hm]
  by_cases h0 : Get x0.point 0 - Get y0.point 0 > 0
  · by_cases h1 : Get x1.point 1 - Get y1.point 1 > Get x0.point 0 - Get y0.point 0
    · by_cases h2 : Get x2.point 2 - Get y2.point 2 > Get x1.point 1 - Get y1.point 1
      · exact ⟨Get x2.point 2 - Get y2.point 2, 2, a2, b2, x2, y2,
          (by unfold widestAxis; simp [bind, Except.bind, pure, Except.pure, deref, Hull.vertex, load,
            ea0, ea1, ea2, eb0, eb1, eb2, ex0, ex1, ex2, ey0, ey1, ey2, h0, h1, h2]),
          ea2, eb2, ex2, ey2, htolcase _ (by simp), Or.inr rfl⟩
      · exact ⟨Get x1.point 1 - Get y1.point 1, 1, a1, b1, x1, y1,
          (by unfold widestAxis; simp [bind, Except.bind, pure, Except.pure, deref, Hull.vertex, load,
            ea0, ea1, ea2, eb0, eb1, eb2, ex0, ex1, ex2, ey0, ey1, ey2, h0, h1, h2]),
          ea1, eb1, ex1, ey1, htolcase _ (by simp), Or.inr rfl⟩
    · by_cases h2 : Get x2.point 2 - Get y2.point 2 > Get x0.point 0 - Get y0.point 0
      · exact ⟨Get x2.point 2 - Get y2.point 2, 2, a2, b2, x2, y2,
          (by unfold widestAxis; simp [bind, Except.bind, pure, Except.pure, deref, Hull.vertex, load,
            ea0, ea1, ea2, eb0, eb1, eb2, ex0, ex1, ex2, ey0, ey1, ey2, h0, h1, h2]),
          ea2, eb2, ex2, ey2, htolcase _ (by simp), Or.inr rfl⟩
      · exact ⟨Get x0.point 0 - Get y0.point 0, 0, a0, b0, x0, y0,
          (by unfold widestAxis; simp [bind, Except.bind, pure, Except.pure, deref, Hull.vertex, load,
            ea0, ea1, ea2, eb0, eb1, eb2, ex0, ex1, ex2, ey0, ey1, ey2, h0, h1, h2]),
          ea0, eb0, ex0, ey0, htolcase _ (by simp), Or.inr rfl⟩
  · by_cases h1 : Get x1.point 1 - Get y1.point 1 > 0
    · by_cases h2 : Get x2.point 2 - Get y2.point 2 > Get x1.point 1 - Get y1.point 1
      · exact ⟨Get x2.point 2 - Get y2.point 2, 2, a2, b2, x2, y2,
          (by unfold widestAxis; simp [bind, Except.bind, pure, Except.pure, deref, Hull.vertex, load,
            ea0, ea1, ea2, eb0, eb1, eb2, ex0, ex1, ex2, ey0, ey1, ey2, h0, h1, h2]),
          ea2, eb2, ex2, ey2, htolcase _ (by simp), Or.inr rfl⟩
      · exact ⟨Get x1.point 1 - Get y1.point 1, 1, a1, b1, x1, y1,
          (by unfold widestAxis; simp [bind, Except.bind, pure, Except.pure, deref, Hull.vertex, load,
            ea0, ea1, ea2, eb0, eb1, eb2, ex0, ex1, ex2, ey0, ey1, ey2, h0, h1, h2]),
          ea1, eb1, ex1, ey1, htolcase _ (by simp), Or.inr rfl⟩
    · by_cases h2 : Get x2.point 2 - Get y2.point 2 > 0
      · exact ⟨Get x2.point 2 - Get y2.point 2, 2, a2, b2, x2, y2,
          (by unfold widestAxis; simp [bind, Except.bind, pure, Except.pure, deref, Hull.vertex, load,
            ea0, ea1, ea2, eb0, eb1, eb2, ex0, ex1, ex2, ey0, ey1, ey2, h0, h1, h2]),
          ea2, eb2, ex2, ey2, htolcase _ (by simp), Or.inr rfl⟩
      · exact ⟨0, 0, a0, b0, x0, y0,
          (by unfold widestAxis; simp [bind, Except.bind, pure, Except.pure, deref, Hull.vertex, load,
            ea0, ea1, ea2, eb0, eb1, eb2, ex0, ex1, ex2, ey0, ey1, ey2, h0, h1, h2]),
          ea0, eb0, ex0, ey0, htolcase _ (by simp), Or.inl rfl⟩

/-- The scan for the point farthest from the line either finds nothing or
returns a vertex of the hull, not one of the first two, with the cross product
computed for it. -/
theorem farthestFromLine_spec (q : Hull K) (n : Vector K) (v0 v1 : Nat) (p0 : Vector K) :
    farthestFromLine q n v0 v1 p0 = (0, none, none) ∨
      ∃ msq v2 x2, q.points[v2]? = some x2 ∧ v2 ≠ v0 ∧ v2 ≠ v1 ∧
        farthestFromLine q n v0 v1 p0 = (msq, some v2, some (n.Cross (x2.point.Minus p0))) := by
  unfold farthestFromLine
  apply foldl_invariant (fun (acc : K × Option Nat × Option (Vector K)) =>
    acc = (0, none, none) ∨ ∃ msq v2 x2, q.points[v2]? = some x2 ∧ v2 ≠ v0 ∧ v2 ≠ v1 ∧
      acc = (msq, some v2, some (n.Cross (x2.point.Minus p0))))
  · exact Or.inl rfl
  · intro acc ip hip hacc
    simp only []
    split_ifs with hc
    · exact Or.inr ⟨_, ip.1, ip.2, mem_enum_lookup hip, hc.2.1, hc.2.2, rfl⟩
    · exact hacc

/-- The scan for the point farthest from the plane either finds nothing or
returns a vertex of the hull that is none of the first three. -/
theorem farthestFromPlane_spec (q : Hull K) (normal : Vector K) (d0 : K) (v0 v1 v2 : Nat) :
    farthestFromPlane q normal d0 v0 v1 v2 = (0, none) ∨
      ∃ d v3 x3, q.points[v3]? = some x3 ∧ v3 ≠ v0 ∧ v3 ≠ v1 ∧ v3 ≠ v2 ∧
        farthestFromPlane q normal d0 v0 v1 v2 = (d, some v3) := by
  unfold farthestFromPlane
  apply foldl_invariant (fun (acc : K × Option Nat) =>
    acc = (0, none) ∨ ∃ d v3 x3, q.points[v3]? = some x3 ∧ v3 ≠ v0 ∧ v3 ≠ v1 ∧ v3 ≠ v2 ∧
      acc = (d, some v3))
  · exact Or.inl rfl
  · intro acc ip hip hacc
    simp only []
    split_ifs with hc
    · exact Or.inr ⟨_, ip.1, ip.2, mem_enum_lookup hip, hc.2.1, hc.2.2.1, hc.2.2.2, rfl⟩
    · exact hacc

/-- When every point is on the plane, the scan for the point farthest from it
finds nothing. -/
theorem farthestFromPlane_flat (q : Hull K) (normal : Vector K) (d0 : K) (v0 v1 v2 : Nat)
    (h : ∀ x ∈ q.points, x.point.Dot normal - d0 = 0) :
    farthestFromPlane q normal d0 v0 v1 v2 = (0, none) := by
  unfold farthestFromPlane
  apply foldl_invariant (fun (acc : K × Option Nat) => acc = (0, none))
  · rfl
  · intro acc ip hip hacc
    have hmem : ip.2 ∈ q.points := List.mem_iff_getElem?.mpr ⟨ip.1, mem_enum_lookup hip⟩
    simp only [hacc, h ip.2 hmem, abs_zero, gt_iff_lt, lt_self_iff_false, false_and, if_false]

/-- Three vectors orthogonal to a non-zero vector have a vanishing triple
product. -/
theorem triple_product_zero {m a b c : Vector K} (hm : m ≠ ⟨0, 0, 0⟩)
    (ha : m.Dot a = 0) (hb : m.Dot b = 0) (hc : m.Dot c = 0) : a.Dot (b.Cross c) = 0 := by
  simp only [Vector.Dot, Vector.Cross] at *
  have hx : (a.X * (b.Y * c.Z - b.Z * c.Y) + a.Y * (b.Z * c.X - b.X * c.Z) +
      a.Z * (b.X * c.Y - b.Y * c.X)) * m.X = 0 := by
    linear_combination (b.Y * c.Z - b.Z * c.Y) * ha + (c.Y * a.Z - c.Z * a.Y) * hb +
      (a.Y * b.Z - a.Z * b.Y) * hc
  have hy : (a.X * (b.Y * c.Z - b.Z * c.Y) + a.Y * (b.Z * c.X - b.X * c.Z) +
      a.Z * (b.X * c.Y - b.Y * c.X)) * m.Y = 0 := by
    linear_combination (b.Z * c.X - b.X * c.Z) * ha + (c.Z * a.X - c.X * a.Z) * hb +
      (a.Z * b.X - a.X * b.Z) * hc
  have hz : (a.X * (b.Y * c.Z - b.Z * c.Y) + a.Y * (b.Z * c.X - b.X * c.Z) +
      a.Z * (b.X * c.Y - b.Y * c.X)) * m.Z = 0 := by
    linear_combination (b.X * c.Y - b.Y * c.X) * ha + (c.X * a.Y - c.Y * a.X) * hb +
      (a.X * b.Y - a.Y * b.X) * hc
  by_contra hne
  apply hm
  rcases mul_eq_zero.mp hx with h | h
  · exact absurd h hne
  rcases mul_eq_zero.mp hy with h1 | h1
  · exact absurd h1 hne
  rcases mul_eq_zero.mp hz with h2 | h2
  · exact absurd h2 hne
  cases m
  simp_all

theorem flat_distance_aux (p x0 x1 x2 : Vector K) (l l2 : K)
    (ht : (p.Minus x2).Dot ((x1.Minus x0).Cross (x2.Minus x0)) = 0) :
    p.Dot ⟨((⟨(x1.Minus x0).X / l, (x1.Minus x0).Y / l, (x1.Minus x0).Z / l⟩ :
          Vector K).Cross (x2.Minus x0)).X / l2,
        ((⟨(x1.Minus x0).X / l, (x1.Minus x0).Y / l, (x1.Minus x0).Z / l⟩ :
          Vector K).Cross (x2.Minus x0)).Y / l2,
        ((⟨(x1.Minus x0).X / l, (x1.Minus x0).Y / l, (x1.Minus x0).Z / l⟩ :
          Vector K).Cross (x2.Minus x0)).Z / l2⟩ -
      x2.Dot ⟨((⟨(x1.Minus x0).X / l, (x1.Minus x0).Y / l, (x1.Minus x0).Z / l⟩ :
          Vector K).Cross (x2.Minus x0)).X / l2,
        ((⟨(x1.Minus x0).X / l, (x1.Minus x0).Y / l, (x1.Minus x0).Z / l⟩ :
          Vector K).Cross (x2.Minus x0)).Y / l2,
        ((⟨(x1.Minus x0).X / l, (x1.Minus x0).Y / l, (x1.Minus x0).Z / l⟩ :
          Vector K).Cross (x2.Minus x0)).Z / l2⟩ = 0 := by
  have e : p.Dot ⟨((⟨(x1.Minus x0).X / l, (x1.Minus x0).Y / l, (x1.Minus x0).Z / l⟩ :
          Vector K).Cross (x2.Minus x0)).X / l2,
        ((⟨(x1.Minus x0).X / l, (x1.Minus x0).Y / l, (x1.Minus x0).Z / l⟩ :
          Vector K).Cross (x2.Minus x0)).Y / l2,
        ((⟨(x1.Minus x0).X / l, (x1.Minus x0).Y / l, (x1.Minus x0).Z / l⟩ :
          Vector K).Cross (x2.Minus x0)).Z / l2⟩ -
      x2.Dot ⟨((⟨(x1.Minus x0).X / l, (x1.Minus x0).Y / l, (x1.Minus x0).Z / l⟩ :
          Vector K).Cross (x2.Minus x0)).X / l2,
        ((⟨(x1.Minus x0).X / l, (x1.Minus x0).Y / l, (x1.Minus x0).Z / l⟩ :
          Vector K).Cross (x2.Minus x0)).Y / l2,
        ((⟨(x1.Minus x0).X / l, (x1.Minus x0).Y / l, (x1.Minus x0).Z / l⟩ :
          Vector K).Cross (x2.Minus x0)).Z / l2⟩ =
      (p.Minus x2).Dot ((x1.Minus x0).Cross (x2.Minus x0)) * l⁻¹ * l2⁻¹ := by
    simp only [Vector.Dot, Vector.Cross, Vector.Minus, div_eq_mul_inv]
    ring
  rw [e, ht]
  simp

/-- In exact arithmetic a point of the common plane has distance zero from the
plane the code builds on three other points of it. -/
theorem flat_distance (sqrt : K → K) {m : Vector K} {c : K} (hm : m ≠ ⟨0, 0, 0⟩)
    {p x0 x1 x2 : Vector K} (hp : m.Dot p = c) (h0 : m.Dot x0 = c) (h1 : m.Dot x1 = c)
    (h2 : m.Dot x2 = c) :
    p.Dot (Normalize sqrt ((Normalize sqrt (x1.Minus x0)).Cross (x2.Minus x0))) -
      x2.Dot (Normalize sqrt ((Normalize sqrt (x1.Minus x0)).Cross (x2.Minus x0))) = 0 := by
  have ha : m.Dot (p.Minus x2) = 0 := by rw [Csg.dot_minus, hp, h2, sub_self]
  have hb : m.Dot (x1.Minus x0) = 0 := by rw [Csg.dot_minus, h1, h0, sub_self]
  have hc : m.Dot (x2.Minus x0) = 0 := by rw [Csg.dot_minus, h2, h0, sub_self]
  exact flat_distance_aux p x0 x1 x2 _ _ (triple_product_zero hm ha hb hc)

/-- On points of one plane `createInitialSimplex` returns one of its three
errors and leaves the hull as it was. -/
theorem createInitialSimplex_flat (sqrt : K → K) (hs0 : sqrt 0 = 0) (fuel : Nat) (q : Hull K)
    (s : MinMax K) (hmax : q.maxVertex = s.maxVertex) (hmin : q.minVertex = s.minVertex)
    (hs : s.OK q.points)
    (htol : q.tolerance = 3 * DOUBLE_PREC *
      (max |s.max.X| |s.min.X| + max |s.max.Y| |s.min.Y| + max |s.max.Z| |s.min.Z|))
    (hflat : Coplanar (q.points.map fun x => x.point)) :
    ∃ msg, createInitialSimplex sqrt fuel q = .ok (q, some msg) := by
  obtain ⟨m, im, a, b, xa, xb, hw, ea, eb, exa, exb, hcase, _⟩ :=
    widestAxis_spec q s hmax hmin hs htol
  obtain ⟨nrm, hnrm, c, hc⟩ := hflat
  have hpl : ∀ x ∈ q.points, nrm.Dot x.point = c := fun x hx =>
    hc _ (List.mem_map.mpr ⟨x, hx, rfl⟩)
  unfold createInitialSimplex
  simp only [hw, bind, Except.bind, pure, Except.pure]
  by_cases hm : m ≤ q.tolerance
  · rw [if_pos hm]
    exact ⟨_, rfl⟩
  · rw [if_neg hm]
    have htpos : 0 < q.tolerance := hcase.resolve_left hm
    have h100 : sqrt 0 < 100 * q.tolerance := by rw [hs0]; positivity
    simp only [ea, eb, deref, Hull.vertex, load, exa, exb]
    by_cases hcol : sqrt (farthestFromLine q (Normalize sqrt (xb.point.Minus xa.point)) a b
        xa.point).1 < 100 * q.tolerance
    · rw [if_pos hcol]
      exact ⟨_, rfl⟩
    · rw [if_neg hcol]
      rcases farthestFromLine_spec q (Normalize sqrt (xb.point.Minus xa.point)) a b xa.point
        with e0 | ⟨msq, v2, x2, ex2, _, _, e2⟩
      · exfalso
        apply hcol
        rw [e0]
        exact h100
      · simp only [e2, ex2]
        rw [farthestFromPlane_flat q _ _ a b v2 (fun x hx =>
          flat_distance sqrt hnrm (hpl x hx)
            (hpl xa (List.mem_iff_getElem?.mpr ⟨a, exa⟩))
            (hpl xb (List.mem_iff_getElem?.mpr ⟨b, exb⟩))
            (hpl x2 (List.mem_iff_getElem?.mpr ⟨v2, ex2⟩)))]
        simp only []
        rw [if_pos h100]
        exact ⟨_, rfl⟩

theorem Coplanar_of_OnOneLine {ps : List (Vector K)} (h : OnOneLine ps) : Coplanar ps := by
  obtain ⟨o, d, hl⟩ := h
  by_cases hd : d.X = 0 ∧ d.Y = 0
  · refine ⟨⟨1, 0, 0⟩, by simp, o.X, ?_⟩
    intro p hp
    obtain ⟨t, rfl⟩ := hl p hp
    simp [Vector.Dot, Vector.Plus, Vector.Times, hd.1]
  · refine ⟨⟨d.Y, -d.X, 0⟩, ?_, d.Y * o.X - d.X * o.Y, ?_⟩
    · intro e
      simp only [Vector.mk.injEq, neg_eq_zero, and_true] at e
      exact hd ⟨e.2, e.1⟩
    · intro p hp
      obtain ⟨t, rfl⟩ := hl p hp
      simp only [Vector.Dot, Vector.Plus, Vector.Times]
      ring

theorem OnOneLine_of_Coincident {ps : List (Vector K)} (h : Coincident ps) : OnOneLine ps := by
  obtain ⟨o, ho⟩ := h
  refine ⟨o, ⟨0, 0, 0⟩, fun p hp => ⟨0, ?_⟩⟩
  rw [ho p hp]
  cases o
  simp [Vector.Plus, Vector.Times]

theorem setPoints_points (q : Hull K) (points : List (Vector K)) (nump : Nat) :
    (setPoints q points nump).points.map (fun x => x.point) = points.take nump := by
  unfold setPoints
  simp only [List.map_map]
  have : ((fun (x : Vertex K) => x.point) ∘ fun (iv : Nat × Vector K) =>
      NewVertex iv.2 (iv.1 : Int)) = Prod.snd := by
    funext iv
    rfl
  rw [this, List.enum_map_snd]

/-- On points of one plane `Build` on a fresh hull returns nil and leaves no
face and no vertex. -/
theorem Build_flat (sqrt : K → K) (hs0 : sqrt 0 = 0) (fuel : Nat) (points : List (Vector K))
    (nump : Int) (h4 : 4 ≤ nump) (hlen : nump ≤ points.length)
    (hflat : Coplanar (points.take nump.toNat)) :
    ∃ q, Build sqrt fuel Hull.new points nump = .ok (q, none) ∧ Faces fuel q = .ok [] ∧
      Vertices q = .ok [] := by
  have hn : 4 ≤ nump.toNat := by omega
  have hl : nump.toNat ≤ points.length := by omega
  generalize hq0 : setPoints (initBuffers (Hull.new : Hull K) nump.toNat) points nump.toNat = q0
  have hpts : q0.points.map (fun x => x.point) = points.take nump.toNat := by
    rw [← hq0]
    exact setPoints_points _ points nump.toNat
  have hlen0 : q0.points.length = nump.toNat := by
    have := congrArg List.length hpts
    simpa [hl] using this
  have hexp : q0.explicitTolerance = AUTOMATIC_TOLERANCE := by rw [← hq0]; rfl
  have hfaces : q0.faces = [] := by rw [← hq0]; rfl
  have hnv : q0.numVertices = 0 := by rw [← hq0]; rfl
  obtain ⟨p0, e0⟩ : ∃ p0, q0.points[0]? = some p0 := Csg.lookup_of_lt (by omega)
  obtain ⟨s, hs, ecm⟩ := computeMinAndMax_spec q0 p0 e0
  rw [if_pos hexp] at ecm
  obtain ⟨msg, ecs⟩ := createInitialSimplex_flat sqrt hs0 fuel
    { q0 with
      maxVertex := s.maxVertex, minVertex := s.minVertex,
      tolerance := 3 * DOUBLE_PREC *
        (max |s.max.X| |s.min.X| + max |s.max.Y| |s.min.Y| + max |s.max.Z| |s.min.Z|) }
    s rfl rfl hs rfl (by rw [← hpts] at hflat; exact hflat)
  have hf1 : ({ q0 with
      maxVertex := s.maxVertex, minVertex := s.minVertex,
      tolerance := 3 * DOUBLE_PREC *
        (max |s.max.X| |s.min.X| + max |s.max.Y| |s.min.Y| + max |s.max.Z| |s.min.Z|) } :
      Hull K).faces = [] := hfaces
  have hv1 : ({ q0 with
      maxVertex := s.maxVertex, minVertex := s.minVertex,
      tolerance := 3 * DOUBLE_PREC *
        (max |s.max.X| |s.min.X| + max |s.max.Y| |s.min.Y| + max |s.max.Z| |s.min.Z|) } :
      Hull K).numVertices = 0 := hnv
  revert ecm ecs hf1 hv1
  generalize ({ q0 with
      maxVertex := s.maxVertex, minVertex := s.minVertex,
      tolerance := 3 * DOUBLE_PREC *
        (max |s.max.X| |s.min.X| + max |s.max.Y| |s.min.Y| + max |s.max.Z| |s.min.Z|) } :
      Hull K) = q1
  intro ecm ecs hf1 hv1
  refine ⟨q1, ?_, ?_, ?_⟩
  · unfold Build
    have h1 : ¬ nump < 4 := not_lt.mpr h4
    have h2 : ¬ (points.length : Int) < nump := not_lt.mpr hlen
    simp only [h1, h2, if_false, bind, Except.bind, pure, Except.pure, buildHull, hq0, ecm, ecs,
      Option.isSome_some, if_true]
  · unfold Faces
    rw [hf1]
    rfl
  · unfold Vertices
    rw [hv1]
    rfl

end Degenerate

section DegenerateClaims

variable {K : Type} [LinearOrderedField K]

/-- C11: in exact arithmetic (with `sqrt 0 = 0`), on at least four input
points that are all coincident, all on one line or all in one plane, `Build` on
a freshly created hull returns and leaves no partial hull: `Faces()` and
`Vertices()` are both empty. -/
theorem degenerate_input_no_hull (sqrt : K → K) (hs0 : sqrt 0 = 0) (fuel : Nat)
    (points : List (Vector K)) (nump : Int) (h4 : 4 ≤ nump) (hlen : nump ≤ points.length)
    (hdeg : Coincident (points.take nump.toNat) ∨ OnOneLine (points.take nump.toNat) ∨
      Coplanar (points.take nump.toNat)) :
    ∃ q, Build sqrt fuel Hull.new points nump = .ok (q, none) ∧ Faces fuel q = .ok [] ∧
      Vertices q = .ok [] := by
  apply Build_flat sqrt hs0 fuel points nump h4 hlen
  rcases hdeg with h | h | h
  · exact Coplanar_of_OnOneLine (OnOneLine_of_Coincident h)
  · exact Coplanar_of_OnOneLine h
  · exact h

/-- C11 on the four corners of a square in the plane `z = 0`. -/
theorem degenerate_input_no_hull_witness :
    ∃ q, Build Csg.ratSqrt 20 Hull.new squarePoints 4 = .ok (q, none) ∧ Faces 20 q = .ok [] ∧
      Vertices q = .ok [] :=
  degenerate_input_no_hull Csg.ratSqrt (by decide!) 20 squarePoints 4 (by decide) (by decide)
    (Or.inr (Or.inr ⟨⟨0, 0, 1⟩, by decide, 0, by decide!⟩))

end DegenerateClaims

end Qhull

/-! ## C14 : the vertices of the hull -/

namespace Qhull

open Csg (Vector Err)

section Reindex

variable {K : Type} [LinearOrderedField K]

theorem bind_ok_inv {α β : Type} {x : Except Err α} {f : α → Except Err β} {b : β}
    (h : x >>= f = .ok b) : ∃ a, x = .ok a ∧ f a = .ok b := by
  cases x with
  | error e => exact absurd h (by simp [bind, Except.bind])
  | ok a => exact ⟨a, rfl, h⟩

theorem SameMesh_refl (q : Hull K) : SameMesh q q := ⟨rfl, rfl, rfl, rfl, rfl, rfl, rfl⟩

theorem SameMesh_trans {q q1 q2 : Hull K} (a : SameMesh q q1) (b : SameMesh q1 q2) :
    SameMesh q q2 := by
  obtain ⟨a1, a2, a3, a4, a5, a6, a7⟩ := a
  obtain ⟨b1, b2, b3, b4, b5, b6, b7⟩ := b
  exact ⟨b1.trans a1, b2.trans a2, b3.trans a3, b4.trans a4, b5.trans a5, b6.trans a6,
    b7.trans a7⟩

theorem SameMesh_setVertex (q : Hull K) (v : Nat) (x : Vertex K) :
    SameMesh q (q.setVertex v x) :=
  ⟨rfl, rfl, rfl, rfl, rfl, rfl, by simp [Hull.setVertex]⟩

theorem nextOf_congr {q q1 : Hull K} (h : q1.edgeStore = q.edgeStore) (e : Nat) :
    nextOf q1 e = nextOf q e := by
  unfold nextOf Hull.halfEdge
  rw [h]

theorem Head_congr {q q1 : Hull K} (h : q1.edgeStore = q.edgeStore) (e : Nat) :
    Head q1 e = Head q e := by
  unfold Head Hull.halfEdge
  rw [h]

theorem walkNext_congr {q q1 : Hull K} (h : q1.edgeStore = q.edgeStore) :
    ∀ (k e : Nat), walkNext q1 k e = walkNext q k e
  | 0, _ => rfl
  | k + 1, e => by
    rw [walkNext, walkNext, nextOf_congr h]
    congr 1
    funext nx
    exact walkNext_congr h k nx

theorem walkNext_succ {q : Hull K} {he nx : Nat} (h : nextOf q he = .ok nx) (k : Nat) :
    walkNext q (k + 1) he = walkNext q k nx := by
  rw [walkNext, h]
  rfl

/-- The loop of `markFaceVertices` leaves the mesh alone and changes only
vertices that are heads of half-edges on the loop. -/
theorem markLoop_spec (edge : Nat) (mark : Int) :
    ∀ (fuel : Nat) (q : Hull K) (he : Nat) (q1 : Hull K),
      markLoop edge mark fuel q he = .ok q1 →
      SameMesh q q1 ∧
        ∀ i, q1.points[i]? = q.points[i]? ∨
          ∃ k e, walkNext q k he = .ok e ∧ Head q e = .ok i
  | 0, q, he, q1, h => by
    rw [markLoop] at h
    exact absurd h (by simp)
  | fuel + 1, q, he, q1, h => by
    rw [markLoop] at h
    obtain ⟨hd, e1, h⟩ := bind_ok_inv h
    obtain ⟨x, e2, h⟩ := bind_ok_inv h
    dsimp only at h
    obtain ⟨nx, e3, h⟩ := bind_ok_inv h
    have hm := SameMesh_setVertex q hd { x with index := mark }
    have hstep : ∀ i, (q.setVertex hd { x with index := mark }).points[i]? = q.points[i]? ∨
        ∃ k e, walkNext q k he = .ok e ∧ Head q e = .ok i := by
      intro i
      by_cases hi : hd = i
      · subst hi
        exact Or.inr ⟨0, he, rfl, e1⟩
      · left
        simp only [Hull.setVertex]
        rw [List.getElem?_set_ne hi]
    by_cases hnx : nx = edge
    · rw [if_pos hnx] at h
      simp only [pure, Except.pure, Except.ok.injEq] at h
      subst h
      exact ⟨hm, hstep⟩
    · rw [if_neg hnx] at h
      obtain ⟨r1, r2⟩ := markLoop_spec edge mark fuel _ nx q1 h
      refine ⟨SameMesh_trans hm r1, ?_⟩
      intro i
      rcases r2 i with r | ⟨k, e, w, hh⟩
      · rcases hstep i with r0 | r0
        · exact Or.inl (r.trans r0)
        · exact Or.inr r0
      · right
        rw [walkNext_congr hm.1] at w
        rw [Head_congr hm.1] at hh
        rw [nextOf_congr hm.1] at e3
        exact ⟨k + 1, e, by rw [walkNext_succ e3]; exact w, hh⟩

/-- The face loop of `reindexFacesAndVertices` keeps the VISIBLE faces and
changes only vertices that are heads of half-edges on the loop of a kept
face. -/
theorem reindexFaces_spec (fuel : Nat) :
    ∀ (faces : List Nat) (q : Hull K) (kept : List Nat) (q1 : Hull K) (kept1 : List Nat),
      reindexFaces fuel faces q kept = .ok (q1, kept1) →
      SameMesh q q1 ∧ (∀ f ∈ kept, f ∈ kept1) ∧
        (∀ f ∈ kept1, f ∈ kept ∨
          ∃ face, q.faceStore[f]? = some face ∧ face.mark = VISIBLE) ∧
        ∀ i, q1.points[i]? = q.points[i]? ∨
          ∃ f ∈ kept1, ∃ face, q.faceStore[f]? = some face ∧ face.mark = VISIBLE ∧
            ∃ k e, walkNext q k face.edge = .ok e ∧ Head q e = .ok i
  | [], q, kept, q1, kept1, h => by
    rw [reindexFaces] at h
    simp only [pure, Except.pure, Except.ok.injEq, Prod.mk.injEq] at h
    obtain ⟨rfl, rfl⟩ := h
    exact ⟨SameMesh_refl q, fun f hf => hf, fun f hf => Or.inl hf, fun i => Or.inl rfl⟩
  | face :: rest, q, kept, q1, kept1, h => by
    rw [reindexFaces] at h
    obtain ⟨f, e1, h⟩ := bind_ok_inv h
    have ef : q.faceStore[face]? = some f := by
      unfold Hull.face load at e1
      cases e0 : q.faceStore[face]? with
      | none => simp [e0] at e1
      | some y => simp only [e0, Except.ok.injEq] at e1; rw [e1]
    by_cases hv : f.mark ≠ VISIBLE
    · rw [if_pos hv] at h
      exact reindexFaces_spec fuel rest q kept q1 kept1 h
    · rw [if_neg hv] at h
      have hvis : f.mark = VISIBLE := not_not.mp hv
      obtain ⟨qm, e2, h⟩ := bind_ok_inv h
      unfold markFaceVertices at e2
      obtain ⟨f2, e3, e2⟩ := bind_ok_inv e2
      rw [e1] at e3
      cases e3
      obtain ⟨m1, m2⟩ := markLoop_spec f.edge 0 fuel q f.edge qm e2
      have hm : SameMesh q { qm with numFaces := qm.numFaces + 1 } := m1
      obtain ⟨r1, r2, r3, r4⟩ := reindexFaces_spec fuel rest _ (kept ++ [face]) q1 kept1 h
      have hface : face ∈ kept1 := r2 face (by simp)
      refine ⟨SameMesh_trans hm r1, fun g hg => r2 g (List.mem_append_left _ hg), ?_, ?_⟩
      · intro g hg
        rcases r3 g hg with hk | ⟨gf, eg, hgv⟩
        · rcases List.mem_append.mp hk with hk | hk
          · exact Or.inl hk
          · rw [List.mem_singleton] at hk
            subst hk
            exact Or.inr ⟨f, ef, hvis⟩
        · exact Or.inr ⟨gf, by rw [← hm.2.1]; exact eg, hgv⟩
      · intro i
        rcases r4 i with r | ⟨g, hg, gf, eg, hgv, k, e, w, hh⟩
        · rcases m2 i with r0 | ⟨k, e, w, hh⟩
          · exact Or.inl (r.trans r0)
          · exact Or.inr ⟨face, hface, f, ef, hvis, k, e, w, hh⟩
        · refine Or.inr ⟨g, hg, gf, by rw [← hm.2.1]; exact eg, hgv, k, e, ?_, ?_⟩
          · rw [← walkNext_congr hm.1]; exact w
          · rw [← Head_congr hm.1]; exact hh

theorem take_set_succ {α : Type} (l : List α) (n : Nat) (a : α) (h : n < l.length) :
    (l.set n a).take (n + 1) = l.take n ++ [a] := by
  induction l generalizing n with
  | nil => simp at h
  | cons x l ih =>
    cases n with
    | zero => simp
    | succ n =>
      simp only [List.set_cons_succ, List.take_succ_cons, List.cons_append, List.cons.injEq,
        true_and]
      exact ih n (by simpa using h)

/-- The vertex loop of `reindexFacesAndVertices` appends, in order, the
positions that carry the mark. -/
theorem reindexVertices_spec :
    ∀ (l : List Nat) (q q1 : Hull K), reindexVertices l q = .ok q1 → l.Nodup →
      q1.edgeStore = q.edgeStore ∧ q1.faceStore = q.faceStore ∧ q1.faces = q.faces ∧
        q1.numPoints = q.numPoints ∧ q1.points.length = q.points.length ∧
        vertexIndices q1 = vertexIndices q ++ l.filter (marked q)
  | [], q, q1, h, _ => by
    rw [reindexVertices] at h
    simp only [pure, Except.pure, Except.ok.injEq] at h
    subst h
    simp
  | i :: rest, q, q1, h, hnd => by
    rw [reindexVertices] at h
    obtain ⟨vtx, e1, h⟩ := bind_ok_inv h
    have ev : q.points[i]? = some vtx := by
      unfold Hull.vertex load at e1
      cases e0 : q.points[i]? with
      | none => simp [e0] at e1
      | some y => simp only [e0, Except.ok.injEq] at e1; rw [e1]
    have hni : i ∉ rest := (List.nodup_cons.mp hnd).1
    have hnr : rest.Nodup := (List.nodup_cons.mp hnd).2
    by_cases h0 : vtx.index = 0
    · rw [if_pos h0] at h
      by_cases hlt : q.numVertices < q.vertexPointIndices.length
      · rw [if_pos hlt] at h
        dsimp only at h
        obtain ⟨r1, r2, r3, r4, r6, r5⟩ := reindexVertices_spec rest _ q1 h hnr
        refine ⟨r1, r2, r3, r4, by rw [r6]; simp [Hull.setVertex], ?_⟩
        rw [r5]
        have hmi : marked q i = true := by simp [marked, ev, h0]
        have hvi : vertexIndices
            ({ ({ q with vertexPointIndices := q.vertexPointIndices.set q.numVertices i } :
                  Hull K).setVertex i { vtx with index := (q.numVertices : Int) } with
                numVertices := q.numVertices + 1 } : Hull K) = vertexIndices q ++ [i] := by
          simp only [vertexIndices, Hull.setVertex]
          exact take_set_succ _ _ _ hlt
        have hfil : rest.filter (marked
            ({ ({ q with vertexPointIndices := q.vertexPointIndices.set q.numVertices i } :
                  Hull K).setVertex i { vtx with index := (q.numVertices : Int) } with
                numVertices := q.numVertices + 1 } : Hull K)) = rest.filter (marked q) := by
          apply List.filter_congr
          intro j hj
          have hji : i ≠ j := fun e => hni (e ▸ hj)
          simp only [marked, Hull.setVertex]
          rw [List.getElem?_set_ne hji]
        simp only [Hull.setVertex] at hvi hfil ⊢
        rw [hvi, hfil, List.filter_cons, if_pos hmi]
        simp
      · rw [if_neg hlt] at h
        exact absurd h (by simp)
    · rw [if_neg h0] at h
      obtain ⟨r1, r2, r3, r4, r6, r5⟩ := reindexVertices_spec rest q q1 h hnr
      refine ⟨r1, r2, r3, r4, r6, ?_⟩
      rw [r5]
      have hmi : marked q i = false := by simp [marked, ev, h0]
      rw [List.filter_cons, hmi]
      simp

/-- After `reindexFacesAndVertices` the vertex indices are strictly increasing
positions of the input, each the head of a half-edge on the loop of a VISIBLE
face of the hull. -/
theorem reindexFacesAndVertices_spec (fuel : Nat) (q q1 : Hull K)
    (h : reindexFacesAndVertices fuel q = .ok q1) :
    (vertexIndices q1).Pairwise (fun a b => a < b) ∧
      ∀ i ∈ vertexIndices q1,
        i < q1.numPoints ∧ i < q1.points.length ∧ OnVisibleFace q1 i := by
  unfold reindexFacesAndVertices at h
  by_cases hlen : q.points.length < q.numPoints
  · simp [hlen, bind, Except.bind] at h
  · simp only [hlen, if_false, bind, Except.bind, pure, Except.pure] at h
    cases ef : reindexFaces fuel q.faces
        { ({ q with points := q.points.map fun (v : Vertex K) => { v with index := -1 } } :
            Hull K) with numFaces := 0 } [] with
    | error err => simp [ef] at h
    | ok r =>
      obtain ⟨qb, kept⟩ := r
      simp only [ef] at h
      obtain ⟨m1, _, m3, m4⟩ := reindexFaces_spec fuel _ _ _ _ _ ef
      obtain ⟨r1, r2, r3, r4, r6, r5⟩ := reindexVertices_spec _ _ q1 h (List.nodup_range _)
      have hidx : vertexIndices q1 = (List.range qb.numPoints).filter
          (marked ({ ({ qb with faces := kept } : Hull K) with numVertices := 0 } : Hull K)) := by
        rw [r5]
        simp [vertexIndices]
      rw [hidx]
      refine ⟨List.Pairwise.filter _ (List.pairwise_lt_range _), ?_⟩
      intro i hi
      rw [List.mem_filter, List.mem_range] at hi
      obtain ⟨hi1, hi2⟩ := hi
      refine ⟨by rw [r4]; exact hi1, ?_, ?_⟩
      · rw [r6]
        simp only [marked] at hi2
        cases e0 : qb.points[i]? with
        | none => simp [e0] at hi2
        | some x => exact Csg.lt_of_lookup e0
      have hmk : ∃ x, qb.points[i]? = some x ∧ x.index = 0 := by
        simp only [marked] at hi2
        cases e0 : qb.points[i]? with
        | none => simp [e0] at hi2
        | some x =>
          simp only [e0, beq_iff_eq] at hi2
          exact ⟨x, rfl, hi2⟩
      obtain ⟨x, ex, hx0⟩ := hmk
      rcases m4 i with hsame | ⟨f, hf, face, efc, hvis, k, e, w, hh⟩
      · exfalso
        rw [ex] at hsame
        simp only [List.getElem?_map] at hsame
        cases e0 : q.points[i]? with
        | none => simp [e0] at hsame
        | some y =>
          simp only [e0, Option.map_some', Option.some.injEq] at hsame
          rw [hsame] at hx0
          simp at hx0
      · refine ⟨f, by rw [r3]; exact hf, face, by rw [r2, m1.2.1]; exact efc, hvis, k, e, ?_, ?_⟩
        · rw [walkNext_congr (r1.trans m1.1)]; exact w
        · rw [Head_congr (r1.trans m1.1)]; exact hh

end Reindex

end Qhull

namespace Qhull

open Csg (Vector Err)

section Fresh

variable {K : Type} [LinearOrderedField K]

/-- An error return of `createInitialSimplex` leaves the hull as it was. -/
theorem createInitialSimplex_error (sqrt : K → K) (fuel : Nat) (q q2 : Hull K) (msg : String)
    (h : createInitialSimplex sqrt fuel q = .ok (q2, some msg)) : q2 = q := by
  unfold createInitialSimplex at h
  simp only [bind, Except.bind, pure, Except.pure] at h
  repeat' split at h
  all_goals first
    | (simp only [Except.ok.injEq, Prod.mk.injEq] at h; exact h.1.symm)
    | exact absurd h (by simp)

theorem computeMinAndMax_numVertices (q qa : Hull K) (h : computeMinAndMax q = .ok qa) :
    qa.numVertices = q.numVertices := by
  unfold computeMinAndMax at h
  obtain ⟨p0, _, h⟩ := bind_ok_inv h
  simp only [pure, Except.pure, Except.ok.injEq] at h
  rw [← h]

/-- What `buildHull` leaves: either an error and the vertex count it found, or
a hull that went through `reindexFacesAndVertices`. -/
theorem buildHull_inv (sqrt : K → K) (fuel : Nat) (q q1 : Hull K) (err : Option String)
    (h : buildHull sqrt fuel q = .ok (q1, err)) :
    (err.isSome = true ∧ q1.numVertices = q.numVertices) ∨
      (err = none ∧ ∃ qc, reindexFacesAndVertices fuel qc = .ok q1) := by
  unfold buildHull at h
  obtain ⟨qa, e1, h⟩ := bind_ok_inv h
  obtain ⟨⟨qb, er⟩, e2, h⟩ := bind_ok_inv h
  dsimp only at h
  by_cases hsome : er.isSome = true
  · rw [if_pos hsome] at h
    simp only [pure, Except.pure, Except.ok.injEq, Prod.mk.injEq] at h
    obtain ⟨rfl, rfl⟩ := h
    obtain ⟨msg, rfl⟩ := Option.isSome_iff_exists.mp hsome
    left
    rw [createInitialSimplex_error sqrt fuel qa qb msg e2]
    exact ⟨rfl, computeMinAndMax_numVertices q qa e1⟩
  · rw [if_neg hsome] at h
    obtain ⟨_, _, h⟩ := bind_ok_inv h
    obtain ⟨qc, e3, h⟩ := bind_ok_inv h
    obtain ⟨qd, e4, h⟩ := bind_ok_inv h
    simp only [pure, Except.pure, Except.ok.injEq, Prod.mk.injEq] at h
    obtain ⟨rfl, rfl⟩ := h
    exact Or.inr ⟨rfl, qc, e4⟩

/-- After `Build` on a fresh hull the vertex indices are strictly increasing
positions of the point array, each the head of a half-edge on the loop of a
VISIBLE face of the hull. -/
theorem Build_fresh_indices (sqrt : K → K) (fuel : Nat) (points : List (Vector K))
    (nump : Int) (q1 : Hull K) (err : Option String)
    (h : Build sqrt fuel Hull.new points nump = .ok (q1, err)) :
    (vertexIndices q1).Pairwise (fun a b => a < b) ∧
      ∀ i ∈ vertexIndices q1,
        i < q1.numPoints ∧ i < q1.points.length ∧ OnVisibleFace q1 i := by
  have hempty : ∀ q : Hull K, q.numVertices = 0 →
      (vertexIndices q).Pairwise (fun a b => a < b) ∧
        ∀ i ∈ vertexIndices q, i < q.numPoints ∧ i < q.points.length ∧ OnVisibleFace q i := by
    intro q hq
    simp [vertexIndices, hq]
  unfold Build at h
  by_cases h4 : nump < 4
  · simp only [h4, if_true, pure, Except.pure, Except.ok.injEq, Prod.mk.injEq] at h
    rw [← h.1]
    exact hempty _ rfl
  · by_cases hl : (points.length : Int) < nump
    · simp only [h4, hl, if_true, if_false, bind, Except.bind, pure, Except.pure,
        Except.ok.injEq, Prod.mk.injEq] at h
      rw [← h.1]
      exact hempty _ rfl
    · simp only [h4, hl, if_false, bind, Except.bind, pure, Except.pure] at h
      cases eb : buildHull sqrt fuel
          (setPoints (initBuffers (Hull.new : Hull K) nump.toNat) points nump.toNat) with
      | error e => simp [eb] at h
      | ok r =>
        obtain ⟨q2, er⟩ := r
        simp only [eb, Except.ok.injEq, Prod.mk.injEq] at h
        obtain ⟨rfl, _⟩ := h
        rcases buildHull_inv sqrt fuel _ q2 er eb with ⟨_, hv⟩ | ⟨_, qc, hr⟩
        · exact hempty q2 (by rw [hv]; rfl)
        · exact reindexFacesAndVertices_spec fuel qc q2 hr

end Fresh

section VertexClaims

variable {K : Type} [LinearOrderedField K]

/-- C14 holds on a fresh hull and fails on a hull that is used again.  After
`Build` on a fresh hull the entries `vertexPointIndices[0 .. numVertices)` are
strictly increasing positions of the point array, each the head of a half-edge
on the loop of a VISIBLE face of the hull.  But `Build` on the hull left by the
seven test points, called with seven coincident points, returns nil (the error
of `buildHull` is dropped) with the vertex count 4 of the first run and a new
index buffer of zeros: `Vertices()` is four times the first input point and no
face is left. -/
theorem Vertices_indices (sqrt : K → K) (fuel : Nat) (points : List (Vector K))
    (nump : Int) (q1 : Hull K) :
    (Build sqrt fuel Hull.new points nump = .ok (q1, none) →
      (vertexIndices q1).Pairwise (fun a b => a < b) ∧
        ∀ i ∈ vertexIndices q1,
          i < q1.numPoints ∧ i < q1.points.length ∧ OnVisibleFace q1 i) ∧
    ∃ q2, buildTwice = .ok (q2, none) ∧ vertexIndices q2 = [0, 0, 0, 0] ∧ q2.faces = [] ∧
      Vertices q2 = .ok [⟨1, 1, 1⟩, ⟨1, 1, 1⟩, ⟨1, 1, 1⟩, ⟨1, 1, 1⟩] := by
  refine ⟨fun h => Build_fresh_indices sqrt fuel points nump q1 none h, ?_⟩
  have hb : (match buildTwice with
      | .ok (q2, none) =>
        decide (vertexIndices q2 = [0, 0, 0, 0]) && decide (q2.faces = []) &&
          decide (Vertices q2 = .ok [⟨1, 1, 1⟩, ⟨1, 1, 1⟩, ⟨1, 1, 1⟩, ⟨1, 1, 1⟩])
      | _ => false) = true := by decide!
  split at hb
  · next q2 e =>
    simp only [Bool.and_eq_true, decide_eq_true_eq] at hb
    exact ⟨q2, e, hb.1.1, hb.1.2, hb.2⟩
  · exact absurd hb (by simp)

end VertexClaims

end Qhull
namespace Qhull

open Csg (Vector Err)

section Simplex

variable {K : Type} [LinearOrderedField K]

theorem load_ok {α : Type} {l : List α} {i : Nat} {x : α} (h : load l i = .ok x) :
    l[i]? = some x := by
  unfold load at h
  cases e : l[i]? with
  | none => simp [e] at h
  | some y => simp only [e, Except.ok.injEq] at h; rw [h]

theorem load_of_lookup {α : Type} {l : List α} {i : Nat} {x : α} (h : l[i]? = some x) :
    load l i = .ok x := by
  unfold load
  rw [h]

theorem deref_ok {p : Option Nat} {i : Nat} (h : deref p = .ok i) : p = some i := by
  cases p with
  | none => simp [deref] at h
  | some j => simp only [deref, Except.ok.injEq] at h; rw [h]

theorem lookup_append_at {α : Type} (l : List α) (a b c : α) :
    (l ++ [a, b, c])[l.length]? = some a ∧ (l ++ [a, b, c])[l.length + 1]? = some b ∧
      (l ++ [a, b, c])[l.length + 2]? = some c := by
  refine ⟨?_, ?_, ?_⟩
  · have := Csg.getElem?_append_at l [a, b, c] 0
    simpa using this
  · have := Csg.getElem?_append_at l [a, b, c] 1
    simpa using this
  · have := Csg.getElem?_append_at l [a, b, c] 2
    simpa using this

theorem set_append_length {α : Type} (l : List α) (a b : α) :
    (l ++ [a]).set l.length b = l ++ [b] := by
  induction l with
  | nil => rfl
  | cons x l ih => simp [ih]

/-- The count of `updateVertexCount` on a triangle is three. -/
theorem countLoop_triangle (q : Hull K) (e0 e2 : Nat) (hne : e2 ≠ e0)
    (h2 : nextOf q e2 = .ok e0) (fuel n r : Nat)
    (h : countLoop q e0 fuel e2 n = .ok r) : r = n + 1 := by
  cases fuel with
  | zero => rw [countLoop] at h; exact absurd h (by simp)
  | succ f =>
    rw [countLoop, if_neg hne] at h
    obtain ⟨nx, e1, h⟩ := bind_ok_inv h
    rw [h2] at e1
    cases e1
    cases f with
    | zero => rw [countLoop] at h; exact absurd h (by simp)
    | succ g =>
      rw [countLoop, if_pos rfl] at h
      simp only [pure, Except.pure, Except.ok.injEq] at h
      exact h.symm

/-- A new triangle: three half-edges and one face at the ends of the stores,
everything else as it was. -/
theorem NewFaceFromTriangle_spec (sqrt : K → K) (fuel : Nat) (q : Hull K) (v0 v1 v2 : Nat)
    (q1 : Hull K) (f : Nat) (h : NewFaceFromTriangle sqrt fuel q v0 v1 v2 = .ok (q1, f)) :
    f = q.faceStore.length ∧ ∃ face : Face K,
      face.edge = q.edgeStore.length ∧ face.numVerts = 3 ∧ face.mark = VISIBLE ∧
      q1 = { q with
        edgeStore := q.edgeStore ++
          [⟨v0, q.faceStore.length, some (q.edgeStore.length + 1),
              some (q.edgeStore.length + 2), none⟩,
            ⟨v1, q.faceStore.length, some (q.edgeStore.length + 2),
              some q.edgeStore.length, none⟩,
            ⟨v2, q.faceStore.length, some q.edgeStore.length,
              some (q.edgeStore.length + 1), none⟩],
        faceStore := q.faceStore ++ [face] } := by
  unfold NewFaceFromTriangle at h
  obtain ⟨x0, _, h⟩ := bind_ok_inv h
  obtain ⟨x1, _, h⟩ := bind_ok_inv h
  obtain ⟨x2, _, h⟩ := bind_ok_inv h
  dsimp only at h
  obtain ⟨qu, hu, h⟩ := bind_ok_inv h
  simp only [pure, Except.pure, Except.ok.injEq, Prod.mk.injEq] at h
  obtain ⟨rfl, rfl⟩ := h
  refine ⟨rfl, ?_⟩
  obtain ⟨ea, eb, ec⟩ := lookup_append_at q.edgeStore
    (⟨v0, q.faceStore.length, some (q.edgeStore.length + 1),
      some (q.edgeStore.length + 2), none⟩ : HalfEdge)
    ⟨v1, q.faceStore.length, some (q.edgeStore.length + 2), some q.edgeStore.length, none⟩
    ⟨v2, q.faceStore.length, some q.edgeStore.length, some (q.edgeStore.length + 1), none⟩
  unfold Face.update at hu
  obtain ⟨qv, hv, hc⟩ := bind_ok_inv hu
  -- the vertex count
  unfold updateVertexCount at hv
  obtain ⟨fc, e1, hv⟩ := bind_ok_inv hv
  have efc := load_ok e1
  simp only [List.getElem?_concat_length, Option.some.injEq] at efc
  subst efc
  obtain ⟨he1, e2, hv⟩ := bind_ok_inv hv
  obtain ⟨he2, e3, hv⟩ := bind_ok_inv hv
  obtain ⟨n, e4, hv⟩ := bind_ok_inv hv
  simp only [pure, Except.pure, Except.ok.injEq] at hv
  have k1 : he1 = q.edgeStore.length + 1 := by
    unfold nextOf Hull.halfEdge at e2
    simp only [load_of_lookup ea, bind, Except.bind, deref, Except.ok.injEq] at e2
    exact e2.symm
  subst k1
  have k2 : he2 = q.edgeStore.length + 2 := by
    unfold nextOf Hull.halfEdge at e3
    simp only [load_of_lookup eb, bind, Except.bind, deref, Except.ok.injEq] at e3
    exact e3.symm
  subst k2
  have k3 : n = 3 := by
    refine countLoop_triangle _ q.edgeStore.length (q.edgeStore.length + 2) (by omega) ?_
      fuel 2 n e4
    unfold nextOf Hull.halfEdge
    simp only [load_of_lookup ec, bind, Except.bind, deref]
  subst k3
  subst hv
  -- the centroid
  unfold updateCentroid at hc
  obtain ⟨fc2, e5, hc⟩ := bind_ok_inv hc
  have efc2 := load_ok e5
  simp only [Hull.setFace, set_append_length, List.getElem?_concat_length,
    Option.some.injEq] at efc2
  subst efc2
  obtain ⟨sv, _, hc⟩ := bind_ok_inv hc
  simp only [pure, Except.pure, Except.ok.injEq] at hc
  subst hc
  refine ⟨⟨(Csg.NewPlaneFromPoints sqrt x0.point x1.point x2.point).Normal,
      (Csg.NewPlaneFromPoints sqrt x0.point x1.point x2.point).W,
      q.edgeStore.length, 0, 0, 3,
      ⟨1 / ((3 : Nat) : K) * sv.X, 1 / ((3 : Nat) : K) * sv.Y, 1 / ((3 : Nat) : K) * sv.Z⟩,
      none, VISIBLE, none⟩, rfl, rfl, rfl, ?_⟩
  simp only [Hull.setFace, set_append_length]

theorem set_map_same {α β : Type} (f : α → β) (l : List α) (i : Nat) (x y : α)
    (hx : l[i]? = some x) (hy : f y = f x) : (l.set i y).map f = l.map f := by
  apply List.ext_getElem?
  intro k
  by_cases hk : i = k
  · subst hk
    have hlt : i < l.length := Csg.lt_of_lookup hx
    rw [List.getElem?_map, List.getElem?_map, List.getElem?_set_self hlt, hx]
    simp [hy]
  · rw [List.getElem?_map, List.getElem?_map, List.getElem?_set_ne hk]

theorem Relinked_refl (q : Hull K) : Relinked q q := ⟨q.edgeStore, rfl, rfl⟩

theorem Relinked_trans {q q1 q2 : Hull K} (a : Relinked q q1) (b : Relinked q1 q2) :
    Relinked q q2 := by
  obtain ⟨E1, rfl, h1⟩ := a
  obtain ⟨E2, rfl, h2⟩ := b
  exact ⟨E2, rfl, h2.trans h1⟩

theorem SetOpposite_spec (q : Hull K) (h : Nat) (e : Option Nat) (q1 : Hull K)
    (hq : SetOpposite q h e = .ok q1) : Relinked q q1 := by
  unfold SetOpposite at hq
  obtain ⟨he, e1, hq⟩ := bind_ok_inv hq
  dsimp only at hq
  obtain ⟨ei, _, hq⟩ := bind_ok_inv hq
  obtain ⟨ee, e3, hq⟩ := bind_ok_inv hq
  simp only [pure, Except.pure, Except.ok.injEq] at hq
  subst hq
  have k1 := load_ok e1
  have k3 := load_ok e3
  simp only [Hull.setHalfEdge] at k3
  refine ⟨(q.edgeStore.set h { he with opposite := e }).set ei { ee with opposite := some h },
    rfl, ?_⟩
  exact (set_map_same HalfEdge.loop _ ei ee { ee with opposite := some h } k3 rfl).trans
    (set_map_same HalfEdge.loop _ h he { he with opposite := e } k1 rfl)

theorem linkEdges_spec (q : Hull K) (a : Nat) (i : Int) (b : Nat) (j : Int) (q1 : Hull K)
    (hq : linkEdges q a i b j = .ok q1) : Relinked q q1 := by
  unfold linkEdges at hq
  obtain ⟨e1, _, hq⟩ := bind_ok_inv hq
  obtain ⟨e2, _, hq⟩ := bind_ok_inv hq
  exact SetOpposite_spec q e1 (some e2) q1 hq

theorem SameGeometry_refl (q : Hull K) : SameGeometry q q := ⟨rfl, rfl, rfl, rfl, rfl⟩

theorem SameGeometry_trans {q q1 q2 : Hull K} (a : SameGeometry q q1)
    (b : SameGeometry q1 q2) : SameGeometry q q2 := by
  obtain ⟨a1, a2, a3, a4, a5⟩ := a
  obtain ⟨b1, b2, b3, b4, b5⟩ := b
  exact ⟨b1.trans a1, b2.trans a2, b3.trans a3, b4.trans a4, b5.trans a5⟩

/-- Writing back a vertex read at the same place, with the same position. -/
theorem SameGeometry_setVertex (q : Hull K) (v : Nat) (x y : Vertex K)
    (hx : q.vertex v = .ok x) (hy : y.point = x.point) : SameGeometry q (q.setVertex v y) :=
  ⟨rfl, rfl, rfl, set_map_same (fun x => x.point) _ v x y (load_ok hx) hy, rfl⟩

/-- Writing back a face read at the same place, with the same plane. -/
theorem SameGeometry_setFace (q : Hull K) (f : Nat) (x y : Face K)
    (hx : q.face f = .ok x) (hn : y.Normal = x.Normal) (hw : y.W = x.W) :
    SameGeometry q (q.setFace f y) :=
  ⟨rfl, rfl, rfl, rfl, set_map_same (fun f => (f.Normal, f.W)) _ f x y (load_ok hx)
    (by simp only [hn, hw])⟩

theorem VertexList_Add_spec (q : Hull K) (v : VertexList) (vtx : Nat) (q1 : Hull K)
    (v1 : VertexList) (h : VertexList.Add q v vtx = .ok (q1, v1)) : SameGeometry q q1 := by
  unfold VertexList.Add at h
  obtain ⟨⟨qa, va⟩, e1, h⟩ := bind_ok_inv h
  dsimp only at h
  obtain ⟨x, e2, h⟩ := bind_ok_inv h
  simp only [pure, Except.pure, Except.ok.injEq, Prod.mk.injEq] at h
  obtain ⟨rfl, _⟩ := h
  have ha : SameGeometry q qa := by
    cases hh : v.head with
    | none =>
      simp only [hh, pure, Except.pure, Except.ok.injEq, Prod.mk.injEq] at e1
      rw [← e1.1]
      exact SameGeometry_refl q
    | some w =>
      simp only [hh] at e1
      obtain ⟨t, _, e1⟩ := bind_ok_inv e1
      obtain ⟨tv, e4, e1⟩ := bind_ok_inv e1
      simp only [pure, Except.pure, Except.ok.injEq, Prod.mk.injEq] at e1
      rw [← e1.1]
      exact SameGeometry_setVertex q t tv { tv with next := some vtx } e4 rfl
  exact SameGeometry_trans ha
    (SameGeometry_setVertex qa vtx x { x with prev := va.tail, next := none } e2 rfl)

theorem VertexList_InsertBefore_spec (q : Hull K) (v : VertexList) (vtx next : Nat)
    (q1 : Hull K) (v1 : VertexList) (h : VertexList.InsertBefore q v vtx next = .ok (q1, v1)) :
    SameGeometry q q1 := by
  unfold VertexList.InsertBefore at h
  obtain ⟨nx, _, h⟩ := bind_ok_inv h
  obtain ⟨x, e2, h⟩ := bind_ok_inv h
  dsimp only at h
  obtain ⟨⟨qa, va⟩, e3, h⟩ := bind_ok_inv h
  dsimp only at h
  obtain ⟨x2, e4, h⟩ := bind_ok_inv h
  obtain ⟨nx2, e5, h⟩ := bind_ok_inv h
  simp only [pure, Except.pure, Except.ok.injEq, Prod.mk.injEq] at h
  obtain ⟨rfl, _⟩ := h
  have h1 := SameGeometry_setVertex q vtx x { x with prev := nx.prev } e2 rfl
  have ha : SameGeometry (q.setVertex vtx { x with prev := nx.prev }) qa := by
    cases hh : nx.prev with
    | none =>
      simp only [hh, pure, Except.pure, Except.ok.injEq, Prod.mk.injEq] at e3
      rw [← e3.1]
      exact SameGeometry_refl _
    | some w =>
      simp only [hh] at e3
      obtain ⟨pv, e6, e3⟩ := bind_ok_inv e3
      simp only [pure, Except.pure, Except.ok.injEq, Prod.mk.injEq] at e3
      rw [← e3.1]
      exact SameGeometry_setVertex _ w pv { pv with next := some vtx } e6 rfl
  exact SameGeometry_trans h1 (SameGeometry_trans ha
    (SameGeometry_trans (SameGeometry_setVertex qa vtx x2 { x2 with next := some next } e4 rfl)
      (SameGeometry_setVertex _ next nx2 { nx2 with prev := some vtx } e5 rfl)))

theorem addPointToFace_spec (q : Hull K) (vtx face : Nat) (q1 : Hull K)
    (h : addPointToFace q vtx face = .ok q1) : SameGeometry q q1 := by
  unfold addPointToFace at h
  obtain ⟨x, e1, h⟩ := bind_ok_inv h
  dsimp only at h
  obtain ⟨f, _, h⟩ := bind_ok_inv h
  obtain ⟨⟨qa, cl⟩, e3, h⟩ := bind_ok_inv h
  dsimp only at h
  obtain ⟨f2, e4, h⟩ := bind_ok_inv h
  simp only [pure, Except.pure, Except.ok.injEq] at h
  subst h
  have h1 := SameGeometry_setVertex q vtx x { x with face := some face } e1 rfl
  have ha : SameGeometry (q.setVertex vtx { x with face := some face }) qa := by
    cases hh : f.outside with
    | none =>
      simp only [hh] at e3
      exact VertexList_Add_spec _ _ _ _ _ e3
    | some o =>
      simp only [hh] at e3
      exact VertexList_InsertBefore_spec _ _ _ _ _ _ e3
  have hb : SameGeometry qa ({ qa with claimed := cl } : Hull K) := ⟨rfl, rfl, rfl, rfl, rfl⟩
  exact SameGeometry_trans h1 (SameGeometry_trans ha (SameGeometry_trans hb
    (SameGeometry_setFace _ face f2 { f2 with outside := some vtx } e4 rfl rfl)))

end Simplex

end Qhull
namespace Qhull

open Csg (Vector Err)

section Simplex2

variable {K : Type} [LinearOrderedField K]

/-- The face chosen by the inner loop of `claimPoints` is one of `tris` and the
point is more than the tolerance above it. -/
theorem maxFace_spec (q : Hull K) (x : Vertex K) (tris : List Nat) (d : K) (t : Nat)
    (h : tris.foldl
        (fun acc t => do
          let (maxDist, maxFace) ← acc
          let f ← q.face t
          let dist := f.DistanceToPlane x.point
          if dist > maxDist then pure (dist, some t) else pure (maxDist, maxFace))
        (pure (q.tolerance, none) : Except Err (K × Option Nat)) = .ok (d, some t)) :
    t ∈ tris ∧ ∃ face, q.faceStore[t]? = some face ∧
      q.tolerance < face.DistanceToPlane x.point := by
  have key := foldl_invariant
    (fun (acc : Except Err (K × Option Nat)) => ∀ d mf, acc = .ok (d, mf) →
      q.tolerance ≤ d ∧ ∀ t, mf = some t → t ∈ tris ∧ ∃ face, q.faceStore[t]? = some face ∧
        q.tolerance < face.DistanceToPlane x.point)
    (fun acc t => do
          let (maxDist, maxFace) ← acc
          let f ← q.face t
          let dist := f.DistanceToPlane x.point
          if dist > maxDist then pure (dist, some t) else pure (maxDist, maxFace))
    tris (pure (q.tolerance, none))
    (by
      intro d mf e
      simp only [pure, Except.pure, Except.ok.injEq, Prod.mk.injEq] at e
      obtain ⟨rfl, rfl⟩ := e
      exact ⟨le_refl _, fun t ht => absurd ht (by simp)⟩)
    (by
      intro acc t ht hacc d mf e
      obtain ⟨⟨md, mf0⟩, e1, e⟩ := bind_ok_inv e
      dsimp only at e
      obtain ⟨f, e2, e⟩ := bind_ok_inv e
      obtain ⟨k1, k2⟩ := hacc md mf0 e1
      by_cases hc : f.DistanceToPlane x.point > md
      · rw [if_pos hc] at e
        simp only [pure, Except.pure, Except.ok.injEq, Prod.mk.injEq] at e
        obtain ⟨rfl, rfl⟩ := e
        refine ⟨le_of_lt (lt_of_le_of_lt k1 hc), ?_⟩
        intro t1 ht1
        simp only [Option.some.injEq] at ht1
        subst ht1
        exact ⟨ht, f, load_ok e2, lt_of_le_of_lt k1 hc⟩
      · rw [if_neg hc] at e
        simp only [pure, Except.pure, Except.ok.injEq, Prod.mk.injEq] at e
        obtain ⟨rfl, rfl⟩ := e
        exact ⟨k1, k2⟩)
  exact (key d (some t) h).2 t rfl

/-- The loop `claimPoints` changes neither the mesh nor a position nor a
plane. -/
theorem claimPoints_frame (tris : List Nat) (v0 v1 v2 v3 : Nat) :
    ∀ (l : List Nat) (q q1 : Hull K), claimPoints tris v0 v1 v2 v3 l q = .ok q1 →
      SameGeometry q q1
  | [], q, q1, h => by
    rw [claimPoints] at h
    simp only [pure, Except.pure, Except.ok.injEq] at h
    subst h
    exact SameGeometry_refl q
  | v :: rest, q, q1, h => by
    rw [claimPoints] at h
    by_cases hv : v = v0 ∨ v = v1 ∨ v = v2 ∨ v = v3
    · rw [if_pos hv] at h
      exact claimPoints_frame tris v0 v1 v2 v3 rest q q1 h
    · rw [if_neg hv] at h
      obtain ⟨x, e1, h⟩ := bind_ok_inv h
      obtain ⟨⟨d, mf⟩, e2, h⟩ := bind_ok_inv h
      dsimp only at h
      cases mf with
      | none => exact claimPoints_frame tris v0 v1 v2 v3 rest q q1 h
      | some f =>
        dsimp only at h
        obtain ⟨qa, e3, h⟩ := bind_ok_inv h
        exact SameGeometry_trans (addPointToFace_spec q v f qa e3)
          (claimPoints_frame tris v0 v1 v2 v3 rest qa q1 h)

/-- A point that `claimPoints` hands to a face is more than the tolerance
above that face; when there is no such point the hull is left as it is. -/
theorem claimPoints_noop (tris : List Nat) (v0 v1 v2 v3 : Nat) :
    ∀ (l : List Nat) (q q1 : Hull K), claimPoints tris v0 v1 v2 v3 l q = .ok q1 →
      (∀ v ∈ l, ¬(v = v0 ∨ v = v1 ∨ v = v2 ∨ v = v3) → ∀ x, q1.points[v]? = some x →
        ∀ t ∈ tris, ∀ face, q1.faceStore[t]? = some face →
          face.DistanceToPlane x.point ≤ q1.tolerance) →
      q1 = q
  | [], q, q1, h, _ => by
    rw [claimPoints] at h
    simp only [pure, Except.pure, Except.ok.injEq] at h
    exact h.symm
  | v :: rest, q, q1, h, hno => by
    rw [claimPoints] at h
    by_cases hv : v = v0 ∨ v = v1 ∨ v = v2 ∨ v = v3
    · rw [if_pos hv] at h
      exact claimPoints_noop tris v0 v1 v2 v3 rest q q1 h
        (fun w hw => hno w (List.mem_cons_of_mem _ hw))
    · rw [if_neg hv] at h
      obtain ⟨x, e1, h⟩ := bind_ok_inv h
      obtain ⟨⟨d, mf⟩, e2, h⟩ := bind_ok_inv h
      dsimp only at h
      cases mf with
      | none =>
        exact claimPoints_noop tris v0 v1 v2 v3 rest q q1 h
          (fun w hw => hno w (List.mem_cons_of_mem _ hw))
      | some f =>
        exfalso
        dsimp only at h
        obtain ⟨qa, e3, h⟩ := bind_ok_inv h
        obtain ⟨hf, face, ef, hd⟩ := maxFace_spec q x tris d f e2
        obtain ⟨_, _, g3, g4, g5⟩ := SameGeometry_trans (addPointToFace_spec q v f qa e3)
          (claimPoints_frame tris v0 v1 v2 v3 rest qa q1 h)
        have ex := load_ok e1
        have p1 : (q1.points.map fun x => x.point)[v]? = some x.point := by
          rw [g4, List.getElem?_map, ex]
          rfl
        have p2 : (q1.faceStore.map fun f => (f.Normal, f.W))[f]? =
            some (face.Normal, face.W) := by
          rw [g5, List.getElem?_map, ef]
          rfl
        rw [List.getElem?_map] at p1 p2
        cases ex1 : q1.points[v]? with
        | none => rw [ex1] at p1; exact absurd p1 (by simp)
        | some x1 =>
          cases ef1 : q1.faceStore[f]? with
          | none => rw [ef1] at p2; exact absurd p2 (by simp)
          | some face1 =>
            rw [ex1] at p1
            rw [ef1] at p2
            simp only [Option.map_some', Option.some.injEq, Prod.mk.injEq] at p1 p2
            have := hno v (List.mem_cons_self _ _) hv x1 ex1 f hf face1 ef1
            unfold Face.DistanceToPlane at this hd
            rw [p1, p2.1, p2.2, g3] at this
            exact absurd hd (not_lt.mpr this)

end Simplex2

end Qhull
namespace Qhull

open Csg (Vector Err)

section Simplex3

variable {K : Type} [LinearOrderedField K]

theorem length_eq_of_lookup_none {α : Type} {l1 l2 : List α}
    (h : ∀ i : Nat, l1[i]? = none ↔ l2[i]? = none) : l1.length = l2.length := by
  apply le_antisymm
  · have := (h l2.length).mpr (List.getElem?_eq_none_iff.mpr (le_refl _))
    exact List.getElem?_eq_none_iff.mp this
  · have := (h l1.length).mp (List.getElem?_eq_none_iff.mpr (le_refl _))
    exact List.getElem?_eq_none_iff.mp this

theorem Remarked_lookup {q q1 : Hull K} {S : Nat → Prop} {mark : Int} (h : Remarked q q1 S mark)
    (i : Nat) : q1.points[i]? = none ↔ q.points[i]? = none := by
  obtain ⟨P, n, rfl, hP⟩ := h
  by_cases hs : S i
  · rw [show ({ q with points := P, numFaces := n } : Hull K).points = P from rfl, (hP i).1 hs]
    cases q.points[i]? <;> simp
  · rw [show ({ q with points := P, numFaces := n } : Hull K).points = P from rfl, (hP i).2 hs]

theorem Remarked_length {q q1 : Hull K} {S : Nat → Prop} {mark : Int} (h : Remarked q q1 S mark) :
    q1.points.length = q.points.length :=
  length_eq_of_lookup_none (Remarked_lookup h)

theorem Remarked_edgeStore {q q1 : Hull K} {S : Nat → Prop} {mark : Int}
    (h : Remarked q q1 S mark) : q1.edgeStore = q.edgeStore := by
  obtain ⟨P, n, rfl, _⟩ := h
  rfl

theorem Remarked_faceStore {q q1 : Hull K} {S : Nat → Prop} {mark : Int}
    (h : Remarked q q1 S mark) : q1.faceStore = q.faceStore := by
  obtain ⟨P, n, rfl, _⟩ := h
  rfl

theorem Remarked_congr {q q1 : Hull K} {S T : Nat → Prop} {mark : Int}
    (h : Remarked q q1 S mark) (hst : ∀ i, S i ↔ T i) : Remarked q q1 T mark := by
  obtain ⟨P, n, rfl, hP⟩ := h
  exact ⟨P, n, rfl, fun i => ⟨fun ht => (hP i).1 ((hst i).mpr ht),
    fun ht => (hP i).2 (fun hs => ht ((hst i).mp hs))⟩⟩

theorem Remarked_trans {q q1 q2 : Hull K} {S T : Nat → Prop} {mark : Int}
    (a : Remarked q q1 S mark) (b : Remarked q1 q2 T mark) :
    Remarked q q2 (fun i => S i ∨ T i) mark := by
  obtain ⟨P, n, rfl, hP⟩ := a
  obtain ⟨P2, n2, rfl, hP2⟩ := b
  refine ⟨P2, n2, rfl, fun i => ⟨?_, ?_⟩⟩
  · intro hst
    by_cases ht : T i
    · rw [(hP2 i).1 ht]
      show Option.map _ P[i]? = _
      by_cases hs : S i
      · rw [(hP i).1 hs]
        cases q.points[i]? <;> rfl
      · rw [(hP i).2 hs]
    · rw [(hP2 i).2 ht]
      show P[i]? = _
      have hs : S i := hst.resolve_right ht
      exact (hP i).1 hs
  · intro hst
    have hs : ¬ S i := fun h => hst (Or.inl h)
    have ht : ¬ T i := fun h => hst (Or.inr h)
    rw [(hP2 i).2 ht]
    show P[i]? = _
    exact (hP i).2 hs

theorem Remarked_numFaces (q : Hull K) (n : Nat) (mark : Int) :
    Remarked q { q with numFaces := n } (fun _ => False) mark :=
  ⟨q.points, n, rfl, fun _ => ⟨fun h => absurd h id, fun _ => rfl⟩⟩

theorem Remarked_setVertex (q : Hull K) (a : Nat) (x : Vertex K) (mark : Int)
    (hx : q.points[a]? = some x) :
    Remarked q (q.setVertex a { x with index := mark }) (fun i => i = a) mark := by
  refine ⟨q.points.set a { x with index := mark }, q.numFaces, rfl, fun i => ⟨?_, ?_⟩⟩
  · intro hi
    subst hi
    rw [List.getElem?_set_self (Csg.lt_of_lookup hx), hx]
    rfl
  · intro hi
    rw [List.getElem?_set_ne (fun e => hi e.symm)]

theorem markLoop_step (edge : Nat) (mark : Int) (fuel : Nat) (q : Hull K) (he a nx : Nat)
    (x : Vertex K) (h1 : Head q he = .ok a) (h2 : q.points[a]? = some x)
    (h3 : nextOf q he = .ok nx) :
    markLoop edge mark (fuel + 1) q he =
      if nx = edge then .ok (q.setVertex a { x with index := mark })
      else markLoop edge mark fuel (q.setVertex a { x with index := mark }) nx := by
  have h4 : nextOf (q.setVertex a { x with index := mark }) he = .ok nx := by
    rw [nextOf_congr (show (q.setVertex a { x with index := mark }).edgeStore = q.edgeStore
      from rfl)]
    exact h3
  rw [markLoop]
  simp only [h1, Hull.vertex, load_of_lookup h2, h4, bind, Except.bind, pure, Except.pure]

theorem IsTriangle_congr {q q1 : Hull K} (h : q1.edgeStore = q.edgeStore) {e a b c : Nat}
    (t : IsTriangle q e a b c) : IsTriangle q1 e a b c := by
  obtain ⟨e1, e2, n0, n1, n2, d1, d2, ha, hb, hc⟩ := t
  refine ⟨e1, e2, ?_, ?_, ?_, d1, d2, ?_, ?_, ?_⟩
  · rw [nextOf_congr h]; exact n0
  · rw [nextOf_congr h]; exact n1
  · rw [nextOf_congr h]; exact n2
  · rw [Head_congr h]; exact ha
  · rw [Head_congr h]; exact hb
  · rw [Head_congr h]; exact hc

theorem IsTriangle_unique {q : Hull K} {e a b c a1 b1 c1 : Nat}
    (t : IsTriangle q e a b c) (t1 : IsTriangle q e a1 b1 c1) : a1 = a ∧ b1 = b ∧ c1 = c := by
  obtain ⟨e1, e2, n0, n1, n2, d1, d2, ha, hb, hc⟩ := t
  obtain ⟨f1, f2, m0, m1, m2, _, _, ka, kb, kc⟩ := t1
  rw [n0] at m0
  cases m0
  rw [n1] at m1
  cases m1
  rw [ha] at ka
  rw [hb] at kb
  rw [hc] at kc
  cases ka
  cases kb
  cases kc
  exact ⟨rfl, rfl, rfl⟩

theorem TriFace_congr {q q1 : Hull K} (h : q1.edgeStore = q.edgeStore)
    (hf : q1.faceStore = q.faceStore) {f a b c : Nat} (t : TriFace q f a b c) :
    TriFace q1 f a b c := by
  obtain ⟨face, e, m, n, tr⟩ := t
  exact ⟨face, by rw [hf]; exact e, m, n, IsTriangle_congr h tr⟩

theorem TriFace_unique {q : Hull K} {f a b c a1 b1 c1 : Nat}
    (t : TriFace q f a b c) (t1 : TriFace q f a1 b1 c1) : a1 = a ∧ b1 = b ∧ c1 = c := by
  obtain ⟨face, e, _, _, tr⟩ := t
  obtain ⟨face1, e1, _, _, tr1⟩ := t1
  rw [e] at e1
  cases e1
  exact IsTriangle_unique tr tr1

/-- On a triangle the loop of `markFaceVertices` ends after three rounds and
marks the three corners. -/
theorem markLoop_triangle (q : Hull K) (e0 a b c : Nat) (mark : Int)
    (t : IsTriangle q e0 a b c) (ha : a < q.points.length) (hb : b < q.points.length)
    (hc : c < q.points.length) (fuel : Nat) :
    ∃ q1, markLoop e0 mark (fuel + 3) q e0 = .ok q1 ∧
      Remarked q q1 (fun i => i = a ∨ i = b ∨ i = c) mark := by
  obtain ⟨e1, e2, n0, n1, n2, d1, d2, ka, kb, kc⟩ := t
  obtain ⟨xa, hxa⟩ : ∃ x, q.points[a]? = some x :=
    ⟨q.points[a], List.getElem?_eq_getElem ha⟩
  have r1 := Remarked_setVertex q a xa mark hxa
  have l1 := Remarked_length r1
  have s1 := Remarked_edgeStore r1
  obtain ⟨xb, hxb⟩ : ∃ x, (q.setVertex a { xa with index := mark }).points[b]? = some x :=
    ⟨_, List.getElem?_eq_getElem (by rw [l1]; exact hb)⟩
  have r2 := Remarked_setVertex _ b xb mark hxb
  have l2 := Remarked_length r2
  have s2 := Remarked_edgeStore r2
  obtain ⟨xc, hxc⟩ : ∃ x, ((q.setVertex a { xa with index := mark }).setVertex b
      { xb with index := mark }).points[c]? = some x :=
    ⟨_, List.getElem?_eq_getElem (by rw [l2, l1]; exact hc)⟩
  have r3 := Remarked_setVertex _ c xc mark hxc
  refine ⟨_, ?_, Remarked_congr (Remarked_trans (Remarked_trans r1 r2) r3) ?_⟩
  · rw [markLoop_step e0 mark (fuel + 2) q e0 a e1 xa ka hxa n0, if_neg d1,
      markLoop_step e0 mark (fuel + 1) _ e1 b e2 xb (by rw [Head_congr s1]; exact kb) hxb
        (by rw [nextOf_congr s1]; exact n1), if_neg d2,
      markLoop_step e0 mark fuel _ e2 c e0 xc
        (by rw [Head_congr s2, Head_congr s1]; exact kc) hxc
        (by rw [nextOf_congr s2, nextOf_congr s1]; exact n2), if_pos rfl]
  · intro i
    simp only [or_assoc]

/-- On a list of VISIBLE triangles the face loop of `reindexFacesAndVertices`
keeps every face and marks exactly the corners. -/
theorem reindexFaces_triangles (fuel : Nat) :
    ∀ (fs : List Nat) (q : Hull K) (kept : List Nat),
      (∀ f ∈ fs, ∃ a b c, TriFace q f a b c ∧ a < q.points.length ∧ b < q.points.length ∧
        c < q.points.length) →
      ∃ q1, reindexFaces (fuel + 3) fs q kept = .ok (q1, kept ++ fs) ∧
        Remarked q q1 (CornerOf q fs) 0
  | [], q, kept, _ => by
    refine ⟨q, by rw [reindexFaces]; simp [pure, Except.pure], q.points, q.numFaces, rfl, ?_⟩
    intro i
    refine ⟨fun h => ?_, fun _ => rfl⟩
    obtain ⟨f, hf, _⟩ := h
    exact absurd hf (by simp)
  | f :: rest, q, kept, hfs => by
    obtain ⟨a, b, c, tf, ha, hb, hc⟩ := hfs f (List.mem_cons_self _ _)
    obtain ⟨face, ef, hm, hn, tr⟩ := tf
    obtain ⟨qa, em, ra⟩ := markLoop_triangle q face.edge a b c 0 tr ha hb hc fuel
    have rb := Remarked_numFaces qa (qa.numFaces + 1) 0
    have rab := Remarked_trans ra rb
    have se := Remarked_edgeStore rab
    have sf := Remarked_faceStore rab
    have sl := Remarked_length rab
    obtain ⟨q1, e1, r1⟩ := reindexFaces_triangles fuel rest
      { qa with numFaces := qa.numFaces + 1 } (kept ++ [f]) (by
        intro g hg
        obtain ⟨a1, b1, c1, tg, h1, h2, h3⟩ := hfs g (List.mem_cons_of_mem _ hg)
        exact ⟨a1, b1, c1, TriFace_congr se sf tg, by rw [sl]; exact h1, by rw [sl]; exact h2,
          by rw [sl]; exact h3⟩)
    refine ⟨q1, ?_, Remarked_congr (Remarked_trans rab r1) ?_⟩
    · rw [reindexFaces]
      simp only [Hull.face, load_of_lookup ef, hm, markFaceVertices, em, bind, Except.bind,
        ne_eq, not_true_eq_false, if_false]
      rw [e1]
      simp
    · intro i
      constructor
      · rintro ((h | h) | h)
        · exact ⟨f, List.mem_cons_self _ _, a, b, c, ⟨face, ef, hm, hn, tr⟩, h⟩
        · exact absurd h id
        · obtain ⟨g, hg, a1, b1, c1, tg, hi⟩ := h
          exact ⟨g, List.mem_cons_of_mem _ hg, a1, b1, c1,
            TriFace_congr se.symm sf.symm tg, hi⟩
      · rintro ⟨g, hg, a1, b1, c1, tg, hi⟩
        rcases List.mem_cons.mp hg with rfl | hg
        · obtain ⟨k1, k2, k3⟩ := TriFace_unique ⟨face, ef, hm, hn, tr⟩ tg
          subst k1 k2 k3
          exact Or.inl (Or.inl hi)
        · exact Or.inr ⟨g, hg, a1, b1, c1, TriFace_congr se sf tg, hi⟩

end Simplex3

end Qhull
namespace Qhull

open Csg (Vector Err)

section Simplex4

variable {K : Type} [LinearOrderedField K]

/-- The vertex loop of `reindexFacesAndVertices` runs through when the
buffer `vertexPointIndices` has room: a marked vertex gets the index of the
slot that receives its position, the others are left alone. -/
theorem reindexVertices_total :
    ∀ (l : List Nat) (q : Hull K), l.Nodup → (∀ i ∈ l, i < q.points.length) →
      q.numVertices + (l.filter (marked q)).length ≤ q.vertexPointIndices.length →
      ∃ q1, reindexVertices l q = .ok q1 ∧
        q1.numVertices = q.numVertices + (l.filter (marked q)).length ∧
        q1.vertexPointIndices.length = q.vertexPointIndices.length ∧
        (∀ i, i ∉ l ∨ marked q i = false → q1.points[i]? = q.points[i]?) ∧
        (∀ i ∈ l, marked q i = true → ∃ x x1, ∃ r : Nat, q.points[i]? = some x ∧
          q1.points[i]? = some x1 ∧ x1.point = x.point ∧ x1.index = (r : Int) ∧
          r < q1.numVertices ∧ q1.vertexPointIndices[r]? = some i) ∧
        ∀ r < q.numVertices, q1.vertexPointIndices[r]? = q.vertexPointIndices[r]?
  | [], q, _, _, _ => by
    refine ⟨q, by rw [reindexVertices]; rfl, by simp, rfl, fun _ _ => rfl, ?_, fun _ _ => rfl⟩
    intro i hi
    exact absurd hi (by simp)
  | i :: rest, q, hnd, hlen, hroom => by
    have hni : i ∉ rest := (List.nodup_cons.mp hnd).1
    have hnr : rest.Nodup := (List.nodup_cons.mp hnd).2
    have hi : i < q.points.length := hlen i (List.mem_cons_self _ _)
    obtain ⟨vtx, ev⟩ : ∃ x, q.points[i]? = some x := ⟨_, List.getElem?_eq_getElem hi⟩
    by_cases h0 : vtx.index = 0
    · have hmi : marked q i = true := by simp [marked, ev, h0]
      rw [List.filter_cons, if_pos hmi, List.length_cons] at hroom
      have hlt : q.numVertices < q.vertexPointIndices.length := by omega
      obtain ⟨q2, hq2⟩ : ∃ q2 : Hull K, q2 =
          { ({ q with vertexPointIndices := q.vertexPointIndices.set q.numVertices i } :
              Hull K).setVertex i { vtx with index := (q.numVertices : Int) } with
            numVertices := q.numVertices + 1 } := ⟨_, rfl⟩
      have p1 : q2.points = q.points.set i { vtx with index := (q.numVertices : Int) } := by
        rw [hq2]; rfl
      have p2 : q2.vertexPointIndices = q.vertexPointIndices.set q.numVertices i := by
        rw [hq2]; rfl
      have p3 : q2.numVertices = q.numVertices + 1 := by rw [hq2]
      have step : reindexVertices (i :: rest) q = reindexVertices rest q2 := by
        rw [reindexVertices]
        simp only [Hull.vertex, load_of_lookup ev, bind, Except.bind, if_pos h0, if_pos hlt]
        rw [hq2]
        rfl
      have hfil : rest.filter (marked q2) = rest.filter (marked q) := by
        apply List.filter_congr
        intro j hj
        have hji : i ≠ j := fun e => hni (e ▸ hj)
        simp only [marked, p1]
        rw [List.getElem?_set_ne hji]
      obtain ⟨q1, e1, a1, a2, a3, a4, a5⟩ := reindexVertices_total rest q2 hnr
        (by
          intro j hj
          rw [p1, List.length_set]
          exact hlen j (List.mem_cons_of_mem _ hj))
        (by rw [p3, p2, List.length_set, hfil]; omega)
      refine ⟨q1, by rw [step]; exact e1, ?_, ?_, ?_, ?_, ?_⟩
      · rw [a1, p3, hfil, List.filter_cons, if_pos hmi, List.length_cons]
        omega
      · rw [a2, p2, List.length_set]
      · intro j hj
        have hji : i ≠ j := by
          rintro rfl
          rcases hj with hj | hj
          · exact hj (List.mem_cons_self _ _)
          · rw [hmi] at hj
            exact absurd hj (by simp)
        have hm : marked q2 j = marked q j := by
          simp only [marked, p1]
          rw [List.getElem?_set_ne hji]
        rw [a3 j (by
          rcases hj with hj | hj
          · exact Or.inl (fun h => hj (List.mem_cons_of_mem _ h))
          · exact Or.inr (by rw [hm]; exact hj)), p1, List.getElem?_set_ne hji]
      · intro j hj hmj
        rcases List.mem_cons.mp hj with rfl | hj
        · refine ⟨vtx, { vtx with index := (q.numVertices : Int) }, q.numVertices, ev, ?_, rfl,
            rfl, ?_, ?_⟩
          · rw [a3 j (Or.inl hni), p1, List.getElem?_set_self hi]
          · rw [a1, p3]; omega
          · rw [a5 q.numVertices (by rw [p3]; omega), p2, List.getElem?_set_self hlt]
        · have hji : i ≠ j := fun e => hni (e ▸ hj)
          have hm : marked q2 j = marked q j := by
            simp only [marked, p1]
            rw [List.getElem?_set_ne hji]
          obtain ⟨x, x1, r, b1, b2, b3, b4, b5, b6⟩ := a4 j hj (by rw [hm]; exact hmj)
          rw [p1, List.getElem?_set_ne hji] at b1
          exact ⟨x, x1, r, b1, b2, b3, b4, b5, b6⟩
      · intro r hr
        rw [a5 r (by rw [p3]; omega), p2, List.getElem?_set_ne (by omega)]
    · have hmi : marked q i = false := by simp [marked, ev, h0]
      rw [List.filter_cons, hmi] at hroom
      have step : reindexVertices (i :: rest) q = reindexVertices rest q := by
        rw [reindexVertices]
        simp only [Hull.vertex, load_of_lookup ev, bind, Except.bind, if_neg h0]
      obtain ⟨q1, e1, a1, a2, a3, a4, a5⟩ := reindexVertices_total rest q hnr
        (fun j hj => hlen j (List.mem_cons_of_mem _ hj)) (by simpa using hroom)
      refine ⟨q1, by rw [step]; exact e1, ?_, a2, ?_, ?_, a5⟩
      · rw [a1, List.filter_cons, hmi]
        simp
      · intro j hj
        by_cases hji : j = i
        · subst hji
          exact a3 j (Or.inl hni)
        · rcases hj with hj | hj
          · exact a3 j (Or.inl (fun h => hj (List.mem_cons_of_mem _ h)))
          · exact a3 j (Or.inr hj)
      · intro j hj hmj
        rcases List.mem_cons.mp hj with rfl | hj
        · rw [hmi] at hmj
          exact absurd hmj (by simp)
        · exact a4 j hj hmj

/-- On a triangle the loop of `getFaceIndices` returns the indices of the three
corners. -/
theorem indicesLoop_triangle (q : Hull K) (e0 a b c : Nat) (xa xb xc : Vertex K)
    (t : IsTriangle q e0 a b c) (ha : q.points[a]? = some xa) (hb : q.points[b]? = some xb)
    (hc : q.points[c]? = some xc) (fuel : Nat) :
    indicesLoop q e0 3 (fuel + 3) e0 [] = .ok [xa.index, xb.index, xc.index] := by
  obtain ⟨e1, e2, n0, n1, n2, d1, d2, ka, kb, kc⟩ := t
  rw [indicesLoop]
  simp only [ka, Hull.vertex, load_of_lookup ha, n0, bind, Except.bind, List.length_nil,
    Nat.lt_add_one, Nat.ofNat_pos, if_true, if_neg d1, List.nil_append]
  rw [indicesLoop]
  simp only [kb, Hull.vertex, load_of_lookup hb, n1, bind, Except.bind, List.length_singleton,
    Nat.one_lt_ofNat, if_true, if_neg d2, List.singleton_append]
  rw [indicesLoop]
  simp only [kc, Hull.vertex, load_of_lookup hc, n2, bind, Except.bind, pure, Except.pure]
  simp

theorem mapM_rel {α β : Type} (f : α → Except Err β) (R : α → β → Prop) :
    ∀ l : List α, (∀ a ∈ l, ∃ b, f a = .ok b ∧ R a b) →
      ∃ bs, l.mapM f = .ok bs ∧ List.Forall₂ R l bs
  | [], _ => ⟨[], rfl, List.Forall₂.nil⟩
  | a :: l, h => by
    obtain ⟨b, e, r⟩ := h a (List.mem_cons_self _ _)
    obtain ⟨bs, es, rs⟩ := mapM_rel f R l (fun x hx => h x (List.mem_cons_of_mem _ hx))
    refine ⟨b :: bs, ?_, List.Forall₂.cons r rs⟩
    rw [List.mapM_cons, e, es]
    rfl

end Simplex4

end Qhull
namespace Qhull

open Csg (Vector Err)

section Simplex5

variable {K : Type} [LinearOrderedField K]

/-- Four triangles made one after the other on empty stores. -/
theorem simplexFaces_spec (sqrt : K → K) (fuel : Nat) (q : Hull K) (hE : q.edgeStore = [])
    (hF : q.faceStore = []) (t0 t1 t2 t3 : Nat × Nat × Nat) (q1 q2 q3 q4 : Hull K)
    (i0 i1 i2 i3 : Nat)
    (h0 : NewFaceFromTriangle sqrt fuel q t0.1 t0.2.1 t0.2.2 = .ok (q1, i0))
    (h1 : NewFaceFromTriangle sqrt fuel q1 t1.1 t1.2.1 t1.2.2 = .ok (q2, i1))
    (h2 : NewFaceFromTriangle sqrt fuel q2 t2.1 t2.2.1 t2.2.2 = .ok (q3, i2))
    (h3 : NewFaceFromTriangle sqrt fuel q3 t3.1 t3.2.1 t3.2.2 = .ok (q4, i3)) :
    [i0, i1, i2, i3] = [0, 1, 2, 3] ∧ ∃ (E : List HalfEdge) (f0 f1 f2 f3 : Face K),
      q4 = { q with edgeStore := E, faceStore := [f0, f1, f2, f3] } ∧
      E.map HalfEdge.loop = simplexEdges t0 t1 t2 t3 ∧
      (f0.edge = 0 ∧ f1.edge = 3 ∧ f2.edge = 6 ∧ f3.edge = 9) ∧
      ∀ f ∈ [f0, f1, f2, f3], f.numVerts = 3 ∧ f.mark = VISIBLE := by
  obtain ⟨rfl, f0, a0, b0, c0, rfl⟩ := NewFaceFromTriangle_spec sqrt fuel q _ _ _ q1 i0 h0
  obtain ⟨rfl, f1, a1, b1, c1, rfl⟩ := NewFaceFromTriangle_spec sqrt fuel _ _ _ _ q2 i1 h1
  obtain ⟨rfl, f2, a2, b2, c2, rfl⟩ := NewFaceFromTriangle_spec sqrt fuel _ _ _ _ q3 i2 h2
  obtain ⟨rfl, f3, a3, b3, c3, rfl⟩ := NewFaceFromTriangle_spec sqrt fuel _ _ _ _ q4 i3 h3
  simp only [hE, hF, List.nil_append, List.length_nil, List.length_cons, List.length_append,
    List.cons_append, Nat.zero_add, Nat.reduceAdd] at a0 a1 a2 a3 ⊢
  refine ⟨trivial, _, f0, f1, f2, f3, rfl, ?_, ⟨a0, a1, a2, a3⟩, ?_⟩
  · simp [HalfEdge.loop, simplexEdges]
  · intro f hf
    simp only [List.mem_cons, List.mem_singleton, List.not_mem_nil, or_false] at hf
    rcases hf with rfl | rfl | rfl | rfl
    · exact ⟨b0, c0⟩
    · exact ⟨b1, c1⟩
    · exact ⟨b2, c2⟩
    · exact ⟨b3, c3⟩

theorem foldl_Relinked {α : Type} (f : Except Err (Hull K) → α → Except Err (Hull K))
    (hf : ∀ acc a q1, f acc a = .ok q1 → ∃ q0, acc = .ok q0 ∧ Relinked q0 q1)
    (l : List α) (q q1 : Hull K) (h : l.foldl f (pure q) = .ok q1) : Relinked q q1 := by
  have key := foldl_invariant (fun (acc : Except Err (Hull K)) => ∀ q1, acc = .ok q1 →
    Relinked q q1) f l (pure q)
    (by
      intro q1 e
      simp only [pure, Except.pure, Except.ok.injEq] at e
      subst e
      exact Relinked_refl q)
    (by
      intro acc a _ hacc q1 e
      obtain ⟨q0, e0, r⟩ := hf acc a q1 e
      exact Relinked_trans (hacc q0 e0) r)
  exact key q1 h

end Simplex5

end Qhull
namespace Qhull

open Csg (Vector Err)

section Simplex6

variable {K : Type} [LinearOrderedField K]

/-- A run of `createInitialSimplex` that reports no error has made the simplex
on four distinct vertices and then handed out the remaining points. -/
theorem createInitialSimplex_inv (sqrt : K → K) (fuel : Nat) (q qb : Hull K) (s : MinMax K)
    (hmax : q.maxVertex = s.maxVertex) (hmin : q.minVertex = s.minVertex)
    (hs : s.OK q.points)
    (htol : q.tolerance = 3 * DOUBLE_PREC *
      (max |s.max.X| |s.min.X| + max |s.max.Y| |s.min.Y| + max |s.max.Z| |s.min.Z|))
    (hE : q.edgeStore = []) (hF : q.faceStore = []) (hfc : q.faces = [])
    (h : createInitialSimplex sqrt fuel q = .ok (qb, none)) :
    ∃ v0 v1 v2 v3 qs, IsSimplex q qs v0 v1 v2 v3 ∧
      claimPoints [0, 1, 2, 3] v0 v1 v2 v3 (List.range q.points.length) qs = .ok qb := by
  obtain ⟨m1, im1, a, b, xa, xb, hw1, ea, eb, exa, exb, _, hmd⟩ :=
    widestAxis_spec q s hmax hmin hs htol
  have htn : 0 ≤ q.tolerance := by rw [htol]; exact tolerance_nonneg _ _ _ _ _ _
  unfold createInitialSimplex at h
  obtain ⟨⟨m, im⟩, hw, h⟩ := bind_ok_inv h
  rw [hw1] at hw
  simp only [Except.ok.injEq, Prod.mk.injEq] at hw
  obtain ⟨rfl, rfl⟩ := hw
  dsimp only at h
  by_cases hm : m1 ≤ q.tolerance
  · rw [if_pos hm] at h
    simp [pure, Except.pure] at h
  · rw [if_neg hm] at h
    obtain ⟨_, _, h⟩ := bind_ok_inv h
    obtain ⟨v0, e0, h⟩ := bind_ok_inv h
    obtain ⟨v1, e1, h⟩ := bind_ok_inv h
    obtain ⟨x0, ex0, h⟩ := bind_ok_inv h
    obtain ⟨x1, ex1, h⟩ := bind_ok_inv h
    cases hfl : farthestFromLine q (Normalize sqrt (x1.point.Minus x0.point)) v0 v1 x0.point with
    | mk maxSqr r =>
    obtain ⟨vtx2, normal⟩ := r
    rw [hfl] at h
    dsimp only at h
    by_cases hc : sqrt maxSqr < 100 * q.tolerance
    · rw [if_pos hc] at h
      simp [pure, Except.pure] at h
    · rw [if_neg hc] at h
      obtain ⟨_, _, h⟩ := bind_ok_inv h
      obtain ⟨nrm, en, h⟩ := bind_ok_inv h
      obtain ⟨v2, e2, h⟩ := bind_ok_inv h
      obtain ⟨x2, ex2, h⟩ := bind_ok_inv h
      cases hfp : farthestFromPlane q nrm (x2.point.Dot nrm) v0 v1 v2 with
      | mk maxDist vtx3 =>
      rw [hfp] at h
      dsimp only at h
      by_cases hp : sqrt maxDist < 100 * q.tolerance
      · rw [if_pos hp] at h
        simp [pure, Except.pure] at h
      · rw [if_neg hp] at h
        obtain ⟨_, _, h⟩ := bind_ok_inv h
        obtain ⟨v3, e3, h⟩ := bind_ok_inv h
        obtain ⟨x3, ex3, h⟩ := bind_ok_inv h
        obtain ⟨⟨qs, tris⟩, hs4, h⟩ := bind_ok_inv h
        dsimp only at h
        obtain ⟨qc, hcl, h⟩ := bind_ok_inv h
        simp only [pure, Except.pure, Except.ok.injEq, Prod.mk.injEq, and_true] at h
        subst h
        -- the four vertices
        have k0 := deref_ok e0
        have k1 := deref_ok e1
        have k2 := deref_ok e2
        have k3 := deref_ok e3
        rw [ea] at k0
        rw [eb] at k1
        simp only [Option.some.injEq] at k0 k1
        subst k0 k1
        subst k2 k3
        have d01 : a ≠ b := by
          rintro rfl
          rw [exa] at exb
          simp only [Option.some.injEq] at exb
          subst exb
          apply hm
          rcases hmd with hmd | hmd
          · rw [hmd]; exact htn
          · rw [hmd, sub_self]; exact htn
        have d2 : v2 ≠ a ∧ v2 ≠ b := by
          rcases farthestFromLine_spec q (Normalize sqrt (x1.point.Minus x0.point)) a b
            x0.point with hz | ⟨msq, w, xw, _, n1, n2, hz⟩
          · rw [hz] at hfl
            simp only [Prod.mk.injEq] at hfl
            exact absurd hfl.2.1 (by simp)
          · rw [hz] at hfl
            simp only [Prod.mk.injEq, Option.some.injEq] at hfl
            rw [← hfl.2.1]
            exact ⟨n1, n2⟩
        have d3 : v3 ≠ a ∧ v3 ≠ b ∧ v3 ≠ v2 := by
          rcases farthestFromPlane_spec q nrm (x2.point.Dot nrm) a b v2 with
            hz | ⟨d, w, xw, _, n1, n2, n3, hz⟩
          · rw [hz] at hfp
            simp only [Prod.mk.injEq] at hfp
            exact absurd hfp.2 (by simp)
          · rw [hz] at hfp
            simp only [Prod.mk.injEq, Option.some.injEq] at hfp
            rw [← hfp.2]
            exact ⟨n1, n2, n3⟩
        have hnd : [a, b, v2, v3].Nodup := by
          simp only [List.nodup_cons, List.mem_cons, List.mem_singleton, List.not_mem_nil,
            not_or, or_false, not_false_eq_true, List.nodup_nil, and_true]
          exact ⟨⟨d01, fun e => d2.1 e.symm, fun e => d3.1 e.symm⟩,
            ⟨fun e => d2.2 e.symm, fun e => d3.2.1 e.symm⟩, fun e => d3.2.2 e.symm⟩
        have hlt : ∀ v ∈ [a, b, v2, v3], v < q.points.length := by
          intro v hv
          simp only [List.mem_cons, List.mem_singleton, List.not_mem_nil, or_false] at hv
          rcases hv with rfl | rfl | rfl | rfl
          · exact Csg.lt_of_lookup (load_ok ex0)
          · exact Csg.lt_of_lookup (load_ok ex1)
          · exact Csg.lt_of_lookup (load_ok ex2)
          · exact Csg.lt_of_lookup (load_ok ex3)
        by_cases hor : x3.point.Dot nrm - x2.point.Dot nrm < 0
        · rw [if_pos hor] at hs4
          obtain ⟨⟨q1, i0⟩, n0, hs4⟩ := bind_ok_inv hs4
          obtain ⟨⟨q2, i1⟩, n1, hs4⟩ := bind_ok_inv hs4
          obtain ⟨⟨q3, i2⟩, n2, hs4⟩ := bind_ok_inv hs4
          obtain ⟨⟨q4, i3⟩, n3, hs4⟩ := bind_ok_inv hs4
          obtain ⟨qf, hfold, hs4⟩ := bind_ok_inv hs4
          simp only [pure, Except.pure, Except.ok.injEq, Prod.mk.injEq] at hs4
          obtain ⟨rfl, rfl⟩ := hs4
          obtain ⟨hti, E, f0, f1, f2, f3, rfl, hmap, hed, hmk⟩ := simplexFaces_spec sqrt fuel q
            hE hF (a, b, v2) (v3, b, a) (v3, v2, b) (v3, a, v2) q1 q2 q3 q4 i0 i1 i2 i3 n0 n1 n2 n3
          have hr : Relinked ({ q with edgeStore := E, faceStore := [f0, f1, f2, f3] } : Hull K)
              qf := by
            apply foldl_Relinked _ _ _ _ _ hfold
            intro acc i r e
            obtain ⟨r0, e0, e⟩ := bind_ok_inv e
            obtain ⟨_, _, e⟩ := bind_ok_inv e
            obtain ⟨_, _, e⟩ := bind_ok_inv e
            obtain ⟨r2, e3, e⟩ := bind_ok_inv e
            exact ⟨r0, e0, Relinked_trans (linkEdges_spec _ _ _ _ _ _ e3)
              (linkEdges_spec _ _ _ _ _ _ e)⟩
          obtain ⟨E1, rfl, hmap1⟩ := hr
          simp only [hti, hfc, List.nil_append] at hcl
          refine ⟨a, b, v2, v3, _, ?_, hcl⟩
          exact ⟨hnd, hlt, E1, f0, f1, f2, f3, _, _, _, _, rfl, hmap1.trans hmap, Or.inl rfl, hed, hmk⟩
        · rw [if_neg hor] at hs4
          obtain ⟨⟨q1, i0⟩, n0, hs4⟩ := bind_ok_inv hs4
          obtain ⟨⟨q2, i1⟩, n1, hs4⟩ := bind_ok_inv hs4
          obtain ⟨⟨q3, i2⟩, n2, hs4⟩ := bind_ok_inv hs4
          obtain ⟨⟨q4, i3⟩, n3, hs4⟩ := bind_ok_inv hs4
          obtain ⟨qf, hfold, hs4⟩ := bind_ok_inv hs4
          simp only [pure, Except.pure, Except.ok.injEq, Prod.mk.injEq] at hs4
          obtain ⟨rfl, rfl⟩ := hs4
          obtain ⟨hti, E, f0, f1, f2, f3, rfl, hmap, hed, hmk⟩ := simplexFaces_spec sqrt fuel q
            hE hF (a, v2, b) (v3, a, b) (v3, b, v2) (v3, v2, a) q1 q2 q3 q4 i0 i1 i2 i3 n0 n1 n2 n3
          have hr : Relinked ({ q with edgeStore := E, faceStore := [f0, f1, f2, f3] } : Hull K)
              qf := by
            apply foldl_Relinked _ _ _ _ _ hfold
            intro acc i r e
            obtain ⟨r0, e0, e⟩ := bind_ok_inv e
            obtain ⟨_, _, e⟩ := bind_ok_inv e
            obtain ⟨_, _, e⟩ := bind_ok_inv e
            obtain ⟨r2, e3, e⟩ := bind_ok_inv e
            exact ⟨r0, e0, Relinked_trans (linkEdges_spec _ _ _ _ _ _ e3)
              (linkEdges_spec _ _ _ _ _ _ e)⟩
          obtain ⟨E1, rfl, hmap1⟩ := hr
          simp only [hti, hfc, List.nil_append] at hcl
          refine ⟨a, b, v2, v3, _, ?_, hcl⟩
          exact ⟨hnd, hlt, E1, f0, f1, f2, f3, _, _, _, _, rfl, hmap1.trans hmap, Or.inr rfl, hed, hmk⟩

end Simplex6

end Qhull
namespace Qhull

open Csg (Vector Err)

section Simplex7

variable {K : Type} [LinearOrderedField K]

/-- On a hull whose faces are VISIBLE triangles `reindexFacesAndVertices` runs
through: the faces stay, the corners are numbered in increasing position, and
`vertexPointIndices` lists them. -/
theorem reindexFacesAndVertices_triangles (fuel : Nat) (q : Hull K) (p : Nat → Bool)
    (hnp : q.numPoints = q.points.length)
    (hvpi : q.vertexPointIndices.length = q.numPoints)
    (hfs : ∀ f ∈ q.faces, ∃ a b c, TriFace q f a b c ∧ a < q.points.length ∧
      b < q.points.length ∧ c < q.points.length)
    (hp : ∀ i, p i = true ↔ CornerOf q q.faces i) :
    ∃ q1, reindexFacesAndVertices (fuel + 3) q = .ok q1 ∧ q1.faces = q.faces ∧
      q1.edgeStore = q.edgeStore ∧ q1.faceStore = q.faceStore ∧
      vertexIndices q1 = (List.range q.numPoints).filter p ∧
      q1.numVertices ≤ q1.vertexPointIndices.length ∧
      q1.points.length = q.points.length ∧
      ∀ i x, q.points[i]? = some x → ∃ x1, q1.points[i]? = some x1 ∧ x1.point = x.point ∧
        (p i = true → ∃ r : Nat, x1.index = (r : Int) ∧ (vertexIndices q1)[r]? = some i) := by
  obtain ⟨q0, hq0⟩ : ∃ q0 : Hull K, q0 =
      { ({ q with points := q.points.map fun (v : Vertex K) => { v with index := -1 } } :
          Hull K) with numFaces := 0 } := ⟨_, rfl⟩
  have z1 : q0.points = q.points.map fun (v : Vertex K) => { v with index := -1 } := by
    rw [hq0]
  have z2 : q0.edgeStore = q.edgeStore := by rw [hq0]
  have z3 : q0.faceStore = q.faceStore := by rw [hq0]
  have z4 : q0.points.length = q.points.length := by rw [z1, List.length_map]
  have z5 : q0.faces = q.faces := by rw [hq0]
  obtain ⟨qa, ef, ra⟩ := reindexFaces_triangles fuel q.faces q0 [] (by
    intro f hf
    obtain ⟨a, b, c, t, h1, h2, h3⟩ := hfs f hf
    exact ⟨a, b, c, TriFace_congr z2 z3 t, by rw [z4]; exact h1, by rw [z4]; exact h2,
      by rw [z4]; exact h3⟩)
  have hcorner : ∀ i, CornerOf q0 q.faces i ↔ p i = true := by
    intro i
    rw [hp]
    constructor
    · rintro ⟨f, hf, a, b, c, t, hi⟩
      exact ⟨f, hf, a, b, c, TriFace_congr z2.symm z3.symm t, hi⟩
    · rintro ⟨f, hf, a, b, c, t, hi⟩
      exact ⟨f, hf, a, b, c, TriFace_congr z2 z3 t, hi⟩
  have hplt : ∀ i, p i = true → i < q.points.length := by
    intro i hi
    obtain ⟨f, hf, a, b, c, t, hi⟩ := (hp i).mp hi
    obtain ⟨a1, b1, c1, t1, h1, h2, h3⟩ := hfs f hf
    obtain ⟨k1, k2, k3⟩ := TriFace_unique t t1
    subst k1 k2 k3
    rcases hi with rfl | rfl | rfl
    · exact h1
    · exact h2
    · exact h3
  have ra2 := Remarked_congr ra hcorner
  have sl := Remarked_length ra2
  have se := Remarked_edgeStore ra2
  have sf := Remarked_faceStore ra2
  obtain ⟨P, n, hqa, hP⟩ := ra2
  obtain ⟨q2, hq2⟩ : ∃ q2 : Hull K, q2 =
      { ({ qa with faces := [] ++ q.faces } : Hull K) with numVertices := 0 } := ⟨_, rfl⟩
  have y1 : q2.points = P := by rw [hq2, hqa]
  have y2 : q2.numPoints = q.numPoints := by rw [hq2, hqa, hq0]
  have y3 : q2.vertexPointIndices = q.vertexPointIndices := by rw [hq2, hqa, hq0]
  have y4 : q2.numVertices = 0 := by rw [hq2]
  have y5 : q2.faces = q.faces := by rw [hq2]; rfl
  have y6 : q2.edgeStore = q.edgeStore := by rw [hq2, hqa, hq0]
  have y7 : q2.faceStore = q.faceStore := by rw [hq2, hqa, hq0]
  have y8 : q2.points.length = q.points.length := by
    rw [y1, ← z4, ← sl, hqa]
  have hlook : ∀ (i : Nat) (x : Vertex K), q.points[i]? = some x →
      q2.points[i]? = some { x with index := if p i = true then 0 else -1 } := by
    intro i x hx
    rw [y1]
    by_cases hpi : p i = true
    · rw [(hP i).1 hpi, z1, List.getElem?_map, hx, if_pos hpi]
      rfl
    · rw [(hP i).2 hpi, z1, List.getElem?_map, hx, if_neg hpi]
      rfl
  have hmark : ∀ i ∈ List.range q.numPoints, marked q2 i = p i := by
    intro i hi
    rw [List.mem_range, hnp] at hi
    have hx : q.points[i]? = some q.points[i] := List.getElem?_eq_getElem hi
    simp only [marked, hlook i _ hx]
    cases p i <;> simp
  obtain ⟨q1, e1, a1, a2, a3, a4, a5⟩ := reindexVertices_total (List.range q2.numPoints) q2
    (List.nodup_range _)
    (by
      intro i hi
      rw [List.mem_range, y2, hnp] at hi
      rw [y8]
      exact hi)
    (by
      rw [y4, y3, hvpi, Nat.zero_add]
      refine le_trans (List.length_filter_le _ _) ?_
      rw [List.length_range, y2])
  obtain ⟨b1, b2, b3, b4, b5, b6⟩ := reindexVertices_spec _ _ q1 e1 (List.nodup_range _)
  have hvi : vertexIndices q1 = (List.range q.numPoints).filter p := by
    rw [b6, y2]
    simp only [vertexIndices, y4, List.take_zero, List.nil_append]
    exact List.filter_congr hmark
  refine ⟨q1, ?_, by rw [b3, y5], by rw [b1, y6], by rw [b2, y7], hvi, ?_, by rw [b5, y8], ?_⟩
  · unfold reindexFacesAndVertices
    have hlen : ¬ q.points.length < q.numPoints := by rw [hnp]; exact lt_irrefl _
    simp only [hlen, if_false, bind, Except.bind, pure, Except.pure]
    rw [← hq0, ef]
    simp only []
    rw [← hq2]
    have hnq : qa.numPoints = q2.numPoints := by rw [hq2]
    rw [hnq]
    exact e1
  · rw [a1, a2, y4, y3, hvpi, Nat.zero_add]
    refine le_trans (List.length_filter_le _ _) ?_
    rw [List.length_range, y2]
  · intro i x hx
    have hi : i < q.points.length := Csg.lt_of_lookup hx
    have h2 := hlook i x hx
    by_cases hpi : p i = true
    · have hmi : marked q2 i = true := by
        rw [hmark i (by rw [List.mem_range, hnp]; exact hi)]
        exact hpi
      obtain ⟨y, x1, r, c1, c2, c3, c4, c5, c6⟩ := a4 i
        (by rw [List.mem_range, y2, hnp]; exact hi) hmi
      rw [h2] at c1
      simp only [Option.some.injEq] at c1
      subst c1
      refine ⟨x1, c2, c3, fun _ => ⟨r, c4, ?_⟩⟩
      simp only [vertexIndices]
      rw [List.getElem?_take_of_lt c5]
      exact c6
    · have hmi : marked q2 i = false := by
        rw [hmark i (by rw [List.mem_range, hnp]; exact hi)]
        simpa using hpi
      exact ⟨{ x with index := if p i = true then 0 else -1 },
        by rw [a3 i (Or.inr hmi)]; exact h2, rfl, fun h => absurd h hpi⟩

end Simplex7

end Qhull
namespace Qhull

open Csg (Vector Err)

section Simplex8

variable {K : Type} [LinearOrderedField K]

theorem forall₂_of_range {α β : Type} (l : List α) (bs : List β) (Q : α → β → Prop)
    (n : Nat) (hn : l.length = n)
    (h : List.Forall₂ (fun r b => ∃ a, l[r]? = some a ∧ Q a b) (List.range n) bs) :
    List.Forall₂ Q l bs := by
  have hl : bs.length = n := by rw [← h.length_eq, List.length_range]
  apply List.forall₂_of_length_eq_of_get
  · rw [hn, hl]
  · intro i h1 h2
    have hr : i < (List.range n).length := by rw [List.length_range, ← hn]; exact h1
    obtain ⟨a, ea, r⟩ := h.get hr h2
    simp only [List.get_eq_getElem, List.getElem_range] at ea r ⊢
    rw [List.getElem?_eq_getElem h1] at ea
    simp only [Option.some.injEq] at ea
    rw [ea]
    exact r

/-- The list `Vertices()` returns: the positions of the points listed in
`vertexPointIndices[0 .. numVertices)`. -/
theorem Vertices_spec (q : Hull K) (hnv : q.numVertices ≤ q.vertexPointIndices.length)
    (hin : ∀ j ∈ vertexIndices q, j < q.points.length) :
    ∃ vs, Vertices q = .ok vs ∧
      List.Forall₂ (fun j v => ∃ x, q.points[j]? = some x ∧ x.point = v) (vertexIndices q) vs := by
  have hlen : (vertexIndices q).length = q.numVertices := by
    simp only [vertexIndices, List.length_take]
    exact min_eq_left hnv
  have key : ∃ vs, Vertices q = .ok vs ∧
      List.Forall₂ (fun r v => ∃ j, (vertexIndices q)[r]? = some j ∧
        ∃ x, q.points[j]? = some x ∧ x.point = v) (List.range q.numVertices) vs := by
    unfold Vertices
    apply mapM_rel
    intro r hr
    rw [List.mem_range] at hr
    have hr2 : r < q.vertexPointIndices.length := lt_of_lt_of_le hr hnv
    have ej : q.vertexPointIndices[r]? = some q.vertexPointIndices[r] :=
      List.getElem?_eq_getElem hr2
    have ev : (vertexIndices q)[r]? = some q.vertexPointIndices[r] := by
      simp only [vertexIndices]
      rw [List.getElem?_take_of_lt hr]
      exact ej
    have hj : q.vertexPointIndices[r] < q.points.length :=
      hin _ (List.mem_iff_getElem?.mpr ⟨r, ev⟩)
    have ex : q.points[q.vertexPointIndices[r]]? = some q.points[q.vertexPointIndices[r]] :=
      List.getElem?_eq_getElem hj
    refine ⟨q.points[q.vertexPointIndices[r]].point, ?_, _, ev, _, ex, rfl⟩
    simp only [ej, ex, bind, Except.bind, pure, Except.pure]
  obtain ⟨vs, e, r⟩ := key
  exact ⟨vs, e, forall₂_of_range _ _ _ _ hlen r⟩

/-- On a hull whose faces are triangles `Faces()` returns, face by face, the
indices of the three corners. -/
theorem Faces_triangles (fuel : Nat) (q : Hull K) (R : Nat → List Int → Prop)
    (h : ∀ f ∈ q.faces, ∃ a b c xa xb xc, TriFace q f a b c ∧ q.points[a]? = some xa ∧
      q.points[b]? = some xb ∧ q.points[c]? = some xc ∧
      R f [xa.index, xb.index, xc.index]) :
    ∃ fs, Faces (fuel + 3) q = .ok fs ∧ List.Forall₂ R q.faces fs := by
  unfold Faces
  apply mapM_rel
  intro f hf
  obtain ⟨a, b, c, xa, xb, xc, ⟨face, ef, _, hn, tr⟩, ha, hb, hc, r⟩ := h f hf
  refine ⟨_, ?_, r⟩
  unfold getFaceIndices
  simp only [Hull.face, load_of_lookup ef, bind, Except.bind, hn]
  exact indicesLoop_triangle q face.edge a b c xa xb xc tr ha hb hc fuel

theorem expandLoop_done (sqrt : K → K) (fuel n : Nat) (q : Hull K)
    (hc : q.claimed.head = none) : expandLoop sqrt fuel (n + 1) q = .ok q := by
  rw [expandLoop]
  simp [nextPointToAdd, VertexList.IsEmpty, hc, bind, Except.bind, pure, Except.pure]

theorem any_loop (i : Nat) : ∀ E : List HalfEdge,
    E.any (fun e => e.Vertex == i) = (E.map HalfEdge.loop).any (fun t => t.1 == i)
  | [] => rfl
  | e :: E => by
    simp only [List.any_cons, List.map_cons, any_loop i E]
    rfl

theorem loop_lookup {q : Hull K} {j v f n : Nat} {p : Option Nat}
    (h : (q.edgeStore.map HalfEdge.loop)[j]? = some (v, f, some n, p)) :
    nextOf q j = .ok n ∧ Head q j = .ok v := by
  rw [List.getElem?_map] at h
  cases e : q.edgeStore[j]? with
  | none => rw [e] at h; exact absurd h (by simp)
  | some he =>
    rw [e] at h
    simp only [Option.map_some', Option.some.injEq, HalfEdge.loop, Prod.mk.injEq] at h
    obtain ⟨h1, _, h3, _⟩ := h
    constructor
    · unfold nextOf Hull.halfEdge
      simp only [load_of_lookup e, bind, Except.bind, h3, deref]
    · unfold Head Hull.halfEdge
      simp only [load_of_lookup e, bind, Except.bind, h1, pure, Except.pure]

theorem IsTriangle_of_loop {q : Hull K} {e0 a b c f0 f1 f2 : Nat} {p0 p1 p2 : Option Nat}
    (h0 : (q.edgeStore.map HalfEdge.loop)[e0]? = some (a, f0, some (e0 + 1), p0))
    (h1 : (q.edgeStore.map HalfEdge.loop)[e0 + 1]? = some (b, f1, some (e0 + 2), p1))
    (h2 : (q.edgeStore.map HalfEdge.loop)[e0 + 2]? = some (c, f2, some e0, p2)) :
    IsTriangle q e0 a b c :=
  ⟨e0 + 1, e0 + 2, (loop_lookup h0).1, (loop_lookup h1).1, (loop_lookup h2).1, by omega,
    by omega, (loop_lookup h0).2, (loop_lookup h1).2, (loop_lookup h2).2⟩

/-- The four faces of the simplex are VISIBLE triangles. -/
theorem simplexEdges_TriFace (q : Hull K) (f0 f1 f2 f3 : Face K) (t0 t1 t2 t3 : Nat × Nat × Nat)
    (hE : q.edgeStore.map HalfEdge.loop = simplexEdges t0 t1 t2 t3)
    (hF : q.faceStore = [f0, f1, f2, f3])
    (hed : f0.edge = 0 ∧ f1.edge = 3 ∧ f2.edge = 6 ∧ f3.edge = 9)
    (hmk : ∀ f ∈ [f0, f1, f2, f3], f.numVerts = 3 ∧ f.mark = VISIBLE) :
    TriFace q 0 t0.1 t0.2.1 t0.2.2 ∧ TriFace q 1 t1.1 t1.2.1 t1.2.2 ∧
      TriFace q 2 t2.1 t2.2.1 t2.2.2 ∧ TriFace q 3 t3.1 t3.2.1 t3.2.2 := by
  obtain ⟨d0, d1, d2, d3⟩ := hed
  have m0 := hmk f0 (by simp)
  have m1 := hmk f1 (by simp)
  have m2 := hmk f2 (by simp)
  have m3 := hmk f3 (by simp)
  refine ⟨⟨f0, by rw [hF]; rfl, m0.2, m0.1, ?_⟩, ⟨f1, by rw [hF]; rfl, m1.2, m1.1, ?_⟩,
    ⟨f2, by rw [hF]; rfl, m2.2, m2.1, ?_⟩, ⟨f3, by rw [hF]; rfl, m3.2, m3.1, ?_⟩⟩
  · rw [d0]
    exact IsTriangle_of_loop (by rw [hE]; rfl) (by rw [hE]; rfl) (by rw [hE]; rfl)
  · rw [d1]
    exact IsTriangle_of_loop (by rw [hE]; rfl) (by rw [hE]; rfl) (by rw [hE]; rfl)
  · rw [d2]
    exact IsTriangle_of_loop (by rw [hE]; rfl) (by rw [hE]; rfl) (by rw [hE]; rfl)
  · rw [d3]
    exact IsTriangle_of_loop (by rw [hE]; rfl) (by rw [hE]; rfl) (by rw [hE]; rfl)

/-- What the later stages of `buildHull` use of the simplex: its faces are
VISIBLE triangles on vertices of the input, and the corners are the heads of
the half-edges, the four vertices of the simplex. -/
theorem IsSimplex_corners {q qs : Hull K} {v0 v1 v2 v3 : Nat}
    (h : IsSimplex q qs v0 v1 v2 v3) :
    qs.faces = [0, 1, 2, 3] ∧
      (∀ f ∈ qs.faces, ∃ a b c, TriFace qs f a b c ∧ a < q.points.length ∧
        b < q.points.length ∧ c < q.points.length) ∧
      (∀ i, isSimplexVertex qs i = true ↔ CornerOf qs qs.faces i) ∧
      ∀ i, isSimplexVertex qs i = true ↔ i ∈ [v0, v1, v2, v3] := by
  obtain ⟨_, hlt, E, f0, f1, f2, f3, t0, t1, t2, t3, rfl, hmap, hor, hed, hmk⟩ := h
  obtain ⟨T0, T1, T2, T3⟩ := simplexEdges_TriFace
    ({ q with edgeStore := E, faceStore := [f0, f1, f2, f3], faces := [0, 1, 2, 3] } : Hull K)
    f0 f1 f2 f3 t0 t1 t2 t3 hmap rfl hed hmk
  have l0 := hlt v0 (by simp)
  have l1 := hlt v1 (by simp)
  have l2 := hlt v2 (by simp)
  have l3 := hlt v3 (by simp)
  have hv : ∀ i, isSimplexVertex
      ({ q with edgeStore := E, faceStore := [f0, f1, f2, f3], faces := [0, 1, 2, 3] } : Hull K)
      i = true ↔ i ∈ [v0, v1, v2, v3] := by
    intro i
    have e : isSimplexVertex
        ({ q with edgeStore := E, faceStore := [f0, f1, f2, f3], faces := [0, 1, 2, 3] } :
          Hull K) i = (E.map HalfEdge.loop).any (fun t => t.1 == i) := by
      simp only [isSimplexVertex]
      exact any_loop i E
    rw [e, hmap]
    rcases hor with hor | hor
    · simp only [List.cons.injEq, and_true] at hor
      obtain ⟨rfl, rfl, rfl, rfl⟩ := hor
      simp only [simplexEdges, List.any_cons, List.any_nil, Bool.or_false, Bool.or_eq_true,
        beq_iff_eq, List.mem_cons, List.mem_singleton, List.not_mem_nil, or_false]
      omega
    · simp only [List.cons.injEq, and_true] at hor
      obtain ⟨rfl, rfl, rfl, rfl⟩ := hor
      simp only [simplexEdges, List.any_cons, List.any_nil, Bool.or_false, Bool.or_eq_true,
        beq_iff_eq, List.mem_cons, List.mem_singleton, List.not_mem_nil, or_false]
      omega
  have hc : ∀ i, CornerOf
      ({ q with edgeStore := E, faceStore := [f0, f1, f2, f3], faces := [0, 1, 2, 3] } : Hull K)
      [0, 1, 2, 3] i ↔ i ∈ [v0, v1, v2, v3] := by
    intro i
    constructor
    · rintro ⟨f, hf, a, b, c, t, hi⟩
      simp only [List.mem_cons, List.mem_singleton, List.not_mem_nil, or_false] at hf
      rcases hor with hor | hor
      · simp only [List.cons.injEq, and_true] at hor
        obtain ⟨rfl, rfl, rfl, rfl⟩ := hor
        rcases hf with rfl | rfl | rfl | rfl
        · obtain ⟨rfl, rfl, rfl⟩ := TriFace_unique t T0
          simp only [List.mem_cons, List.mem_singleton, List.not_mem_nil, or_false]
          dsimp only at hi
          omega
        · obtain ⟨rfl, rfl, rfl⟩ := TriFace_unique t T1
          simp only [List.mem_cons, List.mem_singleton, List.not_mem_nil, or_false]
          dsimp only at hi
          omega
        · obtain ⟨rfl, rfl, rfl⟩ := TriFace_unique t T2
          simp only [List.mem_cons, List.mem_singleton, List.not_mem_nil, or_false]
          dsimp only at hi
          omega
        · obtain ⟨rfl, rfl, rfl⟩ := TriFace_unique t T3
          simp only [List.mem_cons, List.mem_singleton, List.not_mem_nil, or_false]
          dsimp only at hi
          omega
      · simp only [List.cons.injEq, and_true] at hor
        obtain ⟨rfl, rfl, rfl, rfl⟩ := hor
        rcases hf with rfl | rfl | rfl | rfl
        · obtain ⟨rfl, rfl, rfl⟩ := TriFace_unique t T0
          simp only [List.mem_cons, List.mem_singleton, List.not_mem_nil, or_false]
          dsimp only at hi
          omega
        · obtain ⟨rfl, rfl, rfl⟩ := TriFace_unique t T1
          simp only [List.mem_cons, List.mem_singleton, List.not_mem_nil, or_false]
          dsimp only at hi
          omega
        · obtain ⟨rfl, rfl, rfl⟩ := TriFace_unique t T2
          simp only [List.mem_cons, List.mem_singleton, List.not_mem_nil, or_false]
          dsimp only at hi
          omega
        · obtain ⟨rfl, rfl, rfl⟩ := TriFace_unique t T3
          simp only [List.mem_cons, List.mem_singleton, List.not_mem_nil, or_false]
          dsimp only at hi
          omega
    · intro hi
      simp only [List.mem_cons, List.mem_singleton, List.not_mem_nil, or_false] at hi
      rcases hor with hor | hor
      · simp only [List.cons.injEq, and_true] at hor
        obtain ⟨rfl, rfl, rfl, rfl⟩ := hor
        rcases hi with rfl | rfl | rfl | rfl
        · exact ⟨0, by simp, _, _, _, T0, Or.inl rfl⟩
        · exact ⟨0, by simp, _, _, _, T0, Or.inr (Or.inl rfl)⟩
        · exact ⟨0, by simp, _, _, _, T0, Or.inr (Or.inr rfl)⟩
        · exact ⟨1, by simp, _, _, _, T1, Or.inl rfl⟩
      · simp only [List.cons.injEq, and_true] at hor
        obtain ⟨rfl, rfl, rfl, rfl⟩ := hor
        rcases hi with rfl | rfl | rfl | rfl
        · exact ⟨0, by simp, _, _, _, T0, Or.inl rfl⟩
        · exact ⟨0, by simp, _, _, _, T0, Or.inr (Or.inr rfl)⟩
        · exact ⟨0, by simp, _, _, _, T0, Or.inr (Or.inl rfl)⟩
        · exact ⟨1, by simp, _, _, _, T1, Or.inl rfl⟩
  refine ⟨rfl, ?_, fun i => (hv i).trans (hc i).symm, hv⟩
  intro f hf
  have hmem : ∀ a b c, TriFace
      ({ q with edgeStore := E, faceStore := [f0, f1, f2, f3], faces := [0, 1, 2, 3] } : Hull K)
      f a b c → a < q.points.length ∧ b < q.points.length ∧ c < q.points.length := by
    intro a b c t
    have ca := (hc a).mp ⟨f, hf, a, b, c, t, Or.inl rfl⟩
    have cb := (hc b).mp ⟨f, hf, a, b, c, t, Or.inr (Or.inl rfl)⟩
    have cc := (hc c).mp ⟨f, hf, a, b, c, t, Or.inr (Or.inr rfl)⟩
    exact ⟨hlt a ca, hlt b cb, hlt c cc⟩
  have hf4 : f = 0 ∨ f = 1 ∨ f = 2 ∨ f = 3 := by
    simpa using hf
  rcases hf4 with rfl | rfl | rfl | rfl
  · exact ⟨_, _, _, T0, hmem _ _ _ T0⟩
  · exact ⟨_, _, _, T1, hmem _ _ _ T1⟩
  · exact ⟨_, _, _, T2, hmem _ _ _ T2⟩
  · exact ⟨_, _, _, T3, hmem _ _ _ T3⟩

end Simplex8

end Qhull
namespace Qhull

open Csg (Vector Err)

section Simplex9

variable {K : Type} [LinearOrderedField K]

theorem filter_range_length_four (p : Nat → Bool) (n v0 v1 v2 v3 : Nat)
    (hnd : [v0, v1, v2, v3].Nodup) (hlt : ∀ v ∈ [v0, v1, v2, v3], v < n)
    (hp : ∀ i, p i = true ↔ i ∈ [v0, v1, v2, v3]) :
    ((List.range n).filter p).length = 4 := by
  have hperm : ((List.range n).filter p).Perm [v0, v1, v2, v3] := by
    apply (List.perm_ext_iff_of_nodup ((List.nodup_range n).filter _) hnd).mpr
    intro i
    rw [List.mem_filter, List.mem_range, hp]
    exact ⟨fun h => h.2, fun h => ⟨hlt i h, h⟩⟩
  rw [hperm.length_eq]
  rfl

/-- When the simplex is built and no remaining point is more than the
tolerance above one of its faces, `Build` ends with the simplex: its four
triangles, the four corners in increasing position, the faces indexed into
that list. -/
theorem Build_simplex (sqrt : K → K) (fuel : Nat) (qi : Hull K) (points : List (Vector K))
    (nump : Int) (qb : Hull K) (hfuel : 3 ≤ fuel)
    (hauto : qi.explicitTolerance = AUTOMATIC_TOLERANCE) (h4 : 4 ≤ nump)
    (hlen : nump ≤ points.length)
    (hs : initialSimplex sqrt fuel qi points nump.toNat = .ok (qb, none))
    (hno : noPointOutside qb = true) :
    ∃ q vs fs, Build sqrt fuel qi points nump = .ok (q, none) ∧
      q.faces = [0, 1, 2, 3] ∧ qb.faces = [0, 1, 2, 3] ∧ q.faceStore = qb.faceStore ∧
      q.edgeStore = qb.edgeStore ∧ (∀ f ∈ q.faces, ∃ a b c, TriFace q f a b c) ∧
      vertexIndices q = (List.range nump.toNat).filter (isSimplexVertex qb) ∧
      (vertexIndices q).length = 4 ∧
      Vertices q = .ok vs ∧ List.Forall₂ (fun j v => points[j]? = some v) (vertexIndices q) vs ∧
      Faces fuel q = .ok fs ∧
      List.Forall₂ (fun f idxs => ∃ a b c, ∃ ra rb rc : Nat, TriFace q f a b c ∧
        idxs = [(ra : Int), (rb : Int), (rc : Int)] ∧ (vertexIndices q)[ra]? = some a ∧
        (vertexIndices q)[rb]? = some b ∧ (vertexIndices q)[rc]? = some c) q.faces fs := by
  have hn : 4 ≤ nump.toNat := by omega
  have hl : nump.toNat ≤ points.length := by omega
  obtain ⟨m, rfl⟩ : ∃ m, fuel = m + 3 := ⟨fuel - 3, by omega⟩
  unfold initialSimplex at hs
  generalize hq0 : setPoints (initBuffers qi nump.toNat) points nump.toNat = q0 at hs
  have hpts : q0.points.map (fun x => x.point) = points.take nump.toNat := by
    rw [← hq0]
    exact setPoints_points _ points nump.toNat
  have hlen0 : q0.points.length = nump.toNat := by
    have := congrArg List.length hpts
    simpa [hl] using this
  have hexp : q0.explicitTolerance = AUTOMATIC_TOLERANCE := by rw [← hq0]; exact hauto
  obtain ⟨p0, e0⟩ : ∃ p0, q0.points[0]? = some p0 := Csg.lookup_of_lt (by omega)
  obtain ⟨s, hsok, ecm⟩ := computeMinAndMax_spec q0 p0 e0
  rw [if_pos hexp] at ecm
  obtain ⟨qa, hqa⟩ : ∃ qa : Hull K, qa = { q0 with
      maxVertex := s.maxVertex, minVertex := s.minVertex,
      tolerance := 3 * DOUBLE_PREC *
        (max |s.max.X| |s.min.X| + max |s.max.Y| |s.min.Y| + max |s.max.Z| |s.min.Z|) } :=
    ⟨_, rfl⟩
  rw [← hqa] at ecm
  have w1 : qa.maxVertex = s.maxVertex := by rw [hqa]
  have w2 : qa.minVertex = s.minVertex := by rw [hqa]
  have w3 : qa.points = q0.points := by rw [hqa]
  have w4 : qa.tolerance = 3 * DOUBLE_PREC *
      (max |s.max.X| |s.min.X| + max |s.max.Y| |s.min.Y| + max |s.max.Z| |s.min.Z|) := by
    rw [hqa]
  have w5 : qa.edgeStore = [] := by rw [hqa, ← hq0]; rfl
  have w6 : qa.faceStore = [] := by rw [hqa, ← hq0]; rfl
  have w7 : qa.faces = [] := by rw [hqa, ← hq0]; rfl
  have w8 : qa.numPoints = nump.toNat := by rw [hqa, ← hq0]; rfl
  have w9 : qa.vertexPointIndices.length = nump.toNat := by
    rw [hqa, ← hq0]
    simp [setPoints, initBuffers]
  have w10 : qa.claimed.head = none := by rw [hqa, ← hq0]; rfl
  rw [ecm] at hs
  simp only [bind, Except.bind] at hs
  obtain ⟨v0, v1, v2, v3, qs, hsx, hcl⟩ := createInitialSimplex_inv sqrt (m + 3) qa qb s w1 w2
    (by rw [w3]; exact hsok) w4 w5 w6 w7 hs
  obtain ⟨g1, g2, g3, g4, g5⟩ := claimPoints_frame _ _ _ _ _ _ _ _ hcl
  obtain ⟨cf, ctri, ccorner, cvert⟩ := IsSimplex_corners hsx
  obtain ⟨hnd, hlt, E, f0, f1, f2, f3, t0, t1, t2, t3, hqs, _⟩ := hsx
  have u1 : qs.points = qa.points := by rw [hqs]
  have u2 : qs.numPoints = qa.numPoints := by rw [hqs]
  have u3 : qs.vertexPointIndices = qa.vertexPointIndices := by rw [hqs]
  have u4 : qs.claimed = qa.claimed := by rw [hqs]
  have hbl : qb.points.length = qa.points.length := by
    have := congrArg List.length g4
    rw [List.length_map, List.length_map, u1] at this
    exact this
  have hqb : qb = qs := by
    apply claimPoints_noop [0, 1, 2, 3] v0 v1 v2 v3 _ qs qb hcl
    intro v hv hnv x hx t ht face hface
    unfold noPointOutside at hno
    rw [List.all_eq_true] at hno
    have hv2 := hno v (by rw [hbl]; exact hv)
    rw [Bool.or_eq_true] at hv2
    rcases hv2 with h1 | h1
    · exfalso
      apply hnv
      have : isSimplexVertex qs v = true := by
        unfold isSimplexVertex at h1 ⊢
        rw [← g1]
        exact h1
      have := (cvert v).mp this
      simpa using this
    · rw [hx] at h1
      simp only [] at h1
      rw [List.all_eq_true] at h1
      have h2 := h1 t (by rw [g2, cf]; exact ht)
      rw [hface] at h2
      simpa using h2
  subst hqb
  have hex : expandLoop sqrt (m + 3) (m + 3) qb = .ok qb :=
    expandLoop_done sqrt (m + 3) (m + 2) qb (by rw [u4]; exact w10)
  have hql : qb.points.length = nump.toNat := by rw [u1, w3, hlen0]
  obtain ⟨q1, er, r1, r2, r3, r4, r5, r6, r7⟩ := reindexFacesAndVertices_triangles m qb
    (isSimplexVertex qb) (by rw [u2, w8, hql]) (by rw [u3, w9, u2, w8])
    (by
      intro f hf
      obtain ⟨a, b, c, t, ha, hb, hc⟩ := ctri f hf
      rw [← u1] at ha hb hc
      exact ⟨a, b, c, t, ha, hb, hc⟩)
    ccorner
  rw [u2, w8] at r4
  have hin : ∀ j ∈ vertexIndices q1, j < q1.points.length := by
    intro j hj
    rw [r4, List.mem_filter, List.mem_range] at hj
    rw [r6, hql]
    exact hj.1
  have hpoint : ∀ (j : Nat) (x : Vertex K), q1.points[j]? = some x → points[j]? = some x.point := by
    intro j x hx
    have hj : j < qb.points.length := by
      rw [← r6]
      exact Csg.lt_of_lookup hx
    obtain ⟨x1, e1, e2, _⟩ := r7 j _ (List.getElem?_eq_getElem hj)
    rw [hx] at e1
    simp only [Option.some.injEq] at e1
    subst e1
    have e3 : (q0.points.map fun x => x.point)[j]? = some x.point := by
      rw [List.getElem?_map, ← w3, ← u1, List.getElem?_eq_getElem hj, e2]
      rfl
    rw [hpts, List.getElem?_take_of_lt (by rw [← hql]; exact hj)] at e3
    exact e3
  obtain ⟨vs, ev, fv⟩ := Vertices_spec q1 r5 hin
  obtain ⟨fs, efs, ffs⟩ := Faces_triangles m q1
    (fun f idxs => ∃ a b c, ∃ ra rb rc : Nat, TriFace q1 f a b c ∧
      idxs = [(ra : Int), (rb : Int), (rc : Int)] ∧ (vertexIndices q1)[ra]? = some a ∧
      (vertexIndices q1)[rb]? = some b ∧ (vertexIndices q1)[rc]? = some c)
    (by
      intro f hf
      rw [r1] at hf
      obtain ⟨a, b, c, t, ha, hb, hc⟩ := ctri f hf
      rw [← u1] at ha hb hc
      obtain ⟨xa, ea, _, ia⟩ := r7 a _ (List.getElem?_eq_getElem ha)
      obtain ⟨xb, eb, _, ib⟩ := r7 b _ (List.getElem?_eq_getElem hb)
      obtain ⟨xc, ec, _, ic⟩ := r7 c _ (List.getElem?_eq_getElem hc)
      obtain ⟨ra, ja, ka⟩ := ia ((ccorner a).mpr ⟨f, hf, a, b, c, t, Or.inl rfl⟩)
      obtain ⟨rb, jb, kb⟩ := ib ((ccorner b).mpr ⟨f, hf, a, b, c, t, Or.inr (Or.inl rfl)⟩)
      obtain ⟨rc, jc, kc⟩ := ic ((ccorner c).mpr ⟨f, hf, a, b, c, t, Or.inr (Or.inr rfl)⟩)
      exact ⟨a, b, c, xa, xb, xc, TriFace_congr r2 r3 t, ea, eb, ec, a, b, c, ra, rb, rc,
        TriFace_congr r2 r3 t, by rw [ja, jb, jc], ka, kb, kc⟩)
  refine ⟨q1, vs, fs, ?_, by rw [r1, cf], cf, r3, r2, ?_, r4, ?_, ev, ?_, efs, ffs⟩
  · unfold Build
    have h1 : ¬ nump < 4 := not_lt.mpr h4
    have h2 : ¬ (points.length : Int) < nump := not_lt.mpr hlen
    simp only [h1, h2, if_false, bind, Except.bind, pure, Except.pure, buildHull, hq0, ecm, hs,
      Option.isSome_none, Bool.false_eq_true, hex, er]
  · intro f hf
    rw [r1] at hf
    obtain ⟨a, b, c, t, _⟩ := ctri f hf
    exact ⟨a, b, c, TriFace_congr r2 r3 t⟩
  · rw [r4]
    exact filter_range_length_four _ _ v0 v1 v2 v3 hnd
      (by
        intro v hv
        have := hlt v hv
        rw [w3, hlen0] at this
        exact this)
      cvert
  · exact fv.imp (fun j v h => by
      obtain ⟨x, hx, hv⟩ := h
      rw [← hv]
      exact hpoint j x hx)

end Simplex9

end Qhull
namespace Qhull

open Csg (Vector Err)

section SimplexClaims

variable {K : Type} [LinearOrderedField K]

/-- C13: `Build` is called with at least four points on a hull with the
automatic tolerance (the only one the package sets).  When the initial simplex
is built (`createInitialSimplex` returns nil, leaving the hull `qb`) and no
point but its corners is more than the tolerance above one of its faces,
`Build` returns nil and yields exactly the four triangles of the simplex in
creation order: the face list is `[0, 1, 2, 3]`, with the faces and half-edges
of `qb`; `vertexPointIndices[0 .. numVertices)` is the four corners in
increasing input position, `Vertices()` returns the input points at these
positions, and `Faces()` returns for each face the three places of its corners
in that list.  On the seven test points `Vertices()` is
`[(0,0,0), (2,0,0), (0,0,2), (0,2,0)]` and `Faces()` is
`[[1,2,0], [3,1,0], [3,0,2], [3,2,1]]`. -/
theorem simplex_hull (sqrt : K → K) (fuel : Nat) (qi : Hull K) (points : List (Vector K))
    (nump : Int) (qb : Hull K) (hfuel : 3 ≤ fuel)
    (hauto : qi.explicitTolerance = AUTOMATIC_TOLERANCE) (h4 : 4 ≤ nump)
    (hlen : nump ≤ points.length)
    (hs : initialSimplex sqrt fuel qi points nump.toNat = .ok (qb, none))
    (hno : noPointOutside qb = true) :
    (∃ q vs fs, Build sqrt fuel qi points nump = .ok (q, none) ∧
      q.faces = [0, 1, 2, 3] ∧ qb.faces = [0, 1, 2, 3] ∧ q.faceStore = qb.faceStore ∧
      q.edgeStore = qb.edgeStore ∧ (∀ f ∈ q.faces, ∃ a b c, TriFace q f a b c) ∧
      vertexIndices q = (List.range nump.toNat).filter (isSimplexVertex qb) ∧
      (vertexIndices q).length = 4 ∧
      Vertices q = .ok vs ∧ List.Forall₂ (fun j v => points[j]? = some v) (vertexIndices q) vs ∧
      Faces fuel q = .ok fs ∧
      List.Forall₂ (fun f idxs => ∃ a b c, ∃ ra rb rc : Nat, TriFace q f a b c ∧
        idxs = [(ra : Int), (rb : Int), (rc : Int)] ∧ (vertexIndices q)[ra]? = some a ∧
        (vertexIndices q)[rb]? = some b ∧ (vertexIndices q)[rc]? = some c) q.faces fs) ∧
    ∃ q, Build Csg.ratSqrt 20 Hull.new simplePoints 7 = .ok (q, none) ∧
      Vertices q = .ok [⟨0, 0, 0⟩, ⟨2, 0, 0⟩, ⟨0, 0, 2⟩, ⟨0, 2, 0⟩] ∧
      Faces 20 q = .ok [[1, 2, 0], [3, 1, 0], [3, 0, 2], [3, 2, 1]] := by
  refine ⟨Build_simplex sqrt fuel qi points nump qb hfuel hauto h4 hlen hs hno, ?_⟩
  have hb : (match Build Csg.ratSqrt 20 Hull.new simplePoints 7 with
      | .ok (q, none) =>
        decide (Vertices q = .ok [⟨0, 0, 0⟩, ⟨2, 0, 0⟩, ⟨0, 0, 2⟩, ⟨0, 2, 0⟩]) &&
          decide (Faces 20 q = .ok [[1, 2, 0], [3, 1, 0], [3, 0, 2], [3, 2, 1]])
      | _ => false) = true := by decide!
  split at hb
  · next q e =>
    simp only [Bool.and_eq_true, decide_eq_true_eq] at hb
    exact ⟨q, e, hb.1, hb.2⟩
  · exact absurd hb (by simp)

/-- C13 on the seven test points: the simplex is built on the points at the
positions 0, 2, 4 and 6, and the three other points are not above a face. -/
theorem simplex_hull_witness :
    ∃ qb : Hull ℚ, initialSimplex Csg.ratSqrt 20 Hull.new simplePoints 7 = .ok (qb, none) ∧
      noPointOutside qb = true ∧
      ∃ q vs fs, Build Csg.ratSqrt 20 Hull.new simplePoints 7 = .ok (q, none) ∧
        q.faces = [0, 1, 2, 3] ∧ qb.faces = [0, 1, 2, 3] ∧ q.faceStore = qb.faceStore ∧
        q.edgeStore = qb.edgeStore ∧ (∀ f ∈ q.faces, ∃ a b c, TriFace q f a b c) ∧
        vertexIndices q = (List.range 7).filter (isSimplexVertex qb) ∧
        (vertexIndices q).length = 4 ∧
        Vertices q = .ok vs ∧
        List.Forall₂ (fun j v => simplePoints[j]? = some v) (vertexIndices q) vs ∧
        Faces 20 q = .ok fs ∧
        List.Forall₂ (fun f idxs => ∃ a b c, ∃ ra rb rc : Nat, TriFace q f a b c ∧
          idxs = [(ra : Int), (rb : Int), (rc : Int)] ∧ (vertexIndices q)[ra]? = some a ∧
          (vertexIndices q)[rb]? = some b ∧ (vertexIndices q)[rc]? = some c) q.faces fs := by
  have hb : (match initialSimplex Csg.ratSqrt 20 Hull.new simplePoints 7 with
      | .ok (qb, none) => noPointOutside qb
      | _ => false) = true := by decide!
  split at hb
  · next qb e =>
    exact ⟨qb, e, hb, (simplex_hull Csg.ratSqrt 20 Hull.new simplePoints 7 qb (by decide) rfl
      (by decide) (by decide) e hb).1⟩
  · exact absurd hb (by simp)

end SimplexClaims

end Qhull
namespace Csg

section PlaneBox

variable {K : Type} [LinearOrderedField K]

theorem DistanceToPlane_Flip (p : Plane K) (v : Vector K) :
    p.Flip.DistanceToPlane v = -(p.DistanceToPlane v) := by
  simp only [Plane.Flip, Plane.DistanceToPlane, Vector.Negated, Vector.Dot]
  ring

theorem vertexType_Flip (p : Plane K) (v : Vertex K) :
    vertexType p.Flip v = flippedType (vertexType p v) := by
  have hpos : (0 : K) < EPSILON := EPSILON_pos
  have hd := DistanceToPlane_Flip p v.Position
  simp only [Plane.DistanceToPlane] at hd
  unfold vertexType flippedType
  simp only [hd]
  by_cases h1 : p.Normal.Dot v.Position - p.W < -EPSILON
  · have h2 : ¬ -(p.Normal.Dot v.Position - p.W) < -EPSILON := by linarith
    have h3 : -(p.Normal.Dot v.Position - p.W) > EPSILON := by linarith
    rw [if_pos h1, if_neg h2, if_pos h3]
    rfl
  · by_cases h4 : p.Normal.Dot v.Position - p.W > EPSILON
    · have h2 : -(p.Normal.Dot v.Position - p.W) < -EPSILON := by linarith
      rw [if_neg h1, if_pos h4, if_pos h2]
      rfl
    · have h2 : ¬ -(p.Normal.Dot v.Position - p.W) < -EPSILON := by linarith
      have h3 : ¬ -(p.Normal.Dot v.Position - p.W) > EPSILON := by linarith
      rw [if_neg h1, if_neg h4, if_neg h2, if_neg h3]
      rfl

theorem AddVertex_fold_mono (l : List (Vertex K)) (b : Box K) :
    ((l.foldl Box.AddVertex b).Min.X ≤ b.Min.X ∧ (l.foldl Box.AddVertex b).Min.Y ≤ b.Min.Y ∧
      (l.foldl Box.AddVertex b).Min.Z ≤ b.Min.Z) ∧
    (b.Max.X ≤ (l.foldl Box.AddVertex b).Max.X ∧ b.Max.Y ≤ (l.foldl Box.AddVertex b).Max.Y ∧
      b.Max.Z ≤ (l.foldl Box.AddVertex b).Max.Z) := by
  induction l generalizing b with
  | nil => exact ⟨⟨le_refl _, le_refl _, le_refl _⟩, le_refl _, le_refl _, le_refl _⟩
  | cons v l ih =>
    obtain ⟨⟨a1, a2, a3⟩, a4, a5, a6⟩ := ih (b.AddVertex v)
    rw [List.foldl_cons]
    simp only [Box.AddVertex, Vector.Min, Vector.Max] at a1 a2 a3 a4 a5 a6
    refine ⟨⟨le_trans a1 ?_, le_trans a2 ?_, le_trans a3 ?_⟩, le_trans ?_ a4, le_trans ?_ a5,
      le_trans ?_ a6⟩
    all_goals split_ifs <;> linarith

theorem AddVertex_fold_includes (l : List (Vertex K)) (b : Box K) (v : Vertex K) (hv : v ∈ l) :
    ((l.foldl Box.AddVertex b).Min.X ≤ v.Position.X ∧
      (l.foldl Box.AddVertex b).Min.Y ≤ v.Position.Y ∧
      (l.foldl Box.AddVertex b).Min.Z ≤ v.Position.Z) ∧
    (v.Position.X ≤ (l.foldl Box.AddVertex b).Max.X ∧
      v.Position.Y ≤ (l.foldl Box.AddVertex b).Max.Y ∧
      v.Position.Z ≤ (l.foldl Box.AddVertex b).Max.Z) := by
  induction l generalizing b with
  | nil => exact absurd hv (by simp)
  | cons w l ih =>
    rw [List.foldl_cons]
    rcases List.mem_cons.mp hv with rfl | hv
    · obtain ⟨⟨a1, a2, a3⟩, a4, a5, a6⟩ := AddVertex_fold_mono l (b.AddVertex v)
      simp only [Box.AddVertex, Vector.Min, Vector.Max] at a1 a2 a3 a4 a5 a6
      refine ⟨⟨le_trans a1 ?_, le_trans a2 ?_, le_trans a3 ?_⟩, le_trans ?_ a4, le_trans ?_ a5,
        le_trans ?_ a6⟩
      all_goals split_ifs <;> linarith
    · exact ih (b.AddVertex w) hv

theorem mem_allVertices {h : Heap K} {l : List Ptr} {p : Ptr} {poly : Polygon K} {v : Vertex K}
    (hp : p ∈ l) (e : h[p]? = some poly) (hv : v ∈ poly.Vertices) : v ∈ allVertices h l := by
  unfold allVertices
  rw [List.mem_flatten]
  refine ⟨poly.Vertices, ?_, hv⟩
  rw [List.mem_map]
  exact ⟨p, hp, by rw [e]⟩

end PlaneBox

section PlaneBoxClaims

variable {K : Type} [LinearOrderedField K]

/-- C21: `Plane.Flip` negates `Normal` and `W`; the signed distance of every
point to the flipped plane is the negation of its distance to the plane; the
type of a point against the flipped plane is its type against the plane with
FRONT and BACK exchanged (COPLANAR stays); and two flips restore the plane. -/
theorem Plane_Flip_negates (p : Plane K) (v : Vertex K) :
    p.Flip.Normal = p.Normal.Negated ∧ p.Flip.W = -p.W ∧
      p.Flip.DistanceToPlane v.Position = -(p.DistanceToPlane v.Position) ∧
      vertexType p.Flip v = flippedType (vertexType p v) ∧
      flippedType FRONT = BACK ∧ flippedType BACK = FRONT ∧ flippedType COPLANAR = COPLANAR ∧
      p.Flip.Flip = p :=
  ⟨rfl, rfl, DistanceToPlane_Flip p v.Position, vertexType_Flip p v, rfl, rfl, rfl,
    Plane_Flip_Flip p⟩

/-- C22: for every CSG whose polygons are allocated, `BoundingBox()` returns a
box, and every vertex of every polygon of the CSG lies between `Min` and `Max`
in each of `X`, `Y` and `Z`. -/
theorem BoundingBox_includes (c : CSG) (h : Heap K) (hv : ∀ p ∈ c.polygons, p < h.length) :
    ∃ b, c.BoundingBox h = .ok b ∧
      ∀ p ∈ c.polygons, ∀ poly, h[p]? = some poly → ∀ v ∈ poly.Vertices,
        b.Min.X ≤ v.Position.X ∧ v.Position.X ≤ b.Max.X ∧
        b.Min.Y ≤ v.Position.Y ∧ v.Position.Y ≤ b.Max.Y ∧
        b.Min.Z ≤ v.Position.Z ∧ v.Position.Z ≤ b.Max.Z := by
  refine ⟨_, BoundingBox_ok h c.polygons hv, ?_⟩
  intro p hp poly e v hvp
  obtain ⟨⟨a1, a2, a3⟩, a4, a5, a6⟩ :=
    AddVertex_fold_includes (allVertices h c.polygons) Box.zero v (mem_allVertices hp e hvp)
  exact ⟨a1, a4, a2, a5, a3, a6⟩

/-- C22 on the CSG of the three triangles of `rampHeap`. -/
theorem BoundingBox_includes_witness :
    ∃ b, CSG.BoundingBox ⟨[0, 1, 2]⟩ rampHeap = .ok b ∧
      ∀ p ∈ [0, 1, 2], ∀ poly, rampHeap[p]? = some poly → ∀ v ∈ poly.Vertices,
        b.Min.X ≤ v.Position.X ∧ v.Position.X ≤ b.Max.X ∧
        b.Min.Y ≤ v.Position.Y ∧ v.Position.Y ≤ b.Max.Y ∧
        b.Min.Z ≤ v.Position.Z ∧ v.Position.Z ≤ b.Max.Z :=
  BoundingBox_includes ⟨[0, 1, 2]⟩ rampHeap (by decide)

/-- C24: `Box.Contains` is true exactly for the points strictly between `Min`
and `Max` in each of `X`, `Y` and `Z`; a point with a coordinate equal to a
bound of the box is not contained. -/
theorem Contains_strict (b : Box K) (v : Vector K) :
    (b.Contains v = true ↔
      (b.Min.X < v.X ∧ v.X < b.Max.X) ∧ (b.Min.Y < v.Y ∧ v.Y < b.Max.Y) ∧
        (b.Min.Z < v.Z ∧ v.Z < b.Max.Z)) ∧
    (v.X = b.Min.X ∨ v.X = b.Max.X ∨ v.Y = b.Min.Y ∨ v.Y = b.Max.Y ∨ v.Z = b.Min.Z ∨
      v.Z = b.Max.Z → b.Contains v = false) := by
  have key : b.Contains v = true ↔
      (b.Min.X < v.X ∧ v.X < b.Max.X) ∧ (b.Min.Y < v.Y ∧ v.Y < b.Max.Y) ∧
        (b.Min.Z < v.Z ∧ v.Z < b.Max.Z) := by
    unfold Box.Contains
    by_cases hx : v.X > b.Min.X ∧ v.X < b.Max.X
    · by_cases hy : v.Y > b.Min.Y ∧ v.Y < b.Max.Y
      · by_cases hz : v.Z > b.Min.Z ∧ v.Z < b.Max.Z
        · simp only [if_pos hx, if_pos hy, if_pos hz, true_iff]
          exact ⟨hx, hy, hz⟩
        · simp only [if_pos hx, if_pos hy, if_neg hz, Bool.false_eq_true, false_iff]
          exact fun h => hz h.2.2
      · simp only [if_pos hx, if_neg hy, Bool.false_eq_true, false_iff]
        exact fun h => hy h.2.1
    · simp only [if_neg hx, Bool.false_eq_true, false_iff]
      exact fun h => hx h.1
  refine ⟨key, ?_⟩
  intro hb
  cases hc : b.Contains v with
  | false => rfl
  | true =>
    exfalso
    obtain ⟨⟨x1, x2⟩, ⟨y1, y2⟩, z1, z2⟩ := key.mp hc
    rcases hb with e | e | e | e | e | e
    · rw [e] at x1; exact lt_irrefl _ x1
    · rw [e] at x2; exact lt_irrefl _ x2
    · rw [e] at y1; exact lt_irrefl _ y1
    · rw [e] at y2; exact lt_irrefl _ y2
    · rw [e] at z1; exact lt_irrefl _ z1
    · rw [e] at z2; exact lt_irrefl _ z2

end PlaneBoxClaims

end Csg
namespace Csg

section Solids

variable {K : Type} [LinearOrderedField K]

theorem cubeCorner_bits (c s : Vector K) (i : Nat) (hi : i < 8) :
    cubeCorner c s i =
      ⟨c.X + s.X / 2 * (2 * ((i % 2 : Nat) : K) - 1),
       c.Y + s.Y / 2 * (2 * ((i / 2 % 2 : Nat) : K) - 1),
       c.Z + s.Z / 2 * (2 * ((i / 4 % 2 : Nat) : K) - 1)⟩ := by
  have e : ∀ i < 8, (i &&& 1 = i % 2) ∧ ((i &&& 2) >>> 1 = i / 2 % 2) ∧
      ((i &&& 4) >>> 2 = i / 4 % 2) := by decide
  unfold cubeCorner
  simp only []
  rw [(e i hi).1, (e i hi).2.1, (e i hi).2.2]

/-- The eight corners are `center ± size / 2`. -/
theorem cubeCorner_values (c s : Vector K) :
    (List.range 8).map (cubeCorner c s) =
      [⟨c.X - s.X / 2, c.Y - s.Y / 2, c.Z - s.Z / 2⟩, ⟨c.X + s.X / 2, c.Y - s.Y / 2, c.Z - s.Z / 2⟩,
       ⟨c.X - s.X / 2, c.Y + s.Y / 2, c.Z - s.Z / 2⟩, ⟨c.X + s.X / 2, c.Y + s.Y / 2, c.Z - s.Z / 2⟩,
       ⟨c.X - s.X / 2, c.Y - s.Y / 2, c.Z + s.Z / 2⟩, ⟨c.X + s.X / 2, c.Y - s.Y / 2, c.Z + s.Z / 2⟩,
       ⟨c.X - s.X / 2, c.Y + s.Y / 2, c.Z + s.Z / 2⟩,
       ⟨c.X + s.X / 2, c.Y + s.Y / 2, c.Z + s.Z / 2⟩] := by
  have r : List.range 8 = [0, 1, 2, 3, 4, 5, 6, 7] := by decide
  rw [r]
  simp only [List.map_cons, List.map_nil]
  rw [cubeCorner_bits c s 0 (by decide), cubeCorner_bits c s 1 (by decide),
    cubeCorner_bits c s 2 (by decide), cubeCorner_bits c s 3 (by decide),
    cubeCorner_bits c s 4 (by decide), cubeCorner_bits c s 5 (by decide),
    cubeCorner_bits c s 6 (by decide), cubeCorner_bits c s 7 (by decide)]
  norm_num
  simp only [sub_eq_add_neg, and_self]

theorem cubeCorner_eq (c s : Vector K) (i : Nat) (hi : i < 8) :
    cubeCorner c s i =
      ⟨c.X + (if i % 2 = 1 then s.X / 2 else -(s.X / 2)),
       c.Y + (if i / 2 % 2 = 1 then s.Y / 2 else -(s.Y / 2)),
       c.Z + (if i / 4 % 2 = 1 then s.Z / 2 else -(s.Z / 2))⟩ := by
  rw [cubeCorner_bits c s i hi]
  interval_cases i <;> norm_num

theorem NewCube_eq (sqrt : K → K) (c s : Vector K) (h : Heap K) :
    NewCube sqrt (some ⟨some c, some s⟩) h =
      .ok (h ++ (cubeOrder.zip cubeNormals).map (fun f => cubePolygon sqrt c s f.1 f.2),
        ⟨[h.length, h.length + 1, h.length + 2, h.length + 3, h.length + 4, h.length + 5]⟩) := by
  simp [NewCube, cubeOrder, cubeNormals, NewPolygonFromVertices, cubeFace, NewCSGFromPolygons,
    cubePolygon]

theorem Unit_of_sq (sqrt : K → K) (hsq : ∀ x : K, 0 ≤ x → sqrt (x * x) = x) (v : Vector K)
    (a : K) (ha : 0 < a) (hv : v.Dot v = a * a) : v.Unit sqrt = ⟨v.X / a, v.Y / a, v.Z / a⟩ := by
  unfold Vector.Unit Vector.Length Vector.DividedBy
  rw [hv, hsq a (le_of_lt ha)]

/-- The computed plane normals of the six faces of a cube of positive size. -/
theorem cubePolygon_normals (sqrt : K → K) (hsq : ∀ x : K, 0 ≤ x → sqrt (x * x) = x)
    (c s : Vector K) (hx : 0 < s.X) (hy : 0 < s.Y) (hz : 0 < s.Z) :
    (cubeOrder.zip cubeNormals).map (fun f => (cubePolygon sqrt c s f.1 f.2).Plane.Normal) =
      cubeNormals := by
  have hyz : 0 < s.Y * s.Z := mul_pos hy hz
  have hxz : 0 < s.X * s.Z := mul_pos hx hz
  have hxy : 0 < s.X * s.Y := mul_pos hx hy
  simp only [cubeOrder, cubeNormals, List.zip_cons_cons, List.zip_nil_right, List.map_cons,
    List.map_nil, cubePolygon, NewPlaneFromPoints, List.getD_cons_zero, List.getD_cons_succ]
  rw [cubeCorner_eq c s 0 (by decide), cubeCorner_eq c s 1 (by decide),
    cubeCorner_eq c s 2 (by decide), cubeCorner_eq c s 3 (by decide),
    cubeCorner_eq c s 4 (by decide), cubeCorner_eq c s 5 (by decide),
    cubeCorner_eq c s 6 (by decide), cubeCorner_eq c s 7 (by decide)]
  norm_num [Vector.Minus, Vector.Cross]
  have ny : s.Y ≠ 0 := ne_of_gt hy
  have nx : s.X ≠ 0 := ne_of_gt hx
  have nz : s.Z ≠ 0 := ne_of_gt hz
  refine ⟨?_, ?_, ?_, ?_, ?_, ?_⟩
  · rw [Unit_of_sq sqrt hsq _ (s.Y * s.Z) hyz (by simp only [Vector.Dot]; ring)]
    simp only [Vector.mk.injEq]
    refine ⟨?_, ?_, ?_⟩ <;> field_simp
    ring
  · rw [Unit_of_sq sqrt hsq _ (s.Y * s.Z) hyz (by simp only [Vector.Dot]; ring)]
    simp only [Vector.mk.injEq]
    refine ⟨?_, ?_, ?_⟩ <;> field_simp
  · rw [Unit_of_sq sqrt hsq _ (s.X * s.Z) hxz (by simp only [Vector.Dot]; ring)]
    simp only [Vector.mk.injEq]
    refine ⟨?_, ?_, ?_⟩ <;> field_simp
  · rw [Unit_of_sq sqrt hsq _ (s.X * s.Z) hxz (by simp only [Vector.Dot]; ring)]
    simp only [Vector.mk.injEq]
    refine ⟨?_, ?_, ?_⟩ <;> field_simp
    ring
  · rw [Unit_of_sq sqrt hsq _ (s.X * s.Y) hxy (by simp only [Vector.Dot]; ring)]
    simp only [Vector.mk.injEq]
    refine ⟨?_, ?_, ?_⟩ <;> field_simp
    ring
  · rw [Unit_of_sq sqrt hsq _ (s.X * s.Y) hxy (by simp only [Vector.Dot]; ring)]
    simp only [Vector.mk.injEq]
    refine ⟨?_, ?_, ?_⟩ <;> field_simp

end Solids

end Csg
namespace Csg

section Solids2

variable {K : Type} [LinearOrderedField K]

/-- Each bound of the box after a run of `AddVertex` is the bound before the
run or a coordinate of one of the vertices. -/
theorem AddVertex_fold_attained (l : List (Vertex K)) (b : Box K) :
    ((l.foldl Box.AddVertex b).Min.X = b.Min.X ∨
        ∃ v ∈ l, (l.foldl Box.AddVertex b).Min.X = v.Position.X) ∧
      ((l.foldl Box.AddVertex b).Min.Y = b.Min.Y ∨
        ∃ v ∈ l, (l.foldl Box.AddVertex b).Min.Y = v.Position.Y) ∧
      ((l.foldl Box.AddVertex b).Min.Z = b.Min.Z ∨
        ∃ v ∈ l, (l.foldl Box.AddVertex b).Min.Z = v.Position.Z) ∧
      ((l.foldl Box.AddVertex b).Max.X = b.Max.X ∨
        ∃ v ∈ l, (l.foldl Box.AddVertex b).Max.X = v.Position.X) ∧
      ((l.foldl Box.AddVertex b).Max.Y = b.Max.Y ∨
        ∃ v ∈ l, (l.foldl Box.AddVertex b).Max.Y = v.Position.Y) ∧
      ((l.foldl Box.AddVertex b).Max.Z = b.Max.Z ∨
        ∃ v ∈ l, (l.foldl Box.AddVertex b).Max.Z = v.Position.Z) := by
  induction l generalizing b with
  | nil => exact ⟨Or.inl rfl, Or.inl rfl, Or.inl rfl, Or.inl rfl, Or.inl rfl, Or.inl rfl⟩
  | cons w l ih =>
    rw [List.foldl_cons]
    have lift : ∀ (x : K) (f : Vertex K → K), (∃ v ∈ l, x = f v) → ∃ v ∈ w :: l, x = f v := by
      rintro x f ⟨v, hv, e⟩
      exact ⟨v, List.mem_cons_of_mem _ hv, e⟩
    obtain ⟨a1, a2, a3, a4, a5, a6⟩ := ih (b.AddVertex w)
    simp only [Box.AddVertex, Vector.Min, Vector.Max] at a1 a2 a3 a4 a5 a6 ⊢
    refine ⟨?_, ?_, ?_, ?_, ?_, ?_⟩
    · rcases a1 with e | e
      · rw [e]
        split_ifs
        · exact Or.inr ⟨w, List.mem_cons_self _ _, rfl⟩
        · exact Or.inl rfl
      · exact Or.inr (lift _ (fun v => v.Position.X) e)
    · rcases a2 with e | e
      · rw [e]
        split_ifs
        · exact Or.inr ⟨w, List.mem_cons_self _ _, rfl⟩
        · exact Or.inl rfl
      · exact Or.inr (lift _ (fun v => v.Position.Y) e)
    · rcases a3 with e | e
      · rw [e]
        split_ifs
        · exact Or.inr ⟨w, List.mem_cons_self _ _, rfl⟩
        · exact Or.inl rfl
      · exact Or.inr (lift _ (fun v => v.Position.Z) e)
    · rcases a4 with e | e
      · rw [e]
        split_ifs
        · exact Or.inr ⟨w, List.mem_cons_self _ _, rfl⟩
        · exact Or.inl rfl
      · exact Or.inr (lift _ (fun v => v.Position.X) e)
    · rcases a5 with e | e
      · rw [e]
        split_ifs
        · exact Or.inr ⟨w, List.mem_cons_self _ _, rfl⟩
        · exact Or.inl rfl
      · exact Or.inr (lift _ (fun v => v.Position.Y) e)
    · rcases a6 with e | e
      · rw [e]
        split_ifs
        · exact Or.inr ⟨w, List.mem_cons_self _ _, rfl⟩
        · exact Or.inl rfl
      · exact Or.inr (lift _ (fun v => v.Position.Z) e)

/-- The vertices of the six polygons of a cube. -/
theorem allVertices_cube (sqrt : K → K) (c s : Vector K) (h : Heap K) :
    allVertices (h ++ (cubeOrder.zip cubeNormals).map (fun f => cubePolygon sqrt c s f.1 f.2))
      [h.length, h.length + 1, h.length + 2, h.length + 3, h.length + 4, h.length + 5] =
    ((cubeOrder.zip cubeNormals).map (fun f => cubeFace c s f.1 f.2)).flatten := by
  have e0 := getElem?_append_at h
    ((cubeOrder.zip cubeNormals).map (fun f => cubePolygon sqrt c s f.1 f.2)) 0
  have e1 := getElem?_append_at h
    ((cubeOrder.zip cubeNormals).map (fun f => cubePolygon sqrt c s f.1 f.2)) 1
  have e2 := getElem?_append_at h
    ((cubeOrder.zip cubeNormals).map (fun f => cubePolygon sqrt c s f.1 f.2)) 2
  have e3 := getElem?_append_at h
    ((cubeOrder.zip cubeNormals).map (fun f => cubePolygon sqrt c s f.1 f.2)) 3
  have e4 := getElem?_append_at h
    ((cubeOrder.zip cubeNormals).map (fun f => cubePolygon sqrt c s f.1 f.2)) 4
  have e5 := getElem?_append_at h
    ((cubeOrder.zip cubeNormals).map (fun f => cubePolygon sqrt c s f.1 f.2)) 5
  rw [Nat.add_zero] at e0
  simp only [allVertices, List.map_cons, List.map_nil, e0, e1, e2, e3, e4, e5]
  rfl

/-- A coordinate that is at most `0`, `lo` and `hi`, and is one of them, is
their minimum. -/
theorem eq_min_of_attained {x lo hi : K} (h0 : x ≤ 0) (h1 : x ≤ lo) (h2 : x ≤ hi)
    (ha : x = 0 ∨ x = lo ∨ x = hi) : x = min 0 (min lo hi) := by
  apply le_antisymm (le_min h0 (le_min h1 h2))
  rcases ha with e | e | e
  · rw [e]; exact min_le_left _ _
  · rw [e]; exact le_trans (min_le_right _ _) (min_le_left _ _)
  · rw [e]; exact le_trans (min_le_right _ _) (min_le_right _ _)

theorem eq_max_of_attained {x lo hi : K} (h0 : 0 ≤ x) (h1 : lo ≤ x) (h2 : hi ≤ x)
    (ha : x = 0 ∨ x = lo ∨ x = hi) : x = max 0 (max lo hi) := by
  apply le_antisymm _ (max_le h0 (max_le h1 h2))
  rcases ha with e | e | e
  · rw [e]; exact le_max_left _ _
  · rw [e]; exact le_trans (le_max_left _ _) (le_max_right _ _)
  · rw [e]; exact le_trans (le_max_right _ _) (le_max_right _ _)

/-- The box `BoundingBox()` returns for a cube: the cube's extent joined with
the origin, the zero value the box starts from. -/
theorem NewCube_box (sqrt : K → K) (c s : Vector K) (h : Heap K) :
    ∃ h1 cube b, NewCube sqrt (some ⟨some c, some s⟩) h = .ok (h1, cube) ∧
      cube.BoundingBox h1 = .ok b ∧
      b.Min = ⟨min 0 (min (c.X - s.X / 2) (c.X + s.X / 2)),
        min 0 (min (c.Y - s.Y / 2) (c.Y + s.Y / 2)),
        min 0 (min (c.Z - s.Z / 2) (c.Z + s.Z / 2))⟩ ∧
      b.Max = ⟨max 0 (max (c.X - s.X / 2) (c.X + s.X / 2)),
        max 0 (max (c.Y - s.Y / 2) (c.Y + s.Y / 2)),
        max 0 (max (c.Z - s.Z / 2) (c.Z + s.Z / 2))⟩ := by
  refine ⟨_, _, _, NewCube_eq sqrt c s h, BoundingBox_ok _ _ ?_, ?_⟩
  · intro p hp
    simp only [List.mem_cons, List.mem_singleton, List.not_mem_nil, or_false] at hp
    have hlen : (h ++ (cubeOrder.zip cubeNormals).map
        (fun f => cubePolygon sqrt c s f.1 f.2)).length = h.length + 6 := by
      rw [List.length_append, List.length_map]
      rfl
    rw [hlen]
    rcases hp with rfl | rfl | rfl | rfl | rfl | rfl <;> simp
  · rw [allVertices_cube]
    generalize hl : ((cubeOrder.zip cubeNormals).map (fun f => cubeFace c s f.1 f.2)).flatten = l
    have hmem : ∀ v ∈ l,
        (v.Position.X = c.X - s.X / 2 ∨ v.Position.X = c.X + s.X / 2) ∧
        (v.Position.Y = c.Y - s.Y / 2 ∨ v.Position.Y = c.Y + s.Y / 2) ∧
        (v.Position.Z = c.Z - s.Z / 2 ∨ v.Position.Z = c.Z + s.Z / 2) := by
      rw [← hl]
      simp only [cubeOrder, cubeNormals, List.zip_cons_cons, List.zip_nil_right, List.map_cons,
        List.map_nil, cubeFace, List.flatten_cons, List.flatten_nil, List.cons_append,
        List.nil_append, List.forall_mem_cons]
      rw [cubeCorner_eq c s 0 (by decide), cubeCorner_eq c s 1 (by decide),
        cubeCorner_eq c s 2 (by decide), cubeCorner_eq c s 3 (by decide),
        cubeCorner_eq c s 4 (by decide), cubeCorner_eq c s 5 (by decide),
        cubeCorner_eq c s 6 (by decide), cubeCorner_eq c s 7 (by decide)]
      norm_num [sub_eq_add_neg]
    have hlo : (⟨cubeCorner c s 0, ⟨-1, 0, 0⟩⟩ : Vertex K) ∈ l := by
      rw [← hl]
      simp [cubeOrder, cubeNormals, cubeFace]
    have hhi : (⟨cubeCorner c s 7, ⟨1, 0, 0⟩⟩ : Vertex K) ∈ l := by
      rw [← hl]
      simp [cubeOrder, cubeNormals, cubeFace]
    obtain ⟨⟨m1, m2, m3⟩, m4, m5, m6⟩ := AddVertex_fold_mono l Box.zero
    obtain ⟨⟨p1, p2, p3⟩, _, _, _⟩ := AddVertex_fold_includes l Box.zero _ hlo
    obtain ⟨⟨q1, q2, q3⟩, _, _, _⟩ := AddVertex_fold_includes l Box.zero _ hhi
    obtain ⟨_, p4, p5, p6⟩ := AddVertex_fold_includes l Box.zero _ hlo
    obtain ⟨_, q4, q5, q6⟩ := AddVertex_fold_includes l Box.zero _ hhi
    obtain ⟨a1, a2, a3, a4, a5, a6⟩ := AddVertex_fold_attained l Box.zero
    rw [cubeCorner_eq c s 0 (by decide)] at p1 p2 p3 p4 p5 p6
    rw [cubeCorner_eq c s 7 (by decide)] at q1 q2 q3 q4 q5 q6
    norm_num [← sub_eq_add_neg] at p1 p2 p3 p4 p5 p6 q1 q2 q3 q4 q5 q6
    generalize l.foldl Box.AddVertex Box.zero = b at *
    simp only [Box.zero] at m1 m2 m3 m4 m5 m6 a1 a2 a3 a4 a5 a6
    obtain ⟨⟨x0, y0, z0⟩, ⟨x1, y1, z1⟩⟩ := b
    simp only [Vector.mk.injEq] at *
    refine ⟨⟨eq_min_of_attained m1 (by linarith) (by linarith) ?_,
      eq_min_of_attained m2 (by linarith) (by linarith) ?_,
      eq_min_of_attained m3 (by linarith) (by linarith) ?_⟩,
      eq_max_of_attained m4 (by linarith) (by linarith) ?_,
      eq_max_of_attained m5 (by linarith) (by linarith) ?_,
      eq_max_of_attained m6 (by linarith) (by linarith) ?_⟩
    · rcases a1 with e | ⟨v, hv, e⟩
      · exact Or.inl e
      · rw [e]; exact Or.inr (hmem v hv).1
    · rcases a2 with e | ⟨v, hv, e⟩
      · exact Or.inl e
      · rw [e]; exact Or.inr (hmem v hv).2.1
    · rcases a3 with e | ⟨v, hv, e⟩
      · exact Or.inl e
      · rw [e]; exact Or.inr (hmem v hv).2.2
    · rcases a4 with e | ⟨v, hv, e⟩
      · exact Or.inl e
      · rw [e]; exact Or.inr (hmem v hv).1
    · rcases a5 with e | ⟨v, hv, e⟩
      · exact Or.inl e
      · rw [e]; exact Or.inr (hmem v hv).2.1
    · rcases a6 with e | ⟨v, hv, e⟩
      · exact Or.inl e
      · rw [e]; exact Or.inr (hmem v hv).2.2

end Solids2

end Csg
namespace Csg

section SolidClaims

variable {K : Type} [LinearOrderedField K]

/-- C23: `BoundingBox()` starts from the zero box, so the box of a cube is the
cube's extent joined with the origin: `Min` is the componentwise minimum of
`0` and the corners `c ± s/2`, `Max` the maximum.  For the cube of the
test (size `(2,4,2)`, center `(1,1,1)`, which contains the origin) this is
`Min = (0,-1,0)`, `Max = (2,3,2)`, size `(2,4,2)`, center `(1,1,1)`; for
the cube of size `(2,2,2)` and center `(5,5,5)` it is `Min = (0,0,0)`,
`Max = (6,6,6)`, size `(6,6,6)` and center `(3,3,3)`, not `(4,4,4)`, `(6,6,6)`,
`(2,2,2)` and `(5,5,5)`. -/
theorem NewCube_bounding_box (sqrt : K → K) (c s : Vector K) (h : Heap K) :
    (∃ h1 cube b, NewCube sqrt (some ⟨some c, some s⟩) h = .ok (h1, cube) ∧
      cube.BoundingBox h1 = .ok b ∧
      b.Min = ⟨min 0 (min (c.X - s.X / 2) (c.X + s.X / 2)),
        min 0 (min (c.Y - s.Y / 2) (c.Y + s.Y / 2)),
        min 0 (min (c.Z - s.Z / 2) (c.Z + s.Z / 2))⟩ ∧
      b.Max = ⟨max 0 (max (c.X - s.X / 2) (c.X + s.X / 2)),
        max 0 (max (c.Y - s.Y / 2) (c.Y + s.Y / 2)),
        max 0 (max (c.Z - s.Z / 2) (c.Z + s.Z / 2))⟩) ∧
    (∃ h1 cube b, NewCube sqrt (some ⟨some ⟨1, 1, 1⟩, some ⟨2, 4, 2⟩⟩) h = .ok (h1, cube) ∧
      cube.BoundingBox h1 = .ok b ∧ b = ⟨⟨0, -1, 0⟩, ⟨2, 3, 2⟩⟩ ∧ b.Size = ⟨2, 4, 2⟩ ∧
      b.Center = ⟨1, 1, 1⟩) ∧
    ∃ h1 cube b, NewCube sqrt (some ⟨some ⟨5, 5, 5⟩, some ⟨2, 2, 2⟩⟩) h = .ok (h1, cube) ∧
      cube.BoundingBox h1 = .ok b ∧ b = ⟨⟨0, 0, 0⟩, ⟨6, 6, 6⟩⟩ ∧ b.Size = ⟨6, 6, 6⟩ ∧
      b.Center = ⟨3, 3, 3⟩ := by
  refine ⟨NewCube_box sqrt c s h, ?_, ?_⟩
  · obtain ⟨h1, cube, b, e1, e2, e3, e4⟩ := NewCube_box sqrt ⟨1, 1, 1⟩ ⟨2, 4, 2⟩ h
    obtain ⟨bmin, bmax⟩ := b
    simp only at e3 e4
    norm_num at e3 e4
    subst e3 e4
    refine ⟨h1, cube, _, e1, e2, rfl, ?_, ?_⟩
    · simp only [Box.Size, Vector.mk.injEq]
      norm_num
    · simp only [Box.Center, Vector.Minus, Vector.DividedBy, Vector.Plus, Vector.mk.injEq]
      norm_num
  · obtain ⟨h1, cube, b, e1, e2, e3, e4⟩ := NewCube_box sqrt ⟨5, 5, 5⟩ ⟨2, 2, 2⟩ h
    obtain ⟨bmin, bmax⟩ := b
    simp only at e3 e4
    norm_num at e3 e4
    subst e3 e4
    refine ⟨h1, cube, _, e1, e2, rfl, ?_, ?_⟩
    · simp only [Box.Size, Vector.mk.injEq]
      norm_num
    · simp only [Box.Center, Vector.Minus, Vector.DividedBy, Vector.Plus, Vector.mk.injEq]
      norm_num

/-- C26: with an exact square root, for every center and every size with
positive components `NewCube` returns six polygons of four vertices each; their
vertex positions are the corners picked by the table `order`, the eight
corners being `center ± size / 2`; the computed plane normals are `(-1,0,0)`,
`(1,0,0)`, `(0,-1,0)`, `(0,1,0)`, `(0,0,-1)`, `(0,0,1)` in that order, and each
is the normal stored on the four vertices of its polygon. -/
theorem NewCube_faces (sqrt : K → K) (hsq : ∀ x : K, 0 ≤ x → sqrt (x * x) = x)
    (c s : Vector K) (hx : 0 < s.X) (hy : 0 < s.Y) (hz : 0 < s.Z) (h : Heap K) :
    ∃ polys : List (Polygon K),
      NewCube sqrt (some ⟨some c, some s⟩) h =
        .ok (h ++ polys,
          ⟨[h.length, h.length + 1, h.length + 2, h.length + 3, h.length + 4, h.length + 5]⟩) ∧
      polys.length = 6 ∧ (∀ P ∈ polys, P.Vertices.length = 4) ∧
      polys.map (fun P => P.Vertices.map fun v => v.Position) =
        cubeOrder.map (fun o => o.map (cubeCorner c s)) ∧
      (List.range 8).map (cubeCorner c s) =
        [⟨c.X - s.X / 2, c.Y - s.Y / 2, c.Z - s.Z / 2⟩,
         ⟨c.X + s.X / 2, c.Y - s.Y / 2, c.Z - s.Z / 2⟩,
         ⟨c.X - s.X / 2, c.Y + s.Y / 2, c.Z - s.Z / 2⟩,
         ⟨c.X + s.X / 2, c.Y + s.Y / 2, c.Z - s.Z / 2⟩,
         ⟨c.X - s.X / 2, c.Y - s.Y / 2, c.Z + s.Z / 2⟩,
         ⟨c.X + s.X / 2, c.Y - s.Y / 2, c.Z + s.Z / 2⟩,
         ⟨c.X - s.X / 2, c.Y + s.Y / 2, c.Z + s.Z / 2⟩,
         ⟨c.X + s.X / 2, c.Y + s.Y / 2, c.Z + s.Z / 2⟩] ∧
      polys.map (fun P => P.Plane.Normal) =
        [⟨-1, 0, 0⟩, ⟨1, 0, 0⟩, ⟨0, -1, 0⟩, ⟨0, 1, 0⟩, ⟨0, 0, -1⟩, ⟨0, 0, 1⟩] ∧
      ∀ P ∈ polys, ∀ v ∈ P.Vertices, v.Normal = P.Plane.Normal := by
  have hn := cubePolygon_normals sqrt hsq c s hx hy hz
  refine ⟨_, NewCube_eq sqrt c s h, rfl, ?_, rfl, cubeCorner_values c s, ?_, ?_⟩
  · intro P hP
    simp only [cubeOrder, cubeNormals, List.zip_cons_cons, List.zip_nil_right, List.map_cons,
      List.map_nil, List.mem_cons, List.mem_singleton, List.not_mem_nil, or_false] at hP
    rcases hP with rfl | rfl | rfl | rfl | rfl | rfl <;> rfl
  · rw [List.map_map]
    exact hn
  · simp only [cubeOrder, cubeNormals, List.zip_cons_cons, List.zip_nil_right, List.map_cons,
      List.map_nil, List.cons.injEq, and_true] at hn
    obtain ⟨n0, n1, n2, n3, n4, n5⟩ := hn
    intro P hP v hv
    simp only [cubeOrder, cubeNormals, List.zip_cons_cons, List.zip_nil_right, List.map_cons,
      List.map_nil, List.mem_cons, List.mem_singleton, List.not_mem_nil, or_false] at hP
    rcases hP with rfl | rfl | rfl | rfl | rfl | rfl
    · rw [n0]
      simp only [cubePolygon, cubeFace, List.map_cons, List.map_nil, List.mem_cons,
        List.mem_singleton, List.not_mem_nil, or_false] at hv
      rcases hv with rfl | rfl | rfl | rfl <;> rfl
    · rw [n1]
      simp only [cubePolygon, cubeFace, List.map_cons, List.map_nil, List.mem_cons,
        List.mem_singleton, List.not_mem_nil, or_false] at hv
      rcases hv with rfl | rfl | rfl | rfl <;> rfl
    · rw [n2]
      simp only [cubePolygon, cubeFace, List.map_cons, List.map_nil, List.mem_cons,
        List.mem_singleton, List.not_mem_nil, or_false] at hv
      rcases hv with rfl | rfl | rfl | rfl <;> rfl
    · rw [n3]
      simp only [cubePolygon, cubeFace, List.map_cons, List.map_nil, List.mem_cons,
        List.mem_singleton, List.not_mem_nil, or_false] at hv
      rcases hv with rfl | rfl | rfl | rfl <;> rfl
    · rw [n4]
      simp only [cubePolygon, cubeFace, List.map_cons, List.map_nil, List.mem_cons,
        List.mem_singleton, List.not_mem_nil, or_false] at hv
      rcases hv with rfl | rfl | rfl | rfl <;> rfl
    · rw [n5]
      simp only [cubePolygon, cubeFace, List.map_cons, List.map_nil, List.mem_cons,
        List.mem_singleton, List.not_mem_nil, or_false] at hv
      rcases hv with rfl | rfl | rfl | rfl <;> rfl

/-- C26 on the cube of the test over the reals, with the real square root:
size `(2,4,2)`, center `(1,1,1)`. -/
theorem NewCube_faces_witness :
    ((0 : ℝ) < 2 ∧ (0 : ℝ) < 4) ∧
    ∃ polys : List (Polygon ℝ),
      NewCube Real.sqrt (some ⟨some ⟨1, 1, 1⟩, some ⟨2, 4, 2⟩⟩) [] = .ok ([] ++ polys, ⟨[0, 1, 2, 3, 4, 5]⟩) ∧
      polys.length = 6 ∧
      polys.map (fun P => P.Plane.Normal) =
        [⟨-1, 0, 0⟩, ⟨1, 0, 0⟩, ⟨0, -1, 0⟩, ⟨0, 1, 0⟩, ⟨0, 0, -1⟩, ⟨0, 0, 1⟩] ∧
      ∀ P ∈ polys, ∀ v ∈ P.Vertices, v.Normal = P.Plane.Normal := by
  obtain ⟨polys, e, l, _, _, _, n, hv⟩ := NewCube_faces Real.sqrt
    (fun x hx => Real.sqrt_mul_self hx) (⟨1, 1, 1⟩ : Vector ℝ) ⟨2, 4, 2⟩
    (by norm_num) (by norm_num) (by norm_num) []
  exact ⟨⟨by norm_num, by norm_num⟩, polys, e, l, n, hv⟩

end SolidClaims

end Csg
namespace Csg

section Sphere

variable {K : Type} [LinearOrderedField K]

theorem sphereCell_length (cos sin : K → K) (pi : K) (center : Vector K) (radius S : K)
    (T i j : Nat) (hT : 2 ≤ T) (hj : j < T) :
    (sphereCell cos sin pi center radius S (T : K) i j).length =
      if j = 0 ∨ j = T - 1 then 3 else 4 := by
  unfold sphereCell
  by_cases h0 : j = 0
  · subst h0
    have h1 : ¬ ((0 : Nat) : K) > 0 := by simp
    have h2 : ((0 : Nat) : K) < (T : K) - 1 := by
      have : (2 : K) ≤ (T : K) := by exact_mod_cast hT
      simp only [Nat.cast_zero]
      linarith
    rw [if_neg h1, if_pos h2, if_pos (Or.inl rfl)]
    rfl
  · have h1 : (j : K) > 0 := by
      have : 0 < j := Nat.pos_of_ne_zero h0
      exact_mod_cast this
    by_cases hl : j = T - 1
    · have h2 : ¬ (j : K) < (T : K) - 1 := by
        have e : (j : K) + 1 = (T : K) := by
          have : j + 1 = T := by omega
          exact_mod_cast this
        intro hlt
        linarith
      rw [if_pos h1, if_neg h2, if_pos (Or.inr hl)]
      rfl
    · have h2 : (j : K) < (T : K) - 1 := by
        have e : (j : K) + 1 < (T : K) := by
          have : j + 1 < T := by omega
          exact_mod_cast this
        linarith
      rw [if_pos h1, if_pos h2, if_neg (by
        intro h
        rcases h with h | h
        · exact h0 h
        · exact hl h)]
      rfl

theorem sphereCell_one (cos sin : K → K) (pi : K) (center : Vector K) (radius S : K) (i : Nat) :
    (sphereCell cos sin pi center radius S ((1 : Nat) : K) i 0).length = 2 := by
  unfold sphereCell
  have h1 : ¬ ((0 : Nat) : K) > 0 := by simp
  have h2 : ¬ ((0 : Nat) : K) < ((1 : Nat) : K) - 1 := by simp
  rw [if_neg h1, if_neg h2]
  rfl

theorem NewPolygonFromVertices_short (sqrt : K → K) (vs : List (Vertex K))
    (h : vs.length < 3) : NewPolygonFromVertices sqrt vs = none := by
  match vs, h with
  | [], _ => rfl
  | [_], _ => rfl
  | [_, _], _ => rfl
  | _ :: _ :: _ :: _, h => exact absurd h (by simp)

theorem NewPolygonFromVertices_some (sqrt : K → K) (vs : List (Vertex K))
    (h : 3 ≤ vs.length) : ∃ P, NewPolygonFromVertices sqrt vs = some P ∧ P.Vertices = vs := by
  match vs, h with
  | [], h => simp at h
  | [_], h => simp at h
  | [_, _], h => simp at h
  | _ :: _ :: _ :: _, _ => exact ⟨_, rfl, rfl⟩

theorem sphereStep_error (sqrt cos sin : K → K) (pi : K) (center : Vector K) (radius S T : K)
    (i : Nat) (e : Err) (l : List Nat) :
    l.foldl (sphereStep sqrt cos sin pi center radius S T i) (.error e) = .error e := by
  induction l with
  | nil => rfl
  | cons j l ih => exact ih

theorem sphere_outer_error (sqrt cos sin : K → K) (pi : K) (center : Vector K) (radius S T : K)
    (e : Err) (n : Nat) (l : List Nat) :
    l.foldl (fun acc i => (List.range n).foldl
      (sphereStep sqrt cos sin pi center radius S T i) acc) (.error e) = .error e := by
  induction l with
  | nil => rfl
  | cons j l ih =>
    rw [List.foldl_cons, sphereStep_error]
    exact ih

/-- The inner loop of `NewSphere` over the stacks of one slice. -/
theorem sphere_inner (sqrt cos sin : K → K) (pi : K) (center : Vector K) (radius S : K)
    (T i : Nat) (hT : 2 ≤ T) :
    ∀ n, n ≤ T → ∀ (h : Heap K) (ps : List Ptr), ∃ chunk : List (Polygon K),
      (List.range n).foldl (sphereStep sqrt cos sin pi center radius S (T : K) i) (.ok (h, ps)) =
        .ok (h ++ chunk, ps ++ List.range' h.length n) ∧
      chunk.length = n ∧
      ∀ j < n, ∃ P, chunk[j]? = some P ∧
        P.Vertices = sphereCell cos sin pi center radius S (T : K) i j ∧
        P.Vertices.length = if j = 0 ∨ j = T - 1 then 3 else 4
  | 0, _, h, ps => ⟨[], by simp, rfl, fun j hj => absurd hj (by omega)⟩
  | n + 1, hn, h, ps => by
    obtain ⟨chunk, e, hl, hc⟩ := sphere_inner sqrt cos sin pi center radius S T i hT n
      (by omega) h ps
    have hlen := sphereCell_length cos sin pi center radius S T i n hT (by omega)
    obtain ⟨P, eP, hP⟩ := NewPolygonFromVertices_some sqrt
      (sphereCell cos sin pi center radius S (T : K) i n) (by rw [hlen]; split_ifs <;> omega)
    refine ⟨chunk ++ [P], ?_, by rw [List.length_append, hl]; rfl, ?_⟩
    · rw [List.range_succ, List.foldl_append, e]
      simp only [List.foldl_cons, List.foldl_nil, sphereStep, eP]
      rw [List.range'_1_concat, List.append_assoc, List.append_assoc, List.length_append, hl]
    · intro j hj
      by_cases hjn : j < n
      · obtain ⟨Q, eQ, hQ⟩ := hc j hjn
        exact ⟨Q, by rw [List.getElem?_append_left (by rw [hl]; exact hjn)]; exact eQ, hQ⟩
      · have : j = n := by omega
        subst this
        refine ⟨P, ?_, hP, by rw [hP]; exact hlen⟩
        rw [← hl]
        exact getElem?_append_length chunk P []

end Sphere

end Csg
namespace Csg

section Sphere2

variable {K : Type} [LinearOrderedField K]

/-- The outer loop of `NewSphere` over the slices. -/
theorem sphere_outer (sqrt cos sin : K → K) (pi : K) (center : Vector K) (radius S : K)
    (T : Nat) (hT : 2 ≤ T) :
    ∀ n (h : Heap K) (ps : List Ptr), ∃ chunks : List (List (Polygon K)),
      (List.range n).foldl (fun acc i => (List.range T).foldl
          (sphereStep sqrt cos sin pi center radius S (T : K) i) acc) (.ok (h, ps)) =
        .ok (h ++ chunks.flatten, ps ++ List.range' h.length (n * T)) ∧
      chunks.length = n ∧ chunks.flatten.length = n * T ∧
      ∀ i < n, ∃ chunk, chunks[i]? = some chunk ∧ chunk.length = T ∧
        ∀ j < T, ∃ P, chunk[j]? = some P ∧
          P.Vertices = sphereCell cos sin pi center radius S (T : K) i j ∧
          P.Vertices.length = if j = 0 ∨ j = T - 1 then 3 else 4
  | 0, h, ps => ⟨[], by simp, rfl, by simp, fun i hi => absurd hi (by omega)⟩
  | n + 1, h, ps => by
    obtain ⟨chunks, e, hl, hf, hc⟩ := sphere_outer sqrt cos sin pi center radius S T hT n h ps
    obtain ⟨chunk, e2, hl2, hc2⟩ := sphere_inner sqrt cos sin pi center radius S T n hT T
      (le_refl _) (h ++ chunks.flatten) (ps ++ List.range' h.length (n * T))
    refine ⟨chunks ++ [chunk], ?_, by rw [List.length_append, hl]; rfl, ?_, ?_⟩
    · rw [List.range_succ, List.foldl_append, e]
      simp only [List.foldl_cons, List.foldl_nil]
      rw [e2, List.length_append, hf, List.flatten_append, List.append_assoc, List.append_assoc,
        List.range'_append_1, Nat.succ_mul]
      simp [Nat.add_comm]
    · rw [List.flatten_append, List.length_append, hf, Nat.succ_mul]
      simp [hl2]
    · intro i hi
      by_cases hin : i < n
      · obtain ⟨c, ec, hcc⟩ := hc i hin
        exact ⟨c, by rw [List.getElem?_append_left (by rw [hl]; exact hin)]; exact ec, hcc⟩
      · have : i = n := by omega
        subst this
        refine ⟨chunk, ?_, hl2, hc2⟩
        rw [← hl]
        exact getElem?_append_length chunks chunk []

end Sphere2

section SphereClaims

variable {K : Type} [LinearOrderedField K]

/-- C25: for `S ≥ 1` slices and `T ≥ 2` stacks `NewSphere` returns `S * T`
polygons, one for each cell (slice `i`, stack `j`), slice by slice; the
polygon of stack `j` has 3 vertices when `j = 0` or `j = T - 1` and 4
otherwise.  For `T = 1` the only cell of a slice has two vertices and
`NewPolygonFromVertices` indexes the third: `NewSphere` panics. -/
theorem NewSphere_cells (sqrt cos sin : K → K) (pi : K) (center : Option (Vector K))
    (radius : K) (S T : Nat) (h : Heap K) :
    (1 ≤ S → 2 ≤ T → ∃ chunks : List (List (Polygon K)),
      NewSphere sqrt cos sin pi (some ⟨center, radius, S, T⟩) h =
        .ok (h ++ chunks.flatten, ⟨List.range' h.length (S * T)⟩) ∧
      chunks.length = S ∧ chunks.flatten.length = S * T ∧
      ∀ i < S, ∃ chunk, chunks[i]? = some chunk ∧ chunk.length = T ∧
        ∀ j < T, ∃ P, chunk[j]? = some P ∧
          P.Vertices.length = if j = 0 ∨ j = T - 1 then 3 else 4) ∧
    (1 ≤ S → NewSphere sqrt cos sin pi (some ⟨center, radius, S, 1⟩) h =
      .error .indexOutOfRange) := by
  constructor
  · intro hS hT
    have hS0 : (S : Int) ≠ 0 := by omega
    have hT0 : (T : Int) ≠ 0 := by omega
    have hneg : ¬ (S : Int) * (T : Int) < 0 := not_lt.mpr (by positivity)
    obtain ⟨chunks, e, hl, hf, hc⟩ := sphere_outer sqrt cos sin pi (center.getD ⟨0, 0, 0⟩)
      (if radius ≠ 0 then radius else 1) (S : K) T hT S h []
    refine ⟨chunks, ?_, hl, hf, ?_⟩
    · unfold NewSphere
      simp only [Option.some_bind, if_pos hS0, if_pos hT0, if_neg hneg,
        Int.toNat_ofNat, Int.cast_natCast, e, List.nil_append]
      rfl
    · intro i hi
      obtain ⟨c, ec, hcl, hcc⟩ := hc i hi
      refine ⟨c, ec, hcl, fun j hj => ?_⟩
      obtain ⟨P, eP, _, hP⟩ := hcc j hj
      exact ⟨P, eP, hP⟩
  · intro hS
    have hS0 : (S : Int) ≠ 0 := by omega
    obtain ⟨n, rfl⟩ : ∃ n, S = n + 1 := ⟨S - 1, by omega⟩
    unfold NewSphere
    have h10 : (1 : Int) ≠ 0 := by decide
    simp only [Option.some_bind, if_pos hS0, if_pos h10, Int.toNat_ofNat, Int.cast_natCast,
      Int.toNat_one, Int.cast_one]
    have hneg2 : ¬ ((n + 1 : Nat) : Int) * 1 < 0 := not_lt.mpr (by positivity)
    rw [if_neg hneg2]
    have hstep : (List.range 1).foldl (sphereStep sqrt cos sin pi (center.getD ⟨0, 0, 0⟩)
        (if radius ≠ 0 then radius else 1) ((n + 1 : Nat) : K) 1 0) (.ok (h, [])) =
        .error .indexOutOfRange := by
      have hc := sphereCell_one cos sin pi (center.getD ⟨0, 0, 0⟩)
        (if radius ≠ 0 then radius else 1) ((n + 1 : Nat) : K) 0
      rw [Nat.cast_one] at hc
      have hnone := NewPolygonFromVertices_short sqrt _ (by rw [hc]; decide)
      have r1 : List.range 1 = [0] := by decide
      rw [r1]
      simp only [List.foldl_cons, List.foldl_nil, sphereStep, hnone]
    have hr : List.range (n + 1) = 0 :: (List.range n).map Nat.succ := by
      rw [List.range_succ_eq_map]
    rw [hr, List.foldl_cons, hstep, sphere_outer_error]

end SphereClaims

end Csg
namespace Csg

section Batches

variable {K : Type} [LinearOrderedField K]

/-- One polygon of the list is handled as its log says, then the rest. -/
theorem SplitPolygons_cons_log {σ : Type} (sqrt : K → K) (plane : Plane K)
    (emit : Side → Ptr → σ → σ) (p : Ptr) (rest : List Ptr) (h : Heap K) (out : σ) :
    SplitPolygons sqrt plane emit (p :: rest) h out =
      match SplitPolygons sqrt plane logEmit [p] h [] with
      | .error e => .error e
      | .ok (h1, ev) => SplitPolygons sqrt plane emit rest h1 (replay emit ev out) := by
  simp only [SplitPolygons]
  cases h[p]? with
  | none => rfl
  | some polygon =>
    dsimp only
    split_ifs <;> try rfl
    all_goals
      cases NewPolygonFromVertices sqrt (spanningLists plane polygon).1 <;>
      cases NewPolygonFromVertices sqrt (spanningLists plane polygon).2 <;> rfl

/-- A log replayed after a log is the joined log replayed. -/
theorem replay_append {σ : Type} (emit : Side → Ptr → σ → σ) (ev1 ev2 : List (Side × Ptr))
    (out : σ) : replay emit (ev1 ++ ev2) out = replay emit ev2 (replay emit ev1 out) := by
  simp [replay]

/-- Replaying a log onto a log appends it. -/
theorem replay_logEmit (ev ev0 : List (Side × Ptr)) : replay logEmit ev ev0 = ev0 ++ ev := by
  induction ev generalizing ev0 with
  | nil => simp [replay]
  | cons e ev ih =>
    have := ih (ev0 ++ [e])
    simp only [replay, List.foldl_cons] at this ⊢
    rw [show logEmit e.1 e.2 ev0 = ev0 ++ [e] from rfl, this]
    simp

/-- A run of the splitter is the replay of its log onto the caller's outputs. -/
theorem SplitPolygons_log {σ : Type} (sqrt : K → K) (plane : Plane K)
    (emit : Side → Ptr → σ → σ) (out : σ) :
    ∀ (l : List Ptr) (h : Heap K) (ev0 : List (Side × Ptr)),
      SplitPolygons sqrt plane emit l h (replay emit ev0 out) =
        match SplitPolygons sqrt plane logEmit l h ev0 with
        | .error e => .error e
        | .ok (h1, ev) => .ok (h1, replay emit ev out)
  | [], h, ev0 => by simp [SplitPolygons]
  | p :: rest, h, ev0 => by
    rw [SplitPolygons_cons_log sqrt plane emit p rest,
      SplitPolygons_cons_log sqrt plane logEmit p rest h ev0]
    cases SplitPolygons sqrt plane logEmit [p] h [] with
    | error e => rfl
    | ok r =>
      obtain ⟨h1, ev⟩ := r
      dsimp only
      rw [← replay_append, replay_logEmit]
      exact SplitPolygons_log sqrt plane emit out rest h1 (ev0 ++ ev)

/-- The splitter on a list cut in two is the splitter on the first part
followed by the splitter on the second. -/
theorem SplitPolygons_append {σ : Type} (sqrt : K → K) (plane : Plane K)
    (emit : Side → Ptr → σ → σ) :
    ∀ (l1 l2 : List Ptr) (h : Heap K) (out : σ),
      SplitPolygons sqrt plane emit (l1 ++ l2) h out =
        match SplitPolygons sqrt plane emit l1 h out with
        | .error e => .error e
        | .ok (h1, out1) => SplitPolygons sqrt plane emit l2 h1 out1
  | [], l2, h, out => by simp [SplitPolygons]
  | p :: rest, l2, h, out => by
    rw [List.cons_append, SplitPolygons_cons_log sqrt plane emit p (rest ++ l2),
      SplitPolygons_cons_log sqrt plane emit p rest]
    cases SplitPolygons sqrt plane logEmit [p] h [] with
    | error e => rfl
    | ok r =>
      obtain ⟨h1, ev⟩ := r
      exact SplitPolygons_append sqrt plane emit rest l2 h1 _

/-- Appending a worker's four slices to four distinct outputs. -/
theorem flush_Outs (l out : Outs) :
    flush Outs.emit l out =
      ⟨out.coplanarFront ++ l.coplanarFront, out.coplanarBack ++ l.coplanarBack,
        out.front ++ l.front, out.back ++ l.back⟩ := by
  have a : ∀ (xs : List Ptr) (o : Outs),
      xs.foldl (fun s p => Outs.emit .coplanarFront p s) o =
        { o with coplanarFront := o.coplanarFront ++ xs } := by
    intro xs
    induction xs with
    | nil => intro o; simp
    | cons x xs ih => intro o; rw [List.foldl_cons, ih]; simp [Outs.emit]
  have b : ∀ (xs : List Ptr) (o : Outs),
      xs.foldl (fun s p => Outs.emit .coplanarBack p s) o =
        { o with coplanarBack := o.coplanarBack ++ xs } := by
    intro xs
    induction xs with
    | nil => intro o; simp
    | cons x xs ih => intro o; rw [List.foldl_cons, ih]; simp [Outs.emit]
  have c : ∀ (xs : List Ptr) (o : Outs),
      xs.foldl (fun s p => Outs.emit .front p s) o = { o with front := o.front ++ xs } := by
    intro xs
    induction xs with
    | nil => intro o; simp
    | cons x xs ih => intro o; rw [List.foldl_cons, ih]; simp [Outs.emit]
  have d : ∀ (xs : List Ptr) (o : Outs),
      xs.foldl (fun s p => Outs.emit .back p s) o = { o with back := o.back ++ xs } := by
    intro xs
    induction xs with
    | nil => intro o; simp
    | cons x xs ih => intro o; rw [List.foldl_cons, ih]; simp [Outs.emit]
  rw [flush, a, b, c, d]

/-- A log replayed onto four distinct outputs appends, to each, what the log
replayed onto empty outputs holds. -/
theorem replay_Outs (ev : List (Side × Ptr)) :
    ∀ (l out : Outs), replay Outs.emit ev (flush Outs.emit l out) =
      flush Outs.emit (replay Outs.emit ev l) out := by
  induction ev with
  | nil => intro l out; rfl
  | cons e ev ih =>
    intro l out
    have step : Outs.emit e.1 e.2 (flush Outs.emit l out) =
        flush Outs.emit (Outs.emit e.1 e.2 l) out := by
      obtain ⟨s, p⟩ := e
      rw [flush_Outs, flush_Outs]
      cases s <;> simp [Outs.emit]
    simp only [replay, List.foldl_cons] at ih ⊢
    rw [step, ih]

/-- The splitter run into the caller's four lists is the splitter run into
four empty lists, appended to the caller's. -/
theorem SplitPolygons_flush (sqrt : K → K) (plane : Plane K) (l : List Ptr) (h : Heap K)
    (out : Outs) :
    SplitPolygons sqrt plane Outs.emit l h out =
      match splitBatch sqrt plane l h with
      | .error e => .error e
      | .ok (h1, o) => .ok (h1, flush Outs.emit o out) := by
  have e1 := SplitPolygons_log sqrt plane Outs.emit out l h []
  have e2 := SplitPolygons_log sqrt plane Outs.emit ⟨[], [], [], []⟩ l h []
  rw [show replay Outs.emit [] out = out from rfl] at e1
  rw [show replay Outs.emit [] (⟨[], [], [], []⟩ : Outs) = ⟨[], [], [], []⟩ from rfl] at e2
  rw [splitBatch, e1, e2]
  cases SplitPolygons sqrt plane logEmit l h [] with
  | error e => rfl
  | ok r =>
    obtain ⟨h1, ev⟩ := r
    dsimp only
    have := replay_Outs ev ⟨[], [], [], []⟩ out
    rw [← this, flush_Outs]
    simp

/-- Running the batches in turn and appending their results in batch order is
the splitter on the whole list. -/
theorem runBatches_serial (sqrt : K → K) (plane : Plane K) :
    ∀ (bs : List (List Ptr)) (h : Heap K) (out : Outs),
      SplitPolygons sqrt plane Outs.emit bs.flatten h out =
        match runBatches sqrt plane bs h with
        | .error e => .error e
        | .ok (h1, ls) => .ok (h1, ls.foldl (fun s l => flush Outs.emit l s) out)
  | [], h, out => by simp [SplitPolygons, runBatches]
  | b :: bs, h, out => by
    rw [List.flatten_cons, SplitPolygons_append, SplitPolygons_flush, runBatches]
    cases splitBatch sqrt plane b h with
    | error e => rfl
    | ok r =>
      obtain ⟨h1, o⟩ := r
      dsimp only
      rw [runBatches_serial sqrt plane bs h1]
      cases runBatches sqrt plane bs h1 with
      | error e => rfl
      | ok r2 => rfl

/-- The batches handed out are the list, cut up. -/
theorem batchesFrom_flatten (batchSize : Nat) (hb : 0 < batchSize) :
    ∀ (fuel : Nat) (rest : List Ptr), rest.length < fuel →
      (batchesFrom batchSize fuel rest).flatten = rest
  | 0, rest, hf => absurd hf (by omega)
  | fuel + 1, rest, hf => by
    rw [batchesFrom]
    split_ifs with hlt
    · simp
    · rw [List.flatten_cons, batchesFrom_flatten batchSize hb fuel (rest.drop batchSize)
        (by rw [List.length_drop]; omega)]
      exact List.take_append_drop _ _

/-- Appending results to four distinct outputs, in any order of the results. -/
theorem foldl_flush (ls : List Outs) (out : Outs) :
    ls.foldl (fun s l => flush Outs.emit l s) out =
      ⟨out.coplanarFront ++ (ls.map Outs.coplanarFront).flatten,
        out.coplanarBack ++ (ls.map Outs.coplanarBack).flatten,
        out.front ++ (ls.map Outs.front).flatten,
        out.back ++ (ls.map Outs.back).flatten⟩ := by
  induction ls generalizing out with
  | nil => simp
  | cons l ls ih => rw [List.foldl_cons, ih, flush_Outs]; simp

/-- An order that names each batch once lists the results up to a permutation. -/
theorem order_perm (ls : List Outs) (order : List Nat)
    (ho : order.Perm (List.range ls.length)) :
    (order.map fun i => ls.getD i ⟨[], [], [], []⟩).Perm ls := by
  have h1 := ho.map (fun i => ls.getD i ⟨[], [], [], []⟩)
  refine h1.trans (List.Perm.of_eq ?_)
  apply List.ext_getElem
  · simp
  · intro i h1 h2
    simp at h1 h2 ⊢
    rw [List.getElem?_eq_getElem h2]
    rfl

/-- The parts of a permuted list of results, joined, are a permutation. -/
theorem perm_field (f : Outs → List Ptr) (l1 l2 : List Outs) (hp : l1.Perm l2) (pre : List Ptr) :
    (pre ++ (l1.map f).flatten).Perm (pre ++ (l2.map f).flatten) :=
  List.Perm.append_left pre (List.Perm.flatten (hp.map f))

/-- Claim C28.  For every plane and every cut of a polygon list into
consecutive batches `bs`, running the basic splitter on each batch (each into
four empty lists) and appending the four results of each batch to the
caller's four lists in batch order gives exactly what the splitter gives on
the whole list `bs.flatten`, errors included.  The multi-core splitter hands
out batches that join to the whole list, and for every order of the appends
that names each batch once it returns, when the serial splitter returns, the
same heap and in each of the four lists a permutation of the serial list; it
fails exactly when the serial splitter fails. -/
theorem batched_split_is_serial (sqrt : K → K) (plane : Plane K) (h : Heap K) (out : Outs) :
    (∀ bs : List (List Ptr),
      (match runBatches sqrt plane bs h with
        | .error e => .error e
        | .ok (h1, ls) => .ok (h1, ls.foldl (fun s l => flush Outs.emit l s) out)) =
        SplitPolygons sqrt plane Outs.emit bs.flatten h out) ∧
    (∀ polygons : List Ptr, (batches 500 polygons).flatten = polygons) ∧
    (∀ (polygons : List Ptr) (order : List Nat),
      order.Perm (List.range (batches 500 polygons).length) →
      (∀ e, SplitPolygons sqrt plane Outs.emit polygons h out = .error e →
        MultiCoreSplitPolygons sqrt plane Outs.emit order polygons h out = .error e) ∧
      (∀ h1 o1, SplitPolygons sqrt plane Outs.emit polygons h out = .ok (h1, o1) →
        ∃ o2, MultiCoreSplitPolygons sqrt plane Outs.emit order polygons h out = .ok (h1, o2) ∧
          o2.coplanarFront.Perm o1.coplanarFront ∧ o2.coplanarBack.Perm o1.coplanarBack ∧
          o2.front.Perm o1.front ∧ o2.back.Perm o1.back)) := by
  have hfl : ∀ polygons : List Ptr, (batches 500 polygons).flatten = polygons := fun polygons =>
    batchesFrom_flatten 500 (by decide) _ polygons (Nat.lt_succ_self _)
  refine ⟨fun bs => (runBatches_serial sqrt plane bs h out).symm, hfl, ?_⟩
  intro polygons order ho
  have hs := runBatches_serial sqrt plane (batches 500 polygons) h out
  rw [hfl] at hs
  unfold MultiCoreSplitPolygons
  split_ifs with hlen
  · cases hrun : runBatches sqrt plane (batches 500 polygons) h with
    | error e0 =>
      rw [hrun] at hs
      refine ⟨fun e he => ?_, fun h1 o1 he => ?_⟩
      · rw [hs] at he
        exact he
      · rw [hs] at he
        cases he
    | ok r =>
      obtain ⟨h2, ls⟩ := r
      rw [hrun] at hs
      dsimp only at hs ⊢
      refine ⟨fun e he => ?_, fun h1 o1 he => ?_⟩
      · rw [hs] at he
        cases he
      · rw [hs] at he
        injection he with he
        injection he with e1 e2
        subst e1
        have hlen2 : ls.length = (batches 500 polygons).length := by
          have : ∀ (bs : List (List Ptr)) (h : Heap K) h2 ls,
              runBatches sqrt plane bs h = .ok (h2, ls) → ls.length = bs.length := by
            intro bs
            induction bs with
            | nil =>
              intro h h2 ls e
              rw [runBatches] at e
              injection e with e
              injection e with _ e
              rw [← e]
              rfl
            | cons b bs ih =>
              intro h h2 ls e
              rw [runBatches] at e
              cases hb : splitBatch sqrt plane b h with
              | error e0 => rw [hb] at e; cases e
              | ok r =>
                obtain ⟨h3, l⟩ := r
                rw [hb] at e
                dsimp only at e
                cases hr : runBatches sqrt plane bs h3 with
                | error e0 => rw [hr] at e; cases e
                | ok r2 =>
                  obtain ⟨h4, ls2⟩ := r2
                  rw [hr] at e
                  injection e with e
                  injection e with _ e
                  rw [← e, List.length_cons, List.length_cons, ih h3 h4 ls2 hr]
          exact this _ _ _ _ hrun
        rw [← hlen2] at ho
        have hp := order_perm ls order ho
        refine ⟨_, rfl, ?_⟩
        have hm : order.foldl
            (fun s i => flush Outs.emit (ls.getD i ⟨[], [], [], []⟩) s) out =
            (order.map fun i => ls.getD i ⟨[], [], [], []⟩).foldl
              (fun s l => flush Outs.emit l s) out := by
          rw [List.foldl_map]
        rw [← e2, foldl_flush, hm, foldl_flush]
        exact ⟨perm_field _ _ _ hp _, perm_field _ _ _ hp _, perm_field _ _ _ hp _,
          perm_field _ _ _ hp _⟩
  · exact ⟨fun e he => he, fun h1 o1 he => ⟨o1, he, List.Perm.refl _, List.Perm.refl _,
      List.Perm.refl _, List.Perm.refl _⟩⟩

end Batches

end Csg
namespace Csg

section Termination

variable {K : Type} [LinearOrderedField K]

/-- A polygon stays what it is when the heap grows. -/
theorem BuiltFlat_mono (sqrt : K → K) {h h1 : Heap K} (hp : h <+: h1) {p : Ptr}
    (hb : BuiltFlat sqrt h p) : BuiltFlat sqrt h1 p := by
  obtain ⟨poly, e, rest⟩ := hb
  exact ⟨poly, prefix_lookup hp e, rest⟩

/-- The positions of a plane `m · x = c` are closed under interpolation. -/
theorem level_convex (m : Vector K) (c : K) : ConvexSet (fun x => m.Dot x = c) := by
  intro a b t ha hb _ _
  simp only [Vector.Dot, Vector.Lerp, Vector.Plus, Vector.Minus, Vector.Times] at *
  linear_combination (1 - t) * ha + t * hb

/-- A polygon with vertices exactly in one plane has all its vertices at
distance zero from the plane `NewPolygonFromVertices` gives it. -/
theorem own_plane_distance (sqrt : K → K) (poly : Polygon K)
    (hb : NewPolygonFromVertices sqrt poly.Vertices = some poly)
    (m : Vector K) (c : K) (hm : m ≠ ⟨0, 0, 0⟩) (hc : ∀ v ∈ poly.Vertices, m.Dot v.Position = c) :
    ∀ v ∈ poly.Vertices, poly.Plane.Normal.Dot v.Position - poly.Plane.W = 0 := by
  obtain ⟨vs, pl⟩ := poly
  match vs, hb, hc with
  | v0 :: v1 :: v2 :: rest, hb, hc =>
    simp only [NewPolygonFromVertices, Option.some.injEq, Polygon.mk.injEq, true_and] at hb
    intro v hv
    have h0 := hc v0 (by simp)
    have h1 := hc v1 (by simp)
    have h2 := hc v2 (by simp)
    have hv := hc v hv
    have t := Qhull.triple_product_zero hm
      (a := v.Position.Minus v0.Position) (b := v1.Position.Minus v0.Position)
      (c := v2.Position.Minus v0.Position)
      (by rw [dot_minus, hv, h0, sub_self]) (by rw [dot_minus, h1, h0, sub_self])
      (by rw [dot_minus, h2, h0, sub_self])
    rw [← hb]
    simp only [NewPlaneFromPoints, Vector.Unit, Vector.DividedBy, Vector.Dot, Vector.Cross,
      Vector.Minus, Vector.Length] at t ⊢
    generalize sqrt _ = len
    have : ∀ a b c x y z : K, a / len * x + b / len * y + c / len * z -
        (a / len * v0.Position.X + b / len * v0.Position.Y + c / len * v0.Position.Z) =
        (a * (x - v0.Position.X) + b * (y - v0.Position.Y) + c * (z - v0.Position.Z)) / len := by
      intro a b c x y z
      ring
    rw [this]
    have t2 : ((v1.Position.Y - v0.Position.Y) * (v2.Position.Z - v0.Position.Z) -
          (v1.Position.Z - v0.Position.Z) * (v2.Position.Y - v0.Position.Y)) *
          (v.Position.X - v0.Position.X) +
        ((v1.Position.Z - v0.Position.Z) * (v2.Position.X - v0.Position.X) -
          (v1.Position.X - v0.Position.X) * (v2.Position.Z - v0.Position.Z)) *
          (v.Position.Y - v0.Position.Y) +
        ((v1.Position.X - v0.Position.X) * (v2.Position.Y - v0.Position.Y) -
          (v1.Position.Y - v0.Position.Y) * (v2.Position.X - v0.Position.X)) *
          (v.Position.Z - v0.Position.Z) = 0 := by
      linear_combination t
    rw [t2, zero_div]

/-- A polygon built from exactly coplanar vertices is COPLANAR with its own
plane. -/
theorem own_plane_COPLANAR (sqrt : K → K) {h : Heap K} {p : Ptr} {poly : Polygon K}
    (hb : BuiltFlat sqrt h p) (e : h[p]? = some poly) :
    polygonType poly.Plane.Clone poly = COPLANAR := by
  obtain ⟨poly1, e1, hbuilt, m, c, hm, hc⟩ := hb
  rw [e] at e1
  injection e1 with e1
  subst e1
  rw [Plane_Clone_eq, (polygonType_geometry poly.Plane poly).1]
  intro v hv
  rw [own_plane_distance sqrt poly hbuilt m c hm hc v hv]
  have := EPSILON_pos (K := K)
  constructor <;> linarith

/-- The fragments of a SPANNING polygon are what `NewPolygonFromVertices`
makes of the two vertex lists. -/
theorem SplitPolygons_cons_spanning_built {σ : Type} (sqrt : K → K) (plane : Plane K)
    (emit : Side → Ptr → σ → σ) (p : Ptr) (rest : List Ptr) (h : Heap K) (out : σ)
    (polygon : Polygon K) (hp : h[p]? = some polygon)
    (hs : polygonType plane polygon = SPANNING) :
    ∃ plf plb,
      (3 ≤ (spanningLists plane polygon).1.length →
        NewPolygonFromVertices sqrt (spanningLists plane polygon).1 =
          some ⟨(spanningLists plane polygon).1, plf⟩) ∧
      (3 ≤ (spanningLists plane polygon).2.length →
        NewPolygonFromVertices sqrt (spanningLists plane polygon).2 =
          some ⟨(spanningLists plane polygon).2, plb⟩) ∧
      SplitPolygons sqrt plane emit (p :: rest) h out =
        SplitPolygons sqrt plane emit rest
          ((h ++ if 3 ≤ (spanningLists plane polygon).1.length then
              [⟨(spanningLists plane polygon).1, plf⟩] else []) ++
            if 3 ≤ (spanningLists plane polygon).2.length then
              [⟨(spanningLists plane polygon).2, plb⟩] else [])
          ((if 3 ≤ (spanningLists plane polygon).2.length then
              emit .back (h.length +
                if 3 ≤ (spanningLists plane polygon).1.length then 1 else 0)
            else id)
            ((if 3 ≤ (spanningLists plane polygon).1.length then emit .front h.length
              else id) out)) := by
  rw [SplitPolygons]
  simp only [hp, hs]
  simp only [SPANNING, COPLANAR, FRONT, BACK, OfNat.ofNat_ne_zero, OfNat.ofNat_ne_one,
    if_false, if_true, ge_iff_le]
  by_cases hf : 3 ≤ (spanningLists plane polygon).1.length
  · obtain ⟨plf, ef⟩ := NewPolygonFromVertices_of_length sqrt _ hf
    by_cases hb : 3 ≤ (spanningLists plane polygon).2.length
    · obtain ⟨plb, eb⟩ := NewPolygonFromVertices_of_length sqrt _ hb
      refine ⟨plf, plb, fun _ => ef, fun _ => eb, ?_⟩
      simp [hf, hb, ef, eb]
    · refine ⟨plf, plf, fun _ => ef, fun hb2 => absurd hb2 hb, ?_⟩
      simp [hf, hb, ef]
  · by_cases hb : 3 ≤ (spanningLists plane polygon).2.length
    · obtain ⟨plb, eb⟩ := NewPolygonFromVertices_of_length sqrt _ hb
      refine ⟨plb, plb, fun hf2 => absurd hf2 hf, fun _ => eb, ?_⟩
      simp [hf, hb, eb]
    · refine ⟨polygon.Plane, polygon.Plane, fun hf2 => absurd hf2 hf,
        fun hb2 => absurd hb2 hb, ?_⟩
      simp [hf, hb]

/-- A polygon allocated at the end of the heap from vertices in a plane. -/
theorem BuiltFlat_new (sqrt : K → K) (h t : Heap K) (vs : List (Vertex K)) (pl : Plane K)
    (hb : NewPolygonFromVertices sqrt vs = some ⟨vs, pl⟩)
    (m : Vector K) (c : K) (hm : m ≠ ⟨0, 0, 0⟩) (hc : ∀ v ∈ vs, m.Dot v.Position = c) :
    BuiltFlat sqrt (h ++ ⟨vs, pl⟩ :: t) h.length :=
  ⟨⟨vs, pl⟩, getElem?_append_length h _ t, hb, m, c, hm, hc⟩

/-- On polygons built from exactly coplanar vertices the split inside `build`
returns; `front` and `back` receive at most one polygon for each polygon of
the list, all of them built from exactly coplanar vertices, and the node's own
list grows at its end. -/
theorem SplitPolygons_flat (sqrt : K → K) (plane : Plane K) :
    ∀ (l : List Ptr) (h : Heap K) (out : BuildOut),
      (∀ p ∈ l, BuiltFlat sqrt h p) → (∀ p ∈ out.front, BuiltFlat sqrt h p) →
      (∀ p ∈ out.back, BuiltFlat sqrt h p) →
      ∃ h1 out1, SplitPolygons sqrt plane buildEmit l h out = .ok (h1, out1) ∧
        (∀ p ∈ out1.front, BuiltFlat sqrt h1 p) ∧ (∀ p ∈ out1.back, BuiltFlat sqrt h1 p) ∧
        out1.front.length ≤ out.front.length + l.length ∧
        out1.back.length ≤ out.back.length + l.length ∧
        out.polygons <+: out1.polygons ∧ h <+: h1
  | [], h, out, _, hf, hb =>
    ⟨h, out, rfl, hf, hb, by simp, by simp, List.prefix_refl _, List.prefix_refl _⟩
  | p :: rest, h, out, hl, hf, hb => by
    have step : ∀ (h2 : Heap K) (out2 : BuildOut), h <+: h2 →
        SplitPolygons sqrt plane buildEmit (p :: rest) h out =
          SplitPolygons sqrt plane buildEmit rest h2 out2 →
        (∀ q ∈ out2.front, BuiltFlat sqrt h2 q) → (∀ q ∈ out2.back, BuiltFlat sqrt h2 q) →
        out2.front.length ≤ out.front.length + 1 → out2.back.length ≤ out.back.length + 1 →
        out.polygons <+: out2.polygons →
        ∃ h1 out1, SplitPolygons sqrt plane buildEmit (p :: rest) h out = .ok (h1, out1) ∧
          (∀ p ∈ out1.front, BuiltFlat sqrt h1 p) ∧ (∀ p ∈ out1.back, BuiltFlat sqrt h1 p) ∧
          out1.front.length ≤ out.front.length + (p :: rest).length ∧
          out1.back.length ≤ out.back.length + (p :: rest).length ∧
          out.polygons <+: out1.polygons ∧ h <+: h1 := by
      intro h2 out2 hpre e hf2 hb2 lf lb hpo
      obtain ⟨h1, out1, e1, a, b, c, d, f, g⟩ := SplitPolygons_flat sqrt plane rest h2 out2
        (fun q hq => BuiltFlat_mono sqrt hpre (hl q (List.mem_cons_of_mem _ hq))) hf2 hb2
      refine ⟨h1, out1, e.trans e1, a, b, ?_, ?_, hpo.trans f, hpre.trans g⟩
      · rw [List.length_cons]; omega
      · rw [List.length_cons]; omega
    have hbp := hl p (List.mem_cons_self _ _)
    obtain ⟨poly, ep, hbuilt, m, c, hm, hc⟩ := hbp
    by_cases hs : polygonType plane poly = SPANNING
    · obtain ⟨plf, plb, ef, eb, e⟩ :=
        SplitPolygons_cons_spanning_built sqrt plane buildEmit p rest h out poly ep hs
      obtain ⟨cf, cb⟩ := spanningLists_convex plane poly _ (level_convex m c) hc
      by_cases h1 : 3 ≤ (spanningLists plane poly).1.length
      · by_cases h2 : 3 ≤ (spanningLists plane poly).2.length
        · simp only [h1, h2, if_true] at e
          have b1 : BuiltFlat sqrt ((h ++ [⟨(spanningLists plane poly).1, plf⟩]) ++
              [⟨(spanningLists plane poly).2, plb⟩]) h.length := by
            rw [List.append_assoc]
            exact BuiltFlat_new sqrt h _ _ plf (ef h1) m c hm cf
          have b2 : BuiltFlat sqrt ((h ++ [⟨(spanningLists plane poly).1, plf⟩]) ++
              [⟨(spanningLists plane poly).2, plb⟩]) (h.length + 1) := by
            have := BuiltFlat_new sqrt (h ++ [⟨(spanningLists plane poly).1, plf⟩]) [] _ plb
              (eb h2) m c hm cb
            rw [List.length_append] at this
            exact this
          have hpre : h <+: (h ++ [⟨(spanningLists plane poly).1, plf⟩]) ++
              [⟨(spanningLists plane poly).2, plb⟩] := by
            rw [List.append_assoc]
            exact List.prefix_append _ _
          refine step _ _ hpre e ?_ ?_ ?_ ?_ ?_
          · intro q hq
            simp only [buildEmit, List.mem_append, List.mem_singleton] at hq
            rcases hq with hq | rfl
            · exact BuiltFlat_mono sqrt hpre (hf q hq)
            · exact b1
          · intro q hq
            simp only [buildEmit, List.mem_append, List.mem_singleton] at hq
            rcases hq with hq | rfl
            · exact BuiltFlat_mono sqrt hpre (hb q hq)
            · exact b2
          · simp [buildEmit]
          · simp [buildEmit]
          · simp [buildEmit]
        · simp only [h1, h2, if_true, if_false, List.append_nil, id] at e
          have b1 : BuiltFlat sqrt (h ++ [⟨(spanningLists plane poly).1, plf⟩]) h.length :=
            BuiltFlat_new sqrt h _ _ plf (ef h1) m c hm cf
          have hpre : h <+: h ++ [⟨(spanningLists plane poly).1, plf⟩] :=
            List.prefix_append _ _
          refine step _ _ hpre e ?_ ?_ ?_ ?_ ?_
          · intro q hq
            simp only [buildEmit, List.mem_append, List.mem_singleton] at hq
            rcases hq with hq | rfl
            · exact BuiltFlat_mono sqrt hpre (hf q hq)
            · exact b1
          · intro q hq
            exact BuiltFlat_mono sqrt hpre (hb q hq)
          · simp [buildEmit]
          · simp [buildEmit]
          · simp [buildEmit]
      · by_cases h2 : 3 ≤ (spanningLists plane poly).2.length
        · simp only [h1, h2, if_true, if_false, List.append_nil, id, Nat.add_zero] at e
          have b2 : BuiltFlat sqrt (h ++ [⟨(spanningLists plane poly).2, plb⟩]) h.length :=
            BuiltFlat_new sqrt h _ _ plb (eb h2) m c hm cb
          have hpre : h <+: h ++ [⟨(spanningLists plane poly).2, plb⟩] :=
            List.prefix_append _ _
          refine step _ _ hpre e ?_ ?_ ?_ ?_ ?_
          · intro q hq
            exact BuiltFlat_mono sqrt hpre (hf q hq)
          · intro q hq
            simp only [buildEmit, List.mem_append, List.mem_singleton] at hq
            rcases hq with hq | rfl
            · exact BuiltFlat_mono sqrt hpre (hb q hq)
            · exact b2
          · simp [buildEmit]
          · simp [buildEmit]
          · simp [buildEmit]
        · simp only [h1, h2, if_false, List.append_nil, id] at e
          exact step h out (List.prefix_refl _) e hf hb (by omega) (by omega)
            (List.prefix_refl _)
    · obtain ⟨k1, k2, k3, k4, hcase⟩ :=
        SplitPolygons_cons_keep sqrt plane buildEmit p rest h out poly ep hs
      have me : BuiltFlat sqrt h p := ⟨poly, ep, hbuilt, m, c, hm, hc⟩
      rcases hcase with hty | hty | hty
      · by_cases hd : 0 < plane.Normal.Dot poly.Plane.Normal
        · exact step h _ (List.prefix_refl _) (k1 hty hd) hf hb (by simp [buildEmit])
            (by simp [buildEmit]) (by simp [buildEmit])
        · exact step h _ (List.prefix_refl _) (k2 hty hd) hf hb (by simp [buildEmit])
            (by simp [buildEmit]) (by simp [buildEmit])
      · refine step h _ (List.prefix_refl _) (k3 hty) ?_ hb (by simp [buildEmit])
          (by simp [buildEmit]) (by simp [buildEmit])
        intro q hq
        simp only [buildEmit, List.mem_append, List.mem_singleton] at hq
        rcases hq with hq | rfl
        · exact hf q hq
        · exact me
      · refine step h _ (List.prefix_refl _) (k4 hty) hf ?_ (by simp [buildEmit])
          (by simp [buildEmit]) (by simp [buildEmit])
        intro q hq
        simp only [buildEmit, List.mem_append, List.mem_singleton] at hq
        rcases hq with hq | rfl
        · exact hb q hq
        · exact me

/-- At a node that adopts the plane of `polygons[0]`, that polygon is stored at
the node and each of `front` and `back` receives fewer polygons than the node
was given. -/
theorem SplitPolygons_adopt (sqrt : K → K) (p0 : Ptr) (rest : List Ptr) (h : Heap K)
    (polygon0 : Polygon K) (polys : List Ptr) (e0 : h[p0]? = some polygon0)
    (hl : ∀ p ∈ p0 :: rest, BuiltFlat sqrt h p) :
    ∃ h1 out, SplitPolygons sqrt polygon0.Plane.Clone buildEmit (p0 :: rest) h ⟨polys, [], []⟩ =
        .ok (h1, out) ∧
      (∀ p ∈ out.front, BuiltFlat sqrt h1 p) ∧ (∀ p ∈ out.back, BuiltFlat sqrt h1 p) ∧
      out.front.length < (p0 :: rest).length ∧ out.back.length < (p0 :: rest).length ∧
      p0 ∈ out.polygons ∧ h <+: h1 := by
  have hc := own_plane_COPLANAR sqrt (hl p0 (List.mem_cons_self _ _)) e0
  obtain ⟨k1, k2, _, _, _⟩ := SplitPolygons_cons_keep sqrt polygon0.Plane.Clone buildEmit p0 rest h
    ⟨polys, [], []⟩ polygon0 e0 (by rw [hc]; decide)
  have e : SplitPolygons sqrt polygon0.Plane.Clone buildEmit (p0 :: rest) h ⟨polys, [], []⟩ =
      SplitPolygons sqrt polygon0.Plane.Clone buildEmit rest h ⟨polys ++ [p0], [], []⟩ := by
    by_cases hd : 0 < polygon0.Plane.Clone.Normal.Dot polygon0.Plane.Normal
    · exact k1 hc hd
    · exact k2 hc hd
  obtain ⟨h1, out, e1, a, b, c, d, f, g⟩ := SplitPolygons_flat sqrt polygon0.Plane.Clone rest h
    ⟨polys ++ [p0], [], []⟩ (fun q hq => hl q (List.mem_cons_of_mem _ hq))
    (fun q hq => absurd hq (List.not_mem_nil _)) (fun q hq => absurd hq (List.not_mem_nil _))
  refine ⟨h1, out, e.trans e1, a, b, ?_, ?_, ?_, g⟩
  · simp only [List.length_nil, Nat.zero_add] at c
    rw [List.length_cons]
    omega
  · simp only [List.length_nil, Nat.zero_add] at d
    rw [List.length_cons]
    omega
  · exact f.subset (by simp)

/-- The recursion of `build` on polygons built from exactly coplanar vertices
returns when the fuel covers the depth of the tree below the node and the
length of the list. -/
theorem Build_total (sqrt : K → K) :
    ∀ (fuel : Nat) (plane : Option (Plane K)) (front back : Node K) (polys : List Ptr)
      (h : Heap K) (ps : List Ptr), (∀ p ∈ ps, BuiltFlat sqrt h p) →
      max front.depth back.depth + ps.length + (if plane.isSome then 1 else 0) ≤ fuel →
      ∃ h1 n1, Node.Build sqrt fuel (.mk plane front back polys) h ps = .ok (h1, n1) ∧ h <+: h1
  | fuel, plane, front, back, polys, h, [], _, _ =>
    ⟨h, .mk plane front back polys, by cases fuel <;> rfl, List.prefix_refl _⟩
  | 0, plane, front, back, polys, h, p0 :: rest, hl, hfuel => by
    exfalso
    rw [List.length_cons] at hfuel
    omega
  | fuel + 1, plane, front, back, polys, h, p0 :: rest, hl, hfuel => by
    have child : ∀ (c : Node K) (h1 : Heap K) (l : List Ptr), (∀ p ∈ l, BuiltFlat sqrt h1 p) →
        c.depth + l.length ≤ fuel →
        ∃ h2 c1, (if l.length > 0 then
            Node.Build sqrt fuel (if c.isNil then Node.empty else c) h1 l
          else .ok (h1, c)) = .ok (h2, c1) ∧ h1 <+: h2 := by
      intro c h1 l hl1 hb
      by_cases hpos : l.length > 0
      · rw [if_pos hpos]
        cases c with
        | nil =>
          exact Build_total sqrt fuel none .nil .nil [] h1 l hl1 (by simpa [Node.depth] using hb)
        | mk pl f b ps1 =>
          refine Build_total sqrt fuel pl f b ps1 h1 l hl1 ?_
          simp only [Node.depth] at hb
          split_ifs <;> omega
      · rw [if_neg hpos]
        exact ⟨h1, c, rfl, List.prefix_refl _⟩
    have main : ∀ (pl : Plane K) (h1 : Heap K) (out : BuildOut),
        SplitPolygons sqrt pl buildEmit (p0 :: rest) h ⟨polys, [], []⟩ = .ok (h1, out) →
        (∀ p ∈ out.front, BuiltFlat sqrt h1 p) → (∀ p ∈ out.back, BuiltFlat sqrt h1 p) →
        max front.depth back.depth + out.front.length ≤ fuel →
        max front.depth back.depth + out.back.length ≤ fuel → h <+: h1 →
        ∃ h3 n1, (match SplitPolygons sqrt pl buildEmit (p0 :: rest) h ⟨polys, [], []⟩ with
          | .error e => .error e
          | .ok (h1, out) =>
            match (if out.front.length > 0 then
                Node.Build sqrt fuel (if front.isNil then Node.empty else front) h1 out.front
              else .ok (h1, front)) with
            | .error e => .error e
            | .ok (h2, front1) =>
              match (if out.back.length > 0 then
                  Node.Build sqrt fuel (if back.isNil then Node.empty else back) h2 out.back
                else .ok (h2, back)) with
              | .error e => .error e
              | .ok (h3, back1) => .ok (h3, .mk (some pl) front1 back1 out.polygons) :
              Except Err (Heap K × Node K)) =
            Except.ok (h3, n1) ∧ h <+: h3 := by
      intro pl h1 out es hf hb lf lb hpre
      obtain ⟨h2, front1, ef, hp2⟩ := child front h1 out.front hf
        (by have := le_max_left front.depth back.depth; omega)
      obtain ⟨h3, back1, eb, hp3⟩ := child back h2 out.back
        (fun p hp => BuiltFlat_mono sqrt hp2 (hb p hp))
        (by have := le_max_right front.depth back.depth; omega)
      refine ⟨h3, .mk (some pl) front1 back1 out.polygons, ?_, hpre.trans (hp2.trans hp3)⟩
      rw [es]
      dsimp only
      rw [ef]
      dsimp only
      rw [eb]
    unfold Node.Build
    cases plane with
    | some pl =>
      obtain ⟨h1, out, es, a, b, c, d, _, g⟩ := SplitPolygons_flat sqrt pl (p0 :: rest) h
        ⟨polys, [], []⟩ hl (fun q hq => absurd hq (List.not_mem_nil _))
        (fun q hq => absurd hq (List.not_mem_nil _))
      simp only [List.length_nil, Nat.zero_add, List.length_cons] at c d
      simp only [Option.isSome_some, if_true, List.length_cons] at hfuel
      exact main pl h1 out es a b (by omega) (by omega) g
    | none =>
      obtain ⟨polygon0, e0, _⟩ := hl p0 (List.mem_cons_self _ _)
      obtain ⟨h1, out, es, a, b, c, d, _, g⟩ :=
        SplitPolygons_adopt sqrt p0 rest h polygon0 polys e0 hl
      simp only [List.length_cons] at c d hfuel
      simp only [e0]
      exact main _ h1 out es a b (by omega) (by omega) g

/-- Claim C27.  For every finite list of allocated polygons that are what
`NewPolygonFromVertices` makes of their vertices and whose vertices lie
exactly in one plane (exact arithmetic), `NewNodeFromPolygons` returns a tree
as soon as the fuel, the depth of recursion allowed, reaches the length of the
list, and `Node.Build` on a node that is not nil returns as soon as the fuel
reaches the depth of the node's tree plus the length of the list.  At a node
that adopts the plane of `polygons[0]` the split returns with that polygon
stored in the node's own list, and `front` and `back` each receive strictly
fewer polygons than the node was given. -/
theorem Build_terminates (sqrt : K → K) (h : Heap K) (ps : List Ptr)
    (hflat : ∀ p ∈ ps, BuiltFlat sqrt h p) :
    (∀ fuel, ps.length ≤ fuel → ∃ h1 n1, NewNodeFromPolygons sqrt fuel h ps = .ok (h1, n1)) ∧
    (∀ (n : Node K) (fuel : Nat), n ≠ .nil → n.depth + ps.length ≤ fuel →
      ∃ h1 n1, Node.Build sqrt fuel n h ps = .ok (h1, n1)) ∧
    (∀ p0 rest polygon0 polys, ps = p0 :: rest → h[p0]? = some polygon0 →
      ∃ h1 out, SplitPolygons sqrt polygon0.Plane.Clone buildEmit ps h ⟨polys, [], []⟩ =
          .ok (h1, out) ∧
        p0 ∈ out.polygons ∧ out.front.length < ps.length ∧ out.back.length < ps.length) := by
  refine ⟨?_, ?_, ?_⟩
  · intro fuel hf
    obtain ⟨h1, n1, e, _⟩ := Build_total sqrt fuel none .nil .nil [] h ps hflat
      (by simpa [Node.depth] using hf)
    exact ⟨h1, n1, e⟩
  · intro n fuel hn hf
    cases n with
    | nil => exact absurd rfl hn
    | mk plane front back polys =>
      obtain ⟨h1, n1, e, _⟩ := Build_total sqrt fuel plane front back polys h ps hflat (by
        simp only [Node.depth] at hf
        split_ifs <;> omega)
      exact ⟨h1, n1, e⟩
  · intro p0 rest polygon0 polys hps e0
    subst hps
    obtain ⟨h1, out, es, _, _, c, d, f, _⟩ :=
      SplitPolygons_adopt sqrt p0 rest h polygon0 polys e0 hflat
    exact ⟨h1, out, es, f, c, d⟩

/-- The two polygons of `builtHeap` are built from exactly coplanar vertices. -/
theorem builtHeap_flat : ∀ p ∈ [0, 1], BuiltFlat ratSqrt builtHeap p := by
  intro p hp
  simp only [List.mem_cons, List.mem_singleton, List.not_mem_nil, or_false] at hp
  rcases hp with rfl | rfl
  · refine ⟨_, rfl, rfl, ⟨0, 0, 1⟩, 0, by decide, ?_⟩
    intro v hv
    change v ∈ [vtx 0 0 0, vtx 1 0 0, vtx 0 1 0] at hv
    simp only [List.mem_cons, List.mem_singleton, List.not_mem_nil, or_false] at hv
    rcases hv with rfl | rfl | rfl <;> norm_num [Vector.Dot, vtx]
  · refine ⟨_, rfl, rfl, ⟨1, 1, 0⟩, 1, by decide, ?_⟩
    intro v hv
    change v ∈ [vtx 1 0 1, vtx 0 1 1, vtx 1 0 (-1)] at hv
    simp only [List.mem_cons, List.mem_singleton, List.not_mem_nil, or_false] at hv
    rcases hv with rfl | rfl | rfl <;> norm_num [Vector.Dot, vtx]

/-- The theorem at the two crossing triangles of `builtHeap`: the tree is built
with fuel 2. -/
theorem Build_terminates_witness :
    (∀ p ∈ [0, 1], BuiltFlat ratSqrt builtHeap p) ∧
      ∃ h1 n1, NewNodeFromPolygons ratSqrt 2 builtHeap [0, 1] = .ok (h1, n1) :=
  ⟨builtHeap_flat, (Build_terminates ratSqrt builtHeap [0, 1] builtHeap_flat).1 2 (by decide)⟩

end Termination

end Csg
namespace Qhull

open Csg (Vector Err)

section SimplexMesh

variable {K : Type} [LinearOrderedField K]

/-- The update of a face keeps the planes of all faces. -/
theorem Face_update_planes (fuel : Nat) (q : Hull K) (f : Nat) (q1 : Hull K)
    (h : Face.update fuel q f = .ok q1) :
    q1.faceStore.map (fun f => (f.Normal, f.W)) = q.faceStore.map (fun f => (f.Normal, f.W)) := by
  unfold Face.update at h
  obtain ⟨qv, hv, hc⟩ := bind_ok_inv h
  unfold updateVertexCount at hv
  obtain ⟨fc, e1, hv⟩ := bind_ok_inv hv
  obtain ⟨_, _, hv⟩ := bind_ok_inv hv
  obtain ⟨_, _, hv⟩ := bind_ok_inv hv
  obtain ⟨n, _, hv⟩ := bind_ok_inv hv
  simp only [pure, Except.pure, Except.ok.injEq] at hv
  subst hv
  unfold updateCentroid at hc
  obtain ⟨fc2, e2, hc⟩ := bind_ok_inv hc
  obtain ⟨sv, _, hc⟩ := bind_ok_inv hc
  simp only [pure, Except.pure, Except.ok.injEq] at hc
  subst hc
  have k1 := load_ok e1
  have k2 := load_ok e2
  simp only [Hull.setFace] at k2 ⊢
  rw [set_map_same (fun f : Face K => (f.Normal, f.W)) _ f fc2 _ k2 (by rfl)]
  exact set_map_same (fun f : Face K => (f.Normal, f.W)) _ f fc _ k1 (by rfl)

/-- A new triangle with its plane: three half-edges without opposites and one
face at the ends of the stores; the plane of the face is the plane through the
three points. -/
theorem NewFaceFromTriangle_plane (sqrt : K → K) (fuel : Nat) (q : Hull K) (v0 v1 v2 : Nat)
    (q1 : Hull K) (f : Nat) (h : NewFaceFromTriangle sqrt fuel q v0 v1 v2 = .ok (q1, f)) :
    ∃ (x0 x1 x2 : Vertex K) (face : Face K),
      q.points[v0]? = some x0 ∧ q.points[v1]? = some x1 ∧ q.points[v2]? = some x2 ∧
      face.Normal = (Csg.NewPlaneFromPoints sqrt x0.point x1.point x2.point).Normal ∧
      face.W = (Csg.NewPlaneFromPoints sqrt x0.point x1.point x2.point).W ∧
      face.edge = q.edgeStore.length ∧ face.numVerts = 3 ∧ face.mark = VISIBLE ∧
      f = q.faceStore.length ∧
      q1 = { q with
        edgeStore := q.edgeStore ++
          [⟨v0, q.faceStore.length, some (q.edgeStore.length + 1),
              some (q.edgeStore.length + 2), none⟩,
            ⟨v1, q.faceStore.length, some (q.edgeStore.length + 2),
              some q.edgeStore.length, none⟩,
            ⟨v2, q.faceStore.length, some q.edgeStore.length,
              some (q.edgeStore.length + 1), none⟩],
        faceStore := q.faceStore ++ [face] } := by
  obtain ⟨hf, face, a, b, c, d⟩ := NewFaceFromTriangle_spec sqrt fuel q v0 v1 v2 q1 f h
  unfold NewFaceFromTriangle at h
  obtain ⟨x0, e0, h⟩ := bind_ok_inv h
  obtain ⟨x1, e1, h⟩ := bind_ok_inv h
  obtain ⟨x2, e2, h⟩ := bind_ok_inv h
  dsimp only at h
  obtain ⟨qu, hu, h⟩ := bind_ok_inv h
  simp only [pure, Except.pure, Except.ok.injEq, Prod.mk.injEq] at h
  obtain ⟨rfl, _⟩ := h
  have hp := Face_update_planes fuel _ _ _ hu
  rw [d] at hp
  simp only [List.map_append, List.map_cons, List.map_nil, List.append_cancel_left_eq,
    List.cons.injEq, Prod.mk.injEq, and_true] at hp
  exact ⟨x0, x1, x2, face, load_ok e0, load_ok e1, load_ok e2, hp.1, hp.2, a, b, c, hf, d⟩

/-- Four triangles made one after the other on empty stores, with their
planes; no half-edge has an opposite yet. -/
theorem simplexFaces_planes (sqrt : K → K) (fuel : Nat) (q : Hull K) (hE : q.edgeStore = [])
    (hF : q.faceStore = []) (t0 t1 t2 t3 : Nat × Nat × Nat) (q1 q2 q3 q4 : Hull K)
    (i0 i1 i2 i3 : Nat)
    (h0 : NewFaceFromTriangle sqrt fuel q t0.1 t0.2.1 t0.2.2 = .ok (q1, i0))
    (h1 : NewFaceFromTriangle sqrt fuel q1 t1.1 t1.2.1 t1.2.2 = .ok (q2, i1))
    (h2 : NewFaceFromTriangle sqrt fuel q2 t2.1 t2.2.1 t2.2.2 = .ok (q3, i2))
    (h3 : NewFaceFromTriangle sqrt fuel q3 t3.1 t3.2.1 t3.2.2 = .ok (q4, i3)) :
    [i0, i1, i2, i3] = [0, 1, 2, 3] ∧ ∃ f0 f1 f2 f3 : Face K,
      q4 = { q with edgeStore := edgesOf (simplexEdges t0 t1 t2 t3) (List.replicate 12 none),
                    faceStore := [f0, f1, f2, f3] } ∧
      (f0.edge = 0 ∧ f1.edge = 3 ∧ f2.edge = 6 ∧ f3.edge = 9) ∧
      FacePlane sqrt q f0 t0 ∧ FacePlane sqrt q f1 t1 ∧ FacePlane sqrt q f2 t2 ∧
      FacePlane sqrt q f3 t3 := by
  obtain ⟨x0, x1, x2, f0, a0, b0, c0, n0, w0, d0, _, _, rfl, rfl⟩ :=
    NewFaceFromTriangle_plane sqrt fuel q _ _ _ q1 i0 h0
  obtain ⟨y0, y1, y2, f1, a1, b1, c1, n1, w1, d1, _, _, rfl, rfl⟩ :=
    NewFaceFromTriangle_plane sqrt fuel _ _ _ _ q2 i1 h1
  obtain ⟨z0, z1, z2, f2, a2, b2, c2, n2, w2, d2, _, _, rfl, rfl⟩ :=
    NewFaceFromTriangle_plane sqrt fuel _ _ _ _ q3 i2 h2
  obtain ⟨u0, u1, u2, f3, a3, b3, c3, n3, w3, d3, _, _, rfl, rfl⟩ :=
    NewFaceFromTriangle_plane sqrt fuel _ _ _ _ q4 i3 h3
  simp only [hE, hF, List.nil_append, List.length_nil, List.length_cons, List.length_append,
    List.cons_append, Nat.zero_add, Nat.reduceAdd] at d0 d1 d2 d3 ⊢
  refine ⟨trivial, f0, f1, f2, f3, ?_, ⟨d0, d1, d2, d3⟩, ⟨x0, x1, x2, a0, b0, c0, n0, w0⟩,
    ⟨y0, y1, y2, a1, b1, c1, n1, w1⟩, ⟨z0, z1, z2, a2, b2, c2, n2, w2⟩,
    ⟨u0, u1, u2, a3, b3, c3, n3, w3⟩⟩
  rfl

/-- Writing `opposite` of one half-edge keeps the loops and sets one entry of
the opposites. -/
theorem Linked_set {q : Hull K} {L : List (Nat × Nat × Option Nat × Option Nat)}
    {O : List (Option Nat)} (hl : Linked q L O) (h : Nat) (he : HalfEdge) (x : Option Nat)
    (e : q.edgeStore[h]? = some he) :
    Linked (q.setHalfEdge h { he with opposite := x }) L (O.set h x) := by
  obtain ⟨h1, h2⟩ := hl
  constructor
  · rw [← h1]
    exact set_map_same HalfEdge.loop _ h he _ e (by rfl)
  · rw [← h2]
    simp only [Hull.setHalfEdge]
    rw [List.map_set]

/-- What `SetOpposite` does to the opposites. -/
theorem Linked_SetOpposite {q : Hull K} {L : List (Nat × Nat × Option Nat × Option Nat)}
    {O : List (Option Nat)} (hl : Linked q L O) (h e : Nat) (q1 : Hull K)
    (hq : SetOpposite q h (some e) = .ok q1) :
    q1 = { q with edgeStore := q1.edgeStore } ∧ Linked q1 L (linkStep O h e) := by
  unfold SetOpposite at hq
  obtain ⟨he, e1, hq⟩ := bind_ok_inv hq
  dsimp only at hq
  obtain ⟨ei, e2, hq⟩ := bind_ok_inv hq
  obtain ⟨ee, e3, hq⟩ := bind_ok_inv hq
  simp only [pure, Except.pure, Except.ok.injEq] at hq
  subst hq
  simp only [deref, Except.ok.injEq] at e2
  subst e2
  refine ⟨rfl, ?_⟩
  exact Linked_set (Linked_set hl h he (some e) (load_ok e1)) e ee (some h) (load_ok e3)

/-- The half-edges of the faces of the simplex follow one another in the
store. -/
theorem simplex_next {q : Hull K} {t0 t1 t2 t3 : Nat × Nat × Nat}
    (hL : q.edgeStore.map HalfEdge.loop = simplexEdges t0 t1 t2 t3) (a k : Nat) (ha : a < 4)
    (hk : k < 3) : nextOf q (3 * a + k) = .ok (3 * a + (k + 1) % 3) := by
  interval_cases a <;> interval_cases k <;> exact (loop_lookup (by rw [hL]; rfl)).1

/-- `GetEdge(i)` on a face `a` of the simplex is the half-edge `3 a + i`. -/
theorem GetEdge_simplex {q : Hull K} {t0 t1 t2 t3 : Nat × Nat × Nat} {f0 f1 f2 f3 : Face K}
    (hL : q.edgeStore.map HalfEdge.loop = simplexEdges t0 t1 t2 t3)
    (hF : q.faceStore = [f0, f1, f2, f3])
    (hed : f0.edge = 0 ∧ f1.edge = 3 ∧ f2.edge = 6 ∧ f3.edge = 9) (a i : Nat) (ha : a < 4)
    (hi : i < 3) : Face.GetEdge q a (i : Int) = .ok (3 * a + i) := by
  obtain ⟨d0, d1, d2, d3⟩ := hed
  have hface : ∃ face, q.face a = .ok face ∧ face.edge = 3 * a := by
    unfold Hull.face
    rw [hF]
    interval_cases a
    · exact ⟨f0, rfl, d0⟩
    · exact ⟨f1, rfl, d1⟩
    · exact ⟨f2, rfl, d2⟩
    · exact ⟨f3, rfl, d3⟩
  obtain ⟨face, e1, e2⟩ := hface
  unfold Face.GetEdge
  rw [e1]
  simp only [bind, Except.bind, Int.toNat_ofNat, Nat.cast_nonneg, if_true, e2]
  have n0 : nextOf q (3 * a) = .ok (3 * a + 1) := simplex_next hL a 0 ha (by omega)
  have n1 : nextOf q (3 * a + 1) = .ok (3 * a + 2) := simplex_next hL a 1 ha (by omega)
  interval_cases i
  · rfl
  · rw [show (1 : Nat) = 0 + 1 from rfl, walkNext_succ n0]
    rfl
  · rw [show (2 : Nat) = 1 + 1 from rfl, walkNext_succ n0, show (1 : Nat) = 0 + 1 from rfl,
      walkNext_succ n1]
    rfl

/-- One `SetOpposite` call of the linking loop of the simplex. -/
theorem linkEdges_simplex {q : Hull K} {t0 t1 t2 t3 : Nat × Nat × Nat} {f0 f1 f2 f3 : Face K}
    {O : List (Option Nat)} (hl : Linked q (simplexEdges t0 t1 t2 t3) O)
    (hF : q.faceStore = [f0, f1, f2, f3])
    (hed : f0.edge = 0 ∧ f1.edge = 3 ∧ f2.edge = 6 ∧ f3.edge = 9) (a i b j : Nat) (ha : a < 4)
    (hi : i < 3) (hb : b < 4) (hj : j < 3) (q1 : Hull K)
    (h : linkEdges q a (i : Int) b (j : Int) = .ok q1) :
    q1 = { q with edgeStore := q1.edgeStore } ∧
      Linked q1 (simplexEdges t0 t1 t2 t3) (linkStep O (3 * a + i) (3 * b + j)) := by
  unfold linkEdges at h
  rw [GetEdge_simplex hl.1 hF hed a i ha hi, GetEdge_simplex hl.1 hF hed b j hb hj] at h
  exact Linked_SetOpposite hl _ _ q1 h

/-- The loops and the opposites determine the half-edges. -/
theorem edgesOf_maps : ∀ E : List HalfEdge,
    E = edgesOf (E.map HalfEdge.loop) (E.map fun e => e.opposite)
  | [] => rfl
  | e :: E => by
    have ih := edgesOf_maps E
    unfold edgesOf at ih ⊢
    rw [List.map_cons, List.map_cons, List.zipWith_cons_cons, ← ih]
    rfl

theorem Linked_edgesOf {q : Hull K} {L : List (Nat × Nat × Option Nat × Option Nat)}
    {O : List (Option Nat)} (hl : Linked q L O) : q.edgeStore = edgesOf L O := by
  obtain ⟨h1, h2⟩ := hl
  rw [← h1, ← h2]
  exact edgesOf_maps _

/-- One round of the linking loop of the simplex: two `SetOpposite` calls. -/
theorem linkRound {q : Hull K} {t0 t1 t2 t3 : Nat × Nat × Nat} {f0 f1 f2 f3 : Face K}
    {O : List (Option Nat)} (hl : Linked q (simplexEdges t0 t1 t2 t3) O)
    (hF : q.faceStore = [f0, f1, f2, f3])
    (hed : f0.edge = 0 ∧ f1.edge = 3 ∧ f2.edge = 6 ∧ f3.edge = 9)
    (a i b j c k : Nat) (ha : a < 4) (hi : i < 3) (hb : b < 4) (hj : j < 3) (hc : c < 4)
    (hk : k < 3) (x y : Int) (hx : x = (i : Int)) (hy : y = (j : Int)) (q1 : Hull K)
    (h : (do
      let q ← linkEdges q a x b y
      linkEdges q a 2 c (k : Int)) = .ok q1) :
    q1 = { q with edgeStore := q1.edgeStore } ∧
      Linked q1 (simplexEdges t0 t1 t2 t3)
        (linkStep (linkStep O (3 * a + i) (3 * b + j)) (3 * a + 2) (3 * c + k)) := by
  subst hx hy
  obtain ⟨qa, e1, e2⟩ := bind_ok_inv h
  obtain ⟨r1, l1⟩ := linkEdges_simplex hl hF hed a i b j ha hi hb hj qa e1
  have hF1 : qa.faceStore = [f0, f1, f2, f3] := by rw [r1]; exact hF
  obtain ⟨r2, l2⟩ := linkEdges_simplex l1 hF1 hed a 2 c k ha (by omega) hc hk q1 e2
  refine ⟨?_, l2⟩
  rw [r2, r1]

/-- The point found farthest from the plane is at a distance that is not
zero, and it is none of the first three vertices. -/
theorem farthestFromPlane_found (q : Hull K) (normal : Vector K) (d0 : K) (v0 v1 v2 : Nat)
    (d : K) (v3 : Nat) (h : farthestFromPlane q normal d0 v0 v1 v2 = (d, some v3)) :
    ∃ x3, q.points[v3]? = some x3 ∧ d = |x3.point.Dot normal - d0| ∧ 0 < d ∧
      v3 ≠ v0 ∧ v3 ≠ v1 ∧ v3 ≠ v2 := by
  have key : (fun (acc : K × Option Nat) => 0 ≤ acc.1 ∧ ∀ v, acc.2 = some v →
      ∃ x3, q.points[v]? = some x3 ∧ acc.1 = |x3.point.Dot normal - d0| ∧ 0 < acc.1 ∧
        v ≠ v0 ∧ v ≠ v1 ∧ v ≠ v2) (farthestFromPlane q normal d0 v0 v1 v2) := by
    unfold farthestFromPlane
    apply foldl_invariant (fun (acc : K × Option Nat) => 0 ≤ acc.1 ∧ ∀ v, acc.2 = some v →
      ∃ x3, q.points[v]? = some x3 ∧ acc.1 = |x3.point.Dot normal - d0| ∧ 0 < acc.1 ∧
        v ≠ v0 ∧ v ≠ v1 ∧ v ≠ v2)
    · exact ⟨le_refl _, fun v hv => absurd hv (by simp)⟩
    · intro acc ip hip hacc
      simp only []
      split_ifs with hc
      · refine ⟨abs_nonneg _, ?_⟩
        intro v hv
        simp only [Option.some.injEq] at hv
        subst hv
        exact ⟨ip.2, mem_enum_lookup hip, rfl, lt_of_le_of_lt hacc.1 hc.1, hc.2.1, hc.2.2.1,
          hc.2.2.2⟩
      · exact hacc
  rw [h] at key
  exact key.2 v3 rfl

/-- The linking loop of the first orientation, started on half-edges without
opposites. -/
theorem linkLoop_behind {q : Hull K} {t0 t1 t2 t3 : Nat × Nat × Nat} {f0 f1 f2 f3 : Face K}
    (hl : Linked q (simplexEdges t0 t1 t2 t3) (List.replicate 12 none))
    (hF : q.faceStore = [f0, f1, f2, f3])
    (hed : f0.edge = 0 ∧ f1.edge = 3 ∧ f2.edge = 6 ∧ f3.edge = 9) (qf : Hull K)
    (h : [0, 1, 2].foldl
        (fun acc (i : Nat) => do
          let q ← acc
          let k := (i + 1) % 3
          let a ← deref [0, 1, 2, 3][i + 1]?
          let b ← deref [0, 1, 2, 3][k + 1]?
          let q ← linkEdges q a 1 b 0
          linkEdges q a 2 0 (k : Int))
        (pure q : Except Err (Hull K)) = .ok qf) :
    qf = { q with edgeStore := qf.edgeStore } ∧
      Linked qf (simplexEdges t0 t1 t2 t3)
        [some 11, some 5, some 8, some 10, some 6, some 1, some 4, some 9, some 2, some 7,
          some 3, some 0] := by
  simp only [List.foldl_cons, List.foldl_nil] at h
  obtain ⟨r2, h2, h⟩ := bind_ok_inv h
  obtain ⟨r1, h1, h2⟩ := bind_ok_inv h2
  obtain ⟨r0, h0, h1⟩ := bind_ok_inv h1
  simp only [pure, Except.pure, Except.ok.injEq] at h0
  subst h0
  -- round 0
  obtain ⟨a, ea, h1⟩ := bind_ok_inv h1
  obtain ⟨b, eb, h1⟩ := bind_ok_inv h1
  have ka := deref_ok ea
  have kb := deref_ok eb
  simp only [Nat.zero_add, Nat.reduceAdd, Nat.reduceMod, List.getElem?_cons_succ,
    List.getElem?_cons_zero, Option.some.injEq] at ka kb
  subst ka kb
  obtain ⟨e1, l1⟩ := linkRound hl hF hed 1 1 2 0 0 1 (by omega) (by omega) (by omega) (by omega)
    (by omega) (by omega) 1 0 rfl rfl r1 h1
  have hF1 : r1.faceStore = [f0, f1, f2, f3] := by rw [e1]; exact hF
  -- round 1
  obtain ⟨a, ea, h2⟩ := bind_ok_inv h2
  obtain ⟨b, eb, h2⟩ := bind_ok_inv h2
  have ka := deref_ok ea
  have kb := deref_ok eb
  simp only [Nat.zero_add, Nat.reduceAdd, Nat.reduceMod, List.getElem?_cons_succ,
    List.getElem?_cons_zero, Option.some.injEq] at ka kb
  subst ka kb
  obtain ⟨e2, l2⟩ := linkRound l1 hF1 hed 2 1 3 0 0 2 (by omega) (by omega) (by omega) (by omega)
    (by omega) (by omega) 1 0 rfl rfl r2 h2
  have hF2 : r2.faceStore = [f0, f1, f2, f3] := by rw [e2]; exact hF1
  -- round 2
  obtain ⟨a, ea, h⟩ := bind_ok_inv h
  obtain ⟨b, eb, h⟩ := bind_ok_inv h
  have ka := deref_ok ea
  have kb := deref_ok eb
  simp only [Nat.zero_add, Nat.reduceAdd, Nat.reduceMod, List.getElem?_cons_succ,
    List.getElem?_cons_zero, Option.some.injEq] at ka kb
  subst ka kb
  obtain ⟨e3, l3⟩ := linkRound l2 hF2 hed 3 1 1 0 0 0 (by omega) (by omega) (by omega) (by omega)
    (by omega) (by omega) 1 0 rfl rfl qf h
  refine ⟨?_, l3⟩
  rw [e3, e2, e1]

/-- The linking loop of the second orientation, started on half-edges without
opposites. -/
theorem linkLoop_front {q : Hull K} {t0 t1 t2 t3 : Nat × Nat × Nat} {f0 f1 f2 f3 : Face K}
    (hl : Linked q (simplexEdges t0 t1 t2 t3) (List.replicate 12 none))
    (hF : q.faceStore = [f0, f1, f2, f3])
    (hed : f0.edge = 0 ∧ f1.edge = 3 ∧ f2.edge = 6 ∧ f3.edge = 9) (qf : Hull K)
    (h : [0, 1, 2].foldl
        (fun acc (i : Nat) => do
          let q ← acc
          let k := (i + 1) % 3
          let a ← deref [0, 1, 2, 3][i + 1]?
          let b ← deref [0, 1, 2, 3][k + 1]?
          let q ← linkEdges q a 0 b 1
          linkEdges q a 2 0 (((3 - i) % 3 : Nat) : Int))
        (pure q : Except Err (Hull K)) = .ok qf) :
    qf = { q with edgeStore := qf.edgeStore } ∧
      Linked qf (simplexEdges t0 t1 t2 t3)
        [some 5, some 11, some 8, some 7, some 9, some 0, some 10, some 3, some 2, some 4,
          some 6, some 1] := by
  simp only [List.foldl_cons, List.foldl_nil] at h
  obtain ⟨r2, h2, h⟩ := bind_ok_inv h
  obtain ⟨r1, h1, h2⟩ := bind_ok_inv h2
  obtain ⟨r0, h0, h1⟩ := bind_ok_inv h1
  simp only [pure, Except.pure, Except.ok.injEq] at h0
  subst h0
  -- round 0
  obtain ⟨a, ea, h1⟩ := bind_ok_inv h1
  obtain ⟨b, eb, h1⟩ := bind_ok_inv h1
  have ka := deref_ok ea
  have kb := deref_ok eb
  simp only [Nat.zero_add, Nat.reduceAdd, Nat.reduceMod, List.getElem?_cons_succ,
    List.getElem?_cons_zero, Option.some.injEq] at ka kb
  subst ka kb
  obtain ⟨e1, l1⟩ := linkRound hl hF hed 1 0 2 1 0 0 (by omega) (by omega) (by omega) (by omega)
    (by omega) (by omega) 0 1 rfl rfl r1 h1
  have hF1 : r1.faceStore = [f0, f1, f2, f3] := by rw [e1]; exact hF
  -- round 1
  obtain ⟨a, ea, h2⟩ := bind_ok_inv h2
  obtain ⟨b, eb, h2⟩ := bind_ok_inv h2
  have ka := deref_ok ea
  have kb := deref_ok eb
  simp only [Nat.zero_add, Nat.reduceAdd, Nat.reduceMod, List.getElem?_cons_succ,
    List.getElem?_cons_zero, Option.some.injEq] at ka kb
  subst ka kb
  obtain ⟨e2, l2⟩ := linkRound l1 hF1 hed 2 0 3 1 0 2 (by omega) (by omega) (by omega) (by omega)
    (by omega) (by omega) 0 1 rfl rfl r2 h2
  have hF2 : r2.faceStore = [f0, f1, f2, f3] := by rw [e2]; exact hF1
  -- round 2
  obtain ⟨a, ea, h⟩ := bind_ok_inv h
  obtain ⟨b, eb, h⟩ := bind_ok_inv h
  have ka := deref_ok ea
  have kb := deref_ok eb
  simp only [Nat.zero_add, Nat.reduceAdd, Nat.reduceMod, List.getElem?_cons_succ,
    List.getElem?_cons_zero, Option.some.injEq] at ka kb
  subst ka kb
  obtain ⟨e3, l3⟩ := linkRound l2 hF2 hed 3 0 1 1 0 1 (by omega) (by omega) (by omega) (by omega)
    (by omega) (by omega) 0 1 rfl rfl qf h
  refine ⟨?_, l3⟩
  rw [e3, e2, e1]

/-- What a run of `createInitialSimplex` that reports no error leaves, on
stores that were empty: the four vertices, the orientation test, the twelve
half-edges with their opposites and the planes of the four faces. -/
theorem createInitialSimplex_mesh (sqrt : K → K) (fuel : Nat) (q qb : Hull K)
    (hE : q.edgeStore = []) (hF : q.faceStore = [])
    (h : createInitialSimplex sqrt fuel q = .ok (qb, none)) :
    ∃ (v0 v1 v2 v3 : Nat) (x0 x1 x2 x3 : Vertex K) (nv : Vector K) (maxSqr maxDist : K)
      (f0 f1 f2 f3 : Face K) (t0 t1 t2 t3 : Nat × Nat × Nat) (O : List (Option Nat)),
      q.points[v0]? = some x0 ∧ q.points[v1]? = some x1 ∧ q.points[v2]? = some x2 ∧
      q.points[v3]? = some x3 ∧
      farthestFromLine q (Normalize sqrt (x1.point.Minus x0.point)) v0 v1 x0.point =
        (maxSqr, some v2, some nv) ∧
      farthestFromPlane q (Normalize sqrt nv) (x2.point.Dot (Normalize sqrt nv)) v0 v1 v2 =
        (maxDist, some v3) ∧
      ((x3.point.Dot (Normalize sqrt nv) - x2.point.Dot (Normalize sqrt nv) < 0 ∧
          t0 = (v0, v1, v2) ∧ t1 = (v3, v1, v0) ∧ t2 = (v3, v2, v1) ∧ t3 = (v3, v0, v2) ∧
          O = [some 11, some 5, some 8, some 10, some 6, some 1, some 4, some 9, some 2,
            some 7, some 3, some 0]) ∨
        (¬ x3.point.Dot (Normalize sqrt nv) - x2.point.Dot (Normalize sqrt nv) < 0 ∧
          t0 = (v0, v2, v1) ∧ t1 = (v3, v0, v1) ∧ t2 = (v3, v1, v2) ∧ t3 = (v3, v2, v0) ∧
          O = [some 5, some 11, some 8, some 7, some 9, some 0, some 10, some 3, some 2,
            some 4, some 6, some 1])) ∧
      (FacePlane sqrt q f0 t0 ∧ FacePlane sqrt q f1 t1 ∧ FacePlane sqrt q f2 t2 ∧
        FacePlane sqrt q f3 t3) ∧
      qb.edgeStore = edgesOf (simplexEdges t0 t1 t2 t3) O ∧ qb.faces = q.faces ++ [0, 1, 2, 3] ∧
      qb.faceStore.map (fun f => (f.Normal, f.W)) =
        [f0, f1, f2, f3].map (fun f => (f.Normal, f.W)) ∧
      qb.points.map (fun x => x.point) = q.points.map (fun x => x.point) := by
  unfold createInitialSimplex at h
  obtain ⟨⟨m, im⟩, hw, h⟩ := bind_ok_inv h
  dsimp only at h
  by_cases hm : m ≤ q.tolerance
  · rw [if_pos hm] at h
    simp [pure, Except.pure] at h
  · rw [if_neg hm] at h
    obtain ⟨_, _, h⟩ := bind_ok_inv h
    obtain ⟨v0, e0, h⟩ := bind_ok_inv h
    obtain ⟨v1, e1, h⟩ := bind_ok_inv h
    obtain ⟨x0, ex0, h⟩ := bind_ok_inv h
    obtain ⟨x1, ex1, h⟩ := bind_ok_inv h
    cases hfl : farthestFromLine q (Normalize sqrt (x1.point.Minus x0.point)) v0 v1 x0.point with
    | mk maxSqr r =>
    obtain ⟨vtx2, normal⟩ := r
    rw [hfl] at h
    dsimp only at h
    by_cases hc : sqrt maxSqr < 100 * q.tolerance
    · rw [if_pos hc] at h
      simp [pure, Except.pure] at h
    · rw [if_neg hc] at h
      obtain ⟨_, _, h⟩ := bind_ok_inv h
      obtain ⟨nrm, en, h⟩ := bind_ok_inv h
      obtain ⟨v2, e2, h⟩ := bind_ok_inv h
      obtain ⟨x2, ex2, h⟩ := bind_ok_inv h
      have hnv : ∃ nv, normal = some nv ∧ nrm = Normalize sqrt nv := by
        cases normal with
        | none => simp at en
        | some nv =>
          simp only [pure, Except.pure, Except.ok.injEq] at en
          exact ⟨nv, rfl, en.symm⟩
      obtain ⟨nv, hnv, hnrm⟩ := hnv
      cases hfp : farthestFromPlane q nrm (x2.point.Dot nrm) v0 v1 v2 with
      | mk maxDist vtx3 =>
      rw [hfp] at h
      dsimp only at h
      by_cases hp : sqrt maxDist < 100 * q.tolerance
      · rw [if_pos hp] at h
        simp [pure, Except.pure] at h
      · rw [if_neg hp] at h
        obtain ⟨_, _, h⟩ := bind_ok_inv h
        obtain ⟨v3, e3, h⟩ := bind_ok_inv h
        obtain ⟨x3, ex3, h⟩ := bind_ok_inv h
        obtain ⟨⟨qs, tris⟩, hs4, h⟩ := bind_ok_inv h
        dsimp only at h
        obtain ⟨qc, hcl, h⟩ := bind_ok_inv h
        simp only [pure, Except.pure, Except.ok.injEq, Prod.mk.injEq, and_true] at h
        subst h
        have k2 := deref_ok e2
        have k3 := deref_ok e3
        subst k2 k3 hnv hnrm
        obtain ⟨g1, g2, _, g4, g5⟩ := claimPoints_frame _ _ _ _ _ _ _ _ hcl
        by_cases hor : x3.point.Dot (Normalize sqrt nv) - x2.point.Dot (Normalize sqrt nv) < 0
        · rw [if_pos hor] at hs4
          obtain ⟨⟨q1, i0⟩, n0, hs4⟩ := bind_ok_inv hs4
          obtain ⟨⟨q2, i1⟩, n1, hs4⟩ := bind_ok_inv hs4
          obtain ⟨⟨q3, i2⟩, n2, hs4⟩ := bind_ok_inv hs4
          obtain ⟨⟨q4, i3⟩, n3, hs4⟩ := bind_ok_inv hs4
          obtain ⟨qf, hfold, hs4⟩ := bind_ok_inv hs4
          simp only [pure, Except.pure, Except.ok.injEq, Prod.mk.injEq] at hs4
          obtain ⟨rfl, rfl⟩ := hs4
          obtain ⟨hti, f0, f1, f2, f3, rfl, hed, p0, p1, p2, p3⟩ := simplexFaces_planes sqrt fuel q
            hE hF (v0, v1, v2) (v3, v1, v0) (v3, v2, v1) (v3, v0, v2) q1 q2 q3 q4 i0 i1 i2 i3
            n0 n1 n2 n3
          simp only [List.cons.injEq, and_true] at hti
          obtain ⟨rfl, rfl, rfl, rfl⟩ := hti
          obtain ⟨eq, hl⟩ := @linkLoop_behind K _ ({ q with
              edgeStore := edgesOf (simplexEdges (v0, v1, v2) (v3, v1, v0) (v3, v2, v1)
                (v3, v0, v2)) (List.replicate 12 none),
              faceStore := [f0, f1, f2, f3] } : Hull K) (v0, v1, v2) (v3, v1, v0)
            (v3, v2, v1) (v3, v0, v2) f0 f1 f2 f3 ⟨rfl, rfl⟩ rfl hed qf hfold
          refine ⟨v0, v1, v2, v3, x0, x1, x2, x3, nv, maxSqr, maxDist, f0, f1, f2, f3, _, _, _, _,
            _, load_ok ex0, load_ok ex1, load_ok ex2, load_ok ex3, hfl, hfp,
            Or.inl ⟨hor, rfl, rfl, rfl, rfl, rfl⟩, ⟨p0, p1, p2, p3⟩, ?_, ?_, ?_, ?_⟩
          · rw [g1]
            exact Linked_edgesOf hl
          · rw [g2, eq]
          · rw [g5, eq]
          · rw [g4, eq]
        · rw [if_neg hor] at hs4
          obtain ⟨⟨q1, i0⟩, n0, hs4⟩ := bind_ok_inv hs4
          obtain ⟨⟨q2, i1⟩, n1, hs4⟩ := bind_ok_inv hs4
          obtain ⟨⟨q3, i2⟩, n2, hs4⟩ := bind_ok_inv hs4
          obtain ⟨⟨q4, i3⟩, n3, hs4⟩ := bind_ok_inv hs4
          obtain ⟨qf, hfold, hs4⟩ := bind_ok_inv hs4
          simp only [pure, Except.pure, Except.ok.injEq, Prod.mk.injEq] at hs4
          obtain ⟨rfl, rfl⟩ := hs4
          obtain ⟨hti, f0, f1, f2, f3, rfl, hed, p0, p1, p2, p3⟩ := simplexFaces_planes sqrt fuel q
            hE hF (v0, v2, v1) (v3, v0, v1) (v3, v1, v2) (v3, v2, v0) q1 q2 q3 q4 i0 i1 i2 i3
            n0 n1 n2 n3
          simp only [List.cons.injEq, and_true] at hti
          obtain ⟨rfl, rfl, rfl, rfl⟩ := hti
          obtain ⟨eq, hl⟩ := @linkLoop_front K _ ({ q with
              edgeStore := edgesOf (simplexEdges (v0, v2, v1) (v3, v0, v1) (v3, v1, v2)
                (v3, v2, v0)) (List.replicate 12 none),
              faceStore := [f0, f1, f2, f3] } : Hull K) (v0, v2, v1) (v3, v0, v1)
            (v3, v1, v2) (v3, v2, v0) f0 f1 f2 f3 ⟨rfl, rfl⟩ rfl hed qf hfold
          refine ⟨v0, v1, v2, v3, x0, x1, x2, x3, nv, maxSqr, maxDist, f0, f1, f2, f3, _, _, _, _,
            _, load_ok ex0, load_ok ex1, load_ok ex2, load_ok ex3, hfl, hfp,
            Or.inr ⟨hor, rfl, rfl, rfl, rfl, rfl⟩, ⟨p0, p1, p2, p3⟩, ?_, ?_, ?_, ?_⟩
          · rw [g1]
            exact Linked_edgesOf hl
          · rw [g2, eq]
          · rw [g5, eq]
          · rw [g4, eq]

/-- The reads of a half-edge depend on the store of half-edges only. -/
theorem reads_store {q : Hull K} {E : List HalfEdge} (h : q.edgeStore = E) (e : Nat) :
    q.halfEdge e = load E e ∧
    Opposite q e = (do let he ← load E e; pure he.opposite) ∧
    Head q e = (do let he ← load E e; pure he.Vertex) ∧
    Tail q e = (do
      let he ← load E e
      match he.prev with
      | some p => do
        let pe ← load E p
        pure (some pe.Vertex)
      | none => pure none) ∧
    OppositeFace q e = (do
      let he ← load E e
      match he.opposite with
      | some o => do
        let oe ← load E o
        pure (some oe.Face)
      | none => pure none) := by
  unfold Opposite Head Tail OppositeFace Hull.halfEdge
  rw [h]
  exact ⟨rfl, rfl, rfl, rfl, rfl⟩

/-- The twelve half-edges of a store with the loops of the simplex and the
opposites `O`, when `O` pairs them as the two linking loops do. -/
theorem paired_store {q : Hull K} {t0 t1 t2 t3 : Nat × Nat × Nat} {O : List (Option Nat)}
    (hq : q.edgeStore = edgesOf (simplexEdges t0 t1 t2 t3) O)
    (hO : (O = [some 11, some 5, some 8, some 10, some 6, some 1, some 4, some 9, some 2,
          some 7, some 3, some 0] ∧
        ∃ v0 v1 v2 v3, t0 = (v0, v1, v2) ∧ t1 = (v3, v1, v0) ∧ t2 = (v3, v2, v1) ∧
          t3 = (v3, v0, v2)) ∨
      (O = [some 5, some 11, some 8, some 7, some 9, some 0, some 10, some 3, some 2,
          some 4, some 6, some 1] ∧
        ∃ v0 v1 v2 v3, t0 = (v0, v2, v1) ∧ t1 = (v3, v0, v1) ∧ t2 = (v3, v1, v2) ∧
          t3 = (v3, v2, v0))) :
    q.edgeStore.length = 12 ∧
    ∀ e, e < 12 → ∃ (o : Nat) (he ho : HalfEdge) (a b : Nat),
      o < 12 ∧ q.halfEdge e = .ok he ∧ q.halfEdge o = .ok ho ∧
      Opposite q e = .ok (some o) ∧ Opposite q o = .ok (some e) ∧
      he.Face = e / 3 ∧ ho.Face = o / 3 ∧ OppositeFace q e = .ok (some (o / 3)) ∧
      o / 3 ≠ e / 3 ∧
      Head q e = .ok a ∧ Tail q o = .ok (some a) ∧ Tail q e = .ok (some b) ∧
      Head q o = .ok b := by
  rcases hO with ⟨rfl, v0, v1, v2, v3, rfl, rfl, rfl, rfl⟩ | ⟨rfl, v0, v1, v2, v3, rfl, rfl, rfl, rfl⟩
  · refine ⟨by rw [hq]; rfl, ?_⟩
    intro e he
    refine ⟨(([some 11, some 5, some 8, some 10, some 6, some 1, some 4, some 9, some 2,
      some 7, some 3, some 0] : List (Option Nat)).getD e none).getD 0, ?_⟩
    simp only [(reads_store hq _).1, (reads_store hq _).2.1, (reads_store hq _).2.2.1,
      (reads_store hq _).2.2.2.1, (reads_store hq _).2.2.2.2]
    interval_cases e <;>
      exact ⟨_, _, _, _, by decide, rfl, rfl, rfl, rfl, rfl, rfl, rfl, by decide, rfl, rfl, rfl,
        rfl⟩
  · refine ⟨by rw [hq]; rfl, ?_⟩
    intro e he
    refine ⟨(([some 5, some 11, some 8, some 7, some 9, some 0, some 10, some 3, some 2,
      some 4, some 6, some 1] : List (Option Nat)).getD e none).getD 0, ?_⟩
    simp only [(reads_store hq _).1, (reads_store hq _).2.1, (reads_store hq _).2.2.1,
      (reads_store hq _).2.2.2.1, (reads_store hq _).2.2.2.2]
    interval_cases e <;>
      exact ⟨_, _, _, _, by decide, rfl, rfl, rfl, rfl, rfl, rfl, rfl, by decide, rfl, rfl, rfl,
        rfl⟩

/-- Claim C29.  Whenever `createInitialSimplex` reports no error (on the fresh
stores `initBuffers` leaves), in either orientation branch the hull holds the
four faces `0 .. 3` at the end of its face list and twelve half-edges, the
half-edge `e` belonging to the face `e / 3`; each half-edge `e` has an opposite
`o`, the opposite of `o` is `e`, the face of `o` (which is what `OppositeFace`
returns) differs from the face of `e`, and `o` joins the same two vertices in
the reverse direction: the head of `e` is the tail of `o` and the tail of `e`
is the head of `o`. -/
theorem simplex_opposites (sqrt : K → K) (fuel : Nat) (q qb : Hull K)
    (hE : q.edgeStore = []) (hF : q.faceStore = [])
    (h : createInitialSimplex sqrt fuel q = .ok (qb, none)) :
    qb.faces = q.faces ++ [0, 1, 2, 3] ∧ qb.edgeStore.length = 12 ∧
    ∀ e, e < 12 → ∃ (o : Nat) (he ho : HalfEdge) (a b : Nat),
      o < 12 ∧ qb.halfEdge e = .ok he ∧ qb.halfEdge o = .ok ho ∧
      Opposite qb e = .ok (some o) ∧ Opposite qb o = .ok (some e) ∧
      he.Face = e / 3 ∧ ho.Face = o / 3 ∧ OppositeFace qb e = .ok (some (o / 3)) ∧
      o / 3 ≠ e / 3 ∧
      Head qb e = .ok a ∧ Tail qb o = .ok (some a) ∧ Tail qb e = .ok (some b) ∧
      Head qb o = .ok b := by
  obtain ⟨v0, v1, v2, v3, x0, x1, x2, x3, nv, maxSqr, maxDist, f0, f1, f2, f3, t0, t1, t2, t3, O,
    _, _, _, _, _, _, hbr, _, hq, hfaces, _, _⟩ := createInitialSimplex_mesh sqrt fuel q qb hE hF h
  refine ⟨hfaces, paired_store hq ?_⟩
  rcases hbr with ⟨_, a, b, c, d, e⟩ | ⟨_, a, b, c, d, e⟩
  · exact Or.inl ⟨e, v0, v1, v2, v3, a, b, c, d⟩
  · exact Or.inr ⟨e, v0, v1, v2, v3, a, b, c, d⟩

/-- The theorem on the seven test points of `TestSimpleHull`. -/
theorem simplex_opposites_witness :
    ∃ q qb : Hull ℚ, q.edgeStore = [] ∧ q.faceStore = [] ∧
      createInitialSimplex Csg.ratSqrt 20 q = .ok (qb, none) ∧
      qb.faces = q.faces ++ [0, 1, 2, 3] ∧ qb.edgeStore.length = 12 ∧
      ∀ e, e < 12 → ∃ (o : Nat) (he ho : HalfEdge) (a b : Nat),
        o < 12 ∧ qb.halfEdge e = .ok he ∧ qb.halfEdge o = .ok ho ∧
        Opposite qb e = .ok (some o) ∧ Opposite qb o = .ok (some e) ∧
        he.Face = e / 3 ∧ ho.Face = o / 3 ∧ OppositeFace qb e = .ok (some (o / 3)) ∧
        o / 3 ≠ e / 3 ∧
        Head qb e = .ok a ∧ Tail qb o = .ok (some a) ∧ Tail qb e = .ok (some b) ∧
        Head qb o = .ok b := by
  have hb : (match computeMinAndMax (setPoints (initBuffers Hull.new 7) simplePoints 7) with
      | .ok q =>
        (match createInitialSimplex Csg.ratSqrt 20 q with
          | .ok (_, none) => decide (q.edgeStore = []) && decide (q.faceStore = [])
          | _ => false)
      | _ => false) = true := by decide!
  split at hb
  · next q eq =>
    split at hb
    · next qb e =>
      simp only [Bool.and_eq_true, decide_eq_true_eq] at hb
      exact ⟨q, qb, hb.1, hb.2, e, simplex_opposites Csg.ratSqrt 20 q qb hb.1 hb.2 e⟩
    · exact absurd hb (by simp)
  · exact absurd hb (by simp)

end SimplexMesh

end Qhull
namespace Qhull

open Csg (Vector Err)

section Outward

variable {K : Type} [LinearOrderedField K]

/-- The value tested by the orientation branch of `createInitialSimplex` is the
triple product of the simplex divided by two lengths. -/
theorem orientation_value (sqrt : K → K) (x0 x1 x2 x3 : Vector K) :
    x3.Dot (Normalize sqrt ((Normalize sqrt (x1.Minus x0)).Cross (x2.Minus x0))) -
      x2.Dot (Normalize sqrt ((Normalize sqrt (x1.Minus x0)).Cross (x2.Minus x0))) =
    (x3.Minus x2).Dot ((x1.Minus x0).Cross (x2.Minus x0)) *
      (sqrt ((x1.Minus x0).Dot (x1.Minus x0)))⁻¹ *
      (sqrt (((Normalize sqrt (x1.Minus x0)).Cross (x2.Minus x0)).Dot
        ((Normalize sqrt (x1.Minus x0)).Cross (x2.Minus x0))))⁻¹ := by
  simp only [Normalize, Vector.Length]
  generalize sqrt ((x1.Minus x0).Dot (x1.Minus x0)) = l
  generalize sqrt _ = l2
  simp only [Vector.Dot, Vector.Cross, Vector.Minus, div_eq_mul_inv]
  ring

/-- With a square root that is positive on positive numbers, the value tested
by the orientation branch, when it is not zero, has the sign of the triple
product. -/
theorem orientation_sign (sqrt : K → K) (hpos : ∀ x, 0 < x → 0 < sqrt x)
    (x0 x1 x2 x3 : Vector K)
    (hne : x3.Dot (Normalize sqrt ((Normalize sqrt (x1.Minus x0)).Cross (x2.Minus x0))) -
      x2.Dot (Normalize sqrt ((Normalize sqrt (x1.Minus x0)).Cross (x2.Minus x0))) ≠ 0) :
    (x3.Dot (Normalize sqrt ((Normalize sqrt (x1.Minus x0)).Cross (x2.Minus x0))) -
        x2.Dot (Normalize sqrt ((Normalize sqrt (x1.Minus x0)).Cross (x2.Minus x0))) < 0 ↔
      (x3.Minus x2).Dot ((x1.Minus x0).Cross (x2.Minus x0)) < 0) := by
  have hv : (Normalize sqrt (x1.Minus x0)).Cross (x2.Minus x0) ≠ ⟨0, 0, 0⟩ := by
    intro e
    apply hne
    rw [e]
    simp [Normalize, Vector.Dot]
  have hu : x1.Minus x0 ≠ ⟨0, 0, 0⟩ := by
    intro e
    apply hv
    rw [e]
    simp [Normalize, Vector.Cross]
  have l1 := hpos _ (Csg.dot_self_pos_of_ne_zero hu)
  have l2 := hpos _ (Csg.dot_self_pos_of_ne_zero hv)
  rw [orientation_value]
  constructor
  · intro hlt
    by_contra hge
    have : 0 ≤ (x3.Minus x2).Dot ((x1.Minus x0).Cross (x2.Minus x0)) *
        (sqrt ((x1.Minus x0).Dot (x1.Minus x0)))⁻¹ *
        (sqrt (((Normalize sqrt (x1.Minus x0)).Cross (x2.Minus x0)).Dot
          ((Normalize sqrt (x1.Minus x0)).Cross (x2.Minus x0))))⁻¹ := by
      have := not_lt.mp hge
      positivity
    exact absurd hlt (not_lt.mpr this)
  · intro hlt
    have h1 := inv_pos.mpr l1
    have h2 := inv_pos.mpr l2
    exact mul_neg_of_neg_of_pos (mul_neg_of_neg_of_pos hlt h1) h2

/-- The signed distance of a point from the plane `NewPlaneFromPoints` puts
through three points is negative when the triple product is. -/
theorem plane_distance_neg (sqrt : K → K) (hpos : ∀ x, 0 < x → 0 < sqrt x) (a b c p : Vector K)
    (hT : ((b.Minus a).Cross (c.Minus a)).Dot (p.Minus a) < 0) :
    (Csg.NewPlaneFromPoints sqrt a b c).Normal.Dot p - (Csg.NewPlaneFromPoints sqrt a b c).W <
      0 := by
  have hv : (b.Minus a).Cross (c.Minus a) ≠ ⟨0, 0, 0⟩ := by
    intro e
    rw [e] at hT
    simp [Vector.Dot] at hT
  have l := hpos _ (Csg.dot_self_pos_of_ne_zero hv)
  have e : (Csg.NewPlaneFromPoints sqrt a b c).Normal.Dot p -
      (Csg.NewPlaneFromPoints sqrt a b c).W =
      ((b.Minus a).Cross (c.Minus a)).Dot (p.Minus a) *
        (sqrt (((b.Minus a).Cross (c.Minus a)).Dot ((b.Minus a).Cross (c.Minus a))))⁻¹ := by
    simp only [Csg.NewPlaneFromPoints, Vector.Unit, Vector.DividedBy, Vector.Length]
    generalize sqrt _ = len
    simp only [Vector.Dot, Vector.Cross, Vector.Minus, div_eq_mul_inv]
    ring
  rw [e]
  exact mul_neg_of_neg_of_pos hT (inv_pos.mpr l)

/-- The triple products of the four faces of the first orientation with their
missing vertex are the triple product of the simplex, and those of the second
orientation are its negative. -/
theorem simplex_triples (x0 x1 x2 x3 : Vector K) :
    (((x1.Minus x0).Cross (x2.Minus x0)).Dot (x3.Minus x0) =
        (x3.Minus x2).Dot ((x1.Minus x0).Cross (x2.Minus x0)) ∧
      ((x1.Minus x3).Cross (x0.Minus x3)).Dot (x2.Minus x3) =
        (x3.Minus x2).Dot ((x1.Minus x0).Cross (x2.Minus x0)) ∧
      ((x2.Minus x3).Cross (x1.Minus x3)).Dot (x0.Minus x3) =
        (x3.Minus x2).Dot ((x1.Minus x0).Cross (x2.Minus x0)) ∧
      ((x0.Minus x3).Cross (x2.Minus x3)).Dot (x1.Minus x3) =
        (x3.Minus x2).Dot ((x1.Minus x0).Cross (x2.Minus x0))) ∧
    (((x2.Minus x0).Cross (x1.Minus x0)).Dot (x3.Minus x0) =
        -((x3.Minus x2).Dot ((x1.Minus x0).Cross (x2.Minus x0))) ∧
      ((x0.Minus x3).Cross (x1.Minus x3)).Dot (x2.Minus x3) =
        -((x3.Minus x2).Dot ((x1.Minus x0).Cross (x2.Minus x0))) ∧
      ((x1.Minus x3).Cross (x2.Minus x3)).Dot (x0.Minus x3) =
        -((x3.Minus x2).Dot ((x1.Minus x0).Cross (x2.Minus x0))) ∧
      ((x2.Minus x3).Cross (x0.Minus x3)).Dot (x1.Minus x3) =
        -((x3.Minus x2).Dot ((x1.Minus x0).Cross (x2.Minus x0)))) := by
  simp only [Vector.Dot, Vector.Cross, Vector.Minus]
  refine ⟨⟨?_, ?_, ?_, ?_⟩, ?_, ?_, ?_, ?_⟩ <;> ring

theorem all_loop (f v : Nat) : ∀ E : List HalfEdge,
    E.all (fun e => !(e.Face == f && e.Vertex == v)) =
      (E.map HalfEdge.loop).all (fun t => !(t.2.1 == f && t.1 == v))
  | [] => rfl
  | e :: E => by
    simp only [List.all_cons, List.map_cons, all_loop f v E]
    rfl

/-- Each face of the simplex misses exactly one of the four vertices: the
face 0 misses `v3`, the face 1 `v2`, the face 2 `v0` and the face 3 `v1`. -/
theorem simplex_missing {q : Hull K} {t0 t1 t2 t3 : Nat × Nat × Nat} {v0 v1 v2 v3 : Nat}
    (hL : q.edgeStore.map HalfEdge.loop = simplexEdges t0 t1 t2 t3)
    (ht : (t0 = (v0, v1, v2) ∧ t1 = (v3, v1, v0) ∧ t2 = (v3, v2, v1) ∧ t3 = (v3, v0, v2)) ∨
      (t0 = (v0, v2, v1) ∧ t1 = (v3, v0, v1) ∧ t2 = (v3, v1, v2) ∧ t3 = (v3, v2, v0)))
    (d01 : v0 ≠ v1) (d02 : v2 ≠ v0) (d12 : v2 ≠ v1) (d03 : v3 ≠ v0) (d13 : v3 ≠ v1)
    (d23 : v3 ≠ v2) :
    ∀ f v, (f = 0 ∧ v = v3) ∨ (f = 1 ∧ v = v2) ∨ (f = 2 ∧ v = v0) ∨ (f = 3 ∧ v = v1) →
      isSimplexVertex q v = true ∧ offFace q f v = true ∧
        ∀ w, isSimplexVertex q w = true → offFace q f w = true → w = v := by
  have hsv : ∀ w, isSimplexVertex q w = true ↔ (w = v0 ∨ w = v1 ∨ w = v2 ∨ w = v3) := by
    intro w
    unfold isSimplexVertex
    rw [any_loop, hL]
    rcases ht with ⟨rfl, rfl, rfl, rfl⟩ | ⟨rfl, rfl, rfl, rfl⟩ <;>
      simp only [simplexEdges, List.any_cons, List.any_nil, Bool.or_false, Bool.or_eq_true,
        beq_iff_eq] <;> constructor <;> intro h <;> omega
  have hoff : ∀ f w, f < 4 → (offFace q f w = true ↔
      (f = 0 → w ≠ v0 ∧ w ≠ v1 ∧ w ≠ v2) ∧ (f = 1 → w ≠ v3 ∧ w ≠ v1 ∧ w ≠ v0) ∧
      (f = 2 → w ≠ v3 ∧ w ≠ v2 ∧ w ≠ v1) ∧ (f = 3 → w ≠ v3 ∧ w ≠ v0 ∧ w ≠ v2)) := by
    intro f w hf
    unfold offFace
    rw [all_loop, hL]
    rcases ht with ⟨rfl, rfl, rfl, rfl⟩ | ⟨rfl, rfl, rfl, rfl⟩ <;>
      interval_cases f <;>
      simp [simplexEdges] <;> constructor <;> intro h <;> omega
  intro f v hfv
  have hf : f < 4 := by omega
  refine ⟨(hsv v).mpr (by omega), (hoff f v hf).mpr ?_, ?_⟩
  · rcases hfv with ⟨rfl, rfl⟩ | ⟨rfl, rfl⟩ | ⟨rfl, rfl⟩ | ⟨rfl, rfl⟩ <;>
      refine ⟨?_, ?_, ?_, ?_⟩ <;> intro h <;> omega
  · intro w h1 h2
    have a := (hsv w).mp h1
    have b := (hoff f w hf).mp h2
    rcases hfv with ⟨rfl, rfl⟩ | ⟨rfl, rfl⟩ | ⟨rfl, rfl⟩ | ⟨rfl, rfl⟩
    · have := b.1 rfl; omega
    · have := b.2.1 rfl; omega
    · have := b.2.2.1 rfl; omega
    · have := b.2.2.2 rfl; omega

theorem map_lookup {α β : Type} {l : List α} {g : α → β} {L : List β} (h : l.map g = L)
    {k : Nat} {y : β} (hk : L[k]? = some y) : ∃ x, l[k]? = some x ∧ g x = y := by
  rw [← h, List.getElem?_map] at hk
  cases e : l[k]? with
  | none => rw [e] at hk; exact absurd hk (by simp)
  | some x =>
    rw [e] at hk
    simp only [Option.map_some', Option.some.injEq] at hk
    exact ⟨x, rfl, hk⟩

/-- The missing vertex of a face of the simplex is behind the plane of the
face when the triple product of the face with it is negative. -/
theorem face_distance_neg (sqrt : K → K) (hpos : ∀ x, 0 < x → 0 < sqrt x) (q qb : Hull K)
    (hpts : qb.points.map (fun x => x.point) = q.points.map (fun x => x.point))
    (fk face : Face K) (hface : (face.Normal, face.W) = (fk.Normal, fk.W))
    (a b c v : Nat) (hP : FacePlane sqrt q fk (a, b, c)) (xa xb xc xv : Vertex K)
    (ha : q.points[a]? = some xa) (hb : q.points[b]? = some xb) (hc : q.points[c]? = some xc)
    (hv : q.points[v]? = some xv)
    (hT : ((xb.point.Minus xa.point).Cross (xc.point.Minus xa.point)).Dot
      (xv.point.Minus xa.point) < 0) :
    ∃ x, qb.points[v]? = some x ∧ face.DistanceToPlane x.point < 0 := by
  have hl : (q.points.map fun x => x.point)[v]? = some xv.point := by
    rw [List.getElem?_map, hv]
    rfl
  obtain ⟨x, e, ex⟩ := map_lookup hpts hl
  refine ⟨x, e, ?_⟩
  obtain ⟨y0, y1, y2, e0, e1, e2, hn, hw⟩ := hP
  change q.points[a]? = some y0 at e0
  change q.points[b]? = some y1 at e1
  change q.points[c]? = some y2 at e2
  rw [ha] at e0
  rw [hb] at e1
  rw [hc] at e2
  simp only [Option.some.injEq] at e0 e1 e2
  subst e0 e1 e2
  simp only [Prod.mk.injEq] at hface
  unfold Face.DistanceToPlane
  change x.point = xv.point at ex
  rw [hface.1, hface.2, hn, hw, ex]
  exact plane_distance_neg sqrt hpos _ _ _ _ hT

/-- Claim C30.  Whenever `createInitialSimplex` reports no error (on the fresh
stores `initBuffers` leaves), with exact arithmetic and a square root that is
positive on positive numbers, in either orientation branch the tetrahedron is
outward-facing: each of the four faces `0 .. 3` misses exactly one vertex of
the simplex (a head of one of the twelve half-edges that is the head of no
half-edge of that face), and the signed distance of the point of that vertex
from the plane of the face is strictly negative. -/
theorem simplex_outward (sqrt : K → K) (hpos : ∀ x, 0 < x → 0 < sqrt x) (fuel : Nat)
    (q qb : Hull K) (hE : q.edgeStore = []) (hF : q.faceStore = [])
    (h : createInitialSimplex sqrt fuel q = .ok (qb, none)) :
    qb.faces = q.faces ++ [0, 1, 2, 3] ∧
    ∀ f, f < 4 → ∃ (face : Face K) (v : Nat) (x : Vertex K),
      qb.faceStore[f]? = some face ∧ isSimplexVertex qb v = true ∧ offFace qb f v = true ∧
      (∀ w, isSimplexVertex qb w = true → offFace qb f w = true → w = v) ∧
      qb.points[v]? = some x ∧ face.DistanceToPlane x.point < 0 := by
  obtain ⟨v0, v1, v2, v3, x0, x1, x2, x3, nv, maxSqr, maxDist, f0, f1, f2, f3, t0, t1, t2, t3, O,
    p0, p1, p2, p3, hfl, hfp, hbr, ⟨P0, P1, P2, P3⟩, hq, hfaces, hplanes, hpts⟩ :=
    createInitialSimplex_mesh sqrt fuel q qb hE hF h
  refine ⟨hfaces, ?_⟩
  -- the normal and the third vertex
  have hnv : nv = (Normalize sqrt (x1.point.Minus x0.point)).Cross (x2.point.Minus x0.point) ∧
      v2 ≠ v0 ∧ v2 ≠ v1 := by
    rcases farthestFromLine_spec q (Normalize sqrt (x1.point.Minus x0.point)) v0 v1 x0.point with
      hz | ⟨msq, w, xw, ew, n1, n2, hz⟩
    · rw [hz] at hfl
      simp only [Prod.mk.injEq] at hfl
      exact absurd hfl.2.1 (by simp)
    · rw [hz] at hfl
      simp only [Prod.mk.injEq, Option.some.injEq] at hfl
      obtain ⟨_, rfl, e⟩ := hfl
      rw [p2] at ew
      simp only [Option.some.injEq] at ew
      subst ew
      exact ⟨e.symm, n1, n2⟩
  obtain ⟨rfl, d02, d12⟩ := hnv
  -- the fourth vertex
  obtain ⟨x3a, e3, hd, hdpos, d03, d13, d23⟩ := farthestFromPlane_found q _ _ v0 v1 v2 _ v3 hfp
  rw [p3] at e3
  simp only [Option.some.injEq] at e3
  subst e3
  have hne : x3.point.Dot (Normalize sqrt ((Normalize sqrt (x1.point.Minus x0.point)).Cross
        (x2.point.Minus x0.point))) -
      x2.point.Dot (Normalize sqrt ((Normalize sqrt (x1.point.Minus x0.point)).Cross
        (x2.point.Minus x0.point))) ≠ 0 := by
    intro e
    rw [e, abs_zero] at hd
    rw [hd] at hdpos
    exact lt_irrefl _ hdpos
  have hsign := orientation_sign sqrt hpos x0.point x1.point x2.point x3.point hne
  have hD : (x3.point.Minus x2.point).Dot
      ((x1.point.Minus x0.point).Cross (x2.point.Minus x0.point)) ≠ 0 := by
    intro e
    apply hne
    rw [orientation_value, e]
    simp
  have d01 : v0 ≠ v1 := by
    intro e
    apply hD
    rw [e, p1] at p0
    simp only [Option.some.injEq] at p0
    rw [p0]
    simp [Vector.Dot, Vector.Cross, Vector.Minus]
  obtain ⟨T1, T2⟩ := simplex_triples x0.point x1.point x2.point x3.point
  have hL : qb.edgeStore.map HalfEdge.loop = simplexEdges t0 t1 t2 t3 := by
    rw [hq]
    rcases hbr with ⟨_, _, _, _, _, rfl⟩ | ⟨_, _, _, _, _, rfl⟩ <;> rfl
  have hmiss := simplex_missing hL (by
    rcases hbr with ⟨_, a, b, c, d, _⟩ | ⟨_, a, b, c, d, _⟩
    · exact Or.inl ⟨a, b, c, d⟩
    · exact Or.inr ⟨a, b, c, d⟩) d01 d02 d12 d03 d13 d23
  have hfs : ∀ (k : Nat) (fk : Face K), [f0, f1, f2, f3][k]? = some fk →
      ∃ face, qb.faceStore[k]? = some face ∧ (face.Normal, face.W) = (fk.Normal, fk.W) := by
    intro k fk hk
    have : ([f0, f1, f2, f3].map fun f => (f.Normal, f.W))[k]? = some (fk.Normal, fk.W) := by
      rw [List.getElem?_map, hk]
      rfl
    exact map_lookup hplanes this
  intro f hf
  rcases hbr with ⟨hlt, rfl, rfl, rfl, rfl, _⟩ | ⟨hge, rfl, rfl, rfl, rfl, _⟩
  · have hneg := hsign.mp hlt
    interval_cases f
    · obtain ⟨face, ef, eg⟩ := hfs 0 f0 rfl
      obtain ⟨m1, m2, m3⟩ := hmiss 0 v3 (by omega)
      obtain ⟨x, ex, hx⟩ := face_distance_neg sqrt hpos q qb hpts f0 face eg v0 v1 v2 v3 P0
        x0 x1 x2 x3 p0 p1 p2 p3 (by rw [T1.1]; exact hneg)
      exact ⟨face, v3, x, ef, m1, m2, m3, ex, hx⟩
    · obtain ⟨face, ef, eg⟩ := hfs 1 f1 rfl
      obtain ⟨m1, m2, m3⟩ := hmiss 1 v2 (by omega)
      obtain ⟨x, ex, hx⟩ := face_distance_neg sqrt hpos q qb hpts f1 face eg v3 v1 v0 v2 P1
        x3 x1 x0 x2 p3 p1 p0 p2 (by rw [T1.2.1]; exact hneg)
      exact ⟨face, v2, x, ef, m1, m2, m3, ex, hx⟩
    · obtain ⟨face, ef, eg⟩ := hfs 2 f2 rfl
      obtain ⟨m1, m2, m3⟩ := hmiss 2 v0 (by omega)
      obtain ⟨x, ex, hx⟩ := face_distance_neg sqrt hpos q qb hpts f2 face eg v3 v2 v1 v0 P2
        x3 x2 x1 x0 p3 p2 p1 p0 (by rw [T1.2.2.1]; exact hneg)
      exact ⟨face, v0, x, ef, m1, m2, m3, ex, hx⟩
    · obtain ⟨face, ef, eg⟩ := hfs 3 f3 rfl
      obtain ⟨m1, m2, m3⟩ := hmiss 3 v1 (by omega)
      obtain ⟨x, ex, hx⟩ := face_distance_neg sqrt hpos q qb hpts f3 face eg v3 v0 v2 v1 P3
        x3 x0 x2 x1 p3 p0 p2 p1 (by rw [T1.2.2.2]; exact hneg)
      exact ⟨face, v1, x, ef, m1, m2, m3, ex, hx⟩
  · have hneg : -((x3.point.Minus x2.point).Dot
        ((x1.point.Minus x0.point).Cross (x2.point.Minus x0.point))) < 0 := by
      have : ¬ (x3.point.Minus x2.point).Dot
          ((x1.point.Minus x0.point).Cross (x2.point.Minus x0.point)) < 0 :=
        fun hh => hge (hsign.mpr hh)
      have := lt_of_le_of_ne (not_lt.mp this) (Ne.symm hD)
      linarith
    interval_cases f
    · obtain ⟨face, ef, eg⟩ := hfs 0 f0 rfl
      obtain ⟨m1, m2, m3⟩ := hmiss 0 v3 (by omega)
      obtain ⟨x, ex, hx⟩ := face_distance_neg sqrt hpos q qb hpts f0 face eg v0 v2 v1 v3 P0
        x0 x2 x1 x3 p0 p2 p1 p3 (by rw [T2.1]; exact hneg)
      exact ⟨face, v3, x, ef, m1, m2, m3, ex, hx⟩
    · obtain ⟨face, ef, eg⟩ := hfs 1 f1 rfl
      obtain ⟨m1, m2, m3⟩ := hmiss 1 v2 (by omega)
      obtain ⟨x, ex, hx⟩ := face_distance_neg sqrt hpos q qb hpts f1 face eg v3 v0 v1 v2 P1
        x3 x0 x1 x2 p3 p0 p1 p2 (by rw [T2.2.1]; exact hneg)
      exact ⟨face, v2, x, ef, m1, m2, m3, ex, hx⟩
    · obtain ⟨face, ef, eg⟩ := hfs 2 f2 rfl
      obtain ⟨m1, m2, m3⟩ := hmiss 2 v0 (by omega)
      obtain ⟨x, ex, hx⟩ := face_distance_neg sqrt hpos q qb hpts f2 face eg v3 v1 v2 v0 P2
        x3 x1 x2 x0 p3 p1 p2 p0 (by rw [T2.2.2.1]; exact hneg)
      exact ⟨face, v0, x, ef, m1, m2, m3, ex, hx⟩
    · obtain ⟨face, ef, eg⟩ := hfs 3 f3 rfl
      obtain ⟨m1, m2, m3⟩ := hmiss 3 v1 (by omega)
      obtain ⟨x, ex, hx⟩ := face_distance_neg sqrt hpos q qb hpts f3 face eg v3 v2 v0 v1 P3
        x3 x2 x0 x1 p3 p2 p0 p1 (by rw [T2.2.2.2]; exact hneg)
      exact ⟨face, v1, x, ef, m1, m2, m3, ex, hx⟩

/-- The Newton iteration stays at least 1 on a positive number. -/
theorem isqrtAux_pos (n : Nat) (hn : 1 ≤ n) : ∀ (fuel x : Nat), 1 ≤ x →
    1 ≤ Csg.isqrtAux fuel n x
  | 0, x, hx => hx
  | fuel + 1, x, hx => by
    rw [Csg.isqrtAux]
    split_ifs with hlt
    · apply isqrtAux_pos n hn fuel
      have h1 : 1 ≤ n / x ∨ 2 ≤ x := by
        by_cases h2 : 2 ≤ x
        · exact Or.inr h2
        · left
          have : x = 1 := by omega
          rw [this, Nat.div_one]
          exact hn
      generalize n / x = d at h1 ⊢
      omega
    · exact hx

/-- The square root used on concrete inputs is positive on positive numbers. -/
theorem ratSqrt_pos (x : ℚ) (hx : 0 < x) : 0 < Csg.ratSqrt x := by
  unfold Csg.ratSqrt
  have hnum : 0 < x.num := Rat.num_pos.mpr hx
  rw [if_neg (not_le.mpr hnum)]
  have hden : 0 < x.den := x.den_pos
  have hn : 1 ≤ x.num.toNat * x.den * 10 ^ 40 := by
    have : 1 ≤ x.num.toNat := by omega
    have h40 : 1 ≤ 10 ^ 40 := Nat.one_le_pow _ _ (by decide)
    calc 1 = 1 * 1 * 1 := rfl
      _ ≤ x.num.toNat * x.den * 10 ^ 40 := Nat.mul_le_mul (Nat.mul_le_mul this hden) h40
  have hi : 1 ≤ Csg.isqrt (x.num.toNat * x.den * 10 ^ 40) := isqrtAux_pos _ hn 512 _ hn
  have hi2 : (0 : ℚ) < (Csg.isqrt (x.num.toNat * x.den * 10 ^ 40) : ℚ) := by
    exact_mod_cast hi
  have hd2 : (0 : ℚ) < (x.den : ℚ) * 10 ^ 20 := by positivity
  exact div_pos hi2 hd2

/-- The theorem on the seven test points, with the square root of the concrete
runs. -/
theorem simplex_outward_witness :
    (∀ x : ℚ, 0 < x → 0 < Csg.ratSqrt x) ∧
    ∃ q qb : Hull ℚ, q.edgeStore = [] ∧ q.faceStore = [] ∧
      createInitialSimplex Csg.ratSqrt 20 q = .ok (qb, none) ∧
      qb.faces = q.faces ++ [0, 1, 2, 3] ∧
      ∀ f, f < 4 → ∃ (face : Face ℚ) (v : Nat) (x : Vertex ℚ),
        qb.faceStore[f]? = some face ∧ isSimplexVertex qb v = true ∧ offFace qb f v = true ∧
        (∀ w, isSimplexVertex qb w = true → offFace qb f w = true → w = v) ∧
        qb.points[v]? = some x ∧ face.DistanceToPlane x.point < 0 := by
  have hb : (match computeMinAndMax (setPoints (initBuffers Hull.new 7) simplePoints 7) with
      | .ok q =>
        (match createInitialSimplex Csg.ratSqrt 20 q with
          | .ok (_, none) => decide (q.edgeStore = []) && decide (q.faceStore = [])
          | _ => false)
      | _ => false) = true := by decide!
  refine ⟨ratSqrt_pos, ?_⟩
  split at hb
  · next q eq =>
    split at hb
    · next qb e =>
      simp only [Bool.and_eq_true, decide_eq_true_eq] at hb
      exact ⟨q, qb, hb.1, hb.2, e, simplex_outward Csg.ratSqrt ratSqrt_pos 20 q qb hb.1 hb.2 e⟩
    · exact absurd hb (by simp)
  · exact absurd hb (by simp)

end Outward

end Qhull
namespace Csg

section Area

variable {K : Type} [LinearOrderedField K]

theorem sumVectors_cons (a : Vector K) (l : List (Vector K)) :
    sumVectors (a :: l) = a.Plus (sumVectors l) := rfl

theorem sumVectors_append (l m : List (Vector K)) :
    sumVectors (l ++ m) = (sumVectors l).Plus (sumVectors m) := by
  induction l with
  | nil => simp [sumVectors, Vector.Plus]
  | cons a l ih =>
    rw [List.cons_append, sumVectors_cons, sumVectors_cons, ih]
    simp only [Vector.Plus, Vector.mk.injEq]
    refine ⟨?_, ?_, ?_⟩ <;> ring

theorem getLastD_cons_cons {α : Type} (a b : α) (l : List α) (d : α) :
    (a :: b :: l).getLastD d = (b :: l).getLastD d := by
  simp [List.getLastD]

/-- The triangles returned for a list of at least three vertices have the
closed cross-product sum of the list as their vector area. -/
theorem triangulate_crossCycle (pl : Plane K) :
    ∀ vs : List (Vertex K), 3 ≤ vs.length →
      sumVectors ((triangulate vs pl).map Polygon.crossArea) =
        crossCycle (vs.map Vertex.Position)
  | [], h => by simp at h
  | [_], h => by simp at h
  | [_, _], h => by simp at h
  | [a, b, c], _ => by
    simp only [triangulate, NewTriangle, List.map, sumVectors, List.foldr, Polygon.crossArea,
      crossCycle, crossChain, List.getLastD, List.getLast, List.headD, Vector.Plus, Vector.Cross,
      Vector.Minus, Vector.mk.injEq]
    refine ⟨?_, ?_, ?_⟩ <;> ring
  | [a, b, c, d], _ => by
    simp only [triangulate, NewTriangle, List.map, sumVectors, List.foldr, Polygon.crossArea,
      crossCycle, crossChain, List.getLastD, List.getLast, List.headD, Vector.Plus, Vector.Cross,
      Vector.Minus, Vector.mk.injEq]
    refine ⟨?_, ?_, ?_⟩ <;> ring
  | [a, b, c, d, e], _ => by
    simp only [triangulate, NewTriangle, List.map, sumVectors, List.foldr, Polygon.crossArea,
      crossCycle, crossChain, List.getLastD, List.getLast, List.headD, Vector.Plus, Vector.Cross,
      Vector.Minus, Vector.mk.injEq]
    refine ⟨?_, ?_, ?_⟩ <;> ring
  | [a, b, c, d, e, f], _ => by
    simp only [triangulate, NewTriangle, List.map, sumVectors, List.foldr, Polygon.crossArea,
      crossCycle, crossChain, List.getLastD, List.getLast, List.headD, Vector.Plus, Vector.Cross,
      Vector.Minus, Vector.mk.injEq]
    refine ⟨?_, ?_, ?_⟩ <;> ring
  | v0 :: v1 :: v2 :: v3 :: v4 :: v5 :: v6 :: rest, _ => by
    have ih := triangulate_crossCycle pl (v2 :: v3 :: v4 :: v5 :: v6 :: rest) (by simp)
    have hl : ((v6 :: rest).getLast (List.cons_ne_nil v6 rest)).Position =
        ((v6 :: rest).map Vertex.Position).getLastD ⟨0, 0, 0⟩ := by
      rw [List.getLastD_eq_getLast?, List.getLast?_map,
        List.getLast?_eq_getLast _ (List.cons_ne_nil v6 rest)]
      rfl
    rw [triangulate, List.map_append, List.map_append, sumVectors_append, sumVectors_append, ih]
    simp only [List.map_cons, List.map_nil, sumVectors_cons, Polygon.crossArea, NewTriangle, hl]
    simp only [crossCycle, crossChain, getLastD_cons_cons, List.headD]
    generalize crossChain (v6.Position :: List.map Vertex.Position rest) = X
    generalize (v6.Position :: List.map Vertex.Position rest).getLastD ⟨0, 0, 0⟩ = Y
    simp only [sumVectors, List.foldr, Vector.Plus, Vector.Cross, Vector.Minus, Vector.mk.injEq]
    refine ⟨?_, ?_, ?_⟩ <;> ring

theorem fanArea_chain (v0 : Vertex K) (rest : List (Vertex K)) :
    fanArea (v0 :: rest) = fanChain v0.Position (rest.map Vertex.Position) := by
  unfold fanArea
  simp only [List.length_cons, List.getD_cons_zero, List.getD_cons_succ]
  have e : rest.length + 1 - 2 = rest.length - 1 := by omega
  rw [e]
  clear e
  generalize v0.Position = o
  induction rest with
  | nil => rfl
  | cons a l ih =>
    cases l with
    | nil => rfl
    | cons b t =>
      have e1 : (a :: b :: t).length - 1 = (b :: t).length - 1 + 1 := by simp
      rw [e1, List.range_succ_eq_map, List.map_cons, List.map_map, sumVectors_cons]
      simp only [List.map_cons, fanChain]
      congr 1

/-- The fan sum from `o` over a list is the open cross-product sum of the list
closed through `o`. -/
theorem fanChain_crossChain (o a : Vector K) (l : List (Vector K)) :
    fanChain o (a :: l) =
      (crossChain (a :: l)).Plus ((o.Cross a).Plus (((a :: l).getLastD ⟨0, 0, 0⟩).Cross o)) := by
  induction l generalizing a with
  | nil =>
    simp only [fanChain, crossChain, List.getLastD, List.getLast, Vector.Plus, Vector.Cross,
      Vector.mk.injEq]
    refine ⟨?_, ?_, ?_⟩ <;> ring
  | cons b t ih =>
    rw [fanChain, ih b, crossChain, getLastD_cons_cons]
    generalize crossChain (b :: t) = X
    generalize (b :: t).getLastD ⟨0, 0, 0⟩ = Y
    simp only [Vector.Plus, Vector.Cross, Vector.Minus, Vector.mk.injEq]
    refine ⟨?_, ?_, ?_⟩ <;> ring

/-- Claim C40.  For every vertex list and plane, the sum over the triangles
`(a, b, c)` returned by `triangulate` of `(b - a) × (c - a)` equals the fan sum
for `i = 1 .. n-2` of `(v_i - v_0) × (v_{i+1} - v_0)`; with fewer than three
vertices no triangle is returned and both sums are the zero vector. -/
theorem triangulate_vector_area (vs : List (Vertex K)) (pl : Plane K) :
    sumVectors ((triangulate vs pl).map Polygon.crossArea) = fanArea vs := by
  by_cases h3 : 3 ≤ vs.length
  · rw [triangulate_crossCycle pl vs h3]
    match vs, h3 with
    | v0 :: a :: l, _ =>
      rw [fanArea_chain, List.map_cons, List.map_cons, fanChain_crossChain]
      simp only [crossCycle, crossChain, getLastD_cons_cons, List.headD]
      generalize crossChain (a.Position :: List.map Vertex.Position l) = X
      generalize (a.Position :: List.map Vertex.Position l).getLastD ⟨0, 0, 0⟩ = Y
      simp only [Vector.Plus, Vector.Cross, Vector.mk.injEq]
      refine ⟨?_, ?_, ?_⟩ <;> ring
  · match vs, h3 with
    | [], _ => rfl
    | [_], _ => rfl
    | [_, _], _ => rfl
    | _ :: _ :: _ :: _, h => exact absurd (by simp) h

end Area

end Csg

namespace Csg

section InvertTwice

variable {K : Type} [LinearOrderedField K]

theorem inverted_inverted : ∀ n : Node K, n.inverted.inverted = n
  | .nil => rfl
  | .mk plane front back polygons => by
    rw [Node.inverted, Node.inverted, inverted_inverted front, inverted_inverted back]
    cases plane with
    | none => rfl
    | some pl => simp [Plane_Flip_Flip]

theorem inverted_allPlanes : ∀ n : Node K, n.inverted.allPlanes = n.allPlanes
  | .nil => rfl
  | .mk plane front back polygons => by
    rw [Node.inverted, Node.allPlanes, Node.allPlanes, inverted_allPlanes front,
      inverted_allPlanes back]
    cases plane <;> simp [Bool.and_comm, Bool.and_assoc, Bool.and_left_comm]

theorem inverted_AllPolygons : ∀ n : Node K, n.inverted.AllPolygons.Perm n.AllPolygons
  | .nil => List.Perm.refl _
  | .mk plane front back polygons => by
    rw [Node.inverted, Node.AllPolygons, Node.AllPolygons, List.append_assoc, List.append_assoc]
    refine List.Perm.append_left _ ?_
    exact List.perm_append_comm.trans
      ((inverted_AllPolygons front).append (inverted_AllPolygons back))

/-- On a tree with a plane in every node and allocated polygons, `Invert`
returns: the cells of the stored polygons flipped once per occurrence, and the
inverted tree. -/
theorem Invert_ok : ∀ (n : Node K) (h : Heap K), n.allPlanes = true →
    (∀ p ∈ n.AllPolygons, p < h.length) →
    n.Invert h = .ok (n.AllPolygons.foldl (fun h p => flipCell p h) h, n.inverted)
  | .nil, h, _, _ => rfl
  | .mk plane front back polygons, h, hp, hv => by
    rw [Node.allPlanes] at hp
    simp only [Bool.and_eq_true] at hp
    obtain ⟨⟨h1, h2⟩, h3⟩ := hp
    obtain ⟨pl, rfl⟩ := Option.isSome_iff_exists.mp h1
    rw [Node.AllPolygons] at hv
    have hv1 : ∀ p ∈ polygons, p < h.length := fun p hp =>
      hv p (List.mem_append_left _ (List.mem_append_left _ hp))
    have hv2 : ∀ p ∈ front.AllPolygons,
        p < (polygons.foldl (fun h p => flipCell p h) h).length := fun p hp => by
      rw [foldl_flipCell_length]
      exact hv p (List.mem_append_left _ (List.mem_append_right _ hp))
    have hv3 : ∀ p ∈ back.AllPolygons,
        p < (front.AllPolygons.foldl (fun h p => flipCell p h)
          (polygons.foldl (fun h p => flipCell p h) h)).length := fun p hp => by
      rw [foldl_flipCell_length, foldl_flipCell_length]
      exact hv p (List.mem_append_right _ hp)
    rw [Node.Invert, flipAll_ok _ _ hv1]
    simp only
    rw [Invert_ok front _ h2 hv2]
    simp only
    rw [Invert_ok back _ h3 hv3]
    simp only [Node.AllPolygons, Node.inverted, List.foldl_append, Option.map_some']

/-- Claim C38.  On a tree in which every node has a plane (and whose stored
polygons are allocated), `Invert` returns, and a second `Invert` on its result
returns the heap and the tree of the start: every polygon cell with its vertex
order and plane, every node with its plane, polygon list and children. -/
theorem Invert_twice_restores (n : Node K) (h : Heap K) (hp : n.allPlanes = true)
    (hv : ∀ p ∈ n.AllPolygons, p < h.length) :
    ∃ h1 n1, n.Invert h = .ok (h1, n1) ∧ n1.Invert h1 = .ok (h, n) := by
  refine ⟨_, _, Invert_ok n h hp hv, ?_⟩
  have hv1 : ∀ p ∈ n.inverted.AllPolygons,
      p < (n.AllPolygons.foldl (fun h p => flipCell p h) h).length := fun p hp => by
    rw [foldl_flipCell_length]
    exact hv p ((inverted_AllPolygons n).subset hp)
  rw [Invert_ok n.inverted _ ((inverted_allPlanes n).trans hp) hv1, inverted_inverted]
  have e : n.inverted.AllPolygons.foldl (fun h p => flipCell p h)
      (n.AllPolygons.foldl (fun h p => flipCell p h) h) =
      n.AllPolygons.foldl (fun h p => flipCell p h)
        (n.AllPolygons.foldl (fun h p => flipCell p h) h) :=
    List.Perm.foldl_eq' (inverted_AllPolygons n)
      (fun x _ y _ z => flipCell_comm y x z) _
  rw [e, foldl_flipCell_twice]

/-- The theorem on the two-node tree `nodeTwo`. -/
theorem Invert_twice_restores_witness :
    nodeTwo.allPlanes = true ∧ (∀ p ∈ nodeTwo.AllPolygons, p < rampHeap.length) ∧
      ∃ h1 n1, nodeTwo.Invert rampHeap = .ok (h1, n1) ∧ n1.Invert h1 = .ok (rampHeap, nodeTwo) :=
  ⟨by decide, by decide, Invert_twice_restores nodeTwo rampHeap (by decide) (by decide)⟩

end InvertTwice

end Csg

namespace Csg

section Fragments

variable {K : Type} [LinearOrderedField K]

theorem spanningStep_length (plane : Plane K) (vs : List (Vertex K)) (types : List Nat)
    (fb : List (Vertex K) × List (Vertex K)) (i : Nat) :
    (spanningStep plane vs types fb i).1.length = fb.1.length +
        frontCount (types.getD i COPLANAR) (types.getD ((i + 1) % vs.length) COPLANAR) ∧
      (spanningStep plane vs types fb i).2.length = fb.2.length +
        backCount (types.getD i COPLANAR) (types.getD ((i + 1) % vs.length) COPLANAR) := by
  unfold spanningStep frontCount backCount
  dsimp only
  split_ifs <;> simp_all

theorem spanning_foldl_length (plane : Plane K) (vs : List (Vertex K)) (types : List Nat)
    (is : List Nat) (fb : List (Vertex K) × List (Vertex K)) :
    (is.foldl (spanningStep plane vs types) fb).1.length = fb.1.length +
        (is.map fun i => frontCount (types.getD i COPLANAR)
          (types.getD ((i + 1) % vs.length) COPLANAR)).sum ∧
      (is.foldl (spanningStep plane vs types) fb).2.length = fb.2.length +
        (is.map fun i => backCount (types.getD i COPLANAR)
          (types.getD ((i + 1) % vs.length) COPLANAR)).sum := by
  induction is generalizing fb with
  | nil => simp
  | cons i is ih =>
    obtain ⟨e1, e2⟩ := spanningStep_length plane vs types fb i
    obtain ⟨i1, i2⟩ := ih (spanningStep plane vs types fb i)
    rw [List.foldl_cons, i1, i2, e1, e2]
    simp only [List.map_cons, List.sum_cons]
    omega

/-- The sum over the positions of a list of `c` at consecutive elements, closed
by `first`, is `pairSum`. -/
theorem range_sum_pairSum (c : Nat → Nat → Nat) (first : Nat) :
    ∀ (a : Nat) (l : List Nat),
      ((List.range l.length).map fun i => c ((a :: l).getD i 0) ((a :: l).getD (i + 1) 0)).sum +
        c ((a :: l).getD l.length 0) first = pairSum c first (a :: l)
  | a, [] => by simp [pairSum]
  | a, b :: r => by
    have ih := range_sum_pairSum c first b r
    rw [pairSum, ← ih, List.length_cons, List.range_succ_eq_map, List.map_cons, List.map_map,
      List.sum_cons]
    simp only [List.getD_cons_zero, List.getD_cons_succ, Function.comp_def, Nat.succ_eq_add_one]
    omega

theorem cyclic_sum_pairSum (c : Nat → Nat → Nat) (a : Nat) (l : List Nat) :
    ((List.range (a :: l).length).map fun i =>
        c ((a :: l).getD i 0) ((a :: l).getD ((i + 1) % (a :: l).length) 0)).sum =
      pairSum c a (a :: l) := by
  rw [← range_sum_pairSum c a a l, List.length_cons, List.range_succ, List.map_append,
    List.sum_append]
  congr 1
  · congr 1
    apply List.map_congr_left
    intro i hi
    have hi := List.mem_range.mp hi
    rw [Nat.mod_eq_of_lt (by omega)]
  · simp

theorem pairSum_low (c : Nat → Nat → Nat) (low : Nat → Nat → Bool → Bool → Nat)
    (hbase : ∀ a < 3, ∀ first < 3, low a first (decide (a = 1)) (decide (a = 2)) ≤ c a first)
    (hstep : ∀ a < 3, ∀ b < 3, ∀ first < 3, ∀ hF hB : Bool,
      low a first (decide (a = 1) || hF) (decide (a = 2) || hB) ≤ c a b + low b first hF hB)
    (first : Nat) (hfirst : first < 3) :
    ∀ (l : List Nat) (a : Nat), (∀ t ∈ a :: l, t < 3) →
      low a first (decide (1 ∈ a :: l)) (decide (2 ∈ a :: l)) ≤ pairSum c first (a :: l)
  | [], a, hl => by
    have ha := hl a (List.mem_cons_self _ _)
    have := hbase a ha first hfirst
    simpa [pairSum, eq_comm] using this
  | b :: r, a, hl => by
    have ha := hl a (List.mem_cons_self _ _)
    have hb := hl b (List.mem_cons_of_mem _ (List.mem_cons_self _ _))
    have ih := pairSum_low c low hbase hstep first hfirst r b
      (fun t ht => hl t (List.mem_cons_of_mem _ ht))
    have hs := hstep a ha b hb first hfirst (decide (1 ∈ b :: r)) (decide (2 ∈ b :: r))
    rw [pairSum]
    have e1 : decide (1 ∈ a :: b :: r) = (decide (a = 1) || decide (1 ∈ b :: r)) := by
      rw [Bool.eq_iff_iff]
      simp only [List.mem_cons, Bool.or_eq_true, decide_eq_true_eq, @eq_comm _ 1 a]
    have e2 : decide (2 ∈ a :: b :: r) = (decide (a = 2) || decide (2 ∈ b :: r)) := by
      rw [Bool.eq_iff_iff]
      simp only [List.mem_cons, Bool.or_eq_true, decide_eq_true_eq, @eq_comm _ 2 a]
    rw [e1, e2]
    omega

theorem lowFront_base : ∀ a < 3, ∀ first < 3,
    lowFront a first (decide (a = 1)) (decide (a = 2)) ≤ frontCount a first := by decide

theorem lowFront_step : ∀ a < 3, ∀ b < 3, ∀ first < 3, ∀ hF hB : Bool,
    lowFront a first (decide (a = 1) || hF) (decide (a = 2) || hB) ≤ frontCount a b + lowFront b first hF hB := by
  decide

theorem lowBack_base : ∀ a < 3, ∀ first < 3,
    lowBack a first (decide (a = 1)) (decide (a = 2)) ≤ backCount a first := by decide

theorem lowBack_step : ∀ a < 3, ∀ b < 3, ∀ first < 3, ∀ hF hB : Bool,
    lowBack a first (decide (a = 1) || hF) (decide (a = 2) || hB) ≤ backCount a b + lowBack b first hF hB := by
  decide

/-- Both vertex lists of a SPANNING polygon have at least three vertices. -/
theorem spanningLists_length (plane : Plane K) (polygon : Polygon K)
    (hs : polygonType plane polygon = SPANNING) :
    3 ≤ (spanningLists plane polygon).1.length ∧ 3 ≤ (spanningLists plane polygon).2.length := by
  obtain ⟨_, hb, hf⟩ := polygonType_bits plane polygon
  rw [hs] at hb hf
  obtain ⟨vb, hvb, tb⟩ := hb.mp (by decide)
  obtain ⟨vf, hvf, tf⟩ := hf.mp (by decide)
  have hlt : ∀ t ∈ vertexTypes plane polygon, t < 3 := by
    intro t ht
    simp only [vertexTypes, List.mem_map] at ht
    obtain ⟨v, _, rfl⟩ := ht
    exact Nat.lt_succ_of_le (vertexType_le_two plane v)
  have h1 : 1 ∈ vertexTypes plane polygon := List.mem_map.mpr ⟨vf, hvf, tf⟩
  have h2 : 2 ∈ vertexTypes plane polygon := List.mem_map.mpr ⟨vb, hvb, tb⟩
  have hlen : polygon.Vertices.length = (vertexTypes plane polygon).length := by
    simp [vertexTypes]
  obtain ⟨e1, e2⟩ := spanning_foldl_length plane polygon.Vertices (vertexTypes plane polygon)
    (List.range polygon.Vertices.length) ([], [])
  unfold spanningLists
  rw [e1, e2, hlen]
  generalize vertexTypes plane polygon = ts at hlt h1 h2
  match ts, h1 with
  | a :: l, h1 =>
    have ha : a < 3 := hlt a (List.mem_cons_self _ _)
    have c1 := cyclic_sum_pairSum frontCount a l
    have c2 := cyclic_sum_pairSum backCount a l
    have b1 := pairSum_low frontCount lowFront lowFront_base lowFront_step a ha l a hlt
    have b2 := pairSum_low backCount lowBack lowBack_base lowBack_step a ha l a hlt
    rw [decide_eq_true h1, decide_eq_true h2] at b1 b2
    have t1 : ∀ a < 3, lowFront a a true true = 3 ∧ lowBack a a true true = 3 := by decide
    obtain ⟨t1, t2⟩ := t1 a ha
    simp only [COPLANAR, List.length_nil, Nat.zero_add] at c1 c2 ⊢
    rw [c1, c2]
    omega

/-- Claim C35.  For every plane and every allocated polygon `p`: if the polygon
is classified SPANNING, both vertex lists built by the edge loop have at least
three vertices, so both guards pass and the step allocates exactly two new
polygons, appending the first (on `f`) to `front` and the second (on `b`) to
`back`; if it is not SPANNING, the step appends `p` itself to one of the four
output lists.  So every input polygon contributes to at least one list. -/
theorem spanning_fragments_kept {σ : Type} (sqrt : K → K) (plane : Plane K)
    (emit : Side → Ptr → σ → σ) (p : Ptr) (rest : List Ptr) (h : Heap K) (out : σ)
    (polygon : Polygon K) (hp : h[p]? = some polygon) :
    (polygonType plane polygon = SPANNING →
      3 ≤ (spanningLists plane polygon).1.length ∧ 3 ≤ (spanningLists plane polygon).2.length ∧
      ∃ plf plb, SplitPolygons sqrt plane emit (p :: rest) h out =
        SplitPolygons sqrt plane emit rest
          (h ++ [⟨(spanningLists plane polygon).1, plf⟩, ⟨(spanningLists plane polygon).2, plb⟩])
          (emit .back (h.length + 1) (emit .front h.length out))) ∧
    (polygonType plane polygon ≠ SPANNING →
      ∃ s, SplitPolygons sqrt plane emit (p :: rest) h out =
        SplitPolygons sqrt plane emit rest h (emit s p out)) := by
  constructor
  · intro hs
    obtain ⟨l1, l2⟩ := spanningLists_length plane polygon hs
    refine ⟨l1, l2, ?_⟩
    obtain ⟨plf, plb, e⟩ := SplitPolygons_cons_spanning sqrt plane emit p rest h out polygon hp hs
    refine ⟨plf, plb, ?_⟩
    rw [e, if_pos l1, if_pos l2, if_pos l1, if_pos l2, if_pos l1, List.append_assoc]
    rfl
  · intro hns
    obtain ⟨k1, k2, k3, k4, k5⟩ :=
      SplitPolygons_cons_keep sqrt plane emit p rest h out polygon hp hns
    rcases k5 with c | c | c
    · by_cases hd : 0 < plane.Normal.Dot polygon.Plane.Normal
      · exact ⟨_, k1 c hd⟩
      · exact ⟨_, k2 c hd⟩
    · exact ⟨_, k3 c⟩
    · exact ⟨_, k4 c⟩

/-- The theorem on `triCross`, which has one vertex below and two above the
plane `z = 0`. -/
theorem spanning_fragments_kept_witness :
    ([triCross] : Heap ℚ)[0]? = some triCross ∧ polygonType planeZ triCross = SPANNING ∧
    ((polygonType planeZ triCross = SPANNING →
      3 ≤ (spanningLists planeZ triCross).1.length ∧
      3 ≤ (spanningLists planeZ triCross).2.length ∧
      ∃ plf plb, SplitPolygons ratSqrt planeZ Outs.emit [0] [triCross] ⟨[], [], [], []⟩ =
        SplitPolygons ratSqrt planeZ Outs.emit []
          ([triCross] ++ [⟨(spanningLists planeZ triCross).1, plf⟩,
            ⟨(spanningLists planeZ triCross).2, plb⟩])
          (Outs.emit .back ([triCross].length + 1)
            (Outs.emit .front [triCross].length ⟨[], [], [], []⟩))) ∧
    (polygonType planeZ triCross ≠ SPANNING →
      ∃ s, SplitPolygons ratSqrt planeZ Outs.emit [0] [triCross] ⟨[], [], [], []⟩ =
        SplitPolygons ratSqrt planeZ Outs.emit [] [triCross]
          (Outs.emit s 0 ⟨[], [], [], []⟩))) :=
  ⟨rfl, by decide!,
    spanning_fragments_kept ratSqrt planeZ Outs.emit 0 [] [triCross] ⟨[], [], [], []⟩ triCross
      rfl⟩

end Fragments

end Csg

namespace Qhull

open Csg (Vector Err)

section CoplanarTest

/-- Claim C33.  On the four points `(0,0,0)`, `(1,0,0)`, `(0,1,0)`,
`(0,0,10⁻¹⁴)` the run of `createInitialSimplex` picks `v0 = 1`, `v1 = 0`
(largest and smallest `x`), `v2 = 2` (farthest from the line), the unit normal
of the plane through them and `maxDist = 10⁻¹⁴`; every input point lies within
`100 * tolerance` of that plane, and yet no error is returned: the simplex is
built, because the test compares `sqrt maxDist` with `100 * tolerance`. -/
theorem coplanar_test_compares_root :
    ∃ (q qb : Hull ℚ) (mx maxSqr maxDist : ℚ) (x0 x1 x2 : Vertex ℚ) (nv : Vector ℚ),
      computeMinAndMax (setPoints (initBuffers Hull.new 4) nearFlatPoints 4) = .ok q ∧
      widestAxis q = .ok (mx, 0) ∧
      q.maxVertex[0]? = some 1 ∧ q.minVertex[0]? = some 0 ∧
      q.points[1]? = some x0 ∧ q.points[0]? = some x1 ∧ q.points[2]? = some x2 ∧
      farthestFromLine q (Normalize Csg.ratSqrt (x1.point.Minus x0.point)) 1 0 x0.point =
        (maxSqr, some 2, some nv) ∧
      farthestFromPlane q (Normalize Csg.ratSqrt nv) (x2.point.Dot (Normalize Csg.ratSqrt nv))
        1 0 2 = (maxDist, some 3) ∧
      (∀ x ∈ q.points, |x.point.Dot (Normalize Csg.ratSqrt nv) -
          x2.point.Dot (Normalize Csg.ratSqrt nv)| < 100 * q.tolerance) ∧
      maxDist < 100 * q.tolerance ∧
      ¬ Csg.ratSqrt maxDist < 100 * q.tolerance ∧
      createInitialSimplex Csg.ratSqrt 20 q = .ok (qb, none) := by
  have hb : (match computeMinAndMax (setPoints (initBuffers Hull.new 4) nearFlatPoints 4) with
      | .ok q =>
        (match createInitialSimplex Csg.ratSqrt 20 q, widestAxis q, q.points[1]?, q.points[0]?,
            q.points[2]? with
          | .ok (_, none), .ok (_, 0), some x0, some x1, some x2 =>
            (match farthestFromLine q (Normalize Csg.ratSqrt (x1.point.Minus x0.point)) 1 0
                x0.point with
              | (_, some 2, some nv) =>
                (match farthestFromPlane q (Normalize Csg.ratSqrt nv)
                    (x2.point.Dot (Normalize Csg.ratSqrt nv)) 1 0 2 with
                  | (maxDist, some 3) =>
                    decide (q.maxVertex[0]? = some 1) && decide (q.minVertex[0]? = some 0) &&
                    decide (∀ x ∈ q.points, |x.point.Dot (Normalize Csg.ratSqrt nv) -
                      x2.point.Dot (Normalize Csg.ratSqrt nv)| < 100 * q.tolerance) &&
                    decide (maxDist < 100 * q.tolerance) &&
                    decide (¬ Csg.ratSqrt maxDist < 100 * q.tolerance)
                  | _ => false)
              | _ => false)
          | _, _, _, _, _ => false)
      | _ => false) = true := by decide!
  split at hb
  · next q eq =>
    split at hb
    · next qb mx x0 x1 x2 e1 e2 e3 e4 e5 =>
      split at hb
      · next maxSqr nv e6 =>
        split at hb
        · next maxDist e7 =>
          simp only [Bool.and_eq_true, decide_eq_true_eq] at hb
          obtain ⟨⟨⟨⟨h1, h2⟩, h3⟩, h4⟩, h5⟩ := hb
          exact ⟨q, qb, mx, maxSqr, maxDist, x0, x1, x2, nv, eq, e2, h1, h2, e3, e4, e5, e6, e7,
            h3, h4, h5, e1⟩
        · exact absurd hb (by simp)
      · exact absurd hb (by simp)
    · exact absurd hb (by simp)
  · exact absurd hb (by simp)

end CoplanarTest

end Qhull

namespace Csg

section Sides

variable {K : Type} [LinearOrderedField K]

theorem clipPolygons_nil (sqrt : K → K) :
    ∀ (c : Node K) (h : Heap K), c.clipPolygons sqrt h [] = .ok (h, [])
  | .nil, h => by rw [Node.clipPolygons]
  | .mk none _ _ _, h => by rw [Node.clipPolygons]
  | .mk (some pl) front back _, h => by
    have e1 := clipPolygons_nil sqrt front h
    have e2 := clipPolygons_nil sqrt back h
    rw [Node.clipPolygons, SplitPolygons]
    simp only [e1, e2]
    cases back.isNil <;> simp

/-- `ClipTo` on a tree that stores nothing changes nothing. -/
theorem ClipTo_empty (sqrt : K → K) (b : Node K) :
    ∀ (a : Node K) (h : Heap K), a.AllPolygons = [] → Node.ClipTo sqrt b a h = .ok (h, a)
  | .nil, h, _ => by rw [Node.ClipTo]
  | .mk plane front back polygons, h, he => by
    rw [Node.AllPolygons] at he
    simp only [List.append_eq_nil] at he
    obtain ⟨⟨rfl, hf⟩, hb⟩ := he
    rw [Node.ClipTo]
    simp only [Node.ClipPolygons, clipPolygons_nil, ClipTo_empty sqrt b front h hf,
      ClipTo_empty sqrt b back h hb]

/-- `ClipTo` on a tree whose stored polygons have their vertices in a convex
set returns, the heap only grows, and the vertices of everything the tree then
stores lie in the set. -/
theorem ClipTo_convex (sqrt : K → K) (Q : Vector K → Prop) (hQ : ConvexSet Q) (b : Node K) :
    ∀ (a : Node K) (h : Heap K), (∀ p ∈ a.AllPolygons, VerticesIn Q h p) →
      ∃ h1 a1, Node.ClipTo sqrt b a h = .ok (h1, a1) ∧ h <+: h1 ∧
        ∀ p ∈ a1.AllPolygons, VerticesIn Q h1 p
  | .nil, h, _ => ⟨h, .nil, by rw [Node.ClipTo], List.prefix_refl _, by simp [Node.AllPolygons]⟩
  | .mk plane front back polygons, h, hv => by
    rw [Node.AllPolygons] at hv
    obtain ⟨h1, ps1, e1, hp1, ho1⟩ := clipPolygons_convex sqrt Q hQ b h polygons
      (fun p hp => hv p (List.mem_append_left _ (List.mem_append_left _ hp)))
    obtain ⟨h2, f1, e2, hp2, ho2⟩ := ClipTo_convex sqrt Q hQ b front h1
      (fun p hp => VerticesIn_mono hp1 (hv p (List.mem_append_left _ (List.mem_append_right _ hp))))
    obtain ⟨h3, b1, e3, hp3, ho3⟩ := ClipTo_convex sqrt Q hQ b back h2
      (fun p hp => VerticesIn_mono (hp1.trans hp2) (hv p (List.mem_append_right _ hp)))
    refine ⟨h3, .mk plane f1 b1 ps1, ?_, (hp1.trans hp2).trans hp3, ?_⟩
    · rw [Node.ClipTo]
      simp only [Node.ClipPolygons, e1, e2, e3]
    · intro p hp
      rw [Node.AllPolygons] at hp
      rcases List.mem_append.mp hp with hp | hp
      · rcases List.mem_append.mp hp with hp | hp
        · exact VerticesIn_mono (hp2.trans hp3) (ho1 p hp)
        · exact VerticesIn_mono hp3 (ho2 p hp)
      · exact ho3 p hp

/-- `ClipTo` on a tree of allocated polygons whose subtrees are on their sides
returns and keeps both. -/
theorem ClipTo_Sided (sqrt : K → K) (b : Node K) :
    ∀ (a : Node K) (h : Heap K), a.Sided h → (∀ p ∈ a.AllPolygons, p < h.length) →
      ∃ h1 a1, Node.ClipTo sqrt b a h = .ok (h1, a1) ∧ h <+: h1 ∧ a1.Sided h1 ∧
        ∀ p ∈ a1.AllPolygons, p < h1.length
  | .nil, h, _, _ =>
    ⟨h, .nil, by rw [Node.ClipTo], List.prefix_refl _, trivial, by simp [Node.AllPolygons]⟩
  | .mk plane front back polygons, h, hs, hv => by
    rw [Node.AllPolygons] at hv
    obtain ⟨s1, s2, s3⟩ := hs
    obtain ⟨h1, ps1, e1, hp1, ho1⟩ := clipPolygons_convex sqrt (fun _ => True) True_convex b h
      polygons
      (fun p hp => VerticesIn_true (hv p (List.mem_append_left _ (List.mem_append_left _ hp))))
    have hvf : ∀ p ∈ front.AllPolygons, p < h1.length := fun p hp =>
      lt_of_lt_of_le (hv p (List.mem_append_left _ (List.mem_append_right _ hp))) hp1.length_le
    obtain ⟨h2, f1, e2, hp2, sf, af⟩ := ClipTo_Sided sqrt b front h1 (Sided_mono hp1 _ s2) hvf
    have hvb : ∀ p ∈ back.AllPolygons, p < h2.length := fun p hp =>
      lt_of_lt_of_le (hv p (List.mem_append_right _ hp)) (hp1.trans hp2).length_le
    obtain ⟨h3, b1, e3, hp3, sb, ab⟩ :=
      ClipTo_Sided sqrt b back h2 (Sided_mono (hp1.trans hp2) _ s3) hvb
    refine ⟨h3, .mk plane f1 b1 ps1, ?_, (hp1.trans hp2).trans hp3, ?_, ?_⟩
    · rw [Node.ClipTo]
      simp only [Node.ClipPolygons, e1, e2, e3]
    · refine ⟨?_, Sided_mono hp3 _ sf, sb⟩
      cases plane with
      | none =>
        obtain ⟨n1, n2⟩ := s1
        have c1 := ClipTo_empty sqrt b front h1 n1
        have c2 := ClipTo_empty sqrt b back h2 n2
        rw [e2] at c1
        rw [e3] at c2
        simp only [Except.ok.injEq, Prod.mk.injEq] at c1 c2
        obtain ⟨_, rfl⟩ := c1
        obtain ⟨_, rfl⟩ := c2
        exact ⟨n1, n2⟩
      | some pl =>
        obtain ⟨n1, n2⟩ := s1
        obtain ⟨h2x, f1x, c1, _, k1⟩ := ClipTo_convex sqrt pl.NotBehind (NotBehind_convex pl) b
          front h1 (fun p hp => VerticesIn_mono hp1 (n1 p hp))
        obtain ⟨h3x, b1x, c2, _, k2⟩ := ClipTo_convex sqrt pl.NotInFront (NotInFront_convex pl) b
          back h2 (fun p hp => VerticesIn_mono (hp1.trans hp2) (n2 p hp))
        rw [e2] at c1
        rw [e3] at c2
        simp only [Except.ok.injEq, Prod.mk.injEq] at c1 c2
        obtain ⟨rfl, rfl⟩ := c1
        obtain ⟨rfl, rfl⟩ := c2
        exact ⟨fun p hp => VerticesIn_mono hp3 (k1 p hp), k2⟩
    · intro p hp
      rw [Node.AllPolygons] at hp
      rcases List.mem_append.mp hp with hp | hp
      · rcases List.mem_append.mp hp with hp | hp
        · exact VerticesIn_lt (VerticesIn_mono (hp2.trans hp3) (ho1 p hp))
        · exact lt_of_lt_of_le (af p hp) hp3.length_le
      · exact ab p hp

theorem VerticesIn_imp {Q R : Vector K → Prop} (hqr : ∀ x, Q x → R x) {h : Heap K} {p : Ptr}
    (hv : VerticesIn Q h p) : VerticesIn R h p := by
  obtain ⟨poly, e, hq⟩ := hv
  exact ⟨poly, e, fun v hvm => hqr _ (hq v hvm)⟩

theorem NotInFront_Flip (pl : Plane K) (x : Vector K) (hx : pl.NotInFront x) :
    pl.Flip.NotBehind x := by
  unfold Plane.NotInFront Plane.NotBehind Plane.DistanceToPlane at *
  simp only [Plane.Flip, Vector.Negated, Vector.Dot] at *
  linarith

theorem NotBehind_Flip (pl : Plane K) (x : Vector K) (hx : pl.NotBehind x) :
    pl.Flip.NotInFront x := by
  unfold Plane.NotInFront Plane.NotBehind Plane.DistanceToPlane at *
  simp only [Plane.Flip, Vector.Negated, Vector.Dot] at *
  linarith

/-- A run of `Invert` that returns leaves the inverted tree. -/
theorem Invert_inverted : ∀ (n : Node K) (h h1 : Heap K) (n1 : Node K),
    Node.Invert n h = .ok (h1, n1) → n1 = n.inverted
  | .nil, h, h1, n1, e => by
    rw [Node.Invert] at e
    cases e
    rfl
  | .mk plane front back polygons, h, h3, n1, e => by
    rw [Node.Invert] at e
    cases ea : flipAll polygons h with
    | error err => simp [ea] at e
    | ok ha =>
      simp only [ea] at e
      cases plane with
      | none => simp at e
      | some pl =>
        simp only at e
        cases ef : Node.Invert front ha with
        | error err => simp [ef] at e
        | ok rf =>
          obtain ⟨hb, front1⟩ := rf
          simp only [ef] at e
          cases eb : Node.Invert back hb with
          | error err => simp [eb] at e
          | ok rb =>
            obtain ⟨hc, back1⟩ := rb
            simp only [eb, Except.ok.injEq, Prod.mk.injEq] at e
            obtain ⟨rfl, rfl⟩ := e
            rw [Node.inverted, Invert_inverted front ha hb front1 ef,
              Invert_inverted back hb hc back1 eb]
            rfl

/-- The inverted tree has its subtrees on their sides, on a heap whose cells
are those of the first, as they were or flipped. -/
theorem inverted_Sided {h h1 : Heap K} (hf : Flipped h h1) :
    ∀ n : Node K, n.Sided h → n.inverted.Sided h1
  | .nil, _ => trivial
  | .mk plane front back polygons, hn => by
    obtain ⟨s1, s2, s3⟩ := hn
    rw [Node.inverted]
    refine ⟨?_, inverted_Sided hf back s3, inverted_Sided hf front s2⟩
    cases plane with
    | none =>
      obtain ⟨n1, n2⟩ := s1
      have p1 := inverted_AllPolygons front
      have p2 := inverted_AllPolygons back
      rw [n1] at p1
      rw [n2] at p2
      exact ⟨List.Perm.eq_nil p2, List.Perm.eq_nil p1⟩
    | some pl =>
      obtain ⟨n1, n2⟩ := s1
      exact ⟨fun p hp => VerticesIn_imp (NotInFront_Flip pl)
          (VerticesIn_flipped hf (n2 p ((inverted_AllPolygons back).subset hp))),
        fun p hp => VerticesIn_imp (NotBehind_Flip pl)
          (VerticesIn_flipped hf (n1 p ((inverted_AllPolygons front).subset hp)))⟩

/-- What a run of `Invert` that returns keeps: every cell allocated with its
vertex positions, the vertices of the stored polygons in any set that held
them, and the subtrees on their sides. -/
theorem Invert_keeps (n : Node K) (h h1 : Heap K) (n1 : Node K)
    (e : Node.Invert n h = .ok (h1, n1)) :
    Flipped h h1 ∧
      (∀ Q : Vector K → Prop, (∀ p ∈ n.AllPolygons, VerticesIn Q h p) →
        ∀ p ∈ n1.AllPolygons, VerticesIn Q h1 p) ∧
      (n.Sided h → n1.Sided h1) := by
  have hf := (Invert_OnPlane n h h1 n1 e).1
  have hi := Invert_inverted n h h1 n1 e
  subst hi
  exact ⟨hf, fun Q hq p hp => VerticesIn_flipped hf (hq p ((inverted_AllPolygons n).subset hp)),
    inverted_Sided hf n⟩

/-- Claim C37.  In the tree `NewNodeFromPolygons(ps)` of allocated polygons
every polygon stored anywhere in a node's front subtree has no vertex
classified BACK against that node's plane (signed distance at least
`-EPSILON`) and every polygon stored anywhere in its back subtree has no vertex
classified FRONT (signed distance at most `EPSILON`), and the stored polygons
are allocated; a later `Build`, `Invert` or `ClipTo` on a tree with these
properties gives a tree with these properties (`ClipTo` also returns). -/
theorem subtrees_stay_on_their_side (sqrt : K → K) (fuel : Nat) (h : Heap K) (ps : List Ptr)
    (h1 : Heap K) (n : Node K) (hps : ∀ p ∈ ps, p < h.length)
    (e : NewNodeFromPolygons sqrt fuel h ps = .ok (h1, n)) :
    (n.Sided h1 ∧ ∀ p ∈ n.AllPolygons, p < h1.length) ∧
      (∀ (fuel2 : Nat) (m : Node K) (h2 : Heap K) (qs : List Ptr) (h3 : Heap K) (m1 : Node K),
        m.Sided h2 → (∀ p ∈ m.AllPolygons, p < h2.length) → (∀ p ∈ qs, p < h2.length) →
        Node.Build sqrt fuel2 m h2 qs = .ok (h3, m1) →
        m1.Sided h3 ∧ ∀ p ∈ m1.AllPolygons, p < h3.length) ∧
      (∀ (m : Node K) (h2 h3 : Heap K) (m1 : Node K),
        m.Sided h2 → (∀ p ∈ m.AllPolygons, p < h2.length) →
        Node.Invert m h2 = .ok (h3, m1) →
        m1.Sided h3 ∧ ∀ p ∈ m1.AllPolygons, p < h3.length) ∧
      (∀ (bsp m : Node K) (h2 : Heap K), m.Sided h2 → (∀ p ∈ m.AllPolygons, p < h2.length) →
        ∃ h3 m1, Node.ClipTo sqrt bsp m h2 = .ok (h3, m1) ∧ m1.Sided h3 ∧
          ∀ p ∈ m1.AllPolygons, p < h3.length) := by
  have build : ∀ (fuel2 : Nat) (m : Node K) (h2 : Heap K) (qs : List Ptr) (h3 : Heap K)
      (m1 : Node K), m.Sided h2 → (∀ p ∈ m.AllPolygons, p < h2.length) →
      (∀ p ∈ qs, p < h2.length) → Node.Build sqrt fuel2 m h2 qs = .ok (h3, m1) →
      m1.Sided h3 ∧ ∀ p ∈ m1.AllPolygons, p < h3.length := by
    intro fuel2 m h2 qs h3 m1 hm ha hqs eb
    obtain ⟨_, _, k3, _, k5⟩ := Build_invariant sqrt fuel2 m h2 qs h3 m1 eb hqs
    exact ⟨k5 hm, fun p hp => VerticesIn_lt (k3 (fun _ => True) True_convex
      (fun q hq => VerticesIn_true (hqs q hq)) (fun q hq => VerticesIn_true (ha q hq)) p hp)⟩
  refine ⟨?_, build, ?_, ?_⟩
  · exact build fuel Node.empty h ps h1 n (by simp [Node.empty, Node.Sided, Node.AllPolygons])
      (by simp [Node.empty, Node.AllPolygons]) hps e
  · intro m h2 h3 m1 hm ha ei
    obtain ⟨_, k2, k3⟩ := Invert_keeps m h2 h3 m1 ei
    exact ⟨k3 hm, fun p hp => VerticesIn_lt (k2 (fun _ => True)
      (fun q hq => VerticesIn_true (ha q hq)) p hp)⟩
  · intro bsp m h2 hm ha
    obtain ⟨h3, m1, ec, _, k1, k2⟩ := ClipTo_Sided sqrt bsp m h2 hm ha
    exact ⟨h3, m1, ec, k1, k2⟩

/-- The theorem on the tree of `triSmall`, `triShelf` and `triRamp`. -/
theorem subtrees_stay_on_their_side_witness :
    ∃ h1 n, NewNodeFromPolygons ratSqrt 10 rampHeap [0, 1, 2] = .ok (h1, n) ∧
      n.Sided h1 ∧ ∀ p ∈ n.AllPolygons, p < h1.length := by
  obtain ⟨⟨h1, n⟩, e⟩ := returned_spec
    (by decide! : returned (NewNodeFromPolygons ratSqrt 10 rampHeap [0, 1, 2]) = true)
  exact ⟨h1, n, e, (subtrees_stay_on_their_side ratSqrt 10 rampHeap [0, 1, 2] h1 n
    (by decide) e).1⟩

theorem lerp_ge (lo a b t : K) (ha : lo ≤ a) (hb : lo ≤ b) (h0 : 0 ≤ t) (h1 : t ≤ 1) :
    lo ≤ a + (b - a) * t := by
  have e : a + (b - a) * t - lo = (1 - t) * (a - lo) + t * (b - lo) := by ring
  have h2 := mul_nonneg (sub_nonneg.mpr h1) (sub_nonneg.mpr ha)
  have h3 := mul_nonneg h0 (sub_nonneg.mpr hb)
  linarith

theorem lerp_le (hi a b t : K) (ha : a ≤ hi) (hb : b ≤ hi) (h0 : 0 ≤ t) (h1 : t ≤ 1) :
    a + (b - a) * t ≤ hi := by
  have e : hi - (a + (b - a) * t) = (1 - t) * (hi - a) + t * (hi - b) := by ring
  have h2 := mul_nonneg (sub_nonneg.mpr h1) (sub_nonneg.mpr ha)
  have h3 := mul_nonneg h0 (sub_nonneg.mpr hb)
  linarith

theorem Within_convex (b : Box K) : ConvexSet b.Within := by
  intro x y t hx hy h0 h1
  obtain ⟨x1, x2, x3, x4, x5, x6⟩ := hx
  obtain ⟨y1, y2, y3, y4, y5, y6⟩ := hy
  simp only [Box.Within, Vector.Lerp, Vector.Plus, Vector.Minus, Vector.Times]
  exact ⟨lerp_ge _ _ _ _ x1 y1 h0.le h1.le, lerp_le _ _ _ _ x2 y2 h0.le h1.le,
    lerp_ge _ _ _ _ x3 y3 h0.le h1.le, lerp_le _ _ _ _ x4 y4 h0.le h1.le,
    lerp_ge _ _ _ _ x5 y5 h0.le h1.le, lerp_le _ _ _ _ x6 y6 h0.le h1.le⟩

theorem andThen_ok_inv {α β : Type} {r : Except Err α} {f : α → Except Err β} {y : β}
    (h : andThen r f = .ok y) : ∃ a, r = .ok a ∧ f a = .ok y := by
  cases r with
  | error e => simp [andThen] at h
  | ok a => exact ⟨a, rfl, h⟩

/-- A `ClipTo` that returns keeps the vertices of the clipped tree and of any
other list of polygons in a convex set that held them. -/
theorem clip_step (sqrt : K → K) (Q : Vector K → Prop) (hQ : ConvexSet Q) (x y : Node K)
    (l : List Ptr) (h h1 : Heap K) (y1 : Node K)
    (e : Node.ClipTo sqrt x y h = .ok (h1, y1))
    (hy : ∀ p ∈ y.AllPolygons, VerticesIn Q h p) (hl : ∀ p ∈ l, VerticesIn Q h p) :
    (∀ p ∈ y1.AllPolygons, VerticesIn Q h1 p) ∧ ∀ p ∈ l, VerticesIn Q h1 p := by
  obtain ⟨h2, y2, c, hp, k⟩ := ClipTo_convex sqrt Q hQ x y h hy
  rw [e] at c
  simp only [Except.ok.injEq, Prod.mk.injEq] at c
  obtain ⟨rfl, rfl⟩ := c
  exact ⟨k, fun p hpm => VerticesIn_mono hp (hl p hpm)⟩

/-- An `Invert` that returns keeps the vertices of the inverted tree and of any
other list of polygons in a set that held them. -/
theorem invert_step (Q : Vector K → Prop) (y : Node K) (l : List Ptr) (h h1 : Heap K)
    (y1 : Node K) (e : Node.Invert y h = .ok (h1, y1))
    (hy : ∀ p ∈ y.AllPolygons, VerticesIn Q h p) (hl : ∀ p ∈ l, VerticesIn Q h p) :
    (∀ p ∈ y1.AllPolygons, VerticesIn Q h1 p) ∧ ∀ p ∈ l, VerticesIn Q h1 p := by
  obtain ⟨hf, k, _⟩ := Invert_keeps y h h1 y1 e
  exact ⟨k Q hy, fun p hpm => VerticesIn_flipped hf (hl p hpm)⟩

/-- A `Build` that returns keeps the vertices of the tree, with the polygons
added, and of any other list of polygons in a convex set that held them. -/
theorem build_step (sqrt : K → K) (Q : Vector K → Prop) (hQ : ConvexSet Q) (fuel : Nat)
    (y : Node K) (ps l : List Ptr) (h h1 : Heap K) (y1 : Node K)
    (e : Node.Build sqrt fuel y h ps = .ok (h1, y1))
    (hy : ∀ p ∈ y.AllPolygons, VerticesIn Q h p) (hps : ∀ p ∈ ps, VerticesIn Q h p)
    (hl : ∀ p ∈ l, VerticesIn Q h p) :
    (∀ p ∈ y1.AllPolygons, VerticesIn Q h1 p) ∧ ∀ p ∈ l, VerticesIn Q h1 p := by
  obtain ⟨hp, _, k, _⟩ := Build_invariant sqrt fuel y h ps h1 y1 e
    (fun p hpm => VerticesIn_lt (hps p hpm))
  exact ⟨k Q hQ hps hy, fun p hpm => VerticesIn_mono hp (hl p hpm)⟩

/-- The two trees a boolean operation starts from. -/
theorem operands_step (sqrt : K → K) (Q : Vector K → Prop) (hQ : ConvexSet Q) (fuel : Nat)
    (A B : CSG) (h h1 h2 : Heap K) (a b : Node K)
    (hA : ∀ p ∈ A.polygons, VerticesIn Q h p) (hB : ∀ p ∈ B.polygons, VerticesIn Q h p)
    (e1 : NewNodeFromPolygons sqrt fuel h A.Clone.polygons = .ok (h1, a))
    (e2 : NewNodeFromPolygons sqrt fuel h1 B.Clone.polygons = .ok (h2, b)) :
    (∀ p ∈ a.AllPolygons, VerticesIn Q h2 p) ∧ ∀ p ∈ b.AllPolygons, VerticesIn Q h2 p := by
  simp only [CSG.Clone, List.nil_append] at e1 e2
  obtain ⟨ka, kb⟩ := build_step sqrt Q hQ fuel Node.empty A.polygons B.polygons h h1 a e1
    (by simp [Node.empty, Node.AllPolygons]) hA hB
  obtain ⟨kb2, ka2⟩ := build_step sqrt Q hQ fuel Node.empty B.polygons a.AllPolygons h1 h2 b e2
    (by simp [Node.empty, Node.AllPolygons]) kb ka
  exact ⟨ka2, kb2⟩

theorem Union_convex (sqrt : K → K) (Q : Vector K → Prop) (hQ : ConvexSet Q) (fuel : Nat)
    (A B : CSG) (h h1 : Heap K) (R : CSG)
    (hA : ∀ p ∈ A.polygons, VerticesIn Q h p) (hB : ∀ p ∈ B.polygons, VerticesIn Q h p)
    (e : A.Union sqrt fuel B h = .ok (h1, R)) : ∀ p ∈ R.polygons, VerticesIn Q h1 p := by
  unfold CSG.Union at e
  obtain ⟨⟨g1, a1⟩, e1, e⟩ := andThen_ok_inv e
  obtain ⟨⟨g2, b2⟩, e2, e⟩ := andThen_ok_inv e
  obtain ⟨⟨g3, a3⟩, e3, e⟩ := andThen_ok_inv e
  obtain ⟨⟨g4, b4⟩, e4, e⟩ := andThen_ok_inv e
  obtain ⟨⟨g5, b5⟩, e5, e⟩ := andThen_ok_inv e
  obtain ⟨⟨g6, b6⟩, e6, e⟩ := andThen_ok_inv e
  obtain ⟨⟨g7, b7⟩, e7, e⟩ := andThen_ok_inv e
  obtain ⟨⟨g8, a8⟩, e8, e⟩ := andThen_ok_inv e
  simp only [Except.ok.injEq, Prod.mk.injEq] at e
  obtain ⟨rfl, rfl⟩ := e
  obtain ⟨ka, kb⟩ := operands_step sqrt Q hQ fuel A B h g1 g2 a1 b2 hA hB e1 e2
  obtain ⟨ka, kb⟩ := clip_step sqrt Q hQ b2 a1 b2.AllPolygons g2 g3 a3 e3 ka kb
  obtain ⟨kb, ka⟩ := clip_step sqrt Q hQ a3 b2 a3.AllPolygons g3 g4 b4 e4 kb ka
  obtain ⟨kb, ka⟩ := invert_step Q b4 a3.AllPolygons g4 g5 b5 e5 kb ka
  obtain ⟨kb, ka⟩ := clip_step sqrt Q hQ a3 b5 a3.AllPolygons g5 g6 b6 e6 kb ka
  obtain ⟨kb, ka⟩ := invert_step Q b6 a3.AllPolygons g6 g7 b7 e7 kb ka
  exact (build_step sqrt Q hQ fuel a3 b7.AllPolygons [] g7 g8 a8 e8 ka kb (by simp)).1

theorem Subtract_convex (sqrt : K → K) (Q : Vector K → Prop) (hQ : ConvexSet Q) (fuel : Nat)
    (A B : CSG) (h h1 : Heap K) (R : CSG)
    (hA : ∀ p ∈ A.polygons, VerticesIn Q h p) (hB : ∀ p ∈ B.polygons, VerticesIn Q h p)
    (e : A.Subtract sqrt fuel B h = .ok (h1, R)) : ∀ p ∈ R.polygons, VerticesIn Q h1 p := by
  unfold CSG.Subtract at e
  obtain ⟨⟨g1, a1⟩, e1, e⟩ := andThen_ok_inv e
  obtain ⟨⟨g2, b2⟩, e2, e⟩ := andThen_ok_inv e
  obtain ⟨⟨g3, a3⟩, e3, e⟩ := andThen_ok_inv e
  obtain ⟨⟨g4, a4⟩, e4, e⟩ := andThen_ok_inv e
  obtain ⟨⟨g5, b5⟩, e5, e⟩ := andThen_ok_inv e
  obtain ⟨⟨g6, b6⟩, e6, e⟩ := andThen_ok_inv e
  obtain ⟨⟨g7, b7⟩, e7, e⟩ := andThen_ok_inv e
  obtain ⟨⟨g8, b8⟩, e8, e⟩ := andThen_ok_inv e
  obtain ⟨⟨g9, a9⟩, e9, e⟩ := andThen_ok_inv e
  obtain ⟨⟨g10, a10⟩, e10, e⟩ := andThen_ok_inv e
  simp only [Except.ok.injEq, Prod.mk.injEq] at e
  obtain ⟨rfl, rfl⟩ := e
  obtain ⟨ka, kb⟩ := operands_step sqrt Q hQ fuel A B h g1 g2 a1 b2 hA hB e1 e2
  obtain ⟨ka, kb⟩ := invert_step Q a1 b2.AllPolygons g2 g3 a3 e3 ka kb
  obtain ⟨ka, kb⟩ := clip_step sqrt Q hQ b2 a3 b2.AllPolygons g3 g4 a4 e4 ka kb
  obtain ⟨kb, ka⟩ := clip_step sqrt Q hQ a4 b2 a4.AllPolygons g4 g5 b5 e5 kb ka
  obtain ⟨kb, ka⟩ := invert_step Q b5 a4.AllPolygons g5 g6 b6 e6 kb ka
  obtain ⟨kb, ka⟩ := clip_step sqrt Q hQ a4 b6 a4.AllPolygons g6 g7 b7 e7 kb ka
  obtain ⟨kb, ka⟩ := invert_step Q b7 a4.AllPolygons g7 g8 b8 e8 kb ka
  obtain ⟨ka, _⟩ := build_step sqrt Q hQ fuel a4 b8.AllPolygons [] g8 g9 a9 e9 ka kb (by simp)
  exact (invert_step Q a9 [] g9 g10 a10 e10 ka (by simp)).1

theorem Intersect_convex (sqrt : K → K) (Q : Vector K → Prop) (hQ : ConvexSet Q) (fuel : Nat)
    (A B : CSG) (h h1 : Heap K) (R : CSG)
    (hA : ∀ p ∈ A.polygons, VerticesIn Q h p) (hB : ∀ p ∈ B.polygons, VerticesIn Q h p)
    (e : A.Intersect sqrt fuel B h = .ok (h1, R)) : ∀ p ∈ R.polygons, VerticesIn Q h1 p := by
  unfold CSG.Intersect at e
  obtain ⟨⟨g1, a1⟩, e1, e⟩ := andThen_ok_inv e
  obtain ⟨⟨g2, b2⟩, e2, e⟩ := andThen_ok_inv e
  obtain ⟨⟨g3, a3⟩, e3, e⟩ := andThen_ok_inv e
  obtain ⟨⟨g4, b4⟩, e4, e⟩ := andThen_ok_inv e
  obtain ⟨⟨g5, b5⟩, e5, e⟩ := andThen_ok_inv e
  obtain ⟨⟨g6, a6⟩, e6, e⟩ := andThen_ok_inv e
  obtain ⟨⟨g7, b7⟩, e7, e⟩ := andThen_ok_inv e
  obtain ⟨⟨g8, a8⟩, e8, e⟩ := andThen_ok_inv e
  obtain ⟨⟨g9, a9⟩, e9, e⟩ := andThen_ok_inv e
  simp only [Except.ok.injEq, Prod.mk.injEq] at e
  obtain ⟨rfl, rfl⟩ := e
  obtain ⟨ka, kb⟩ := operands_step sqrt Q hQ fuel A B h g1 g2 a1 b2 hA hB e1 e2
  obtain ⟨ka, kb⟩ := invert_step Q a1 b2.AllPolygons g2 g3 a3 e3 ka kb
  obtain ⟨kb, ka⟩ := clip_step sqrt Q hQ a3 b2 a3.AllPolygons g3 g4 b4 e4 kb ka
  obtain ⟨kb, ka⟩ := invert_step Q b4 a3.AllPolygons g4 g5 b5 e5 kb ka
  obtain ⟨ka, kb⟩ := clip_step sqrt Q hQ b5 a3 b5.AllPolygons g5 g6 a6 e6 ka kb
  obtain ⟨kb, ka⟩ := clip_step sqrt Q hQ a6 b5 a6.AllPolygons g6 g7 b7 e7 kb ka
  obtain ⟨ka, _⟩ := build_step sqrt Q hQ fuel a6 b7.AllPolygons [] g7 g8 a8 e8 ka kb (by simp)
  exact (invert_step Q a8 [] g8 g9 a9 e9 ka (by simp)).1

/-- Claim C36.  For every pair of CSGs and every closed axis-aligned box that
holds all vertex positions of the polygons of the two operands (the smallest
such box among them): whenever `Union`, `Subtract` or `Intersect` returns,
every polygon of the result is allocated and every vertex position of it lies
in the box. -/
theorem boolean_ops_stay_in_box (sqrt : K → K) (fuel : Nat) (A B : CSG) (h : Heap K)
    (box : Box K) (hA : ∀ p ∈ A.polygons, VerticesIn box.Within h p)
    (hB : ∀ p ∈ B.polygons, VerticesIn box.Within h p) (h1 : Heap K) (R : CSG)
    (e : A.Union sqrt fuel B h = .ok (h1, R) ∨ A.Subtract sqrt fuel B h = .ok (h1, R) ∨
      A.Intersect sqrt fuel B h = .ok (h1, R)) :
    ∀ p ∈ R.polygons, ∃ poly, h1[p]? = some poly ∧ ∀ v ∈ poly.Vertices,
      box.Min.X ≤ v.Position.X ∧ v.Position.X ≤ box.Max.X ∧
      box.Min.Y ≤ v.Position.Y ∧ v.Position.Y ≤ box.Max.Y ∧
      box.Min.Z ≤ v.Position.Z ∧ v.Position.Z ≤ box.Max.Z := by
  rcases e with e | e | e
  · exact Union_convex sqrt box.Within (Within_convex box) fuel A B h h1 R hA hB e
  · exact Subtract_convex sqrt box.Within (Within_convex box) fuel A B h h1 R hA hB e
  · exact Intersect_convex sqrt box.Within (Within_convex box) fuel A B h h1 R hA hB e

theorem triangles_in_box :
    ∀ p ∈ [0, 1], VerticesIn (Box.Within (⟨⟨0, 0, 0⟩, ⟨5, 5, 0⟩⟩ : Box ℚ))
      [triSmall, triBig] p := by
  intro p hp
  simp only [List.mem_cons, List.mem_singleton, List.not_mem_nil, or_false] at hp
  rcases hp with rfl | rfl
  · refine ⟨triSmall, rfl, ?_⟩
    intro v hv
    simp only [triSmall, List.mem_cons, List.mem_singleton, List.not_mem_nil, or_false] at hv
    rcases hv with rfl | rfl | rfl <;> simp only [Box.Within, vtx] <;> norm_num
  · refine ⟨triBig, rfl, ?_⟩
    intro v hv
    simp only [triBig, List.mem_cons, List.mem_singleton, List.not_mem_nil, or_false] at hv
    rcases hv with rfl | rfl | rfl <;> simp only [Box.Within, vtx] <;> norm_num

/-- The theorem on the union of the two triangles `triSmall` and `triBig` and
the box from `(0,0,0)` to `(5,5,0)`. -/
theorem boolean_ops_stay_in_box_witness :
    (∀ p ∈ [0], VerticesIn (Box.Within (⟨⟨0, 0, 0⟩, ⟨5, 5, 0⟩⟩ : Box ℚ))
      [triSmall, triBig] p) ∧
    (∀ p ∈ [1], VerticesIn (Box.Within (⟨⟨0, 0, 0⟩, ⟨5, 5, 0⟩⟩ : Box ℚ))
      [triSmall, triBig] p) ∧
    CSG.Union ratSqrt 4 ⟨[0]⟩ ⟨[1]⟩ [triSmall, triBig] = .ok ([triSmall, triBig.Flip], ⟨[0]⟩) ∧
    ∀ p ∈ [0], ∃ poly, [triSmall, triBig.Flip][p]? = some poly ∧ ∀ v ∈ poly.Vertices,
      (0 : ℚ) ≤ v.Position.X ∧ v.Position.X ≤ 5 ∧ (0 : ℚ) ≤ v.Position.Y ∧ v.Position.Y ≤ 5 ∧
      (0 : ℚ) ≤ v.Position.Z ∧ v.Position.Z ≤ 0 :=
  ⟨fun p hp => triangles_in_box p (by simp at hp; simp [hp]),
    fun p hp => triangles_in_box p (by simp at hp; simp [hp]), by decide!,
    boolean_ops_stay_in_box ratSqrt 4 ⟨[0]⟩ ⟨[1]⟩ [triSmall, triBig] ⟨⟨0, 0, 0⟩, ⟨5, 5, 0⟩⟩
      (fun p hp => triangles_in_box p (by simp at hp; simp [hp]))
      (fun p hp => triangles_in_box p (by simp at hp; simp [hp]))
      [triSmall, triBig.Flip] ⟨[0]⟩ (Or.inl (by decide!))⟩

end Sides

end Csg

namespace Csg

section Exposed

variable {K : Type} [LinearOrderedField K]

theorem Covers_append {Q : Vector K → Prop} {h : Heap K} {l1 l2 : List Ptr} {x : Vector K} :
    Covers Q h (l1 ++ l2) x ↔ Covers Q h l1 x ∨ Covers Q h l2 x := by
  constructor
  · rintro ⟨p, hp, rest⟩
    rcases List.mem_append.mp hp with k | k
    · exact Or.inl ⟨p, k, rest⟩
    · exact Or.inr ⟨p, k, rest⟩
  · rintro (⟨p, hp, rest⟩ | ⟨p, hp, rest⟩)
    · exact ⟨p, List.mem_append_left _ hp, rest⟩
    · exact ⟨p, List.mem_append_right _ hp, rest⟩

theorem Covers_mono {Q : Vector K → Prop} {h h1 : Heap K} {l : List Ptr} {x : Vector K}
    (hp : h <+: h1) (hc : Covers Q h l x) : Covers Q h1 l x := by
  obtain ⟨p, hpl, P, e, rest⟩ := hc
  exact ⟨p, hpl, P, prefix_lookup hp e, rest⟩

theorem Covers_subset {Q : Vector K → Prop} {h : Heap K} {l l1 : List Ptr} {x : Vector K}
    (hs : ∀ p ∈ l, p ∈ l1) (hc : Covers Q h l x) : Covers Q h l1 x := by
  obtain ⟨p, hpl, rest⟩ := hc
  exact ⟨p, hs p hpl, rest⟩

theorem Covers_flipped {Q : Vector K → Prop} {h h1 : Heap K} {l : List Ptr} {x : Vector K}
    (hf : Flipped h h1) (hc : Covers Q h l x) : Covers Q h1 l x := by
  obtain ⟨p, hpl, P, e, hq, v, hv, hx⟩ := hc
  rcases hf p P e with k | k
  · exact ⟨p, hpl, P, k, hq, v, hv, hx⟩
  · refine ⟨p, hpl, P.Flip, k, ?_, v, ?_, hx⟩
    · intro w hw
      exact hq w (List.mem_reverse.mp hw)
    · exact List.mem_reverse.mpr hv

theorem InFront_convex (pl : Plane K) : ConvexSet pl.InFront := by
  intro a b t ha hb h0 h1
  unfold Plane.InFront Plane.DistanceToPlane at *
  rw [dot_lerp]
  nlinarith [mul_pos h0 (sub_pos.mpr hb), mul_pos (sub_pos.mpr h1) (sub_pos.mpr ha)]

/-- One iteration of the edge loop puts the vertex `i` into `f` unless it is
BACK, and into `b` (cloned when it is COPLANAR) unless it is FRONT. -/
theorem spanningStep_covers (plane : Plane K) (vs : List (Vertex K))
    (fb : List (Vertex K) × List (Vertex K)) (i : Nat) (hi : i < vs.length) :
    (vertexType plane (vs.getD i Vertex.zero) ≠ BACK →
      vs.getD i Vertex.zero ∈ (spanningStep plane vs (vs.map (vertexType plane)) fb i).1) ∧
    (vertexType plane (vs.getD i Vertex.zero) ≠ FRONT →
      vs.getD i Vertex.zero ∈ (spanningStep plane vs (vs.map (vertexType plane)) fb i).2) := by
  have hti := getD_vertexTypes plane vs i hi
  simp only [spanningStep, hti, Vertex_Clone_eq]
  constructor
  · intro hb
    rw [if_pos hb]
    split <;> simp
  · intro hf
    rw [if_pos hf]
    split <;> simp

theorem spanning_foldl_covers (plane : Plane K) (vs : List (Vertex K)) :
    ∀ (is : List Nat), (∀ i ∈ is, i < vs.length) →
      ∀ (fb : List (Vertex K) × List (Vertex K)) (i : Nat), i ∈ is →
      (vertexType plane (vs.getD i Vertex.zero) ≠ BACK →
        vs.getD i Vertex.zero ∈
          (is.foldl (spanningStep plane vs (vs.map (vertexType plane))) fb).1) ∧
      (vertexType plane (vs.getD i Vertex.zero) ≠ FRONT →
        vs.getD i Vertex.zero ∈
          (is.foldl (spanningStep plane vs (vs.map (vertexType plane))) fb).2)
  | [], _, _, i, hi => by cases hi
  | i0 :: rest, his, fb, i, hi => by
    rw [List.foldl_cons]
    have hrest : ∀ j ∈ rest, j < vs.length := fun j hj => his j (List.mem_cons_of_mem _ hj)
    rcases List.mem_cons.mp hi with rfl | hi
    · obtain ⟨F, B, e, _, _⟩ := spanning_foldl_spec plane vs rest hrest
        (spanningStep plane vs (vs.map (vertexType plane)) fb i)
      obtain ⟨k1, k2⟩ := spanningStep_covers plane vs fb i (his i (List.mem_cons_self _ _))
      rw [e]
      exact ⟨fun hb => List.mem_append_left _ (k1 hb), fun hf => List.mem_append_left _ (k2 hf)⟩
    · exact spanning_foldl_covers plane vs rest hrest _ i hi

/-- Every vertex of a polygon is in `f` unless it is BACK and in `b` unless it
is FRONT. -/
theorem spanningLists_covers (plane : Plane K) (polygon : Polygon K) (v : Vertex K)
    (hv : v ∈ polygon.Vertices) :
    (vertexType plane v ≠ BACK → v ∈ (spanningLists plane polygon).1) ∧
    (vertexType plane v ≠ FRONT → v ∈ (spanningLists plane polygon).2) := by
  obtain ⟨i, hi, e⟩ := List.getElem_of_mem hv
  have e1 : polygon.Vertices.getD i Vertex.zero = v := by
    rw [List.getD_eq_getElem?_getD, List.getElem?_eq_getElem hi, Option.getD_some, e]
  have key := spanning_foldl_covers plane polygon.Vertices
    (List.range polygon.Vertices.length) (fun i hi => List.mem_range.mp hi) ([], []) i
    (List.mem_range.mpr hi)
  rw [e1] at key
  exact key

/-- The splitter loses no vertex of a polygon whose vertices lie in the convex
set `Q`: when the sides such a polygon can be appended to are collected by
`c`, every vertex position of such a polygon of the input, or of the
collection before, is one of the collection after. -/
theorem split_covers {σ : Type} (sqrt : K → K) (plane : Plane K)
    (emit : Side → Ptr → σ → σ) (c : σ → List Ptr) (S : Side → Prop)
    (Q : Vector K → Prop) (hQ : ConvexSet Q)
    (hkeep : ∀ s p o r, r ∈ c o → r ∈ c (emit s p o))
    (hadd : ∀ s p o, S s → p ∈ c (emit s p o))
    (hroute : ∀ P : Polygon K, (∀ v ∈ P.Vertices, Q v.Position) → P.Vertices ≠ [] →
      (polygonType plane P = COPLANAR → S .coplanarFront ∧ S .coplanarBack) ∧
      (polygonType plane P = FRONT → S .front) ∧ (polygonType plane P = BACK → S .back) ∧
      (polygonType plane P = SPANNING → S .front ∧ S .back)) :
    ∀ (l : List Ptr) (h : Heap K) (out : σ) (h1 : Heap K) (out1 : σ),
      SplitPolygons sqrt plane emit l h out = .ok (h1, out1) →
      h <+: h1 ∧ ∀ x, Covers Q h l x ∨ Covers Q h (c out) x → Covers Q h1 (c out1) x := by
  intro l
  induction l with
  | nil =>
    intro h out h1 out1 e
    rw [SplitPolygons] at e
    simp only [Except.ok.injEq, Prod.mk.injEq] at e
    obtain ⟨rfl, rfl⟩ := e
    refine ⟨List.prefix_refl _, ?_⟩
    rintro x (⟨p, hp, _⟩ | hx)
    · cases hp
    · exact hx
  | cons p rest ih =>
    intro h out h1 out1 e
    cases hp : h[p]? with
    | none =>
      rw [SplitPolygons] at e
      simp [hp] at e
    | some poly =>
      -- a polygon appended whole
      have whole : ∀ s, ((∀ v ∈ poly.Vertices, Q v.Position) → poly.Vertices ≠ [] → S s) →
          SplitPolygons sqrt plane emit (p :: rest) h out =
            SplitPolygons sqrt plane emit rest h (emit s p out) →
          h <+: h1 ∧ ∀ x, Covers Q h (p :: rest) x ∨ Covers Q h (c out) x →
            Covers Q h1 (c out1) x := by
        intro s hs es
        rw [es] at e
        obtain ⟨hpre, hcov⟩ := ih _ _ _ _ e
        refine ⟨hpre, fun x hx => hcov x ?_⟩
        rcases hx with ⟨r, hr, P, hP, hPQ, v, hv, hvx⟩ | ⟨r, hr, rest1⟩
        · rcases List.mem_cons.mp hr with rfl | hr
          · rw [hp] at hP
            cases hP
            exact Or.inr ⟨r, hadd s r out (hs hPQ (List.ne_nil_of_mem hv)), poly, hp, hPQ, v,
              hv, hvx⟩
          · exact Or.inl ⟨r, hr, P, hP, hPQ, v, hv, hvx⟩
        · exact Or.inr ⟨r, hkeep s p out r hr, rest1⟩
      by_cases hs : polygonType plane poly = SPANNING
      · obtain ⟨hf3, hb3⟩ := spanningLists_length plane poly hs
        obtain ⟨plf, plb, es⟩ := SplitPolygons_cons_spanning sqrt plane emit p rest h out poly hp hs
        simp only [if_pos hf3, if_pos hb3] at es
        rw [es] at e
        obtain ⟨hpre, hcov⟩ := ih _ _ _ _ e
        have hp2 : h <+: (h ++ [⟨(spanningLists plane poly).1, plf⟩]) ++
            [⟨(spanningLists plane poly).2, plb⟩] :=
          (List.prefix_append _ _).trans (List.prefix_append _ _)
        refine ⟨hp2.trans hpre, fun x hx => hcov x ?_⟩
        rcases hx with ⟨r, hr, P, hP, hPQ, v, hv, hvx⟩ | hx
        · rcases List.mem_cons.mp hr with rfl | hr
          · rw [hp] at hP
            cases hP
            obtain ⟨sf, sb⟩ := (hroute poly hPQ (List.ne_nil_of_mem hv)).2.2.2 hs
            obtain ⟨cf, cb⟩ := spanningLists_convex plane poly Q hQ hPQ
            obtain ⟨k1, k2⟩ := spanningLists_covers plane poly v hv
            right
            by_cases hvb : vertexType plane v = BACK
            · refine ⟨h.length + 1, hadd .back _ _ sb, ⟨(spanningLists plane poly).2, plb⟩, ?_,
                cb,
                v, k2 (by rw [hvb]; decide), hvx⟩
              rw [List.append_assoc]
              exact getElem?_append_at h _ 1
            · refine ⟨h.length, hkeep _ _ _ _ (hadd .front _ _ sf),
                ⟨(spanningLists plane poly).1, plf⟩, ?_, cf, v, k1 hvb, hvx⟩
              rw [List.append_assoc]
              exact getElem?_append_at h _ 0
          · exact Or.inl (Covers_mono hp2 ⟨r, hr, P, hP, hPQ, v, hv, hvx⟩)
        · right
          exact Covers_subset (fun r hr => hkeep _ _ _ _ (hkeep _ _ _ _ hr)) (Covers_mono hp2 hx)
      · obtain ⟨k1, k2, k3, k4, k5⟩ := SplitPolygons_cons_keep sqrt plane emit p rest h out poly
          hp hs
        rcases k5 with hc | hf | hb
        · by_cases hn : 0 < plane.Normal.Dot poly.Plane.Normal
          · exact whole .coplanarFront (fun a b => ((hroute poly a b).1 hc).1) (k1 hc hn)
          · exact whole .coplanarBack (fun a b => ((hroute poly a b).1 hc).2) (k2 hc hn)
        · exact whole .front (fun a b => (hroute poly a b).2.1 hf) (k3 hf)
        · exact whole .back (fun a b => (hroute poly a b).2.2.1 hb) (k4 hb)

end Exposed

end Csg
namespace Csg

section Exposed2

variable {K : Type} [LinearOrderedField K]

/-- The splitter only appends to the heap. -/
theorem split_grows {σ : Type} (sqrt : K → K) (plane : Plane K)
    (emit : Side → Ptr → σ → σ) (l : List Ptr) (h : Heap K) (out : σ) (h1 : Heap K) (out1 : σ)
    (e : SplitPolygons sqrt plane emit l h out = .ok (h1, out1)) : h <+: h1 :=
  (split_covers sqrt plane emit (fun _ => []) (fun _ => False) (fun _ => False)
    (fun _ _ _ k _ _ _ => k) (fun _ _ _ _ k => k) (fun _ _ _ k => k.elim)
    (fun P hP hne => by
      obtain ⟨v, hv⟩ := List.exists_mem_of_ne_nil _ hne
      exact (hP v hv).elim) l h out h1 out1 e).1

theorem clipEmit_fst (s : Side) (p : Ptr) (o : List Ptr × List Ptr) (r : Ptr) :
    r ∈ (clipEmit s p o).1 ↔ r ∈ o.1 ∨ ((s = .front ∨ s = .coplanarFront) ∧ r = p) := by
  obtain ⟨o1, o2⟩ := o
  cases s <;> simp [clipEmit]

theorem clipEmit_both (s : Side) (p : Ptr) (o : List Ptr × List Ptr) (r : Ptr) :
    r ∈ (clipEmit s p o).1 ++ (clipEmit s p o).2 ↔ r ∈ o.1 ++ o.2 ∨ r = p := by
  obtain ⟨o1, o2⟩ := o
  cases s <;> simp [clipEmit] <;> tauto

theorem buildEmit_all (s : Side) (p : Ptr) (o : BuildOut) (r : Ptr) :
    r ∈ (buildEmit s p o).polygons ++ (buildEmit s p o).front ++ (buildEmit s p o).back ↔
      r ∈ o.polygons ++ o.front ++ o.back ∨ r = p := by
  cases s <;> simp [buildEmit] <;> tauto

/-- A polygon with a vertex, all of whose vertices are FRONT of the plane, is
classified FRONT. -/
theorem polygonType_InFront (pl : Plane K) (P : Polygon K)
    (hP : ∀ v ∈ P.Vertices, pl.InFront v.Position) (hne : P.Vertices ≠ []) :
    polygonType pl P = FRONT := by
  have hpos : (0 : K) < EPSILON := EPSILON_pos
  refine (polygonType_geometry pl P).2.1.mpr ⟨?_, ?_⟩
  · intro v hv
    have := hP v hv
    unfold Plane.InFront Plane.DistanceToPlane at this
    linarith
  · obtain ⟨v, hv⟩ := List.exists_mem_of_ne_nil _ hne
    exact ⟨v, hv, hP v hv⟩

theorem clipPolygons_grows (sqrt : K → K) :
    ∀ (n : Node K) (h : Heap K) (ps : List Ptr) (h1 : Heap K) (ps1 : List Ptr),
      n.clipPolygons sqrt h ps = .ok (h1, ps1) → h <+: h1 := by
  intro n
  induction n with
  | nil =>
    intro h ps h1 ps1 e
    rw [Node.clipPolygons] at e
    simp only [Except.ok.injEq, Prod.mk.injEq] at e
    rw [e.1]
  | mk plane front back polygons ihf ihb =>
    intro h ps h1 ps1 e
    cases plane with
    | none =>
      rw [Node.clipPolygons] at e
      simp only [Except.ok.injEq, Prod.mk.injEq] at e
      rw [e.1]
    | some pl =>
      rw [Node.clipPolygons] at e
      cases e1 : SplitPolygons sqrt pl clipEmit ps h ([], []) with
      | error err => simp [e1] at e
      | ok r1 =>
        obtain ⟨ha, fr, bk⟩ := r1
        simp only [e1] at e
        cases e2 : Node.clipPolygons sqrt front ha fr with
        | error err => simp [e2] at e
        | ok r2 =>
          obtain ⟨hb, fr2⟩ := r2
          simp only [e2] at e
          have p1 := split_grows sqrt pl clipEmit ps h ([], []) ha (fr, bk) e1
          have p2 := ihf ha fr hb fr2 e2
          cases hbn : back.isNil with
          | true =>
            simp only [hbn, if_true, Except.ok.injEq, Prod.mk.injEq] at e
            rw [← e.1]
            exact p1.trans p2
          | false =>
            simp only [hbn, Bool.false_eq_true, if_false] at e
            cases e3 : Node.clipPolygons sqrt back hb bk with
            | error err => simp [e3] at e
            | ok r3 =>
              obtain ⟨hc, bk2⟩ := r3
              simp only [e3, Except.ok.injEq, Prod.mk.injEq] at e
              rw [← e.1]
              exact (p1.trans p2).trans (ihb hb bk hc bk2 e3)

/-- Clipping by a tree that keeps `Q` loses no vertex of a polygon whose
vertices lie in the convex set `Q`. -/
theorem clip_covers (sqrt : K → K) (Q : Vector K → Prop) (hQ : ConvexSet Q) :
    ∀ (n : Node K), n.Keeps Q → ∀ (h : Heap K) (ps : List Ptr) (h1 : Heap K) (ps1 : List Ptr),
      n.clipPolygons sqrt h ps = .ok (h1, ps1) →
      ∀ x, Covers Q h ps x → Covers Q h1 ps1 x := by
  intro n
  induction n with
  | nil =>
    intro _ h ps h1 ps1 e
    rw [Node.clipPolygons] at e
    simp only [Except.ok.injEq, Prod.mk.injEq] at e
    obtain ⟨rfl, rfl⟩ := e
    exact fun x hx => hx
  | mk plane front back polygons ihf ihb =>
    intro hk h ps h1 ps1 e
    cases plane with
    | none =>
      rw [Node.clipPolygons] at e
      simp only [Except.ok.injEq, Prod.mk.injEq] at e
      obtain ⟨rfl, rfl⟩ := e
      exact fun x hx => hx
    | some pl =>
      rw [Node.Keeps] at hk
      have hkf : front.Keeps Q := by
        rcases hk with k | k
        · exact k.2
        · exact k.1
      rw [Node.clipPolygons] at e
      cases e1 : SplitPolygons sqrt pl clipEmit ps h ([], []) with
      | error err => simp [e1] at e
      | ok r1 =>
        obtain ⟨ha, fr, bk⟩ := r1
        simp only [e1] at e
        cases e2 : Node.clipPolygons sqrt front ha fr with
        | error err => simp [e2] at e
        | ok r2 =>
          obtain ⟨hb, fr2⟩ := r2
          simp only [e2] at e
          have cf := ihf hkf ha fr hb fr2 e2
          have p2 := clipPolygons_grows sqrt front ha fr hb fr2 e2
          -- everything in `Q` goes to the front list
          have frontOnly : (∀ x, Q x → pl.InFront x) → ∀ x, Covers Q h ps x →
              Covers Q ha fr x := by
            intro hfront x hx
            exact (split_covers sqrt pl clipEmit (fun o => o.1)
              (fun s => s = .front ∨ s = .coplanarFront) Q hQ
              (fun s p o r hr => (clipEmit_fst s p o r).mpr (Or.inl hr))
              (fun s p o hs => (clipEmit_fst s p o p).mpr (Or.inr ⟨hs, rfl⟩))
              (fun P hP hne => by
                have ht := polygonType_InFront pl P (fun v hv => hfront _ (hP v hv)) hne
                rw [ht]
                refine ⟨fun k => ?_, fun _ => Or.inl rfl, fun k => ?_, fun k => ?_⟩ <;>
                  exact absurd k (by decide))
              ps h ([], []) ha (fr, bk) e1).2 x (Or.inl hx)
          have both : ∀ x, Covers Q h ps x → Covers Q ha (fr ++ bk) x := by
            intro x hx
            exact (split_covers sqrt pl clipEmit (fun o => o.1 ++ o.2) (fun _ => True) Q hQ
              (fun s p o r hr => (clipEmit_both s p o r).mpr (Or.inl hr))
              (fun s p o _ => (clipEmit_both s p o p).mpr (Or.inr rfl))
              (fun P _ _ => ⟨fun _ => ⟨trivial, trivial⟩, fun _ => trivial, fun _ => trivial,
                fun _ => ⟨trivial, trivial⟩⟩)
              ps h ([], []) ha (fr, bk) e1).2 x (Or.inl hx)
          cases hbn : back.isNil with
          | true =>
            simp only [hbn, if_true, Except.ok.injEq, Prod.mk.injEq] at e
            obtain ⟨rfl, rfl⟩ := e
            rcases hk with ⟨hfront, _⟩ | ⟨_, hn, _⟩
            · exact fun x hx => cf x (frontOnly hfront x hx)
            · rw [hbn] at hn
              cases hn
          | false =>
            simp only [hbn, Bool.false_eq_true, if_false] at e
            cases e3 : Node.clipPolygons sqrt back hb bk with
            | error err => simp [e3] at e
            | ok r3 =>
              obtain ⟨hc, bk2⟩ := r3
              simp only [e3, Except.ok.injEq, Prod.mk.injEq] at e
              obtain ⟨rfl, rfl⟩ := e
              have p3 := clipPolygons_grows sqrt back hb bk hc bk2 e3
              intro x hx
              rcases hk with ⟨hfront, _⟩ | ⟨_, _, hkb⟩
              · exact Covers_append.mpr (Or.inl (Covers_mono p3 (cf x (frontOnly hfront x hx))))
              · rcases Covers_append.mp (both x hx) with k | k
                · exact Covers_append.mpr (Or.inl (Covers_mono p3 (cf x k)))
                · exact Covers_append.mpr (Or.inr (ihb hkb hb bk hc bk2 e3 x (Covers_mono p2 k)))

/-- `ClipTo` only appends to the heap and keeps the shape of the tree it
clips: its planes and which children are nil. -/
theorem ClipTo_shape (sqrt : K → K) (bsp : Node K) :
    ∀ (a : Node K) (h h1 : Heap K) (a1 : Node K), Node.ClipTo sqrt bsp a h = .ok (h1, a1) →
      h <+: h1 ∧ a1.isNil = a.isNil ∧ ∀ R : Vector K → Prop, a1.Keeps R ↔ a.Keeps R := by
  intro a
  induction a with
  | nil =>
    intro h h1 a1 e
    rw [Node.ClipTo] at e
    simp only [Except.ok.injEq, Prod.mk.injEq] at e
    obtain ⟨rfl, rfl⟩ := e
    exact ⟨List.prefix_refl _, rfl, fun _ => Iff.rfl⟩
  | mk plane front back polygons ihf ihb =>
    intro h h1 a1 e
    rw [Node.ClipTo] at e
    cases e1 : bsp.ClipPolygons sqrt h polygons with
    | error err => simp [e1] at e
    | ok r1 =>
      obtain ⟨ha, ps1⟩ := r1
      simp only [e1] at e
      cases e2 : Node.ClipTo sqrt bsp front ha with
      | error err => simp [e2] at e
      | ok r2 =>
        obtain ⟨hb, f1⟩ := r2
        simp only [e2] at e
        cases e3 : Node.ClipTo sqrt bsp back hb with
        | error err => simp [e3] at e
        | ok r3 =>
          obtain ⟨hc, b1⟩ := r3
          simp only [e3, Except.ok.injEq, Prod.mk.injEq] at e
          obtain ⟨rfl, rfl⟩ := e
          obtain ⟨p2, _, kf⟩ := ihf ha hb f1 e2
          obtain ⟨p3, nb, kb⟩ := ihb hb hc b1 e3
          refine ⟨((clipPolygons_grows sqrt bsp h polygons ha ps1 e1).trans p2).trans p3, rfl,
            fun R => ?_⟩
          cases plane with
          | none => simp only [Node.Keeps]
          | some pl =>
            simp only [Node.Keeps]
            rw [kf R, kb R, nb]

/-- `ClipTo` by a tree that keeps `Q` loses no vertex of a stored polygon whose
vertices lie in the convex set `Q`. -/
theorem ClipTo_covers (sqrt : K → K) (Q : Vector K → Prop) (hQ : ConvexSet Q) (bsp : Node K)
    (hk : bsp.Keeps Q) :
    ∀ (a : Node K) (h h1 : Heap K) (a1 : Node K), Node.ClipTo sqrt bsp a h = .ok (h1, a1) →
      ∀ x, Covers Q h a.AllPolygons x → Covers Q h1 a1.AllPolygons x := by
  intro a
  induction a with
  | nil =>
    intro h h1 a1 e
    rw [Node.ClipTo] at e
    simp only [Except.ok.injEq, Prod.mk.injEq] at e
    obtain ⟨rfl, rfl⟩ := e
    exact fun x hx => hx
  | mk plane front back polygons ihf ihb =>
    intro h h1 a1 e
    rw [Node.ClipTo] at e
    cases e1 : bsp.ClipPolygons sqrt h polygons with
    | error err => simp [e1] at e
    | ok r1 =>
      obtain ⟨ha, ps1⟩ := r1
      simp only [e1] at e
      cases e2 : Node.ClipTo sqrt bsp front ha with
      | error err => simp [e2] at e
      | ok r2 =>
        obtain ⟨hb, f1⟩ := r2
        simp only [e2] at e
        cases e3 : Node.ClipTo sqrt bsp back hb with
        | error err => simp [e3] at e
        | ok r3 =>
          obtain ⟨hc, b1⟩ := r3
          simp only [e3, Except.ok.injEq, Prod.mk.injEq] at e
          obtain ⟨rfl, rfl⟩ := e
          have p1 := clipPolygons_grows sqrt bsp h polygons ha ps1 e1
          have p2 := (ClipTo_shape sqrt bsp front ha hb f1 e2).1
          have p3 := (ClipTo_shape sqrt bsp back hb hc b1 e3).1
          intro x hx
          simp only [Node.AllPolygons] at hx ⊢
          rcases Covers_append.mp hx with k | k
          · rcases Covers_append.mp k with k | k
            · exact Covers_append.mpr (Or.inl (Covers_append.mpr (Or.inl
                (Covers_mono (p2.trans p3) (clip_covers sqrt Q hQ bsp hk h polygons ha ps1 e1 x k)))))
            · exact Covers_append.mpr (Or.inl (Covers_append.mpr (Or.inr
                (Covers_mono p3 (ihf ha hb f1 e2 x (Covers_mono p1 k))))))
          · exact Covers_append.mpr (Or.inr (ihb hb hc b1 e3 x (Covers_mono (p1.trans p2) k)))

/-- `Invert` loses no vertex. -/
theorem Invert_covers (Q : Vector K → Prop) (n : Node K) (h h1 : Heap K) (n1 : Node K)
    (e : Node.Invert n h = .ok (h1, n1)) :
    Flipped h h1 ∧ ∀ x, Covers Q h n.AllPolygons x → Covers Q h1 n1.AllPolygons x := by
  have hf := (Invert_keeps n h h1 n1 e).1
  have hi := Invert_inverted n h h1 n1 e
  subst hi
  exact ⟨hf, fun x hx => Covers_subset (fun p hp => (inverted_AllPolygons n).symm.subset hp)
    (Covers_flipped hf hx)⟩

/-- `Build` loses no vertex of a polygon, stored or inserted, whose vertices
lie in the convex set `Q`. -/
theorem Build_covers (sqrt : K → K) (Q : Vector K → Prop) (hQ : ConvexSet Q) :
    ∀ (fuel : Nat) (n : Node K) (h : Heap K) (ps : List Ptr) (h1 : Heap K) (n1 : Node K),
      Node.Build sqrt fuel n h ps = .ok (h1, n1) →
      h <+: h1 ∧ ∀ x, Covers Q h n.AllPolygons x ∨ Covers Q h ps x →
        Covers Q h1 n1.AllPolygons x := by
  intro fuel
  induction fuel with
  | zero =>
    intro n h ps h1 n1 e
    cases ps with
    | nil =>
      rw [Build_nil] at e
      simp only [Except.ok.injEq, Prod.mk.injEq] at e
      obtain ⟨rfl, rfl⟩ := e
      refine ⟨List.prefix_refl _, ?_⟩
      rintro x (hx | ⟨p, hp, _⟩)
      · exact hx
      · cases hp
    | cons p0 rest =>
      rw [Node.Build] at e
      exact absurd e (by simp)
  | succ f ih =>
    intro n h ps h3 n1 e
    cases ps with
    | nil =>
      rw [Build_nil] at e
      simp only [Except.ok.injEq, Prod.mk.injEq] at e
      obtain ⟨rfl, rfl⟩ := e
      refine ⟨List.prefix_refl _, ?_⟩
      rintro x (hx | ⟨p, hp, _⟩)
      · exact hx
      · cases hp
    | cons p0 rest =>
      cases n with
      | nil =>
        rw [Node.Build] at e
        exact absurd e (by simp)
      | mk plane front back polys =>
        obtain ⟨pl, h1, out, h2, front1, back1, hplane, es, ef, eb, rfl⟩ :=
          Build_cons_inv sqrt f plane front back polys h p0 rest h3 n1 e
        have child : ∀ (c : Node K) (l : List Ptr) (ha hb : Heap K) (c1 : Node K),
            (if l.length > 0 then
                Node.Build sqrt f (if c.isNil then Node.empty else c) ha l
              else .ok (ha, c)) = .ok (hb, c1) →
            ha <+: hb ∧ ∀ x, Covers Q ha c.AllPolygons x ∨ Covers Q ha l x →
              Covers Q hb c1.AllPolygons x := by
          intro c l ha hb c1 ec
          by_cases hlen : l.length > 0
          · rw [if_pos hlen] at ec
            cases c with
            | nil =>
              obtain ⟨k1, k2⟩ := ih _ _ _ _ _ ec
              refine ⟨k1, fun x hx => k2 x ?_⟩
              rcases hx with ⟨p, hp, _⟩ | hx
              · simp [Node.AllPolygons] at hp
              · exact Or.inr hx
            | mk cp cf cb cl => exact ih _ _ _ _ _ ec
          · rw [if_neg hlen] at ec
            simp only [Except.ok.injEq, Prod.mk.injEq] at ec
            obtain ⟨rfl, rfl⟩ := ec
            refine ⟨List.prefix_refl _, ?_⟩
            rintro x (hx | ⟨p, hp, _⟩)
            · exact hx
            · have : l = [] := List.eq_nil_of_length_eq_zero (by omega)
              rw [this] at hp
              cases hp
        obtain ⟨s1, s2⟩ := split_covers sqrt pl buildEmit
          (fun o => o.polygons ++ o.front ++ o.back) (fun _ => True) Q hQ
          (fun s p o r hr => (buildEmit_all s p o r).mpr (Or.inl hr))
          (fun s p o _ => (buildEmit_all s p o p).mpr (Or.inr rfl))
          (fun P _ _ => ⟨fun _ => ⟨trivial, trivial⟩, fun _ => trivial, fun _ => trivial,
            fun _ => ⟨trivial, trivial⟩⟩)
          (p0 :: rest) h ⟨polys, [], []⟩ h1 out es
        obtain ⟨f1, f2⟩ := child front out.front h1 h2 front1 ef
        obtain ⟨b1, b2⟩ := child back out.back h2 h3 back1 eb
        refine ⟨(s1.trans f1).trans b1, ?_⟩
        have fromOut : ∀ x, Covers Q h1 (out.polygons ++ out.front ++ out.back) x →
            Covers Q h3 (out.polygons ++ front1.AllPolygons ++ back1.AllPolygons) x := by
          intro x hx
          rcases Covers_append.mp hx with k | k
          · rcases Covers_append.mp k with k | k
            · exact Covers_append.mpr (Or.inl (Covers_append.mpr (Or.inl
                (Covers_mono (f1.trans b1) k))))
            · exact Covers_append.mpr (Or.inl (Covers_append.mpr (Or.inr
                (Covers_mono b1 (f2 x (Or.inr k))))))
          · exact Covers_append.mpr (Or.inr (b2 x (Or.inr (Covers_mono f1 k))))
        intro x hx
        simp only [Node.AllPolygons] at hx ⊢
        rcases hx with hx | hx
        · rcases Covers_append.mp hx with k | k
          · rcases Covers_append.mp k with k | k
            · exact fromOut x (s2 x (Or.inr (by simpa using k)))
            · exact Covers_append.mpr (Or.inl (Covers_append.mpr (Or.inr
                (Covers_mono b1 (f2 x (Or.inl (Covers_mono s1 k)))))))
          · exact Covers_append.mpr (Or.inr (b2 x (Or.inl (Covers_mono (s1.trans f1) k))))
        · exact fromOut x (s2 x (Or.inl hx))

end Exposed2

end Csg
namespace Csg

section Exposed3

variable {K : Type} [LinearOrderedField K]

theorem SplitPolygons_all_back {σ : Type} (sqrt : K → K) (plane : Plane K)
    (emit : Side → Ptr → σ → σ) (l : List Ptr) (h : Heap K) :
    ∀ out : σ, (∀ q ∈ l, ∃ Q, h[q]? = some Q ∧ polygonType plane Q = BACK) →
      SplitPolygons sqrt plane emit l h out =
        .ok (h, l.foldl (fun o q => emit .back q o) out) := by
  induction l with
  | nil => intro out _; rw [SplitPolygons]; rfl
  | cons q l ih =>
    intro out hf
    obtain ⟨Q, eQ, tQ⟩ := hf q (List.mem_cons_self _ _)
    have hns : polygonType plane Q ≠ SPANNING := by rw [tQ]; decide
    rw [(SplitPolygons_cons_keep sqrt plane emit q l h out Q eQ hns).2.2.2.1 tQ]
    rw [ih _ (fun r hr => hf r (List.mem_cons_of_mem _ hr))]
    rfl

theorem foldl_buildEmit_back (l : List Ptr) (o : BuildOut) :
    l.foldl (fun o q => buildEmit .back q o) o = { o with back := o.back ++ l } := by
  induction l generalizing o with
  | nil => simp
  | cons q l ih => rw [List.foldl_cons, ih]; simp [buildEmit]

theorem backOf_spec {h : Heap K} {p q : Ptr} (hf : backOf h p q = true) :
    ∃ P Q, h[p]? = some P ∧ h[q]? = some Q ∧ polygonType P.Plane Q = BACK := by
  unfold backOf at hf
  cases e1 : h[p]? with
  | none => simp [e1] at hf
  | some P =>
    cases e2 : h[q]? with
    | none => simp [e1, e2] at hf
    | some Q =>
      simp only [e1, e2, beq_iff_eq] at hf
      exact ⟨P, Q, rfl, rfl, hf⟩

theorem ConvexList_cons {h : Heap K} {p : Ptr} {l : List Ptr} (hs : ConvexList h (p :: l)) :
    ownPlane h p = true ∧ (∀ q ∈ l, backOf h p q = true ∧ backOf h q p = true) ∧
      ConvexList h l := by
  obtain ⟨ho, hp⟩ := hs
  rw [List.pairwise_cons] at hp
  exact ⟨ho p (List.mem_cons_self _ _), hp.1,
    fun q hq => ho q (List.mem_cons_of_mem _ hq), hp.2⟩

/-- `Build` from the empty node on the polygons of a convex solid makes the
chain of back children and leaves the heap as it is. -/
theorem Build_empty_convex (sqrt : K → K) (h : Heap K) (B : List Ptr) :
    ∀ fuel, B ≠ [] → ConvexList h B → B.length ≤ fuel →
      Node.Build sqrt fuel Node.empty h B = .ok (h, convexChain h B) := by
  induction B with
  | nil => intro _ hne; exact absurd rfl hne
  | cons q rest ih =>
    intro fuel _ hs hfuel
    obtain ⟨hq, hfr, hrest⟩ := ConvexList_cons hs
    obtain ⟨Q, eQ, tQ, dQ⟩ := ownPlane_spec hq
    cases fuel with
    | zero => simp at hfuel
    | succ f =>
      have hsplit : SplitPolygons sqrt Q.Plane buildEmit (q :: rest) h ⟨[], [], []⟩ =
          .ok (h, ⟨[q], [], rest⟩) := by
        have hns : polygonType Q.Plane Q ≠ SPANNING := by rw [tQ]; decide
        rw [(SplitPolygons_cons_keep sqrt Q.Plane buildEmit q rest h _ Q eQ hns).1 tQ dQ]
        rw [SplitPolygons_all_back sqrt Q.Plane buildEmit rest h]
        · rw [foldl_buildEmit_back]
          simp [buildEmit]
        · intro r hr
          obtain ⟨P1, Q1, e1, e2, t⟩ := backOf_spec (hfr r hr).1
          rw [eQ] at e1
          cases e1
          exact ⟨Q1, e2, t⟩
      show Node.Build sqrt (f + 1) (.mk none .nil .nil []) h (q :: rest) = _
      unfold Node.Build
      simp only [eQ, Plane_Clone_eq, hsplit]
      cases rest with
      | nil => simp [convexChain, eQ]
      | cons r rest1 =>
        have ih1 := ih f (by simp) hrest (by simpa using hfuel)
        simp only [Node.isNil, if_true, List.length_cons, Nat.zero_lt_succ,
          gt_iff_lt, ih1, List.length_nil, Nat.lt_irrefl, if_false]
        simp [convexChain, eQ]

theorem convexChain_AllPolygons (h : Heap K) (A : List Ptr) :
    (convexChain h A).AllPolygons = A := by
  induction A with
  | nil => rfl
  | cons p A ih => simp [convexChain, Node.AllPolygons, ih]

/-- The chain of a convex solid keeps what lies in front of the plane of one of
its polygons. -/
theorem convexChain_Keeps (Q : Vector K → Prop) (h : Heap K) :
    ∀ (B : List Ptr) (q : Ptr) (Qp : Polygon K), q ∈ B → h[q]? = some Qp →
      (∀ x, Q x → Qp.Plane.InFront x) → (convexChain h B).Keeps Q
  | [], q, _, hq, _, _ => by cases hq
  | p :: rest, q, Qp, hq, eQ, hfront => by
    rw [convexChain]
    by_cases hpq : q = p
    · subst hpq
      rw [eQ]
      exact Or.inl ⟨hfront, trivial⟩
    · have hq1 : q ∈ rest := by
        rcases List.mem_cons.mp hq with k | k
        · exact absurd k hpq
        · exact k
      cases e : h[p]? with
      | none => trivial
      | some P =>
        refine Or.inr ⟨trivial, ?_, convexChain_Keeps Q h rest q Qp hq1 eQ hfront⟩
        cases rest with
        | nil => cases hq1
        | cons r rest1 => rfl

theorem wholeFront_spec {h : Heap K} {q p : Ptr} (hf : wholeFront h q p = true) :
    ∃ Qp P, h[q]? = some Qp ∧ h[p]? = some P ∧
      ∀ v ∈ P.Vertices, Qp.Plane.InFront v.Position := by
  unfold wholeFront at hf
  cases e1 : h[q]? with
  | none => simp [e1] at hf
  | some Qp =>
    cases e2 : h[p]? with
    | none => simp [e1, e2] at hf
    | some P =>
      simp only [e1, e2, List.all_eq_true, decide_eq_true_eq] at hf
      exact ⟨Qp, P, rfl, rfl, hf⟩

theorem mem_allVertices_inv {h : Heap K} {l : List Ptr} {v : Vertex K}
    (hv : v ∈ allVertices h l) : ∃ p ∈ l, ∃ poly, h[p]? = some poly ∧ v ∈ poly.Vertices := by
  unfold allVertices at hv
  rw [List.mem_flatten] at hv
  obtain ⟨vs, hvs, hv⟩ := hv
  rw [List.mem_map] at hvs
  obtain ⟨p, hp, e⟩ := hvs
  cases e1 : h[p]? with
  | none =>
    rw [e1] at e
    rw [← e] at hv
    cases hv
  | some poly =>
    rw [e1] at e
    have e2 : poly.Vertices = vs := e
    rw [← e2] at hv
    exact ⟨p, hp, poly, e1, hv⟩

/-- The union of two convex solids has a vertex at the position of every vertex
of an exposed polygon of either operand. -/
theorem Union_covers (sqrt : K → K) (fuel : Nat) (A B : CSG) (h : Heap K)
    (hA : ConvexList h A.polygons) (hB : ConvexList h B.polygons)
    (hfa : A.polygons.length ≤ fuel) (hfb : B.polygons.length ≤ fuel)
    (h1 : Heap K) (R : CSG) (e : A.Union sqrt fuel B h = .ok (h1, R))
    (p : Ptr) (hp : (p ∈ A.polygons ∧ exposedTo h B.polygons p = true) ∨
      (p ∈ B.polygons ∧ exposedTo h A.polygons p = true))
    (P : Polygon K) (eP : h[p]? = some P) (v : Vertex K) (hv : v ∈ P.Vertices) :
    ∃ w ∈ allVertices h1 R.polygons, w.Position = v.Position := by
  have hneA : A.polygons ≠ [] := by
    rcases hp with ⟨k, _⟩ | ⟨_, k⟩
    · exact List.ne_nil_of_mem k
    · intro k0
      rw [k0] at k
      simp [exposedTo] at k
  have hneB : B.polygons ≠ [] := by
    rcases hp with ⟨_, k⟩ | ⟨k, _⟩
    · intro k0
      rw [k0] at k
      simp [exposedTo] at k
    · exact List.ne_nil_of_mem k
  unfold CSG.Union at e
  obtain ⟨⟨g1, a1⟩, e1, e⟩ := andThen_ok_inv e
  have ha : NewNodeFromPolygons sqrt fuel h A.Clone.polygons =
      .ok (h, convexChain h A.polygons) := by
    unfold NewNodeFromPolygons CSG.Clone
    simp only [List.nil_append]
    exact Build_empty_convex sqrt h A.polygons fuel hneA hA hfa
  rw [ha] at e1
  simp only [Except.ok.injEq, Prod.mk.injEq] at e1
  obtain ⟨rfl, rfl⟩ := e1
  obtain ⟨⟨g2, b2⟩, e2, e⟩ := andThen_ok_inv e
  have hb : NewNodeFromPolygons sqrt fuel h B.Clone.polygons =
      .ok (h, convexChain h B.polygons) := by
    unfold NewNodeFromPolygons CSG.Clone
    simp only [List.nil_append]
    exact Build_empty_convex sqrt h B.polygons fuel hneB hB hfb
  rw [hb] at e2
  simp only [Except.ok.injEq, Prod.mk.injEq] at e2
  obtain ⟨rfl, rfl⟩ := e2
  obtain ⟨⟨g3, a3⟩, e3, e⟩ := andThen_ok_inv e
  obtain ⟨⟨g4, b4⟩, e4, e⟩ := andThen_ok_inv e
  obtain ⟨⟨g5, b5⟩, e5, e⟩ := andThen_ok_inv e
  obtain ⟨⟨g6, b6⟩, e6, e⟩ := andThen_ok_inv e
  obtain ⟨⟨g7, b7⟩, e7, e⟩ := andThen_ok_inv e
  obtain ⟨⟨g8, a8⟩, e8, e⟩ := andThen_ok_inv e
  simp only [Except.ok.injEq, Prod.mk.injEq] at e
  obtain ⟨rfl, rfl⟩ := e
  obtain ⟨p3, _, k3⟩ := ClipTo_shape sqrt _ _ _ _ _ e3
  obtain ⟨p4, _, _⟩ := ClipTo_shape sqrt _ _ _ _ _ e4
  obtain ⟨p6, _, _⟩ := ClipTo_shape sqrt _ _ _ _ _ e6
  have key : ∃ Q : Vector K → Prop, Covers Q g8 a8.AllPolygons v.Position := by
    rcases hp with ⟨hpA, hex⟩ | ⟨hpB, hex⟩
    · unfold exposedTo at hex
      rw [List.any_eq_true] at hex
      obtain ⟨q, hq, hw⟩ := hex
      obtain ⟨Qp, P1, eQ, eP1, hfront⟩ := wholeFront_spec hw
      rw [eP] at eP1
      cases eP1
      have hQ := InFront_convex Qp.Plane
      have hk := convexChain_Keeps Qp.Plane.InFront h B.polygons q Qp hq eQ (fun x hx => hx)
      have c0 : Covers Qp.Plane.InFront h (convexChain h A.polygons).AllPolygons v.Position := by
        rw [convexChain_AllPolygons]
        exact ⟨p, hpA, P, eP, hfront, v, hv, rfl⟩
      have c3 := ClipTo_covers sqrt _ hQ _ hk _ _ _ _ e3 _ c0
      have c7 : Covers Qp.Plane.InFront g7 a3.AllPolygons v.Position :=
        Covers_flipped (Invert_covers Qp.Plane.InFront b6 g6 g7 b7 e7).1
          (Covers_mono p6 (Covers_flipped (Invert_covers Qp.Plane.InFront b4 g4 g5 b5 e5).1
            (Covers_mono p4 c3)))
      exact ⟨_, (Build_covers sqrt _ hQ fuel a3 g7 b7.AllPolygons g8 a8 e8).2 _ (Or.inl c7)⟩
    · unfold exposedTo at hex
      rw [List.any_eq_true] at hex
      obtain ⟨q, hq, hw⟩ := hex
      obtain ⟨Qp, P1, eQ, eP1, hfront⟩ := wholeFront_spec hw
      rw [eP] at eP1
      cases eP1
      have hQ := InFront_convex Qp.Plane
      have hk0 := convexChain_Keeps Qp.Plane.InFront h A.polygons q Qp hq eQ (fun x hx => hx)
      have hk : a3.Keeps Qp.Plane.InFront := (k3 _).mpr hk0
      have c0 : Covers Qp.Plane.InFront h (convexChain h B.polygons).AllPolygons v.Position := by
        rw [convexChain_AllPolygons]
        exact ⟨p, hpB, P, eP, hfront, v, hv, rfl⟩
      have c4 := ClipTo_covers sqrt _ hQ _ hk _ _ _ _ e4 _ (Covers_mono p3 c0)
      have c5 := (Invert_covers Qp.Plane.InFront b4 g4 g5 b5 e5).2 _ c4
      have c6 := ClipTo_covers sqrt _ hQ _ hk _ _ _ _ e6 _ c5
      have c7 := (Invert_covers Qp.Plane.InFront b6 g6 g7 b7 e7).2 _ c6
      exact ⟨_, (Build_covers sqrt _ hQ fuel a3 g7 b7.AllPolygons g8 a8 e8).2 _ (Or.inr c7)⟩
  obtain ⟨Q, r, hr, Pr, er, _, w, hw, hwx⟩ := key
  exact ⟨w, mem_allVertices hr er hw, hwx⟩

theorem Within_Min (b0 : Box K) (a c : Vector K) (ha : b0.Within a) (hc : b0.Within c) :
    b0.Within (a.Min c) := by
  unfold Box.Within at *
  simp only [Vector.Min, ite_lt_eq_min]
  obtain ⟨a1, a2, a3, a4, a5, a6⟩ := ha
  obtain ⟨c1, c2, c3, c4, c5, c6⟩ := hc
  exact ⟨le_min a1 c1, (min_le_left _ _).trans a2, le_min a3 c3, (min_le_left _ _).trans a4,
    le_min a5 c5, (min_le_left _ _).trans a6⟩

theorem Within_Max (b0 : Box K) (a c : Vector K) (ha : b0.Within a) (hc : b0.Within c) :
    b0.Within (a.Max c) := by
  unfold Box.Within at *
  simp only [Vector.Max, ite_gt_eq_max]
  obtain ⟨a1, a2, a3, a4, a5, a6⟩ := ha
  obtain ⟨c1, c2, c3, c4, c5, c6⟩ := hc
  exact ⟨a1.trans (le_max_left _ _), max_le a2 c2, a3.trans (le_max_left _ _), max_le a4 c4,
    a5.trans (le_max_left _ _), max_le a6 c6⟩

/-- A box that holds the corners of the start and every vertex holds the
corners of the box grown by the vertices. -/
theorem AddVertex_fold_within (b0 : Box K) :
    ∀ (l : List (Vertex K)) (b : Box K), b0.Within b.Min → b0.Within b.Max →
      (∀ v ∈ l, b0.Within v.Position) →
      b0.Within (l.foldl Box.AddVertex b).Min ∧ b0.Within (l.foldl Box.AddVertex b).Max
  | [], b, h1, h2, _ => ⟨h1, h2⟩
  | v :: l, b, h1, h2, hl => by
    rw [List.foldl_cons]
    have hv := hl v (List.mem_cons_self _ _)
    exact AddVertex_fold_within b0 l (b.AddVertex v) (Within_Min b0 _ _ h1 hv)
      (Within_Max b0 _ _ h2 hv) (fun w hw => hl w (List.mem_cons_of_mem _ hw))

theorem Box_eq_of_within (r0 r1 : Box K) (h1 : r0.Within r1.Min) (h2 : r0.Within r1.Max)
    (h3 : r1.Within r0.Min) (h4 : r1.Within r0.Max) : r1 = r0 := by
  obtain ⟨⟨a1, a2, a3⟩, ⟨a4, a5, a6⟩⟩ := r0
  obtain ⟨⟨c1, c2, c3⟩, ⟨c4, c5, c6⟩⟩ := r1
  unfold Box.Within at *
  simp only at h1 h2 h3 h4
  obtain ⟨x1, _, x3, _, x5, _⟩ := h1
  obtain ⟨_, y2, _, y4, _, y6⟩ := h2
  obtain ⟨z1, _, z3, _, z5, _⟩ := h3
  obtain ⟨_, w2, _, w4, _, w6⟩ := h4
  simp only [Box.mk.injEq, Vector.mk.injEq]
  exact ⟨⟨le_antisymm z1 x1, le_antisymm z3 x3, le_antisymm z5 x5⟩,
    ⟨le_antisymm y2 w2, le_antisymm y4 w4, le_antisymm y6 w6⟩⟩

theorem zero_within_fold (l : List (Vertex K)) :
    (l.foldl Box.AddVertex Box.zero).Within (Box.zero : Box K).Min ∧
      (l.foldl Box.AddVertex Box.zero).Within (Box.zero : Box K).Max := by
  obtain ⟨⟨m1, m2, m3⟩, ⟨m4, m5, m6⟩⟩ := AddVertex_fold_mono l (Box.zero : Box K)
  unfold Box.Within
  simp only [Box.zero] at *
  exact ⟨⟨m1, m4, m2, m5, m3, m6⟩, ⟨m1, m4, m2, m5, m3, m6⟩⟩

theorem ConvexList_lt {h : Heap K} {l : List Ptr} (hl : ConvexList h l) :
    ∀ p ∈ l, p < h.length := by
  intro p hp
  obtain ⟨P, eP, _⟩ := ownPlane_spec (hl.1 p hp)
  exact lt_of_lookup eP

/-- The bounding box of the union of two convex solids whose exposed polygons
`S` span the bounding box of the operands is that box. -/
theorem Union_box (sqrt : K → K) (fuel : Nat) (A B : CSG) (h : Heap K)
    (hA : ConvexList h A.polygons) (hB : ConvexList h B.polygons)
    (hfa : A.polygons.length ≤ fuel) (hfb : B.polygons.length ≤ fuel)
    (S : List Ptr)
    (hS : ∀ p ∈ S, (p ∈ A.polygons ∧ exposedTo h B.polygons p = true) ∨
      (p ∈ B.polygons ∧ exposedTo h A.polygons p = true))
    (hbox : CSG.BoundingBox ⟨S⟩ h = CSG.BoundingBox ⟨A.polygons ++ B.polygons⟩ h)
    (h1 : Heap K) (R : CSG) (e : A.Union sqrt fuel B h = .ok (h1, R)) :
    R.BoundingBox h1 =
      .ok ((allVertices h (A.polygons ++ B.polygons)).foldl Box.AddVertex Box.zero) := by
  have hlA := ConvexList_lt hA
  have hlB := ConvexList_lt hB
  have hlAB : ∀ p ∈ A.polygons ++ B.polygons, p < h.length := fun p hp =>
    (List.mem_append.mp hp).elim (hlA p) (hlB p)
  have hlS : ∀ p ∈ S, p < h.length := by
    intro p hp
    rcases hS p hp with ⟨k, _⟩ | ⟨k, _⟩
    · exact hlA p k
    · exact hlB p k
  rw [BoundingBox_ok h S hlS, BoundingBox_ok h _ hlAB] at hbox
  have hbox1 := Except.ok.inj hbox
  -- the operands lie in their box
  have hin : ∀ p ∈ A.polygons ++ B.polygons, VerticesIn
      ((allVertices h (A.polygons ++ B.polygons)).foldl Box.AddVertex Box.zero).Within h p := by
    intro p hp
    obtain ⟨P, eP⟩ := lookup_of_lt (hlAB p hp)
    refine ⟨P, eP, fun v hv => ?_⟩
    obtain ⟨⟨m1, m2, m3⟩, ⟨m4, m5, m6⟩⟩ := AddVertex_fold_includes
      (allVertices h (A.polygons ++ B.polygons)) Box.zero v (mem_allVertices hp eP hv)
    exact ⟨m1, m4, m2, m5, m3, m6⟩
  have hR := Union_convex sqrt _ (Within_convex _) fuel A B h h1 R
    (fun p hp => hin p (List.mem_append_left _ hp))
    (fun p hp => hin p (List.mem_append_right _ hp)) e
  have hlR : ∀ p ∈ R.polygons, p < h1.length := fun p hp => by
    obtain ⟨P, eP, _⟩ := hR p hp
    exact lt_of_lookup eP
  have eR : R.BoundingBox h1 = .ok ((allVertices h1 R.polygons).foldl Box.AddVertex Box.zero) :=
    BoundingBox_ok h1 R.polygons hlR
  rw [eR]
  congr 1
  obtain ⟨z1, z2⟩ := zero_within_fold (allVertices h (A.polygons ++ B.polygons))
  obtain ⟨y1, y2⟩ := zero_within_fold (allVertices h1 R.polygons)
  obtain ⟨a1, a2⟩ := AddVertex_fold_within _ (allVertices h1 R.polygons) Box.zero z1 z2
    (by
      intro w hw
      obtain ⟨p, hp, poly, ep, hwp⟩ := mem_allVertices_inv hw
      obtain ⟨poly1, ep1, hq⟩ := hR p hp
      rw [ep] at ep1
      cases ep1
      exact hq w hwp)
  obtain ⟨b1, b2⟩ := AddVertex_fold_within _ (allVertices h S) Box.zero y1 y2
    (by
      intro v hv
      obtain ⟨p, hp, poly, ep, hvp⟩ := mem_allVertices_inv hv
      obtain ⟨w, hw, hwx⟩ := Union_covers sqrt fuel A B h hA hB hfa hfb h1 R e p (hS p hp)
        poly ep v hvp
      obtain ⟨⟨m1, m2, m3⟩, ⟨m4, m5, m6⟩⟩ := AddVertex_fold_includes
        (allVertices h1 R.polygons) Box.zero w hw
      rw [← hwx]
      exact ⟨m1, m4, m2, m5, m3, m6⟩)
  rw [hbox1] at b1 b2
  exact Box_eq_of_within _ _ a1 a2 b1 b2

end Exposed3

end Csg
namespace Csg

/-! ## C8 : Union and the bounding box -/

section UnionBox

variable {K : Type} [LinearOrderedField K]

/-- C8 as stated fails.  For two triangles in one plane facing the same way,
each a CSG of its own, `Union` keeps the receiver's triangle and drops the
argument's, so the two orders give the boxes `(0,0,0)-(1,1,0)` and
`(0,0,0)-(5,5,0)`.  It also fails for closed solids: of two unit cubes of
`NewCube` whose centres are `EPSILON/2` apart every face of the argument is
classified COPLANAR with a face of the receiver and dropped, so each order
returns the receiver's cube, with the boxes `(-1/2,-1/2,-1/2)-(1/2,1/2,1/2)` and
`(-99999/200000,-1/2,-1/2)-(100001/200000,1/2,1/2)`. -/
theorem Union_bounding_box_counterexample :
    (∃ h1 r1 h2 r2,
      CSG.Union ratSqrt 4 ⟨[0]⟩ ⟨[1]⟩ [triSmall, triBig] = .ok (h1, r1) ∧
      CSG.Union ratSqrt 4 ⟨[1]⟩ ⟨[0]⟩ [triSmall, triBig] = .ok (h2, r2) ∧
      r1.BoundingBox h1 = .ok ⟨⟨0, 0, 0⟩, ⟨1, 1, 0⟩⟩ ∧
      r2.BoundingBox h2 = .ok ⟨⟨0, 0, 0⟩, ⟨5, 5, 0⟩⟩ ∧
      r1.BoundingBox h1 ≠ r2.BoundingBox h2) ∧
    NewCube ratSqrt none [] = .ok (unitCube.1, cubeA) ∧
    NewCube ratSqrt (some ⟨some ⟨1 / 200000, 0, 0⟩, none⟩) unitCube.1 = .ok (nearCubes, cubeB) ∧
    ∃ h1 r1 h2 r2,
      cubeA.Union ratSqrt 20 cubeB nearCubes = .ok (h1, r1) ∧
      cubeB.Union ratSqrt 20 cubeA nearCubes = .ok (h2, r2) ∧
      r1.BoundingBox h1 = .ok ⟨⟨-1 / 2, -1 / 2, -1 / 2⟩, ⟨1 / 2, 1 / 2, 1 / 2⟩⟩ ∧
      r2.BoundingBox h2 =
        .ok ⟨⟨-99999 / 200000, -1 / 2, -1 / 2⟩, ⟨100001 / 200000, 1 / 2, 1 / 2⟩⟩ ∧
      r1.BoundingBox h1 ≠ r2.BoundingBox h2 := by
  refine ⟨⟨[triSmall, triBig.Flip], ⟨[0]⟩, [triSmall.Flip, triBig], ⟨[1]⟩, by decide!,
    by decide!, by decide!, by decide!, by decide!⟩, by decide!, by decide!, ?_⟩
  have hb : (match cubeA.Union ratSqrt 20 cubeB nearCubes,
        cubeB.Union ratSqrt 20 cubeA nearCubes with
      | .ok (h1, r1), .ok (h2, r2) =>
        decide (r1.BoundingBox h1 =
          .ok ⟨⟨-1 / 2, -1 / 2, -1 / 2⟩, ⟨1 / 2, 1 / 2, 1 / 2⟩⟩) &&
        decide (r2.BoundingBox h2 =
          .ok ⟨⟨-99999 / 200000, -1 / 2, -1 / 2⟩, ⟨100001 / 200000, 1 / 2, 1 / 2⟩⟩)
      | _, _ => false) = true := by decide!
  split at hb
  · next h1 r1 h2 r2 e1 e2 =>
    simp only [Bool.and_eq_true, decide_eq_true_eq] at hb
    refine ⟨h1, r1, h2, r2, e1, e2, hb.1, hb.2, ?_⟩
    rw [hb.1, hb.2]
    decide!
  · exact absurd hb (by simp)

/-- Claim C8 (amended).  Let `A` and `B` be convex solids: every polygon lies in
its own plane, whose normal is not zero, and is classified BACK against the
plane of every other polygon of the same operand, as the faces of a cube are.
Let `S` be polygons of `A` and `B` that are exposed, each with all its vertices
FRONT of the plane of some polygon of the other operand, and let `S` span the
bounding box of the operands: `BoundingBox` of `S` is that of the polygons of
`A` and `B` together.  Then, with fuel for the two lists, whenever
`A.Union(B)` and `B.Union(A)` return, their `BoundingBox()` return the same
box, exactly, and it is the bounding box of the operands. -/
theorem Union_bounding_box_exposed (sqrt : K → K) (fuel : Nat) (A B : CSG) (h : Heap K)
    (hA : ConvexList h A.polygons) (hB : ConvexList h B.polygons)
    (hfa : A.polygons.length ≤ fuel) (hfb : B.polygons.length ≤ fuel) (S : List Ptr)
    (hS : ∀ p ∈ S, (p ∈ A.polygons ∧ exposedTo h B.polygons p = true) ∨
      (p ∈ B.polygons ∧ exposedTo h A.polygons p = true))
    (hbox : CSG.BoundingBox ⟨S⟩ h = CSG.BoundingBox ⟨A.polygons ++ B.polygons⟩ h)
    (h1 : Heap K) (r1 : CSG) (e1 : A.Union sqrt fuel B h = .ok (h1, r1))
    (h2 : Heap K) (r2 : CSG) (e2 : B.Union sqrt fuel A h = .ok (h2, r2)) :
    ∃ box, r1.BoundingBox h1 = .ok box ∧ r2.BoundingBox h2 = .ok box ∧
      CSG.BoundingBox ⟨A.polygons ++ B.polygons⟩ h = .ok box := by
  have hlA := ConvexList_lt hA
  have hlB := ConvexList_lt hB
  have hcomm := BoundingBox_append_comm h A.polygons B.polygons hlA hlB
  have k1 := Union_box sqrt fuel A B h hA hB hfa hfb S hS hbox h1 r1 e1
  have k2 := Union_box sqrt fuel B A h hB hA hfb hfa S (fun p hp => (hS p hp).symm)
    (hbox.trans hcomm) h2 r2 e2
  have k3 := BoundingBox_ok h (A.polygons ++ B.polygons)
    (fun p hp => (List.mem_append.mp hp).elim (hlA p) (hlB p))
  have k4 := BoundingBox_ok h (B.polygons ++ A.polygons)
    (fun p hp => (List.mem_append.mp hp).elim (hlB p) (hlA p))
  refine ⟨_, k1, ?_, k3⟩
  rw [k2, ← k4, ← hcomm, k3]

/-- The amended claim on two overlapping unit cubes of `NewCube`, centred at
the origin and at `(1/2, 1/2, 1/2)`: the face `x = -1/2` of the first and the
face `x = 1` of the second are exposed and span the box
`(-1/2,-1/2,-1/2)-(1,1,1)`, which both unions return. -/
theorem Union_bounding_box_exposed_witness :
    NewCube ratSqrt none [] = .ok (unitCube.1, cubeA) ∧
    NewCube ratSqrt (some ⟨some ⟨1 / 2, 1 / 2, 1 / 2⟩, none⟩) unitCube.1 =
      .ok (twoCubes, cubeB) ∧
    ConvexList twoCubes cubeA.polygons ∧ ConvexList twoCubes cubeB.polygons ∧
    (∀ p ∈ [0, 7], (p ∈ cubeA.polygons ∧ exposedTo twoCubes cubeB.polygons p = true) ∨
      (p ∈ cubeB.polygons ∧ exposedTo twoCubes cubeA.polygons p = true)) ∧
    CSG.BoundingBox ⟨[0, 7]⟩ twoCubes =
      CSG.BoundingBox ⟨cubeA.polygons ++ cubeB.polygons⟩ twoCubes ∧
    ∃ h1 r1 h2 r2, cubeA.Union ratSqrt 20 cubeB twoCubes = .ok (h1, r1) ∧
      cubeB.Union ratSqrt 20 cubeA twoCubes = .ok (h2, r2) ∧
      r1.BoundingBox h1 = .ok ⟨⟨-1 / 2, -1 / 2, -1 / 2⟩, ⟨1, 1, 1⟩⟩ ∧
      r2.BoundingBox h2 = .ok ⟨⟨-1 / 2, -1 / 2, -1 / 2⟩, ⟨1, 1, 1⟩⟩ := by
  have hA : ConvexList twoCubes cubeA.polygons := by decide!
  have hB : ConvexList twoCubes cubeB.polygons := by decide!
  have hS : ∀ p ∈ [0, 7], (p ∈ cubeA.polygons ∧ exposedTo twoCubes cubeB.polygons p = true) ∨
      (p ∈ cubeB.polygons ∧ exposedTo twoCubes cubeA.polygons p = true) := by decide!
  have hbox : CSG.BoundingBox ⟨[0, 7]⟩ twoCubes =
      CSG.BoundingBox ⟨cubeA.polygons ++ cubeB.polygons⟩ twoCubes := by decide!
  have hv : CSG.BoundingBox ⟨cubeA.polygons ++ cubeB.polygons⟩ twoCubes =
      .ok ⟨⟨-1 / 2, -1 / 2, -1 / 2⟩, ⟨1, 1, 1⟩⟩ := by decide!
  have hb : (match cubeA.Union ratSqrt 20 cubeB twoCubes,
        cubeB.Union ratSqrt 20 cubeA twoCubes with
      | .ok _, .ok _ => true
      | _, _ => false) = true := by decide!
  refine ⟨by decide!, by decide!, hA, hB, hS, hbox, ?_⟩
  split at hb
  · next x1 x2 e1 e2 =>
    obtain ⟨h1, r1⟩ := x1
    obtain ⟨h2, r2⟩ := x2
    obtain ⟨box, k1, k2, k3⟩ := Union_bounding_box_exposed ratSqrt 20 cubeA cubeB twoCubes hA hB
      (by decide) (by decide) [0, 7] hS hbox h1 r1 e1 h2 r2 e2
    rw [hv] at k3
    cases k3
    exact ⟨h1, r1, h2, r2, e1, e2, k1, k2⟩
  · exact absurd hb (by simp)

end UnionBox

end Csg
namespace Qhull

open Csg (Vector Err)

section Sequence

variable {K : Type} [LinearOrderedField K]

theorem firstOr_append (l m : List Nat) (n : Option Nat) :
    firstOr (l ++ m) n = firstOr l (firstOr m n) := by
  cases l <;> rfl

theorem lastOr_append (l m : List Nat) (p : Option Nat) :
    lastOr (l ++ m) p = lastOr m (lastOr l p) := by
  induction l generalizing p with
  | nil => rfl
  | cons a r ih => exact ih (some a)

theorem head?_eq_firstOr (l : List Nat) : l.head? = firstOr l none := by
  cases l <;> rfl

theorem getLast?_eq_lastOr (l : List Nat) : l.getLast? = lastOr l none := by
  induction l using List.reverseRecOn with
  | nil => rfl
  | append_singleton l a _ => rw [List.getLast?_append, lastOr_append]; rfl

theorem chain_append (pts : List (Vertex K)) (l m : List Nat) (p n : Option Nat) :
    Chain pts p (l ++ m) n ↔ Chain pts p l (firstOr m n) ∧ Chain pts (lastOr l p) m n := by
  induction l generalizing p with
  | nil => simp [Chain, lastOr]
  | cons a r ih =>
    rw [List.cons_append, Chain, Chain, ih (some a), firstOr_append, lastOr]
    tauto

theorem chain_frame (pts : List (Vertex K)) (a : Nat) (x : Vertex K) (l : List Nat)
    (p n : Option Nat) (ha : a ∉ l) (hc : Chain pts p l n) : Chain (pts.set a x) p l n := by
  induction l generalizing p with
  | nil => trivial
  | cons b r ih =>
    obtain ⟨⟨y, e, h1, h2⟩, hr⟩ := hc
    have hne : a ≠ b := fun h => ha (h ▸ List.mem_cons_self _ _)
    exact ⟨⟨y, by rw [List.getElem?_set_ne hne]; exact e, h1, h2⟩,
      ih (some b) (fun h => ha (List.mem_cons_of_mem _ h)) hr⟩

/-- The record of a member: its `prev` is the member before it and its `next`
the member after it. -/
theorem chain_member (pts : List (Vertex K)) (l m : List Nat) (a : Nat) (p n : Option Nat)
    (hc : Chain pts p (l ++ a :: m) n) :
    ∃ x, pts[a]? = some x ∧ x.prev = lastOr l p ∧ x.next = firstOr m n := by
  obtain ⟨_, h⟩ := (chain_append pts l (a :: m) p n).mp hc
  exact h.1

/-- A chain whose first `prev` is no member of it has no vertex twice. -/
theorem chain_nodup (pts : List (Vertex K)) (l : List Nat) (p n : Option Nat)
    (hp : ∀ a, p = some a → a ∉ l) (hc : Chain pts p l n) : l.Nodup := by
  induction l generalizing p with
  | nil => exact List.nodup_nil
  | cons a r ih =>
    have har : a ∉ r := by
      intro hm
      obtain ⟨r1, r2, rfl⟩ := List.append_of_mem hm
      obtain ⟨x, e, h1, _⟩ := hc.1
      obtain ⟨y, e2, h3, _⟩ := chain_member pts r1 r2 a (some a) n hc.2
      rw [e] at e2
      cases e2
      rw [h1] at h3
      cases r1 using List.reverseRecOn with
      | nil => exact hp a h3 (List.mem_cons_self _ _)
      | append_singleton r0 b _ =>
        rw [lastOr_append] at h3
        exact hp b h3 (List.mem_cons_of_mem _ (by simp))
    exact List.nodup_cons.mpr ⟨har, ih (some a) (fun b hb => by cases hb; exact har) hc.2⟩

theorem IsSeq_nodup {q : Hull K} {v : VertexList} {l : List Nat} (h : v.IsSeq q l) :
    l.Nodup :=
  chain_nodup q.points l none none (fun _ h => by cases h) h.2.2

theorem chain_lt (pts : List (Vertex K)) (l : List Nat) (p n : Option Nat)
    (hc : Chain pts p l n) : ∀ a ∈ l, a < pts.length := by
  induction l generalizing p with
  | nil => intro a h; cases h
  | cons b r ih =>
    intro a ha
    rcases List.mem_cons.mp ha with rfl | h
    · obtain ⟨x, e, _⟩ := hc.1
      exact Csg.lt_of_lookup e
    · exact ih (some b) hc.2 a h

/-- Writing the `next` of the last member. -/
theorem chain_set_next (pts : List (Vertex K)) (l : List Nat) (t : Nat) (p n n1 : Option Nat)
    (x : Vertex K) (hx : pts[t]? = some x) (ht : t ∉ l) (hc : Chain pts p (l ++ [t]) n) :
    Chain (pts.set t { x with next := n1 }) p (l ++ [t]) n1 := by
  obtain ⟨h1, h2⟩ := (chain_append pts l [t] p n).mp hc
  refine (chain_append _ l [t] p n1).mpr ⟨chain_frame pts t _ l p _ ht h1, ?_, trivial⟩
  obtain ⟨⟨y, e, k1, _⟩, _⟩ := h2
  rw [hx] at e
  cases e
  exact ⟨{ x with next := n1 }, by rw [List.getElem?_set_self (Csg.lt_of_lookup hx)], k1, rfl⟩

/-- Writing the `prev` of the first member. -/
theorem chain_set_prev (pts : List (Vertex K)) (l : List Nat) (a : Nat) (p p1 n : Option Nat)
    (x : Vertex K) (hx : pts[a]? = some x) (ha : a ∉ l) (hc : Chain pts p (a :: l) n) :
    Chain (pts.set a { x with prev := p1 }) p1 (a :: l) n := by
  obtain ⟨⟨y, e, _, k2⟩, h2⟩ := hc
  rw [hx] at e
  cases e
  exact ⟨⟨{ x with prev := p1 }, by rw [List.getElem?_set_self (Csg.lt_of_lookup hx)], rfl, k2⟩,
    chain_frame pts a _ l _ _ ha h2⟩

end Sequence

section Sequence2

variable {K : Type} [LinearOrderedField K]

theorem eq_nil_or_snoc {α : Type} (l : List α) : l = [] ∨ ∃ r t, l = r ++ [t] := by
  rcases List.eq_nil_or_concat l with h | ⟨r, t, h⟩
  · exact Or.inl h
  · exact Or.inr ⟨r, t, by rw [h, List.concat_eq_append]⟩

theorem SameButLinks_refl (q : Hull K) : SameButLinks q q := ⟨rfl, rfl⟩

theorem SameButLinks_trans {q q1 q2 : Hull K} (a : SameButLinks q q1) (b : SameButLinks q1 q2) :
    SameButLinks q q2 := by
  obtain ⟨a1, a2⟩ := a
  obtain ⟨b1, b2⟩ := b
  refine ⟨?_, b2.trans a2⟩
  rw [b1, a1]

/-- Writing the links of one vertex changes nothing else of the hull. -/
theorem SameButLinks_set (q : Hull K) (a : Nat) (x y : Vertex K) (hx : q.points[a]? = some x)
    (hy : (y.point, y.index, y.face) = (x.point, x.index, x.face)) :
    SameButLinks q (q.setVertex a y) :=
  ⟨rfl, set_map_same _ q.points a x y hx hy⟩

theorem SameButLinks_links (q : Hull K) (a : Nat) (x : Vertex K) (p n : Option Nat)
    (hx : q.points[a]? = some x) :
    SameButLinks q (q.setVertex a { x with prev := p, next := n }) :=
  SameButLinks_set q a x _ hx rfl

theorem Add_seq (q : Hull K) (v : VertexList) (l : List Nat) (vtx : Nat)
    (hs : v.IsSeq q l) (hn : vtx ∉ l) (hv : vtx < q.points.length) :
    ∃ q1 v1, VertexList.Add q v vtx = .ok (q1, v1) ∧ v1.IsSeq q1 (l ++ [vtx]) ∧
      SameButLinks q q1 := by
  obtain ⟨x, hx⟩ := Csg.lookup_of_lt hv
  obtain ⟨hd, tl⟩ := v
  obtain ⟨h1, h2, h3⟩ := hs
  simp only at h1 h2
  rcases eq_nil_or_snoc l with rfl | ⟨r, t, rfl⟩
  · simp only [List.head?_nil, List.getLast?_nil] at h1 h2
    subst h1 h2
    refine ⟨q.setVertex vtx { x with prev := none, next := none }, ⟨some vtx, some vtx⟩,
      ?_, ?_, ?_⟩
    · simp only [VertexList.Add, Hull.vertex, load, hx, bind, Except.bind, pure, Except.pure]
    · refine ⟨rfl, rfl, ⟨{ x with prev := none, next := none }, ?_, rfl, rfl⟩, trivial⟩
      simp only [Hull.setVertex]
      rw [List.getElem?_set_self hv]
    · exact SameButLinks_links q vtx x none none hx
  · rw [getLast?_eq_lastOr, lastOr_append] at h2
    simp only [lastOr] at h2
    subst h2
    have hne : t ≠ vtx := fun h => hn (h ▸ by simp)
    obtain ⟨tv, htv, _, _⟩ := chain_member q.points r [] t none none h3
    have hx1 : (q.setVertex t { tv with next := some vtx }).points[vtx]? = some x := by
      simp only [Hull.setVertex]
      rw [List.getElem?_set_ne hne]
      exact hx
    obtain ⟨hh, ehh⟩ : ∃ hh, hd = some hh := by
      rw [h1]
      cases r <;> exact ⟨_, rfl⟩
    subst ehh
    refine ⟨(q.setVertex t { tv with next := some vtx }).setVertex vtx
      { x with prev := some t, next := none }, ⟨some hh, some vtx⟩, ?_, ?_, ?_⟩
    · simp only [VertexList.Add, Hull.vertex, load, htv, hx1, deref, bind, Except.bind, pure,
        Except.pure]
    · refine ⟨?_, by simp, ?_⟩
      · rw [h1]
        cases r <;> rfl
      · refine (chain_append _ (r ++ [t]) [vtx] none none).mpr ⟨?_, ?_, trivial⟩
        · exact chain_frame _ vtx _ _ _ _ hn
            (chain_set_next q.points r t none none (some vtx) tv htv
              (fun h => (List.nodup_append.mp (chain_nodup q.points _ none none
                (fun _ h => by cases h) h3)).2.2 h (List.mem_singleton_self t)) h3)
        · refine ⟨{ x with prev := some t, next := none }, ?_, ?_, rfl⟩
          · simp only [Hull.setVertex]
            rw [List.getElem?_set_self (by rw [List.length_set]; exact hv)]
          · rw [lastOr_append]
            rfl
    · exact SameButLinks_trans (SameButLinks_links q t tv tv.prev (some vtx) htv)
        (SameButLinks_links _ vtx x (some t) none hx1)

theorem vertex_set_self (q : Hull K) (a : Nat) (y : Vertex K) (ha : a < q.points.length) :
    (q.setVertex a y).vertex a = .ok y := by
  simp only [Hull.vertex, Hull.setVertex, load, List.getElem?_set_self ha]

theorem vertex_set_ne (q : Hull K) (a b : Nat) (y : Vertex K) (hne : a ≠ b) :
    (q.setVertex a y).vertex b = q.vertex b := by
  simp only [Hull.vertex, Hull.setVertex, load, List.getElem?_set_ne hne]

theorem setVertex_length (q : Hull K) (a : Nat) (y : Vertex K) :
    (q.setVertex a y).points.length = q.points.length := by
  simp only [Hull.setVertex, List.length_set]

theorem points_set_self (q : Hull K) (a : Nat) (y : Vertex K) (ha : a < q.points.length) :
    (q.setVertex a y).points[a]? = some y := by
  simp only [Hull.setVertex, List.getElem?_set_self ha]

theorem points_set_ne (q : Hull K) (a b : Nat) (y : Vertex K) (hne : a ≠ b) :
    (q.setVertex a y).points[b]? = q.points[b]? := by
  simp only [Hull.setVertex, List.getElem?_set_ne hne]

theorem chain_setVertex (q : Hull K) (a : Nat) (x : Vertex K) (l : List Nat)
    (p n : Option Nat) (ha : a ∉ l) (hc : Chain q.points p l n) :
    Chain (q.setVertex a x).points p l n :=
  chain_frame q.points a x l p n ha hc

theorem InsertBefore_seq (q : Hull K) (v : VertexList) (l1 l2 : List Nat) (vtx next : Nat)
    (hs : v.IsSeq q (l1 ++ next :: l2)) (hn : vtx ∉ l1 ++ next :: l2)
    (hv : vtx < q.points.length) :
    ∃ q1 v1, VertexList.InsertBefore q v vtx next = .ok (q1, v1) ∧
      v1.IsSeq q1 (l1 ++ vtx :: next :: l2) ∧ SameButLinks q q1 := by
  obtain ⟨x, hx⟩ := Csg.lookup_of_lt hv
  obtain ⟨hd, tl⟩ := v
  obtain ⟨h1, h2, h3⟩ := hs
  simp only at h1 h2
  have hnd := chain_nodup q.points _ none none (fun _ h => by cases h) h3
  obtain ⟨nx, hnx, np, nn⟩ := chain_member q.points l1 l2 next none none h3
  have hvn : vtx ≠ next := fun h => hn (h ▸ by simp)
  have hnl : next < q.points.length := Csg.lt_of_lookup hnx
  obtain ⟨c1, c2⟩ := (chain_append q.points l1 (next :: l2) none none).mp h3
  have hn2 : next ∉ l2 := (List.nodup_cons.mp (List.nodup_append.mp hnd).2.1).1
  have hn1 : next ∉ l1 := fun h => (List.nodup_append.mp hnd).2.2 h (List.mem_cons_self _ _)
  have hv1 : vtx ∉ l1 := fun h => hn (List.mem_append_left _ h)
  have hv2 : vtx ∉ l2 := fun h => hn (List.mem_append_right _ (List.mem_cons_of_mem _ h))
  rcases eq_nil_or_snoc l1 with rfl | ⟨r, p, rfl⟩
  · simp only [lastOr] at np
    refine ⟨((q.setVertex vtx { x with prev := none }).setVertex vtx
        { x with prev := none, next := some next }).setVertex next { nx with prev := some vtx },
      ⟨some vtx, tl⟩, ?_, ?_, ?_⟩
    · have e1 : q.vertex next = .ok nx := load_of_lookup hnx
      have e2 : q.vertex vtx = .ok x := load_of_lookup hx
      have e3 := vertex_set_self q vtx { x with prev := none } hv
      have e4 : ((q.setVertex vtx { x with prev := none }).setVertex vtx
          { x with prev := none, next := some next }).vertex next = .ok nx := by
        rw [vertex_set_ne _ vtx next _ hvn, vertex_set_ne _ vtx next _ hvn, e1]
      simp only [VertexList.InsertBefore, e1, e2, np, e3, e4, bind, Except.bind, pure,
        Except.pure]
    · refine ⟨rfl, ?_, ?_⟩
      · rw [h2]
        simp [List.getLast?_cons_cons]
      · refine ⟨⟨{ x with prev := none, next := some next }, ?_, rfl, rfl⟩, ?_⟩
        · rw [points_set_ne _ next vtx _ (Ne.symm hvn), points_set_self _ vtx _
            (by rw [setVertex_length]; exact hv)]
        · have k := chain_setVertex _ vtx { x with prev := none, next := some next } _ _ _
            (show vtx ∉ next :: l2 from fun h => hn (by simpa using h))
            (chain_setVertex q vtx { x with prev := none } _ _ _
              (show vtx ∉ next :: l2 from fun h => hn (by simpa using h)) c2)
          exact chain_set_prev _ l2 next _ (some vtx) none nx
            (by rw [points_set_ne _ vtx next _ hvn, points_set_ne _ vtx next _ hvn]; exact hnx)
            hn2 k
    · exact SameButLinks_trans (SameButLinks_trans
        (SameButLinks_links q vtx x none x.next hx)
        (SameButLinks_links _ vtx { x with prev := none } none (some next)
          (points_set_self q vtx _ hv)))
        (SameButLinks_links _ next nx (some vtx) nx.next
          (by rw [points_set_ne _ vtx next _ hvn, points_set_ne _ vtx next _ hvn]; exact hnx))
  · rw [lastOr_append] at np
    simp only [lastOr] at np
    obtain ⟨pv, hpv, _, _⟩ := chain_member q.points r [] p none _ c1
    have hpn : p ≠ next := fun h => hn1 (h ▸ by simp)
    have hpv1 : p ≠ vtx := fun h => hv1 (h ▸ by simp)
    have hp2 : p ∉ next :: l2 := fun h =>
      (List.nodup_append.mp hnd).2.2 (show p ∈ r ++ [p] by simp) h
    have hpr : p ∉ r := fun h =>
      (List.nodup_append.mp (List.nodup_append.mp hnd).1).2.2 h (List.mem_singleton_self p)
    have hvnl : vtx ∉ next :: l2 := fun h => hn (List.mem_append_right _ h)
    have e1 : q.vertex next = .ok nx := load_of_lookup hnx
    have e2 : q.vertex vtx = .ok x := load_of_lookup hx
    have e3 : (q.setVertex vtx { x with prev := some p }).vertex p = .ok pv := by
      rw [vertex_set_ne _ vtx p _ (Ne.symm hpv1)]
      exact load_of_lookup hpv
    have e4 : ((q.setVertex vtx { x with prev := some p }).setVertex p
        { pv with next := some vtx }).vertex vtx = .ok { x with prev := some p } := by
      rw [vertex_set_ne _ p vtx _ hpv1]
      exact vertex_set_self q vtx _ hv
    have e5 : (((q.setVertex vtx { x with prev := some p }).setVertex p
        { pv with next := some vtx }).setVertex vtx
          { x with prev := some p, next := some next }).vertex next = .ok nx := by
      rw [vertex_set_ne _ vtx next _ hvn, vertex_set_ne _ p next _ hpn,
        vertex_set_ne _ vtx next _ hvn, e1]
    refine ⟨(((q.setVertex vtx { x with prev := some p }).setVertex p
        { pv with next := some vtx }).setVertex vtx
          { x with prev := some p, next := some next }).setVertex next
            { nx with prev := some vtx }, ⟨hd, tl⟩, ?_, ?_, ?_⟩
    · simp only [VertexList.InsertBefore, e1, e2, np, e3, e4, e5, bind, Except.bind, pure,
        Except.pure]
    · refine ⟨?_, ?_, ?_⟩
      · rw [h1]
        cases r <;> rfl
      · rw [h2]
        simp [List.getLast?_append, List.getLast?_cons_cons]
      · refine (chain_append _ (r ++ [p]) (vtx :: next :: l2) none none).mpr ⟨?_, ?_, ?_⟩
        · refine chain_setVertex _ next _ _ _ _ hn1 (chain_setVertex _ vtx _ _ _ _ hv1 ?_)
          exact chain_set_next _ r p none _ (some vtx) pv
            (by rw [points_set_ne _ vtx p _ (Ne.symm hpv1)]; exact hpv) hpr
            (chain_setVertex q vtx _ _ _ _ hv1 c1)
        · refine ⟨{ x with prev := some p, next := some next }, ?_, ?_, rfl⟩
          · rw [points_set_ne _ next vtx _ (Ne.symm hvn), points_set_self _ vtx _
              (by rw [setVertex_length, setVertex_length]; exact hv)]
          · rw [lastOr_append]
            rfl
        · have k := chain_setVertex _ vtx { x with prev := some p, next := some next } _ _ _ hvnl
            (chain_setVertex _ p { pv with next := some vtx } _ _ _ hp2
              (chain_setVertex q vtx { x with prev := some p } _ _ _ hvnl c2))
          refine chain_set_prev _ l2 next _ (some vtx) none nx ?_ hn2 k
          rw [points_set_ne _ vtx next _ hvn, points_set_ne _ p next _ hpn,
            points_set_ne _ vtx next _ hvn]
          exact hnx
    · refine SameButLinks_trans (SameButLinks_trans (SameButLinks_trans
        (SameButLinks_links q vtx x (some p) x.next hx)
        (SameButLinks_links _ p pv pv.prev (some vtx)
          (by rw [points_set_ne _ vtx p _ (Ne.symm hpv1)]; exact hpv)))
        (SameButLinks_links _ vtx { x with prev := some p } (some p) (some next) ?_))
        (SameButLinks_links _ next nx (some vtx) nx.next ?_)
      · rw [points_set_ne _ p vtx _ hpv1]
        exact points_set_self q vtx _ hv
      · rw [points_set_ne _ vtx next _ hvn, points_set_ne _ p next _ hpn,
          points_set_ne _ vtx next _ hvn]
        exact hnx

theorem firstOr_head (mid : List Nat) (a : Nat) (n : Option Nat) (h : mid.head? = some a) :
    firstOr mid n = some a := by
  cases mid with
  | nil => cases h
  | cons b r => simpa [firstOr] using h

theorem lastOr_last (mid : List Nat) (a : Nat) (p : Option Nat) (h : mid.getLast? = some a) :
    lastOr mid p = some a := by
  rcases eq_nil_or_snoc mid with rfl | ⟨r, t, rfl⟩
  · cases h
  · rw [lastOr_append]
    simp only [List.getLast?_append, List.getLast?_singleton, Option.or_some] at h
    simpa [lastOr] using h

theorem getLast?_append_cons (a : List Nat) (n : Nat) (r : List Nat) :
    (a ++ n :: r).getLast? = (n :: r).getLast? := by
  rw [getLast?_eq_lastOr, getLast?_eq_lastOr, lastOr_append]
  rfl

theorem DeleteChain_seq (q : Hull K) (v : VertexList) (l1 mid l2 : List Nat) (vtx1 vtx2 : Nat)
    (hs : v.IsSeq q (l1 ++ mid ++ l2)) (hm1 : mid.head? = some vtx1)
    (hm2 : mid.getLast? = some vtx2) :
    ∃ q1 v1, VertexList.DeleteChain q v vtx1 vtx2 = .ok (q1, v1) ∧
      v1.IsSeq q1 (l1 ++ l2) ∧ SameButLinks q q1 ∧
      (∀ a ∈ mid, q1.points[a]? = q.points[a]?) := by
  obtain ⟨hd, tl⟩ := v
  obtain ⟨h1, h2, h3⟩ := hs
  simp only at h1 h2
  have hnd := chain_nodup q.points _ none none (fun _ h => by cases h) h3
  obtain ⟨c12, c3⟩ := (chain_append q.points (l1 ++ mid) l2 none none).mp h3
  obtain ⟨c1, c2⟩ := (chain_append q.points l1 mid none _).mp c12
  rw [lastOr_append, lastOr_last mid vtx2 _ hm2] at c3
  rw [firstOr_head mid vtx1 _ hm1] at c1
  obtain ⟨m2, rfl⟩ : ∃ m2, mid = vtx1 :: m2 := by
    cases mid with
    | nil => cases hm1
    | cons b r => simp only [List.head?_cons, Option.some.injEq] at hm1; exact ⟨r, by rw [hm1]⟩
  obtain ⟨m1, hm⟩ : ∃ m1, vtx1 :: m2 = m1 ++ [vtx2] := by
    rcases eq_nil_or_snoc (vtx1 :: m2) with h | ⟨r, t, h⟩
    · cases h
    · rw [h] at hm2
      simp only [List.getLast?_append, List.getLast?_singleton, Option.or_some,
        Option.some.injEq] at hm2
      exact ⟨r, by rw [h, hm2]⟩
  obtain ⟨x1, hx1, p1, _⟩ := c2.1
  have c2b := c2
  rw [hm] at c2b
  obtain ⟨x2, hx2, _, n2⟩ := chain_member q.points m1 [] vtx2 _ _ c2b
  simp only [firstOr] at n2
  have e1 : q.vertex vtx1 = .ok x1 := load_of_lookup hx1
  have e2 : q.vertex vtx2 = .ok x2 := load_of_lookup hx2
  have d1 : ∀ a ∈ l1, a ∉ vtx1 :: m2 := fun a ha hb =>
    (List.nodup_append.mp (List.nodup_append.mp hnd).1).2.2 ha hb
  have d2 : ∀ a ∈ l2, a ∉ vtx1 :: m2 := fun a ha hb =>
    (List.nodup_append.mp hnd).2.2 (List.mem_append_right _ hb) ha
  have d3 : ∀ a ∈ l1, a ∉ l2 := fun a ha hb =>
    (List.nodup_append.mp hnd).2.2 (List.mem_append_left _ ha) hb
  have nd1 : l1.Nodup := (List.nodup_append.mp (List.nodup_append.mp hnd).1).1
  have nd2 : l2.Nodup := (List.nodup_append.mp hnd).2.1
  rcases eq_nil_or_snoc l1 with rfl | ⟨r, p, rfl⟩
  · simp only [lastOr] at p1
    cases l2 with
    | nil =>
      simp only [firstOr] at n2
      refine ⟨q, ⟨none, none⟩, ?_, ⟨rfl, rfl, trivial⟩, SameButLinks_refl q, fun _ _ => rfl⟩
      simp only [VertexList.DeleteChain, e1, e2, p1, n2, bind, Except.bind, pure, Except.pure]
    | cons n r2 =>
      simp only [firstOr] at n2
      obtain ⟨nv, hnv, _, _⟩ := c3.1
      have e3 : q.vertex n = .ok nv := load_of_lookup hnv
      refine ⟨q.setVertex n { nv with prev := none }, ⟨some n, tl⟩, ?_, ⟨rfl, ?_, ?_⟩,
        SameButLinks_links q n nv none nv.next hnv, ?_⟩
      · simp only [VertexList.DeleteChain, e1, e2, p1, n2, e3, bind, Except.bind, pure,
          Except.pure]
      · rw [h2, getLast?_append_cons]
        rfl
      · exact chain_set_prev q.points r2 n _ none none nv hnv (List.nodup_cons.mp nd2).1 c3
      · intro a ha
        exact points_set_ne q n a _ (fun h => d2 n (List.mem_cons_self _ _) (h ▸ ha))
  · rw [lastOr_append] at p1
    simp only [lastOr] at p1
    obtain ⟨pv, hpv, _, _⟩ := chain_member q.points r [] p none _ c1
    have hpr : p ∉ r := fun h => (List.nodup_append.mp nd1).2.2 h (List.mem_singleton_self p)
    have e3 : q.vertex p = .ok pv := load_of_lookup hpv
    cases l2 with
    | nil =>
      simp only [firstOr] at n2
      refine ⟨q.setVertex p { pv with next := none }, ⟨hd, some p⟩, ?_, ⟨?_, ?_, ?_⟩,
        SameButLinks_links q p pv pv.prev none hpv, ?_⟩
      · simp only [VertexList.DeleteChain, e1, e2, p1, n2, e3, bind, Except.bind, pure,
          Except.pure]
      · rw [h1]
        cases r <;> rfl
      · simp [List.getLast?_append]
      · rw [List.append_nil]
        exact chain_set_next q.points r p none _ none pv hpv hpr c1
      · intro a ha
        exact points_set_ne q p a _ (fun h => d1 p (by simp) (h ▸ ha))
    | cons n r2 =>
      simp only [firstOr] at n2
      obtain ⟨nv, hnv, _, _⟩ := c3.1
      have hpn : p ≠ n := fun h => d3 p (by simp) (h ▸ List.mem_cons_self _ _)
      have e4 : (q.setVertex p { pv with next := some n }).vertex n = .ok nv := by
        rw [vertex_set_ne _ p n _ hpn]
        exact load_of_lookup hnv
      refine ⟨(q.setVertex p { pv with next := some n }).setVertex n { nv with prev := some p },
        ⟨hd, tl⟩, ?_, ⟨?_, ?_, ?_⟩, ?_, ?_⟩
      · simp only [VertexList.DeleteChain, e1, e2, p1, n2, e3, e4, bind, Except.bind, pure,
          Except.pure]
      · rw [h1]
        cases r <;> rfl
      · rw [h2, getLast?_append_cons, getLast?_append_cons]
      · refine (chain_append _ (r ++ [p]) (n :: r2) none none).mpr ⟨?_, ?_⟩
        · exact chain_setVertex _ n _ _ _ _ (fun h => d3 n h (List.mem_cons_self _ _))
            (chain_set_next q.points r p none _ (some n) pv hpv hpr c1)
        · rw [lastOr_append]
          have k := chain_setVertex q p { pv with next := some n } _ _ _
            (fun h => d3 p (by simp) h) c3
          exact chain_set_prev _ r2 n _ (some p) none nv
            (by rw [points_set_ne _ p n _ hpn]; exact hnv) (List.nodup_cons.mp nd2).1 k
      · exact SameButLinks_trans (SameButLinks_links q p pv pv.prev (some n) hpv)
          (SameButLinks_links _ n nv (some p) nv.next
            (by rw [points_set_ne _ p n _ hpn]; exact hnv))
      · intro a ha
        rw [points_set_ne _ n a _ (fun h => d2 n (List.mem_cons_self _ _) (h ▸ ha)),
          points_set_ne q p a _ (fun h => d1 p (by simp) (h ▸ ha))]

theorem Delete_eq_DeleteChain (q : Hull K) (v : VertexList) (vtx : Nat) :
    VertexList.Delete q v vtx = VertexList.DeleteChain q v vtx vtx := by
  unfold VertexList.Delete VertexList.DeleteChain
  cases q.vertex vtx with
  | error e => rfl
  | ok x => rfl

theorem Delete_seq (q : Hull K) (v : VertexList) (l1 l2 : List Nat) (vtx : Nat)
    (hs : v.IsSeq q (l1 ++ vtx :: l2)) :
    ∃ q1 v1, VertexList.Delete q v vtx = .ok (q1, v1) ∧ v1.IsSeq q1 (l1 ++ l2) ∧
      SameButLinks q q1 ∧ q1.points[vtx]? = q.points[vtx]? := by
  rw [Delete_eq_DeleteChain]
  obtain ⟨q1, v1, e, k1, k2, k3⟩ := DeleteChain_seq q v l1 [vtx] l2 vtx vtx
    (by simpa using hs) rfl rfl
  exact ⟨q1, v1, e, k1, k2, k3 vtx (List.mem_singleton_self _)⟩

/-- A chain whose last `next` is no member of it has no vertex twice. -/
theorem chain_nodup_next (pts : List (Vertex K)) (l : List Nat) (p n : Option Nat)
    (hn : ∀ a, n = some a → a ∉ l) (hc : Chain pts p l n) : l.Nodup := by
  induction l using List.reverseRecOn generalizing n with
  | nil => exact List.nodup_nil
  | append_singleton r a ih =>
    obtain ⟨c1, c2⟩ := (chain_append pts r [a] p n).mp hc
    simp only [firstOr] at c1
    have har : a ∉ r := by
      intro hm
      obtain ⟨r1, r2, rfl⟩ := List.append_of_mem hm
      obtain ⟨x, e, _, h1⟩ := c2.1
      obtain ⟨y, e2, _, h3⟩ := chain_member pts r1 r2 a p (some a) c1
      rw [e] at e2
      cases e2
      rw [h1] at h3
      simp only [firstOr] at h3
      cases r2 with
      | nil => exact hn a h3 (by simp)
      | cons b r3 => exact hn b h3 (by simp)
    refine List.nodup_append.mpr ⟨ih (some a) (fun b hb => by cases hb; exact har) c1,
      List.nodup_singleton a, ?_⟩
    intro b hb hb2
    rw [List.mem_singleton] at hb2
    exact har (hb2 ▸ hb)

/-- The loop of `AddAll` stops at the last vertex of a chain that ends in nil. -/
theorem lastOfChain_spec (q : Hull K) :
    ∀ (c : List Nat) (a : Nat) (p : Option Nat) (fuel : Nat),
      Chain q.points p (a :: c) none → c.length < fuel →
      lastOfChain q fuel a = .ok ((a :: c).getLast (List.cons_ne_nil a c))
  | [], a, p, fuel + 1, hc, _ => by
    obtain ⟨x, e, _, hn⟩ := hc.1
    simp only [firstOr] at hn
    simp only [lastOfChain, Hull.vertex, load_of_lookup e, hn, bind, Except.bind, pure,
      Except.pure, List.getLast_singleton]
  | b :: r, a, p, fuel + 1, hc, hf => by
    obtain ⟨x, e, _, hn⟩ := hc.1
    simp only [firstOr] at hn
    have ih := lastOfChain_spec q r b (some a) fuel hc.2
      (by simp only [List.length_cons] at hf; omega)
    simp only [lastOfChain, Hull.vertex, load_of_lookup e, hn, bind, Except.bind]
    rw [ih]
    rfl

theorem AddAll_seq (fuel : Nat) (q : Hull K) (v : VertexList) (l c : List Nat) (vtx : Nat)
    (cp : Option Nat) (hs : v.IsSeq q l) (hc : Chain q.points cp (vtx :: c) none)
    (hd : ∀ a ∈ l, a ∉ vtx :: c) (hf : c.length < fuel) :
    ∃ q1 v1, VertexList.AddAll fuel q v vtx = .ok (q1, v1) ∧ v1.IsSeq q1 (l ++ vtx :: c) ∧
      SameButLinks q q1 := by
  obtain ⟨hd0, tl⟩ := v
  obtain ⟨h1, h2, h3⟩ := hs
  simp only at h1 h2
  have hcn := chain_nodup_next q.points _ cp none (fun _ h => by cases h) hc
  have hvc : vtx ∉ c := (List.nodup_cons.mp hcn).1
  obtain ⟨x, hx, _, _⟩ := hc.1
  have hv : vtx < q.points.length := Csg.lt_of_lookup hx
  rcases eq_nil_or_snoc l with rfl | ⟨r, t, rfl⟩
  · simp only [List.head?_nil, List.getLast?_nil] at h1 h2
    subst h1 h2
    have k := chain_set_prev q.points c vtx cp none none x hx hvc hc
    refine ⟨q.setVertex vtx { x with prev := none },
      ⟨some vtx, some ((vtx :: c).getLast (List.cons_ne_nil vtx c))⟩, ?_, ⟨rfl, ?_, k⟩,
      SameButLinks_links q vtx x none x.next hx⟩
    · have e1 : q.vertex vtx = .ok x := load_of_lookup hx
      have e2 := lastOfChain_spec (q.setVertex vtx { x with prev := none }) c vtx none fuel k hf
      simp only [VertexList.AddAll, e1, e2, bind, Except.bind, pure, Except.pure]
    · simp only [List.nil_append]
      rw [List.getLast?_eq_getLast _ (List.cons_ne_nil vtx c)]
  · rw [getLast?_eq_lastOr, lastOr_append] at h2
    simp only [lastOr] at h2
    subst h2
    have hnd := chain_nodup q.points _ none none (fun _ h => by cases h) h3
    have htr : t ∉ r := fun h => (List.nodup_append.mp hnd).2.2 h (List.mem_singleton_self t)
    have htc : t ∉ vtx :: c := hd t (by simp)
    have hne : t ≠ vtx := fun h => htc (h ▸ List.mem_cons_self _ _)
    obtain ⟨tv, htv, _, _⟩ := chain_member q.points r [] t none none h3
    obtain ⟨hh, ehh⟩ : ∃ hh, hd0 = some hh := by
      rw [h1]
      cases r <;> exact ⟨_, rfl⟩
    subst ehh
    have hx1 : (q.setVertex t { tv with next := some vtx }).points[vtx]? = some x := by
      rw [points_set_ne _ t vtx _ hne]
      exact hx
    have k := chain_set_prev _ c vtx cp (some t) none x hx1 hvc
      (chain_setVertex q t { tv with next := some vtx } _ _ _ htc hc)
    refine ⟨(q.setVertex t { tv with next := some vtx }).setVertex vtx { x with prev := some t },
      ⟨some hh, some ((vtx :: c).getLast (List.cons_ne_nil vtx c))⟩, ?_, ⟨?_, ?_, ?_⟩, ?_⟩
    · have e1 : q.vertex t = .ok tv := load_of_lookup htv
      have e2 : (q.setVertex t { tv with next := some vtx }).vertex vtx = .ok x :=
        load_of_lookup hx1
      have e3 := lastOfChain_spec ((q.setVertex t { tv with next := some vtx }).setVertex vtx
        { x with prev := some t }) c vtx (some t) fuel k hf
      simp only [VertexList.AddAll, deref, e1, e2, e3, bind, Except.bind, pure, Except.pure]
    · rw [h1]
      cases r <;> rfl
    · rw [getLast?_append_cons, List.getLast?_eq_getLast _ (List.cons_ne_nil vtx c)]
    · refine (chain_append _ (r ++ [t]) (vtx :: c) none none).mpr ⟨?_, ?_⟩
      · exact chain_setVertex _ vtx _ _ _ _
          (fun h => hd vtx h (List.mem_cons_self _ _))
          (chain_set_next q.points r t none none (some vtx) tv htv htr h3)
      · rw [lastOr_append]
        exact k
    · exact SameButLinks_trans (SameButLinks_links q t tv tv.prev (some vtx) htv)
        (SameButLinks_links _ vtx x (some t) x.next hx1)

/-- Claim C34.  On a well-formed list `v` whose members are, in order, the
vertices `l` (which are then distinct): `Add` of a stored vertex that is no
member returns and leaves the members `l ++ [vtx]`; `InsertBefore` of such a
vertex before the member `next` leaves it immediately before `next`; `Delete`
of a member leaves the others; `DeleteChain` leaves the members outside the
contiguous run from `vtx1` to `vtx2`; `AddAll` of a chain that ends in nil and
shares no vertex with the list (with fuel for its length) leaves `l` followed
by the chain.  Each result is a well-formed list with the other members in
their order, and only `prev` and `next` fields of vertices are written. -/
theorem VertexList_is_sequence (q : Hull K) (v : VertexList) (l : List Nat)
    (hs : v.IsSeq q l) :
    l.Nodup ∧
    (∀ vtx, vtx ∉ l → vtx < q.points.length →
      ∃ q1 v1, VertexList.Add q v vtx = .ok (q1, v1) ∧ v1.IsSeq q1 (l ++ [vtx]) ∧
        SameButLinks q q1) ∧
    (∀ l1 l2 vtx next, l = l1 ++ next :: l2 → vtx ∉ l → vtx < q.points.length →
      ∃ q1 v1, VertexList.InsertBefore q v vtx next = .ok (q1, v1) ∧
        v1.IsSeq q1 (l1 ++ vtx :: next :: l2) ∧ SameButLinks q q1) ∧
    (∀ l1 l2 vtx, l = l1 ++ vtx :: l2 →
      ∃ q1 v1, VertexList.Delete q v vtx = .ok (q1, v1) ∧ v1.IsSeq q1 (l1 ++ l2) ∧
        SameButLinks q q1) ∧
    (∀ l1 mid l2 vtx1 vtx2, l = l1 ++ mid ++ l2 → mid.head? = some vtx1 →
      mid.getLast? = some vtx2 →
      ∃ q1 v1, VertexList.DeleteChain q v vtx1 vtx2 = .ok (q1, v1) ∧ v1.IsSeq q1 (l1 ++ l2) ∧
        SameButLinks q q1) ∧
    (∀ fuel c vtx cp, Chain q.points cp (vtx :: c) none → (∀ a ∈ l, a ∉ vtx :: c) →
      c.length < fuel →
      ∃ q1 v1, VertexList.AddAll fuel q v vtx = .ok (q1, v1) ∧ v1.IsSeq q1 (l ++ vtx :: c) ∧
        SameButLinks q q1) := by
  refine ⟨IsSeq_nodup hs, ?_, ?_, ?_, ?_, ?_⟩
  · intro vtx hn hv
    exact Add_seq q v l vtx hs hn hv
  · intro l1 l2 vtx next e hn hv
    subst e
    exact InsertBefore_seq q v l1 l2 vtx next hs hn hv
  · intro l1 l2 vtx e
    subst e
    obtain ⟨q1, v1, k1, k2, k3, _⟩ := Delete_seq q v l1 l2 vtx hs
    exact ⟨q1, v1, k1, k2, k3⟩
  · intro l1 mid l2 vtx1 vtx2 e hm1 hm2
    subst e
    obtain ⟨q1, v1, k1, k2, k3, _⟩ := DeleteChain_seq q v l1 mid l2 vtx1 vtx2 hs hm1 hm2
    exact ⟨q1, v1, k1, k2, k3⟩
  · intro fuel c vtx cp hc hd hf
    exact AddAll_seq fuel q v l c vtx cp hs hc hd hf

theorem claimedHull_seq : claimedHull.claimed.IsSeq claimedHull [0, 1] :=
  ⟨rfl, rfl, ⟨_, rfl, rfl, rfl⟩, ⟨_, rfl, rfl, rfl⟩, trivial⟩

/-- The theorem on the list `[0, 1]` of `claimedHull`, to which vertex 2 is
added. -/
theorem VertexList_is_sequence_witness :
    claimedHull.claimed.IsSeq claimedHull [0, 1] ∧ [0, 1].Nodup ∧
      ∃ q1 v1, VertexList.Add claimedHull claimedHull.claimed 2 = .ok (q1, v1) ∧
        v1.IsSeq q1 ([0, 1] ++ [2]) ∧ SameButLinks claimedHull q1 :=
  ⟨claimedHull_seq, (VertexList_is_sequence claimedHull claimedHull.claimed [0, 1]
      claimedHull_seq).1,
    (VertexList_is_sequence claimedHull claimedHull.claimed [0, 1] claimedHull_seq).2.1 2
      (by decide) (by decide)⟩

end Sequence2

end Qhull

namespace Qhull

open Csg (Vector Err)

section Runs

variable {K : Type} [LinearOrderedField K]

theorem HasFace_same {q q1 : Hull K}
    (h : q1.points.map (fun x => (x.point, x.index, x.face)) =
      q.points.map (fun x => (x.point, x.index, x.face))) (v f : Nat) :
    HasFace q1 v f ↔ HasFace q v f := by
  have e := congrArg (fun l => l[v]?) h
  simp only [List.getElem?_map] at e
  unfold HasFace
  cases e1 : q1.points[v]? with
  | none =>
    cases e2 : q.points[v]? with
    | none => simp
    | some y => rw [e1, e2] at e; simp at e
  | some x =>
    cases e2 : q.points[v]? with
    | none => rw [e1, e2] at e; simp at e
    | some y =>
      rw [e1, e2] at e
      simp only [Option.map_some', Option.some.injEq, Prod.mk.injEq] at e
      simp only [Option.some.injEq, exists_eq_left', e.2.2]

theorem HasFace_links {q q1 : Hull K} (h : SameButLinks q q1) (v f : Nat) :
    HasFace q1 v f ↔ HasFace q v f :=
  HasFace_same h.2 v f

theorem faceStore_links {q q1 : Hull K} (h : SameButLinks q q1) : q1.faceStore = q.faceStore :=
  (congrArg Hull.faceStore h.1).trans rfl

theorem RunOf_congr (q q1 : Hull K) (l : List Nat) (g : Nat) (og : Option Nat)
    (hH : ∀ v, HasFace q1 v g ↔ HasFace q v g) (hr : RunOf q l g og) : RunOf q1 l g og := by
  cases og with
  | none => exact fun v hv k => hr v hv ((hH v).mp k)
  | some o =>
    obtain ⟨a, rg, b, e, hin, hout⟩ := hr
    exact ⟨a, rg, b, e, fun v hv => (hH v).mpr (hin v hv), fun v hv k => hout v hv ((hH v).mp k)⟩

theorem length_links {q q1 : Hull K} (h : SameButLinks q q1) :
    q1.points.length = q.points.length := by
  have e := congrArg List.length h.2
  simpa using e

/-- In a list without repetition the place of an element is unique. -/
theorem split_unique {α : Type} (o : α) :
    ∀ (l1 r1 l2 r2 : List α), (l1 ++ o :: r1).Nodup → l1 ++ o :: r1 = l2 ++ o :: r2 →
      l1 = l2 ∧ r1 = r2
  | [], r1, [], r2, _, e => by
    simp only [List.nil_append, List.cons.injEq, true_and] at e
    exact ⟨rfl, e⟩
  | [], r1, b :: l2, r2, hnd, e => by
    simp only [List.nil_append, List.cons_append, List.cons.injEq] at e
    obtain ⟨rfl, rfl⟩ := e
    simp at hnd
  | a :: l1, r1, [], r2, hnd, e => by
    simp only [List.nil_append, List.cons_append, List.cons.injEq] at e
    obtain ⟨rfl, rfl⟩ := e
    simp at hnd
  | a :: l1, r1, b :: l2, r2, hnd, e => by
    simp only [List.cons_append, List.cons.injEq] at e
    obtain ⟨rfl, e⟩ := e
    obtain ⟨k1, k2⟩ := split_unique o l1 r1 l2 r2 (List.nodup_cons.mp hnd).2 e
    exact ⟨by rw [k1], k2⟩

/-- Inserting a vertex that has not the face `g`, at the end of the list or
before a member that has not the face `g`, keeps the run of `g`. -/
theorem RunOf_insert (q q1 : Hull K) (l1 l2 : List Nat) (vtx g : Nat) (og : Option Nat)
    (hH : ∀ v, v ≠ vtx → (HasFace q1 v g ↔ HasFace q v g)) (hvg : ¬ HasFace q1 vtx g)
    (hnd : (l1 ++ l2).Nodup) (hn : vtx ∉ l1 ++ l2)
    (ho : ∀ o r, l2 = o :: r → ¬ HasFace q o g)
    (hr : RunOf q (l1 ++ l2) g og) : RunOf q1 (l1 ++ vtx :: l2) g og := by
  have hne : ∀ v ∈ l1 ++ l2, v ≠ vtx := fun v hv h => hn (h ▸ hv)
  cases og with
  | none =>
    intro v hv
    rcases List.mem_append.mp hv with h | h
    · exact fun k => hr v (List.mem_append_left _ h)
        ((hH v (hne v (List.mem_append_left _ h))).mp k)
    · rcases List.mem_cons.mp h with rfl | h
      · exact hvg
      · exact fun k => hr v (List.mem_append_right _ h)
          ((hH v (hne v (List.mem_append_right _ h))).mp k)
  | some o =>
    obtain ⟨a, rg, b, e, hin, hout⟩ := hr
    have hmem : ∀ v, v ∈ a ∨ v ∈ o :: rg ∨ v ∈ b → v ∈ l1 ++ l2 := by
      intro v hv
      rw [e]
      simp only [List.mem_append, List.mem_cons] at hv ⊢
      tauto
    have hin1 : ∀ v ∈ o :: rg, HasFace q1 v g := fun v hv =>
      (hH v (hne v (hmem v (Or.inr (Or.inl hv))))).mpr (hin v hv)
    have hout1 : ∀ v, v ∈ a ∨ v ∈ b → ¬ HasFace q1 v g := fun v hv k =>
      hout v hv ((hH v (hne v (hmem v (by tauto)))).mp k)
    cases l2 with
    | nil =>
      rw [List.append_nil] at e
      refine ⟨a, rg, b ++ [vtx], ?_, hin1, ?_⟩
      · rw [e]
        simp
      · intro v hv
        rcases hv with h | h
        · exact hout1 v (Or.inl h)
        · rcases List.mem_append.mp h with h | h
          · exact hout1 v (Or.inr h)
          · rw [List.mem_singleton] at h
            rw [h]
            exact hvg
    | cons x r =>
      have hx := ho x r rfl
      have hxm : x ∈ a ++ (o :: rg ++ b) := by
        rw [← e]
        simp
      have hxab : x ∈ a ∨ x ∈ b := by
        simp only [List.mem_append, List.mem_cons] at hxm
        rcases hxm with h | (h | h) | h
        · exact Or.inl h
        · exact absurd (hin x (by rw [h]; exact List.mem_cons_self _ _)) hx
        · exact absurd (hin x (List.mem_cons_of_mem _ h)) hx
        · exact Or.inr h
      rcases hxab with h | h
      · obtain ⟨a1, a2, rfl⟩ := List.append_of_mem h
        have e2 : l1 ++ x :: r = a1 ++ x :: (a2 ++ (o :: rg ++ b)) := by
          rw [e]
          simp
        obtain ⟨rfl, rfl⟩ := split_unique x _ _ _ _ hnd e2
        refine ⟨l1 ++ vtx :: x :: a2, rg, b, by simp, hin1, ?_⟩
        intro v hv
        rcases hv with h | h
        · simp only [List.mem_append, List.mem_cons] at h
          rcases h with h | rfl | rfl | h
          · exact hout1 v (Or.inl (by simp [h]))
          · exact hvg
          · exact hout1 v (Or.inl (by simp))
          · exact hout1 v (Or.inl (by simp [h]))
        · exact hout1 v (Or.inr h)
      · obtain ⟨b1, b2, rfl⟩ := List.append_of_mem h
        have e2 : l1 ++ x :: r = (a ++ (o :: rg ++ b1)) ++ x :: b2 := by
          rw [e]
          simp
        obtain ⟨rfl, rfl⟩ := split_unique x _ _ _ _ hnd e2
        refine ⟨a, rg, b1 ++ vtx :: x :: r, by simp, hin1, ?_⟩
        intro v hv
        rcases hv with h | h
        · exact hout1 v (Or.inl h)
        · simp only [List.mem_append, List.mem_cons] at h
          rcases h with h | rfl | rfl | h
          · exact hout1 v (Or.inr (by simp [h]))
          · exact hvg
          · exact hout1 v (Or.inr (by simp))
          · exact hout1 v (Or.inr (by simp [h]))

/-- Removing a contiguous block of members none of which has the face `g`
keeps the run of `g`. -/
theorem RunOf_remove (q q1 : Hull K) (l1 F l2 : List Nat) (g : Nat) (og : Option Nat)
    (hH : ∀ v, HasFace q1 v g ↔ HasFace q v g)
    (hnd : (l1 ++ (F ++ l2)).Nodup) (hF : ∀ v ∈ F, ¬ HasFace q v g)
    (hr : RunOf q (l1 ++ (F ++ l2)) g og) : RunOf q1 (l1 ++ l2) g og := by
  cases F with
  | nil => exact RunOf_congr q q1 _ g og hH hr
  | cons f0 F1 =>
  cases og with
  | none =>
    intro v hv k
    refine hr v ?_ ((hH v).mp k)
    simp only [List.mem_append] at hv ⊢
    tauto
  | some o =>
    obtain ⟨a, rg, b, e, hin, hout⟩ := hr
    have hin1 : ∀ v ∈ o :: rg, HasFace q1 v g := fun v hv => (hH v).mpr (hin v hv)
    have hout1 : ∀ v, v ∈ a ∨ v ∈ b → ¬ HasFace q1 v g := fun v hv k =>
      hout v hv ((hH v).mp k)
    have hoF : o ∉ f0 :: F1 := fun h => hF o h (hin o (List.mem_cons_self _ _))
    have hom : o ∈ l1 ++ (f0 :: F1 ++ l2) := by
      rw [e]
      simp
    have ho12 : o ∈ l1 ∨ o ∈ l2 := by
      simp only [List.mem_append] at hom
      rcases hom with h | h | h
      · exact Or.inl h
      · exact absurd h hoF
      · exact Or.inr h
    rcases ho12 with h | h
    · obtain ⟨p, s, rfl⟩ := List.append_of_mem h
      have e2 : p ++ o :: (s ++ (f0 :: F1 ++ l2)) = a ++ o :: (rg ++ b) := by
        simpa using e
      obtain ⟨rfl, e3⟩ := split_unique o _ _ _ _ (by simpa using hnd) e2
      rcases List.append_eq_append_iff.mp e3 with ⟨c, k1, k2⟩ | ⟨c, k1, k2⟩
      · cases c with
        | nil =>
          rw [List.append_nil] at k1
          rw [List.nil_append] at k2
          subst k1
          refine ⟨p, rg, l2, by simp, hin1, ?_⟩
          intro v hv
          rcases hv with h | h
          · exact hout1 v (Or.inl h)
          · exact hout1 v (Or.inr (by rw [← k2]; simp [h]))
        | cons c0 c1 =>
          exfalso
          simp only [List.cons_append, List.cons.injEq] at k2
          obtain ⟨rfl, _⟩ := k2
          exact hF f0 (List.mem_cons_self _ _)
            (hin f0 (List.mem_cons_of_mem _ (by rw [k1]; simp)))
      · subst k1
        refine ⟨p, rg, c ++ l2, by simp, hin1, ?_⟩
        intro v hv
        rcases hv with h | h
        · exact hout1 v (Or.inl h)
        · refine hout1 v (Or.inr ?_)
          rw [k2]
          simp only [List.mem_append] at h ⊢
          tauto
    · obtain ⟨p, s, rfl⟩ := List.append_of_mem h
      have e2 : (l1 ++ (f0 :: F1 ++ p)) ++ o :: s = a ++ o :: (rg ++ b) := by
        simpa using e
      obtain ⟨rfl, rfl⟩ := split_unique o _ _ _ _ (by simpa using hnd) e2
      refine ⟨l1 ++ p, rg, b, by simp, hin1, ?_⟩
      intro v hv
      rcases hv with h | h
      · refine hout1 v (Or.inl ?_)
        simp only [List.mem_append] at h ⊢
        tauto
      · exact hout1 v (Or.inr h)

end Runs

section Runs2

variable {K : Type} [LinearOrderedField K]

theorem HasFace_unique {q : Hull K} {v f g : Nat} (h1 : HasFace q v f) (h2 : HasFace q v g) :
    f = g := by
  obtain ⟨x, e1, k1⟩ := h1
  obtain ⟨y, e2, k2⟩ := h2
  rw [e1] at e2
  cases e2
  rw [k1] at k2
  exact Option.some.inj k2

theorem HasFace_points {q q1 : Hull K} (e : q1.points = q.points) (v f : Nat) :
    HasFace q1 v f ↔ HasFace q v f := by
  unfold HasFace
  rw [e]

/-- `addPointToFace` on a stored vertex that is no member of the claimed list,
for a face whose run is intact: the vertex is inserted at the start of the run
and becomes the face's `outside`; what holds of the members of any other face
is kept. -/
theorem addPointToFace_run (q : Hull K) (l : List Nat) (vtx face : Nat) (fr : Face K)
    (hs : q.claimed.IsSeq q l) (hfr : q.faceStore[face]? = some fr)
    (hro : RunOf q l face fr.outside) (hn : vtx ∉ l) (hv : vtx < q.points.length) :
    ∃ q1 l1 l2, addPointToFace q vtx face = .ok q1 ∧ l = l1 ++ l2 ∧
      q1.claimed.IsSeq q1 (l1 ++ vtx :: l2) ∧ OutsideSetTo q q1 face (some vtx) ∧
      RunOf q1 (l1 ++ vtx :: l2) face (some vtx) ∧
      ∀ g og, g ≠ face → RunOf q l g og → RunOf q1 (l1 ++ vtx :: l2) g og := by
  obtain ⟨x, hx⟩ := Csg.lookup_of_lt hv
  have hf : face < q.faceStore.length := Csg.lt_of_lookup hfr
  have hnd := IsSeq_nodup hs
  have hsa : (q.setVertex vtx { x with face := some face }).claimed.IsSeq
      (q.setVertex vtx { x with face := some face }) l :=
    ⟨hs.1, hs.2.1, chain_setVertex q vtx _ l none none hn hs.2.2⟩
  have hHa : ∀ v g, v ≠ vtx →
      (HasFace (q.setVertex vtx { x with face := some face }) v g ↔ HasFace q v g) := by
    intro v g hne
    unfold HasFace
    rw [points_set_ne q vtx v _ (Ne.symm hne)]
  have hva : ∀ g, HasFace (q.setVertex vtx { x with face := some face }) vtx g ↔ g = face := by
    intro g
    unfold HasFace
    rw [points_set_self q vtx _ hv]
    simp only [Option.some.injEq, exists_eq_left']
    exact eq_comm
  have e1 : q.vertex vtx = .ok x := load_of_lookup hx
  have e2 : (q.setVertex vtx { x with face := some face }).face face = .ok fr :=
    load_of_lookup hfr
  have hva1 : vtx < (q.setVertex vtx { x with face := some face }).points.length := by
    rw [setVertex_length]
    exact hv
  cases hfo : fr.outside with
  | none =>
    obtain ⟨qb, v1, eb, sb, lb⟩ := Add_seq _ _ l vtx hsa hn hva1
    have e3 : ({ qb with claimed := v1 } : Hull K).face face = .ok fr := by
      refine load_of_lookup ?_
      show qb.faceStore[face]? = some fr
      rw [faceStore_links lb]
      exact hfr
    have hH1 : ∀ v g, HasFace (({ qb with claimed := v1 } : Hull K).setFace face
        { fr with outside := some vtx }) v g ↔
        HasFace (q.setVertex vtx { x with face := some face }) v g := fun v g =>
      (HasFace_points rfl v g).trans (HasFace_links lb v g)
    refine ⟨({ qb with claimed := v1 } : Hull K).setFace face { fr with outside := some vtx },
      l, [], ?_, (List.append_nil l).symm, ⟨sb.1, sb.2.1, sb.2.2⟩, ?_, ?_, ?_⟩
    · simp only [addPointToFace, e1, e2, hfo, eb, e3, bind, Except.bind, pure, Except.pure]
    · intro g gr hg
      have hg1 : (qb.faceStore.set face { fr with outside := some vtx })[g]? = some gr := hg
      rw [faceStore_links lb] at hg1
      have hg2 : (q.faceStore.set face { fr with outside := some vtx })[g]? = some gr := hg1
      by_cases hgf : g = face
      · subst hgf
        rw [List.getElem?_set_self hf] at hg2
        cases hg2
        exact Or.inl ⟨rfl, rfl⟩
      · rw [List.getElem?_set_ne (fun e => hgf e.symm)] at hg2
        exact Or.inr ⟨hgf, hg2⟩
    · have hno : RunOf q l face fr.outside := hro
      rw [hfo] at hno
      refine ⟨l, [], [], by simp, ?_, ?_⟩
      · intro v hvm
        simp only [List.mem_singleton] at hvm
        rw [hvm]
        exact (hH1 vtx face).mpr ((hva face).mpr rfl)
      · intro v hvm k
        rcases hvm with h | h
        · have hne : v ≠ vtx := fun e => hn (e ▸ h)
          exact hno v h ((hHa v face hne).mp ((hH1 v face).mp k))
        · cases h
    · intro g og hgf hg
      refine RunOf_insert q _ l [] vtx g og
        (fun v hne => (hH1 v g).trans (hHa v g hne))
        (fun k => hgf ((hva g).mp ((hH1 vtx g).mp k)))
        (by simpa using hnd) (by simpa using hn) (fun o r e => by cases e) ?_
      simpa using hg
  | some o =>
    rw [hfo] at hro
    obtain ⟨a, run, b, e, hin, hout⟩ := hro
    subst e
    obtain ⟨qb, v1, eb, sb, lb⟩ := InsertBefore_seq _ _ a (run ++ b) vtx o hsa hn hva1
    have e3 : ({ qb with claimed := v1 } : Hull K).face face = .ok fr := by
      refine load_of_lookup ?_
      show qb.faceStore[face]? = some fr
      rw [faceStore_links lb]
      exact hfr
    have hH1 : ∀ v g, HasFace (({ qb with claimed := v1 } : Hull K).setFace face
        { fr with outside := some vtx }) v g ↔
        HasFace (q.setVertex vtx { x with face := some face }) v g := fun v g =>
      (HasFace_points rfl v g).trans (HasFace_links lb v g)
    have hne : ∀ v ∈ a ++ (o :: run ++ b), v ≠ vtx := fun v hvm e => hn (e ▸ hvm)
    refine ⟨({ qb with claimed := v1 } : Hull K).setFace face { fr with outside := some vtx },
      a, o :: run ++ b, ?_, rfl, ⟨sb.1, sb.2.1, sb.2.2⟩, ?_, ?_, ?_⟩
    · simp only [addPointToFace, e1, e2, hfo, eb, e3, bind, Except.bind, pure, Except.pure]
    · intro g gr hg
      have hg1 : (qb.faceStore.set face { fr with outside := some vtx })[g]? = some gr := hg
      rw [faceStore_links lb] at hg1
      have hg2 : (q.faceStore.set face { fr with outside := some vtx })[g]? = some gr := hg1
      by_cases hgf : g = face
      · subst hgf
        rw [List.getElem?_set_self hf] at hg2
        cases hg2
        exact Or.inl ⟨rfl, rfl⟩
      · rw [List.getElem?_set_ne (fun e => hgf e.symm)] at hg2
        exact Or.inr ⟨hgf, hg2⟩
    · refine ⟨a, o :: run, b, rfl, ?_, ?_⟩
      · intro v hvm
        rcases List.mem_cons.mp hvm with h | h
        · rw [h]
          exact (hH1 vtx face).mpr ((hva face).mpr rfl)
        · exact (hH1 v face).mpr ((hHa v face (hne v (by
            simp only [List.mem_append, List.mem_cons] at h ⊢
            tauto))).mpr (hin v h))
      · intro v hvm k
        exact hout v hvm ((hHa v face (hne v (by
          simp only [List.mem_append, List.mem_cons]
          tauto))).mp ((hH1 v face).mp k))
    · intro g og hgf hg
      refine RunOf_insert q _ a (o :: run ++ b) vtx g og
        (fun v hne => (hH1 v g).trans (hHa v g hne))
        (fun k => hgf ((hva g).mp ((hH1 vtx g).mp k)))
        hnd hn ?_ hg
      intro o1 r e k
      simp only [List.cons_append, List.cons.injEq] at e
      obtain ⟨rfl, _⟩ := e
      exact hgf (HasFace_unique k (hin o (List.mem_cons_self _ _)))

theorem IsSeq_points {q q1 : Hull K} {v : VertexList} {l : List Nat}
    (e : q1.points = q.points) (h : v.IsSeq q l) : v.IsSeq q1 l := by
  unfold VertexList.IsSeq at *
  rw [e]
  exact h

/-- The second half of `removePointFromFace`: the `Delete`, after the face's
`outside` has been set to the start of what is left of its run. -/
theorem removePoint_finish (q q2 : Hull K) (l1 l2 : List Nat) (vtx face : Nat)
    (newOut : Option Nat) (hs : q.claimed.IsSeq q (l1 ++ vtx :: l2))
    (hvf : HasFace q vtx face)
    (hp : q2.points = q.points) (hc : q2.claimed = q.claimed)
    (hfs : OutsideSetTo q q2 face newOut)
    (hnew : RunOf q (l1 ++ l2) face newOut) :
    ∃ qb v1, VertexList.Delete q2 q2.claimed vtx = .ok (qb, v1) ∧
      ({ qb with claimed := v1 } : Hull K).claimed.IsSeq ({ qb with claimed := v1 } : Hull K)
        (l1 ++ l2) ∧
      OutsideSetTo q ({ qb with claimed := v1 } : Hull K) face newOut ∧
      RunOf ({ qb with claimed := v1 } : Hull K) (l1 ++ l2) face newOut ∧
      ∀ g og, g ≠ face → RunOf q (l1 ++ vtx :: l2) g og →
        RunOf ({ qb with claimed := v1 } : Hull K) (l1 ++ l2) g og := by
  have hnd := IsSeq_nodup hs
  have hs2 : q2.claimed.IsSeq q2 (l1 ++ vtx :: l2) := by
    rw [hc]
    exact IsSeq_points hp hs
  obtain ⟨qb, v1, eb, sb, lb, _⟩ := Delete_seq q2 q2.claimed l1 l2 vtx hs2
  have hH : ∀ v g, HasFace ({ qb with claimed := v1 } : Hull K) v g ↔ HasFace q v g :=
    fun v g => (HasFace_points rfl v g).trans
      ((HasFace_links lb v g).trans (HasFace_points hp v g))
  refine ⟨qb, v1, eb, ⟨sb.1, sb.2.1, sb.2.2⟩, ?_,
    RunOf_congr q _ _ face newOut (fun v => hH v face) hnew, ?_⟩
  · intro g gr hg
    have hg1 : qb.faceStore[g]? = some gr := hg
    rw [faceStore_links lb] at hg1
    exact hfs g gr hg1
  · intro g og hne hg
    exact RunOf_remove q _ l1 [vtx] l2 g og (fun v => hH v g) (by simpa using hnd)
      (fun v hv k => by
        rw [List.mem_singleton] at hv
        rw [hv] at k
        exact hne (HasFace_unique k hvf))
      (by simpa using hg)

theorem setFace_lookup (q : Hull K) (face : Nat) (fr y : Face K)
    (hfr : q.faceStore[face]? = some fr) (g : Nat) (gr : Face K)
    (hg : (q.setFace face y).faceStore[g]? = some gr) :
    (g = face ∧ gr = y) ∨ (g ≠ face ∧ q.faceStore[g]? = some gr) := by
  have hg1 : (q.faceStore.set face y)[g]? = some gr := hg
  by_cases h : g = face
  · subst h
    rw [List.getElem?_set_self (Csg.lt_of_lookup hfr)] at hg1
    exact Or.inl ⟨rfl, (Option.some.inj hg1).symm⟩
  · rw [List.getElem?_set_ne (fun e => h e.symm)] at hg1
    exact Or.inr ⟨h, hg1⟩

/-- `removePointFromFace` on a member of the claimed list, with the face of
its `face` field, whose run is intact: the member is removed, the face's
`outside` is the start of what is left of its run, and what holds of the
members of any other face is kept. -/
theorem removePointFromFace_run (q : Hull K) (l : List Nat) (vtx face : Nat) (fr : Face K)
    (hs : q.claimed.IsSeq q l) (hfr : q.faceStore[face]? = some fr)
    (hro : RunOf q l face fr.outside) (hm : vtx ∈ l) (hvf : HasFace q vtx face) :
    ∃ q1 l1 l2 newOut, removePointFromFace q vtx face = .ok q1 ∧ l = l1 ++ vtx :: l2 ∧
      q1.claimed.IsSeq q1 (l1 ++ l2) ∧ OutsideSetTo q q1 face newOut ∧
      RunOf q1 (l1 ++ l2) face newOut ∧
      ∀ g og, g ≠ face → RunOf q l g og → RunOf q1 (l1 ++ l2) g og := by
  obtain ⟨x, hx, hxf⟩ := hvf
  have hvf : HasFace q vtx face := ⟨x, hx, hxf⟩
  have e1 : q.face face = .ok fr := load_of_lookup hfr
  have e2 : q.vertex vtx = .ok x := load_of_lookup hx
  cases hfo : fr.outside with
  | none =>
    rw [hfo] at hro
    exact absurd hvf (hro vtx hm)
  | some o =>
    rw [hfo] at hro
    obtain ⟨a, run, b, e, hin, hout⟩ := hro
    subst e
    have hmr : vtx ∈ o :: run := by
      simp only [List.mem_append, List.mem_cons] at hm ⊢
      rcases hm with h | (h | h) | h
      · exact absurd hvf (hout vtx (Or.inl h))
      · exact Or.inl h
      · exact Or.inr h
      · exact absurd hvf (hout vtx (Or.inr h))
    rcases List.mem_cons.mp hmr with hvo | hvr
    · subst hvo
      obtain ⟨y, hy, _, hnx⟩ := chain_member q.points a (run ++ b) vtx none none
        (by simpa using hs.2.2)
      rw [hx] at hy
      cases hy
      cases run with
      | nil =>
        have hnew : RunOf q (a ++ ([] ++ b)) face none := by
          intro v hv
          simp only [List.nil_append, List.mem_append] at hv
          exact hout v hv
        obtain ⟨qb, v1, eb, sb, rb⟩ := removePoint_finish q
          (q.setFace face { fr with outside := none }) a ([] ++ b) vtx face none
          (by simpa using hs) hvf rfl rfl
          (fun g gr hg => by
            rcases setFace_lookup q face fr _ hfr g gr hg with ⟨k1, k2⟩ | k
            · exact Or.inl ⟨k1, by rw [k2]⟩
            · exact Or.inr k) hnew
        refine ⟨{ qb with claimed := v1 }, a, [] ++ b, none, ?_, by simp, sb, rb.1, rb.2.1,
          fun g og hg k => rb.2.2 g og hg (by simpa using k)⟩
        cases b with
        | nil =>
          simp only [List.nil_append, firstOr] at hnx
          simp only [removePointFromFace, e1, e2, hfo, hnx, if_true, bind, Except.bind, pure,
            Except.pure] at eb ⊢
          rw [eb]
        | cons n b1 =>
          simp only [List.nil_append, firstOr] at hnx
          have hnn : ¬ HasFace q n face := hout n (Or.inr (List.mem_cons_self _ _))
          obtain ⟨nv, hnv⟩ := Csg.lookup_of_lt (chain_lt q.points _ none none hs.2.2 n
            (by simp))
          have hnf : ¬ nv.face = some face := fun k => hnn ⟨nv, hnv, k⟩
          have e4 : q.vertex n = .ok nv := load_of_lookup hnv
          simp only [removePointFromFace, e1, e2, hfo, hnx, e4, hnf, if_true, if_false, bind,
            Except.bind, pure, Except.pure] at eb ⊢
          rw [eb]
      | cons r0 rr =>
        simp only [List.cons_append, firstOr] at hnx
        obtain ⟨nv, hnv, hnf⟩ := hin r0 (by simp)
        have hnew : RunOf q (a ++ (r0 :: rr ++ b)) face (some r0) :=
          ⟨a, rr, b, rfl, fun v hv => hin v (List.mem_cons_of_mem _ hv), hout⟩
        obtain ⟨qb, v1, eb, sb, rb⟩ := removePoint_finish q
          (q.setFace face { fr with outside := some r0 }) a (r0 :: rr ++ b) vtx face (some r0)
          (by simpa using hs) hvf rfl rfl
          (fun g gr hg => by
            rcases setFace_lookup q face fr _ hfr g gr hg with ⟨k1, k2⟩ | k
            · exact Or.inl ⟨k1, by rw [k2]⟩
            · exact Or.inr k) hnew
        refine ⟨{ qb with claimed := v1 }, a, r0 :: rr ++ b, some r0, ?_, by simp, sb, rb.1,
          rb.2.1, fun g og hg k => rb.2.2 g og hg (by simpa using k)⟩
        have e4 : q.vertex r0 = .ok nv := load_of_lookup hnv
        simp only [removePointFromFace, e1, e2, hfo, hnx, e4, hnf, if_true, bind, Except.bind,
          pure, Except.pure] at eb ⊢
        rw [eb]
    · obtain ⟨ra, rb0, rfl⟩ := List.append_of_mem hvr
      have hnd := IsSeq_nodup hs
      have hne : ¬ some vtx = some o := by
        intro k
        have k1 : vtx = o := Option.some.inj k
        subst k1
        have h2 : (vtx :: (ra ++ vtx :: rb0)).Nodup :=
          (List.nodup_append.mp (List.nodup_append.mp hnd).2.1).1
        simp at h2
      have hnew : RunOf q ((a ++ o :: ra) ++ (rb0 ++ b)) face fr.outside := by
        rw [hfo]
        refine ⟨a, ra ++ rb0, b, by simp, ?_, hout⟩
        intro v hv
        refine hin v ?_
        simp only [List.mem_cons, List.mem_append] at hv ⊢
        tauto
      obtain ⟨qb, v1, eb, sb, rb⟩ := removePoint_finish q q (a ++ o :: ra) (rb0 ++ b) vtx face
        fr.outside (by simpa using hs) hvf rfl rfl
        (fun g gr hg => by
          by_cases k : g = face
          · subst k
            rw [hfr] at hg
            cases hg
            exact Or.inl ⟨rfl, rfl⟩
          · exact Or.inr ⟨k, hg⟩) hnew
      refine ⟨{ qb with claimed := v1 }, a ++ o :: ra, rb0 ++ b, fr.outside, ?_, by simp, sb,
        rb.1, rb.2.1, fun g og hg k => rb.2.2 g og hg (by simpa using k)⟩
      simp only [removePointFromFace, e1, e2, hfo, if_neg hne, eb, bind, Except.bind, pure,
        Except.pure]

theorem chain_congr (pts pts1 : List (Vertex K)) (l : List Nat) (p n : Option Nat)
    (h : ∀ m ∈ l, pts1[m]? = pts[m]?) (hc : Chain pts p l n) : Chain pts1 p l n := by
  induction l generalizing p with
  | nil => trivial
  | cons a r ih =>
    obtain ⟨⟨x, e, k1, k2⟩, hr⟩ := hc
    exact ⟨⟨x, by rw [h a (List.mem_cons_self _ _)]; exact e, k1, k2⟩,
      ih (some a) (fun m hm => h m (List.mem_cons_of_mem _ hm)) hr⟩

/-- The loop of `removeAllPointsFromFace` stops at the last vertex of the run
of the face. -/
theorem endOfOutside_spec (q : Hull K) (face : Nat) (n : Option Nat)
    (hn : ∀ m, n = some m → ∃ y, q.points[m]? = some y ∧ ¬ y.face = some face) :
    ∀ (run : List Nat) (o : Nat) (p : Option Nat) (fuel : Nat),
      Chain q.points p (o :: run) n → (∀ v ∈ run, HasFace q v face) → run.length < fuel →
      endOfOutside q face fuel o = .ok ((o :: run).getLast (List.cons_ne_nil o run))
  | [], o, p, fuel + 1, hc, _, _ => by
    obtain ⟨x, e, _, hx⟩ := hc.1
    simp only [firstOr] at hx
    have e1 : q.vertex o = .ok x := load_of_lookup e
    cases n with
    | none =>
      simp only [endOfOutside, e1, hx, bind, Except.bind, pure, Except.pure,
        List.getLast_singleton]
    | some m =>
      obtain ⟨y, ey, hy⟩ := hn m rfl
      have e2 : q.vertex m = .ok y := load_of_lookup ey
      simp only [endOfOutside, e1, hx, e2, hy, if_false, bind, Except.bind, pure, Except.pure,
        List.getLast_singleton]
  | b :: r, o, p, fuel + 1, hc, hin, hf => by
    obtain ⟨x, e, _, hx⟩ := hc.1
    simp only [firstOr] at hx
    have e1 : q.vertex o = .ok x := load_of_lookup e
    obtain ⟨y, ey, hy⟩ := hin b (List.mem_cons_self _ _)
    have e2 : q.vertex b = .ok y := load_of_lookup ey
    have ih := endOfOutside_spec q face n hn r b (some o) fuel hc.2
      (fun v hv => hin v (List.mem_cons_of_mem _ hv))
      (by simp only [List.length_cons] at hf; omega)
    simp only [endOfOutside, e1, hx, e2, hy, if_true, bind, Except.bind]
    rw [ih]
    rfl

/-- `removeAllPointsFromFace` for a face whose run is intact: the run is taken
out of the claimed list as a chain ending in nil, no member has the face any
more, what holds of the members of any other face is kept, and the `outside` of
the face is returned and stays as it was. -/
theorem removeAllPointsFromFace_run (fuel : Nat) (q : Hull K) (l : List Nat) (face : Nat)
    (fr : Face K) (hs : q.claimed.IsSeq q l) (hfr : q.faceStore[face]? = some fr)
    (hro : RunOf q l face fr.outside) (hfuel : l.length ≤ fuel) :
    ∃ q1 l1 F l2, removeAllPointsFromFace fuel q face = .ok (q1, fr.outside) ∧
      l = l1 ++ (F ++ l2) ∧ F.head? = fr.outside ∧ (∀ v ∈ F, HasFace q v face) ∧
      q1.claimed.IsSeq q1 (l1 ++ l2) ∧ RunOf q1 (l1 ++ l2) face none ∧
      (∀ g og, g ≠ face → RunOf q l g og → RunOf q1 (l1 ++ l2) g og) ∧
      q1.faceStore = q.faceStore ∧ (∃ cp, Chain q1.points cp F none) := by
  have e1 : q.face face = .ok fr := load_of_lookup hfr
  have hnd := IsSeq_nodup hs
  cases hfo : fr.outside with
  | none =>
    rw [hfo] at hro
    refine ⟨q, l, [], [], ?_, by simp, rfl, by simp, by simpa using hs, by simpa using hro,
      ?_, rfl, ⟨none, trivial⟩⟩
    · simp only [removeAllPointsFromFace, e1, hfo, bind, Except.bind, pure, Except.pure]
    · intro g og _ hg
      simpa using hg
  | some o =>
    rw [hfo] at hro
    obtain ⟨a, run, b, e, hin, hout⟩ := hro
    subst e
    obtain ⟨c12, c3⟩ := (chain_append q.points a (o :: run ++ b) none none).mp hs.2.2
    obtain ⟨c2, c4⟩ := (chain_append q.points (o :: run) b _ none).mp c3
    have hnb : ∀ m, firstOr b none = some m → ∃ y, q.points[m]? = some y ∧
        ¬ y.face = some face := by
      intro m hm
      cases b with
      | nil => cases hm
      | cons b0 b1 =>
        simp only [firstOr, Option.some.injEq] at hm
        subst hm
        obtain ⟨y, ey⟩ := Csg.lookup_of_lt (chain_lt q.points _ none none hs.2.2 b0 (by simp))
        exact ⟨y, ey, fun k => hout b0 (Or.inr (List.mem_cons_self _ _)) ⟨y, ey, k⟩⟩
    have hlen : run.length < fuel := by
      simp only [List.length_append, List.length_cons] at hfuel
      omega
    have e2 := endOfOutside_spec q face (firstOr b none) hnb run o _ fuel c2
      (fun v hv => hin v (List.mem_cons_of_mem _ hv)) hlen
    obtain ⟨qb, v1, eb, sb, lb, fb⟩ := DeleteChain_seq q q.claimed a (o :: run) b o
      ((o :: run).getLast (List.cons_ne_nil o run)) (by simpa using hs) rfl
      (List.getLast?_eq_getLast _ _)
    obtain ⟨m1, hm1⟩ : ∃ m1, o :: run = m1 ++ [(o :: run).getLast (List.cons_ne_nil o run)] :=
      ⟨(o :: run).dropLast, (List.dropLast_append_getLast _).symm⟩
    generalize (o :: run).getLast (List.cons_ne_nil o run) = en at e2 eb hm1
    have hen : en ∈ o :: run := by rw [hm1]; simp
    have henl : en ∉ a ++ b := by
      intro h
      have h1 := (List.nodup_append.mp hnd).2.2
      have h2 := (List.nodup_append.mp (List.nodup_append.mp hnd).2.1).2.2
      rcases List.mem_append.mp h with h | h
      · exact h1 h (List.mem_append_left _ hen)
      · exact h2 hen h
    obtain ⟨ev, hev⟩ := Csg.lookup_of_lt (chain_lt q.points _ _ _ c2 en hen)
    have hevb : qb.points[en]? = some ev := by rw [fb en hen]; exact hev
    have e3 : ({ qb with claimed := v1 } : Hull K).vertex en = .ok ev := load_of_lookup hevb
    have e4 : (({ qb with claimed := v1 } : Hull K).setVertex en { ev with next := none }).face
        face = .ok fr := by
      refine load_of_lookup ?_
      show qb.faceStore[face]? = some fr
      rw [faceStore_links lb]
      exact hfr
    have hH : ∀ v g, HasFace (({ qb with claimed := v1 } : Hull K).setVertex en
        { ev with next := none }) v g ↔ HasFace q v g := fun v g =>
      HasFace_same ((SameButLinks_links qb en ev ev.prev none hevb).2.trans lb.2) v g
    have hnm : (m1 ++ [en]).Nodup := by
      rw [← hm1]
      exact (List.nodup_append.mp (List.nodup_append.mp hnd).2.1).1
    have henm : en ∉ m1 := fun h =>
      (List.nodup_append.mp hnm).2.2 h (List.mem_singleton_self en)
    refine ⟨({ qb with claimed := v1 } : Hull K).setVertex en { ev with next := none }, a,
      o :: run, b, ?_, rfl, rfl, hin,
      ⟨sb.1, sb.2.1, chain_frame qb.points en _ (a ++ b) none none henl sb.2.2⟩, ?_, ?_,
      (faceStore_links lb : qb.faceStore = q.faceStore), ⟨lastOr a none, ?_⟩⟩
    · simp only [removeAllPointsFromFace, e1, hfo, e2, eb, e3, e4, bind, Except.bind, pure,
        Except.pure]
    · intro v hv k
      exact hout v (List.mem_append.mp hv) ((hH v face).mp k)
    · intro g og hgf hg
      exact RunOf_remove q _ a (o :: run) b g og (fun v => hH v g) hnd
        (fun v hv k => hgf (HasFace_unique k (hin v hv))) hg
    · have k1 : Chain qb.points (lastOr a none) (o :: run) (firstOr b none) :=
        chain_congr q.points qb.points _ _ _ fb c2
      rw [hm1] at k1 ⊢
      exact chain_set_next qb.points m1 en _ _ none ev hevb henm k1

end Runs2

end Qhull
namespace Qhull

open Csg (Vector Err)

section Runs3

variable {K : Type} [LinearOrderedField K]

theorem checkChain_sound (pts : List (Vertex K)) :
    ∀ (l : List Nat) (p n : Option Nat), checkChain pts p l n = true → Chain pts p l n
  | [], _, _, _ => trivial
  | a :: rest, p, n, h => by
    rw [checkChain, Bool.and_eq_true] at h
    obtain ⟨h1, h2⟩ := h
    refine ⟨?_, checkChain_sound pts rest (some a) n h2⟩
    cases e : pts[a]? with
    | none => rw [e] at h1; exact absurd h1 (by simp)
    | some x =>
      rw [e] at h1
      simp only [Bool.and_eq_true, decide_eq_true_eq] at h1
      exact ⟨x, rfl, h1.1, h1.2⟩

theorem checkSeq_sound (q : Hull K) (l : List Nat) (h : checkSeq q l = true) :
    q.claimed.IsSeq q l := by
  simp only [checkSeq, Bool.and_eq_true, decide_eq_true_eq] at h
  exact ⟨h.1.1, h.1.2, checkChain_sound _ _ _ _ h.2⟩

theorem checkFace_iff (q : Hull K) (f v : Nat) : checkFace q f v = true ↔ HasFace q v f := by
  unfold checkFace HasFace
  cases q.points[v]? with
  | none => simp
  | some x => simp

theorem checkRunAt_sound (q : Hull K) (f o : Nat) :
    ∀ l : List Nat, checkRunAt q f o l = true → RunOf q l f (some o)
  | [], h => by simp [checkRunAt] at h
  | a :: t, h => by
    rw [checkRunAt] at h
    by_cases ha : a = o
    · rw [if_pos ha] at h
      subst ha
      simp only [Bool.and_eq_true, List.all_eq_true, Bool.not_eq_true'] at h
      refine ⟨[], t.takeWhile (checkFace q f), t.dropWhile (checkFace q f), ?_, ?_, ?_⟩
      · simp [List.takeWhile_append_dropWhile]
      · intro v hv
        rcases List.mem_cons.mp hv with rfl | hv
        · exact (checkFace_iff q f _).mp h.1
        · exact (checkFace_iff q f v).mp (List.mem_takeWhile_imp hv)
      · intro v hv k
        rcases hv with hv | hv
        · cases hv
        · have h3 := h.2 v hv
          rw [(checkFace_iff q f v).mpr k] at h3
          cases h3
    · rw [if_neg ha] at h
      simp only [Bool.and_eq_true, Bool.not_eq_true'] at h
      obtain ⟨l1, run, l2, e, hin, hout⟩ := checkRunAt_sound q f o t h.2
      refine ⟨a :: l1, run, l2, by rw [e]; rfl, hin, ?_⟩
      intro v hv k
      rcases hv with hv | hv
      · rcases List.mem_cons.mp hv with rfl | hv
        · have h3 := h.1
          rw [(checkFace_iff q f _).mpr k] at h3
          cases h3
        · exact hout v (Or.inl hv) k
      · exact hout v (Or.inr hv) k

theorem checkRun_sound (q : Hull K) (l : List Nat) (f : Nat) (o : Option Nat)
    (h : checkRun q l f o = true) : RunOf q l f o := by
  cases o with
  | none =>
    simp only [checkRun, List.all_eq_true, Bool.not_eq_true'] at h
    intro v hv k
    have h3 := h v hv
    rw [(checkFace_iff q f v).mpr k] at h3
    cases h3
  | some o => exact checkRunAt_sound q f o l h

theorem checkRuns_sound (q : Hull K) (l : List Nat) (h : checkRuns q l = true) :
    ClaimedRuns q l := by
  intro f fr hf
  simp only [checkRuns, List.all_eq_true, List.mem_range] at h
  have h3 := h f (Csg.lt_of_lookup hf)
  rw [hf] at h3
  simp only [Bool.or_eq_true] at h3
  exact h3.imp (checkRun_sound q l f _) (checkRun_sound q l f none)

/-- From the face that changed and the faces that did not to all faces. -/
theorem ClaimedRuns_step {q q1 : Hull K} {l l1 : List Nat} {face : Nat} {o : Option Nat}
    (hset : OutsideSetTo q q1 face o) (hface : RunOf q1 l1 face o ∨ RunOf q1 l1 face none)
    (hoth : ∀ g og, g ≠ face → RunOf q l g og → RunOf q1 l1 g og) (h : ClaimedRuns q l) :
    ClaimedRuns q1 l1 := by
  intro g gr hg
  rcases hset g gr hg with ⟨rfl, ho⟩ | ⟨hne, hq⟩
  · rw [ho]
    exact hface
  · exact (h g gr hq).imp (hoth g _ hne) (hoth g none hne)

theorem OutsideRuns_step {q q1 : Hull K} {l l1 : List Nat} {face : Nat} {o : Option Nat}
    (hset : OutsideSetTo q q1 face o) (hface : RunOf q1 l1 face o)
    (hoth : ∀ g og, g ≠ face → RunOf q l g og → RunOf q1 l1 g og) (h : OutsideRuns q l) :
    OutsideRuns q1 l1 := by
  intro g gr hg
  rcases hset g gr hg with ⟨rfl, ho⟩ | ⟨hne, hq⟩
  · rw [ho]
    exact hface
  · exact hoth g _ hne (h g gr hq)

theorem OutsideSetTo_same {q q1 : Hull K} {face : Nat} {fr : Face K}
    (e : q1.faceStore = q.faceStore) (hfr : q.faceStore[face]? = some fr) :
    OutsideSetTo q q1 face fr.outside := by
  intro g gr hg
  rw [e] at hg
  by_cases k : g = face
  · subst k
    rw [hfr] at hg
    cases hg
    exact Or.inl ⟨rfl, rfl⟩
  · exact Or.inr ⟨k, hg⟩

/-- A new triangle leaves the claimed list alone and puts a face whose
`outside` is nil at the end of the face store. -/
theorem NewFaceFromTriangle_fresh (sqrt : K → K) (fuel : Nat) (q : Hull K) (v0 v1 v2 : Nat)
    (q1 : Hull K) (f : Nat) (h : NewFaceFromTriangle sqrt fuel q v0 v1 v2 = .ok (q1, f)) :
    q1.claimed = q.claimed ∧ ∃ face : Face K, face.outside = none ∧
      q1.faceStore = q.faceStore ++ [face] := by
  unfold NewFaceFromTriangle at h
  obtain ⟨x0, _, h⟩ := bind_ok_inv h
  obtain ⟨x1, _, h⟩ := bind_ok_inv h
  obtain ⟨x2, _, h⟩ := bind_ok_inv h
  dsimp only at h
  obtain ⟨qu, hu, h⟩ := bind_ok_inv h
  simp only [pure, Except.pure, Except.ok.injEq, Prod.mk.injEq] at h
  obtain ⟨rfl, rfl⟩ := h
  obtain ⟨ea, eb, ec⟩ := lookup_append_at q.edgeStore
    (⟨v0, q.faceStore.length, some (q.edgeStore.length + 1),
      some (q.edgeStore.length + 2), none⟩ : HalfEdge)
    ⟨v1, q.faceStore.length, some (q.edgeStore.length + 2), some q.edgeStore.length, none⟩
    ⟨v2, q.faceStore.length, some q.edgeStore.length, some (q.edgeStore.length + 1), none⟩
  unfold Face.update at hu
  obtain ⟨qv, hv, hc⟩ := bind_ok_inv hu
  -- the vertex count
  unfold updateVertexCount at hv
  obtain ⟨fc, e1, hv⟩ := bind_ok_inv hv
  have efc := load_ok e1
  simp only [List.getElem?_concat_length, Option.some.injEq] at efc
  subst efc
  obtain ⟨he1, e2, hv⟩ := bind_ok_inv hv
  obtain ⟨he2, e3, hv⟩ := bind_ok_inv hv
  obtain ⟨n, e4, hv⟩ := bind_ok_inv hv
  simp only [pure, Except.pure, Except.ok.injEq] at hv
  have k1 : he1 = q.edgeStore.length + 1 := by
    unfold nextOf Hull.halfEdge at e2
    simp only [load_of_lookup ea, bind, Except.bind, deref, Except.ok.injEq] at e2
    exact e2.symm
  subst k1
  have k2 : he2 = q.edgeStore.length + 2 := by
    unfold nextOf Hull.halfEdge at e3
    simp only [load_of_lookup eb, bind, Except.bind, deref, Except.ok.injEq] at e3
    exact e3.symm
  subst k2
  have k3 : n = 3 := by
    refine countLoop_triangle _ q.edgeStore.length (q.edgeStore.length + 2) (by omega) ?_
      fuel 2 n e4
    unfold nextOf Hull.halfEdge
    simp only [load_of_lookup ec, bind, Except.bind, deref]
  subst k3
  subst hv
  -- the centroid
  unfold updateCentroid at hc
  obtain ⟨fc2, e5, hc⟩ := bind_ok_inv hc
  have efc2 := load_ok e5
  simp only [Hull.setFace, set_append_length, List.getElem?_concat_length,
    Option.some.injEq] at efc2
  subst efc2
  obtain ⟨sv, _, hc⟩ := bind_ok_inv hc
  simp only [pure, Except.pure, Except.ok.injEq] at hc
  subst hc
  refine ⟨rfl, ⟨(Csg.NewPlaneFromPoints sqrt x0.point x1.point x2.point).Normal,
      (Csg.NewPlaneFromPoints sqrt x0.point x1.point x2.point).W,
      q.edgeStore.length, 0, 0, 3,
      ⟨1 / ((3 : Nat) : K) * sv.X, 1 / ((3 : Nat) : K) * sv.Y, 1 / ((3 : Nat) : K) * sv.Z⟩,
      none, VISIBLE, none⟩, rfl, ?_⟩
  simp only [Hull.setFace, set_append_length]


theorem NewFaceFromTriangle_keeps_fresh (sqrt : K → K) (fuel : Nat) (q : Hull K)
    (v0 v1 v2 : Nat) (q1 : Hull K) (f : Nat)
    (h : NewFaceFromTriangle sqrt fuel q v0 v1 v2 = .ok (q1, f))
    (hc : q.claimed = ⟨none, none⟩) (hF : ∀ fr ∈ q.faceStore, fr.outside = none) :
    q1.claimed = ⟨none, none⟩ ∧ ∀ fr ∈ q1.faceStore, fr.outside = none := by
  obtain ⟨e1, face, e2, e3⟩ := NewFaceFromTriangle_fresh sqrt fuel q v0 v1 v2 q1 f h
  refine ⟨e1.trans hc, ?_⟩
  intro fr hfr
  rw [e3, List.mem_append, List.mem_singleton] at hfr
  rcases hfr with k | k
  · exact hF fr k
  · rw [k]
    exact e2

/-- A hull whose claimed list is empty and whose faces have no outside
points. -/
theorem fresh_runs (q : Hull K) (hc : q.claimed = ⟨none, none⟩)
    (hF : ∀ fr ∈ q.faceStore, fr.outside = none) :
    q.claimed.IsSeq q [] ∧ OutsideRuns q [] := by
  refine ⟨⟨by rw [hc]; rfl, by rw [hc]; rfl, trivial⟩, ?_⟩
  intro f fr hf
  rw [hF fr (List.mem_iff_getElem?.mpr ⟨f, hf⟩)]
  intro v hv
  cases hv

/-- The last loop of `createInitialSimplex` keeps the runs of all faces. -/
theorem claimPoints_runs (tris : List Nat) (v0 v1 v2 v3 : Nat) :
    ∀ (rest : List Nat) (q q1 : Hull K) (l : List Nat),
      claimPoints tris v0 v1 v2 v3 rest q = .ok q1 → q.claimed.IsSeq q l → OutsideRuns q l →
      rest.Nodup → (∀ w ∈ l, w ∉ rest) → ∃ l1, q1.claimed.IsSeq q1 l1 ∧ OutsideRuns q1 l1
  | [], q, q1, l, h, hs, hr, _, _ => by
    rw [claimPoints] at h
    simp only [pure, Except.pure, Except.ok.injEq] at h
    subst h
    exact ⟨l, hs, hr⟩
  | v :: rest, q, q1, l, h, hs, hr, hnd, hl => by
    rw [claimPoints] at h
    have hnd1 := List.nodup_cons.mp hnd
    have hl1 : ∀ w ∈ l, w ∉ rest := fun w hw k => hl w hw (List.mem_cons_of_mem _ k)
    by_cases hv : v = v0 ∨ v = v1 ∨ v = v2 ∨ v = v3
    · rw [if_pos hv] at h
      exact claimPoints_runs tris v0 v1 v2 v3 rest q q1 l h hs hr hnd1.2 hl1
    · rw [if_neg hv] at h
      obtain ⟨x, e1, h⟩ := bind_ok_inv h
      obtain ⟨⟨d, mf⟩, e2, h⟩ := bind_ok_inv h
      dsimp only at h
      cases mf with
      | none => exact claimPoints_runs tris v0 v1 v2 v3 rest q q1 l h hs hr hnd1.2 hl1
      | some f =>
        dsimp only at h
        obtain ⟨qa, e3, h⟩ := bind_ok_inv h
        obtain ⟨_, face, ef, _⟩ := maxFace_spec q x tris d f e2
        have hvl : v ∉ l := fun k => hl v k (List.mem_cons_self _ _)
        obtain ⟨q2, l1, l2, e4, el, hs2, hset, hrun, hoth⟩ := addPointToFace_run q l v f face
          hs ef (hr f face ef) hvl (Csg.lt_of_lookup (load_ok e1))
        rw [e3] at e4
        cases e4
        refine claimPoints_runs tris v0 v1 v2 v3 rest qa q1 (l1 ++ v :: l2) h hs2
          (OutsideRuns_step hset hrun hoth hr) hnd1.2 ?_
        intro w hw k
        simp only [List.mem_append, List.mem_cons] at hw
        rcases hw with hw | rfl | hw
        · exact hl1 w (by rw [el]; exact List.mem_append_left _ hw) k
        · exact hnd1.1 k
        · exact hl1 w (by rw [el]; exact List.mem_append_right _ hw) k

/-- When `createInitialSimplex` returns nil on a hull whose claimed list is
empty and whose faces have no outside points, the claimed list is well formed
and every face has its run. -/
theorem createInitialSimplex_runs (sqrt : K → K) (fuel : Nat) (q qb : Hull K)
    (hc : q.claimed = ⟨none, none⟩) (hF : ∀ fr ∈ q.faceStore, fr.outside = none)
    (h : createInitialSimplex sqrt fuel q = .ok (qb, none)) :
    ∃ l, qb.claimed.IsSeq qb l ∧ OutsideRuns qb l := by
  unfold createInitialSimplex at h
  obtain ⟨⟨m, im⟩, _, h⟩ := bind_ok_inv h
  dsimp only at h
  by_cases hm : m ≤ q.tolerance
  · rw [if_pos hm] at h
    simp [pure, Except.pure] at h
  · rw [if_neg hm] at h
    obtain ⟨_, _, h⟩ := bind_ok_inv h
    obtain ⟨v0, _, h⟩ := bind_ok_inv h
    obtain ⟨v1, _, h⟩ := bind_ok_inv h
    obtain ⟨x0, _, h⟩ := bind_ok_inv h
    obtain ⟨x1, _, h⟩ := bind_ok_inv h
    cases hfl : farthestFromLine q (Normalize sqrt (x1.point.Minus x0.point)) v0 v1 x0.point with
    | mk maxSqr r =>
    obtain ⟨vtx2, normal⟩ := r
    rw [hfl] at h
    dsimp only at h
    by_cases hcl : sqrt maxSqr < 100 * q.tolerance
    · rw [if_pos hcl] at h
      simp [pure, Except.pure] at h
    · rw [if_neg hcl] at h
      obtain ⟨_, _, h⟩ := bind_ok_inv h
      obtain ⟨nrm, _, h⟩ := bind_ok_inv h
      obtain ⟨v2, _, h⟩ := bind_ok_inv h
      obtain ⟨x2, _, h⟩ := bind_ok_inv h
      cases hfp : farthestFromPlane q nrm (x2.point.Dot nrm) v0 v1 v2 with
      | mk maxDist vtx3 =>
      rw [hfp] at h
      dsimp only at h
      by_cases hp : sqrt maxDist < 100 * q.tolerance
      · rw [if_pos hp] at h
        simp [pure, Except.pure] at h
      · rw [if_neg hp] at h
        obtain ⟨_, _, h⟩ := bind_ok_inv h
        obtain ⟨v3, _, h⟩ := bind_ok_inv h
        obtain ⟨x3, _, h⟩ := bind_ok_inv h
        obtain ⟨⟨qs, tris⟩, hs4, h⟩ := bind_ok_inv h
        dsimp only at h
        obtain ⟨qc, hcp, h⟩ := bind_ok_inv h
        simp only [pure, Except.pure, Except.ok.injEq, Prod.mk.injEq, and_true] at h
        subst h
        have key : qs.claimed = ⟨none, none⟩ ∧ ∀ fr ∈ qs.faceStore, fr.outside = none := by
          split at hs4
          all_goals
            obtain ⟨⟨q1, i0⟩, n0, hs4⟩ := bind_ok_inv hs4
            obtain ⟨⟨q2, i1⟩, n1, hs4⟩ := bind_ok_inv hs4
            obtain ⟨⟨q3, i2⟩, n2, hs4⟩ := bind_ok_inv hs4
            obtain ⟨⟨q4, i3⟩, n3, hs4⟩ := bind_ok_inv hs4
            obtain ⟨qf, hfold, hs4⟩ := bind_ok_inv hs4
            simp only [pure, Except.pure, Except.ok.injEq, Prod.mk.injEq] at hs4
            obtain ⟨rfl, rfl⟩ := hs4
            obtain ⟨c1, f1⟩ := NewFaceFromTriangle_keeps_fresh sqrt fuel q _ _ _ q1 i0 n0 hc hF
            obtain ⟨c2, f2⟩ := NewFaceFromTriangle_keeps_fresh sqrt fuel q1 _ _ _ q2 i1 n1 c1 f1
            obtain ⟨c3, f3⟩ := NewFaceFromTriangle_keeps_fresh sqrt fuel q2 _ _ _ q3 i2 n2 c2 f2
            obtain ⟨c4, f4⟩ := NewFaceFromTriangle_keeps_fresh sqrt fuel q3 _ _ _ q4 i3 n3 c3 f3
            have hr : Relinked q4 qf := by
              apply foldl_Relinked _ _ _ _ _ hfold
              intro acc i r e
              obtain ⟨r0, e0, e⟩ := bind_ok_inv e
              obtain ⟨_, _, e⟩ := bind_ok_inv e
              obtain ⟨_, _, e⟩ := bind_ok_inv e
              obtain ⟨r2, e3, e⟩ := bind_ok_inv e
              exact ⟨r0, e0, Relinked_trans (linkEdges_spec _ _ _ _ _ _ e3)
                (linkEdges_spec _ _ _ _ _ _ e)⟩
            obtain ⟨E1, rfl, _⟩ := hr
            exact ⟨c4, f4⟩
        obtain ⟨s0, r0⟩ := fresh_runs ({ qs with faces := qs.faces ++ tris } : Hull K)
          key.1 key.2
        exact claimPoints_runs tris v0 v1 v2 v3 _ _ qc [] hcp s0 r0 (List.nodup_range _)
          (fun w hw => by cases hw)

theorem computeMinAndMax_fresh (q0 : Hull K) (points : List (Vector K)) (n : Nat) (qa : Hull K)
    (h : computeMinAndMax (setPoints (initBuffers q0 n) points n) = .ok qa) :
    qa.claimed = ⟨none, none⟩ ∧ ∀ fr ∈ qa.faceStore, fr.outside = none := by
  unfold computeMinAndMax at h
  obtain ⟨p0, _, h⟩ := bind_ok_inv h
  simp only [pure, Except.pure, Except.ok.injEq] at h
  subst h
  refine ⟨rfl, ?_⟩
  intro fr hfr
  have e : fr ∈ ([] : List (Face K)) := hfr
  cases e

/-- Claim C39 as stated fails in a state that hull construction reaches.  After
the first `addPointToHull` on the six points of `twoOutside` the claimed list
is `[5]`; face 3 was removed from the hull (its mark is DELETED) and its
`outside` is still vertex 5, which now has the face 6, while the vertex 4 that
was added to the hull, no member of the claimed list, still has the face 3: the
vertices whose face field is face 3 are no run of the claimed list that begins
at the `outside` of face 3.  What holds is that no member of the claimed list
has the face 3. -/
theorem deleted_face_counterexample :
    ∃ q, afterFirstPoint 20 = .ok q ∧ q.claimed.IsSeq q [5] ∧ ClaimedRuns q [5] ∧
      (∃ fr, q.faceStore[3]? = some fr ∧ fr.mark = DELETED ∧ fr.outside = some 5) ∧
      HasFace q 5 6 ∧ HasFace q 4 3 ∧ ¬ LiteralRuns q [5] ∧ ¬ OutsideRuns q [5] := by
  have hb : (match afterFirstPoint 20 with
      | .ok q => checkSeq q [5] && checkRuns q [5] &&
          decide ((q.faceStore[3]?).map (fun x => (x.mark, x.outside)) =
            some (DELETED, some 5)) &&
          checkFace q 6 5 && checkFace q 3 4
      | _ => false) = true := by decide!
  split at hb
  · next q e =>
    simp only [Bool.and_eq_true, decide_eq_true_eq] at hb
    obtain ⟨⟨⟨⟨h1, h2⟩, h3⟩, h4⟩, h5⟩ := hb
    have k3 : ∃ fr, q.faceStore[3]? = some fr ∧ fr.mark = DELETED ∧ fr.outside = some 5 := by
      cases e2 : q.faceStore[3]? with
      | none => rw [e2] at h3; simp at h3
      | some x =>
        rw [e2] at h3
        simp only [Option.map_some', Option.some.injEq, Prod.mk.injEq] at h3
        exact ⟨x, rfl, h3.1, h3.2⟩
    have k4 : HasFace q 5 6 := (checkFace_iff q 6 5).mp h4
    have k5 : HasFace q 4 3 := (checkFace_iff q 3 4).mp h5
    refine ⟨q, e, checkSeq_sound q _ h1, checkRuns_sound q _ h2, k3, k4, k5, ?_, ?_⟩
    · intro hl
      obtain ⟨fr, ef, _, eo⟩ := k3
      obtain ⟨l1, run, l2, _, hm⟩ := hl 3 fr 5 ef eo
      have h6 := (hm 5).mpr (List.mem_cons_self _ _)
      exact absurd (HasFace_unique h6 k4) (by decide)
    · intro hr
      obtain ⟨fr, ef, _, eo⟩ := k3
      have h6 := hr 3 fr ef
      rw [eo] at h6
      obtain ⟨l1, run, l2, _, hin, _⟩ := h6
      exact absurd (HasFace_unique (hin 5 (List.mem_cons_self _ _)) k4) (by decide)
  · exact absurd hb (by simp)

/-- Claim C39 (amended).  First, when `createInitialSimplex` returns nil in
`Build`, the claimed list is well formed and for every face the members of the
claimed list whose `face` field is that face form one contiguous run of the
list beginning at the face's `outside` (none when `outside` is nil).  Second,
in any hull whose claimed list is well formed with the members `l`, let `face`
be a face for which this holds.  Then `addPointToFace` of a stored vertex that
is no member inserts it and makes it the `outside` of `face`, with its run;
`removePointFromFace` of a member whose `face` field is `face` removes it and
leaves `face` with its run; `removeAllPointsFromFace` (with fuel for the list)
removes exactly the run of `face`, as a chain ending in nil, returns the
`outside` of `face` and leaves it set, after which no member has that face.
Each of the three keeps, for every other face and every vertex `og`, both "the
members of that face are a run beginning at `og`" and "no member has that
face"; so each keeps `ClaimedRuns` (every face has its run or no member), and
the first two keep `OutsideRuns` (every face has its run). -/
theorem outside_runs_kept :
    (∀ (sqrt : K → K) (fuel : Nat) (q0 : Hull K) (points : List (Vector K)) (n : Nat)
        (qa qb : Hull K),
      computeMinAndMax (setPoints (initBuffers q0 n) points n) = .ok qa →
      createInitialSimplex sqrt fuel qa = .ok (qb, none) →
      ∃ l, qb.claimed.IsSeq qb l ∧ OutsideRuns qb l) ∧
    (∀ (q : Hull K) (l : List Nat), q.claimed.IsSeq q l →
      ∀ (face : Nat) (fr : Face K), q.faceStore[face]? = some fr →
      RunOf q l face fr.outside →
      (∀ vtx, vtx ∉ l → vtx < q.points.length →
        ∃ q1 l1 l2, addPointToFace q vtx face = .ok q1 ∧ l = l1 ++ l2 ∧
          q1.claimed.IsSeq q1 (l1 ++ vtx :: l2) ∧ OutsideSetTo q q1 face (some vtx) ∧
          RunOf q1 (l1 ++ vtx :: l2) face (some vtx) ∧
          (∀ g og, g ≠ face → RunOf q l g og → RunOf q1 (l1 ++ vtx :: l2) g og) ∧
          (OutsideRuns q l → OutsideRuns q1 (l1 ++ vtx :: l2)) ∧
          (ClaimedRuns q l → ClaimedRuns q1 (l1 ++ vtx :: l2))) ∧
      (∀ vtx, vtx ∈ l → HasFace q vtx face →
        ∃ q1 l1 l2 newOut, removePointFromFace q vtx face = .ok q1 ∧ l = l1 ++ vtx :: l2 ∧
          q1.claimed.IsSeq q1 (l1 ++ l2) ∧ OutsideSetTo q q1 face newOut ∧
          RunOf q1 (l1 ++ l2) face newOut ∧
          (∀ g og, g ≠ face → RunOf q l g og → RunOf q1 (l1 ++ l2) g og) ∧
          (OutsideRuns q l → OutsideRuns q1 (l1 ++ l2)) ∧
          (ClaimedRuns q l → ClaimedRuns q1 (l1 ++ l2))) ∧
      (∀ fuel, l.length ≤ fuel →
        ∃ q1 l1 F l2, removeAllPointsFromFace fuel q face = .ok (q1, fr.outside) ∧
          l = l1 ++ (F ++ l2) ∧ F.head? = fr.outside ∧ (∀ v ∈ F, HasFace q v face) ∧
          q1.claimed.IsSeq q1 (l1 ++ l2) ∧ RunOf q1 (l1 ++ l2) face none ∧
          (∀ g og, g ≠ face → RunOf q l g og → RunOf q1 (l1 ++ l2) g og) ∧
          q1.faceStore = q.faceStore ∧ (∃ cp, Chain q1.points cp F none) ∧
          (ClaimedRuns q l → ClaimedRuns q1 (l1 ++ l2)))) := by
  refine ⟨?_, ?_⟩
  · intro sqrt fuel q0 points n qa qb ha hb
    obtain ⟨hc, hF⟩ := computeMinAndMax_fresh q0 points n qa ha
    exact createInitialSimplex_runs sqrt fuel qa qb hc hF hb
  · intro q l hs face fr hfr hro
    refine ⟨?_, ?_, ?_⟩
    · intro vtx hn hv
      obtain ⟨q1, l1, l2, e, el, hs1, hset, hrun, hoth⟩ :=
        addPointToFace_run q l vtx face fr hs hfr hro hn hv
      exact ⟨q1, l1, l2, e, el, hs1, hset, hrun, hoth, OutsideRuns_step hset hrun hoth,
        ClaimedRuns_step hset (Or.inl hrun) hoth⟩
    · intro vtx hm hvf
      obtain ⟨q1, l1, l2, newOut, e, el, hs1, hset, hrun, hoth⟩ :=
        removePointFromFace_run q l vtx face fr hs hfr hro hm hvf
      exact ⟨q1, l1, l2, newOut, e, el, hs1, hset, hrun, hoth, OutsideRuns_step hset hrun hoth,
        ClaimedRuns_step hset (Or.inl hrun) hoth⟩
    · intro fuel hfuel
      obtain ⟨q1, l1, F, l2, e, el, hF, hin, hs1, hnone, hoth, hst, hch⟩ :=
        removeAllPointsFromFace_run fuel q l face fr hs hfr hro hfuel
      exact ⟨q1, l1, F, l2, e, el, hF, hin, hs1, hnone, hoth, hst, hch,
        ClaimedRuns_step (OutsideSetTo_same hst hfr) (Or.inr hnone) hoth⟩

/-- The amended claim on the six points of `twoOutside`: the runs when
`createInitialSimplex` has returned, and, in the hull after the first
`addPointToHull` (where face 3 is deleted and its `outside` is stale), the
removal of the vertex 5 from its face 6. -/
theorem outside_runs_kept_witness :
    (∃ qa qb l, computeMinAndMax (setPoints (initBuffers Hull.new 6) twoOutside 6) = .ok qa ∧
      createInitialSimplex Csg.ratSqrt 20 qa = .ok (qb, none) ∧
      qb.claimed.IsSeq qb l ∧ OutsideRuns qb l) ∧
    ∃ q fr, afterFirstPoint 20 = .ok q ∧ q.claimed.IsSeq q [5] ∧
      q.faceStore[6]? = some fr ∧ RunOf q [5] 6 fr.outside ∧ HasFace q 5 6 ∧
      ClaimedRuns q [5] ∧
      ∃ q1 l1 l2 newOut, removePointFromFace q 5 6 = .ok q1 ∧ [5] = l1 ++ 5 :: l2 ∧
        q1.claimed.IsSeq q1 (l1 ++ l2) ∧ OutsideSetTo q q1 6 newOut ∧
        RunOf q1 (l1 ++ l2) 6 newOut ∧ ClaimedRuns q1 (l1 ++ l2) := by
  have ha : (match computeMinAndMax (setPoints (initBuffers Hull.new 6) twoOutside 6) with
      | .ok qa =>
        (match createInitialSimplex Csg.ratSqrt 20 qa with
          | .ok (_, none) => true
          | _ => false)
      | _ => false) = true := by decide!
  have hb : (match afterFirstPoint 20 with
      | .ok q => checkSeq q [5] && checkRuns q [5] && checkFace q 6 5 &&
          (match q.faceStore[6]? with
            | some fr => checkRun q [5] 6 fr.outside
            | none => false)
      | _ => false) = true := by decide!
  refine ⟨?_, ?_⟩
  · split at ha
    · next qa ea =>
      split at ha
      · next qb eb =>
        obtain ⟨l, hl⟩ := outside_runs_kept.1 Csg.ratSqrt 20 Hull.new twoOutside 6 qa qb ea eb
        exact ⟨qa, qb, l, ea, eb, hl⟩
      · exact absurd ha (by simp)
    · exact absurd ha (by simp)
  · split at hb
    · next q e =>
      simp only [Bool.and_eq_true] at hb
      obtain ⟨⟨⟨h1, h2⟩, h3⟩, h4⟩ := hb
      split at h4
      · next fr ef =>
        have hs := checkSeq_sound q _ h1
        have hc := checkRuns_sound q _ h2
        have hf : HasFace q 5 6 := (checkFace_iff q 6 5).mp h3
        have hr := checkRun_sound q [5] 6 fr.outside h4
        obtain ⟨q1, l1, l2, newOut, e1, el, hs1, hset, hrun, _, _, hc1⟩ :=
          (outside_runs_kept.2 q [5] hs 6 fr ef hr).2.1 5 (List.mem_singleton_self 5) hf
        exact ⟨q, fr, e, hs, ef, hr, hf, hc, q1, l1, l2, newOut, e1, el, hs1, hset, hrun,
          hc1 hc⟩
      · exact absurd h4 (by simp)
    · exact absurd hb (by simp)

end Runs3

end Qhull
namespace Qhull

open Csg (Vector Err)

variable {K : Type} [LinearOrderedField K]

section Hoist

/-- The loop of the source is its body without the last statement, then the
closing step, then the rest of the loop. -/
theorem newFacesLoop_cons (sqrt : K → K) (fuel eyeVtx horizonHe : Nat) (rest : List Nat)
    (q : Hull K) (hedgeSidePrev hedgeSideBegin : Option Nat) :
    newFacesLoop sqrt fuel eyeVtx (horizonHe :: rest) q hedgeSidePrev hedgeSideBegin =
      (faceStep sqrt fuel eyeVtx horizonHe q hedgeSidePrev hedgeSideBegin >>= fun r =>
        closeFan r.1 (some r.2.1) r.2.2 >>= fun q1 =>
          newFacesLoop sqrt fuel eyeVtx rest q1 (some r.2.1) r.2.2) := by
  rw [newFacesLoop, faceStep]
  simp only [bind_assoc, pure_bind, closeFan]

theorem loops_lookup {E E0 : List HalfEdge}
    (h : E.map HalfEdge.loop = E0.map HalfEdge.loop) (e : Nat) :
    (E[e]?).map HalfEdge.loop = (E0[e]?).map HalfEdge.loop := by
  have k := congrArg (fun l => l[e]?) h
  simpa only [List.getElem?_map] using k

theorem loops_length {E E0 : List HalfEdge}
    (h : E.map HalfEdge.loop = E0.map HalfEdge.loop) : E.length = E0.length := by
  have k := congrArg List.length h
  simpa using k

/-- Reading a half-edge of a store with the same loops: none in both, or two
half-edges with the same vertex, face, `next` and `prev`. -/
theorem loops_cases {E E0 : List HalfEdge}
    (h : E.map HalfEdge.loop = E0.map HalfEdge.loop) (e : Nat) :
    (E[e]? = none ∧ E0[e]? = none) ∨
      ∃ x y : HalfEdge, E[e]? = some x ∧ E0[e]? = some y ∧ x.Vertex = y.Vertex ∧
        x.Face = y.Face ∧ x.next = y.next ∧ x.prev = y.prev := by
  have k := loops_lookup h e
  cases e1 : E[e]? with
  | none =>
    cases e2 : E0[e]? with
    | none => exact Or.inl ⟨rfl, rfl⟩
    | some y => rw [e1, e2] at k; simp at k
  | some x =>
    cases e2 : E0[e]? with
    | none => rw [e1, e2] at k; simp at k
    | some y =>
      rw [e1, e2] at k
      simp only [Option.map_some', Option.some.injEq, HalfEdge.loop, Prod.mk.injEq] at k
      exact Or.inr ⟨x, y, rfl, rfl, k.1, k.2.1, k.2.2.1, k.2.2.2⟩

theorem nextOf_loops (q : Hull K) (E : List HalfEdge)
    (h : E.map HalfEdge.loop = q.edgeStore.map HalfEdge.loop) (e : Nat) :
    nextOf ({ q with edgeStore := E } : Hull K) e = nextOf q e := by
  unfold nextOf Hull.halfEdge load
  rcases loops_cases h e with ⟨e1, e2⟩ | ⟨x, y, e1, e2, _, _, k, _⟩
  · simp only [e1, e2]
  · simp only [e1, e2, bind, Except.bind, k]

theorem prevOf_loops (q : Hull K) (E : List HalfEdge)
    (h : E.map HalfEdge.loop = q.edgeStore.map HalfEdge.loop) (e : Nat) :
    prevOf ({ q with edgeStore := E } : Hull K) e = prevOf q e := by
  unfold prevOf Hull.halfEdge load
  rcases loops_cases h e with ⟨e1, e2⟩ | ⟨x, y, e1, e2, _, _, _, k⟩
  · simp only [e1, e2]
  · simp only [e1, e2, bind, Except.bind, k]

theorem Head_loops (q : Hull K) (E : List HalfEdge)
    (h : E.map HalfEdge.loop = q.edgeStore.map HalfEdge.loop) (e : Nat) :
    Head ({ q with edgeStore := E } : Hull K) e = Head q e := by
  unfold Head Hull.halfEdge load
  rcases loops_cases h e with ⟨e1, e2⟩ | ⟨x, y, e1, e2, k, _, _, _⟩
  · simp only [e1, e2]
  · simp only [e1, e2, bind, Except.bind, k]

theorem Tail_loops (q : Hull K) (E : List HalfEdge)
    (h : E.map HalfEdge.loop = q.edgeStore.map HalfEdge.loop) (e : Nat) :
    Tail ({ q with edgeStore := E } : Hull K) e = Tail q e := by
  unfold Tail Hull.halfEdge load
  rcases loops_cases h e with ⟨e1, e2⟩ | ⟨x, y, e1, e2, _, _, _, k⟩
  · simp only [e1, e2]
    rfl
  · simp only [e1, e2, bind, Except.bind, k]
    cases y.prev with
    | none => rfl
    | some p =>
      rcases loops_cases h p with ⟨p1, p2⟩ | ⟨u, w, p1, p2, kv, _, _, _⟩
      · simp only [p1, p2]
      · simp only [p1, p2, kv]

theorem faceOfEdge_loops (q : Hull K) (E : List HalfEdge)
    (h : E.map HalfEdge.loop = q.edgeStore.map HalfEdge.loop) (e : Nat) :
    (({ q with edgeStore := E } : Hull K).halfEdge e).map HalfEdge.Face =
      (q.halfEdge e).map HalfEdge.Face := by
  unfold Hull.halfEdge load
  rcases loops_cases h e with ⟨e1, e2⟩ | ⟨x, y, e1, e2, _, k, _, _⟩
  · simp only [e1, e2]
  · simp only [e1, e2, Except.map, k]

theorem walkNext_loops (q : Hull K) (E : List HalfEdge)
    (h : E.map HalfEdge.loop = q.edgeStore.map HalfEdge.loop) :
    ∀ (k e : Nat), walkNext ({ q with edgeStore := E } : Hull K) k e = walkNext q k e
  | 0, _ => rfl
  | k + 1, e => by
    rw [walkNext, walkNext, nextOf_loops q E h]
    congr 1
    funext nx
    exact walkNext_loops q E h k nx

theorem walkPrev_loops (q : Hull K) (E : List HalfEdge)
    (h : E.map HalfEdge.loop = q.edgeStore.map HalfEdge.loop) :
    ∀ (k e : Nat), walkPrev ({ q with edgeStore := E } : Hull K) k e = walkPrev q k e
  | 0, _ => rfl
  | k + 1, e => by
    rw [walkPrev, walkPrev, prevOf_loops q E h]
    congr 1
    funext nx
    exact walkPrev_loops q E h k nx

theorem GetEdge_loops (q : Hull K) (E : List HalfEdge)
    (h : E.map HalfEdge.loop = q.edgeStore.map HalfEdge.loop) (f : Nat) (i : Int) :
    Face.GetEdge ({ q with edgeStore := E } : Hull K) f i = Face.GetEdge q f i := by
  unfold Face.GetEdge
  show (q.face f >>= _) = (q.face f >>= _)
  congr 1
  funext face
  split
  · exact walkNext_loops q E h _ _
  · exact walkPrev_loops q E h _ _

theorem countLoop_loops (q : Hull K) (E : List HalfEdge)
    (h : E.map HalfEdge.loop = q.edgeStore.map HalfEdge.loop) (edge : Nat) :
    ∀ (fuel he n : Nat),
      countLoop ({ q with edgeStore := E } : Hull K) edge fuel he n = countLoop q edge fuel he n
  | 0, _, _ => rfl
  | fuel + 1, he, n => by
    rw [countLoop, countLoop, nextOf_loops q E h]
    split
    · rfl
    · congr 1
      funext nx
      exact countLoop_loops q E h edge fuel nx (n + 1)

theorem sumLoop_loops (q : Hull K) (E : List HalfEdge)
    (h : E.map HalfEdge.loop = q.edgeStore.map HalfEdge.loop) (edge : Nat) :
    ∀ (fuel he : Nat) (v : Vector K),
      sumLoop ({ q with edgeStore := E } : Hull K) edge fuel he v = sumLoop q edge fuel he v
  | 0, _, _ => rfl
  | fuel + 1, he, v => by
    rw [sumLoop, sumLoop, Head_loops q E h, nextOf_loops q E h]
    congr 1
    funext hd
    show (q.vertex hd >>= _) = (q.vertex hd >>= _)
    congr 1
    funext x
    dsimp only
    congr 1
    funext nx
    split
    · rfl
    · exact sumLoop_loops q E h edge fuel nx _

end Hoist

end Qhull

namespace Qhull

open Csg (Vector Err)

variable {K : Type} [LinearOrderedField K]

section Hoist2

theorem updateVertexCount_loops (fuel : Nat) (q : Hull K) (E : List HalfEdge)
    (h : E.map HalfEdge.loop = q.edgeStore.map HalfEdge.loop) (f : Nat) :
    updateVertexCount fuel ({ q with edgeStore := E } : Hull K) f =
      (updateVertexCount fuel q f).map (fun r => ({ r with edgeStore := E } : Hull K)) := by
  have e0 : ({ q with edgeStore := E } : Hull K).face f = q.face f := rfl
  unfold updateVertexCount
  rw [e0]
  simp only [nextOf_loops q E h, countLoop_loops q E h]
  cases q.face f with
  | error e => rfl
  | ok face =>
    simp only [bind, Except.bind]
    cases nextOf q face.edge with
    | error e => rfl
    | ok he1 =>
      simp only
      cases nextOf q he1 with
      | error e => rfl
      | ok he2 =>
        simp only
        cases countLoop q face.edge fuel he2 2 with
        | error e => rfl
        | ok n => rfl

theorem updateCentroid_loops (fuel : Nat) (q : Hull K) (E : List HalfEdge)
    (h : E.map HalfEdge.loop = q.edgeStore.map HalfEdge.loop) (f : Nat) :
    updateCentroid fuel ({ q with edgeStore := E } : Hull K) f =
      (updateCentroid fuel q f).map (fun r => ({ r with edgeStore := E } : Hull K)) := by
  have e0 : ({ q with edgeStore := E } : Hull K).face f = q.face f := rfl
  unfold updateCentroid
  rw [e0]
  simp only [sumLoop_loops q E h]
  cases q.face f with
  | error e => rfl
  | ok face =>
    simp only [bind, Except.bind]
    cases sumLoop q face.edge fuel face.edge ⟨0, 0, 0⟩ with
    | error e => rfl
    | ok v => rfl

theorem updateVertexCount_edges (fuel : Nat) (q q1 : Hull K) (f : Nat)
    (h : updateVertexCount fuel q f = .ok q1) : q1.edgeStore = q.edgeStore := by
  unfold updateVertexCount at h
  obtain ⟨face, _, h⟩ := bind_ok_inv h
  obtain ⟨he1, _, h⟩ := bind_ok_inv h
  obtain ⟨he2, _, h⟩ := bind_ok_inv h
  obtain ⟨n, _, h⟩ := bind_ok_inv h
  simp only [pure, Except.pure, Except.ok.injEq] at h
  rw [← h]
  rfl

theorem Face_update_loops (fuel : Nat) (q : Hull K) (E : List HalfEdge)
    (h : E.map HalfEdge.loop = q.edgeStore.map HalfEdge.loop) (f : Nat) :
    Face.update fuel ({ q with edgeStore := E } : Hull K) f =
      (Face.update fuel q f).map (fun r => ({ r with edgeStore := E } : Hull K)) := by
  unfold Face.update
  rw [updateVertexCount_loops fuel q E h]
  cases hu : updateVertexCount fuel q f with
  | error e => rfl
  | ok r =>
    have hr := updateVertexCount_edges fuel q r f hu
    simp only [Except.map, bind, Except.bind]
    exact updateCentroid_loops fuel r E (by rw [hr]; exact h) f

theorem face_edges (q : Hull K) (E : List HalfEdge) (f : Nat) :
    ({ q with edgeStore := E } : Hull K).face f = q.face f := rfl

theorem setFace_edges (q : Hull K) (E : List HalfEdge) (f : Nat) (x : Face K) :
    ({ q with edgeStore := E } : Hull K).setFace f x =
      ({ q.setFace f x with edgeStore := E } : Hull K) := rfl

theorem FaceList_Add_loops (q : Hull K) (E : List HalfEdge) (fl : FaceList) (face : Nat) :
    FaceList.Add ({ q with edgeStore := E } : Hull K) fl face =
      (FaceList.Add q fl face).map
        (fun r => (({ r.1 with edgeStore := E } : Hull K), r.2)) := by
  unfold FaceList.Add
  cases fl.head with
  | none =>
    simp only [bind, Except.bind, pure, Except.pure, face_edges, setFace_edges]
    cases q.face face with
    | error e => rfl
    | ok x => rfl
  | some hd =>
    simp only [bind, Except.bind, pure, Except.pure, face_edges, setFace_edges]
    cases deref fl.tail with
    | error e => rfl
    | ok t =>
      simp only
      cases q.face t with
      | error e => rfl
      | ok tf =>
        simp only [face_edges, setFace_edges]
        cases (q.setFace t { tf with next := some face }).face face with
        | error e => rfl
        | ok x => rfl

end Hoist2

end Qhull

namespace Qhull

open Csg (Vector Err)

variable {K : Type} [LinearOrderedField K]

section Hoist3

theorem updateCentroid_edges (fuel : Nat) (q q1 : Hull K) (f : Nat)
    (h : updateCentroid fuel q f = .ok q1) : q1.edgeStore = q.edgeStore := by
  unfold updateCentroid at h
  obtain ⟨face, _, h⟩ := bind_ok_inv h
  obtain ⟨v, _, h⟩ := bind_ok_inv h
  simp only [pure, Except.pure, Except.ok.injEq] at h
  rw [← h]
  rfl

theorem loops_of_pointwise {E E0 : List HalfEdge}
    (h : ∀ i : Nat, (E[i]?).map HalfEdge.loop = (E0[i]?).map HalfEdge.loop) :
    E.map HalfEdge.loop = E0.map HalfEdge.loop := by
  apply List.ext_getElem?
  intro i
  rw [List.getElem?_map, List.getElem?_map]
  exact h i

theorem vertex_edges (q : Hull K) (E : List HalfEdge) (v : Nat) :
    ({ q with edgeStore := E } : Hull K).vertex v = q.vertex v := rfl

/-- `NewFaceFromTriangle` on a store with the same loops: the same result, on
that store. -/
theorem NewFaceFromTriangle_loops (sqrt : K → K) (fuel : Nat) (q : Hull K) (E : List HalfEdge)
    (h : E.map HalfEdge.loop = q.edgeStore.map HalfEdge.loop) (v0 v1 v2 : Nat) :
    NewFaceFromTriangle sqrt fuel ({ q with edgeStore := E } : Hull K) v0 v1 v2 =
      (NewFaceFromTriangle sqrt fuel q v0 v1 v2).map (fun r =>
        (({ r.1 with edgeStore := E ++
          [⟨v0, q.faceStore.length, some (q.edgeStore.length + 1),
              some (q.edgeStore.length + 2), none⟩,
            ⟨v1, q.faceStore.length, some (q.edgeStore.length + 2),
              some q.edgeStore.length, none⟩,
            ⟨v2, q.faceStore.length, some q.edgeStore.length,
              some (q.edgeStore.length + 1), none⟩] } : Hull K), r.2)) := by
  have hlen := loops_length h
  unfold NewFaceFromTriangle
  simp only [vertex_edges, hlen]
  cases q.vertex v0 with
  | error e => rfl
  | ok x0 =>
    cases q.vertex v1 with
    | error e => rfl
    | ok x1 =>
      cases q.vertex v2 with
      | error e => rfl
      | ok x2 =>
        simp only [bind, Except.bind]
        have hl2 : (E ++ [(⟨v0, q.faceStore.length, some (q.edgeStore.length + 1),
              some (q.edgeStore.length + 2), none⟩ : HalfEdge),
            ⟨v1, q.faceStore.length, some (q.edgeStore.length + 2),
              some q.edgeStore.length, none⟩,
            ⟨v2, q.faceStore.length, some q.edgeStore.length,
              some (q.edgeStore.length + 1), none⟩]).map HalfEdge.loop =
            (q.edgeStore ++ [(⟨v0, q.faceStore.length, some (q.edgeStore.length + 1),
              some (q.edgeStore.length + 2), none⟩ : HalfEdge),
            ⟨v1, q.faceStore.length, some (q.edgeStore.length + 2),
              some q.edgeStore.length, none⟩,
            ⟨v2, q.faceStore.length, some q.edgeStore.length,
              some (q.edgeStore.length + 1), none⟩]).map HalfEdge.loop := by
          rw [List.map_append, List.map_append, h]
        have k := Face_update_loops fuel
          ({ q with
            edgeStore := q.edgeStore ++
              [⟨v0, q.faceStore.length, some (q.edgeStore.length + 1),
                  some (q.edgeStore.length + 2), none⟩,
                ⟨v1, q.faceStore.length, some (q.edgeStore.length + 2),
                  some q.edgeStore.length, none⟩,
                ⟨v2, q.faceStore.length, some q.edgeStore.length,
                  some (q.edgeStore.length + 1), none⟩],
            faceStore := q.faceStore ++
              [{ Normal := (Csg.NewPlaneFromPoints sqrt x0.point x1.point x2.point).Normal,
                 W := (Csg.NewPlaneFromPoints sqrt x0.point x1.point x2.point).W,
                 edge := q.edgeStore.length, area := 0, index := 0, numVerts := 0,
                 centroid := ⟨0, 0, 0⟩, next := none, mark := VISIBLE, outside := none }] } :
            Hull K) _ hl2 q.faceStore.length
        simp only at k
        rw [k]
        clear k
        generalize Face.update fuel (_ : Hull K) q.faceStore.length = r
        cases r with
        | error e => rfl
        | ok r => rfl

theorem OffAt_refl (W : Nat → Prop) (q : Hull K) : OffAt W q q :=
  ⟨q.edgeStore, rfl, rfl, fun _ _ => rfl⟩

theorem OffAt_mono {W W1 : Nat → Prop} {q q1 : Hull K} (hw : ∀ i, W i → W1 i)
    (h : OffAt W q q1) : OffAt W1 q q1 := by
  obtain ⟨E, e, hl, ho⟩ := h
  exact ⟨E, e, hl, fun i hi => ho i (fun k => hi (hw i k))⟩

end Hoist3

end Qhull

namespace Qhull

open Csg (Vector Err)

variable {K : Type} [LinearOrderedField K]

section Hoist4

theorem Sim_bind {β γ : Type} {R : β → β → Prop} {R2 : γ → γ → Prop}
    {r r1 : Except Err β} {f g : β → Except Err γ}
    (h : Sim R r r1) (hf : ∀ a b, R a b → Sim R2 (f a) (g b)) :
    Sim R2 (r >>= f) (r1 >>= g) := by
  cases r with
  | error e =>
    cases r1 with
    | error e1 => exact h
    | ok b => exact h.elim
  | ok a =>
    cases r1 with
    | error e1 => exact h.elim
    | ok b => exact hf a b h

theorem Sim_read {β γ : Type} {R2 : γ → γ → Prop}
    (r : Except Err β) {f g : β → Except Err γ}
    (hf : ∀ a, Sim R2 (f a) (g a)) :
    Sim R2 (r >>= f) (r >>= g) := by
  cases r with
  | error e => exact rfl
  | ok a => exact hf a

theorem Sim_eq {β : Type} {r r1 : Except Err β} (h : Sim Eq r r1) : r = r1 := by
  cases r with
  | error e =>
    cases r1 with
    | error e1 => exact congrArg Except.error h
    | ok b => exact h.elim
  | ok a =>
    cases r1 with
    | error e1 => exact h.elim
    | ok b => exact congrArg Except.ok h

theorem Sim_mono {β : Type} {R R2 : β → β → Prop} {r r1 : Except Err β}
    (h : Sim R r r1) (hr : ∀ a b, R a b → R2 a b) : Sim R2 r r1 := by
  cases r with
  | error e =>
    cases r1 with
    | error e1 => exact h
    | ok b => exact h.elim
  | ok a =>
    cases r1 with
    | error e1 => exact h.elim
    | ok b => exact hr a b h

theorem OffAt_eq {W : Nat → Prop} {q q1 : Hull K} (h : OffAt W q q1) (hw : ∀ i, ¬ W i) :
    q1 = q := by
  obtain ⟨E, rfl, _, ho⟩ := h
  have e : E = q.edgeStore := List.ext_getElem? (fun i => ho i (hw i))
  rw [e]

theorem loop_opposite {x y : HalfEdge} (h : x.loop = y.loop) (o : Option Nat) :
    ({ x with opposite := o } : HalfEdge) = { y with opposite := o } := by
  cases x
  cases y
  simp only [HalfEdge.loop, Prod.mk.injEq] at h
  obtain ⟨rfl, rfl, rfl, rfl⟩ := h
  rfl

/-- Writing the same `opposite` at the same half-edge of two stores with the
same loops: the stores keep the same loops, and agree at that half-edge. -/
theorem set_off {W : Nat → Prop} {E A : List HalfEdge}
    (hl : E.map HalfEdge.loop = A.map HalfEdge.loop) (ho : ∀ i : Nat, ¬ W i → E[i]? = A[i]?)
    (h : Nat) (o : Option Nat) (x y : HalfEdge) (ex : E[h]? = some x) (ey : A[h]? = some y) :
    (E.set h { x with opposite := o }).map HalfEdge.loop =
        (A.set h { y with opposite := o }).map HalfEdge.loop ∧
      (E.set h { x with opposite := o }).map HalfEdge.loop = E.map HalfEdge.loop ∧
      ∀ i : Nat, ¬ (W i ∧ i ≠ h) →
        (E.set h { x with opposite := o })[i]? = (A.set h { y with opposite := o })[i]? := by
  have hxy : x.loop = y.loop := by
    have k := loops_lookup hl h
    rw [ex, ey] at k
    exact Option.some.inj k
  have hlen := loops_length hl
  have e1 : (E.set h { x with opposite := o }).map HalfEdge.loop = E.map HalfEdge.loop := by
    apply List.ext_getElem?
    intro i
    rw [List.getElem?_map, List.getElem?_map, List.getElem?_set]
    by_cases hi : h = i
    · subst hi
      rw [if_pos rfl, ex]
      have hlt : h < E.length := by
        rcases Nat.lt_or_ge h E.length with k | k
        · exact k
        · rw [List.getElem?_eq_none k] at ex
          exact absurd ex (by simp)
      rw [if_pos hlt]
      rfl
    · rw [if_neg hi]
  have e2 : (A.set h { y with opposite := o }).map HalfEdge.loop = A.map HalfEdge.loop := by
    apply List.ext_getElem?
    intro i
    rw [List.getElem?_map, List.getElem?_map, List.getElem?_set]
    by_cases hi : h = i
    · subst hi
      rw [if_pos rfl, ey]
      have hlt : h < A.length := by
        rcases Nat.lt_or_ge h A.length with k | k
        · exact k
        · rw [List.getElem?_eq_none k] at ey
          exact absurd ey (by simp)
      rw [if_pos hlt]
      rfl
    · rw [if_neg hi]
  refine ⟨e1.trans (hl.trans e2.symm), e1, ?_⟩
  intro i hi
  rw [List.getElem?_set, List.getElem?_set, loop_opposite hxy o, hlen]
  by_cases k : h = i
  · rw [if_pos k, if_pos k]
  · rw [if_neg k, if_neg k]
    apply ho
    intro w
    exact hi ⟨w, fun c => k c.symm⟩

/-- `SetOpposite` on two hulls that differ in the `opposite` of the half-edges
at `W`: the same error, or hulls that differ at most at `W` less the two
half-edges written. -/
theorem SetOpposite_off {W : Nat → Prop} {a b : Hull K} (hab : OffAt W a b) (h : Nat)
    (e : Option Nat) :
    Sim (OffAt (fun i => W i ∧ i ≠ h ∧ some i ≠ e)) (SetOpposite a h e) (SetOpposite b h e) := by
  obtain ⟨E, rfl, hl, ho⟩ := hab
  unfold SetOpposite Hull.halfEdge load Hull.setHalfEdge
  rcases loops_cases hl h with ⟨e1, e2⟩ | ⟨x, y, e1, e2, _⟩
  · simp only [e1, e2]
    exact rfl
  · simp only [e1, e2, bind, Except.bind]
    cases e with
    | none => exact rfl
    | some ei =>
      simp only [deref]
      obtain ⟨s1, s2, s3⟩ := set_off hl ho h (some ei) x y e1 e2
      rcases loops_cases s1 ei with ⟨f1, f2⟩ | ⟨x1, y1, f1, f2, _⟩
      · simp only [f1, f2]
        exact rfl
      · simp only [f1, f2, pure, Except.pure]
        obtain ⟨t1, t2, t3⟩ := set_off s1 s3 ei (some h) x1 y1 f1 f2
        refine ⟨_, rfl, ?_, ?_⟩
        · exact t1
        · intro i hi
          apply t3
          intro w
          apply hi
          exact ⟨w.1.1, w.1.2, fun c => w.2 (Option.some.inj c)⟩

theorem Opposite_off {W : Nat → Prop} {a b : Hull K} (hab : OffAt W a b) (h : Nat)
    (hw : ¬ W h) : Opposite b h = Opposite a h := by
  obtain ⟨E, rfl, hl, ho⟩ := hab
  unfold Opposite Hull.halfEdge load
  rw [ho h hw]

end Hoist4

end Qhull

namespace Qhull

open Csg (Vector Err)

variable {K : Type} [LinearOrderedField K]

section Hoist5

theorem halfEdge_off {W : Nat → Prop} {a b : Hull K} (hab : OffAt W a b) (s : Nat) :
    Sim (fun x y => x.Face = y.Face) (a.halfEdge s) (b.halfEdge s) := by
  obtain ⟨E, rfl, hl, ho⟩ := hab
  unfold Hull.halfEdge load
  rcases loops_cases hl s with ⟨e1, e2⟩ | ⟨x, y, e1, e2, _, k, _⟩
  · simp only [e1, e2]
    exact rfl
  · simp only [e1, e2]
    exact k.symm

theorem OffAt_append {W : Nat → Prop} {q : Hull K} {E X : List HalfEdge} {F : List (Face K)}
    (hl : E.map HalfEdge.loop = q.edgeStore.map HalfEdge.loop)
    (ho : ∀ i : Nat, ¬ W i → E[i]? = q.edgeStore[i]?) :
    OffAt W ({ q with edgeStore := q.edgeStore ++ X, faceStore := F } : Hull K)
      ({ q with edgeStore := E ++ X, faceStore := F } : Hull K) := by
  refine ⟨E ++ X, rfl, ?_, ?_⟩
  · show (E ++ X).map HalfEdge.loop = (q.edgeStore ++ X).map HalfEdge.loop
    rw [List.map_append, List.map_append, hl]
  · intro i hi
    show (E ++ X)[i]? = (q.edgeStore ++ X)[i]?
    have hlen := loops_length hl
    rcases Nat.lt_or_ge i E.length with k | k
    · rw [List.getElem?_append_left k, List.getElem?_append_left (hlen ▸ k)]
      exact ho i hi
    · rw [List.getElem?_append_right k, List.getElem?_append_right (hlen ▸ k), hlen]

/-- The end of `addAdjoiningFace`, from `face.GetEdge(-1)` on. -/
theorem adjoin_tail_sim {W : Nat → Prop} {a b : Hull K} (hab : OffAt W a b) (face he : Nat)
    (hw : ¬ W he) :
    Sim (fun x y => x.2 = y.2 ∧ OffAt W x.1 y.1)
      (do
        let e ← Face.GetEdge a face (-1)
        let q ← SetOpposite a e (← Opposite a he)
        let e0 ← Face.GetEdge q face 0
        pure (q, e0) : Except Err (Hull K × Nat))
      (do
        let e ← Face.GetEdge b face (-1)
        let q ← SetOpposite b e (← Opposite b he)
        let e0 ← Face.GetEdge q face 0
        pure (q, e0) : Except Err (Hull K × Nat)) := by
  rw [Opposite_off hab he hw]
  have hg : Face.GetEdge b face (-1) = Face.GetEdge a face (-1) := by
    obtain ⟨E, rfl, hl, _⟩ := hab
    exact GetEdge_loops a E hl face (-1)
  rw [hg]
  refine Sim_read _ ?_
  intro e
  refine Sim_read _ ?_
  intro o
  refine Sim_bind (SetOpposite_off hab e o) ?_
  intro q q1 h1
  have h2 : OffAt W q q1 := OffAt_mono (fun i k => k.1) h1
  have hg2 : Face.GetEdge q1 face 0 = Face.GetEdge q face 0 := by
    obtain ⟨E, rfl, hl, _⟩ := h2
    exact GetEdge_loops q E hl face 0
  rw [hg2]
  refine Sim_read _ ?_
  intro e0
  exact ⟨rfl, h2⟩

theorem addAdjoiningFace_sim (sqrt : K → K) (fuel : Nat) {W : Nat → Prop} {a b : Hull K}
    (hab : OffAt W a b) (eyeVtx he : Nat) (hw : ¬ W he) :
    Sim (fun x y => x.2 = y.2 ∧ OffAt W x.1 y.1)
      (addAdjoiningFace sqrt fuel a eyeVtx he) (addAdjoiningFace sqrt fuel b eyeVtx he) := by
  obtain ⟨E, rfl, hl, ho⟩ := hab
  unfold addAdjoiningFace
  rw [Tail_loops a E hl, Head_loops a E hl]
  refine Sim_read _ ?_
  intro t
  refine Sim_read _ ?_
  intro tl
  refine Sim_read _ ?_
  intro hd
  rw [NewFaceFromTriangle_loops sqrt fuel a E hl]
  have h0 : Sim (fun x y => x.2 = y.2 ∧ OffAt W x.1 y.1)
      (NewFaceFromTriangle sqrt fuel a eyeVtx tl hd)
      ((NewFaceFromTriangle sqrt fuel a eyeVtx tl hd).map (fun r =>
        (({ r.1 with edgeStore := E ++
          [⟨eyeVtx, a.faceStore.length, some (a.edgeStore.length + 1),
              some (a.edgeStore.length + 2), none⟩,
            ⟨tl, a.faceStore.length, some (a.edgeStore.length + 2),
              some a.edgeStore.length, none⟩,
            ⟨hd, a.faceStore.length, some a.edgeStore.length,
              some (a.edgeStore.length + 1), none⟩] } : Hull K), r.2))) := by
    cases hN : NewFaceFromTriangle sqrt fuel a eyeVtx tl hd with
    | error e => exact rfl
    | ok r =>
      obtain ⟨q1, face⟩ := r
      obtain ⟨_, fc, _, _, _, rfl⟩ := NewFaceFromTriangle_spec sqrt fuel a eyeVtx tl hd q1 face hN
      exact ⟨rfl, OffAt_append hl ho⟩
  refine Sim_bind h0 ?_
  intro x y hxy
  obtain ⟨q2, f2⟩ := x
  obtain ⟨q3, f3⟩ := y
  obtain ⟨e, h1⟩ := hxy
  dsimp only at e h1
  subst e
  have h2 : OffAt W ({ q2 with faces := q2.faces ++ [f2] } : Hull K)
      ({ q3 with faces := q3.faces ++ [f2] } : Hull K) := by
    obtain ⟨E1, rfl, hl1, ho1⟩ := h1
    exact ⟨E1, rfl, hl1, ho1⟩
  exact adjoin_tail_sim h2 f2 he hw

end Hoist5

end Qhull

namespace Qhull

open Csg (Vector Err)

variable {K : Type} [LinearOrderedField K]

section Hoist6

theorem FaceList_Add_edges (q : Hull K) (fl : FaceList) (face : Nat) (q1 : Hull K)
    (fl1 : FaceList) (h : FaceList.Add q fl face = .ok (q1, fl1)) :
    q1.edgeStore = q.edgeStore := by
  unfold FaceList.Add at h
  obtain ⟨r, h1, h⟩ := bind_ok_inv h
  obtain ⟨q2, f2⟩ := r
  dsimp only at h
  obtain ⟨x, _, h⟩ := bind_ok_inv h
  simp only [pure, Except.pure, Except.ok.injEq, Prod.mk.injEq] at h
  obtain ⟨rfl, _⟩ := h
  have e2 : q2.edgeStore = q.edgeStore := by
    cases hh : fl.head with
    | none =>
      rw [hh] at h1
      simp only [pure, Except.pure, Except.ok.injEq, Prod.mk.injEq] at h1
      rw [← h1.1]
    | some hd =>
      rw [hh] at h1
      dsimp only at h1
      obtain ⟨t, _, h1⟩ := bind_ok_inv h1
      obtain ⟨tf, _, h1⟩ := bind_ok_inv h1
      simp only [pure, Except.pure, Except.ok.injEq, Prod.mk.injEq] at h1
      rw [← h1.1]
      rfl
  exact e2

theorem faceStep_sim (sqrt : K → K) (fuel : Nat) {W : Nat → Prop} {a b : Hull K}
    (hab : OffAt W a b) (eyeVtx he : Nat) (hw : ¬ W he) (p : Nat) (bg : Option Nat) :
    Sim (fun x y => x.2 = y.2 ∧ OffAt (fun i => W i ∧ i ≠ p) x.1 y.1)
      (faceStep sqrt fuel eyeVtx he a (some p) bg)
      (faceStep sqrt fuel eyeVtx he b (some p) bg) := by
  unfold faceStep
  refine Sim_bind (addAdjoiningFace_sim sqrt fuel hab eyeVtx he hw) ?_
  intro x y hxy
  obtain ⟨q1, s⟩ := x
  obtain ⟨q2, s2⟩ := y
  obtain ⟨e, h1⟩ := hxy
  dsimp only at e h1
  subst e
  have hl : Sim (fun x y => x.2 = y.2 ∧ OffAt (fun i => W i ∧ i ≠ p) x.1 y.1)
      (do
        let nx ← nextOf q1 s
        let q ← SetOpposite q1 nx (some p)
        pure (q, bg) : Except Err (Hull K × Option Nat))
      (do
        let nx ← nextOf q2 s
        let q ← SetOpposite q2 nx (some p)
        pure (q, bg) : Except Err (Hull K × Option Nat)) := by
    have hn : nextOf q2 s = nextOf q1 s := by
      obtain ⟨E, rfl, hl, _⟩ := h1
      exact nextOf_loops q1 E hl s
    rw [hn]
    refine Sim_read _ ?_
    intro nx
    refine Sim_bind (SetOpposite_off h1 nx (some p)) ?_
    intro q q3 h
    exact ⟨rfl, OffAt_mono (fun i k => ⟨k.1, fun c => k.2.2 (by rw [c])⟩) h⟩
  refine Sim_bind hl ?_
  intro x y hxy
  obtain ⟨q3, b3⟩ := x
  obtain ⟨q4, b4⟩ := y
  obtain ⟨e, h3⟩ := hxy
  dsimp only at e h3
  subst e
  refine Sim_bind (halfEdge_off h3 s) ?_
  intro hs hs1 hf
  obtain ⟨E, rfl, hl3, ho3⟩ := h3
  dsimp only
  rw [FaceList_Add_loops q3 E, hf]
  cases hA : FaceList.Add q3 q3.newFaces hs1.Face with
  | error e => exact rfl
  | ok r =>
    obtain ⟨q5, nf⟩ := r
    have e5 := FaceList_Add_edges q3 _ _ q5 nf hA
    refine ⟨rfl, E, rfl, ?_, ?_⟩
    · show E.map HalfEdge.loop = q5.edgeStore.map HalfEdge.loop
      rw [e5]
      exact hl3
    · intro i hi
      show E[i]? = q5.edgeStore[i]?
      rw [e5]
      exact ho3 i hi

end Hoist6

end Qhull

namespace Qhull

open Csg (Vector Err)

variable {K : Type} [LinearOrderedField K]

section Hoist7

theorem Relinked_loops {q q1 : Hull K} (h : Relinked q q1) :
    q1.edgeStore.map HalfEdge.loop = q.edgeStore.map HalfEdge.loop ∧
      q1.faceStore = q.faceStore := by
  obtain ⟨E, rfl, hl⟩ := h
  exact ⟨hl, rfl⟩

/-- `addAdjoiningFace` returns the first of three half-edges it appends. -/
theorem addAdjoiningFace_shape (sqrt : K → K) (fuel : Nat) (q : Hull K) (eyeVtx he : Nat)
    (q1 : Hull K) (s : Nat) (h : addAdjoiningFace sqrt fuel q eyeVtx he = .ok (q1, s)) :
    s = q.edgeStore.length ∧ ∃ v f l2 l3,
      q1.edgeStore.map HalfEdge.loop = q.edgeStore.map HalfEdge.loop ++
        [(v, f, some (q.edgeStore.length + 1), some (q.edgeStore.length + 2)), l2, l3] := by
  unfold addAdjoiningFace at h
  obtain ⟨t, _, h⟩ := bind_ok_inv h
  obtain ⟨tl, _, h⟩ := bind_ok_inv h
  obtain ⟨hd, _, h⟩ := bind_ok_inv h
  obtain ⟨r, hN, h⟩ := bind_ok_inv h
  obtain ⟨q2, face⟩ := r
  dsimp only at h
  obtain ⟨e, _, h⟩ := bind_ok_inv h
  obtain ⟨o, _, h⟩ := bind_ok_inv h
  obtain ⟨q3, hS, h⟩ := bind_ok_inv h
  obtain ⟨e0, hG, h⟩ := bind_ok_inv h
  simp only [pure, Except.pure, Except.ok.injEq, Prod.mk.injEq] at h
  obtain ⟨rfl, rfl⟩ := h
  obtain ⟨rfl, fc, hfe, _, _, rfl⟩ := NewFaceFromTriangle_spec sqrt fuel q eyeVtx tl hd q2 _ hN
  obtain ⟨hl, hf⟩ := Relinked_loops (SetOpposite_spec _ _ _ _ hS)
  refine ⟨?_, eyeVtx, q.faceStore.length,
    (tl, q.faceStore.length, some (q.edgeStore.length + 2), some q.edgeStore.length),
    (hd, q.faceStore.length, some q.edgeStore.length, some (q.edgeStore.length + 1)), ?_⟩
  · unfold Face.GetEdge Hull.face load at hG
    rw [hf] at hG
    have k : (q.faceStore ++ [fc])[q.faceStore.length]? = some fc := by simp
    dsimp only at hG
    rw [k] at hG
    simp only [bind, Except.bind, le_refl, if_true, Int.toNat_zero, walkNext, pure, Except.pure,
      Except.ok.injEq] at hG
    rw [← hG, hfe]
  · rw [hl]
    simp only [List.map_append, List.map_cons, List.map_nil, HalfEdge.loop]

theorem faceStep_shape (sqrt : K → K) (fuel : Nat) (eyeVtx he : Nat) (q : Hull K)
    (prev bg : Option Nat) (q1 : Hull K) (s : Nat) (bg1 : Option Nat)
    (h : faceStep sqrt fuel eyeVtx he q prev bg = .ok (q1, s, bg1)) :
    s = q.edgeStore.length ∧ (prev = none → bg1 = some s) ∧ (prev ≠ none → bg1 = bg) ∧
      ∃ v f l2 l3,
        q1.edgeStore.map HalfEdge.loop = q.edgeStore.map HalfEdge.loop ++
          [(v, f, some (q.edgeStore.length + 1), some (q.edgeStore.length + 2)), l2, l3] := by
  unfold faceStep at h
  obtain ⟨r, hA, h⟩ := bind_ok_inv h
  obtain ⟨q2, s2⟩ := r
  dsimp only at h
  obtain ⟨r, hL, h⟩ := bind_ok_inv h
  obtain ⟨q3, b3⟩ := r
  dsimp only at h
  obtain ⟨hs, _, h⟩ := bind_ok_inv h
  obtain ⟨r, hF, h⟩ := bind_ok_inv h
  obtain ⟨q4, nf⟩ := r
  simp only [pure, Except.pure, Except.ok.injEq, Prod.mk.injEq] at h
  obtain ⟨rfl, rfl, rfl⟩ := h
  obtain ⟨hs2, v, f, l2, l3, hl2⟩ := addAdjoiningFace_shape sqrt fuel q eyeVtx he q2 s2 hA
  have e4 := FaceList_Add_edges _ _ _ _ _ hF
  have h3 : q3.edgeStore.map HalfEdge.loop = q2.edgeStore.map HalfEdge.loop ∧
      (prev = none → b3 = some s2) ∧ (prev ≠ none → b3 = bg) := by
    cases prev with
    | none =>
      simp only [pure, Except.pure, Except.ok.injEq, Prod.mk.injEq] at hL
      obtain ⟨rfl, rfl⟩ := hL
      exact ⟨rfl, fun _ => rfl, fun c => absurd rfl c⟩
    | some p =>
      dsimp only at hL
      obtain ⟨nx, _, hL⟩ := bind_ok_inv hL
      obtain ⟨q5, hS, hL⟩ := bind_ok_inv hL
      simp only [pure, Except.pure, Except.ok.injEq, Prod.mk.injEq] at hL
      obtain ⟨rfl, rfl⟩ := hL
      exact ⟨(Relinked_loops (SetOpposite_spec _ _ _ _ hS)).1,
        ⟨fun c => Option.noConfusion c, fun _ => rfl⟩⟩
  refine ⟨hs2, h3.2.1, h3.2.2, v, f, l2, l3, ?_⟩
  show q4.edgeStore.map HalfEdge.loop = _
  rw [e4, h3.1, hl2]

theorem nextOf_prefix {q q1 : Hull K} {X : List (Nat × Nat × Option Nat × Option Nat)}
    (h : q1.edgeStore.map HalfEdge.loop = q.edgeStore.map HalfEdge.loop ++ X) {b bn : Nat}
    (hb : nextOf q b = .ok bn) : nextOf q1 b = .ok bn := by
  unfold nextOf Hull.halfEdge load at hb ⊢
  cases e : q.edgeStore[b]? with
  | none =>
    rw [e] at hb
    exact absurd hb (by simp [bind, Except.bind])
  | some x =>
    rw [e] at hb
    have hlt : b < (q.edgeStore.map HalfEdge.loop).length := by
      rw [List.length_map]
      rcases Nat.lt_or_ge b q.edgeStore.length with k | k
      · exact k
      · rw [List.getElem?_eq_none k] at e
        exact absurd e (by simp)
    have k := congrArg (fun l => l[b]?) h
    simp only [List.getElem?_map, List.getElem?_append_left hlt, e, Option.map_some'] at k
    cases e1 : q1.edgeStore[b]? with
    | none =>
      rw [e1] at k
      exact absurd k (by simp)
    | some y =>
      rw [e1] at k
      simp only [Option.map_some', Option.some.injEq, HalfEdge.loop, Prod.mk.injEq] at k
      simp only [bind, Except.bind] at hb ⊢
      rw [k.2.2.1]
      exact hb

theorem nextOf_lt {q : Hull K} {b bn : Nat} (hb : nextOf q b = .ok bn) :
    b < q.edgeStore.length := by
  unfold nextOf Hull.halfEdge load at hb
  rcases Nat.lt_or_ge b q.edgeStore.length with k | k
  · exact k
  · rw [List.getElem?_eq_none k] at hb
    exact absurd hb (by simp [bind, Except.bind])

theorem nextOf_first {q1 : Hull K} {L : List (Nat × Nat × Option Nat × Option Nat)}
    {v f : Nat} {p : Option Nat} {l2 l3 : Nat × Nat × Option Nat × Option Nat} {m : Nat}
    (h : q1.edgeStore.map HalfEdge.loop = L ++ [(v, f, some m, p), l2, l3]) :
    nextOf q1 L.length = .ok m := by
  unfold nextOf Hull.halfEdge load
  have k := congrArg (fun l => l[L.length]?) h
  simp only [List.getElem?_map, (lookup_append_at L _ _ _).1] at k
  cases e1 : q1.edgeStore[L.length]? with
  | none =>
    rw [e1] at k
    exact absurd k (by simp)
  | some y =>
    rw [e1] at k
    simp only [Option.map_some', Option.some.injEq, HalfEdge.loop, Prod.mk.injEq] at k
    simp only [bind, Except.bind, k.2.2.1]
    rfl

/-- The closing `SetOpposite` succeeds on valid half-edges and changes only
the two half-edges it links. -/
theorem closeFan_total {q : Hull K} {bg bn p : Nat} (hb : nextOf q bg = .ok bn)
    (hbn : bn < q.edgeStore.length) (hp : p < q.edgeStore.length) :
    ∃ S, closeFan q (some p) (some bg) = .ok S ∧ OffAt (fun i => i = bn ∨ i = p) q S := by
  unfold closeFan
  simp only [deref, bind, Except.bind, hb]
  have h0 := SetOpposite_off (OffAt_refl (fun _ => True) q) bn (some p)
  unfold SetOpposite Hull.halfEdge load Hull.setHalfEdge at h0 ⊢
  obtain ⟨x, ex⟩ : ∃ x, q.edgeStore[bn]? = some x := ⟨_, List.getElem?_eq_getElem hbn⟩
  have hp1 : p < (q.edgeStore.set bn { x with opposite := some p }).length := by
    rw [List.length_set]
    exact hp
  obtain ⟨y, ey⟩ : ∃ y, (q.edgeStore.set bn { x with opposite := some p })[p]? = some y :=
    ⟨_, List.getElem?_eq_getElem hp1⟩
  simp only [ex, bind, Except.bind, deref, ey, pure, Except.pure]
  refine ⟨_, rfl, _, rfl, ?_, ?_⟩
  · exact ((set_off (W := fun _ => False) rfl (fun _ _ => rfl) p (some bn) y y ey ey).2.1).trans
      (set_off (W := fun _ => False) rfl (fun _ _ => rfl) bn (some p) x x ex ex).2.1
  · intro i hi
    rw [List.getElem?_set, List.getElem?_set]
    rw [if_neg (fun c => hi (Or.inr c.symm)), if_neg (fun c => hi (Or.inl c.symm))]

theorem closeFan_off {W : Nat → Prop} {a b : Hull K} (hab : OffAt W a b) {bg bn p : Nat}
    (hb : nextOf a bg = .ok bn) (hw : ∀ i, W i → i = bn ∨ i = p) :
    closeFan b (some p) (some bg) = closeFan a (some p) (some bg) := by
  have hn : nextOf b bg = nextOf a bg := by
    obtain ⟨E, rfl, hl, _⟩ := hab
    exact nextOf_loops a E hl bg
  unfold closeFan
  simp only [deref, bind, Except.bind, hn, hb]
  have h0 := SetOpposite_off hab bn (some p)
  refine (Sim_eq (Sim_mono h0 ?_)).symm
  intro x y h
  refine (OffAt_eq h ?_).symm
  intro i hi
  rcases hw i hi.1 with k | k
  · exact hi.2.1 k
  · exact hi.2.2 (by rw [k])

end Hoist7

end Qhull

namespace Qhull

open Csg (Vector Err)

variable {K : Type} [LinearOrderedField K]

section Hoist8

theorem loops_grow {q q1 : Hull K} {a b c : Nat × Nat × Option Nat × Option Nat}
    (h : q1.edgeStore.map HalfEdge.loop = q.edgeStore.map HalfEdge.loop ++ [a, b, c]) :
    q1.edgeStore.length = q.edgeStore.length + 3 := by
  have k := congrArg List.length h
  simpa using k

/-- After the first iteration: the state of the source loop is the state of
the loop without the closure, closed. -/
theorem hoist_tail (sqrt : K → K) (fuel eyeVtx n0 : Nat) :
    ∀ (rest : List Nat) (H S : Hull K) (p bg bn : Nat),
      (∀ he ∈ rest, he < n0) → n0 ≤ bn → n0 ≤ p → bn < H.edgeStore.length →
      p < H.edgeStore.length → nextOf H bg = .ok bn →
      closeFan H (some p) (some bg) = .ok S →
      newFacesLoop sqrt fuel eyeVtx rest S (some p) (some bg) =
        (newFacesLoopHoisted sqrt fuel eyeVtx rest H (some p) (some bg) >>= fun r =>
          closeFan r.1 r.2.1 r.2.2) := by
  intro rest
  induction rest with
  | nil =>
    intro H S p bg bn _ _ _ _ _ _ hc
    rw [newFacesLoop, newFacesLoopHoisted]
    exact hc.symm
  | cons he rest ih =>
    intro H S p bg bn hr hbn hp lbn lp hn hc
    obtain ⟨S1, hc1, hoff⟩ := closeFan_total hn lbn lp
    rw [hc] at hc1
    obtain rfl : S = S1 := Except.ok.inj hc1
    have hhe : he < n0 := hr he (List.mem_cons_self _ _)
    have hw : ¬ (he = bn ∨ he = p) := by omega
    have hsim := faceStep_sim sqrt fuel hoff eyeVtx he hw p (some bg)
    rw [newFacesLoop_cons, newFacesLoopHoisted]
    cases hH : faceStep sqrt fuel eyeVtx he H (some p) (some bg) with
    | error e =>
      cases hS : faceStep sqrt fuel eyeVtx he S (some p) (some bg) with
      | error e1 =>
        rw [hH, hS] at hsim
        have k : e = e1 := hsim
        rw [k]
        rfl
      | ok y =>
        rw [hH, hS] at hsim
        exact hsim.elim
    | ok x =>
      cases hS : faceStep sqrt fuel eyeVtx he S (some p) (some bg) with
      | error e1 =>
        rw [hH, hS] at hsim
        exact hsim.elim
      | ok y =>
        rw [hH, hS] at hsim
        obtain ⟨H1, s, b1⟩ := x
        obtain ⟨S2, s2, b2⟩ := y
        obtain ⟨e, hoff1⟩ := hsim
        simp only [Prod.mk.injEq] at e
        obtain ⟨rfl, rfl⟩ := e
        obtain ⟨hs, _, hb1, v, f, l2, l3, hl⟩ :=
          faceStep_shape sqrt fuel eyeVtx he H (some p) (some bg) H1 s b1 hH
        have hb2 : b1 = some bg := hb1 (fun c => Option.noConfusion c)
        subst hb2
        have hlen := loops_grow hl
        have hn1 : nextOf H1 bg = .ok bn := nextOf_prefix hl hn
        obtain ⟨S3, hc3, _⟩ := @closeFan_total K _ H1 bg bn s hn1 (by omega) (by omega)
        have hc2 : closeFan S2 (some s) (some bg) = .ok S3 := by
          rw [closeFan_off hoff1 hn1 (fun i hi => Or.inl (hi.1.resolve_right hi.2))]
          exact hc3
        have l : (Except.ok (S2, s, some bg) >>= fun r =>
            closeFan r.1 (some r.2.1) r.2.2 >>= fun q1 =>
              newFacesLoop sqrt fuel eyeVtx rest q1 (some r.2.1) r.2.2) =
            newFacesLoop sqrt fuel eyeVtx rest S3 (some s) (some bg) := by
          show (closeFan S2 (some s) (some bg) >>= fun q1 =>
              newFacesLoop sqrt fuel eyeVtx rest q1 (some s) (some bg)) = _
          rw [hc2]
          rfl
        rw [l]
        exact ih H1 S3 s bg bn (fun x hx => hr x (List.mem_cons_of_mem _ hx)) hbn (by omega)
          (by omega) (by omega) hn1 hc3

end Hoist8

end Qhull

namespace Qhull

open Csg (Vector Err)

variable {K : Type} [LinearOrderedField K]

section Hoist9

theorem hoisted_bind (x : Except Err (Hull K × Option Nat × Option Nat)) :
    (x >>= fun r => match r with
      | (q, hedgeSidePrev, hedgeSideBegin) => closeFan q hedgeSidePrev hedgeSideBegin) =
      (x >>= fun r => closeFan r.1 r.2.1 r.2.2) := by
  cases x with
  | error e => rfl
  | ok r =>
    obtain ⟨q, a, b⟩ := r
    rfl

/-- Claim C31. For a non-empty horizon of half-edges that exist when
`addNewFaces` is called, `addNewFaces`, which closes the fan with
`hedgeSideBegin.next.SetOpposite(hedgeSidePrev)` inside the loop once per
horizon edge, ends exactly as the variant that closes it once after the loop:
with the same panic, or with the same hull, so with the same `opposite` on
every half-edge of the new faces. -/
theorem addNewFaces_closure_hoisted (sqrt : K → K) (fuel : Nat) (q : Hull K) (eyeVtx : Nat)
    (horizon : List Nat) (hne : horizon ≠ [])
    (hv : ∀ he ∈ horizon, he < q.edgeStore.length) :
    addNewFaces sqrt fuel q eyeVtx horizon = addNewFacesHoisted sqrt fuel q eyeVtx horizon := by
  cases horizon with
  | nil => exact absurd rfl hne
  | cons he rest =>
    unfold addNewFaces addNewFacesHoisted
    rw [hoisted_bind, newFacesLoop_cons, newFacesLoopHoisted]
    cases hH : faceStep sqrt fuel eyeVtx he { q with newFaces := q.newFaces.Clear } none none with
    | error e => rfl
    | ok x =>
      obtain ⟨H1, s, b1⟩ := x
      obtain ⟨hs, hb1, _, v, f, l2, l3, hl⟩ :=
        faceStep_shape sqrt fuel eyeVtx he _ none none H1 s b1 hH
      have hb : b1 = some s := hb1 rfl
      subst hb
      have hlen := loops_grow hl
      have hl0 : (List.map HalfEdge.loop q.edgeStore).length = s := by
        rw [List.length_map]
        exact hs.symm
      have hn1 : nextOf H1 s = .ok (q.edgeStore.length + 1) := by
        have k := nextOf_first hl
        rw [hl0] at k
        exact k
      have e0 : ({ q with newFaces := q.newFaces.Clear } : Hull K).edgeStore.length =
          q.edgeStore.length := rfl
      obtain ⟨S3, hc3, _⟩ :=
        @closeFan_total K _ H1 s (q.edgeStore.length + 1) s hn1 (by omega) (by omega)
      have l : (Except.ok (H1, s, some s) >>= fun r =>
          closeFan r.1 (some r.2.1) r.2.2 >>= fun q1 =>
            newFacesLoop sqrt fuel eyeVtx rest q1 (some r.2.1) r.2.2) =
          newFacesLoop sqrt fuel eyeVtx rest S3 (some s) (some s) := by
        show (closeFan H1 (some s) (some s) >>= fun q1 =>
            newFacesLoop sqrt fuel eyeVtx rest q1 (some s) (some s)) = _
        rw [hc3]
        rfl
      rw [l]
      exact hoist_tail sqrt fuel eyeVtx q.edgeStore.length rest H1 S3 s s (q.edgeStore.length + 1)
        (fun x hx => hv x (List.mem_cons_of_mem _ hx)) (by omega) (by omega) (by omega)
        (by omega) hn1 hc3

/-- The first fan built for `fanPoints`: the horizon is not empty, its
half-edges exist, and `addNewFaces` and the variant return the same hull. -/
theorem addNewFaces_closure_hoisted_witness :
    ∃ (q : Hull ℚ) (eyeVtx : Nat) (r : Hull ℚ), firstFan 20 = .ok (q, eyeVtx) ∧
      q.horizon ≠ [] ∧ (∀ he ∈ q.horizon, he < q.edgeStore.length) ∧
      addNewFaces Csg.ratSqrt 20 q eyeVtx q.horizon = .ok r ∧
      addNewFacesHoisted Csg.ratSqrt 20 q eyeVtx q.horizon = .ok r := by
  have hb : (match firstFan 20 with
      | .ok (q, e) =>
        decide (q.horizon ≠ []) && decide (∀ he ∈ q.horizon, he < q.edgeStore.length) &&
          (match addNewFaces Csg.ratSqrt 20 q e q.horizon with
            | .ok _ => true
            | _ => false)
      | _ => false) = true := by decide!
  split at hb
  · next q e hq =>
    simp only [Bool.and_eq_true, decide_eq_true_eq] at hb
    obtain ⟨⟨h1, h2⟩, h3⟩ := hb
    split at h3
    · next r hr =>
      exact ⟨q, e, r, hq, h1, h2, hr,
        (addNewFaces_closure_hoisted Csg.ratSqrt 20 q e q.horizon h1 h2) ▸ hr⟩
    · exact absurd h3 (by simp)
  · exact absurd hb (by simp)

end Hoist9

end Qhull
namespace Qhull

open Csg (Vector Err)

variable {K : Type} [LinearOrderedField K]

section Size1

end Size1

end Qhull

namespace Qhull

open Csg (Vector Err)

variable {K : Type} [LinearOrderedField K]

section Size2

end Size2

end Qhull

namespace Qhull

open Csg (Vector Err)

variable {K : Type} [LinearOrderedField K]

section Size3

end Size3

end Qhull

namespace Qhull

open Csg (Vector Err)

variable {K : Type} [LinearOrderedField K]

section Indices1

end Indices1

end Qhull

namespace Qhull

open Csg (Vector Err)

variable {K : Type} [LinearOrderedField K]

section Indices2

end Indices2

end Qhull

namespace Qhull

open Csg (Vector Err)

variable {K : Type} [LinearOrderedField K]

section Indices3

end Indices3

end Qhull

namespace Qhull

open Csg (Vector Err)

variable {K : Type} [LinearOrderedField K]

section Indices4

end Indices4

end Qhull

